import Mathlib

/-! VC-PWQ: a shallow embedding of the bit-exact coding pipeline.

Bit streams (`std::vector<char>` holding only the values 0 and 1) are lists of
`Bool`; `true` is the bit 1.  C++ `int` values that the code keeps non-negative
are `Nat`, signed coefficients are `Int`.  A call that can leave the range of a
vector (`.at()` throwing, an `erase` past the end) returns `none`.
-/

namespace VC_PWQ

/-! ## constants.hpp -/

def BL_0 : Nat := 32
def BL_1 : Nat := 64
def BL_2 : Nat := 128
def BL_3 : Nat := 256
def BL_4 : Nat := 512

def LENGTHBITS_0 : Nat := 10
def LENGTHBITS_1 : Nat := 11
def LENGTHBITS_2 : Nat := 12
def LENGTHBITS_3 : Nat := 13
def LENGTHBITS_4 : Nat := 14

def RANGE_MAX : Nat := 1024
def HALF : Nat := 512
def FIRST_QTR : Nat := 256
def THIRD_QTR : Nat := 768
def CONTEXTS : Nat := 7
def RESET : Nat := 16
def RESIZE : Nat := 32

def MAXALLOCBITS_SIZE : Nat := 4
def WAVMAXLENGTH : Nat := 8
def CONTEXT_SIDE : Nat := 0
def CONTEXT_SIGN : Nat := 1
def CONTEXT_SIGNIFICANCE_0 : Nat := 2
def CONTEXT_SIGNIFICANCE_1 : Nat := 3
def CONTEXT_SIGNIFICANCE_2 : Nat := 4
def CONTEXT_SIGNIFICANCE_3 : Nat := 5
def CONTEXT_REFINEMENT : Nat := 6

def MIN_SIZE : Nat := 8
def MAX_BITS : Nat := 15

/-- Loop of `ilog2`: halve while at least 2, counting the halvings. -/
def ilog2Aux : Nat → Nat → Nat
  | 0, _ => 0
  | fuel + 1, n => if n < 2 then 0 else 1 + ilog2Aux fuel (n / 2)

/-- `(int)log2((double)n)` for a positive `n`: the floor of the binary
logarithm (exact on the powers of two the code passes). -/
def ilog2 (n : Nat) : Nat := ilog2Aux n n

/-! ## Utilities.cpp: integer to bits and back -/

/-- `de2bi(val, outstream, length)`: `length` times, push `val % 2` and shift
`val` right by one. -/
def de2bi (val : Nat) (outstream : List Bool) : Nat → List Bool
  | 0 => outstream
  | n + 1 => de2bi (val >>> 1) (outstream ++ [decide (val % 2 = 1)]) n

/-- `bi2de(pointer, length, pos)`: the sum of `pointer->at(pos + i) << i` for
`i < length`; `none` when `.at` leaves the vector. -/
def bi2de (pointer : List Bool) (length pos : Nat) : Option Nat :=
  (List.range length).foldlM
    (fun val i => pointer[pos + i]?.map (fun b => val + (b.toNat <<< i))) 0

/-- `bi2de(data)` on a vector of ints holding bits: the sum of `v << i`. -/
def bi2deVec (data : List Bool) : Nat :=
  ((data.foldl (fun (acc : Nat × Nat) v => (acc.1 + (v.toNat <<< acc.2), acc.2 + 1)) (0, 0))).1

/-! ## Encoder.cpp / Decoder.cpp: block-length code and length field -/

/-- `Encoder::headerEncoding`: the `switch (bl)` that pushes the block-length
code; any other `bl` pushes nothing. -/
def headerEncoding (bl : Nat) (bitstream : List Bool) : List Bool :=
  if bl = BL_0 then bitstream ++ [true]
  else if bl = BL_1 then bitstream ++ [false, true]
  else if bl = BL_2 then bitstream ++ [false, false, true]
  else if bl = BL_3 then bitstream ++ [false, false, false, false]
  else if bl = BL_4 then bitstream ++ [false, false, false, true]
  else bitstream

/-- What `Decoder::headerDecoding` sets in the decoder object, and what is left
of the bit stream. -/
structure HeaderResult where
  bl : Nat
  dwtlevel : Nat
  lengthbits : Nat
  rest : List Bool
  deriving DecidableEq, Repr

/-- `Decoder::headerDecoding`: nested tests of `bitstream.at(0..3)`, then
`dwtlevel = (int)log2(bl) - 2` and the erase of the `start` bits read. -/
def headerDecoding (bitstream : List Bool) : Option HeaderResult :=
  match bitstream[0]? with
  | none => none
  | some true => some ⟨BL_0, ilog2 BL_0 - 2, LENGTHBITS_0, bitstream.drop 1⟩
  | some false =>
    match bitstream[1]? with
    | none => none
    | some true => some ⟨BL_1, ilog2 BL_1 - 2, LENGTHBITS_1, bitstream.drop 2⟩
    | some false =>
      match bitstream[2]? with
      | none => none
      | some true => some ⟨BL_2, ilog2 BL_2 - 2, LENGTHBITS_2, bitstream.drop 3⟩
      | some false =>
        match bitstream[3]? with
        | none => none
        | some false => some ⟨BL_3, ilog2 BL_3 - 2, LENGTHBITS_3, bitstream.drop 4⟩
        | some true => some ⟨BL_4, ilog2 BL_4 - 2, LENGTHBITS_4, bitstream.drop 4⟩

/-- The `lengthbits` the `Encoder` constructor picks for `bl`. -/
def encoderLengthbits (bl : Nat) : Nat :=
  if bl = BL_4 then LENGTHBITS_4
  else if bl = BL_3 then LENGTHBITS_3
  else if bl = BL_2 then LENGTHBITS_2
  else if bl = BL_1 then LENGTHBITS_1
  else if bl = BL_0 then LENGTHBITS_0
  else LENGTHBITS_4

/-- `Encoder::lengthEncoding`: truncate `blockstream` to `2^lengthbits - 1`
bits when longer, then append the length to `outstream` with `de2bi`.  Returns
the new `outstream` and the (possibly resized) `blockstream`. -/
def lengthEncoding (lengthbits : Nat) (outstream blockstream : List Bool) :
    List Bool × List Bool :=
  let segmentlength := blockstream.length
  let max_size := 2 ^ lengthbits - 1
  if segmentlength > max_size then
    (de2bi max_size outstream lengthbits, blockstream.take max_size)
  else
    (de2bi segmentlength outstream lengthbits, blockstream)

/-- `Decoder::lengthDecoding`: `bi2de` of the first `lengthbits` bits, which are
then erased. -/
def lengthDecoding (lengthbits : Nat) (bitstream : List Bool) : Option (Nat × List Bool) :=
  (bi2de bitstream lengthbits 0).map (fun segmentlength => (segmentlength, bitstream.drop lengthbits))

/-! ## ArithEnc.cpp / ArithDec.cpp: the context-adaptive binary range coder

The seven counters are two lists (`std::array<int, CONTEXTS>`).  The range
variables and `in_leading` are C++ `int`s and stay far below `2^31` (at most
`2 * RANGE_MAX` in absolute value times small factors), so they are `Int`
without wrap-around. -/

/-- The members `counter` and `counter_total` of `ArithEnc` and `ArithDec`. -/
structure Counters where
  counter : List Nat
  counter_total : List Nat
  deriving DecidableEq, Repr

/-- `resetCounter`: every context gets `(RESET / 2, RESET)`. -/
def resetCounter : Counters :=
  ⟨List.replicate CONTEXTS (RESET / 2), List.replicate CONTEXTS RESET⟩

/-- `rescaleCounter`: `counter = (int)(counter / counter_total * RESIZE)`, set to
1 when that is 0, and `counter_total = RESIZE`.  The double quotient times 32 is
truncated; for the integers involved this is the integer quotient
`RESIZE * counter / counter_total`. -/
def rescaleCounter (k : Counters) : Counters :=
  ⟨List.zipWith (fun c t => if RESIZE * c / t = 0 then 1 else RESIZE * c / t)
      k.counter k.counter_total,
   k.counter_total.map (fun _ => RESIZE)⟩

/-- The counter update after a symbol of context `c`: `counter[c]++` for a 0,
`counter_total[c]++` always. -/
def updateCounter (k : Counters) (c : Nat) (symbol : Bool) : Counters :=
  ⟨if symbol then k.counter else k.counter.set c (k.counter.getD c 0 + 1),
   k.counter_total.set c (k.counter_total.getD c 0 + 1)⟩

/-- The split point inside the current range, shared by `ArithEnc::encode`
(`range_add`) and `ArithDec::decode` (`compare`):
`p = round(counter[c] / counter_total[c] * RANGE_MAX)` (half away from zero,
computed as `(2 * RANGE_MAX * counter + total) / (2 * total)`), then
`(int)(range_diff * p) / RANGE_MAX`, moved to 1 when 0 and to `range_diff - 1`
when equal to `range_diff`. -/
def rangeAdd (k : Counters) (c : Nat) (range_diff : Int) : Int :=
  let p : Nat := (2 * RANGE_MAX * k.counter.getD c 0 + k.counter_total.getD c 0)
                  / (2 * k.counter_total.getD c 0)
  let range_add : Int := range_diff * (p : Int) / (RANGE_MAX : Int)
  if range_add = 0 then 1
  else if range_add = range_diff then range_diff - 1
  else range_add

/-- The loop variables of `ArithEnc::encode` together with the output and the
counters. -/
structure EncState where
  range_lower : Int
  range_upper : Int
  bits_to_follow : Nat
  outstream : List Bool
  cnt : Counters
  deriving DecidableEq, Repr

/-- The `while (true)` loop of `ArithEnc::encode` that rescales the range and
emits bits; `fuel` bounds the number of iterations (11 are enough for every
range inside `[0, RANGE_MAX]`, see `encRenorm_exits`). -/
def encRenorm : Nat → EncState → EncState
  | 0, st => st
  | fuel + 1, st =>
    if st.range_upper ≤ HALF then
      encRenorm fuel { st with
        outstream := st.outstream ++ false :: List.replicate st.bits_to_follow true
        bits_to_follow := 0
        range_lower := st.range_lower * 2
        range_upper := st.range_upper * 2 }
    else if st.range_lower ≥ HALF then
      encRenorm fuel { st with
        outstream := st.outstream ++ true :: List.replicate st.bits_to_follow false
        bits_to_follow := 0
        range_lower := (st.range_lower - HALF) * 2
        range_upper := (st.range_upper - HALF) * 2 }
    else if st.range_lower ≥ FIRST_QTR ∧ st.range_upper ≤ THIRD_QTR then
      encRenorm fuel { st with
        bits_to_follow := st.bits_to_follow + 1
        range_lower := (st.range_lower - FIRST_QTR) * 2
        range_upper := (st.range_upper - FIRST_QTR) * 2 }
    else st

/-- Number of iterations granted to the rescaling loops. -/
def RENORM_FUEL : Nat := 11

/-- One iteration of the `for` loop of `ArithEnc::encode` for the symbol
`new_symbol` with context `c`. -/
def encodeSymbol (st : EncState) (new_symbol : Bool) (c : Nat) : EncState :=
  let range_diff := st.range_upper - st.range_lower
  let range_add := rangeAdd st.cnt c range_diff
  let st1 : EncState :=
    if new_symbol then { st with range_lower := st.range_lower + range_add }
    else { st with range_upper := st.range_lower + range_add }
  let st2 := encRenorm RENORM_FUEL st1
  { st2 with cnt := updateCounter st.cnt c new_symbol }

/-- The `for` loop of `ArithEnc::encode` over `instream`; `context->at(i)`
throws when the context vector is shorter and `counter.at(c)` throws for a
context outside `0..CONTEXTS-1`. -/
def encodeLoop : List Bool → List Nat → EncState → Option EncState
  | [], _, st => some st
  | _ :: _, [], _ => none
  | b :: bs, c :: cs, st =>
    if c < CONTEXTS then encodeLoop bs cs (encodeSymbol st b c) else none

/-- The final `while (range_lower > 0)` loop of `ArithEnc::encode`, started with
`val = HALF`; `fuel` bounds the iterations. -/
def encFlushLoop : Nat → Int → Int → Int → List Bool → List Bool
  | 0, _, _, _, out => out
  | fuel + 1, val, range_lower, range_upper, out =>
    if range_lower > 0 then
      if val < range_upper then
        encFlushLoop fuel (val / 2) (range_lower - val) (range_upper - val) (out ++ [true])
      else
        encFlushLoop fuel (val / 2) range_lower range_upper (out ++ [false])
    else out

/-- "Set remainder to output": a single 1 when `bits_to_follow > 0`, else the
loop `encFlushLoop`. -/
def encFlush (st : EncState) : List Bool :=
  if st.bits_to_follow > 0 then st.outstream ++ [true]
  else encFlushLoop RENORM_FUEL HALF st.range_lower st.range_upper st.outstream

/-- "Cut off unnecessary zeros at end": `index_end` walks down from the last
element while it reads 0.  Being a `size_t` it never fails `index_end >= 0`, so
on an output without any 1 (the empty one included) `at` is called out of range
and throws: `none`. -/
def cutTrailingZeros (out : List Bool) : Option (List Bool) :=
  if out.any id then some (out.reverse.dropWhile (fun b => !b)).reverse else none

/-- `ArithEnc::encode(instream, context, outstream)` from the counters `cnt`:
returns the new `outstream` and the new counters. -/
def ArithEnc_encode (cnt : Counters) (instream : List Bool) (context : List Nat)
    (outstream : List Bool) : Option (List Bool × Counters) :=
  match encodeLoop instream context ⟨0, RANGE_MAX, 0, outstream, cnt⟩ with
  | none => none
  | some st => (cutTrailingZeros (encFlush st)).map (fun o => (o, st.cnt))

/-- The members of `ArithDec`.  `rest` holds the bits `instream[in_index ..
max_index]` of the block that have not been read yet. -/
structure ArithDec where
  rest : List Bool
  range_diff : Int
  range_lower : Int
  range_upper : Int
  in_leading : Int
  cnt : Counters
  deriving DecidableEq, Repr

/-- The first loop of `initDecoding`: up to `DIGITS_START = 10` bits are added
to `in_leading` at the shifts 9, 8, ... -/
def readLeading : Nat → List Bool → Int → Int × List Bool
  | 0, bits, acc => (acc, bits)
  | _ + 1, [], acc => (acc, [])
  | shift + 1, b :: bits, acc => readLeading shift bits (acc + (b.toNat : Int) * 2 ^ shift)

/-- `ArithDec::initDecoding(instream, pos, length)` (with `length >= 1`, as at
its only call site): the block is `instream[pos .. pos + length - 1]`. -/
def initDecoding (cnt : Counters) (instream : List Bool) (pos length : Nat) : ArithDec :=
  let r := readLeading 10 ((instream.drop pos).take length) 0
  { rest := r.2, range_diff := RANGE_MAX, range_lower := 0, range_upper := RANGE_MAX,
    in_leading := r.1, cnt := cnt }

/-- Reading the next bit into `in_leading` inside the rescaling loop: the bit
at `in_index` while `in_index <= max_index`, else 0. -/
def pullBit (d : ArithDec) (shifted : Int) : ArithDec :=
  match d.rest with
  | [] => { d with in_leading := shifted }
  | b :: bs => { d with in_leading := shifted + (b.toNat : Int), rest := bs }

/-- The `while (true)` loop of `ArithDec::decode`. -/
def decRenorm : Nat → ArithDec → ArithDec
  | 0, d => d
  | fuel + 1, d =>
    if d.range_upper ≤ HALF then
      decRenorm fuel (pullBit { d with
        range_lower := d.range_lower * 2
        range_upper := d.range_upper * 2 } (d.in_leading * 2))
    else if d.range_lower ≥ HALF then
      decRenorm fuel (pullBit { d with
        range_lower := (d.range_lower - HALF) * 2
        range_upper := (d.range_upper - HALF) * 2 } ((d.in_leading - HALF) * 2))
    else if d.range_lower ≥ FIRST_QTR ∧ d.range_upper ≤ THIRD_QTR then
      decRenorm fuel (pullBit { d with
        range_lower := (d.range_lower - FIRST_QTR) * 2
        range_upper := (d.range_upper - FIRST_QTR) * 2 } ((d.in_leading - FIRST_QTR) * 2))
    else d

/-- `ArithDec::decode(context)`: the decoded bit and the new decoder state.
(`counter.at(context)` throws outside `0..CONTEXTS-1`; every caller passes one
of the seven context constants.) -/
def ArithDec_decode (d : ArithDec) (context : Nat) : Bool × ArithDec :=
  let compare := rangeAdd d.cnt context d.range_diff
  let value := d.in_leading - d.range_lower
  let s : Bool := !(decide (value < compare))
  let d1 : ArithDec :=
    if value < compare then { d with range_upper := d.range_lower + compare }
    else { d with range_lower := d.range_lower + compare }
  let d2 := decRenorm RENORM_FUEL d1
  (s, { d2 with range_diff := d2.range_upper - d2.range_lower,
                cnt := updateCounter d.cnt context s })

/-- Consecutive calls `decode(ctx[0]), decode(ctx[1]), ...`: the decoded bits in
order and the final decoder state. -/
def decodeSeq : List Nat → ArithDec → List Bool × ArithDec
  | [], d => ([], d)
  | c :: cs, d =>
    let r := ArithDec_decode d c
    let r2 := decodeSeq cs r.2
    (r.1 :: r2.1, r2.2)

/-- The binary fraction `0.b0 b1 b2 ...` denoted by a list of bits (an unread
tail of zeros does not change it). -/
def val : List Bool → ℚ
  | [] => 0
  | b :: bs => ((b.toNat : ℚ) + val bs) / 2

/-- The code value, on the scale of the current range, that the encoder's future
output `F` denotes when `k` opposite bits are still pending. -/
def pendingValue (k : Nat) (F : List Bool) : ℚ :=
  512 + 2 ^ k * (1024 * val F - 512)

/-- The range after the rescaling loop, as a function of the range before. -/
def renormRange : Nat → Int → Int → Int × Int
  | 0, lo, hi => (lo, hi)
  | fuel + 1, lo, hi =>
    if hi ≤ HALF then renormRange fuel (lo * 2) (hi * 2)
    else if lo ≥ HALF then renormRange fuel ((lo - HALF) * 2) ((hi - HALF) * 2)
    else if lo ≥ FIRST_QTR ∧ hi ≤ THIRD_QTR then
      renormRange fuel ((lo - FIRST_QTR) * 2) ((hi - FIRST_QTR) * 2)
    else (lo, hi)

/-- The affine map the rescaling loop applies to a code value lying in the
range. -/
def renormMap : Nat → Int → Int → ℚ → ℚ
  | 0, _, _, x => x
  | fuel + 1, lo, hi, x =>
    if hi ≤ HALF then renormMap fuel (lo * 2) (hi * 2) (x * 2)
    else if lo ≥ HALF then renormMap fuel ((lo - HALF) * 2) ((hi - HALF) * 2) ((x - 512) * 2)
    else if lo ≥ FIRST_QTR ∧ hi ≤ THIRD_QTR then
      renormMap fuel ((lo - FIRST_QTR) * 2) ((hi - FIRST_QTR) * 2) ((x - 256) * 2)
    else x

/-- A range inside `[0, RANGE_MAX]` with at least one value. -/
def InRange (lo hi : Int) : Prop := 0 ≤ lo ∧ lo < hi ∧ hi ≤ 1024

/-- None of the three rescaling conditions applies: the loop has left by
`break`. -/
def Normalized (lo hi : Int) : Prop :=
  ¬ hi ≤ HALF ∧ ¬ lo ≥ HALF ∧ ¬ (lo ≥ FIRST_QTR ∧ hi ≤ THIRD_QTR)

/-- The counter invariant of the data model: seven contexts, each with
`0 < counter < counter_total`. -/
def CountersOK (k : Counters) : Prop :=
  k.counter.length = CONTEXTS ∧ k.counter_total.length = CONTEXTS ∧
  ∀ c, c < CONTEXTS → 0 < k.counter.getD c 0 ∧ k.counter.getD c 0 < k.counter_total.getD c 0

/-- The range after the symbol `b` has been applied with split point `add`,
before rescaling. -/
def splitRange (lo hi add : Int) (b : Bool) : Int × Int :=
  if b then (lo + add, hi) else (lo, lo + add)

/-- The decoder state `d` mirrors the encoder state `st` that still has the
symbols `s` (contexts `ctx`) to encode: same range, same counters, and the code
value the decoder holds is the one the encoder's remaining output denotes. -/
def Sync (st : EncState) (s : List Bool) (ctx : List Nat) (d : ArithDec) : Prop :=
  InRange st.range_lower st.range_upper ∧ Normalized st.range_lower st.range_upper ∧
  CountersOK st.cnt ∧
  d.range_lower = st.range_lower ∧ d.range_upper = st.range_upper ∧
  d.range_diff = st.range_upper - st.range_lower ∧ d.cnt = st.cnt ∧
  ∃ (stF : EncState) (F : List Bool), encodeLoop s ctx st = some stF ∧
    encFlush stF = st.outstream ++ F ∧
    (d.in_leading : ℚ) + val d.rest = pendingValue st.bits_to_follow F

/-- The code value the decoder holds: `in_leading` followed by the unread bits
of the block as binary fraction. -/
def decValue (d : ArithDec) : ℚ := (d.in_leading : ℚ) + val d.rest

/-! ## Wavelet.cpp: lifting DWT and its inverse, in exact arithmetic

The samples live in an ordered field `K` (the reals of the specification; the
rationals for evaluation).  Block lengths are powers of two, so the working
length `n` is even at every level; the model is written for that case. -/

/-- The lifting coefficient `h1` of Wavelet.hpp. -/
def h1 {K : Type} [LinearOrderedField K] : K := -1.5861343420693648
/-- The lifting coefficient `h2` of Wavelet.hpp. -/
def h2 {K : Type} [LinearOrderedField K] : K := -0.0529801185718856
/-- The lifting coefficient `h3` of Wavelet.hpp. -/
def h3 {K : Type} [LinearOrderedField K] : K := 0.8829110755411875
/-- The lifting coefficient `h4` of Wavelet.hpp. -/
def h4 {K : Type} [LinearOrderedField K] : K := 0.4435068520511142
/-- The constant `scaleFactor` of Wavelet.hpp. -/
def scaleFactor {K : Type} [LinearOrderedField K] : K := 1.1496043988602418

/-- `std::transform(a.begin(), a.end(), out.begin(), out.begin(), +)`: add
`a[i]` to `out[i]` for every `i < a.size()`; the rest of `out` is untouched. -/
def addInto {K : Type} [LinearOrderedField K] : List K → List K → List K
  | x :: xs, y :: ys => (y + x) :: addInto xs ys
  | _, out => out

/-- `out[0] = out[0] + x`. -/
def addHead {K : Type} [LinearOrderedField K] (x : K) : List K → List K
  | [] => []
  | y :: ys => (y + x) :: ys

/-- The transform that starts at `out.begin() + 1`: add `a[i]` to `out[i + 1]`. -/
def addIntoTail {K : Type} [LinearOrderedField K] (a : List K) : List K → List K
  | [] => []
  | y :: ys => y :: addInto a ys

/-- `out[e] = out[e] + x`. -/
def addAt {K : Type} [LinearOrderedField K] (e : Nat) (x : K) (out : List K) : List K :=
  out.modify (fun v => v + x) e

/-- `filter(in, out, h)`: `in` is scaled by `h`, added to `out`, added once more
shifted by one place to the right, and once more at index 0. -/
def filter {K : Type} [LinearOrderedField K] (inp out : List K) (h : K) : List K :=
  let a := inp.map (fun v => v * h)
  addHead (a.headD 0) (addIntoTail a.dropLast (addInto a out))

/-- `filter_shift(in, out, h)`: `in` is scaled by `h`; its elements from index 1
on are added to `out` from index 0 on, its last element is added at the last
index, its elements from index 1 on are added in place, and its first element at
index 0. -/
def filter_shift {K : Type} [LinearOrderedField K] (inp out : List K) (h : K) : List K :=
  let a := inp.map (fun v => v * h)
  addHead (a.headD 0)
    (addIntoTail a.tail (addAt (a.length - 1) (a.getLastD 0) (addInto a.tail out)))

/-- The elements at the even positions (`it = begin; it += 2`). -/
def evens {K : Type} [LinearOrderedField K] : List K → List K
  | [] => []
  | [x] => [x]
  | x :: _ :: rest => x :: evens rest

/-- The elements at the odd positions (`it = begin + 1; it += 2`). -/
def odds {K : Type} [LinearOrderedField K] : List K → List K
  | [] => []
  | [_] => []
  | _ :: y :: rest => y :: odds rest

/-- Writing `X0` to the even and `X1` to the odd positions. -/
def interleave {K : Type} [LinearOrderedField K] : List K → List K → List K
  | x :: xs, y :: ys => x :: y :: interleave xs ys
  | _, _ => []

/-- One level of `DWT` on the first `n` samples of `inp` (`n` even). -/
def dwtLevel {K : Type} [LinearOrderedField K] (n : Nat) (inp : List K) : List K :=
  let X0 := evens (inp.take n)
  let X1 := odds (inp.take n)
  let X1 := filter_shift X0 X1 h1
  let X0 := filter X1 X0 h2
  let X1 := filter_shift X0 X1 h3
  let X0 := filter X1 X0 h4
  X0.map (fun v => v * scaleFactor) ++ X1.map (fun v => -v / scaleFactor) ++ inp.drop n

/-- The `for (k = 1; k <= level; k++)` loop of `DWT`; `n` is halved after every
level. -/
def dwtLoop {K : Type} [LinearOrderedField K] : Nat → Nat → List K → List K
  | 0, _, inp => inp
  | k + 1, n, inp => dwtLoop k (n / 2) (dwtLevel n inp)

/-- `DWT(in, level)`. -/
def DWT {K : Type} [LinearOrderedField K] (inp : List K) (level : Nat) : List K := dwtLoop level inp.length inp

/-- One level of `inv_DWT` on the first `n` samples of `inp` (`n` even). -/
def invLevel {K : Type} [LinearOrderedField K] (n : Nat) (inp : List K) : List K :=
  let n_half := n / 2
  let X0 := (inp.take n_half).map (fun v => v / scaleFactor)
  let X1 := ((inp.drop n_half).take (n - n_half)).map (fun v => -v * scaleFactor)
  let X0 := filter X1 X0 (-h4)
  let X1 := filter_shift X0 X1 (-h3)
  let X0 := filter X1 X0 (-h2)
  let X1 := filter_shift X0 X1 (-h1)
  interleave X0 X1 ++ inp.drop n

/-- The loop of `inv_DWT`; `n` is doubled after every level. -/
def invLoop {K : Type} [LinearOrderedField K] : Nat → Nat → List K → List K
  | 0, _, inp => inp
  | k + 1, n, inp => invLoop k (n * 2) (invLevel n inp)

/-- `inv_DWT(in, level)`: the loop starts with
`n = (int)(in.size() * pow(2, 1 - level))`. -/
def inv_DWT {K : Type} [LinearOrderedField K] (inp : List K) (level : Nat) : List K :=
  invLoop level (if level = 0 then inp.length * 2 else inp.length / 2 ^ (level - 1)) inp

/-! ## SPIHT_Enc.cpp / SPIHT_Dec.cpp: the 1-D SPIHT coder

Coefficients are `Int`; their absolute values, the bit-plane threshold
`compare = 1 << n` and the max-descendant tables are `Nat`.  `operator[]`
accesses are unchecked in the source; the model reads 0 and writes nothing
outside a vector, which does not happen for the block lengths of the codec. -/

/-- The struct `pixel` of types.hpp: an entry of the LIS; `type` 0 is a type-A
set (all descendants), `type` 1 a type-B set (grandchildren onward). -/
structure pixel where
  index : Nat
  type : Nat
  deriving DecidableEq, Repr

/-- `bitget(in, bit)`: 1 when `in & (1 << (bit - 1))` is positive. -/
def bitget (inp bit : Nat) : Bool := inp.testBit (bit - 1)

/-- `sgn(int)`: `(0 < val) - (val < 0)`. -/
def sgn (v : Int) : Int := (if 0 < v then 1 else 0) - (if v < 0 then 1 else 0)

/-- The members `maxDescendants` and `maxDescendants1` of `SPIHT_Enc`. -/
structure MaxDesc where
  maxDescendants : List Nat
  maxDescendants1 : List Nat
  deriving DecidableEq, Repr

/-- The first loop of `initMaxDescendant`: for `i < start / 2` the entry
`start / 2 + i` becomes the larger of `|signal[start + 2i]|` and
`|signal[start + 2i + 1]|`. -/
def initMaxLeaves (signal : List Int) (start : Nat) (md : List Nat) : List Nat :=
  (List.range (start >>> 1)).foldl (fun md i =>
    let v1 := (signal.getD (start + 2 * i) 0).natAbs
    let v2 := (signal.getD (start + 2 * i + 1) 0).natAbs
    md.set ((start >>> 1) + i) (if v1 > v2 then v1 else v2)) md

/-- The `for` loop inside the `while` of `initMaxDescendant` for one `width`:
`p1 = width + 2i`, `p2 = p1 + 1`, `target = width / 2 + i`. -/
def initMaxLevel (signal : List Int) (width : Nat) (m : MaxDesc) : MaxDesc :=
  (List.range (width >>> 1)).foldl (fun m i =>
    let p1 := width + 2 * i
    let p2 := p1 + 1
    let target := (width >>> 1) + i
    let v1 := m.maxDescendants.getD p1 0
    let v2 := m.maxDescendants.getD p2 0
    let d1 := if v1 > v2 then v1 else v2
    let a1 := (signal.getD p1 0).natAbs
    let t := if a1 > d1 then a1 else d1
    let a2 := (signal.getD p2 0).natAbs
    let t2 := if a2 > t then a2 else t
    { maxDescendants := m.maxDescendants.set target t2,
      maxDescendants1 := m.maxDescendants1.set target d1 }) m

/-- The `while (target > 1)` loop of `initMaxDescendant` (`target = width >> 1`);
`width` is halved every round, so `fuel >= width` rounds are never used up. -/
def initMaxLevels (signal : List Int) : Nat → Nat → MaxDesc → MaxDesc
  | 0, _, m => m
  | fuel + 1, width, m =>
    if (width >>> 1) > 1 then
      initMaxLevels signal fuel (width >>> 1) (initMaxLevel signal width m)
    else m

/-- `SPIHT_Enc::initMaxDescendant(signal)`; the two vectors are zero where the
function does not write (they are value-initialised by the first `resize`). -/
def initMaxDescendant (signal : List Int) : MaxDesc :=
  let start := signal.length >>> 1
  let md := initMaxLeaves signal start (List.replicate start 0)
  initMaxLevels signal (start >>> 1) (start >>> 1) ⟨md, List.replicate (start >>> 1) 0⟩

/-- `SPIHT_Enc::maxDescendant(p)`. -/
def maxDescendant (m : MaxDesc) (p : pixel) : Nat :=
  if p.type = 1 then m.maxDescendants1.getD p.index 0 else m.maxDescendants.getD p.index 0

/-- The three lists of SPIHT and the two output streams of the encoder. -/
structure SpihtEnc where
  LIP : List Nat
  LSP : List Nat
  LIS : List pixel
  outstream : List Bool
  context : List Nat
  deriving DecidableEq, Repr

/-- The loop over the LIP in `SPIHT_Enc::sortingPass`; the first argument is the
part of the LIP not yet visited, `st.LIP` the entries kept so far. -/
def encSortLIP (data : List Int) (compare : Nat) : List Nat → SpihtEnc → SpihtEnc
  | [], st => st
  | i :: rest, st =>
    if (data.getD i 0).natAbs ≥ compare then
      encSortLIP data compare rest { st with
        outstream := st.outstream ++ [true, decide (data.getD i 0 ≥ 0)]
        context := st.context ++ [CONTEXT_SIGNIFICANCE_0, CONTEXT_SIGN]
        LSP := st.LSP ++ [i] }
    else
      encSortLIP data compare rest { st with
        outstream := st.outstream ++ [false]
        context := st.context ++ [CONTEXT_SIGNIFICANCE_0]
        LIP := st.LIP ++ [i] }

/-- The test of one child `index` of a significant type-A set in the encoder. -/
def encChild (data : List Int) (compare : Nat) (index : Nat) (st : SpihtEnc) : SpihtEnc :=
  if (data.getD index 0).natAbs ≥ compare then
    { st with
      LSP := st.LSP ++ [index]
      outstream := st.outstream ++ [true, decide (data.getD index 0 ≥ 0)]
      context := st.context ++ [CONTEXT_SIGNIFICANCE_2, CONTEXT_SIGN] }
  else
    { st with
      outstream := st.outstream ++ [false]
      context := st.context ++ [CONTEXT_SIGNIFICANCE_2]
      LIP := st.LIP ++ [index] }

/-- The loop over the LIS in `SPIHT_Enc::sortingPass`.  The second argument is
the list from the iterator `it1` to the end (entries pushed during the loop are
appended to it and visited in the same pass); `st.LIS` holds the entries already
visited and kept.  `none` when `fuel` iterations were not enough. -/
def encSortLIS (data : List Int) (m : MaxDesc) (compare : Nat) :
    Nat → List pixel → SpihtEnc → Option SpihtEnc
  | _, [], st => some st
  | 0, _ :: _, _ => none
  | fuel + 1, p :: rest, st =>
    if p.type = 0 then
      if maxDescendant m p ≥ compare then
        let y := p.index
        let st1 := { st with outstream := st.outstream ++ [true]
                             context := st.context ++ [CONTEXT_SIGNIFICANCE_1] }
        let st2 := encChild data compare (2 * y) st1
        let st3 := encChild data compare (2 * y + 1) st2
        if 4 * y + 3 < data.length then
          encSortLIS data m compare fuel (rest ++ [⟨y, 1⟩]) st3
        else
          encSortLIS data m compare fuel rest st3
      else
        encSortLIS data m compare fuel rest { st with
          outstream := st.outstream ++ [false]
          context := st.context ++ [CONTEXT_SIGNIFICANCE_1]
          LIS := st.LIS ++ [p] }
    else
      if maxDescendant m p ≥ compare then
        let y := p.index
        encSortLIS data m compare fuel (rest ++ [⟨2 * y, 0⟩, ⟨2 * y + 1, 0⟩]) { st with
          outstream := st.outstream ++ [true]
          context := st.context ++ [CONTEXT_SIGNIFICANCE_3] }
      else
        encSortLIS data m compare fuel rest { st with
          outstream := st.outstream ++ [false]
          context := st.context ++ [CONTEXT_SIGNIFICANCE_3]
          LIS := st.LIS ++ [p] }

/-- Iterations granted to the loop over the LIS of a block of `size`
coefficients (see `sortLIS_inv`). -/
def LIS_FUEL (size : Nat) : Nat := 2 * size

/-- `SPIHT_Enc::sortingPass`. -/
def encSortingPass (data : List Int) (m : MaxDesc) (compare : Nat) (st : SpihtEnc) :
    Option SpihtEnc :=
  let st1 := encSortLIP data compare st.LIP { st with LIP := [] }
  encSortLIS data m compare (LIS_FUEL data.length) st1.LIS { st1 with LIS := [] }

/-- `SPIHT_Enc::refinementPass`: for the first `LSP_idx` entries of the LSP the
bit `bitget(|data[i]|, n + 1)` is emitted with context REFINEMENT. -/
def encRefinementPass (data : List Int) (n : Nat) (LSP_idx : Nat) (st : SpihtEnc) : SpihtEnc :=
  { st with
    outstream := st.outstream ++ (st.LSP.take LSP_idx).map
      (fun i => bitget (data.getD i 0).natAbs (n + 1))
    context := st.context ++ (st.LSP.take LSP_idx).map (fun _ => CONTEXT_REFINEMENT) }

/-- The loop `while (0 <= n)` of `SPIHT_Enc::encode`, from bit-plane `n` down to
0. -/
def encPlanes (data : List Int) (m : MaxDesc) : Nat → SpihtEnc → Option SpihtEnc
  | n, st =>
    match encSortingPass data m (1 <<< n) st with
    | none => none
    | some st1 =>
      let st2 := encRefinementPass data n st.LSP.length st1
      match n with
      | 0 => some st2
      | k + 1 => encPlanes data m k st2

/-- The initial LIP `0 .. bandsize - 1`, LIS `(bandsize / 2 .. bandsize - 1,
type A)` and empty LSP, with `bandsize = 2 << (log2(size) - level)`. -/
def initLists (size level : Nat) : List Nat × List pixel :=
  let bandsize := 2 <<< (ilog2 size - level)
  (List.range bandsize,
   (List.range (bandsize - bandsize / 2)).map (fun i => ⟨bandsize / 2 + i, 0⟩))

/-- `SPIHT_Enc::encode(data, level, bitwavmax, maxallocbits, outstream,
context)`: returns the new `outstream` and `context`. -/
def SPIHT_Enc_encode (data : List Int) (level : Nat) (bitwavmax : List Bool)
    (maxallocbits : Nat) (outstream : List Bool) (context : List Nat) :
    Option (List Bool × List Nat) :=
  let maxallocbits := if maxallocbits > 2 ^ MAXALLOCBITS_SIZE - 1 then 15 else maxallocbits
  let outstream := de2bi maxallocbits outstream MAXALLOCBITS_SIZE ++ bitwavmax
  let context := context ++ List.replicate (MAXALLOCBITS_SIZE + bitwavmax.length) CONTEXT_SIDE
  let l := initLists data.length level
  let m := initMaxDescendant data
  (encPlanes data m maxallocbits ⟨l.1, [], l.2, outstream, context⟩).map
    (fun st => (st.outstream, st.context))

/-- The lists of the SPIHT decoder, the block `out` under reconstruction and the
arithmetic decoder it reads from. -/
structure SpihtDec where
  LIP : List Nat
  LSP : List Nat
  LIS : List pixel
  out : List Int
  arith : ArithDec
  deriving DecidableEq, Repr

/-- "`getBit(ctx) == 1`, then the sign with context SIGN": reads the sign bit and
sets `out[index]` to `compare` or `-compare`. -/
def decSetSign (compare : Nat) (index : Nat) (out : List Int) (d : ArithDec) :
    List Int × ArithDec :=
  let r := ArithDec_decode d CONTEXT_SIGN
  (out.set index (if r.1 then (compare : Int) else -(compare : Int)), r.2)

/-- The loop over the LIP in `SPIHT_Dec::sortingPass`. -/
def decSortLIP (compare : Nat) : List Nat → SpihtDec → SpihtDec
  | [], st => st
  | i :: rest, st =>
    let r := ArithDec_decode st.arith CONTEXT_SIGNIFICANCE_0
    if r.1 then
      let s := decSetSign compare i st.out r.2
      decSortLIP compare rest { st with out := s.1, arith := s.2, LSP := st.LSP ++ [i] }
    else
      decSortLIP compare rest { st with arith := r.2, LIP := st.LIP ++ [i] }

/-- The test of one child `index` of a significant type-A set in the decoder. -/
def decChild (compare : Nat) (index : Nat) (st : SpihtDec) : SpihtDec :=
  let r := ArithDec_decode st.arith CONTEXT_SIGNIFICANCE_2
  if r.1 then
    let s := decSetSign compare index st.out r.2
    { st with LSP := st.LSP ++ [index], out := s.1, arith := s.2 }
  else
    { st with arith := r.2, LIP := st.LIP ++ [index] }

/-- The loop over the LIS in `SPIHT_Dec::sortingPass`, organised as
`encSortLIS`. -/
def decSortLIS (compare : Nat) : Nat → List pixel → SpihtDec → Option SpihtDec
  | _, [], st => some st
  | 0, _ :: _, _ => none
  | fuel + 1, p :: rest, st =>
    if p.type = 0 then
      let r := ArithDec_decode st.arith CONTEXT_SIGNIFICANCE_1
      if r.1 then
        let y := p.index
        let st2 := decChild compare (2 * y) { st with arith := r.2 }
        let st3 := decChild compare (2 * y + 1) st2
        if 4 * y + 3 < st.out.length then
          decSortLIS compare fuel (rest ++ [⟨y, 1⟩]) st3
        else
          decSortLIS compare fuel rest st3
      else
        decSortLIS compare fuel rest { st with arith := r.2, LIS := st.LIS ++ [p] }
    else
      let r := ArithDec_decode st.arith CONTEXT_SIGNIFICANCE_3
      if r.1 then
        let y := p.index
        decSortLIS compare fuel (rest ++ [⟨2 * y, 0⟩, ⟨2 * y + 1, 0⟩]) { st with arith := r.2 }
      else
        decSortLIS compare fuel rest { st with arith := r.2, LIS := st.LIS ++ [p] }

/-- `SPIHT_Dec::sortingPass`. -/
def decSortingPass (compare : Nat) (st : SpihtDec) : Option SpihtDec :=
  let st1 := decSortLIP compare st.LIP { st with LIP := [] }
  decSortLIS compare (LIS_FUEL st.out.length) st1.LIS { st1 with LIS := [] }

/-- `SPIHT_Dec::refinementPass`: for the first `LSP_idx` entries of the LSP a bit
is read with context REFINEMENT; a 1 adds `sgn(out[i]) * compare` to `out[i]`. -/
def decRefinementPass (compare : Nat) : List Nat → List Int → ArithDec → List Int × ArithDec
  | [], out, d => (out, d)
  | i :: rest, out, d =>
    let r := ArithDec_decode d CONTEXT_REFINEMENT
    if r.1 then
      decRefinementPass compare rest
        (out.set i (out.getD i 0 + sgn (out.getD i 0) * (compare : Int))) r.2
    else
      decRefinementPass compare rest out r.2

/-- The loop `while (0 <= n)` of `SPIHT_Dec::decode`. -/
def decPlanes : Nat → SpihtDec → Option SpihtDec
  | n, st =>
    match decSortingPass (1 <<< n) st with
    | none => none
    | some st1 =>
      let r := decRefinementPass (1 <<< n) (st1.LSP.take st.LSP.length) st1.out st1.arith
      let st2 := { st1 with out := r.1, arith := r.2 }
      match n with
      | 0 => some st2
      | k + 1 => decPlanes k st2

/-- `SPIHT_Dec::getBits(out, context)`: `length` bits of one context. -/
def getBits (context : Nat) : Nat → ArithDec → List Bool × ArithDec
  | 0, d => ([], d)
  | k + 1, d =>
    let r := ArithDec_decode d context
    let r2 := getBits context k r.2
    (r.1 :: r2.1, r2.2)

/-- What `SPIHT_Dec::decode` hands back: the block `out`, `*wavmax`, `*n_real`
and the arithmetic decoder (counters rescaled). -/
structure SpihtDecResult (K : Type) where
  out : List Int
  wavmax : K
  n_real : Nat
  arith : ArithDec

/-- `SPIHT_Dec::decode(bitstream, pos, streamlength, out, origlength, level,
wavmax, n_real)`, the arithmetic decoder starting from the counters `cnt`.  The
first `origlength` entries of `out` are zeroed (`out` has `origlength` entries
at the call site). -/
def SPIHT_Dec_decode {K : Type} [LinearOrderedField K] (cnt : Counters)
    (bitstream : List Bool) (pos streamlength : Nat) (out : List Int)
    (origlength level : Nat) : Option (SpihtDecResult K) :=
  let d := initDecoding cnt bitstream pos streamlength
  let out := List.replicate origlength 0 ++ out.drop origlength
  let b := getBits CONTEXT_SIDE MAXALLOCBITS_SIZE d
  let maxallocbits := bi2deVec b.1
  let md := ArithDec_decode b.2 CONTEXT_SIDE
  let w := getBits CONTEXT_SIDE (WAVMAXLENGTH - 1) md.2
  let temp := bi2deVec w.1
  let wavmax : K := if md.1 then (temp : K) * (1 / 2 ^ 4) + 1 else (temp : K) * (1 / 2 ^ 7)
  let l := initLists origlength level
  (decPlanes maxallocbits ⟨l.1, [], l.2, out, w.2⟩).map (fun st =>
    { out := st.out, wavmax := wavmax, n_real := maxallocbits,
      arith := { st.arith with cnt := rescaleCounter st.arith.cnt } })

/-- Smallest depth of the descendants a LIS entry stands for: children for
type A, grandchildren for type B. -/
def minDepth (e : pixel) : Nat := if e.type = 0 then 1 else 2

/-- Index `i` belongs to the set of the LIS entry `e`: it is a descendant of
`e.index` (`i / 2^k = e.index`) at a depth `k >= minDepth e`. -/
def covers (e : pixel) (i : Nat) : Bool :=
  (List.range (i + 1)).any (fun k => decide (minDepth e ≤ k) && decide (i / 2 ^ k = e.index))

/-- Consecutive `decode` calls on `d` with the contexts `cs` return the bits
`bs` and leave the decoder in the state `e`. -/
def Feeds (e : ArithDec) : ArithDec → List Bool → List Nat → Prop
  | d, [], [] => d = e
  | d, b :: bs, c :: cs => (ArithDec_decode d c).1 = b ∧ Feeds e (ArithDec_decode d c).2 bs cs
  | _, _, _ => False

/-- What the decoder writes when the indices `new` become significant at the
threshold `compare`: `out[i] = compare` or `-compare` by the sign of
`data[i]`. -/
def applySig (data : List Int) (compare : Nat) (new : List Nat) (out : List Int) : List Int :=
  new.foldl (fun o i => o.set i (if data.getD i 0 ≥ 0 then (compare : Int) else -(compare : Int))) out

/-- What the decoder's refinement pass computes for the indices `old` when it
reads the bit `n` of `|data[i]|`. -/
def applyRef (data : List Int) (n : Nat) (old : List Nat) (out : List Int) : List Int :=
  old.foldl (fun o i =>
    if bitget (data.getD i 0).natAbs (n + 1)
    then o.set i (o.getD i 0 + sgn (o.getD i 0) * ((1 <<< n : Nat) : Int)) else o) out

/-- An entry the LIS can hold for a block of `size` coefficients: a node
`index >= 2` whose children (type A) or grandchildren (type B) exist. -/
def ValidEntry (size : Nat) (e : pixel) : Prop :=
  2 ≤ e.index ∧ ((e.type = 0 ∧ 2 * e.index + 1 < size) ∨ (e.type = 1 ∧ 4 * e.index + 3 < size))

/-- The tables of `initMaxDescendant` bound the coefficients of every set they
are asked about. -/
def MaxOK (data : List Int) (m : MaxDesc) : Prop :=
  ∀ e i, ValidEntry data.length e → i < data.length → covers e i = true →
    (data.getD i 0).natAbs ≤ maxDescendant m e

/-- Number of entries of a LIS whose set contains the index `i`. -/
def coverCount (l : List pixel) (i : Nat) : Nat := l.countP (fun e => covers e i)

/-- The three lists partition the indices of the block: every index below
`size` is in the LIP, in the LSP, or in the set of one LIS entry, exactly
once. -/
def PartInv (size : Nat) (LIP LSP : List Nat) (LIS : List pixel) : Prop :=
  (∀ i ∈ LIP, i < size) ∧ (∀ i ∈ LSP, i < size) ∧ (∀ e ∈ LIS, ValidEntry size e) ∧
  ∀ i, i < size → LIP.count i + LSP.count i + coverCount LIS i = 1

/-- Weight of a LIS entry: a bound on the iterations of the LIS loop that the
entry and everything it can spawn will take. -/
def lisWeight (size : Nat) (e : pixel) : ℚ :=
  2 * (size : ℚ) / (e.index : ℚ) - (if e.type = 0 then 2 else 3)

/-- Total weight of a list of LIS entries. -/
def lisWeightSum (size : Nat) (l : List pixel) : ℚ := (l.map (lisWeight size)).sum

/-- Invariant of the encoder's LIS loop at the threshold `compare`; `old` is
the LSP at the beginning of the sorting pass. -/
def LISInv (data : List Int) (compare : Nat) (old : List Nat) (pending : List pixel)
    (st : SpihtEnc) : Prop :=
  PartInv data.length st.LIP st.LSP (st.LIS ++ pending) ∧
  (∀ i ∈ st.LIP, (data.getD i 0).natAbs < compare) ∧
  (∀ e ∈ st.LIS, ∀ i, i < data.length → covers e i = true → (data.getD i 0).natAbs < compare) ∧
  ∃ new, st.LSP = old ++ new ∧ ∀ i ∈ new, compare ≤ (data.getD i 0).natAbs

/-- State of the encoder's lists between two bit planes, `T` being the
threshold of the plane just finished (or `2^(bitmax+1)` before the first):
the lists partition the indices, exactly the coefficients with `|c| >= T` are
in the LSP, and the LIS is light enough for the fuel of the next pass. -/
def PlaneInv (data : List Int) (T : Nat) (st : SpihtEnc) : Prop :=
  PartInv data.length st.LIP st.LSP st.LIS ∧
  (∀ i, i < data.length → i ∉ st.LSP → (data.getD i 0).natAbs < T) ∧
  (∀ i ∈ st.LSP, T ≤ (data.getD i 0).natAbs) ∧
  lisWeightSum data.length st.LIS ≤ (LIS_FUEL data.length : ℚ)

/-- The coefficient `c` with the bits of its magnitude below plane `n`
cleared. -/
def truncTo (c : Int) (n : Nat) : Int := sgn c * ((c.natAbs / 2 ^ n * 2 ^ n : Nat) : Int)

/-- The block under reconstruction after the planes above `n`: the significant
coefficients carry their bits from plane `n` upward, the others are 0. -/
def OutOK (data : List Int) (n : Nat) (LSP : List Nat) (out : List Int) : Prop :=
  out.length = data.length ∧
  ∀ i, i < data.length → out.getD i 0 = if i ∈ LSP then truncTo (data.getD i 0) n else 0

/-- Entry `t` of `maxDescendants` bounds every coefficient among the
descendants of `t`. -/
def GoodA (signal : List Int) (md : List Nat) (t : Nat) : Prop :=
  ∀ i, i < signal.length → covers ⟨t, 0⟩ i = true → (signal.getD i 0).natAbs ≤ md.getD t 0

/-- Entry `t` of `maxDescendants1` bounds every coefficient among the
descendants of the children of `t`. -/
def GoodB (signal : List Int) (md1 : List Nat) (t : Nat) : Prop :=
  ∀ i, i < signal.length → covers ⟨t, 1⟩ i = true → (signal.getD i 0).natAbs ≤ md1.getD t 0

/-- The tables are complete from index `w` on. -/
def MaxInv (signal : List Int) (q w : Nat) (m : MaxDesc) : Prop :=
  m.maxDescendants.length = 2 * q ∧ m.maxDescendants1.length = q ∧
  (∀ t, w ≤ t → t < 2 * q → GoodA signal m.maxDescendants t) ∧
  (∀ t, w ≤ t → t < q → GoodB signal m.maxDescendants1 t)

/-- One iteration of the loop of `initMaxLevel`. -/
def levelStep (signal : List Int) (width : Nat) (m : MaxDesc) (i : Nat) : MaxDesc :=
  let p1 := width + 2 * i
  let p2 := p1 + 1
  let target := (width >>> 1) + i
  let v1 := m.maxDescendants.getD p1 0
  let v2 := m.maxDescendants.getD p2 0
  let d1 := if v1 > v2 then v1 else v2
  let a1 := (signal.getD p1 0).natAbs
  let t := if a1 > d1 then a1 else d1
  let a2 := (signal.getD p2 0).natAbs
  let t2 := if a2 > t then a2 else t
  { maxDescendants := m.maxDescendants.set target t2,
    maxDescendants1 := m.maxDescendants1.set target d1 }

/-- The two streams of the encoder run in parallel and hold only the seven
context numbers. -/
def StreamsOK (st : SpihtEnc) : Prop :=
  st.context.length = st.outstream.length ∧ ∀ c ∈ st.context, c < CONTEXTS

/-- The number a list of bits denotes, least-significant bit first. -/
def bitsVal : List Bool → Nat
  | [] => 0
  | b :: l => b.toNat + 2 * bitsVal l

/-! ## Utilities.cpp: quantisers and searches

`double` values are elements of an ordered field `K` with a floor function
(exact arithmetic).  A quotient by 0 and the logarithm leave the field: the
`SNR` and `MNR` vectors hold `XReal` values. -/

def INTEGERPART_0 : Nat := 0
def FRACTIONPART_0 : Nat := 7
def INTEGERPART_1 : Nat := 3
def FRACTIONPART_1 : Nat := 4
def FS_0 : Nat := 8000
def FS_1 : Nat := 2800
def FS_2 : Nat := 2500

/-- The value a 32-bit `int` keeps of the integer `v` (two's complement). -/
def wrapInt32 (v : Int) : Int := (v + 2 ^ 31) % 2 ^ 32 - 2 ^ 31

/-- The shift `a << bits` of 32-bit `int`s as the machine computes it: the shift
count is taken modulo 32 and the result keeps 32 bits.  `1 << bits` is
`2 ^ bits` up to `bits = 30`, `-2^31` for `bits = 31` and `1 << (bits - 32)`
from 32 on. -/
def shlInt (a : Int) (bits : Nat) : Int := wrapInt32 (a * 2 ^ (bits % 32))

/-- The constant `HALF_QUANT = 0.5` of Utilities.hpp. -/
def HALF_QUANT {K : Type} [LinearOrderedField K] : K := 1 / 2

/-- `sgn(double val)`: `(0 < val) - (val < 0)`. -/
def sgn_double {K : Type} [LinearOrderedField K] (v : K) : K :=
  (if 0 < v then 1 else 0) - (if v < 0 then 1 else 0)

/-- The body of the loop of `uniformQuant` (and the whole of its scalar
overload): one sample `x` quantised with `bits` bits below `max`.  The two
expressions `1 << bits` and `(1 << bits) - 1` are computed in `int` and then
converted. -/
def uniformQuantValue {K : Type} [LinearOrderedField K] [FloorRing K] (x max : K) (bits : Nat) : K :=
  let delta := max / ((shlInt 1 bits : Int) : K)
  let max_q := delta * ((wrapInt32 (shlInt 1 bits - 1) : Int) : K)
  let sign := sgn_double x
  let q := sign * delta * ((⌊|x| / delta + HALF_QUANT⌋ : Int) : K)
  if |q| > max_q then sign * max_q else q

/-- `uniformQuant(in, out, start, length, max, bits)`: `out[i]` is rewritten for
`start <= i < start + length`. -/
def uniformQuant {K : Type} [LinearOrderedField K] [FloorRing K] (inp out : List K)
    (start length : Nat) (max : K) (bits : Nat) : List K :=
  (List.range length).foldl
    (fun o j => o.set (start + j) (uniformQuantValue (inp.getD (start + j) 0) max bits)) out

/-- `maxQuant(in, b1, b2)`. -/
def maxQuant {K : Type} [LinearOrderedField K] [FloorRing K] (inp : K) (b1 b2 : Nat) : K :=
  let max := (((1 <<< (b1 + b2) : Nat) : K) - 1) / ((1 <<< b2 : Nat) : K)
  let q := if inp ≥ max then sgn_double inp * max * (999 / 1000) else inp
  let delta : K := 1 / 2 ^ b2
  ((⌈|q| / delta⌉ : Int) : K) * delta

/-- `findMax(std::vector<double>&)`: the largest `|d|`, 0 for no data. -/
def findMax {K : Type} [LinearOrderedField K] (data : List K) : K :=
  data.foldl (fun max d => if |d| > max then |d| else max) 0

/-- `findMax(std::vector<int>&)` on non-negative entries. -/
def findMaxInt (data : List Nat) : Nat :=
  data.foldl (fun max d => if d > max then d else max) 0

/-- A `double` that may have left the field: the quotient by zero and the
logarithm of 0 give infinities, `0 / 0` and the logarithm of a negative number
give NaN. -/
inductive XReal (K : Type) where
  | fin (x : K)
  | posInf
  | negInf
  | nan
  deriving DecidableEq, Repr

/-- `a < b` on doubles: false as soon as one side is NaN. -/
def XReal.lt {K : Type} [LinearOrderedField K] : XReal K → XReal K → Bool
  | .fin a, .fin b => decide (a < b)
  | .fin _, .posInf => true
  | .negInf, .fin _ => true
  | .negInf, .posInf => true
  | _, _ => false

/-- `findMinInd(std::vector<double>&)`: the first index of a value below all
earlier ones, starting from `data[0]` at index 0. -/
def findMinInd {K : Type} [LinearOrderedField K] (data : List (XReal K)) : Nat :=
  ((List.range data.length).foldl
    (fun (acc : XReal K × Nat) i =>
      if (data.getD i .nan).lt acc.1 then (data.getD i .nan, i) else acc)
    (data.getD 0 .nan, 0)).2

/-- `checkZeros(sig, length)`: no `|sig[i]|` above `1e-10`. -/
def checkZeros {K : Type} [LinearOrderedField K] (sig : List K) (length : Nat) : Bool :=
  (List.range length).all (fun i => !decide (|sig.getD i 0| > 1 / 10 ^ 10))

/-- C `round`: to the nearest integer, halves away from zero. -/
def cround {K : Type} [LinearOrderedField K] [FloorRing K] (x : K) : Int :=
  if 0 ≤ x then ⌊x + 1 / 2⌋ else -⌊-x + 1 / 2⌋

/-- Loop of `clog2`. -/
def clog2Aux : Nat → Nat → Nat → Nat
  | 0, _, k => k
  | fuel + 1, n, k => if 2 ^ k ≥ n then k else clog2Aux fuel n (k + 1)

/-- `ceil(log2(n))` for a positive `n`: the least `k` with `n <= 2^k`. -/
def clog2 (n : Nat) : Nat := clog2Aux n n 0

/-! ## Encoder.cpp -/

/-- The members of `Encoder` that its constructor sets and no method changes. -/
structure Encoder where
  bl : Nat
  fs : Nat
  channelbits : Nat
  lengthbits : Nat
  dwtlevel : Nat
  l_book : Nat
  book : List Nat
  book_cumulative : List Nat
  deriving DecidableEq, Repr

/-- The members that `Encoder::Encoder(bl, fs, maxChannels)` has set when it
reaches its last statement `pm.init(bl, fs)`.  With `b = bl >> dwtlevel` the
constructor's loop fills `book = [b, b, 2b, 4b, ...]` (`l_book` entries) and
`book_cumulative = [0, b, 2b, 4b, ...]` (`l_book + 1` entries).  The
constructor as a whole, which returns only if `pm.init` does, is
`Encoder.construct`. -/
def Encoder.new (bl fs maxChannels : Nat) : Encoder :=
  let dwtlevel := ilog2 bl - 2
  let b := bl >>> dwtlevel
  { bl := bl
    fs := fs
    channelbits := clog2 (maxChannels + 1)
    lengthbits := encoderLengthbits bl
    dwtlevel := dwtlevel
    l_book := dwtlevel + 1
    book := b :: (List.range dwtlevel).map (fun i => b <<< i)
    book_cumulative := 0 :: (List.range (dwtlevel + 1)).map (fun i => b <<< i) }

/-- `Encoder::fsEncode`: the two bits of the sampling rate. -/
def fsEncode (fs : Nat) (bitstream : List Bool) : List Bool :=
  if fs = FS_0 then bitstream ++ [false, false]
  else if fs = FS_1 then bitstream ++ [false, true]
  else if fs = FS_2 then bitstream ++ [true, false]
  else bitstream ++ [true, true]

/-- `Encoder::encodeChannels`: `none` is the return value -1. -/
def encodeChannels (channelbits channels : Nat) (bitstream : List Bool) : Option (List Bool) :=
  if channels > 2 ^ channelbits - 1 then none else some (de2bi channels bitstream channelbits)

/-- What `maximumWaveletCoefficient` hands back. -/
structure WavmaxResult (K : Type) where
  qwavmax : K
  bitwavmax : List Bool

/-- `Encoder::maximumWaveletCoefficient(sig, qwavmax, bitwavmax)`: the mode bit,
then the 7 bits of `(int)((qwavmax - integerpart) * 2^fractionbits)` written by
the positional `de2bi` from index 1 on. -/
def maximumWaveletCoefficient {K : Type} [LinearOrderedField K] [FloorRing K] (sig : List K) :
    WavmaxResult K :=
  let wavmax := findMax sig
  let mode := decide (¬ wavmax < 1)
  let integerpart : Nat := if wavmax < 1 then 0 else 1
  let integerbits := if wavmax < 1 then INTEGERPART_0 else INTEGERPART_1
  let fractionbits := if wavmax < 1 then FRACTIONPART_0 else FRACTIONPART_1
  let qwavmax := maxQuant (wavmax - (integerpart : K)) integerbits fractionbits + (integerpart : K)
  { qwavmax := qwavmax
    bitwavmax := mode ::
      de2bi (⌊(qwavmax - (integerpart : K)) * 2 ^ fractionbits⌋ : Int).toNat []
        (integerbits + fractionbits) }

/-- `log10` of a double that may be infinite. -/
def XReal.log10 {K : Type} [LinearOrderedField K] (log10 : K → K) : XReal K → XReal K
  | .fin x => if 0 < x then .fin (log10 x) else if x = 0 then .negInf else .nan
  | .posInf => .posInf
  | .negInf => .nan
  | .nan => .nan

/-- The quotient `a / b` of two finite doubles, `b` being `+0` when it is 0. -/
def XReal.div {K : Type} [LinearOrderedField K] (a b : K) : XReal K :=
  if b = 0 then (if 0 < a then .posInf else if a < 0 then .negInf else .nan) else .fin (a / b)

/-- The map `x ↦ 10 * x - smr` on a double that may be infinite. -/
def XReal.scaleSub {K : Type} [LinearOrderedField K] (smr : K) : XReal K → XReal K
  | .fin x => .fin (10 * x - smr)
  | v => v

/-- `Encoder::updateNoise`: `SNR[i] = 10 * log10(bandenergy[i] / noiseenergy[i])`
and `MNR[i] = SNR[i] - SMR[i]`; returns `MNR`.  The library function `log10` on
positive numbers is a parameter. -/
def updateNoise {K : Type} [LinearOrderedField K] (log10 : K → K) (l_book : Nat)
    (bandenergy noiseenergy SMR : List K) : List (XReal K) :=
  (List.range l_book).map (fun i =>
    XReal.scaleSub (SMR.getD i 0)
      (XReal.log10 log10 (XReal.div (bandenergy.getD i 0) (noiseenergy.getD i 0))))

/-- The sum of `pow(block_dwt[i] - block_dwt_quant[i], 2)` over
`start <= i < stop`. -/
def bandNoise {K : Type} [LinearOrderedField K] (block_dwt block_dwt_quant : List K)
    (start stop : Nat) : K :=
  (List.range (stop - start)).foldl
    (fun acc j => acc + (block_dwt.getD (start + j) 0 - block_dwt_quant.getD (start + j) 0) ^ 2) 0

/-- The variables the bit-allocation loop of `encodeBlock` changes. -/
structure AllocState (K : Type) where
  bitalloc : List Nat
  bitalloc_sum : Nat
  block_dwt_quant : List K
  noiseenergy : List K

/-- One pass through the body of `while (bitalloc_sum < bitbudget)`. -/
def allocStep {K : Type} [LinearOrderedField K] [FloorRing K] (log10 : K → K) (e : Encoder)
    (block_dwt SMR bandenergy : List K) (qwavmax : K) (bitbudget : Nat) (s : AllocState K) :
    AllocState K :=
  let MNR := updateNoise log10 e.l_book bandenergy s.noiseenergy SMR
  let MNR := (List.range e.l_book).map (fun i =>
    if s.bitalloc.getD i 0 ≥ MAX_BITS then XReal.posInf else MNR.getD i .nan)
  let index := findMinInd MNR
  let last := e.l_book - 1
  let s1 : AllocState K :=
    if s.bitalloc_sum ≥ MAX_BITS * e.dwtlevel + s.bitalloc.getD last 0 then
      { s with
        bitalloc := s.bitalloc.set last (bitbudget - MAX_BITS * e.dwtlevel)
        bitalloc_sum := s.bitalloc_sum + (bitbudget - MAX_BITS * e.dwtlevel) - s.bitalloc.getD last 0 }
    else
      { s with
        bitalloc := s.bitalloc.set index (s.bitalloc.getD index 0 + 1)
        bitalloc_sum := s.bitalloc_sum + 1 }
  let quant := uniformQuant block_dwt s1.block_dwt_quant (e.book_cumulative.getD index 0)
    (e.book.getD index 0) qwavmax (s1.bitalloc.getD index 0)
  { s1 with
    block_dwt_quant := quant
    noiseenergy := s1.noiseenergy.set index
      (bandNoise block_dwt quant (e.book_cumulative.getD index 0)
        (e.book_cumulative.getD (index + 1) 0)) }

/-- The loop `while (bitalloc_sum < bitbudget)`; every pass raises
`bitalloc_sum`, so `bitbudget` passes are enough (`none` otherwise). -/
def allocLoop {K : Type} [LinearOrderedField K] [FloorRing K] (log10 : K → K) (e : Encoder)
    (block_dwt SMR bandenergy : List K) (qwavmax : K) (bitbudget : Nat) :
    Nat → AllocState K → Option (AllocState K)
  | fuel, s =>
    if s.bitalloc_sum < bitbudget then
      match fuel with
      | 0 => none
      | f + 1 =>
        allocLoop log10 e block_dwt SMR bandenergy qwavmax bitbudget f
          (allocStep log10 e block_dwt SMR bandenergy qwavmax bitbudget s)
    else some s

/-- The values `encodeBlock` computes for a block that is not all zero before it
calls `losslessEncoding`. -/
structure QuantResult (K : Type) where
  qwavmax : K
  bitwavmax : List Bool
  bitalloc : List Nat
  block_dwt_quant : List K
  bitmax : Nat
  block_intquant : List Int

/-- The `else` branch of `Encoder::encodeBlock` up to the call of
`losslessEncoding`. -/
def quantizeBlock {K : Type} [LinearOrderedField K] [FloorRing K] (log10 : K → K) (e : Encoder)
    (block_dwt SMR bandenergy : List K) (bitbudget : Nat) : Option (QuantResult K) :=
  let w := maximumWaveletCoefficient block_dwt
  let quant0 : List K := List.replicate e.bl 0
  let noise0 := (List.range e.l_book).map (fun b =>
    bandNoise block_dwt quant0 (e.book_cumulative.getD b 0) (e.book_cumulative.getD (b + 1) 0))
  (allocLoop log10 e block_dwt SMR bandenergy w.qwavmax bitbudget bitbudget
    ⟨List.replicate e.l_book 0, 0, quant0, noise0⟩).map (fun s =>
      let bitmax := findMaxInt s.bitalloc
      let intmax : Int := shlInt 1 bitmax
      let multiplicator : K := (intmax : K) / w.qwavmax
      { qwavmax := w.qwavmax
        bitwavmax := w.bitwavmax
        bitalloc := s.bitalloc
        block_dwt_quant := s.block_dwt_quant
        bitmax := bitmax
        block_intquant := s.block_dwt_quant.map (fun q => cround (q * multiplicator)) })

/-- `Encoder::losslessEncoding`: SPIHT, arithmetic coding from the counters
`cnt`, `rescaleCounter`, length field, payload.  Returns the bit stream, the
counters and `arithmetic_stream` as it was before `lengthEncoding`. -/
def losslessEncoding (e : Encoder) (cnt : Counters) (block_intquant : List Int)
    (bitwavmax : List Bool) (bitmax : Nat) (bitstream : List Bool) :
    Option (List Bool × Counters × List Bool) :=
  match SPIHT_Enc_encode block_intquant e.dwtlevel bitwavmax bitmax [] [] with
  | none => none
  | some (SPIHT_stream, SPIHT_context) =>
    match ArithEnc_encode cnt SPIHT_stream SPIHT_context [] with
    | none => none
    | some (arithmetic_stream, k) =>
      let r := lengthEncoding e.lengthbits bitstream arithmetic_stream
      some (r.1 ++ r.2, rescaleCounter k, arithmetic_stream)

/-- What `encodeBlock` returns and changes: `block_dwt_quant`, the bit stream
and the counters of the arithmetic coder.  `payload` records the local
`arithmetic_stream` of `losslessEncoding` before the length field is written
(empty for an all-zero block). -/
structure BlockResult (K : Type) where
  block_dwt_quant : List K
  bitstream : List Bool
  cnt : Counters
  payload : List Bool

/-- `Encoder::encodeBlock(block_dwt, SMR, bandenergy, bitstream, bitbudget)`. -/
def encodeBlock {K : Type} [LinearOrderedField K] [FloorRing K] (log10 : K → K) (e : Encoder)
    (cnt : Counters) (block_dwt SMR bandenergy : List K) (bitstream : List Bool)
    (bitbudget : Nat) : Option (BlockResult K) :=
  if checkZeros block_dwt e.bl then
    some ⟨List.replicate e.bl 0, (lengthEncoding e.lengthbits bitstream []).1, cnt, []⟩
  else
    match quantizeBlock log10 e block_dwt SMR bandenergy bitbudget with
    | none => none
    | some q =>
      (losslessEncoding e cnt q.block_intquant q.bitwavmax q.bitmax bitstream).map
        (fun r => ⟨q.block_dwt_quant, r.1, r.2.1, r.2.2⟩)

/-- The result of `PsychohapticModel::getSMR`. -/
structure pmResult (K : Type) where
  SMR : List K
  bandenergy : List K

/-- The block `b` of the padded signal: `bl` samples from `b * bl` on, zeros
past the end of `sig`. -/
def blockOf {K : Type} [LinearOrderedField K] (sig : List K) (bl b : Nat) : List K :=
  (List.range bl).map (fun i => sig.getD (b * bl + i) 0)

/-- The bit stream and the counters of an encoder run; `blocks` records the
results of its `encodeBlock` calls in the order of the calls. -/
structure EncRun (K : Type) where
  bitstream : List Bool
  cnt : Counters
  blocks : List (BlockResult K)

/-- The loop over the blocks of `encode1D`, `b` counting up from `numblocks -
todo`. -/
def encode1DLoop {K : Type} [LinearOrderedField K] [FloorRing K] (log10 : K → K)
    (getSMR : List K → pmResult K) (e : Encoder) (sig : List K) (bitbudget : Nat) :
    Nat → Nat → EncRun K → Option (EncRun K)
  | 0, _, st => some st
  | todo + 1, b, st =>
    let bitstream := headerEncoding e.bl st.bitstream
    let buffer_in := blockOf sig e.bl b
    let wavelets := DWT buffer_in e.dwtlevel
    let pmres := getSMR buffer_in
    match encodeBlock log10 e st.cnt wavelets pmres.SMR pmres.bandenergy bitstream bitbudget with
    | none => none
    | some r =>
      encode1DLoop log10 getSMR e sig bitbudget todo (b + 1)
        ⟨r.bitstream, r.cnt, st.blocks ++ [r]⟩

/-- `Encoder::encode1D(sig, bitbudget)` with the record of its blocks; the
psychohaptic model `pm.getSMR` is a parameter. -/
def encode1DRun {K : Type} [LinearOrderedField K] [FloorRing K] (log10 : K → K)
    (getSMR : List K → pmResult K) (e : Encoder) (sig : List K) (bitbudget : Nat) :
    Option (EncRun K) :=
  let bitbudget := if bitbudget > MAX_BITS * e.l_book then MAX_BITS * e.l_book else bitbudget
  let bitstream := fsEncode e.fs []
  let numblocks := (sig.length + e.bl - 1) / e.bl
  encode1DLoop log10 getSMR e sig bitbudget numblocks 0 ⟨bitstream, resetCounter, []⟩

/-- `Encoder::encode1D(sig, bitbudget)`: the bit stream. -/
def encode1D {K : Type} [LinearOrderedField K] [FloorRing K] (log10 : K → K)
    (getSMR : List K → pmResult K) (e : Encoder) (sig : List K) (bitbudget : Nat) :
    Option (List Bool) :=
  (encode1DRun log10 getSMR e sig bitbudget).map (fun st => st.bitstream)

/-- The second `for (c ...)` loop of a time stride of `encodeMD`: header and
block of every channel; `inputs` holds `waveletsMD[c]` and the psychohaptic
result of the channels still to come. -/
def encodeMDChannels {K : Type} [LinearOrderedField K] [FloorRing K] (log10 : K → K)
    (e : Encoder) (bitbudget : Nat) : List (List K × pmResult K) → EncRun K → Option (EncRun K)
  | [], st => some st
  | (wavelets, pmres) :: rest, st =>
    let bitstream := headerEncoding e.bl st.bitstream
    match encodeBlock log10 e st.cnt wavelets pmres.SMR pmres.bandenergy bitstream bitbudget with
    | none => none
    | some r =>
      encodeMDChannels log10 e bitbudget rest ⟨r.bitstream, r.cnt, st.blocks ++ [r]⟩

/-- The loop over the time strides of `encodeMD`. -/
def encodeMDLoop {K : Type} [LinearOrderedField K] [FloorRing K] (log10 : K → K)
    (getSMR : List K → pmResult K) (e : Encoder) (sig : List (List K)) (bitbudget : Nat) :
    Nat → Nat → EncRun K → Option (EncRun K)
  | 0, _, st => some st
  | todo + 1, b, st =>
    let inputs := sig.map (fun ch =>
      (DWT (blockOf ch e.bl b) e.dwtlevel, getSMR (blockOf ch e.bl b)))
    match encodeMDChannels log10 e bitbudget inputs st with
    | none => none
    | some st1 => encodeMDLoop log10 getSMR e sig bitbudget todo (b + 1) st1

/-- `Encoder::encodeMD(sig, bitbudget)` with the record of its blocks: `none`
when `sig.at(0)` throws; the empty stream when `encodeChannels` returns -1. -/
def encodeMDRun {K : Type} [LinearOrderedField K] [FloorRing K] (log10 : K → K)
    (getSMR : List K → pmResult K) (e : Encoder) (sig : List (List K)) (bitbudget : Nat) :
    Option (EncRun K) :=
  let bitbudget := if bitbudget > MAX_BITS * e.l_book then MAX_BITS * e.l_book else bitbudget
  match sig with
  | [] => none
  | temp :: _ =>
    let numblocks := (temp.length + e.bl - 1) / e.bl
    match encodeChannels e.channelbits sig.length [] with
    | none => some ⟨[], resetCounter, []⟩
    | some bitstream =>
      encodeMDLoop log10 getSMR e sig bitbudget numblocks 0
        ⟨fsEncode e.fs bitstream, resetCounter, []⟩

/-- `Encoder::encodeMD(sig, bitbudget)`: the bit stream. -/
def encodeMD {K : Type} [LinearOrderedField K] [FloorRing K] (log10 : K → K)
    (getSMR : List K → pmResult K) (e : Encoder) (sig : List (List K)) (bitbudget : Nat) :
    Option (List Bool) :=
  (encodeMDRun log10 getSMR e sig bitbudget).map (fun st => st.bitstream)

/-! ## Decoder.cpp -/

/-- `Decoder::fsDecode`: the sampling rate and the stream without its first two
bits. -/
def fsDecode (bitstream : List Bool) : Option (Nat × List Bool) :=
  match bitstream[0]?, bitstream[1]? with
  | some false, some false => some (FS_0, bitstream.drop 2)
  | some false, some true => some (FS_1, bitstream.drop 2)
  | some true, some false => some (FS_2, bitstream.drop 2)
  | some true, some true => some (0, bitstream.drop 2)
  | _, _ => none

/-- `Decoder::decodeChannels`. -/
def decodeChannels (channelbits : Nat) (bitstream : List Bool) : Option (Nat × List Bool) :=
  (bi2de bitstream channelbits 0).map (fun channels => (channels, bitstream.drop channelbits))

/-- What `losslessDecoding` returns and changes. -/
structure LosslessResult (K : Type) where
  content : Nat
  sig_intquant : List Int
  multiplicator : K
  recwavmax : K
  recbitmax : Nat
  bitstream : List Bool
  cnt : Counters

/-- `Decoder::losslessDecoding(bitstream, sig_intquant, multiplicator)` for the
block length `bl`, with `sig_intquant` holding `bl` zeros and `multiplicator`
0 at the call; `none` when a read or the final `erase` leaves the stream. -/
def losslessDecoding {K : Type} [LinearOrderedField K] (bl dwtlevel lengthbits : Nat)
    (cnt : Counters) (bitstream : List Bool) : Option (LosslessResult K) :=
  match lengthDecoding lengthbits bitstream with
  | none => none
  | some (segmentlength, bitstream) =>
    if segmentlength > 0 then
      if segmentlength > bitstream.length then none
      else
        match (SPIHT_Dec_decode cnt bitstream 0 segmentlength (List.replicate bl 0) bl dwtlevel :
            Option (SpihtDecResult K)) with
        | none => none
        | some r =>
          some ⟨1, r.out, r.wavmax / ((1 <<< r.n_real : Nat) : K), r.wavmax, r.n_real,
            bitstream.drop segmentlength, r.arith.cnt⟩
    else some ⟨0, List.replicate bl 0, 0, 0, 0, bitstream, cnt⟩

/-- `Decoder::decodeBlock(bitstream, sig_dwt)`: returns `sig_dwt`, the rest of
the stream and the counters. -/
def decodeBlock {K : Type} [LinearOrderedField K] (bl dwtlevel lengthbits : Nat)
    (cnt : Counters) (bitstream : List Bool) : Option (List K × List Bool × Counters) :=
  match (losslessDecoding bl dwtlevel lengthbits cnt bitstream : Option (LosslessResult K)) with
  | none => none
  | some r =>
    if r.content = 1 then
      some ((List.range bl).map (fun i => ((r.sig_intquant.getD i 0 : Int) : K) * r.multiplicator),
        r.bitstream, r.cnt)
    else some (List.replicate bl 0, r.bitstream, r.cnt)

/-- The loop `while (bitstream.size() > MIN_SIZE)` of `decode1D`; every pass
erases at least one bit, so `fuel = bitstream.size()` passes are enough.
Returns `sig_rec` and what is left of `bitstream`. -/
def decode1DLoop {K : Type} [LinearOrderedField K] :
    Nat → List K → Counters → List Bool → Option (List K × List Bool)
  | fuel, sig_rec, cnt, bitstream =>
    if bitstream.length > MIN_SIZE then
      match fuel with
      | 0 => none
      | f + 1 =>
        match headerDecoding bitstream with
        | none => none
        | some h =>
          match (decodeBlock h.bl h.dwtlevel h.lengthbits cnt h.rest :
              Option (List K × List Bool × Counters)) with
          | none => none
          | some r => decode1DLoop f (sig_rec ++ inv_DWT r.1 h.dwtlevel) r.2.2 r.2.1
    else some (sig_rec, bitstream)

/-- `Decoder::decode1D(bitstream)`: `sig_rec` and what is left in the caller's
`bitstream`.  `sig_rec.resize(start + bl)` and the copy of the `bl` samples of
`inv_DWT` to `start` append them to `sig_rec`. -/
def decode1D {K : Type} [LinearOrderedField K] (bitstream : List Bool) :
    Option (List K × List Bool) :=
  match fsDecode bitstream with
  | none => none
  | some (_, bitstream) => decode1DLoop bitstream.length [] resetCounter bitstream

/-- `sig_rec.at(c).resize(start + bl)` followed by the copy of `buffer_out` to
`start`. -/
def writeBlock {K : Type} [LinearOrderedField K] (sig : List K) (start : Nat)
    (buffer_out : List K) : List K :=
  (sig ++ List.replicate (start - sig.length) 0).take start ++ buffer_out

/-- The `for (c ...)` loop of a time stride of `decodeMD`: returns `sig_rec`,
the stream, the counters and the last `bl`. -/
def decodeMDChannels {K : Type} [LinearOrderedField K] (start : Nat) :
    Nat → Nat → List (List K) → Counters → List Bool → Nat →
      Option (List (List K) × List Bool × Counters × Nat)
  | 0, _, sig_rec, cnt, bitstream, bl => some (sig_rec, bitstream, cnt, bl)
  | todo + 1, c, sig_rec, cnt, bitstream, _ =>
    match headerDecoding bitstream with
    | none => none
    | some h =>
      match (decodeBlock h.bl h.dwtlevel h.lengthbits cnt h.rest :
          Option (List K × List Bool × Counters)) with
      | none => none
      | some r =>
        decodeMDChannels start todo (c + 1)
          (sig_rec.set c (writeBlock (sig_rec.getD c []) start (inv_DWT r.1 h.dwtlevel)))
          r.2.2 r.2.1 h.bl

/-- The loop `while (bitstream.size() > MIN_SIZE)` of `decodeMD`. -/
def decodeMDLoop {K : Type} [LinearOrderedField K] (channels : Nat) :
    Nat → Nat → List (List K) → Counters → List Bool → Nat → Option (List (List K) × List Bool)
  | fuel, start, sig_rec, cnt, bitstream, bl =>
    if bitstream.length > MIN_SIZE then
      match fuel with
      | 0 => none
      | f + 1 =>
        match decodeMDChannels start channels 0 sig_rec cnt bitstream bl with
        | none => none
        | some r => decodeMDLoop channels f (start + r.2.2.2) r.1 r.2.2.1 r.2.1 r.2.2.2
    else some (sig_rec, bitstream)

/-- `Decoder::decodeMD(bitstream)` of a decoder built with `channelbits`:
`sig_rec` and what is left in the caller's `bitstream`. -/
def decodeMD {K : Type} [LinearOrderedField K] (channelbits : Nat) (bitstream : List Bool) :
    Option (List (List K) × List Bool) :=
  match decodeChannels channelbits bitstream with
  | none => none
  | some (channels, bitstream) =>
    match fsDecode bitstream with
    | none => none
    | some (_, bitstream) =>
      decodeMDLoop channels bitstream.length 0 (List.replicate channels []) resetCounter
        bitstream 0

/-- Every entry of the list is 0. -/
def AllZero {K : Type} [LinearOrderedField K] (l : List K) : Prop := ∀ x ∈ l, x = 0

/-- A stand-in for `pm.getSMR` with four bands: `SMR = 0`, `bandenergy = 1`. -/
def samplePm : List ℚ → pmResult ℚ := fun _ => ⟨[0, 0, 0, 0], [1, 1, 1, 1]⟩

/-- The wavelet block `[0.5, 0 (15 times), 0.25, 0 (15 times)]` for `BL = 32`:
the largest coefficient in band 0 and, at index 16, a coefficient of band 3
that one bit quantises without error. -/
def offGridBlock : List ℚ :=
  (1 / 2) :: (List.replicate 15 0 ++ (1 / 4) :: List.replicate 15 0)

/-- A wavelet block of 32 coefficients whose only non-zero coefficient is
`block_dwt[0] = 0.5`. -/
def peakBlock : List ℚ := (1 / 2) :: List.replicate 31 0

/-- The wavelet block that `DWT` returns in double arithmetic for a block of 32
nearly equal samples: the double `0x1.3e533e0a5852cp-2` four times in band 0
and no coefficient in the bands 1 to 3. -/
def flatBlock : List ℚ :=
  List.replicate 4 (1400008883134795 / 4503599627370496) ++ List.replicate 28 0

/-- The signal of 32 samples whose wavelet block is `flatBlock`
(`DWT(flatSignal, 3) = flatBlock` in exact arithmetic); every sample is about
`0.1099`. -/
def flatSignal : List ℚ := inv_DWT flatBlock 3

/-- The value `v` is a whole number `z` of quantiser steps `qwavmax / 2^b` for
some bit depth `b <= B`, with `|z| < 2^b`. -/
def OnGrid {K : Type} [LinearOrderedField K] (qwavmax : K) (B : Nat) (v : K) : Prop :=
  ∃ (z : Int) (b : Nat), b ≤ B ∧ z.natAbs < 2 ^ b ∧ v = (z : K) * (qwavmax / 2 ^ b)

/-- Every quantised coefficient of the allocation state is on the grid of a bit
depth that some band holds. -/
def GridInv {K : Type} [LinearOrderedField K] (qwavmax : K) (s : AllocState K) : Prop :=
  ∀ i, OnGrid qwavmax (findMaxInt s.bitalloc) (s.block_dwt_quant.getD i 0)

/-- The band `findMinInd` selects in one pass of the allocation loop of
`encodeBlock` (the variable `index`). -/
def allocIndex {K : Type} [LinearOrderedField K] (log10 : K → K) (e : Encoder)
    (SMR bandenergy : List K) (s : AllocState K) : Nat :=
  findMinInd ((List.range e.l_book).map (fun i =>
    if s.bitalloc.getD i 0 ≥ MAX_BITS then XReal.posInf
    else (updateNoise log10 e.l_book bandenergy s.noiseenergy SMR).getD i .nan))

/-- The counting invariant of the allocation loop: `bitalloc_sum` is the sum of
`bitalloc`, the bands below the last one hold at most `MAX_BITS * dwtlevel` bits
together, and the budget is not exceeded. -/
def SumInv {K : Type} (e : Encoder) (bitbudget : Nat) (s : AllocState K) : Prop :=
  s.bitalloc.length = e.l_book ∧ s.bitalloc_sum = s.bitalloc.sum ∧
  s.bitalloc_sum ≤ MAX_BITS * e.dwtlevel + s.bitalloc.getD (e.l_book - 1) 0 ∧
  s.bitalloc_sum ≤ bitbudget

/-- The state in which `encodeBlock` enters its allocation loop: no bits, a
zero quantised block, and the energy of every band as its noise. -/
def allocInit {K : Type} [LinearOrderedField K] (e : Encoder) (block_dwt : List K) :
    AllocState K :=
  ⟨List.replicate e.l_book 0, 0, List.replicate e.bl 0,
    (List.range e.l_book).map (fun b =>
      bandNoise block_dwt (List.replicate e.bl 0) (e.book_cumulative.getD b 0)
        (e.book_cumulative.getD (b + 1) 0))⟩

/-- The bit depth at which each band was last quantised, followed along the
allocation loop of `encodeBlock` (a trace of the loop, not a variable of the
code): every pass quantises the band `index` with `bitalloc[index]` bits. -/
def allocDepths {K : Type} [LinearOrderedField K] [FloorRing K] (log10 : K → K) (e : Encoder)
    (block_dwt SMR bandenergy : List K) (qwavmax : K) (bitbudget : Nat) :
    Nat → AllocState K → List Nat → List Nat
  | fuel, s, d =>
    if s.bitalloc_sum < bitbudget then
      match fuel with
      | 0 => d
      | f + 1 =>
        allocDepths log10 e block_dwt SMR bandenergy qwavmax bitbudget f
          (allocStep log10 e block_dwt SMR bandenergy qwavmax bitbudget s)
          (d.set (allocIndex log10 e SMR bandenergy s)
            ((allocStep log10 e block_dwt SMR bandenergy qwavmax bitbudget s).bitalloc.getD
              (allocIndex log10 e SMR bandenergy s) 0))
    else d

/-- The band borders of an encoder: band `j` is `book[j]` coefficients from
`book_cumulative[j]` on, and the borders do not decrease. -/
def BookOK (e : Encoder) : Prop :=
  (∀ j, j < e.l_book →
    e.book_cumulative.getD j 0 + e.book.getD j 0 = e.book_cumulative.getD (j + 1) 0) ∧
  ∀ j k, j ≤ k → k ≤ e.l_book → e.book_cumulative.getD j 0 ≤ e.book_cumulative.getD k 0

/-- Every band holds whole numbers of steps of the depth `d[b]` at which it was
last quantised, and that depth is at most the band's `bitalloc`. -/
def DepthInv {K : Type} [LinearOrderedField K] (e : Encoder) (qwavmax : K) (s : AllocState K)
    (d : List Nat) : Prop :=
  d.length = e.l_book ∧
  ∀ b, b < e.l_book → d.getD b 0 ≤ s.bitalloc.getD b 0 ∧
    ∀ i, e.book_cumulative.getD b 0 ≤ i → i < e.book_cumulative.getD (b + 1) 0 →
      ∃ m : Int, m.natAbs < 2 ^ d.getD b 0 ∧
        s.block_dwt_quant.getD i 0 = (m : K) * (qwavmax / 2 ^ d.getD b 0)

/-- Only band 0 is in play in the allocation loop: every other band holds no
bits and has no noise, and `bitalloc_sum` is `bitalloc[0]`. -/
def Band0Inv {K : Type} [LinearOrderedField K] (e : Encoder) (s : AllocState K) : Prop :=
  s.bitalloc.length = e.l_book ∧
  (∀ b, 1 ≤ b → s.bitalloc.getD b 0 = 0) ∧ (∀ b, 1 ≤ b → s.noiseenergy.getD b 0 = 0) ∧
  s.bitalloc_sum = s.bitalloc.getD 0 0

/-- The state of the arithmetic decoder between two `decode` calls: a valid
range on which the rescaling loop has stopped, `range_diff` its width, and
counters within their invariant. -/
def DecOK (d : ArithDec) : Prop :=
  InRange d.range_lower d.range_upper ∧ Normalized d.range_lower d.range_upper ∧
  CountersOK d.cnt ∧ d.range_diff = d.range_upper - d.range_lower

/-- What the loop over the LIS of the SPIHT decoder needs to come to an end,
whatever bits it reads: the block has `size` entries, every entry of the LIS
and of the `pending` list is a valid set, and together they are light enough
for the fuel; `P` is any property of the arithmetic decoder that `decode`
keeps. -/
def DecInv (P : ArithDec → Prop) (size : Nat) (pending : List pixel) (st : SpihtDec) : Prop :=
  st.out.length = size ∧ (∀ e ∈ st.LIS, ValidEntry size e) ∧
  (∀ e ∈ pending, ValidEntry size e) ∧
  lisWeightSum size (st.LIS ++ pending) ≤ (LIS_FUEL size : ℚ) ∧ P st.arith

/-! ## SPIHT_Dec.cpp with checked accesses to `out`

The functions below repeat the passes of the decoder with every access
`out[index]` checked: `none` when `index` is not below `out.size()` (the
source uses the unchecked `operator[]`). -/

/-- The function `decSetSign` with the access `out[index]` checked. -/
def decSetSignC (compare : Nat) (index : Nat) (out : List Int) (d : ArithDec) :
    Option (List Int × ArithDec) :=
  if index < out.length then some (decSetSign compare index out d) else none

/-- The function `decSortLIP` with checked accesses. -/
def decSortLIPC (compare : Nat) : List Nat → SpihtDec → Option SpihtDec
  | [], st => some st
  | i :: rest, st =>
    let r := ArithDec_decode st.arith CONTEXT_SIGNIFICANCE_0
    if r.1 then
      match decSetSignC compare i st.out r.2 with
      | none => none
      | some s =>
        decSortLIPC compare rest { st with out := s.1, arith := s.2, LSP := st.LSP ++ [i] }
    else
      decSortLIPC compare rest { st with arith := r.2, LIP := st.LIP ++ [i] }

/-- The function `decChild` with checked accesses. -/
def decChildC (compare : Nat) (index : Nat) (st : SpihtDec) : Option SpihtDec :=
  let r := ArithDec_decode st.arith CONTEXT_SIGNIFICANCE_2
  if r.1 then
    match decSetSignC compare index st.out r.2 with
    | none => none
    | some s => some { st with LSP := st.LSP ++ [index], out := s.1, arith := s.2 }
  else
    some { st with arith := r.2, LIP := st.LIP ++ [index] }

/-- The function `decSortLIS` with checked accesses. -/
def decSortLISC (compare : Nat) : Nat → List pixel → SpihtDec → Option SpihtDec
  | _, [], st => some st
  | 0, _ :: _, _ => none
  | fuel + 1, p :: rest, st =>
    if p.type = 0 then
      let r := ArithDec_decode st.arith CONTEXT_SIGNIFICANCE_1
      if r.1 then
        let y := p.index
        (decChildC compare (2 * y) { st with arith := r.2 }).bind fun st2 =>
          (decChildC compare (2 * y + 1) st2).bind fun st3 =>
            if 4 * y + 3 < st.out.length then
              decSortLISC compare fuel (rest ++ [⟨y, 1⟩]) st3
            else
              decSortLISC compare fuel rest st3
      else
        decSortLISC compare fuel rest { st with arith := r.2, LIS := st.LIS ++ [p] }
    else
      let r := ArithDec_decode st.arith CONTEXT_SIGNIFICANCE_3
      if r.1 then
        let y := p.index
        decSortLISC compare fuel (rest ++ [⟨2 * y, 0⟩, ⟨2 * y + 1, 0⟩]) { st with arith := r.2 }
      else
        decSortLISC compare fuel rest { st with arith := r.2, LIS := st.LIS ++ [p] }

/-- The function `decSortingPass` with checked accesses. -/
def decSortingPassC (compare : Nat) (st : SpihtDec) : Option SpihtDec :=
  match decSortLIPC compare st.LIP { st with LIP := [] } with
  | none => none
  | some st1 => decSortLISC compare (LIS_FUEL st.out.length) st1.LIS { st1 with LIS := [] }

/-- The function `decRefinementPass` with checked accesses. -/
def decRefinementPassC (compare : Nat) :
    List Nat → List Int → ArithDec → Option (List Int × ArithDec)
  | [], out, d => some (out, d)
  | i :: rest, out, d =>
    let r := ArithDec_decode d CONTEXT_REFINEMENT
    if r.1 then
      if i < out.length then
        decRefinementPassC compare rest
          (out.set i (out.getD i 0 + sgn (out.getD i 0) * (compare : Int))) r.2
      else none
    else
      decRefinementPassC compare rest out r.2

/-- The function `decPlanes` with checked accesses. -/
def decPlanesC : Nat → SpihtDec → Option SpihtDec
  | n, st =>
    match decSortingPassC (1 <<< n) st with
    | none => none
    | some st1 =>
      match decRefinementPassC (1 <<< n) (st1.LSP.take st.LSP.length) st1.out st1.arith with
      | none => none
      | some r =>
        let st2 := { st1 with out := r.1, arith := r.2 }
        match n with
        | 0 => some st2
        | k + 1 => decPlanesC k st2

/-- The function `SPIHT_Dec_decode` with checked accesses to `out`. -/
def SPIHT_Dec_decodeC {K : Type} [LinearOrderedField K] (cnt : Counters)
    (bitstream : List Bool) (pos streamlength : Nat) (out : List Int)
    (origlength level : Nat) : Option (SpihtDecResult K) :=
  if origlength ≤ out.length then
    let d := initDecoding cnt bitstream pos streamlength
    let out := List.replicate origlength 0 ++ out.drop origlength
    let b := getBits CONTEXT_SIDE MAXALLOCBITS_SIZE d
    let maxallocbits := bi2deVec b.1
    let md := ArithDec_decode b.2 CONTEXT_SIDE
    let w := getBits CONTEXT_SIDE (WAVMAXLENGTH - 1) md.2
    let temp := bi2deVec w.1
    let wavmax : K := if md.1 then (temp : K) * (1 / 2 ^ 4) + 1 else (temp : K) * (1 / 2 ^ 7)
    let l := initLists origlength level
    (decPlanesC maxallocbits ⟨l.1, [], l.2, out, w.2⟩).map (fun st =>
      { out := st.out, wavmax := wavmax, n_real := maxallocbits,
        arith := { st.arith with cnt := rescaleCounter st.arith.cnt } })
  else none

/-- The states of the decoder at the end of every bit plane, from plane `n`
down to plane 0 (a trace of `decPlanes`). -/
def decTrace : Nat → SpihtDec → Option (List SpihtDec)
  | n, st =>
    match decSortingPass (1 <<< n) st with
    | none => none
    | some st1 =>
      let r := decRefinementPass (1 <<< n) (st1.LSP.take st.LSP.length) st1.out st1.arith
      let st2 := { st1 with out := r.1, arith := r.2 }
      match n with
      | 0 => some [st2]
      | k + 1 => (decTrace k st2).map (fun l => st2 :: l)

/-- The states of the encoder at the end of every bit plane, from plane `n`
down to plane 0 (a trace of `encPlanes`). -/
def encTrace (data : List Int) (m : MaxDesc) : Nat → SpihtEnc → Option (List SpihtEnc)
  | n, st =>
    match encSortingPass data m (1 <<< n) st with
    | none => none
    | some st1 =>
      let st2 := encRefinementPass data n st.LSP.length st1
      match n with
      | 0 => some [st2]
      | k + 1 => (encTrace data m k st2).map (fun l => st2 :: l)

/-- Invariant of the decoder's LIS loop at the threshold `compare`: the lists
partition the indices, and `out` differs from `out0` exactly at the indices
`new` that joined the LSP `old` in this pass, where it holds `compare` or
`-compare`. -/
def DecLISInv (size compare : Nat) (old : List Nat) (out0 : List Int) (pending : List pixel)
    (st : SpihtDec) : Prop :=
  PartInv size st.LIP st.LSP (st.LIS ++ pending) ∧ st.out.length = size ∧
  ∃ new, st.LSP = old ++ new ∧ (∀ i, i ∉ new → st.out.getD i 0 = out0.getD i 0) ∧
    ∀ i ∈ new, (st.out.getD i 0).natAbs = compare

/-! ## ArithDec.cpp and SPIHT_Dec.cpp with the stream indexes

The decoder once more, now with `instream`, `in_index` and `max_index` as the
code keeps them.  `none` stands for an exception thrown by `instream->at`, an
access outside `out`, or a loop that has not ended within its fuel. -/

/-- Number of values of a `size_t` (64 bits). -/
def SIZE_T_MOD : Nat := 2 ^ 64

/-- The members of `ArithDec`, the bitstream included. -/
structure ArithDecAt where
  instream : List Bool
  in_index : Nat
  max_index : Nat
  range_diff : Int
  range_lower : Int
  range_upper : Int
  in_leading : Int
  cnt : Counters
  deriving DecidableEq, Repr

/-- The first loop of `initDecoding`: `for (i = 0; i < DIGITS_START; i++)`,
reading `instream->at(in_index)` while `i < length`.  The first argument is
`shift + 1`; the result is `in_index` and `in_leading`. -/
def readLeadingAt (instream : List Bool) (length : Nat) :
    Nat → Nat → Nat → Int → Option (Nat × Int)
  | 0, _, in_index, acc => some (in_index, acc)
  | shift + 1, i, in_index, acc =>
    if i < length then
      instream[in_index]?.bind fun b =>
        readLeadingAt instream length shift (i + 1) (in_index + 1)
          (acc + (b.toNat : Int) * 2 ^ shift)
    else some (in_index, acc)

/-- `ArithDec::initDecoding(instream, pos, length)`; `max_index = pos + length
- 1` is computed in `size_t`. -/
def initDecodingAt (cnt : Counters) (instream : List Bool) (pos length : Nat) :
    Option ArithDecAt :=
  (readLeadingAt instream length 10 0 pos 0).map fun r =>
    { instream := instream, in_index := r.1,
      max_index := (pos + length + SIZE_T_MOD - 1) % SIZE_T_MOD,
      range_diff := RANGE_MAX, range_lower := 0, range_upper := RANGE_MAX,
      in_leading := r.2, cnt := cnt }

/-- Reading the next bit into `in_leading` inside the rescaling loop:
`instream->at(in_index)` while `in_index <= max_index`, else nothing. -/
def pullBitAt (a : ArithDecAt) (shifted : Int) : Option ArithDecAt :=
  if a.in_index ≤ a.max_index then
    a.instream[a.in_index]?.map fun b =>
      { a with in_leading := shifted + (b.toNat : Int), in_index := a.in_index + 1 }
  else some { a with in_leading := shifted }

/-- The `while (true)` loop of `ArithDec::decode`; `none` also when the loop
has not left by `break` within the fuel. -/
def decRenormAt : Nat → ArithDecAt → Option ArithDecAt
  | 0, a =>
    if a.range_upper ≤ HALF ∨ a.range_lower ≥ HALF ∨
        (a.range_lower ≥ FIRST_QTR ∧ a.range_upper ≤ THIRD_QTR) then none else some a
  | fuel + 1, a =>
    if a.range_upper ≤ HALF then
      (pullBitAt { a with
        range_lower := a.range_lower * 2
        range_upper := a.range_upper * 2 } (a.in_leading * 2)).bind (decRenormAt fuel)
    else if a.range_lower ≥ HALF then
      (pullBitAt { a with
        range_lower := (a.range_lower - HALF) * 2
        range_upper := (a.range_upper - HALF) * 2 } ((a.in_leading - HALF) * 2)).bind
        (decRenormAt fuel)
    else if a.range_lower ≥ FIRST_QTR ∧ a.range_upper ≤ THIRD_QTR then
      (pullBitAt { a with
        range_lower := (a.range_lower - FIRST_QTR) * 2
        range_upper := (a.range_upper - FIRST_QTR) * 2 } ((a.in_leading - FIRST_QTR) * 2)).bind
        (decRenormAt fuel)
    else some a

/-- `ArithDec::decode(context)`; `counter.at(context)` throws outside
`0..CONTEXTS-1`. -/
def ArithDec_decodeAt (a : ArithDecAt) (context : Nat) : Option (Bool × ArithDecAt) :=
  if context < CONTEXTS then
    let compare := rangeAdd a.cnt context a.range_diff
    let value := a.in_leading - a.range_lower
    let s : Bool := !(decide (value < compare))
    let a1 : ArithDecAt :=
      if value < compare then { a with range_upper := a.range_lower + compare }
      else { a with range_lower := a.range_lower + compare }
    (decRenormAt RENORM_FUEL a1).map fun a2 =>
      (s, { a2 with range_diff := a2.range_upper - a2.range_lower,
                    cnt := updateCounter a.cnt context s })
  else none

/-- The state of `SPIHT_Dec::decode` with the arithmetic decoder `ArithDecAt`. -/
structure SpihtDecAt where
  LIP : List Nat
  LSP : List Nat
  LIS : List pixel
  out : List Int
  arith : ArithDecAt
  deriving DecidableEq, Repr

/-- The sign bit and the write `out[index] = compare` or `-compare`. -/
def decSetSignAt (compare index : Nat) (out : List Int) (a : ArithDecAt) :
    Option (List Int × ArithDecAt) :=
  (ArithDec_decodeAt a CONTEXT_SIGN).bind fun r =>
    if index < out.length then
      some (out.set index (if r.1 then (compare : Int) else -(compare : Int)), r.2)
    else none

/-- The loop over the LIP in `SPIHT_Dec::sortingPass`. -/
def decSortLIPAt (compare : Nat) : List Nat → SpihtDecAt → Option SpihtDecAt
  | [], st => some st
  | i :: rest, st =>
    (ArithDec_decodeAt st.arith CONTEXT_SIGNIFICANCE_0).bind fun r =>
      if r.1 then
        (decSetSignAt compare i st.out r.2).bind fun s =>
          decSortLIPAt compare rest { st with out := s.1, arith := s.2, LSP := st.LSP ++ [i] }
      else
        decSortLIPAt compare rest { st with arith := r.2, LIP := st.LIP ++ [i] }

/-- The test of one child `index` of a significant type-A set. -/
def decChildAt (compare index : Nat) (st : SpihtDecAt) : Option SpihtDecAt :=
  (ArithDec_decodeAt st.arith CONTEXT_SIGNIFICANCE_2).bind fun r =>
    if r.1 then
      (decSetSignAt compare index st.out r.2).map fun s =>
        { st with LSP := st.LSP ++ [index], out := s.1, arith := s.2 }
    else
      some { st with arith := r.2, LIP := st.LIP ++ [index] }

/-- The loop over the LIS in `SPIHT_Dec::sortingPass`. -/
def decSortLISAt (compare : Nat) : Nat → List pixel → SpihtDecAt → Option SpihtDecAt
  | _, [], st => some st
  | 0, _ :: _, _ => none
  | fuel + 1, p :: rest, st =>
    if p.type = 0 then
      (ArithDec_decodeAt st.arith CONTEXT_SIGNIFICANCE_1).bind fun r =>
        if r.1 then
          (decChildAt compare (2 * p.index) { st with arith := r.2 }).bind fun st2 =>
            (decChildAt compare (2 * p.index + 1) st2).bind fun st3 =>
              if 4 * p.index + 3 < st.out.length then
                decSortLISAt compare fuel (rest ++ [⟨p.index, 1⟩]) st3
              else
                decSortLISAt compare fuel rest st3
        else
          decSortLISAt compare fuel rest { st with arith := r.2, LIS := st.LIS ++ [p] }
    else
      (ArithDec_decodeAt st.arith CONTEXT_SIGNIFICANCE_3).bind fun r =>
        if r.1 then
          decSortLISAt compare fuel (rest ++ [⟨2 * p.index, 0⟩, ⟨2 * p.index + 1, 0⟩])
            { st with arith := r.2 }
        else
          decSortLISAt compare fuel rest { st with arith := r.2, LIS := st.LIS ++ [p] }

/-- `SPIHT_Dec::sortingPass`. -/
def decSortingPassAt (compare : Nat) (st : SpihtDecAt) : Option SpihtDecAt :=
  (decSortLIPAt compare st.LIP { st with LIP := [] }).bind fun st1 =>
    decSortLISAt compare (LIS_FUEL st.out.length) st1.LIS { st1 with LIS := [] }

/-- `SPIHT_Dec::refinementPass`. -/
def decRefinementPassAt (compare : Nat) :
    List Nat → List Int → ArithDecAt → Option (List Int × ArithDecAt)
  | [], out, a => some (out, a)
  | i :: rest, out, a =>
    (ArithDec_decodeAt a CONTEXT_REFINEMENT).bind fun r =>
      if r.1 then
        if i < out.length then
          decRefinementPassAt compare rest
            (out.set i (out.getD i 0 + sgn (out.getD i 0) * (compare : Int))) r.2
        else none
      else
        decRefinementPassAt compare rest out r.2

/-- The loop `while (0 <= n)` of `SPIHT_Dec::decode`. -/
def decPlanesAt : Nat → SpihtDecAt → Option SpihtDecAt
  | n, st =>
    (decSortingPassAt (1 <<< n) st).bind fun st1 =>
      (decRefinementPassAt (1 <<< n) (st1.LSP.take st.LSP.length) st1.out st1.arith).bind
        fun r =>
          match n with
          | 0 => some { st1 with out := r.1, arith := r.2 }
          | k + 1 => decPlanesAt k { st1 with out := r.1, arith := r.2 }

/-- `SPIHT_Dec::getBits(out, context)`. -/
def getBitsAt (context : Nat) : Nat → ArithDecAt → Option (List Bool × ArithDecAt)
  | 0, a => some ([], a)
  | k + 1, a =>
    (ArithDec_decodeAt a context).bind fun r =>
      (getBitsAt context k r.2).map fun r2 => (r.1 :: r2.1, r2.2)

/-- What `SPIHT_Dec::decode` hands back, the arithmetic decoder as
`ArithDecAt`. -/
structure SpihtDecAtResult (K : Type) where
  out : List Int
  wavmax : K
  n_real : Nat
  arith : ArithDecAt

/-- `SPIHT_Dec::decode(bitstream, pos, streamlength, out, origlength, level,
wavmax, n_real)` with every access checked. -/
def SPIHT_Dec_decodeAt {K : Type} [LinearOrderedField K] (cnt : Counters)
    (bitstream : List Bool) (pos streamlength : Nat) (out : List Int)
    (origlength level : Nat) : Option (SpihtDecAtResult K) :=
  (initDecodingAt cnt bitstream pos streamlength).bind fun a =>
    if origlength ≤ out.length then
      let out := List.replicate origlength 0 ++ out.drop origlength
      (getBitsAt CONTEXT_SIDE MAXALLOCBITS_SIZE a).bind fun b =>
        let maxallocbits := bi2deVec b.1
        (ArithDec_decodeAt b.2 CONTEXT_SIDE).bind fun md =>
          (getBitsAt CONTEXT_SIDE (WAVMAXLENGTH - 1) md.2).bind fun w =>
            let temp := bi2deVec w.1
            let wavmax : K :=
              if md.1 then (temp : K) * (1 / 2 ^ 4) + 1 else (temp : K) * (1 / 2 ^ 7)
            let l := initLists origlength level
            (decPlanesAt maxallocbits ⟨l.1, [], l.2, out, w.2⟩).map (fun st =>
              { out := st.out, wavmax := wavmax, n_real := maxallocbits,
                arith := { st.arith with cnt := rescaleCounter st.arith.cnt } })
    else none

/-- The list model of an arithmetic decoder with indexes: `rest` holds
`instream[in_index .. max_index]`. -/
def ArithDecAt.toDec (a : ArithDecAt) : ArithDec :=
  { rest := (a.instream.drop a.in_index).take (a.max_index + 1 - a.in_index),
    range_diff := a.range_diff, range_lower := a.range_lower, range_upper := a.range_upper,
    in_leading := a.in_leading, cnt := a.cnt }

/-- The list model of a SPIHT decoder state. -/
def SpihtDecAt.toDec (s : SpihtDecAt) : SpihtDec :=
  ⟨s.LIP, s.LSP, s.LIS, s.out, s.arith.toDec⟩

/-- The block `instream[.. max_index]` lies inside the stream, and `in_index`
is at most one past its end. -/
def Fit (a : ArithDecAt) : Prop :=
  a.in_index ≤ a.max_index + 1 ∧ a.max_index + 1 ≤ a.instream.length

/-! ## PeakFiltering.cpp

`double`s are elements of a linearly ordered field `K`; `x.at(i)` is `x[i]?`,
and `none` stands for the `std::out_of_range` it throws (or for a loop that
has not ended within its fuel).  Indexes are `size_t`. -/

/-- `struct peak { size_t location; double height; }`. -/
structure peak (K : Type) where
  location : Nat
  height : K
  deriving DecidableEq, Repr

/-- The difference `v - 1` of a `size_t` (it wraps around at 0). -/
def decSizeT (v : Nat) : Nat := if v = 0 then SIZE_T_MOD - 1 else v - 1

/-- `PEAK_HUGE_VAL = 2147483647`. -/
def PEAK_HUGE_VAL {K : Type} [LinearOrderedField K] : K := 2147483647

/-- `Max(v1, v2)` of Utilities.cpp. -/
def Max {K : Type} [LinearOrderedField K] (v1 v2 : K) : K := if v1 > v2 then v1 else v2

/-- The inner loop `while (x.at(i_plateau + 1) == x.at(i)) ++i_plateau;` of
`FindAllPeakLocations`: the list is `x[i_plateau + 1 ..]`, the result the final
`i_plateau`; the empty list means that `x.at(i_plateau + 1)` throws. -/
def plateauEnd {K : Type} [LinearOrderedField K] (xi : K) : List K → Nat → Option Nat
  | [], _ => none
  | v :: rest, i_plateau =>
    if v = xi then plateauEnd xi rest (i_plateau + 1) else some i_plateau

/-- The loop `while (i < i_max)` of `FindAllPeakLocations`. -/
def findAllLoop {K : Type} [LinearOrderedField K] (x : List K) (i_max : Nat) :
    Nat → Nat → List (peak K) → Option (List (peak K))
  | 0, i, peaks => if i < i_max then none else some peaks
  | fuel + 1, i, peaks =>
    if i < i_max then
      x[i - 1]?.bind fun a => x[i]?.bind fun b =>
        if a < b then
          x[i + 1]?.bind fun c =>
            if c < b then findAllLoop x i_max fuel (i + 1) (peaks ++ [⟨i, b⟩])
            else if c = b then
              (plateauEnd b (x.drop (i + 2)) (i + 1)).bind fun i_plateau =>
                x[i_plateau + 1]?.bind fun e =>
                  if e < b then findAllLoop x i_max fuel (i_plateau + 1) (peaks ++ [⟨i, b⟩])
                  else if e > b then findAllLoop x i_max fuel (i_plateau + 1) peaks
                  else findAllLoop x i_max fuel (i + 1) peaks
            else findAllLoop x i_max fuel (i + 1) peaks
        else findAllLoop x i_max fuel (i + 1) peaks
    else some peaks

/-- `FindAllPeakLocations(x)`; `i_max = x.size() - 1` in `size_t`. -/
def FindAllPeakLocations {K : Type} [LinearOrderedField K] (x : List K) :
    Option (List (peak K)) :=
  findAllLoop x (decSizeT x.length) x.length 1 []

/-- The loop `for (k = i - 1; k >= 0; --k)` of `PeakProminence` over
`peaks[i-1], ..., peaks[0]`: the location of the first peak higher than `h`,
else 0. -/
def seekLeft {K : Type} [LinearOrderedField K] (h : K) : List (peak K) → Nat
  | [] => 0
  | p :: rest => if p.height > h then p.location else seekLeft h rest

/-- The loop `for (k = i + 1; k < num_peaks; ++k)` of `PeakProminence` over
`peaks[i+1], ...`: the location of the first peak higher than `h`, else
`edge`. -/
def seekRight {K : Type} [LinearOrderedField K] (h : K) (edge : Nat) : List (peak K) → Nat
  | [] => edge
  | p :: rest => if p.height > h then p.location else seekRight h edge rest

/-- The first `while ((j >= j_min) && (j <= j_max))` loop of `PeakProminence`,
which walks to the left; the state is `j`, `min_val_left`, `valley_left[i]`,
and `--j` is taken in `size_t`.  The valleys are `int`s, which hold every
index of a spectrum of at most `2^31` samples. -/
def scanLeft {K : Type} [LinearOrderedField K] (spectrum : List K) (location j_min j_max : Nat) :
    Nat → Nat → K → Int → Option Int
  | 0, j, _, valley => if j_min ≤ j ∧ j ≤ j_max then none else some valley
  | fuel + 1, j, min_val, valley =>
    if j_min ≤ j ∧ j ≤ j_max then
      if location = 0 then some (-1)
      else
        spectrum[j]?.bind fun s =>
          if s ≤ min_val then
            scanLeft spectrum location j_min j_max fuel (decSizeT j) s j
          else
            scanLeft spectrum location j_min j_max fuel (decSizeT j) min_val valley
    else some valley

/-- The conversion `(int32_t)(j_max)` of a `size_t`, converted back to
`size_t` for the comparison with `location`. -/
def int32cast (v : Nat) : Nat :=
  if v % 2 ^ 32 < 2 ^ 31 then v % 2 ^ 32 else v % 2 ^ 32 + (SIZE_T_MOD - 2 ^ 32)

/-- The second `while ((j >= j_min) && (j <= j_max))` loop of `PeakProminence`,
which walks to the right. -/
def scanRight {K : Type} [LinearOrderedField K] (spectrum : List K)
    (location j_min j_max : Nat) : Nat → Nat → K → Int → Option Int
  | 0, j, _, valley => if j_min ≤ j ∧ j ≤ j_max then none else some valley
  | fuel + 1, j, min_val, valley =>
    if j_min ≤ j ∧ j ≤ j_max then
      if location = int32cast j_max then some (-1)
      else
        spectrum[j]?.bind fun s =>
          if s ≤ min_val then scanRight spectrum location j_min j_max fuel (j + 1) s j
          else scanRight spectrum location j_min j_max fuel (j + 1) min_val valley
    else some valley

/-- The height of a valley in the last loop of `PeakProminence`:
`-PEAK_HUGE_VAL` for the valley `-1`, else `spectrum.at(valley)`. -/
def valleyHeight {K : Type} [LinearOrderedField K] (spectrum : List K) (valley : Int) :
    Option K :=
  if valley = -1 then some (-PEAK_HUGE_VAL) else spectrum[valley.toNat]?

/-- What `PeakProminence` computes for the peak `i`: its location and its
height minus the higher of its two valleys. -/
def prominenceAt {K : Type} [LinearOrderedField K] (spectrum : List K) (peaks : List (peak K))
    (i : Nat) : Option (peak K) :=
  peaks[i]?.bind fun p =>
    (scanLeft spectrum p.location (seekLeft p.height (peaks.take i).reverse)
      (decSizeT p.location) (p.location + 1)
      (decSizeT p.location) p.height 0).bind fun vl =>
    (scanRight spectrum p.location (p.location + 1)
      (seekRight p.height (decSizeT spectrum.length) (peaks.drop (i + 1)))
      (spectrum.length + 1) (p.location + 1) p.height 0).bind fun vr =>
    (valleyHeight spectrum vl).bind fun hl =>
    (valleyHeight spectrum vr).bind fun hr =>
      some ⟨p.location, p.height - Max hl hr⟩

/-- The loops over the peaks `i` of `PeakProminence`. -/
def prominenceLoop {K : Type} [LinearOrderedField K] (spectrum : List K)
    (peaks : List (peak K)) : List Nat → Option (List (peak K))
  | [] => some []
  | i :: rest =>
    (prominenceAt spectrum peaks i).bind fun p =>
      (prominenceLoop spectrum peaks rest).map fun l => p :: l

/-- `PeakProminence(spectrum, peaks)`. -/
def PeakProminence {K : Type} [LinearOrderedField K] (spectrum : List K)
    (peaks : List (peak K)) : Option (List (peak K)) :=
  prominenceLoop spectrum peaks (List.range peaks.length)

/-- `FilterPeakCriterion(input, min_peak_val)`. -/
def FilterPeakCriterion {K : Type} [LinearOrderedField K] (input : List (peak K))
    (min_peak_val : K) : List (peak K) :=
  match input with
  | [] => []
  | p :: rest =>
    if p.height ≥ min_peak_val then ⟨p.location, p.height⟩ :: FilterPeakCriterion rest min_peak_val
    else FilterPeakCriterion rest min_peak_val

/-- The last loop of `FindPeaks`: `{location, spectrum.at(location)}` for every
remaining peak. -/
def peakHeights {K : Type} [LinearOrderedField K] (spectrum : List K) :
    List (peak K) → Option (List (peak K))
  | [] => some []
  | p :: rest =>
    spectrum[p.location]?.bind fun h =>
      (peakHeights spectrum rest).map fun l => ⟨p.location, h⟩ :: l

/-- `FindPeaks(spectrum, min_peak_prominence, min_peak_height)`. -/
def FindPeaks {K : Type} [LinearOrderedField K] (spectrum : List K)
    (min_peak_prominence min_peak_height : K) : Option (List (peak K)) :=
  (FindAllPeakLocations spectrum).bind fun peaks_all =>
    if peaks_all.isEmpty then some peaks_all
    else
      if (FilterPeakCriterion peaks_all min_peak_height).isEmpty then some []
      else
        (PeakProminence spectrum (FilterPeakCriterion peaks_all min_peak_height)).bind
          fun prominences =>
            peakHeights spectrum (FilterPeakCriterion prominences min_peak_prominence)

/-- The index `i` is a peak of `x` in the words of the specification: not the
first and not the last index, a sample higher than the one before, and the
first of one or more equal samples that are followed by a lower sample. -/
def IsPeakAt {K : Type} [LinearOrderedField K] (x : List K) (i : Nat) : Prop :=
  1 ≤ i ∧ i + 2 ≤ x.length ∧ x.getD (i - 1) 0 < x.getD i 0 ∧
  ∃ j, i ≤ j ∧ j + 2 ≤ x.length ∧ (∀ k, i ≤ k → k ≤ j → x.getD k 0 = x.getD i 0) ∧
    x.getD (j + 1) 0 < x.getD i 0

/-- A plateau of at least two samples that begins at `i` after a rise and
extends up to the last sample of `x`. -/
def RisingPlateauToEnd {K : Type} [LinearOrderedField K] (x : List K) (i : Nat) : Prop :=
  1 ≤ i ∧ i + 2 ≤ x.length ∧ x.getD (i - 1) 0 < x.getD i 0 ∧
  ∀ k, i ≤ k → k < x.length → x.getD k 0 = x.getD i 0

/-- Invariant of the loop of `FindAllPeakLocations` at the index `i`: the
peaks found are, in increasing order, the peaks before `i`. -/
def PeaksBelow {K : Type} [LinearOrderedField K] (x : List K) (i : Nat)
    (peaks : List (peak K)) : Prop :=
  (peaks.map (fun p => p.location)).Pairwise (fun a b => a < b) ∧
  ∀ p, p ∈ peaks ↔ (p.location < i ∧ IsPeakAt x p.location ∧ p.height = x.getD p.location 0)

/-- The minimum of the samples `s[a], ..., s[a + d]`. -/
def minFrom {K : Type} [LinearOrderedField K] (s : List K) (a : Nat) : Nat → K
  | 0 => s.getD a 0
  | d + 1 => min (minFrom s a d) (s.getD (a + d + 1) 0)

/-- The minimum of the spectrum over the indices `a .. b` (for `a <= b`). -/
def rangeMin {K : Type} [LinearOrderedField K] (s : List K) (a b : Nat) : K :=
  minFrom s a (b - a)

/-- The prominence of the peak `i` of the list `peaks` in the words of the
specification: its height minus the higher of its two valleys, the left valley
being the minimum of the spectrum from the nearest higher peak to the left in
the list (or from index 0) up to the sample before the peak, the right valley
the minimum from the sample after the peak up to the nearest higher peak to the
right (or to the last index). -/
def prominenceSpec {K : Type} [LinearOrderedField K] (s : List K) (peaks : List (peak K))
    (i : Nat) : peak K :=
  let p := peaks.getD i ⟨0, 0⟩
  let l := match (peaks.take i).reverse.find? (fun q => decide (p.height < q.height)) with
    | some q => q.location
    | none => 0
  let r := match (peaks.drop (i + 1)).find? (fun q => decide (p.height < q.height)) with
    | some q => q.location
    | none => s.length - 1
  ⟨p.location, p.height - max (rangeMin s l (p.location - 1)) (rangeMin s (p.location + 1) r)⟩

/-- The spectrum of the prominence test of PeakFiltering.test.cpp: 512 samples,
all 0 except `8.2, 5, 7, 6, 6.2, 8` at the indices 1 to 6. -/
def testSpectrum : List ℚ := [0, 41 / 5, 5, 7, 6, 31 / 5, 8] ++ List.replicate 505 0

/-- The peaks of the prominence test. -/
def testPeaks : List (peak ℚ) := [⟨1, 41 / 5⟩, ⟨3, 7⟩, ⟨6, 8⟩]

/-! ## PsychohapticModel.cpp: the initialisation

`Encoder::Encoder` ends with `pm.init(bl, fs)`, which fills the frequency grid
and the perceptual threshold.  The library functions `log10` and `pow` are
parameters. -/

def thr_a {K : Type} [LinearOrderedField K] : K := 62
def thr_c {K : Type} [LinearOrderedField K] : K := 1 / 550
def thr_b {K : Type} [LinearOrderedField K] : K := 1 - 250 * thr_c
def thr_e {K : Type} [LinearOrderedField K] : K := 77
def BASE_LOG {K : Type} [LinearOrderedField K] : K := 10
def FACTOR_LOG {K : Type} [LinearOrderedField K] : K := 10

/-- `PsychohapticModel::setFreqVector(fs, bl)`: `freqs[i]` is the sum of `i`
steps `fs / (2 * bl - 1)` (`bl >= 1`). -/
def setFreqVector {K : Type} [LinearOrderedField K] (fs bl : Nat) : List K :=
  let step : K := (fs : K) / ((2 * bl - 1 : Nat) : K)
  ((List.range bl).foldl (fun (acc : List K × K) _ => (acc.1 ++ [acc.2], acc.2 + step))
    ([], 0)).1

/-- The value `perceptualThreshold` computes for the frequency `f`:
`pow(BASE_LOG, (abs(temp * pow(log10(thr_c * f + thr_b), 2)) - thr_e) /
FACTOR_LOG)` with `temp = thr_a / pow(log10(thr_b), 2)`. -/
def percthresValue {K : Type} [LinearOrderedField K] (log10 : K → K) (pow : K → K → K)
    (f : K) : K :=
  let temp := thr_a / pow (log10 thr_b) 2
  pow BASE_LOG ((|temp * pow (log10 (thr_c * f + thr_b)) 2| - thr_e) / FACTOR_LOG)

/-- The loop `while (true)` of `perceptualThreshold` from the index `i` on: it
ends by `break` at the first `i` with `percthres[i] >= 1`, which it sets to 1,
and returns that `i`.  The code reads `freqs[i]` and writes `percthres[i]`
without a test of `i`; `none` when `i` leaves the vectors. -/
def thresholdSearch {K : Type} [LinearOrderedField K] (log10 : K → K) (pow : K → K → K)
    (freqs : List K) : Nat → Nat → List K → Option (Nat × List K)
  | 0, _, _ => none
  | fuel + 1, i, percthres =>
    if i < percthres.length ∧ i < freqs.length then
      if percthresValue log10 pow (freqs.getD i 0) ≥ 1 then some (i, percthres.set i 1)
      else thresholdSearch log10 pow freqs fuel (i + 1)
        (percthres.set i (percthresValue log10 pow (freqs.getD i 0)))
    else none

/-- `PsychohapticModel::perceptualThreshold()` for the block length `bl`: the
value of `freqs[0]`, the search loop from index 1, then the last value copied
up to the end. -/
def perceptualThreshold {K : Type} [LinearOrderedField K] (log10 : K → K) (pow : K → K → K)
    (bl : Nat) (freqs : List K) : Option (List K) :=
  let percthres := (List.replicate bl (0 : K)).set 0 (percthresValue log10 pow (freqs.getD 0 0))
  (thresholdSearch log10 pow freqs (bl + 1) 1 percthres).map (fun r =>
    (List.range (bl - (r.1 + 1))).foldl
      (fun p j => p.set (r.1 + 1 + j) (p.getD (r.1 + j) 0)) r.2)

/-- The members of `PsychohapticModel`. -/
structure PsychohapticModel (K : Type) where
  bl : Nat
  fs : Nat
  l_book : Nat
  book : List Nat
  book_cumulative : List Nat
  freqs : List K
  percthres : List K

/-- `PsychohapticModel::init(bl, fs)`; `none` when `perceptualThreshold` leaves
its vectors. -/
def PsychohapticModel.init {K : Type} [LinearOrderedField K] (log10 : K → K)
    (pow : K → K → K) (bl fs : Nat) : Option (PsychohapticModel K) :=
  let dwtlevel := ilog2 bl - 2
  let b := bl >>> dwtlevel
  let freqs : List K := setFreqVector fs bl
  (perceptualThreshold log10 pow bl freqs).map (fun percthres =>
    { bl := bl
      fs := fs
      l_book := dwtlevel + 1
      book := b :: (List.range dwtlevel).map (fun i => b <<< i)
      book_cumulative := 0 :: (List.range (dwtlevel + 1)).map (fun i => b <<< i)
      freqs := freqs
      percthres := percthres })

/-- `Encoder::Encoder(bl, fs, maxChannels)` as a whole: the members of
`Encoder.new`, then `pm.init(bl, fs)`; `none` when `pm.init` does not return. -/
def Encoder.construct {K : Type} [LinearOrderedField K] (log10 : K → K) (pow : K → K → K)
    (bl fs maxChannels : Nat) : Option (Encoder × PsychohapticModel K) :=
  (PsychohapticModel.init log10 pow bl fs).map (fun pm => (Encoder.new bl fs maxChannels, pm))

/-- A sketch of `log10` and `pow` on the rationals, enough to run the
threshold search: `pow(10, y)` is below 1 exactly for `y < 0`. -/
def samplePow : ℚ → ℚ → ℚ := fun x y => if y < 0 then 1 / 2 else if y = 2 then x * x else 1

/-! ## The encoder with the state it keeps between calls

`Encoder` keeps, between two calls of `encode1D`, the counters of its
arithmetic coder and the tables `maxDescendants` and `maxDescendants1` of its
SPIHT coder (`std::vector::resize` keeps the old entries).  The functions
below take this state and return it. -/

/-- `v.resize(n)` on a `std::vector<int>`: the first `n` entries, zeros where
there were none. -/
def resizeVec (v : List Nat) (n : Nat) : List Nat := v.take n ++ List.replicate (n - v.length) 0

/-- `SPIHT_Enc::initMaxDescendant(signal)` when the tables hold `old` from
earlier calls. -/
def initMaxDescendantFrom (old : MaxDesc) (signal : List Int) : MaxDesc :=
  let start := signal.length >>> 1
  let md := initMaxLeaves signal start (resizeVec old.maxDescendants start)
  initMaxLevels signal (start >>> 1) (start >>> 1)
    ⟨md, resizeVec old.maxDescendants1 (start >>> 1)⟩

/-- `SPIHT_Enc::encode` when the tables hold `old`: the two streams and the
tables it leaves. -/
def SPIHT_Enc_encodeFrom (old : MaxDesc) (data : List Int) (level : Nat)
    (bitwavmax : List Bool) (maxallocbits : Nat) (outstream : List Bool) (context : List Nat) :
    Option ((List Bool × List Nat) × MaxDesc) :=
  let maxallocbits := if maxallocbits > 2 ^ MAXALLOCBITS_SIZE - 1 then 15 else maxallocbits
  let outstream := de2bi maxallocbits outstream MAXALLOCBITS_SIZE ++ bitwavmax
  let context := context ++ List.replicate (MAXALLOCBITS_SIZE + bitwavmax.length) CONTEXT_SIDE
  let l := initLists data.length level
  let m := initMaxDescendantFrom old data
  (encPlanes data m maxallocbits ⟨l.1, [], l.2, outstream, context⟩).map
    (fun st => ((st.outstream, st.context), m))

/-- The state that an `Encoder` keeps between calls: the counters of
`arithmetic` and the tables of `spiht`. -/
structure EncoderMem where
  cnt : Counters
  tables : MaxDesc
  deriving DecidableEq, Repr

/-- `Encoder::losslessEncoding` on the state `mem`: the bit stream and the new
state. -/
def losslessEncodingFrom (e : Encoder) (mem : EncoderMem) (block_intquant : List Int)
    (bitwavmax : List Bool) (bitmax : Nat) (bitstream : List Bool) :
    Option (List Bool × EncoderMem) :=
  (SPIHT_Enc_encodeFrom mem.tables block_intquant e.dwtlevel bitwavmax bitmax [] []).bind
    fun r =>
      (ArithEnc_encode mem.cnt r.1.1 r.1.2 []).map fun a =>
        ((lengthEncoding e.lengthbits bitstream a.1).1 ++
          (lengthEncoding e.lengthbits bitstream a.1).2, ⟨rescaleCounter a.2, r.2⟩)

/-- `Encoder::encodeBlock` on the state `mem`: the bit stream and the new
state. -/
def encodeBlockFrom {K : Type} [LinearOrderedField K] [FloorRing K] (log10 : K → K)
    (e : Encoder) (mem : EncoderMem) (block_dwt SMR bandenergy : List K)
    (bitstream : List Bool) (bitbudget : Nat) : Option (List Bool × EncoderMem) :=
  if checkZeros block_dwt e.bl then
    some ((lengthEncoding e.lengthbits bitstream []).1, mem)
  else
    (quantizeBlock log10 e block_dwt SMR bandenergy bitbudget).bind fun q =>
      losslessEncodingFrom e mem q.block_intquant q.bitwavmax q.bitmax bitstream

/-- The loop over the blocks of `encode1D` on the state `mem`. -/
def encode1DLoopFrom {K : Type} [LinearOrderedField K] [FloorRing K] (log10 : K → K)
    (getSMR : List K → pmResult K) (e : Encoder) (sig : List K) (bitbudget : Nat) :
    Nat → Nat → List Bool × EncoderMem → Option (List Bool × EncoderMem)
  | 0, _, st => some st
  | todo + 1, b, st =>
    (encodeBlockFrom log10 e st.2 (DWT (blockOf sig e.bl b) e.dwtlevel)
      (getSMR (blockOf sig e.bl b)).SMR (getSMR (blockOf sig e.bl b)).bandenergy
      (headerEncoding e.bl st.1) bitbudget).bind fun r =>
        encode1DLoopFrom log10 getSMR e sig bitbudget todo (b + 1) r

/-- `Encoder::encode1D(sig, bitbudget)` on an encoder in the state `mem`: the
bit stream and the state it leaves; `arithmetic.resetCounter()` comes first. -/
def encode1DFrom {K : Type} [LinearOrderedField K] [FloorRing K] (log10 : K → K)
    (getSMR : List K → pmResult K) (e : Encoder) (mem : EncoderMem) (sig : List K)
    (bitbudget : Nat) : Option (List Bool × EncoderMem) :=
  let bitbudget := if bitbudget > MAX_BITS * e.l_book then MAX_BITS * e.l_book else bitbudget
  let numblocks := (sig.length + e.bl - 1) / e.bl
  encode1DLoopFrom log10 getSMR e sig bitbudget numblocks 0
    (fsEncode e.fs [], ⟨resetCounter, mem.tables⟩)

/-- Two pairs of tables with the same sizes and the same entries from the
index `w` on. -/
def AgreeFrom (w : Nat) (m m2 : MaxDesc) : Prop :=
  m.maxDescendants.length = m2.maxDescendants.length ∧
  m.maxDescendants1.length = m2.maxDescendants1.length ∧
  (∀ t, w ≤ t → m.maxDescendants.getD t 0 = m2.maxDescendants.getD t 0) ∧
  (∀ t, w ≤ t → m.maxDescendants1.getD t 0 = m2.maxDescendants1.getD t 0)

/-- The counters of both coders after one 0 has been coded in context 0 from
freshly reset counters: `counter[0] = 9`, `counter_total[0] = 17`. -/
def countersAfterZero : Counters := updateCounter resetCounter 0 false

/-- The number whose binary digits, most significant first, are the given
bits. -/
def msbFirstValue : List Bool → Nat
  | [] => 0
  | b :: l => b.toNat * 2 ^ l.length + msbFirstValue l

/-- The trial values of the final loop of `ArithEnc::encode`: `n` values
starting at `v`, each half of the one before (`val = val >> 1`). -/
def trialList : Nat → Int → List Int
  | 0, _ => []
  | n + 1, v => v :: trialList n (v / 2)

/-- The final loop of `ArithEnc::encode` over a list of trial values, as the
code runs it: it goes on only while `range_lower > 0`; a trial value below
`range_upper` gives a 1 and is taken off both bounds, any other gives a 0. -/
def flushWalk : List Int → Int → Int → List Bool
  | [], _, _ => []
  | v :: vs, lo, hi =>
    if lo > 0 then
      if v < hi then true :: flushWalk vs (lo - v) (hi - v) else false :: flushWalk vs lo hi
    else []

/-- The walk in the words of the specification: every trial value of the list
gets its bit, a 1 (the value being taken off both bounds) when it is below
`range_upper` and a 0 otherwise. -/
def flushWalkAll : List Int → Int → Int → List Bool
  | [], _, _ => []
  | v :: vs, lo, hi =>
    if v < hi then true :: flushWalkAll vs (lo - v) (hi - v) else false :: flushWalkAll vs lo hi

/-- A bit sequence without its trailing zeros. -/
def stripTrailingZeros (out : List Bool) : List Bool :=
  (out.reverse.dropWhile (fun b => !b)).reverse

/-- Entry `t` of `maxDescendants` is the magnitude of a coefficient among the
descendants of `t`. -/
def AttA (signal : List Int) (md : List Nat) (t : Nat) : Prop :=
  ∃ i, i < signal.length ∧ covers ⟨t, 0⟩ i = true ∧ (signal.getD i 0).natAbs = md.getD t 0

/-- Entry `t` of `maxDescendants1` is the magnitude of a coefficient among the
descendants of the children of `t`. -/
def AttB (signal : List Int) (md1 : List Nat) (t : Nat) : Prop :=
  ∃ i, i < signal.length ∧ covers ⟨t, 1⟩ i = true ∧ (signal.getD i 0).natAbs = md1.getD t 0

/-- The entries of the tables from index `w` on are attained. -/
def AttInv (signal : List Int) (q w : Nat) (m : MaxDesc) : Prop :=
  m.maxDescendants.length = 2 * q ∧ m.maxDescendants1.length = q ∧
  (∀ t, w ≤ t → t < 2 * q → AttA signal m.maxDescendants t) ∧
  (∀ t, w ≤ t → t < q → AttB signal m.maxDescendants1 t)

/-- The prominence of the peak `p` that stands between the peaks `pre` (to its
left) and `post` (to its right) of a list, in the words of the specification:
`prominenceSpec` with the list split at the peak. -/
def promZ {K : Type} [LinearOrderedField K] (s : List K) (pre : List (peak K)) (p : peak K)
    (post : List (peak K)) : peak K :=
  let l := match pre.reverse.find? (fun q => decide (p.height < q.height)) with
    | some q => q.location
    | none => 0
  let r := match post.find? (fun q => decide (p.height < q.height)) with
    | some q => q.location
    | none => s.length - 1
  ⟨p.location, p.height - max (rangeMin s l (p.location - 1)) (rangeMin s (p.location + 1) r)⟩

/-- The prominences of the peaks `L` that follow the peaks `pre` in a list. -/
def promGo {K : Type} [LinearOrderedField K] (s : List K) :
    List (peak K) → List (peak K) → List (peak K)
  | _, [] => []
  | pre, p :: post => promZ s pre p post :: promGo s (pre ++ [p]) post

/-- `FindPeaks` with its two steps in the other order: the prominences are
computed among all the peaks of `FindAllPeakLocations`, then the peaks below
the minimum height or below the minimum prominence are discarded. -/
def FindPeaksProminenceFirst {K : Type} [LinearOrderedField K] (spectrum : List K)
    (min_peak_prominence min_peak_height : K) : Option (List (peak K)) :=
  (FindAllPeakLocations spectrum).bind fun peaks_all =>
    if peaks_all.isEmpty then some peaks_all
    else
      (PeakProminence spectrum peaks_all).bind fun prominences =>
        peakHeights spectrum
          (((peaks_all.zip prominences).filter (fun x =>
            decide (min_peak_height ≤ x.1.height) &&
              decide (min_peak_prominence ≤ x.2.height))).map Prod.snd)

/-! # Theorems -/

theorem de2bi_append (val : Nat) (out : List Bool) (k : Nat) :
    de2bi val out k = out ++ de2bi val [] k := by
  induction k generalizing val out with
  | zero => simp [de2bi]
  | succ n ih =>
    rw [de2bi, ih, de2bi, ih (val >>> 1) ([] ++ _)]
    simp

theorem de2bi_length (val : Nat) (k : Nat) : (de2bi val [] k).length = k := by
  induction k generalizing val with
  | zero => simp [de2bi]
  | succ n ih => rw [de2bi, de2bi_append]; simp [ih]

theorem de2bi_get (val k i : Nat) (h : i < k) :
    (de2bi val [] k)[i]? = some (val.testBit i) := by
  induction k generalizing val i with
  | zero => omega
  | succ n ih =>
    rw [de2bi, de2bi_append]
    cases i with
    | zero =>
      simp [Nat.testBit, Nat.one_and_eq_mod_two, Nat.shiftRight_zero]
      by_cases h2 : val % 2 = 1 <;> simp [h2]
    | succ j =>
      simp only [List.nil_append, List.singleton_append, List.getElem?_cons_succ]
      rw [ih _ _ (by omega)]
      simp [Nat.testBit_succ, Nat.shiftRight_eq_div_pow]

theorem bi2de_step (p : List Bool) (n pos : Nat) :
    bi2de p (n + 1) pos =
      (bi2de p n pos).bind (fun val => p[pos + n]?.map (fun b => val + (b.toNat <<< n))) := by
  unfold bi2de
  rw [List.range_succ, List.foldlM_append]
  simp [List.foldlM]


theorem bi2de_append_left (out p : List Bool) (n pos : Nat) :
    bi2de (out ++ p) n (out.length + pos) = bi2de p n pos := by
  induction n with
  | zero => simp [bi2de]
  | succ n ih =>
    rw [bi2de_step, bi2de_step, ih]
    congr 1
    funext val
    rw [Nat.add_assoc, List.getElem?_append_right (by omega)]
    simp

theorem bi2de_de2bi_aux (val k n : Nat) (rest : List Bool) (h : n ≤ k) :
    bi2de (de2bi val [] k ++ rest) n 0 = some (val % 2 ^ n) := by
  induction n with
  | zero => simp [bi2de, Nat.mod_one]
  | succ n ih =>
    rw [bi2de_step, ih (by omega)]
    simp only [Option.some_bind, Nat.zero_add]
    rw [List.getElem?_append_left (by rw [de2bi_length]; omega), de2bi_get _ _ _ (by omega)]
    simp only [Option.map_some']
    congr 1
    rw [Nat.shiftLeft_eq, Nat.mod_pow_succ, Nat.toNat_testBit]
    ring


/-- C10: for `v < 2^k`, `de2bi(v, out, k)` appends exactly `k` bits to `out`,
least-significant bit first, and `bi2de` over those `k` bits returns `v`; hence
for a payload of at most `2^lengthbits - 1` bits `lengthEncoding` leaves the
payload untouched and writes a field of `lengthbits` bits from which
`lengthDecoding` returns the payload length, removing exactly that field. -/
theorem C10_de2bi_bi2de_length_field (k v lengthbits : Nat)
    (out outstream payload rest : List Bool)
    (hv : v < 2 ^ k) (hn : payload.length ≤ 2 ^ lengthbits - 1) :
    (∃ bits : List Bool, de2bi v out k = out ++ bits ∧ bits.length = k ∧
        (∀ i, i < k → bits[i]? = some (v.testBit i)) ∧
        bi2de (out ++ bits ++ rest) k out.length = some v) ∧
    (∃ field : List Bool,
        lengthEncoding lengthbits outstream payload = (outstream ++ field, payload) ∧
        field.length = lengthbits ∧
        lengthDecoding lengthbits (field ++ payload ++ rest)
          = some (payload.length, payload ++ rest)) := by
  constructor
  · refine ⟨de2bi v [] k, de2bi_append v out k, de2bi_length v k, ?_, ?_⟩
    · intro i hi; exact de2bi_get v k i hi
    · have h := bi2de_append_left out (de2bi v [] k ++ rest) k 0
      rw [Nat.add_zero] at h
      rw [List.append_assoc, h, bi2de_de2bi_aux v k k rest (le_refl k), Nat.mod_eq_of_lt hv]
  · refine ⟨de2bi payload.length [] lengthbits, ?_, de2bi_length _ _, ?_⟩
    · unfold lengthEncoding
      simp only []
      rw [if_neg (by omega), de2bi_append]
    · unfold lengthDecoding
      have hp : 0 < 2 ^ lengthbits := Nat.two_pow_pos lengthbits
      rw [List.append_assoc, bi2de_de2bi_aux _ _ _ _ (le_refl _),
        Nat.mod_eq_of_lt (by omega)]
      simp [List.drop_append_eq_append_drop, de2bi_length]

theorem C10_de2bi_bi2de_length_field_witness :
    ((5 : Nat) < 2 ^ 4 ∧ [true, false, true].length ≤ 2 ^ 10 - 1) ∧
    de2bi 5 [true] 4 = [true] ++ [true, false, true, false] ∧
    lengthDecoding 10 ([true, true, false, false, false, false, false, false, false, false]
        ++ [true, false, true] ++ [false]) = some (3, [true, false, true] ++ [false]) := by
  have h := C10_de2bi_bi2de_length_field 4 5 10 [true] [] [true, false, true] [false]
    (by decide) (by decide)
  refine ⟨by decide, by decide, ?_⟩
  obtain ⟨-, field, h1, -, h3⟩ := h
  have hf : field = [true, true, false, false, false, false, false, false, false, false] := by
    have : lengthEncoding 10 [] [true, false, true] =
      ([true, true, false, false, false, false, false, false, false, false], [true, false, true]) := by
      decide
    rw [this] at h1
    simpa using (congrArg Prod.fst h1).symm
  rw [← hf]; exact h3

/-- C9: `headerEncoding` appends the codes 1, 01, 001, 0000, 0001 for the block
lengths 32, 64, 128, 256, 512; `headerDecoding` on a stream that starts with one
of these codes sets `bl`, `dwtlevel = log2(bl) - 2` and `lengthbits` (10..14) of
that block length and removes exactly the bits of the code; the five codes are
prefix-free. -/
theorem C9_block_length_code (pre rest : List Bool) :
    (headerEncoding 32 pre = pre ++ [true] ∧
     headerEncoding 64 pre = pre ++ [false, true] ∧
     headerEncoding 128 pre = pre ++ [false, false, true] ∧
     headerEncoding 256 pre = pre ++ [false, false, false, false] ∧
     headerEncoding 512 pre = pre ++ [false, false, false, true]) ∧
    (headerDecoding ([true] ++ rest) = some ⟨32, 3, 10, rest⟩ ∧
     headerDecoding ([false, true] ++ rest) = some ⟨64, 4, 11, rest⟩ ∧
     headerDecoding ([false, false, true] ++ rest) = some ⟨128, 5, 12, rest⟩ ∧
     headerDecoding ([false, false, false, false] ++ rest) = some ⟨256, 6, 13, rest⟩ ∧
     headerDecoding ([false, false, false, true] ++ rest) = some ⟨512, 7, 14, rest⟩) ∧
    (∀ a ∈ [32, 64, 128, 256, 512], ∀ b ∈ [32, 64, 128, 256, 512],
      headerEncoding a [] <+: headerEncoding b [] → a = b) := by
  refine ⟨⟨?_, ?_, ?_, ?_, ?_⟩, ⟨?_, ?_, ?_, ?_, ?_⟩, ?_⟩
  · simp [headerEncoding, BL_0]
  · simp [headerEncoding, BL_0, BL_1]
  · simp [headerEncoding, BL_0, BL_1, BL_2]
  · simp [headerEncoding, BL_0, BL_1, BL_2, BL_3]
  · simp [headerEncoding, BL_0, BL_1, BL_2, BL_3, BL_4]
  · simp [headerDecoding]; decide
  · simp [headerDecoding]; decide
  · simp [headerDecoding]; decide
  · simp [headerDecoding]; decide
  · simp [headerDecoding]; decide
  · decide

theorem val_nonneg (l : List Bool) : 0 ≤ val l := by
  induction l with
  | nil => simp [val]
  | cons b bs ih => 
    simp only [val]
    have : (0:ℚ) ≤ (b.toNat : ℚ) := Nat.cast_nonneg _
    linarith

theorem val_lt_one (l : List Bool) : val l < 1 := by
  induction l with
  | nil => simp [val]
  | cons b bs ih => 
    simp only [val]
    have : (b.toNat : ℚ) ≤ 1 := by cases b <;> simp
    linarith

theorem val_replicate_true (k : Nat) (F : List Bool) :
    val (List.replicate k true ++ F) = 1 - (1 / 2) ^ k + (1 / 2) ^ k * val F := by
  induction k with
  | zero => simp
  | succ n ih =>
    rw [List.replicate_succ, List.cons_append, val, ih]
    simp only [Bool.toNat_true]
    push_cast
    ring

theorem val_replicate_false (k : Nat) (F : List Bool) :
    val (List.replicate k false ++ F) = (1 / 2) ^ k * val F := by
  induction k with
  | zero => simp
  | succ n ih =>
    rw [List.replicate_succ, List.cons_append, val, ih]
    simp only [Bool.toNat_false]
    push_cast
    ring

theorem val_append_false (l : List Bool) (k : Nat) :
    val (l ++ List.replicate k false) = val l := by
  induction l with
  | nil => 
    have := val_replicate_false k []
    simp only [List.append_nil] at this
    simp [this, val]
  | cons b bs ih => simp [val, ih]

theorem readLeading_val (n : Nat) (bits : List Bool) (acc : Int) :
    (((readLeading n bits acc).1 : Int) : ℚ) + val (readLeading n bits acc).2
      = (acc : ℚ) + 2 ^ n * val bits := by
  induction n generalizing bits acc with
  | zero => simp [readLeading]
  | succ n ih =>
    cases bits with
    | nil => simp [readLeading, val]
    | cons b bs =>
      simp only [readLeading, ih, val]
      push_cast
      ring

theorem cutTrailingZeros_val (out p : List Bool) (h : cutTrailingZeros out = some p) :
    val p = val out := by
  unfold cutTrailingZeros at h
  split_ifs at h
  simp only [Option.some.injEq] at h
  have h1 := List.takeWhile_append_dropWhile (fun b => !b) out.reverse
  have h2 : out = p ++ (out.reverse.takeWhile (fun b => !b)).reverse := by
    have := congrArg List.reverse h1
    rw [List.reverse_append, List.reverse_reverse, h] at this
    exact this.symm
  have h3 : (out.reverse.takeWhile (fun b => !b)).reverse
      = List.replicate (out.reverse.takeWhile (fun b => !b)).length false := by
    rw [List.eq_replicate_iff]
    refine ⟨by simp, ?_⟩
    intro b hb
    rw [List.mem_reverse] at hb
    have := List.mem_takeWhile_imp hb
    simpa using this
  rw [h2, h3, val_append_false]

theorem renormRange_normalized (fuel : Nat) (lo hi : Int) (h : InRange lo hi)
    (hf : (hi - lo) * 2 ^ fuel > 1024) :
    InRange (renormRange fuel lo hi).1 (renormRange fuel lo hi).2 ∧
    Normalized (renormRange fuel lo hi).1 (renormRange fuel lo hi).2 := by
  induction fuel generalizing lo hi with
  | zero => 
    obtain ⟨h1, h2, h3⟩ := h
    simp at hf
    omega
  | succ n ih =>
    obtain ⟨h1, h2, h3⟩ := h
    have hf2 : (hi - lo) * 2 * 2 ^ n > 1024 := by rw [pow_succ] at hf; linarith
    simp only [renormRange, HALF, FIRST_QTR, THIRD_QTR, Nat.cast_ofNat]
    split_ifs with c1 c2 c3
    · exact ih _ _ ⟨by omega, by omega, by omega⟩ (by linarith)
    · exact ih _ _ ⟨by omega, by omega, by omega⟩ (by linarith)
    · exact ih _ _ ⟨by omega, by omega, by omega⟩ (by linarith)
    · exact ⟨⟨h1, h2, h3⟩, by simp only [Normalized, HALF, FIRST_QTR, THIRD_QTR, Nat.cast_ofNat]; exact ⟨c1, c2, c3⟩⟩

theorem renormMap_mem (fuel : Nat) (lo hi : Int) (x : ℚ) :
    ((lo : ℚ) ≤ x ∧ x < hi) ↔
    (((renormRange fuel lo hi).1 : ℚ) ≤ renormMap fuel lo hi x ∧
      renormMap fuel lo hi x < (renormRange fuel lo hi).2) := by
  induction fuel generalizing lo hi x with
  | zero => simp [renormRange, renormMap]
  | succ n ih =>
    simp only [renormRange, renormMap]
    split_ifs with c1 c2 c3
    · rw [← ih]; push_cast; constructor <;> rintro ⟨a, b⟩ <;> constructor <;> linarith
    · rw [← ih]; push_cast; simp only [HALF]; push_cast
      constructor <;> rintro ⟨a, b⟩ <;> constructor <;> linarith
    · rw [← ih]; push_cast; simp only [FIRST_QTR]; push_cast
      constructor <;> rintro ⟨a, b⟩ <;> constructor <;> linarith
    · rfl

theorem encRenorm_spec (fuel : Nat) (st : EncState) :
    (encRenorm fuel st).cnt = st.cnt ∧
    ((encRenorm fuel st).range_lower, (encRenorm fuel st).range_upper)
      = renormRange fuel st.range_lower st.range_upper ∧
    ∃ E : List Bool, (encRenorm fuel st).outstream = st.outstream ++ E ∧
      ∀ F : List Bool, pendingValue (encRenorm fuel st).bits_to_follow F
        = renormMap fuel st.range_lower st.range_upper (pendingValue st.bits_to_follow (E ++ F)) := by
  induction fuel generalizing st with
  | zero => exact ⟨rfl, rfl, [], by simp [encRenorm], fun F => by simp [encRenorm, renormMap]⟩
  | succ n ih =>
    simp only [encRenorm, renormRange, renormMap]
    split_ifs with c1 c2 c3
    · obtain ⟨h1, h2, E, h3, h4⟩ := ih { st with
        outstream := st.outstream ++ false :: List.replicate st.bits_to_follow true
        bits_to_follow := 0
        range_lower := st.range_lower * 2
        range_upper := st.range_upper * 2 }
      refine ⟨h1, h2, (false :: List.replicate st.bits_to_follow true) ++ E, ?_, ?_⟩
      · rw [h3]; simp
      · intro F
        rw [h4 F]
        congr 1
        have e : (false :: List.replicate st.bits_to_follow true ++ E) ++ F
            = false :: (List.replicate st.bits_to_follow true ++ (E ++ F)) := by simp
        rw [pendingValue, pendingValue, e, val, val_replicate_true]
        simp only [Bool.toNat_false]
        have hk : (2:ℚ) ^ st.bits_to_follow * (1 / 2) ^ st.bits_to_follow = 1 := by
          rw [← mul_pow]; norm_num
        push_cast
        linear_combination (1024 - 1024 * val (E ++ F)) * hk
    · obtain ⟨h1, h2, E, h3, h4⟩ := ih { st with
        outstream := st.outstream ++ true :: List.replicate st.bits_to_follow false
        bits_to_follow := 0
        range_lower := (st.range_lower - HALF) * 2
        range_upper := (st.range_upper - HALF) * 2 }
      refine ⟨h1, h2, (true :: List.replicate st.bits_to_follow false) ++ E, ?_, ?_⟩
      · rw [h3]; simp
      · intro F
        rw [h4 F]
        congr 1
        have e : (true :: List.replicate st.bits_to_follow false ++ E) ++ F
            = true :: (List.replicate st.bits_to_follow false ++ (E ++ F)) := by simp
        rw [pendingValue, pendingValue, e, val, val_replicate_false]
        simp only [Bool.toNat_true, HALF]
        have hk : (2:ℚ) ^ st.bits_to_follow * (1 / 2) ^ st.bits_to_follow = 1 := by
          rw [← mul_pow]; norm_num
        push_cast
        linear_combination (- 1024 * val (E ++ F)) * hk
    · obtain ⟨h1, h2, E, h3, h4⟩ := ih { st with
        bits_to_follow := st.bits_to_follow + 1
        range_lower := (st.range_lower - FIRST_QTR) * 2
        range_upper := (st.range_upper - FIRST_QTR) * 2 }
      refine ⟨h1, h2, E, h3, ?_⟩
      intro F
      rw [h4 F]
      congr 1
      simp only [pendingValue, pow_succ]
      ring
    · exact ⟨rfl, rfl, [], by simp, fun F => by simp⟩

theorem pullBit_spec (d : ArithDec) (shifted : Int) :
    (pullBit d shifted).cnt = d.cnt ∧ (pullBit d shifted).range_lower = d.range_lower ∧
    (pullBit d shifted).range_upper = d.range_upper ∧
    (pullBit d shifted).range_diff = d.range_diff ∧
    decValue (pullBit d shifted) = (shifted : ℚ) + 2 * val d.rest := by
  unfold pullBit decValue
  cases h : d.rest with
  | nil => simp [val]
  | cons b bs => simp [val]; ring

theorem decRenorm_spec (fuel : Nat) (d : ArithDec) :
    (decRenorm fuel d).cnt = d.cnt ∧ (decRenorm fuel d).range_diff = d.range_diff ∧
    ((decRenorm fuel d).range_lower, (decRenorm fuel d).range_upper)
      = renormRange fuel d.range_lower d.range_upper ∧
    decValue (decRenorm fuel d) = renormMap fuel d.range_lower d.range_upper (decValue d) := by
  induction fuel generalizing d with
  | zero => simp [decRenorm, renormRange, renormMap]
  | succ n ih =>
    simp only [decRenorm, renormRange, renormMap]
    split_ifs with c1 c2 c3
    · obtain ⟨h1, h2, h3, h4⟩ := ih (pullBit { d with
        range_lower := d.range_lower * 2
        range_upper := d.range_upper * 2 } (d.in_leading * 2))
      obtain ⟨p1, p2, p3, p4, p5⟩ := pullBit_spec { d with
        range_lower := d.range_lower * 2
        range_upper := d.range_upper * 2 } (d.in_leading * 2)
      rw [h1, h2, h3, h4, p1, p2, p3, p4, p5]
      refine ⟨rfl, rfl, rfl, ?_⟩
      congr 1
      simp only [decValue]; push_cast; ring
    · obtain ⟨h1, h2, h3, h4⟩ := ih (pullBit { d with
        range_lower := (d.range_lower - HALF) * 2
        range_upper := (d.range_upper - HALF) * 2 } ((d.in_leading - HALF) * 2))
      obtain ⟨p1, p2, p3, p4, p5⟩ := pullBit_spec { d with
        range_lower := (d.range_lower - HALF) * 2
        range_upper := (d.range_upper - HALF) * 2 } ((d.in_leading - HALF) * 2)
      rw [h1, h2, h3, h4, p1, p2, p3, p4, p5]
      refine ⟨rfl, rfl, rfl, ?_⟩
      congr 1
      simp only [decValue, HALF]; push_cast; ring
    · obtain ⟨h1, h2, h3, h4⟩ := ih (pullBit { d with
        range_lower := (d.range_lower - FIRST_QTR) * 2
        range_upper := (d.range_upper - FIRST_QTR) * 2 } ((d.in_leading - FIRST_QTR) * 2))
      obtain ⟨p1, p2, p3, p4, p5⟩ := pullBit_spec { d with
        range_lower := (d.range_lower - FIRST_QTR) * 2
        range_upper := (d.range_upper - FIRST_QTR) * 2 } ((d.in_leading - FIRST_QTR) * 2)
      rw [h1, h2, h3, h4, p1, p2, p3, p4, p5]
      refine ⟨rfl, rfl, rfl, ?_⟩
      congr 1
      simp only [decValue, FIRST_QTR]; push_cast; ring
    · simp

/-- With 11 iterations the rescaling loop of the encoder has left by `break`:
no rescaling condition holds for the range it returns. -/
theorem encRenorm_exits (st : EncState) (h : InRange st.range_lower st.range_upper) :
    Normalized (encRenorm RENORM_FUEL st).range_lower (encRenorm RENORM_FUEL st).range_upper := by
  obtain ⟨-, e2, -⟩ := encRenorm_spec RENORM_FUEL st
  have hn := (renormRange_normalized RENORM_FUEL _ _ h (by
    have q : st.range_lower < st.range_upper := h.2.1
    simp only [RENORM_FUEL]; norm_num; omega)).2
  rw [← congrArg Prod.fst e2, ← congrArg Prod.snd e2] at hn
  exact hn

/-- The same for the rescaling loop of the decoder. -/
theorem decRenorm_exits (d : ArithDec) (h : InRange d.range_lower d.range_upper) :
    Normalized (decRenorm RENORM_FUEL d).range_lower (decRenorm RENORM_FUEL d).range_upper := by
  obtain ⟨-, -, e2, -⟩ := decRenorm_spec RENORM_FUEL d
  have hn := (renormRange_normalized RENORM_FUEL _ _ h (by
    have q : d.range_lower < d.range_upper := h.2.1
    simp only [RENORM_FUEL]; norm_num; omega)).2
  rw [← congrArg Prod.fst e2, ← congrArg Prod.snd e2] at hn
  exact hn

theorem encFlushLoop_done (fuel : Nat) (v lo hi : Int) (out : List Bool) (h : lo ≤ 0) :
    encFlushLoop fuel v lo hi out = out := by
  cases fuel with
  | zero => rfl
  | succ n => simp only [encFlushLoop]; rw [if_neg (by omega)]

theorem encFlushLoop_spec (m fuel : Nat) (lo hi : Int) (out : List Bool)
    (hf : m + 1 ≤ fuel) (h1 : lo < hi) (h2 : 0 < hi) (h3 : hi ≤ 2 ^ (m + 1)) :
    ∃ E : List Bool, encFlushLoop fuel (2 ^ m) lo hi out = out ++ E ∧
      (lo : ℚ) ≤ 2 ^ (m + 1) * val E ∧ 2 ^ (m + 1) * val E < hi := by
  induction m generalizing fuel lo hi out with
  | zero =>
    obtain ⟨n, rfl⟩ : ∃ n, fuel = n + 1 := ⟨fuel - 1, by omega⟩
    by_cases hlo : lo ≤ 0
    · refine ⟨[], by rw [encFlushLoop_done _ _ _ _ _ hlo]; simp, ?_, ?_⟩
      · simp only [val, mul_zero]; exact_mod_cast hlo
      · simp only [val, mul_zero]; exact_mod_cast h2
    · have hlo1 : lo = 1 := by norm_num at h3; omega
      have hhi : hi = 2 := by norm_num at h3; omega
      subst hlo1 hhi
      refine ⟨[true], ?_, ?_, ?_⟩
      · simp only [encFlushLoop, pow_zero]
        rw [if_pos (by norm_num), if_pos (by norm_num), encFlushLoop_done _ _ _ _ _ (by norm_num)]
      · simp [val]
      · simp [val]
  | succ k ih =>
    obtain ⟨n, rfl⟩ : ∃ n, fuel = n + 1 := ⟨fuel - 1, by omega⟩
    by_cases hlo : lo ≤ 0
    · refine ⟨[], by rw [encFlushLoop_done _ _ _ _ _ hlo]; simp, ?_, ?_⟩
      · simp only [val, mul_zero]; exact_mod_cast hlo
      · simp only [val, mul_zero]; exact_mod_cast h2
    · have hdiv : (2:Int) ^ (k + 1) / 2 = 2 ^ k := by
        rw [pow_succ]; exact Int.mul_ediv_cancel _ (by norm_num)
      have hpow : (2:Int) ^ (k + 1 + 1) = 2 ^ (k + 1) + 2 ^ (k + 1) := by ring
      simp only [encFlushLoop]
      rw [if_pos (by omega), hdiv]
      split_ifs with c
      · obtain ⟨E, e1, e2, e3⟩ := ih n (lo - 2 ^ (k + 1)) (hi - 2 ^ (k + 1)) (out ++ [true])
          (by omega) (by omega) (by omega) (by omega)
        refine ⟨true :: E, by rw [e1]; simp, ?_, ?_⟩
        · push_cast at e2; simp only [val, Bool.toNat_true]; push_cast
          rw [pow_succ (2:ℚ) (k+1)]; linarith
        · push_cast at e3; simp only [val, Bool.toNat_true]; push_cast
          rw [pow_succ (2:ℚ) (k+1)]; linarith
      · obtain ⟨E, e1, e2, e3⟩ := ih n lo hi (out ++ [false])
          (by omega) (by omega) (by omega) (by omega)
        refine ⟨false :: E, by rw [e1]; simp, ?_, ?_⟩
        · simp only [val, Bool.toNat_false]; push_cast
          rw [pow_succ (2:ℚ) (k+1)]; linarith
        · simp only [val, Bool.toNat_false]; push_cast
          rw [pow_succ (2:ℚ) (k+1)]; linarith

theorem encFlush_spec (st : EncState) (hr : InRange st.range_lower st.range_upper)
    (hn : Normalized st.range_lower st.range_upper) :
    ∃ F : List Bool, encFlush st = st.outstream ++ F ∧
      (st.range_lower : ℚ) ≤ pendingValue st.bits_to_follow F ∧
      pendingValue st.bits_to_follow F < st.range_upper := by
  obtain ⟨r1, r2, r3⟩ := hr
  obtain ⟨n1, n2, n3⟩ := hn
  simp only [HALF, Nat.cast_ofNat] at n1 n2
  unfold encFlush
  split_ifs with c
  · refine ⟨[true], rfl, ?_, ?_⟩
    · simp only [pendingValue, val, Bool.toNat_true]
      have : (st.range_lower : ℚ) ≤ 512 := by exact_mod_cast (by omega : st.range_lower ≤ 512)
      norm_num; exact this
    · simp only [pendingValue, val, Bool.toNat_true]
      have : (512 : ℚ) < st.range_upper := by exact_mod_cast (by omega : (512:Int) < st.range_upper)
      norm_num; exact this
  · have hb : st.bits_to_follow = 0 := by omega
    obtain ⟨E, e1, e2, e3⟩ := encFlushLoop_spec 9 RENORM_FUEL st.range_lower st.range_upper
      st.outstream (by decide) r2 (by omega) (by norm_num; exact r3)
    refine ⟨E, ?_, ?_, ?_⟩
    · rw [← e1]; simp [HALF]
    · rw [hb]; simp only [pendingValue]; norm_num at e2 ⊢; linarith
    · rw [hb]; simp only [pendingValue]; norm_num at e3 ⊢; linarith

theorem rangeAdd_bounds (k : Counters) (c : Nat) (diff : Int) (hk : CountersOK k)
    (hc : c < CONTEXTS) (hd : 2 ≤ diff) :
    1 ≤ rangeAdd k c diff ∧ rangeAdd k c diff ≤ diff - 1 := by
  obtain ⟨-, -, h⟩ := hk
  obtain ⟨h1, h2⟩ := h c hc
  unfold rangeAdd
  simp only [RANGE_MAX]
  set cn := k.counter.getD c 0
  set tn := k.counter_total.getD c 0
  have hp : (2 * 1024 * cn + tn) / (2 * tn) < 1025 := by
    rw [Nat.div_lt_iff_lt_mul (by omega)]; omega
  set p : Nat := (2 * 1024 * cn + tn) / (2 * tn)
  have hp2 : ((p : Nat) : Int) ≤ 1024 := by omega
  have hp0 : (0 : Int) ≤ (p : Int) := Int.natCast_nonneg _
  have y0 : 0 ≤ diff * (p : Int) := mul_nonneg (by omega) hp0
  have y1 : diff * (p : Int) ≤ diff * 1024 := mul_le_mul_of_nonneg_left hp2 (by omega)
  generalize diff * (p : Int) = y at y0 y1
  push_cast
  split_ifs with a b <;> omega

theorem getD_set_eq (l : List Nat) (i j v : Nat) (hi : i < l.length) :
    (l.set i v).getD j 0 = if j = i then v else l.getD j 0 := by
  simp only [List.getD_eq_getElem?_getD, List.getElem?_set]
  by_cases h : i = j
  · subst h; simp [hi]
  · rw [if_neg h, if_neg (fun e => h e.symm)]

theorem updateCounter_ok (k : Counters) (c : Nat) (b : Bool) (hk : CountersOK k)
    (hc : c < CONTEXTS) : CountersOK (updateCounter k c b) := by
  obtain ⟨l1, l2, h⟩ := hk
  refine ⟨?_, ?_, ?_⟩
  · unfold updateCounter; cases b <;> simp [l1]
  · unfold updateCounter; simp [l2]
  · intro j hj
    obtain ⟨a1, a2⟩ := h j hj
    unfold updateCounter
    cases b
    · simp only [Bool.false_eq_true, if_false]
      rw [getD_set_eq _ _ _ _ (by omega), getD_set_eq _ _ _ _ (by omega)]
      by_cases e : j = c
      · subst e; simp only [if_true]; omega
      · simp only [if_neg e]; omega
    · simp only [if_true]
      rw [getD_set_eq _ _ _ _ (by omega)]
      by_cases e : j = c
      · subst e; simp only [if_true]; omega
      · simp only [if_neg e]; omega

theorem normalized_width (lo hi : Int) (hn : Normalized lo hi) : 2 ≤ hi - lo := by
  obtain ⟨n1, n2, n3⟩ := hn
  simp only [HALF, FIRST_QTR, THIRD_QTR, Nat.cast_ofNat] at n1 n2 n3
  omega

theorem splitRange_inRange (k : Counters) (c : Nat) (lo hi : Int) (b : Bool)
    (hk : CountersOK k) (hc : c < CONTEXTS) (hr : InRange lo hi) (hn : Normalized lo hi) :
    InRange (splitRange lo hi (rangeAdd k c (hi - lo)) b).1
      (splitRange lo hi (rangeAdd k c (hi - lo)) b).2 ∧
    lo ≤ (splitRange lo hi (rangeAdd k c (hi - lo)) b).1 ∧
    (splitRange lo hi (rangeAdd k c (hi - lo)) b).2 ≤ hi := by
  obtain ⟨a1, a2⟩ := rangeAdd_bounds k c (hi - lo) hk hc (normalized_width lo hi hn)
  obtain ⟨r1, r2, r3⟩ := hr
  unfold splitRange InRange
  cases b <;> simp <;> omega

theorem encodeSymbol_spec (st : EncState) (b : Bool) (c : Nat)
    (hr : InRange st.range_lower st.range_upper)
    (hn : Normalized st.range_lower st.range_upper)
    (hk : CountersOK st.cnt) (hc : c < CONTEXTS) :
    let sp := splitRange st.range_lower st.range_upper
      (rangeAdd st.cnt c (st.range_upper - st.range_lower)) b
    let st2 := encodeSymbol st b c
    (st2.range_lower, st2.range_upper) = renormRange RENORM_FUEL sp.1 sp.2 ∧
    InRange st2.range_lower st2.range_upper ∧ Normalized st2.range_lower st2.range_upper ∧
    st2.cnt = updateCounter st.cnt c b ∧ CountersOK st2.cnt ∧
    ∃ E : List Bool, st2.outstream = st.outstream ++ E ∧
      ∀ F : List Bool, pendingValue st2.bits_to_follow F
        = renormMap RENORM_FUEL sp.1 sp.2 (pendingValue st.bits_to_follow (E ++ F)) := by
  intro sp st2
  obtain ⟨i1, -, -⟩ := splitRange_inRange st.cnt c _ _ b hk hc hr hn
  have hst2 : st2 = { encRenorm RENORM_FUEL
      { st with range_lower := sp.1, range_upper := sp.2 } with
        cnt := updateCounter st.cnt c b } := by
    simp only [st2, sp, encodeSymbol, splitRange]
    cases b <;> simp
  obtain ⟨e1, e2, E, e3, e4⟩ := encRenorm_spec RENORM_FUEL
    { st with range_lower := sp.1, range_upper := sp.2 }
  have hnorm := renormRange_normalized RENORM_FUEL sp.1 sp.2 i1 (by
    have q : sp.1 < sp.2 := i1.2.1
    simp only [RENORM_FUEL]; norm_num; omega)
  have hlo : st2.range_lower = (renormRange RENORM_FUEL sp.1 sp.2).1 := by
    rw [hst2]; exact congrArg Prod.fst e2
  have hhi : st2.range_upper = (renormRange RENORM_FUEL sp.1 sp.2).2 := by
    rw [hst2]; exact congrArg Prod.snd e2
  have hcnt : st2.cnt = updateCounter st.cnt c b := by rw [hst2]
  refine ⟨by rw [hlo, hhi], by rw [hlo, hhi]; exact hnorm.1, by rw [hlo, hhi]; exact hnorm.2,
    hcnt, by rw [hcnt]; exact updateCounter_ok _ _ _ hk hc, E, by rw [hst2]; exact e3, ?_⟩
  intro F
  have := e4 F
  rw [hst2]
  exact this

theorem encodeLoop_sound (s : List Bool) (ctx : List Nat) (st stF : EncState)
    (hr : InRange st.range_lower st.range_upper)
    (hn : Normalized st.range_lower st.range_upper)
    (hk : CountersOK st.cnt) (h : encodeLoop s ctx st = some stF) :
    ∃ F : List Bool, encFlush stF = st.outstream ++ F ∧
      (st.range_lower : ℚ) ≤ pendingValue st.bits_to_follow F ∧
      pendingValue st.bits_to_follow F < st.range_upper := by
  induction s generalizing ctx st with
  | nil =>
    simp only [encodeLoop, Option.some.injEq] at h
    subst h
    exact encFlush_spec st hr hn
  | cons b bs ih =>
    cases ctx with
    | nil => simp [encodeLoop] at h
    | cons c cs =>
      simp only [encodeLoop] at h
      split_ifs at h with hc
      obtain ⟨e1, e2, e3, -, e5, E, e6, e7⟩ := encodeSymbol_spec st b c hr hn hk hc
      obtain ⟨F, f1, f2, f3⟩ := ih cs (encodeSymbol st b c) e2 e3 e5 h
      obtain ⟨i1, i2, i3⟩ := splitRange_inRange st.cnt c _ _ b hk hc hr hn
      refine ⟨E ++ F, by rw [f1, e6, List.append_assoc], ?_⟩
      have hm := (renormMap_mem RENORM_FUEL _ _ (pendingValue st.bits_to_follow (E ++ F))).2 (by
        rw [← e7 F, ← e1]; exact ⟨f2, f3⟩)
      have c1 : (st.range_lower : ℚ) ≤ _ := Int.cast_le.mpr i2
      have c2 : _ ≤ (st.range_upper : ℚ) := Int.cast_le.mpr i3
      exact ⟨le_trans c1 hm.1, lt_of_lt_of_le hm.2 c2⟩

theorem sync_step (st : EncState) (b : Bool) (s : List Bool) (c : Nat) (ctx : List Nat)
    (d : ArithDec) (h : Sync st (b :: s) (c :: ctx) d) :
    (ArithDec_decode d c).1 = b ∧ Sync (encodeSymbol st b c) s ctx (ArithDec_decode d c).2 := by
  obtain ⟨hr, hn, hk, dl, du, dd, dc, stF, F, hl, hF, hv⟩ := h
  simp only [encodeLoop] at hl
  split_ifs at hl with hc
  obtain ⟨e1, e2, e3, e4, e5, E, e6, e7⟩ := encodeSymbol_spec st b c hr hn hk hc
  obtain ⟨F2, f1, f2, f3⟩ := encodeLoop_sound s ctx (encodeSymbol st b c) stF e2 e3 e5 hl
  have hFE : F = E ++ F2 := by
    rw [hF, e6, List.append_assoc] at f1
    exact List.append_cancel_left f1
  subst hFE
  -- the code value lies in the sub-range of the encoded symbol
  have hm := (renormMap_mem RENORM_FUEL _ _ (pendingValue st.bits_to_follow (E ++ F2))).2 (by
    rw [← e7 F2, ← e1]; exact ⟨f2, f3⟩)
  rw [← hv] at hm
  have hv0 := val_nonneg d.rest
  have hv1 := val_lt_one d.rest
  set add := rangeAdd st.cnt c (st.range_upper - st.range_lower) with hadd
  have hcmp : rangeAdd d.cnt c d.range_diff = add := by rw [dc, dd]
  -- the decision of the decoder
  have hdec : (d.in_leading - d.range_lower < add) ↔ b = false := by
    cases b
    · simp only [splitRange, Bool.false_eq_true, if_false] at hm
      have h2 : (d.in_leading : ℚ) < ((st.range_lower + add : Int) : ℚ) := by linarith [hm.2]
      have h3 : d.in_leading < st.range_lower + add := Int.cast_lt.mp h2
      simp only [iff_true]; omega
    · simp only [splitRange, if_true] at hm
      have h2 : ((st.range_lower + add : Int) : ℚ) < (d.in_leading : ℚ) + 1 := by linarith [hm.1]
      have h3 : st.range_lower + add < d.in_leading + 1 := by exact_mod_cast h2
      simp only [Bool.true_eq_false, iff_false]; omega
  set sp := splitRange st.range_lower st.range_upper add b with hsp
  -- the decoder state before rescaling
  have hd1 : (if d.in_leading - d.range_lower < rangeAdd d.cnt c d.range_diff
        then { d with range_upper := d.range_lower + rangeAdd d.cnt c d.range_diff }
        else { d with range_lower := d.range_lower + rangeAdd d.cnt c d.range_diff })
      = { d with range_lower := sp.1, range_upper := sp.2 } := by
    rw [hcmp]
    cases b
    · rw [if_pos (hdec.2 rfl)]; simp [hsp, splitRange, dl]
    · rw [if_neg (fun hh => by simpa using hdec.1 hh)]; simp [hsp, splitRange, dl, du]
  obtain ⟨r1, r2, r3, r4⟩ := decRenorm_spec RENORM_FUEL { d with range_lower := sp.1, range_upper := sp.2 }
  have hs : (ArithDec_decode d c).1 = b := by
    simp only [ArithDec_decode, hcmp]
    cases b
    · simp [hdec.2 rfl]
    · have : ¬ (d.in_leading - d.range_lower < add) := fun hh => by simpa using hdec.1 hh
      simp [this]
  refine ⟨hs, e2, e3, e5, ?_, ?_, ?_, ?_, stF, F2, hl, f1, ?_⟩
  · simp only [ArithDec_decode, hd1]
    rw [show (encodeSymbol st b c).range_lower = (renormRange RENORM_FUEL sp.1 sp.2).1 from
      congrArg Prod.fst e1]
    exact congrArg Prod.fst r3
  · simp only [ArithDec_decode, hd1]
    rw [show (encodeSymbol st b c).range_upper = (renormRange RENORM_FUEL sp.1 sp.2).2 from
      congrArg Prod.snd e1]
    exact congrArg Prod.snd r3
  · simp only [ArithDec_decode, hd1]
    rw [show (encodeSymbol st b c).range_lower = (renormRange RENORM_FUEL sp.1 sp.2).1 from
      congrArg Prod.fst e1,
      show (encodeSymbol st b c).range_upper = (renormRange RENORM_FUEL sp.1 sp.2).2 from
      congrArg Prod.snd e1]
    rw [← congrArg Prod.fst r3, ← congrArg Prod.snd r3]
  · have hs2 : (!decide (d.in_leading - d.range_lower < rangeAdd d.cnt c d.range_diff)) = b := by
      have := hs; simpa only [ArithDec_decode] using this
    rw [dc] at hs2
    simp only [ArithDec_decode, e4, dc, hs2]
  · simp only [ArithDec_decode, hd1]
    have := r4
    simp only [decValue] at this
    rw [this, e7 F2, hv]

theorem inRange_init : InRange 0 (RANGE_MAX : Int) ∧ Normalized 0 (RANGE_MAX : Int) := by
  simp only [InRange, Normalized, RANGE_MAX, HALF, FIRST_QTR, THIRD_QTR]
  norm_num

theorem sync_of_payload (cnt : Counters) (s : List Bool) (ctx : List Nat) (stF : EncState)
    (p : List Bool) (hk : CountersOK cnt)
    (hl : encodeLoop s ctx ⟨0, RANGE_MAX, 0, [], cnt⟩ = some stF)
    (hv : val p = val (encFlush stF)) :
    Sync ⟨0, RANGE_MAX, 0, [], cnt⟩ s ctx (initDecoding cnt p 0 p.length) := by
  obtain ⟨F, f1, -, -⟩ := encodeLoop_sound s ctx _ stF inRange_init.1 inRange_init.2 hk hl
  refine ⟨inRange_init.1, inRange_init.2, hk, rfl, rfl, by simp [initDecoding], rfl,
    stF, F, hl, f1, ?_⟩
  simp only [initDecoding, List.drop_zero, List.take_length]
  rw [readLeading_val, hv, f1]
  simp only [pendingValue, List.nil_append]
  push_cast
  ring

theorem sync_init (cnt : Counters) (s : List Bool) (ctx : List Nat) (p : List Bool)
    (k : Counters) (hk : CountersOK cnt)
    (henc : ArithEnc_encode cnt s ctx [] = some (p, k)) :
    Sync ⟨0, RANGE_MAX, 0, [], cnt⟩ s ctx (initDecoding cnt p 0 p.length) ∧
    ∃ stF, encodeLoop s ctx ⟨0, RANGE_MAX, 0, [], cnt⟩ = some stF ∧ stF.cnt = k := by
  unfold ArithEnc_encode at henc
  cases hl : encodeLoop s ctx ⟨0, RANGE_MAX, 0, [], cnt⟩ with
  | none => rw [hl] at henc; simp at henc
  | some stF =>
    rw [hl] at henc
    simp only [Option.map_eq_some'] at henc
    obtain ⟨o, ho, hpk⟩ := henc
    simp only [Prod.mk.injEq] at hpk
    obtain ⟨rfl, rfl⟩ := hpk
    exact ⟨sync_of_payload cnt s ctx stF o hk hl (cutTrailingZeros_val _ _ ho), stF, rfl, rfl⟩

theorem sync_prefix (N : Nat) (st : EncState) (s : List Bool) (ctx : List Nat) (d : ArithDec)
    (h : Sync st s ctx d) (hN : N ≤ s.length) :
    ∃ stN, encodeLoop (s.take N) (ctx.take N) st = some stN ∧
      (decodeSeq (ctx.take N) d).2.cnt = stN.cnt ∧
      (decodeSeq (ctx.take N) d).1 = s.take N := by
  induction N generalizing st s ctx d with
  | zero => exact ⟨st, by simp [encodeLoop], by simp [decodeSeq, h.2.2.2.2.2.2.1], by simp [decodeSeq]⟩
  | succ n ih =>
    cases s with
    | nil => simp at hN
    | cons b s' =>
      cases ctx with
      | nil =>
        obtain ⟨-, -, -, -, -, -, -, stF, F, hl, -⟩ := h
        simp [encodeLoop] at hl
      | cons c ctx' =>
        have hc : c < CONTEXTS := by
          obtain ⟨-, -, -, -, -, -, -, stF, F, hl, -⟩ := h
          simp only [encodeLoop] at hl
          by_contra hc
          rw [if_neg hc] at hl
          exact absurd hl (by simp)
        obtain ⟨h1, h2⟩ := sync_step st b s' c ctx' d h
        obtain ⟨stN, a1, a2, a3⟩ := ih _ s' ctx' _ h2 (by simpa using hN)
        refine ⟨stN, ?_, ?_, ?_⟩
        · simp only [List.take_succ_cons, encodeLoop, if_pos hc]; exact a1
        · simp only [List.take_succ_cons, decodeSeq]; exact a2
        · simp only [List.take_succ_cons, decodeSeq, h1, a3]

theorem encodeLoop_isSome (s : List Bool) (ctx : List Nat) (st : EncState)
    (hlen : ctx.length = s.length) (hctx : ∀ c ∈ ctx, c < CONTEXTS) :
    ∃ stF, encodeLoop s ctx st = some stF := by
  induction s generalizing ctx st with
  | nil => exact ⟨st, rfl⟩
  | cons b bs ih =>
    cases ctx with
    | nil => simp at hlen
    | cons c cs =>
      simp only [encodeLoop]
      rw [if_pos (hctx c (by simp))]
      exact ih cs _ (by simpa using hlen) (fun x hx => hctx x (by simp [hx]))

theorem val_all_false (l : List Bool) (h : l.any id = false) : val l = 0 := by
  induction l with
  | nil => rfl
  | cons b bs ih =>
    simp only [List.any_cons, id, Bool.or_eq_false_iff] at h
    obtain ⟨rfl, h2⟩ := h
    simp [val, ih h2]

theorem decRenorm_zero (fuel : Nat) (d : ArithDec) (h1 : d.range_lower = 0)
    (h2 : d.in_leading = 0) (h3 : d.rest = []) :
    (decRenorm fuel d).range_lower = 0 ∧ (decRenorm fuel d).in_leading = 0 ∧
    (decRenorm fuel d).rest = [] := by
  induction fuel generalizing d with
  | zero => exact ⟨h1, h2, h3⟩
  | succ n ih =>
    simp only [decRenorm]
    have e2 : ¬ d.range_lower ≥ (HALF : Int) := by rw [h1]; simp [HALF]
    have e3 : ¬ (d.range_lower ≥ (FIRST_QTR : Int) ∧ d.range_upper ≤ (THIRD_QTR : Int)) := by
      rw [h1]; simp [FIRST_QTR]
    split_ifs with c1
    · apply ih
      · simp [pullBit, h3, h1]
      · simp [pullBit, h3, h2]
      · simp [pullBit, h3]
    · exact ⟨h1, h2, h3⟩

theorem sync_zero (s : List Bool) (ctx : List Nat) (st : EncState) (d : ArithDec)
    (h : Sync st s ctx d) (h1 : d.range_lower = 0) (h2 : d.in_leading = 0)
    (h3 : d.rest = []) : s.any id = false := by
  induction s generalizing ctx st d with
  | nil => rfl
  | cons b bs ih =>
    cases ctx with
    | nil =>
      obtain ⟨-, -, -, -, -, -, -, stF, F, hl, -⟩ := h
      simp [encodeLoop] at hl
    | cons c cs =>
      have hc : c < CONTEXTS := by
        obtain ⟨-, -, -, -, -, -, -, stF, F, hl, -⟩ := h
        simp only [encodeLoop] at hl
        by_contra hc
        rw [if_neg hc] at hl
        exact absurd hl (by simp)
      obtain ⟨s1, s2⟩ := sync_step st b bs c cs d h
      obtain ⟨hr, hn, hk, dl, du, dd, dc, -⟩ := h
      have hb := rangeAdd_bounds st.cnt c (st.range_upper - st.range_lower) hk hc
        (normalized_width _ _ hn)
      have hlt : d.in_leading - d.range_lower < rangeAdd d.cnt c d.range_diff := by
        rw [h1, h2, dc, dd]; omega
      have hb0 : b = false := by
        rw [← s1]; simp [ArithDec_decode, hlt]
      have hz := decRenorm_zero RENORM_FUEL
        { d with range_upper := d.range_lower + rangeAdd d.cnt c d.range_diff } h1 h2 h3
      have := ih cs _ _ s2 (by simp only [ArithDec_decode, if_pos hlt]; exact hz.1)
        (by simp only [ArithDec_decode, if_pos hlt]; exact hz.2.1)
        (by simp only [ArithDec_decode, if_pos hlt]; exact hz.2.2)
      simp [hb0, this]

theorem encFlush_has_one (cnt : Counters) (s : List Bool) (ctx : List Nat) (stF : EncState)
    (hk : CountersOK cnt) (hs : s.any id = true)
    (hl : encodeLoop s ctx ⟨0, RANGE_MAX, 0, [], cnt⟩ = some stF) :
    (encFlush stF).any id = true := by
  by_contra hcon
  have h0 : (encFlush stF).any id = false := by simpa using hcon
  have hsync := sync_of_payload cnt s ctx stF [] hk hl (by rw [val_all_false _ h0]; rfl)
  have := sync_zero s ctx _ _ hsync rfl (by simp [initDecoding, readLeading])
    (by simp [initDecoding, readLeading])
  rw [this] at hs
  exact absurd hs (by simp)

/-- C3: from counters with `0 < counter[c] < counter_total[c]` held by both
sides, for a bit sequence `s` with at least one 1 and contexts `ctx` in `0..6`
of the same length, `ArithEnc::encode` yields a payload `p`, and
`initDecoding(p, 0, |p|)` followed by `decode(ctx[0]), decode(ctx[1]), ...`
returns `s[0], s[1], ...` for all `|s|` symbols. -/
theorem C3_arith_decode_inverts_encode (cnt : Counters) (s : List Bool) (ctx : List Nat)
    (hk : CountersOK cnt) (hs : true ∈ s) (hlen : ctx.length = s.length)
    (hctx : ∀ c ∈ ctx, c < CONTEXTS) :
    (∃ p k, ArithEnc_encode cnt s ctx [] = some (p, k)) ∧
    ∀ p k, ArithEnc_encode cnt s ctx [] = some (p, k) →
      (decodeSeq ctx (initDecoding cnt p 0 p.length)).1 = s := by
  constructor
  · obtain ⟨stF, hl⟩ := encodeLoop_isSome s ctx ⟨0, RANGE_MAX, 0, [], cnt⟩ hlen hctx
    have h1 := encFlush_has_one cnt s ctx stF hk (by simpa using hs) hl
    unfold ArithEnc_encode
    rw [hl]
    simp only [cutTrailingZeros, h1, if_true, Option.map_some']
    exact ⟨_, _, rfl⟩
  · intro p k henc
    obtain ⟨hsync, -⟩ := sync_init cnt s ctx p k hk henc
    obtain ⟨stN, -, -, a3⟩ := sync_prefix s.length _ s ctx _ hsync (le_refl _)
    rw [← hlen, List.take_length] at a3
    rw [a3, hlen, List.take_length]

theorem C3_arith_decode_inverts_encode_witness :
    (CountersOK resetCounter ∧ true ∈ [true, false, false, true, true] ∧
      [0, 0, 2, 1, 6].length = [true, false, false, true, true].length ∧
      ∀ c ∈ [0, 0, 2, 1, 6], c < CONTEXTS) ∧
    ArithEnc_encode resetCounter [true, false, false, true, true] [0, 0, 2, 1, 6] []
      = some ([true, false, false, true, true], ⟨[9, 8, 9, 8, 8, 8, 8], [18, 17, 17, 16, 16, 16, 17]⟩) ∧
    (decodeSeq [0, 0, 2, 1, 6]
      (initDecoding resetCounter [true, false, false, true, true] 0 5)).1
      = [true, false, false, true, true] := by
  have hk : CountersOK resetCounter := by
    refine ⟨by decide, by decide, ?_⟩
    decide
  have henc : ArithEnc_encode resetCounter [true, false, false, true, true] [0, 0, 2, 1, 6] []
      = some ([true, false, false, true, true],
          ⟨[9, 8, 9, 8, 8, 8, 8], [18, 17, 17, 16, 16, 16, 17]⟩) := by decide
  exact ⟨⟨hk, by decide, by decide, by decide⟩, henc,
    (C3_arith_decode_inverts_encode resetCounter [true, false, false, true, true]
      [0, 0, 2, 1, 6] hk (by decide) (by decide) (by decide)).2 _ _ henc⟩

/-- C4: starting from equal counter arrays (with `0 < counter < counter_total`),
for the symbols `s` of a block and every `N <= |s|`, the `(counter,
counter_total)` arrays of `ArithEnc` after its first `N` symbols equal those of
`ArithDec` after its first `N` `decode` calls on the block's payload; the arrays
at the end of the block are equal as well, hence also after `rescaleCounter` on
both sides. -/
theorem C4_counter_trajectories_agree (cnt : Counters) (s : List Bool) (ctx : List Nat)
    (p : List Bool) (k : Counters) (N : Nat)
    (hk : CountersOK cnt) (hlen : ctx.length = s.length)
    (henc : ArithEnc_encode cnt s ctx [] = some (p, k)) (hN : N ≤ s.length) :
    (∃ stN, encodeLoop (s.take N) (ctx.take N) ⟨0, RANGE_MAX, 0, [], cnt⟩ = some stN ∧
      (decodeSeq (ctx.take N) (initDecoding cnt p 0 p.length)).2.cnt = stN.cnt) ∧
    (decodeSeq ctx (initDecoding cnt p 0 p.length)).2.cnt = k ∧
    rescaleCounter (decodeSeq ctx (initDecoding cnt p 0 p.length)).2.cnt = rescaleCounter k := by
  obtain ⟨hsync, stF, hl, hkF⟩ := sync_init cnt s ctx p k hk henc
  obtain ⟨stN, a1, a2, -⟩ := sync_prefix N _ s ctx _ hsync hN
  obtain ⟨stM, b1, b2, -⟩ := sync_prefix s.length _ s ctx _ hsync (le_refl _)
  have hfull : (decodeSeq ctx (initDecoding cnt p 0 p.length)).2.cnt = k := by
    rw [← hlen, List.take_length, hlen, List.take_length, hl] at b1
    rw [← hlen, List.take_length] at b2
    simp only [Option.some.injEq] at b1
    rw [b2, ← b1, hkF]
  exact ⟨⟨stN, a1, a2⟩, hfull, by rw [hfull]⟩

theorem C4_counter_trajectories_agree_witness :
    (CountersOK resetCounter ∧
      [0, 0, 2, 1, 6].length = [true, false, false, true, true].length ∧ 3 ≤ 5) ∧
    (decodeSeq [0, 0, 2]
      (initDecoding resetCounter [true, false, false, true, true] 0 5)).2.cnt
      = ⟨[9, 8, 9, 8, 8, 8, 8], [18, 16, 17, 16, 16, 16, 16]⟩ ∧
    (decodeSeq [0, 0, 2, 1, 6]
      (initDecoding resetCounter [true, false, false, true, true] 0 5)).2.cnt
      = ⟨[9, 8, 9, 8, 8, 8, 8], [18, 17, 17, 16, 16, 16, 17]⟩ := by
  have hk : CountersOK resetCounter := by
    refine ⟨by decide, by decide, ?_⟩
    decide
  have henc : ArithEnc_encode resetCounter [true, false, false, true, true] [0, 0, 2, 1, 6] []
      = some ([true, false, false, true, true],
          ⟨[9, 8, 9, 8, 8, 8, 8], [18, 17, 17, 16, 16, 16, 17]⟩) := by decide
  obtain ⟨⟨stN, h1, h2⟩, h3, -⟩ := C4_counter_trajectories_agree resetCounter
    [true, false, false, true, true] [0, 0, 2, 1, 6] _ _ 3 hk (by decide) henc (by decide)
  refine ⟨⟨hk, by decide, by decide⟩, ?_, h3⟩
  have e : (encodeLoop ([true, false, false, true, true].take 3) ([0, 0, 2, 1, 6].take 3)
      ⟨0, RANGE_MAX, 0, [], resetCounter⟩).map (fun st => st.cnt)
      = some ⟨[9, 8, 9, 8, 8, 8, 8], [18, 16, 17, 16, 16, 16, 16]⟩ := by decide
  rw [h1] at e
  simp only [Option.map_some', Option.some.injEq] at e
  rw [← e]
  exact h2

theorem addInto_nil {K : Type} [LinearOrderedField K] (out : List K) : addInto [] out = out := by
  cases out <;> rfl

theorem addInto_length {K : Type} [LinearOrderedField K] (w out : List K) : (addInto w out).length = out.length := by
  induction w generalizing out with
  | nil => rw [addInto_nil]
  | cons x xs ih =>
    cases out with
    | nil => rfl
    | cons y ys => simp [addInto, ih]

theorem addInto_comm {K : Type} [LinearOrderedField K] (u v out : List K) :
    addInto u (addInto v out) = addInto v (addInto u out) := by
  induction out generalizing u v with
  | nil => cases u <;> cases v <;> rfl
  | cons y ys ih =>
    cases u with
    | nil => simp [addInto_nil]
    | cons a as =>
      cases v with
      | nil => simp [addInto_nil]
      | cons b bs => simp only [addInto, ih]; congr 1; ring

theorem addInto_neg {K : Type} [LinearOrderedField K] (w out : List K) : addInto (w.map (fun v => -v)) (addInto w out) = out := by
  induction w generalizing out with
  | nil => simp [addInto_nil]
  | cons x xs ih =>
    cases out with
    | nil => rfl
    | cons y ys => simp only [List.map_cons, addInto, ih]; congr 1; ring

theorem addHead_eq {K : Type} [LinearOrderedField K] (x : K) (out : List K) : addHead x out = addInto [x] out := by
  cases out with
  | nil => rfl
  | cons y ys => simp [addHead, addInto, addInto_nil]

theorem addIntoTail_eq {K : Type} [LinearOrderedField K] (a out : List K) : addIntoTail a out = addInto (0 :: a) out := by
  cases out with
  | nil => rfl
  | cons y ys => simp [addIntoTail, addInto]

theorem addAt_eq {K : Type} [LinearOrderedField K] (e : Nat) (x : K) (out : List K) :
    addAt e x out = addInto (List.replicate e 0 ++ [x]) out := by
  induction e generalizing out with
  | zero =>
    cases out with
    | nil => rfl
    | cons y ys => simp [addAt, addInto, addInto_nil]
  | succ n ih =>
    cases out with
    | nil => rfl
    | cons y ys =>
      have := ih ys
      simp only [addAt] at this
      simp [addAt, List.replicate_succ, addInto, this]

theorem map_mul_neg {K : Type} [LinearOrderedField K] (inp : List K) (h : K) :
    inp.map (fun v => v * -h) = (inp.map (fun v => v * h)).map (fun v => -v) := by
  simp [List.map_map, Function.comp]

theorem filter_cancel {K : Type} [LinearOrderedField K] (inp out : List K) (h : K) :
    filter inp (filter inp out h) (-h) = out := by
  unfold filter
  simp only [addHead_eq, addIntoTail_eq, map_mul_neg]
  set a := inp.map (fun v => v * h)
  have e1 : [(a.map (fun v => -v)).headD 0] = ([a.headD 0] : List K).map (fun v => -v) := by
    cases a <;> simp
  have e2 : (0 : K) :: (a.map (fun v => -v)).dropLast
      = ((0 : K) :: a.dropLast).map (fun v => -v) := by
    simp [List.dropLast_eq_take, List.map_take]
  rw [e1, e2]
  rw [addInto_comm _ ([a.headD 0]), addInto_comm _ ([a.headD 0])]
  rw [addInto_comm (List.map (fun v => -v) a) (0 :: a.dropLast), addInto_neg]
  rw [addInto_neg, addInto_neg]

theorem filter_shift_cancel {K : Type} [LinearOrderedField K] (inp out : List K) (h : K) :
    filter_shift inp (filter_shift inp out h) (-h) = out := by
  unfold filter_shift
  simp only [addHead_eq, addIntoTail_eq, addAt_eq, map_mul_neg]
  set a := inp.map (fun v => v * h)
  have e1 : [(a.map (fun v => -v)).headD 0] = ([a.headD 0] : List K).map (fun v => -v) := by
    cases a <;> simp
  have e2 : (0 : K) :: (a.map (fun v => -v)).tail
      = ((0 : K) :: a.tail).map (fun v => -v) := by
    cases a <;> simp
  have e3 : (a.map (fun v => -v)).tail = (a.tail).map (fun v => -v) := by
    cases a <;> simp
  have e4 : List.replicate ((a.map (fun v => -v)).length - 1) (0:K)
        ++ [(a.map (fun v => -v)).getLastD 0]
      = (List.replicate (a.length - 1) (0:K) ++ [a.getLastD 0]).map (fun v => -v) := by
    simp only [List.length_map, List.map_append, List.map_replicate, neg_zero, List.map_cons,
      List.map_nil]
    congr 2
    cases a using List.reverseRecOn with
    | nil => simp
    | append_singleton l x => simp
  rw [e1, e2, e3, e4]
  set w1 : List K := [a.headD 0]
  set w2 : List K := 0 :: a.tail
  set w3 : List K := List.replicate (a.length - 1) (0:K) ++ [a.getLastD 0]
  set w4 : List K := a.tail
  rw [addInto_comm _ w1, addInto_comm _ w1, addInto_comm _ w1, addInto_neg]
  rw [addInto_comm _ w2, addInto_comm _ w2, addInto_neg]
  rw [addInto_comm _ w3, addInto_neg, addInto_neg]

theorem filter_length {K : Type} [LinearOrderedField K] (inp out : List K) (h : K) :
    (filter inp out h).length = out.length := by
  unfold filter
  simp only [addHead_eq, addIntoTail_eq, addInto_length]

theorem filter_shift_length {K : Type} [LinearOrderedField K] (inp out : List K) (h : K) :
    (filter_shift inp out h).length = out.length := by
  unfold filter_shift
  simp only [addHead_eq, addIntoTail_eq, addAt_eq, addInto_length]

theorem interleave_evens_odds {K : Type} [LinearOrderedField K] (m : Nat) (l : List K)
    (h : l.length = 2 * m) : interleave (evens l) (odds l) = l ∧ (evens l).length = m ∧
      (odds l).length = m := by
  induction m generalizing l with
  | zero =>
    have : l = [] := List.length_eq_zero.mp (by omega)
    subst this; simp [interleave, evens, odds]
  | succ k ih =>
    match l, h with
    | x :: y :: rest, h =>
      obtain ⟨a, b, c⟩ := ih rest (by simp at h; omega)
      simp [interleave, evens, odds, a, b, c]

theorem scaleFactor_ne_zero {K : Type} [LinearOrderedField K] : (scaleFactor : K) ≠ 0 := by
  unfold scaleFactor; norm_num

theorem invLevel_dwtLevel {K : Type} [LinearOrderedField K] (m : Nat) (x : List K)
    (hx : 2 * m ≤ x.length) : invLevel (2 * m) (dwtLevel (2 * m) x) = x := by
  obtain ⟨e1, e2, e3⟩ := interleave_evens_odds m (x.take (2 * m))
    (by rw [List.length_take]; omega)
  have hs := scaleFactor_ne_zero (K := K)
  unfold invLevel dwtLevel
  set a := evens (x.take (2 * m))
  set b := odds (x.take (2 * m))
  set b1 := filter_shift a b h1
  set a1 := filter b1 a h2
  set b2 := filter_shift a1 b1 h3
  set a2 := filter b2 a1 h4
  have la2 : a2.length = m := by simp only [a2, a1, filter_length]; exact e2
  have lb2 : b2.length = m := by simp only [b2, b1, filter_shift_length]; exact e3
  have hm : 2 * m / 2 = m := by omega
  have hm2 : 2 * m - m = m := by omega
  simp only [hm, hm2]
  have t1 : (a2.map (fun v => v * scaleFactor) ++ b2.map (fun v => -v / scaleFactor)
      ++ x.drop (2 * m)).take m = a2.map (fun v => v * scaleFactor) := by
    rw [List.append_assoc, List.take_append_of_le_length (by simp [la2])]
    rw [List.take_of_length_le (by simp [la2])]
  have t2 : ((a2.map (fun v => v * scaleFactor) ++ b2.map (fun v => -v / scaleFactor)
      ++ x.drop (2 * m)).drop m).take m = b2.map (fun v => -v / scaleFactor) := by
    rw [List.append_assoc, List.drop_append_of_le_length (by simp [la2])]
    rw [List.drop_of_length_le (by simp [la2]), List.nil_append]
    rw [List.take_append_of_le_length (by simp [lb2]), List.take_of_length_le (by simp [lb2])]
  have t3 : (a2.map (fun v => v * scaleFactor) ++ b2.map (fun v => -v / scaleFactor)
      ++ x.drop (2 * m)).drop (2 * m) = x.drop (2 * m) := by
    rw [List.drop_append_of_le_length (by simp [la2, lb2]; omega)]
    rw [List.drop_of_length_le (by simp [la2, lb2]; omega), List.nil_append]
  rw [t1, t2, t3]
  have u1 : (a2.map (fun v => v * scaleFactor)).map (fun v => v / scaleFactor) = a2 := by
    rw [List.map_map]
    conv_rhs => rw [← List.map_id a2]
    apply List.map_congr_left
    intro v _
    simp only [Function.comp, id]
    field_simp
  have u2 : (b2.map (fun v => -v / scaleFactor)).map (fun v => -v * scaleFactor) = b2 := by
    rw [List.map_map]
    conv_rhs => rw [← List.map_id b2]
    apply List.map_congr_left
    intro v _
    simp only [Function.comp, id]
    field_simp
  rw [u1, u2]
  have c1 : filter b2 a2 (-h4) = a1 := filter_cancel b2 a1 h4
  rw [c1]
  have c2 : filter_shift a1 b2 (-h3) = b1 := filter_shift_cancel a1 b1 h3
  rw [c2]
  have c3 : filter b1 a1 (-h2) = a := filter_cancel b1 a h2
  rw [c3]
  have c4 : filter_shift a b1 (-h1) = b := filter_shift_cancel a b h1
  rw [c4, e1, List.take_append_drop]

theorem dwtLevel_length {K : Type} [LinearOrderedField K] (m : Nat) (x : List K)
    (hx : 2 * m ≤ x.length) : (dwtLevel (2 * m) x).length = x.length := by
  obtain ⟨e1, e2, e3⟩ := interleave_evens_odds m (x.take (2 * m))
    (by rw [List.length_take]; omega)
  unfold dwtLevel
  simp only [List.length_append, List.length_map, filter_length, filter_shift_length,
    List.length_drop, e2, e3]
  omega

theorem invLoop_succ_right {K : Type} [LinearOrderedField K] (k n : Nat) (y : List K) :
    invLoop (k + 1) n y = invLevel (n * 2 ^ k) (invLoop k n y) := by
  induction k generalizing n y with
  | zero => simp [invLoop]
  | succ j ih =>
    rw [invLoop, ih (n * 2) (invLevel n y)]
    have : n * 2 * 2 ^ j = n * 2 ^ (j + 1) := by ring
    rw [this]
    rfl

theorem dwtLoop_length {K : Type} [LinearOrderedField K] (L q : Nat) (x : List K)
    (hx : 2 ^ L * q ≤ x.length) : (dwtLoop L (2 ^ L * q) x).length = x.length := by
  induction L generalizing x with
  | zero => rfl
  | succ k ih =>
    have e : 2 ^ (k + 1) * q = 2 * (2 ^ k * q) := by ring
    have l1 := dwtLevel_length (2 ^ k * q) x (by omega)
    rw [dwtLoop, e, Nat.mul_div_cancel_left _ (by decide : 0 < 2), ih _ (by omega), l1]

theorem invLoop_dwtLoop {K : Type} [LinearOrderedField K] (L q : Nat) (x : List K)
    (hx : 2 ^ L * q ≤ x.length) : invLoop L (2 * q) (dwtLoop L (2 ^ L * q) x) = x := by
  induction L generalizing x with
  | zero => rfl
  | succ k ih =>
    have e : 2 ^ (k + 1) * q = 2 * (2 ^ k * q) := by ring
    have l1 := dwtLevel_length (2 ^ k * q) x (by omega)
    rw [invLoop_succ_right, dwtLoop, e, Nat.mul_div_cancel_left _ (by decide : 0 < 2),
      ih _ (by omega)]
    have e2 : 2 * q * 2 ^ k = 2 * (2 ^ k * q) := by ring
    rw [e2]
    exact invLevel_dwtLevel _ x (by omega)

/-- C5: in exact arithmetic (any ordered field, in particular the reals), for a
block `x` of length `BL` in {32, 64, 128, 256, 512} and `L = log2(BL) - 2`,
`inv_DWT(DWT(x, L), L) = x`: every inverse level un-scales the two halves,
applies the four lifting updates in reverse order with negated coefficients and
re-interleaves. -/
theorem C5_inv_DWT_inverts_DWT {K : Type} [LinearOrderedField K] (x : List K)
    (hx : x.length ∈ [32, 64, 128, 256, 512]) :
    inv_DWT (DWT x (ilog2 x.length - 2)) (ilog2 x.length - 2) = x := by
  have key : ∀ L : Nat, 0 < L → x.length = 2 ^ L * 4 → inv_DWT (DWT x L) L = x := by
    intro L hL hlen
    unfold inv_DWT DWT
    rw [if_neg (by omega)]
    have h1 : (dwtLoop L x.length x).length = x.length := by
      conv_lhs => rw [hlen]
      exact dwtLoop_length L 4 x (by omega)
    have h2 : x.length / 2 ^ (L - 1) = 2 * 4 := by
      obtain ⟨j, rfl⟩ : ∃ j, L = j + 1 := ⟨L - 1, by omega⟩
      rw [hlen, Nat.add_sub_cancel, pow_succ]
      rw [show 2 ^ j * 2 * 4 = 2 ^ j * (2 * 4) by ring, Nat.mul_div_cancel_left _ (Nat.two_pow_pos j)]
    rw [h1, h2]
    conv_lhs => rw [hlen]
    exact invLoop_dwtLoop L 4 x (by omega)
  simp only [List.mem_cons, List.mem_singleton, List.not_mem_nil, or_false] at hx
  rcases hx with h | h | h | h | h
  · rw [h, show ilog2 32 - 2 = 3 by decide]; exact key 3 (by decide) (by rw [h]; norm_num)
  · rw [h, show ilog2 64 - 2 = 4 by decide]; exact key 4 (by decide) (by rw [h]; norm_num)
  · rw [h, show ilog2 128 - 2 = 5 by decide]; exact key 5 (by decide) (by rw [h]; norm_num)
  · rw [h, show ilog2 256 - 2 = 6 by decide]; exact key 6 (by decide) (by rw [h]; norm_num)
  · rw [h, show ilog2 512 - 2 = 7 by decide]; exact key 7 (by decide) (by rw [h]; norm_num)

theorem C5_inv_DWT_inverts_DWT_witness :
    (List.replicate 32 (1 : ℝ)).length ∈ [32, 64, 128, 256, 512] ∧
    inv_DWT (DWT (List.replicate 32 (1 : ℝ)) (ilog2 (List.replicate 32 (1 : ℝ)).length - 2))
      (ilog2 (List.replicate 32 (1 : ℝ)).length - 2) = List.replicate 32 (1 : ℝ) :=
  ⟨by simp, C5_inv_DWT_inverts_DWT (List.replicate 32 (1 : ℝ)) (by simp)⟩

theorem lt_two_pow_idx (k : Nat) : k < 2 ^ k := Nat.lt_two_pow k

theorem covers_iff (e : pixel) (i : Nat) (he : 1 ≤ e.index) :
    covers e i = true ↔ ∃ k, minDepth e ≤ k ∧ i / 2 ^ k = e.index := by
  unfold covers
  simp only [List.any_eq_true, List.mem_range, Bool.and_eq_true, decide_eq_true_eq]
  constructor
  · rintro ⟨k, -, h1, h2⟩; exact ⟨k, h1, h2⟩
  · rintro ⟨k, h1, h2⟩
    refine ⟨k, ?_, h1, h2⟩
    have hpos : 0 < i / 2 ^ k := by omega
    have : 2 ^ k ≤ i := by
      by_contra hc
      rw [Nat.div_eq_of_lt (by omega)] at hpos
      omega
    have := lt_two_pow_idx k
    omega

theorem depth_unique (i y k k' : Nat) (hy : 1 ≤ y) (h1 : i / 2 ^ k = y) (h2 : i / 2 ^ k' = y) :
    k = k' := by
  by_contra hne
  wlog hlt : k < k' generalizing k k'
  · exact this k' k h2 h1 (fun h => hne h.symm) (by omega)
  obtain ⟨d, rfl⟩ : ∃ d, k' = k + (d + 1) := ⟨k' - k - 1, by omega⟩
  rw [pow_add, ← Nat.div_div_eq_div_mul, h1] at h2
  have h3 : y / 2 ^ (d + 1) < y := Nat.div_lt_self hy (Nat.one_lt_two_pow (by omega))
  omega

theorem covers_A_split (y i : Nat) (hy : 1 ≤ y) :
    (covers ⟨y, 0⟩ i).toNat =
      (if i = 2 * y then 1 else 0) + (if i = 2 * y + 1 then 1 else 0) + (covers ⟨y, 1⟩ i).toNat := by
  by_cases hB : covers ⟨y, 1⟩ i = true
  · obtain ⟨k, hk1, hk2⟩ := (covers_iff ⟨y, 1⟩ i hy).1 hB
    simp only [minDepth] at hk1
    have hA : covers ⟨y, 0⟩ i = true :=
      (covers_iff ⟨y, 0⟩ i hy).2 ⟨k, by simp only [minDepth]; simp at hk1 ⊢; omega, hk2⟩
    have hne : ¬ (i / 2 ^ 1 = y) := fun h => by
      have := depth_unique i y 1 k hy h hk2
      simp at hk1; omega
    simp only [pow_one] at hne
    rw [hA, hB, if_neg (by omega), if_neg (by omega)]
    rfl
  · have hB' : covers ⟨y, 1⟩ i = false := by simpa using hB
    rw [hB']
    by_cases hA : covers ⟨y, 0⟩ i = true
    · obtain ⟨k, hk1, hk2⟩ := (covers_iff ⟨y, 0⟩ i hy).1 hA
      simp only [minDepth, if_true] at hk1
      have hk : k = 1 := by
        by_contra hne
        exact hB ((covers_iff ⟨y, 1⟩ i hy).2 ⟨k, by simp [minDepth]; omega, hk2⟩)
      subst hk
      simp only [pow_one] at hk2
      rw [hA]
      by_cases h2 : i = 2 * y
      · rw [if_pos h2, if_neg (by omega)]; rfl
      · rw [if_neg h2, if_pos (by omega)]; rfl
    · have hA' : covers ⟨y, 0⟩ i = false := by simpa using hA
      have hne : ¬ (i / 2 ^ 1 = y) := fun h =>
        hA ((covers_iff ⟨y, 0⟩ i hy).2 ⟨1, by simp [minDepth], h⟩)
      simp only [pow_one] at hne
      rw [hA', if_neg (by omega), if_neg (by omega)]
      rfl

theorem covers_B_split (y i : Nat) (hy : 1 ≤ y) :
    (covers ⟨y, 1⟩ i).toNat = (covers ⟨2 * y, 0⟩ i).toNat + (covers ⟨2 * y + 1, 0⟩ i).toNat := by
  have key : ∀ k, i / 2 ^ (k + 1) = y ↔ (i / 2 ^ k = 2 * y ∨ i / 2 ^ k = 2 * y + 1) := by
    intro k
    rw [pow_succ, ← Nat.div_div_eq_div_mul]
    omega
  by_cases h0 : covers ⟨2 * y, 0⟩ i = true
  · obtain ⟨k, hk1, hk2⟩ := (covers_iff ⟨2 * y, 0⟩ i (by simp; omega)).1 h0
    simp only [minDepth, if_true] at hk1
    have hB : covers ⟨y, 1⟩ i = true :=
      (covers_iff ⟨y, 1⟩ i hy).2 ⟨k + 1, by simp [minDepth]; omega, (key k).2 (Or.inl hk2)⟩
    have h1 : covers ⟨2 * y + 1, 0⟩ i = false := by
      by_contra hc
      have hc' : covers ⟨2 * y + 1, 0⟩ i = true := by simpa using hc
      obtain ⟨k', hk1', hk2'⟩ := (covers_iff ⟨2 * y + 1, 0⟩ i (by simp)).1 hc'
      have e := depth_unique i y (k + 1) (k' + 1) hy ((key k).2 (Or.inl hk2))
        ((key k').2 (Or.inr hk2'))
      have : k = k' := by omega
      subst this
      simp only at hk2 hk2'
      omega
    rw [h0, h1, hB]; rfl
  · have h0' : covers ⟨2 * y, 0⟩ i = false := by simpa using h0
    rw [h0']
    by_cases h1 : covers ⟨2 * y + 1, 0⟩ i = true
    · obtain ⟨k, hk1, hk2⟩ := (covers_iff ⟨2 * y + 1, 0⟩ i (by simp)).1 h1
      simp only [minDepth, if_true] at hk1
      have hB : covers ⟨y, 1⟩ i = true :=
        (covers_iff ⟨y, 1⟩ i hy).2 ⟨k + 1, by simp [minDepth]; omega, (key k).2 (Or.inr hk2)⟩
      rw [h1, hB]; rfl
    · have h1' : covers ⟨2 * y + 1, 0⟩ i = false := by simpa using h1
      have hB : covers ⟨y, 1⟩ i = false := by
        by_contra hc
        have hc' : covers ⟨y, 1⟩ i = true := by simpa using hc
        obtain ⟨k, hk1, hk2⟩ := (covers_iff ⟨y, 1⟩ i hy).1 hc'
        simp only [minDepth] at hk1
        obtain ⟨j, rfl⟩ : ∃ j, k = j + 1 := ⟨k - 1, by simp at hk1; omega⟩
        rcases (key j).1 hk2 with h | h
        · exact h0 ((covers_iff ⟨2 * y, 0⟩ i (by simp; omega)).2
            ⟨j, by simp [minDepth] at hk1 ⊢; omega, h⟩)
        · exact h1 ((covers_iff ⟨2 * y + 1, 0⟩ i (by simp)).2
            ⟨j, by simp [minDepth] at hk1 ⊢; omega, h⟩)
      rw [h1', hB]; rfl

theorem feeds_of_decodeSeq (s : List Bool) (ctx : List Nat) (d : ArithDec)
    (hlen : ctx.length = s.length) (h : (decodeSeq ctx d).1 = s) :
    Feeds (decodeSeq ctx d).2 d s ctx := by
  induction s generalizing ctx d with
  | nil =>
    have : ctx = [] := List.length_eq_zero.mp hlen
    subst this; rfl
  | cons b bs ih =>
    cases ctx with
    | nil => simp at hlen
    | cons c cs =>
      simp only [decodeSeq, List.cons.injEq] at h
      exact ⟨h.1, ih cs _ (by simpa using hlen) h.2⟩

theorem applySig_append (data : List Int) (compare : Nat) (a b : List Nat) (out : List Int) :
    applySig data compare (a ++ b) out = applySig data compare b (applySig data compare a out) := by
  simp [applySig, List.foldl_append]

theorem applySig_length (data : List Int) (compare : Nat) (a : List Nat) (out : List Int) :
    (applySig data compare a out).length = out.length := by
  induction a generalizing out with
  | nil => rfl
  | cons x xs ih => simp only [applySig, List.foldl_cons] at ih ⊢; rw [ih]; simp

theorem decSetSign_feeds (data : List Int) (compare i : Nat) (out : List Int) (d : ArithDec)
    (rest : List Bool) (crest : List Nat) {e : ArithDec}
    (h : Feeds e d (decide (data.getD i 0 ≥ 0) :: rest) (CONTEXT_SIGN :: crest)) :
    (decSetSign compare i out d).1 = applySig data compare [i] out ∧
    Feeds e (decSetSign compare i out d).2 rest crest := by
  obtain ⟨h1, h2⟩ := h
  simp only [decSetSign, applySig, List.foldl_cons, List.foldl_nil, h1]
  refine ⟨?_, h2⟩
  by_cases hs : data.getD i 0 ≥ 0 <;> simp [hs]

/-- Shape of the encoder's LIP loop and the decoder following it. -/
theorem sortLIP_lockstep (data : List Int) (compare : Nat) (todo : List Nat) (st : SpihtEnc) :
    ∃ (bs : List Bool) (cs : List Nat) (kept new : List Nat),
      (encSortLIP data compare todo st).outstream = st.outstream ++ bs ∧
      (encSortLIP data compare todo st).context = st.context ++ cs ∧
      (encSortLIP data compare todo st).LIP = st.LIP ++ kept ∧
      (encSortLIP data compare todo st).LSP = st.LSP ++ new ∧
      (encSortLIP data compare todo st).LIS = st.LIS ∧
      kept = todo.filter (fun i => ¬ ((data.getD i 0).natAbs ≥ compare)) ∧
      new = todo.filter (fun i => (data.getD i 0).natAbs ≥ compare) ∧
      ∀ (sd : SpihtDec) (rest : List Bool) (crest : List Nat) {e : ArithDec},
        Feeds e sd.arith (bs ++ rest) (cs ++ crest) →
        (decSortLIP compare todo sd).LIP = sd.LIP ++ kept ∧
        (decSortLIP compare todo sd).LSP = sd.LSP ++ new ∧
        (decSortLIP compare todo sd).LIS = sd.LIS ∧
        (decSortLIP compare todo sd).out = applySig data compare new sd.out ∧
        Feeds e (decSortLIP compare todo sd).arith rest crest := by
  induction todo generalizing st with
  | nil =>
    refine ⟨[], [], [], [], by simp [encSortLIP], by simp [encSortLIP], by simp [encSortLIP],
      by simp [encSortLIP], rfl, rfl, rfl, ?_⟩
    intro sd rest crest e h
    simp only [decSortLIP, List.append_nil, applySig, List.foldl_nil, List.nil_append] at h ⊢
    exact ⟨trivial, trivial, trivial, trivial, h⟩
  | cons i todo ih =>
    by_cases hsig : (data.getD i 0).natAbs ≥ compare
    · obtain ⟨bs, cs, kept, new, e1, e2, e3, e4, e5, e6, e7, e8⟩ := ih { st with
        outstream := st.outstream ++ [true, decide (data.getD i 0 ≥ 0)]
        context := st.context ++ [CONTEXT_SIGNIFICANCE_0, CONTEXT_SIGN]
        LSP := st.LSP ++ [i] }
      refine ⟨[true, decide (data.getD i 0 ≥ 0)] ++ bs, [CONTEXT_SIGNIFICANCE_0, CONTEXT_SIGN] ++ cs,
        kept, i :: new, ?_, ?_, ?_, ?_, ?_, ?_, ?_, ?_⟩
      · simp only [encSortLIP, if_pos hsig, e1]; simp
      · simp only [encSortLIP, if_pos hsig, e2]; simp
      · simp only [encSortLIP, if_pos hsig, e3]
      · simp only [encSortLIP, if_pos hsig, e4]; simp
      · simp only [encSortLIP, if_pos hsig, e5]
      · rw [e6, List.filter_cons_of_neg (by simpa using hsig)]
      · rw [e7, List.filter_cons_of_pos (by simpa using hsig)]
      · intro sd rest crest e h
        obtain ⟨f1, f2⟩ := h
        obtain ⟨g1, g2⟩ := decSetSign_feeds data compare i sd.out _ _ _ f2
        have := e8 { sd with
          out := (decSetSign compare i sd.out (ArithDec_decode sd.arith CONTEXT_SIGNIFICANCE_0).2).1
          arith := (decSetSign compare i sd.out (ArithDec_decode sd.arith CONTEXT_SIGNIFICANCE_0).2).2
          LSP := sd.LSP ++ [i] } rest crest g2
        obtain ⟨k1, k2, k3, k4, k5⟩ := this
        simp only [decSortLIP, f1, if_true]
        refine ⟨k1, by rw [k2]; simp, k3, ?_, k5⟩
        rw [k4, g1]
        simp [applySig]
    · obtain ⟨bs, cs, kept, new, e1, e2, e3, e4, e5, e6, e7, e8⟩ := ih { st with
        outstream := st.outstream ++ [false]
        context := st.context ++ [CONTEXT_SIGNIFICANCE_0]
        LIP := st.LIP ++ [i] }
      refine ⟨[false] ++ bs, [CONTEXT_SIGNIFICANCE_0] ++ cs, i :: kept, new,
        ?_, ?_, ?_, ?_, ?_, ?_, ?_, ?_⟩
      · simp only [encSortLIP, if_neg hsig, e1]; simp
      · simp only [encSortLIP, if_neg hsig, e2]; simp
      · simp only [encSortLIP, if_neg hsig, e3]; simp
      · simp only [encSortLIP, if_neg hsig, e4]
      · simp only [encSortLIP, if_neg hsig, e5]
      · rw [e6, List.filter_cons_of_pos (by simpa using hsig)]
      · rw [e7, List.filter_cons_of_neg (by simpa using hsig)]
      · intro sd rest crest e h
        obtain ⟨f1, f2⟩ := h
        have := e8 { sd with
          arith := (ArithDec_decode sd.arith CONTEXT_SIGNIFICANCE_0).2
          LIP := sd.LIP ++ [i] } rest crest f2
        obtain ⟨k1, k2, k3, k4, k5⟩ := this
        simp only [decSortLIP, f1, Bool.false_eq_true, if_false]
        exact ⟨by rw [k1]; simp, k2, k3, k4, k5⟩

/-- Shape of the encoder's child test and the decoder following it. -/
theorem child_lockstep (data : List Int) (compare index : Nat) (st : SpihtEnc) :
    ∃ (bs : List Bool) (cs : List Nat) (kept new : List Nat),
      (encChild data compare index st).outstream = st.outstream ++ bs ∧
      (encChild data compare index st).context = st.context ++ cs ∧
      (encChild data compare index st).LIP = st.LIP ++ kept ∧
      (encChild data compare index st).LSP = st.LSP ++ new ∧
      (encChild data compare index st).LIS = st.LIS ∧
      kept = (if (data.getD index 0).natAbs ≥ compare then [] else [index]) ∧
      new = (if (data.getD index 0).natAbs ≥ compare then [index] else []) ∧
      ∀ (sd : SpihtDec) (rest : List Bool) (crest : List Nat) {e : ArithDec},
        Feeds e sd.arith (bs ++ rest) (cs ++ crest) →
        (decChild compare index sd).LIP = sd.LIP ++ kept ∧
        (decChild compare index sd).LSP = sd.LSP ++ new ∧
        (decChild compare index sd).LIS = sd.LIS ∧
        (decChild compare index sd).out = applySig data compare new sd.out ∧
        Feeds e (decChild compare index sd).arith rest crest := by
  by_cases hsig : (data.getD index 0).natAbs ≥ compare
  · refine ⟨[true, decide (data.getD index 0 ≥ 0)], [CONTEXT_SIGNIFICANCE_2, CONTEXT_SIGN],
      [], [index], ?_, ?_, ?_, ?_, ?_, ?_, ?_, ?_⟩
    · simp only [encChild, if_pos hsig]
    · simp only [encChild, if_pos hsig]
    · simp only [encChild, if_pos hsig, List.append_nil]
    · simp only [encChild, if_pos hsig]
    · simp only [encChild, if_pos hsig]
    · rw [if_pos hsig]
    · rw [if_pos hsig]
    · intro sd rest crest e h
      obtain ⟨f1, f2⟩ := h
      obtain ⟨g1, g2⟩ := decSetSign_feeds data compare index sd.out _ _ _ f2
      simp only [decChild, f1, if_true, List.append_nil]
      exact ⟨trivial, trivial, trivial, g1, g2⟩
  · refine ⟨[false], [CONTEXT_SIGNIFICANCE_2], [index], [], ?_, ?_, ?_, ?_, ?_, ?_, ?_, ?_⟩
    · simp only [encChild, if_neg hsig]
    · simp only [encChild, if_neg hsig]
    · simp only [encChild, if_neg hsig]
    · simp only [encChild, if_neg hsig, List.append_nil]
    · simp only [encChild, if_neg hsig]
    · rw [if_neg hsig]
    · rw [if_neg hsig]
    · intro sd rest crest e h
      obtain ⟨f1, f2⟩ := h
      simp only [decChild, f1, Bool.false_eq_true, if_false, List.append_nil, applySig,
        List.foldl_nil]
      exact ⟨trivial, trivial, trivial, trivial, f2⟩

theorem decChild_length (compare index : Nat) (sd : SpihtDec) :
    (decChild compare index sd).out.length = sd.out.length := by
  simp only [decChild, decSetSign]
  split_ifs <;> simp

/-- Shape of the encoder's LIS loop and the decoder following it. -/
theorem sortLIS_lockstep (data : List Int) (m : MaxDesc) (compare : Nat) (fuel : Nat)
    (pending : List pixel) (st st' : SpihtEnc)
    (h : encSortLIS data m compare fuel pending st = some st') :
    ∃ (bs : List Bool) (cs : List Nat) (keptLIP new : List Nat) (keptLIS : List pixel),
      st'.outstream = st.outstream ++ bs ∧ st'.context = st.context ++ cs ∧
      st'.LIP = st.LIP ++ keptLIP ∧ st'.LSP = st.LSP ++ new ∧ st'.LIS = st.LIS ++ keptLIS ∧
      ∀ (sd : SpihtDec) (rest : List Bool) (crest : List Nat) {e : ArithDec},
        sd.out.length = data.length →
        Feeds e sd.arith (bs ++ rest) (cs ++ crest) →
        ∃ sd', decSortLIS compare fuel pending sd = some sd' ∧
          sd'.LIP = sd.LIP ++ keptLIP ∧ sd'.LSP = sd.LSP ++ new ∧
          sd'.LIS = sd.LIS ++ keptLIS ∧
          sd'.out = applySig data compare new sd.out ∧
          Feeds e sd'.arith rest crest := by
  induction fuel generalizing pending st with
  | zero =>
    cases pending with
    | nil =>
      simp only [encSortLIS, Option.some.injEq] at h
      subst h
      refine ⟨[], [], [], [], [], by simp, by simp, by simp, by simp, by simp, ?_⟩
      intro sd rest crest e _ hf
      exact ⟨sd, rfl, by simp, by simp, by simp, rfl, hf⟩
    | cons p ps => simp [encSortLIS] at h
  | succ n ih =>
    cases pending with
    | nil =>
      simp only [encSortLIS, Option.some.injEq] at h
      subst h
      refine ⟨[], [], [], [], [], by simp, by simp, by simp, by simp, by simp, ?_⟩
      intro sd rest crest e _ hf
      exact ⟨sd, rfl, by simp, by simp, by simp, rfl, hf⟩
    | cons p ps =>
      simp only [encSortLIS] at h
      by_cases hA : p.type = 0
      · simp only [hA, if_true] at h
        by_cases hs : maxDescendant m p ≥ compare
        · simp only [hs, if_true] at h
          set st1 : SpihtEnc := { st with outstream := st.outstream ++ [true]
                                          context := st.context ++ [CONTEXT_SIGNIFICANCE_1] }
          obtain ⟨b2, c2, k2, n2, a1, a2, a3, a4, a5, -, -, a8⟩ :=
            child_lockstep data compare (2 * p.index) st1
          obtain ⟨b3, c3, k3, n3, d1, d2, d3, d4, d5, -, -, d8⟩ :=
            child_lockstep data compare (2 * p.index + 1) (encChild data compare (2 * p.index) st1)
          have hrec : ∃ pend', encSortLIS data m compare n pend'
              (encChild data compare (2 * p.index + 1) (encChild data compare (2 * p.index) st1))
                = some st' ∧
              pend' = (if 4 * p.index + 3 < data.length then ps ++ [⟨p.index, 1⟩] else ps) := by
            by_cases hg : 4 * p.index + 3 < data.length
            · rw [if_pos hg] at h; exact ⟨_, h, by rw [if_pos hg]⟩
            · rw [if_neg hg] at h; exact ⟨_, h, by rw [if_neg hg]⟩
          obtain ⟨pend', hrec1, hrec2⟩ := hrec
          obtain ⟨bs, cs, kl, nw, ks, e1, e2, e3, e4, e5, e6⟩ := ih pend' _ hrec1
          refine ⟨[true] ++ b2 ++ b3 ++ bs, [CONTEXT_SIGNIFICANCE_1] ++ c2 ++ c3 ++ cs,
            k2 ++ k3 ++ kl, n2 ++ n3 ++ nw, ks, ?_, ?_, ?_, ?_, ?_, ?_⟩
          · rw [e1, d1, a1]; simp [st1]
          · rw [e2, d2, a2]; simp [st1]
          · rw [e3, d3, a3]; simp [st1]
          · rw [e4, d4, a4]; simp [st1]
          · rw [e5, d5, a5]
          · intro sd rest crest e hlen hf
            simp only [List.append_assoc, List.singleton_append] at hf
            obtain ⟨f1, f2⟩ := hf
            set sd1 : SpihtDec := { sd with arith := (ArithDec_decode sd.arith CONTEXT_SIGNIFICANCE_1).2 }
            obtain ⟨g1, g2, g3, g4, g5⟩ := a8 sd1 (b3 ++ (bs ++ rest)) (c3 ++ (cs ++ crest)) f2
            obtain ⟨i1, i2, i3, i4, i5⟩ := d8 (decChild compare (2 * p.index) sd1)
              (bs ++ rest) (cs ++ crest) g5
            have hl3 : (decChild compare (2 * p.index + 1)
                (decChild compare (2 * p.index) sd1)).out.length = data.length := by
              rw [decChild_length, decChild_length]; exact hlen
            obtain ⟨sd', j1, j2, j3, j4, j5, j6⟩ := e6 _ rest crest hl3 i5
            refine ⟨sd', ?_, ?_, ?_, ?_, ?_, j6⟩
            · simp only [decSortLIS, hA, if_true, f1, hlen]
              rw [hrec2] at j1
              by_cases hg : 4 * p.index + 3 < data.length
              · rw [if_pos hg] at j1 ⊢; exact j1
              · rw [if_neg hg] at j1 ⊢; exact j1
            · rw [j2, i1, g1]; simp [sd1]
            · rw [j3, i2, g2]; simp [sd1]
            · rw [j4, i3, g3]
            · rw [j5, i4, g4, applySig_append, applySig_append]
        · simp only [hs, if_false] at h
          obtain ⟨bs, cs, kl, nw, ks, e1, e2, e3, e4, e5, e6⟩ := ih ps _ h
          refine ⟨[false] ++ bs, [CONTEXT_SIGNIFICANCE_1] ++ cs, kl, nw, p :: ks,
            ?_, ?_, ?_, ?_, ?_, ?_⟩
          · rw [e1]; simp
          · rw [e2]; simp
          · rw [e3]
          · rw [e4]
          · rw [e5]; simp
          · intro sd rest crest e hlen hf
            obtain ⟨f1, f2⟩ := hf
            obtain ⟨sd', j1, j2, j3, j4, j5, j6⟩ := e6
              { sd with arith := (ArithDec_decode sd.arith CONTEXT_SIGNIFICANCE_1).2
                        LIS := sd.LIS ++ [p] } rest crest hlen f2
            refine ⟨sd', ?_, j2, j3, by rw [j4]; simp, j5, j6⟩
            simp only [decSortLIS, hA, if_true, f1, Bool.false_eq_true, if_false]
            exact j1
      · simp only [hA, if_false] at h
        by_cases hs : maxDescendant m p ≥ compare
        · simp only [hs, if_true] at h
          obtain ⟨bs, cs, kl, nw, ks, e1, e2, e3, e4, e5, e6⟩ := ih _ _ h
          refine ⟨[true] ++ bs, [CONTEXT_SIGNIFICANCE_3] ++ cs, kl, nw, ks,
            ?_, ?_, ?_, ?_, ?_, ?_⟩
          · rw [e1]; simp
          · rw [e2]; simp
          · rw [e3]
          · rw [e4]
          · rw [e5]
          · intro sd rest crest e hlen hf
            obtain ⟨f1, f2⟩ := hf
            obtain ⟨sd', j1, j2, j3, j4, j5, j6⟩ := e6
              { sd with arith := (ArithDec_decode sd.arith CONTEXT_SIGNIFICANCE_3).2 }
              rest crest hlen f2
            refine ⟨sd', ?_, j2, j3, j4, j5, j6⟩
            simp only [decSortLIS, hA, if_false, f1, if_true]
            exact j1
        · simp only [hs, if_false] at h
          obtain ⟨bs, cs, kl, nw, ks, e1, e2, e3, e4, e5, e6⟩ := ih ps _ h
          refine ⟨[false] ++ bs, [CONTEXT_SIGNIFICANCE_3] ++ cs, kl, nw, p :: ks,
            ?_, ?_, ?_, ?_, ?_, ?_⟩
          · rw [e1]; simp
          · rw [e2]; simp
          · rw [e3]
          · rw [e4]
          · rw [e5]; simp
          · intro sd rest crest e hlen hf
            obtain ⟨f1, f2⟩ := hf
            obtain ⟨sd', j1, j2, j3, j4, j5, j6⟩ := e6
              { sd with arith := (ArithDec_decode sd.arith CONTEXT_SIGNIFICANCE_3).2
                        LIS := sd.LIS ++ [p] } rest crest hlen f2
            refine ⟨sd', ?_, j2, j3, by rw [j4]; simp, j5, j6⟩
            simp only [decSortLIS, hA, if_false, f1, Bool.false_eq_true]
            exact j1

/-- Shape of the encoder's sorting pass and the decoder following it. -/
theorem sortingPass_lockstep (data : List Int) (m : MaxDesc) (compare : Nat)
    (st st' : SpihtEnc) (h : encSortingPass data m compare st = some st') :
    ∃ (bs : List Bool) (cs : List Nat) (new : List Nat),
      st'.outstream = st.outstream ++ bs ∧ st'.context = st.context ++ cs ∧
      st'.LSP = st.LSP ++ new ∧
      ∀ (sd : SpihtDec) (rest : List Bool) (crest : List Nat) {e : ArithDec},
        sd.LIP = st.LIP → sd.LSP = st.LSP → sd.LIS = st.LIS →
        sd.out.length = data.length →
        Feeds e sd.arith (bs ++ rest) (cs ++ crest) →
        ∃ sd', decSortingPass compare sd = some sd' ∧
          sd'.LIP = st'.LIP ∧ sd'.LSP = st'.LSP ∧ sd'.LIS = st'.LIS ∧
          sd'.out = applySig data compare new sd.out ∧
          Feeds e sd'.arith rest crest := by
  unfold encSortingPass at h
  simp only at h
  obtain ⟨b1, c1, k1, n1, a1, a2, a3, a4, a5, -, -, a8⟩ :=
    sortLIP_lockstep data compare st.LIP { st with LIP := [] }
  obtain ⟨b2, c2, k2, n2, ks, e1, e2, e3, e4, e5, e6⟩ :=
    sortLIS_lockstep data m compare _ _ _ st' h
  refine ⟨b1 ++ b2, c1 ++ c2, n1 ++ n2, ?_, ?_, ?_, ?_⟩
  · rw [e1]; simp only [a1]; simp
  · rw [e2]; simp only [a2]; simp
  · rw [e4]; simp only [a4]; simp
  · intro sd rest crest e l1 l2 l3 hlen hf
    rw [List.append_assoc, List.append_assoc] at hf
    obtain ⟨g1, g2, g3, g4, g5⟩ := a8 { sd with LIP := [] } (b2 ++ rest) (c2 ++ crest) hf
    have hlen1 : (decSortLIP compare st.LIP { sd with LIP := [] }).out.length = data.length := by
      rw [g4, applySig_length]; exact hlen
    obtain ⟨sd', j1, j2, j3, j4, j5, j6⟩ := e6
      { decSortLIP compare st.LIP { sd with LIP := [] } with LIS := [] } rest crest hlen1
      (by simpa using g5)
    refine ⟨sd', ?_, ?_, ?_, ?_, ?_, j6⟩
    · unfold decSortingPass
      simp only
      have hl : (decSortLIP compare st.LIP { sd with LIP := [] }).LIS
          = (encSortLIP data compare st.LIP { st with LIP := [] }).LIS := by
        rw [g3, a5]; exact l3
      rw [hlen, l1, hl]
      exact j1
    · rw [j2, e3]; simp only [g1, a3]
    · rw [j3, e4]; simp only [g2, a4]; rw [l2]
    · rw [j4, e5]
    · rw [j5]; simp only [g4]; rw [applySig_append]

/-- The decoder's refinement pass follows the refinement bits of the encoder. -/
theorem refinement_lockstep (data : List Int) (n : Nat) (old : List Nat) (out : List Int)
    (d : ArithDec) (rest : List Bool) (crest : List Nat) {e : ArithDec}
    (h : Feeds e d (old.map (fun i => bitget (data.getD i 0).natAbs (n + 1)) ++ rest)
      (old.map (fun _ => CONTEXT_REFINEMENT) ++ crest)) :
    (decRefinementPass (1 <<< n) old out d).1 = applyRef data n old out ∧
    Feeds e (decRefinementPass (1 <<< n) old out d).2 rest crest := by
  induction old generalizing out d with
  | nil => exact ⟨rfl, by simpa using h⟩
  | cons i is ih =>
    obtain ⟨f1, f2⟩ := h
    simp only [decRefinementPass, f1, applyRef, List.foldl_cons]
    by_cases hb : bitget (data.getD i 0).natAbs (n + 1) = true
    · simp only [hb, if_true]
      exact ih _ _ f2
    · have hb' : bitget (data.getD i 0).natAbs (n + 1) = false := by simpa using hb
      simp only [hb', Bool.false_eq_true, if_false]
      exact ih _ _ f2

theorem coverCount_append (a b : List pixel) (i : Nat) :
    coverCount (a ++ b) i = coverCount a i + coverCount b i := by
  simp [coverCount, List.countP_append]

theorem coverCount_cons (e : pixel) (l : List pixel) (i : Nat) :
    coverCount (e :: l) i = (covers e i).toNat + coverCount l i := by
  simp only [coverCount, List.countP_cons]
  cases covers e i <;> simp <;> omega

theorem coverCount_nil (i : Nat) : coverCount [] i = 0 := rfl

theorem lisWeightSum_append (size : Nat) (a b : List pixel) :
    lisWeightSum size (a ++ b) = lisWeightSum size a + lisWeightSum size b := by
  simp [lisWeightSum]

theorem lisWeightSum_cons (size : Nat) (e : pixel) (l : List pixel) :
    lisWeightSum size (e :: l) = lisWeight size e + lisWeightSum size l := by
  simp [lisWeightSum]

theorem lisWeight_ge_one (size : Nat) (e : pixel) (h : ValidEntry size e) :
    1 ≤ lisWeight size e := by
  obtain ⟨h1, h2⟩ := h
  have hy : (0:ℚ) < e.index := by exact_mod_cast (by omega : 0 < e.index)
  unfold lisWeight
  rcases h2 with ⟨t, hb⟩ | ⟨t, hb⟩
  · rw [if_pos t]
    have : (2 * (e.index : ℚ) + 1) < size := by exact_mod_cast hb
    have h3 : (3 : ℚ) ≤ 2 * (size : ℚ) / (e.index : ℚ) := by
      rw [le_div_iff₀ hy]; linarith
    linarith
  · rw [if_neg (by omega)]
    have : (4 * (e.index : ℚ) + 3) < size := by exact_mod_cast hb
    have h3 : (4 : ℚ) ≤ 2 * (size : ℚ) / (e.index : ℚ) := by
      rw [le_div_iff₀ hy]; linarith
    linarith

theorem lisWeightSum_nonneg (size : Nat) (l : List pixel) (h : ∀ e ∈ l, ValidEntry size e) :
    0 ≤ lisWeightSum size l := by
  induction l with
  | nil => simp [lisWeightSum]
  | cons e l ih =>
    rw [lisWeightSum_cons]
    have := lisWeight_ge_one size e (h e (by simp))
    have := ih (fun x hx => h x (by simp [hx]))
    linarith

theorem lisWeight_split_B (size y : Nat) (hy : 1 ≤ y) :
    lisWeight size ⟨2 * y, 0⟩ + lisWeight size ⟨2 * y + 1, 0⟩ ≤ lisWeight size ⟨y, 1⟩ - 1 := by
  unfold lisWeight
  simp only [if_true]
  rw [if_neg (by decide)]
  have hy' : (0:ℚ) < y := by exact_mod_cast hy
  have hs : (0:ℚ) ≤ size := Nat.cast_nonneg _
  have e1 : 2 * (size : ℚ) / ((2 * y : Nat) : ℚ) = (size : ℚ) / y := by
    push_cast; field_simp; ring
  have e2 : 2 * (size : ℚ) / ((2 * y + 1 : Nat) : ℚ) ≤ (size : ℚ) / y := by
    push_cast
    rw [div_le_div_iff (by linarith) hy']
    nlinarith
  have e3 : 2 * (size : ℚ) / (y : ℚ) = (size : ℚ) / y + (size : ℚ) / y := by ring
  rw [e1, e3]
  linarith

theorem no_grandchildren (size y i : Nat) (h4 : size % 4 = 0) (hy : 1 ≤ y)
    (hg : ¬ 4 * y + 3 < size) (hi : i < size) : covers ⟨y, 1⟩ i = false := by
  by_contra hc
  have hc' : covers ⟨y, 1⟩ i = true := by simpa using hc
  obtain ⟨k, hk1, hk2⟩ := (covers_iff ⟨y, 1⟩ i hy).1 hc'
  simp only [minDepth] at hk1
  have hk : 2 ≤ k := by simpa using hk1
  obtain ⟨j, rfl⟩ : ∃ j, k = j + 2 := ⟨k - 2, by omega⟩
  have h1 : y * 2 ^ (j + 2) ≤ i := by
    have := Nat.div_mul_le_self i (2 ^ (j + 2))
    simp only at hk2
    rw [hk2] at this; exact this
  have h2 : 4 * y ≤ y * 2 ^ (j + 2) := by
    have : 1 ≤ 2 ^ j := Nat.one_le_two_pow
    calc 4 * y = y * (1 * 4) := by ring
      _ ≤ y * (2 ^ j * 4) := by gcongr
      _ = y * 2 ^ (j + 2) := by ring
  omega

theorem partInv_A_split (size y : Nat) (LIP LSP k2 n2 k3 n3 : List Nat) (kept ps : List pixel)
    (h4 : size % 4 = 0)
    (h : PartInv size LIP LSP (kept ++ ⟨y, 0⟩ :: ps))
    (c2 : ∀ i, k2.count i + n2.count i = if i = 2 * y then 1 else 0)
    (c3 : ∀ i, k3.count i + n3.count i = if i = 2 * y + 1 then 1 else 0)
    (m2 : ∀ i ∈ k2 ++ n2, i = 2 * y) (m3 : ∀ i ∈ k3 ++ n3, i = 2 * y + 1) :
    PartInv size (LIP ++ k2 ++ k3) (LSP ++ n2 ++ n3)
      (kept ++ (if 4 * y + 3 < size then ps ++ [⟨y, 1⟩] else ps)) := by
  obtain ⟨p1, p2, p3, p4⟩ := h
  have hv : ValidEntry size ⟨y, 0⟩ := p3 _ (by simp)
  obtain ⟨hy, hv2⟩ := hv
  simp only at hy
  have hb : 2 * y + 1 < size := by
    rcases hv2 with ⟨_, h⟩ | ⟨h, _⟩
    · exact h
    · simp at h
  refine ⟨?_, ?_, ?_, ?_⟩
  · intro i hi
    simp only [List.mem_append] at hi
    rcases hi with (hi | hi) | hi
    · exact p1 i hi
    · have := m2 i (by simp [hi]); omega
    · have := m3 i (by simp [hi]); omega
  · intro i hi
    simp only [List.mem_append] at hi
    rcases hi with (hi | hi) | hi
    · exact p2 i hi
    · have := m2 i (by simp [hi]); omega
    · have := m3 i (by simp [hi]); omega
  · intro e he
    by_cases hg : 4 * y + 3 < size
    · rw [if_pos hg] at he
      simp only [List.mem_append, List.mem_singleton] at he
      rcases he with he | he | he
      · exact p3 e (by simp [he])
      · exact p3 e (by simp [he])
      · subst he; exact ⟨hy, Or.inr ⟨rfl, hg⟩⟩
    · rw [if_neg hg] at he
      simp only [List.mem_append] at he
      rcases he with he | he
      · exact p3 e (by simp [he])
      · exact p3 e (by simp [he])
  · intro i hi
    have h0 := p4 i hi
    rw [coverCount_append, coverCount_cons, covers_A_split y i (by omega)] at h0
    have a2 := c2 i
    have a3 := c3 i
    simp only [List.count_append]
    by_cases hg : 4 * y + 3 < size
    · rw [if_pos hg, coverCount_append, coverCount_append, coverCount_cons, coverCount_nil]
      omega
    · rw [if_neg hg, coverCount_append]
      have := no_grandchildren size y i h4 (by omega) hg hi
      rw [this] at h0
      simp only [Bool.toNat_false] at h0
      omega

theorem partInv_B_split (size y : Nat) (LIP LSP : List Nat) (kept ps : List pixel)
    (h : PartInv size LIP LSP (kept ++ ⟨y, 1⟩ :: ps)) :
    PartInv size LIP LSP (kept ++ (ps ++ [⟨2 * y, 0⟩, ⟨2 * y + 1, 0⟩])) := by
  obtain ⟨p1, p2, p3, p4⟩ := h
  have hv : ValidEntry size ⟨y, 1⟩ := p3 _ (by simp)
  obtain ⟨hy, hv2⟩ := hv
  simp only at hy
  have hb : 4 * y + 3 < size := by
    rcases hv2 with ⟨h, _⟩ | ⟨_, h⟩
    · simp at h
    · exact h
  refine ⟨p1, p2, ?_, ?_⟩
  · intro e he
    simp only [List.mem_append, List.mem_cons, List.mem_singleton, List.not_mem_nil,
      or_false] at he
    rcases he with he | he | he | he
    · exact p3 e (by simp [he])
    · exact p3 e (by simp [he])
    · subst he; exact ⟨by simp; omega, Or.inl ⟨rfl, by simp; omega⟩⟩
    · subst he; exact ⟨by simp; omega, Or.inl ⟨rfl, by simp; omega⟩⟩
  · intro i hi
    have h0 := p4 i hi
    rw [coverCount_append, coverCount_cons, covers_B_split y i (by omega)] at h0
    rw [coverCount_append, coverCount_append, coverCount_cons, coverCount_cons, coverCount_nil]
    omega

theorem child_counts (data : List Int) (compare index : Nat) (i : Nat) :
    (if (data.getD index 0).natAbs ≥ compare then ([] : List Nat) else [index]).count i +
    (if (data.getD index 0).natAbs ≥ compare then [index] else ([] : List Nat)).count i
      = if i = index then 1 else 0 := by
  by_cases h : (data.getD index 0).natAbs ≥ compare
  · rw [if_pos h, if_pos h]
    by_cases e : i = index
    · subst e; simp
    · rw [if_neg e]; simp [List.count_cons, Ne.symm e]
  · rw [if_neg h, if_neg h]
    by_cases e : i = index
    · subst e; simp
    · rw [if_neg e]; simp [List.count_cons, Ne.symm e]

theorem child_mem (data : List Int) (compare index : Nat) (i : Nat)
    (h : i ∈ (if (data.getD index 0).natAbs ≥ compare then ([] : List Nat) else [index]) ++
      (if (data.getD index 0).natAbs ≥ compare then [index] else ([] : List Nat))) :
    i = index := by
  by_cases hs : (data.getD index 0).natAbs ≥ compare
  · rw [if_pos hs, if_pos hs] at h; simpa using h
  · rw [if_neg hs, if_neg hs] at h; simpa using h

theorem lisWeightSum_nil (size : Nat) : lisWeightSum size [] = 0 := rfl

theorem encChild_inv (data : List Int) (compare index : Nat) (st : SpihtEnc) :
    ∃ kept new : List Nat,
      (encChild data compare index st).LIP = st.LIP ++ kept ∧
      (encChild data compare index st).LSP = st.LSP ++ new ∧
      (encChild data compare index st).LIS = st.LIS ∧
      (∀ i, kept.count i + new.count i = if i = index then 1 else 0) ∧
      (∀ i ∈ kept ++ new, i = index) ∧
      (∀ i ∈ kept, (data.getD i 0).natAbs < compare) ∧
      (∀ i ∈ new, compare ≤ (data.getD i 0).natAbs) := by
  obtain ⟨bs, cs, kept, new, -, -, a3, a4, a5, a6, a7, -⟩ := child_lockstep data compare index st
  refine ⟨kept, new, a3, a4, a5, ?_, ?_, ?_, ?_⟩
  · intro i; rw [a6, a7]; exact child_counts data compare index i
  · intro i hi; rw [a6, a7] at hi; exact child_mem data compare index i hi
  · intro i hi
    rw [a6] at hi
    by_cases hs : (data.getD index 0).natAbs ≥ compare
    · rw [if_pos hs] at hi; simp at hi
    · rw [if_neg hs] at hi
      simp only [List.mem_singleton] at hi
      subst hi; omega
  · intro i hi
    rw [a7] at hi
    by_cases hs : (data.getD index 0).natAbs ≥ compare
    · rw [if_pos hs] at hi
      simp only [List.mem_singleton] at hi
      subst hi; exact hs
    · rw [if_neg hs] at hi; simp at hi

/-- The encoder's LIS loop ends within its fuel, keeps the partition of the
indices, leaves only insignificant indices and sets behind, and adds only
significant indices to the LSP. -/
theorem sortLIS_inv (data : List Int) (m : MaxDesc) (compare : Nat) (old : List Nat)
    (h4 : data.length % 4 = 0) (hmax : MaxOK data m) (fuel : Nat) (pending : List pixel)
    (st : SpihtEnc) (hinv : LISInv data compare old pending st)
    (hfuel : lisWeightSum data.length pending ≤ fuel) :
    ∃ st', encSortLIS data m compare fuel pending st = some st' ∧
      LISInv data compare old [] st' ∧
      lisWeightSum data.length st'.LIS
        ≤ lisWeightSum data.length st.LIS + lisWeightSum data.length pending := by
  induction fuel generalizing pending st with
  | zero =>
    cases pending with
    | nil =>
      refine ⟨st, rfl, hinv, ?_⟩
      simp [lisWeightSum]
    | cons p ps =>
      exfalso
      obtain ⟨⟨-, -, p3, -⟩, -⟩ := hinv
      rw [lisWeightSum_cons] at hfuel
      have := lisWeight_ge_one data.length p (p3 p (by simp))
      have := lisWeightSum_nonneg data.length ps (fun e he => p3 e (by simp [he]))
      simp only [Nat.cast_zero] at hfuel
      linarith
  | succ n ih =>
    cases pending with
    | nil =>
      refine ⟨st, rfl, hinv, ?_⟩
      simp [lisWeightSum]
    | cons p ps =>
      obtain ⟨hp, hlip, hlis, new, hnew1, hnew2⟩ := hinv
      have hvalid := hp.2.2.1
      have hpv : ValidEntry data.length p := hvalid p (by simp)
      have hps : ∀ e ∈ ps, ValidEntry data.length e := fun e he => hvalid e (by simp [he])
      have hw1 := lisWeight_ge_one data.length p hpv
      rw [lisWeightSum_cons] at hfuel
      push_cast at hfuel
      obtain ⟨y, t⟩ := p
      simp only [encSortLIS]
      by_cases hA : t = 0
      · subst hA
        simp only [if_true]
        by_cases hs : maxDescendant m ⟨y, 0⟩ ≥ compare
        · simp only [hs, if_true]
          set st1 : SpihtEnc := { st with outstream := st.outstream ++ [true]
                                          context := st.context ++ [CONTEXT_SIGNIFICANCE_1] }
          obtain ⟨k2, n2, a1, a2, a3, a4, a5, a6, a7⟩ := encChild_inv data compare (2 * y) st1
          obtain ⟨k3, n3, b1, b2, b3, b4, b5, b6, b7⟩ :=
            encChild_inv data compare (2 * y + 1) (encChild data compare (2 * y) st1)
          set st3 := encChild data compare (2 * y + 1) (encChild data compare (2 * y) st1)
          have e1 : st3.LIP = st.LIP ++ k2 ++ k3 := by rw [b1, a1]
          have e2 : st3.LSP = st.LSP ++ n2 ++ n3 := by rw [b2, a2]
          have e3 : st3.LIS = st.LIS := by rw [b3, a3]
          have hpart := partInv_A_split data.length y st.LIP st.LSP k2 n2 k3 n3 st.LIS ps h4 hp
            a4 b4 a5 b5
          have hinv3 : LISInv data compare old
              (if 4 * y + 3 < data.length then ps ++ [⟨y, 1⟩] else ps) st3 := by
            refine ⟨by rw [e1, e2, e3]; exact hpart, ?_, by rw [e3]; exact hlis,
              new ++ n2 ++ n3, by rw [e2, hnew1]; simp, ?_⟩
            · intro i hi
              rw [e1] at hi
              simp only [List.mem_append] at hi
              rcases hi with (hi | hi) | hi
              · exact hlip i hi
              · exact a6 i hi
              · exact b6 i hi
            · intro i hi
              simp only [List.mem_append] at hi
              rcases hi with (hi | hi) | hi
              · exact hnew2 i hi
              · exact a7 i hi
              · exact b7 i hi
          have hw : lisWeightSum data.length
              (if 4 * y + 3 < data.length then ps ++ [⟨y, 1⟩] else ps)
                ≤ lisWeightSum data.length ps + lisWeight data.length ⟨y, 0⟩ - 1 := by
            by_cases hg : 4 * y + 3 < data.length
            · rw [if_pos hg, lisWeightSum_append, lisWeightSum_cons, lisWeightSum_nil]
              simp only [lisWeight, if_true]
              rw [if_neg (by decide)]
              linarith
            · rw [if_neg hg]; linarith
          obtain ⟨st', r1, r2, r3⟩ := ih _ st3 hinv3 (by linarith)
          refine ⟨st', ?_, r2, ?_⟩
          · by_cases hg : 4 * y + 3 < data.length
            · rw [if_pos hg] at r1 ⊢; exact r1
            · rw [if_neg hg] at r1 ⊢; exact r1
          · rw [e3] at r3
            rw [lisWeightSum_cons]
            linarith
        · simp only [hs, if_false]
          have hinv2 : LISInv data compare old ps { st with
              outstream := st.outstream ++ [false]
              context := st.context ++ [CONTEXT_SIGNIFICANCE_1]
              LIS := st.LIS ++ [⟨y, 0⟩] } := by
            refine ⟨by simpa using hp, hlip, ?_, new, hnew1, hnew2⟩
            intro e he i hi hc
            simp only [List.mem_append, List.mem_singleton] at he
            rcases he with he | he
            · exact hlis e he i hi hc
            · subst he
              have := hmax _ i hpv hi hc
              omega
          obtain ⟨st', r1, r2, r3⟩ := ih ps _ hinv2 (by linarith)
          refine ⟨st', r1, r2, ?_⟩
          simp only [lisWeightSum_append, lisWeightSum_cons, lisWeightSum_nil] at r3 ⊢
          linarith
      · have ht : t = 1 := by
          rcases hpv.2 with ⟨h, _⟩ | ⟨h, _⟩
          · exact absurd h hA
          · exact h
        subst ht
        simp only [if_neg (by decide : ¬ (1:Nat) = 0)]
        by_cases hs : maxDescendant m ⟨y, 1⟩ ≥ compare
        · simp only [hs, if_true]
          have hpart := partInv_B_split data.length y st.LIP st.LSP st.LIS ps hp
          have hinv2 : LISInv data compare old (ps ++ [⟨2 * y, 0⟩, ⟨2 * y + 1, 0⟩]) { st with
              outstream := st.outstream ++ [true]
              context := st.context ++ [CONTEXT_SIGNIFICANCE_3] } :=
            ⟨hpart, hlip, hlis, new, hnew1, hnew2⟩
          have hw := lisWeight_split_B data.length y (by have := hpv.1; simp only at this; omega)
          obtain ⟨st', r1, r2, r3⟩ := ih _ _ hinv2 (by
            rw [lisWeightSum_append, lisWeightSum_cons, lisWeightSum_cons, lisWeightSum_nil]
            linarith)
          refine ⟨st', r1, r2, ?_⟩
          rw [lisWeightSum_append, lisWeightSum_cons, lisWeightSum_cons, lisWeightSum_nil] at r3
          rw [lisWeightSum_cons]
          linarith
        · simp only [hs, if_false]
          have hinv2 : LISInv data compare old ps { st with
              outstream := st.outstream ++ [false]
              context := st.context ++ [CONTEXT_SIGNIFICANCE_3]
              LIS := st.LIS ++ [⟨y, 1⟩] } := by
            refine ⟨by simpa using hp, hlip, ?_, new, hnew1, hnew2⟩
            intro e he i hi hc
            simp only [List.mem_append, List.mem_singleton] at he
            rcases he with he | he
            · exact hlis e he i hi hc
            · subst he
              have := hmax _ i hpv hi hc
              omega
          obtain ⟨st', r1, r2, r3⟩ := ih ps _ hinv2 (by linarith)
          refine ⟨st', r1, r2, ?_⟩
          simp only [lisWeightSum_append, lisWeightSum_cons, lisWeightSum_nil] at r3 ⊢
          linarith

theorem count_filter_add (l : List Nat) (p : Nat → Bool) (i : Nat) :
    (l.filter (fun x => !p x)).count i + (l.filter p).count i = l.count i := by
  induction l with
  | nil => rfl
  | cons x xs ih =>
    by_cases hp : p x = true
    · rw [List.filter_cons_of_neg (by simp [hp]), List.filter_cons_of_pos hp]
      simp only [List.count_cons]
      omega
    · have hp' : p x = false := by simpa using hp
      rw [List.filter_cons_of_pos (by simp [hp']), List.filter_cons_of_neg (by simp [hp'])]
      simp only [List.count_cons]
      omega

theorem partInv_nodup (size : Nat) (LIP LSP : List Nat) (LIS : List pixel)
    (h : PartInv size LIP LSP LIS) : LSP.Nodup := by
  rw [List.nodup_iff_count_le_one]
  intro i
  by_cases hi : i ∈ LSP
  · have := h.2.2.2 i (h.2.1 i hi); omega
  · rw [List.count_eq_zero_of_not_mem hi]; omega

/-- One sorting pass of the encoder at the threshold `compare`, whatever the
magnitudes of the coefficients outside the LSP: it ends within its fuel and
establishes the invariant of the threshold `compare`. -/
theorem sortingPass_frame (data : List Int) (m : MaxDesc) (compare : Nat)
    (h4 : data.length % 4 = 0) (hmax : MaxOK data m) (st : SpihtEnc)
    (hp : PartInv data.length st.LIP st.LSP st.LIS)
    (hsig : ∀ i ∈ st.LSP, 2 * compare ≤ (data.getD i 0).natAbs)
    (hw : lisWeightSum data.length st.LIS ≤ (LIS_FUEL data.length : ℚ)) :
    ∃ st', encSortingPass data m compare st = some st' ∧ PlaneInv data compare st' ∧
      ∃ new, st'.LSP = st.LSP ++ new ∧
        ∀ i ∈ new, i < data.length ∧ i ∉ st.LSP ∧ compare ≤ (data.getD i 0).natAbs := by
  obtain ⟨p1, p2, p3, p4⟩ := hp
  obtain ⟨b1, c1, k1, n1, a1, a2, a3, a4, a5, a6, a7, -⟩ :=
    sortLIP_lockstep data compare st.LIP { st with LIP := [] }
  set st1 := encSortLIP data compare st.LIP { st with LIP := [] }
  have hk : ∀ i ∈ k1, i ∈ st.LIP ∧ (data.getD i 0).natAbs < compare := by
    intro i hi
    rw [a6, List.mem_filter] at hi
    exact ⟨hi.1, by simpa using hi.2⟩
  have hn : ∀ i ∈ n1, i ∈ st.LIP ∧ compare ≤ (data.getD i 0).natAbs := by
    intro i hi
    rw [a7, List.mem_filter] at hi
    exact ⟨hi.1, by simpa using hi.2⟩
  have hcount : ∀ i, k1.count i + n1.count i = st.LIP.count i := by
    intro i
    have e : (fun i => decide (¬ ((data.getD i 0).natAbs ≥ compare)))
        = (fun x => !decide ((data.getD x 0).natAbs ≥ compare)) := by
      funext x
      generalize (data.getD x 0).natAbs = a
      rcases Nat.lt_or_ge a compare with h | h
      · simp [h, Nat.not_le.mpr h]
      · simp [h, Nat.not_lt.mpr h]
    rw [a6, a7, e]
    exact count_filter_add st.LIP (fun x => decide ((data.getD x 0).natAbs ≥ compare)) i
  have hinv1 : LISInv data compare st.LSP st1.LIS { st1 with LIS := [] } := by
    refine ⟨⟨?_, ?_, ?_, ?_⟩, ?_, ?_, n1, by simp only [a4], fun i hi => (hn i hi).2⟩
    · intro i hi
      simp only [a3, List.nil_append] at hi
      exact p1 i (hk i hi).1
    · intro i hi
      simp only [a4, List.mem_append] at hi
      rcases hi with hi | hi
      · exact p2 i hi
      · exact p1 i (hn i hi).1
    · intro e he
      simp only [List.nil_append, a5] at he
      exact p3 e he
    · intro i hi
      simp only [a3, a4, a5, List.nil_append, List.count_append]
      have := p4 i hi
      have := hcount i
      omega
    · intro i hi
      simp only [a3, List.nil_append] at hi
      exact (hk i hi).2
    · intro e he; simp at he
  obtain ⟨st', r1, r2, r3⟩ := sortLIS_inv data m compare st.LSP h4 hmax (LIS_FUEL data.length)
    st1.LIS { st1 with LIS := [] } hinv1 (by rw [a5]; exact hw)
  obtain ⟨q, qlip, qlis, new, qn1, qn2⟩ := r2
  obtain ⟨q1, q2, q3, q4⟩ := q
  simp only [List.append_nil] at q3 q4
  have hnd : st'.LSP.Nodup := partInv_nodup _ _ _ _ ⟨q1, q2, q3, q4⟩
  refine ⟨st', r1, ⟨⟨q1, q2, q3, q4⟩, ?_, ?_, ?_⟩, new, qn1, ?_⟩
  · intro i hi hni
    have hc := q4 i hi
    rw [List.count_eq_zero_of_not_mem hni] at hc
    by_cases hl : i ∈ st'.LIP
    · exact qlip i hl
    · rw [List.count_eq_zero_of_not_mem hl] at hc
      have hpos : 0 < coverCount st'.LIS i := by omega
      unfold coverCount at hpos
      rw [List.countP_pos_iff] at hpos
      obtain ⟨e, he, hce⟩ := hpos
      exact qlis e he i hi hce
  · intro i hi
    rw [qn1, List.mem_append] at hi
    rcases hi with hi | hi
    · have := hsig i hi; omega
    · exact qn2 i hi
  · simp only [a5] at r3
    simp only [lisWeightSum_nil, zero_add] at r3
    exact le_trans r3 hw
  · intro i hi
    have hlt : i < data.length := q2 i (by rw [qn1]; simp [hi])
    have hni : i ∉ st.LSP := by
      intro hmem
      rw [qn1] at hnd
      exact (List.nodup_append.1 hnd).2.2 hmem hi
    exact ⟨hlt, hni, qn2 i hi⟩

/-- One sorting pass of the encoder at the threshold `compare`, entered with the
invariant of the threshold `2 * compare`. -/
theorem sortingPass_inv (data : List Int) (m : MaxDesc) (compare : Nat)
    (h4 : data.length % 4 = 0) (hmax : MaxOK data m) (st : SpihtEnc)
    (hinv : PlaneInv data (2 * compare) st) :
    ∃ st', encSortingPass data m compare st = some st' ∧ PlaneInv data compare st' ∧
      ∃ new, st'.LSP = st.LSP ++ new ∧
        ∀ i ∈ new, i < data.length ∧ i ∉ st.LSP ∧ compare ≤ (data.getD i 0).natAbs ∧
          (data.getD i 0).natAbs < 2 * compare := by
  obtain ⟨hp, hins, hsig, hw⟩ := hinv
  obtain ⟨st', r1, r2, new, r3, r4⟩ := sortingPass_frame data m compare h4 hmax st hp hsig hw
  exact ⟨st', r1, r2, new, r3, fun i hi =>
    ⟨(r4 i hi).1, (r4 i hi).2.1, (r4 i hi).2.2, hins i (r4 i hi).1 (r4 i hi).2.1⟩⟩

theorem getD_set_int (l : List Int) (i j : Nat) (v : Int) (hi : i < l.length) :
    (l.set i v).getD j 0 = if j = i then v else l.getD j 0 := by
  simp only [List.getD_eq_getElem?_getD, List.getElem?_set]
  by_cases h : i = j
  · subst h; simp [hi]
  · rw [if_neg h, if_neg (fun e => h e.symm)]

theorem applySig_getD (data : List Int) (compare : Nat) (new : List Nat) (out : List Int)
    (j : Nat) (h : ∀ i ∈ new, i < out.length) :
    (applySig data compare new out).getD j 0 =
      if j ∈ new then (if data.getD j 0 ≥ 0 then (compare : Int) else -(compare : Int))
      else out.getD j 0 := by
  induction new generalizing out with
  | nil => simp [applySig]
  | cons x xs ih =>
    have hx : x < out.length := h x (by simp)
    have := ih (out.set x (if data.getD x 0 ≥ 0 then (compare : Int) else -(compare : Int)))
      (fun i hi => by rw [List.length_set]; exact h i (by simp [hi]))
    simp only [applySig, List.foldl_cons] at this ⊢
    rw [this, getD_set_int _ _ _ _ hx]
    by_cases hjx : j = x
    · subst hjx; simp
    · simp [hjx]

theorem applyRef_length (data : List Int) (n : Nat) (old : List Nat) (out : List Int) :
    (applyRef data n old out).length = out.length := by
  induction old generalizing out with
  | nil => rfl
  | cons x xs ih =>
    simp only [applyRef, List.foldl_cons] at ih ⊢
    rw [ih]
    split_ifs <;> simp

theorem applyRef_getD (data : List Int) (n : Nat) (old : List Nat) (out : List Int)
    (j : Nat) (h : ∀ i ∈ old, i < out.length) (hnd : old.Nodup) :
    (applyRef data n old out).getD j 0 =
      if j ∈ old then
        (if bitget (data.getD j 0).natAbs (n + 1)
         then out.getD j 0 + sgn (out.getD j 0) * ((1 <<< n : Nat) : Int) else out.getD j 0)
      else out.getD j 0 := by
  induction old generalizing out with
  | nil => simp [applyRef]
  | cons x xs ih =>
    have hx : x < out.length := h x (by simp)
    obtain ⟨hxn, hnd'⟩ := List.nodup_cons.1 hnd
    simp only [applyRef, List.foldl_cons]
    by_cases hb : bitget (data.getD x 0).natAbs (n + 1) = true
    · simp only [hb, if_true]
      have := ih (out.set x (out.getD x 0 + sgn (out.getD x 0) * ((1 <<< n : Nat) : Int)))
        (fun i hi => by rw [List.length_set]; exact h i (by simp [hi])) hnd'
      simp only [applyRef] at this
      rw [this]
      by_cases hjx : j = x
      · subst hjx
        rw [if_neg hxn, getD_set_int _ _ _ _ hx, if_pos rfl, if_pos (List.mem_cons_self _ _),
          if_pos hb]
      · rw [getD_set_int _ _ _ _ hx, if_neg hjx]
        simp only [List.mem_cons, hjx, false_or]
    · have hb' : bitget (data.getD x 0).natAbs (n + 1) = false := by simpa using hb
      simp only [hb', Bool.false_eq_true, if_false]
      have := ih out (fun i hi => h i (by simp [hi])) hnd'
      simp only [applyRef] at this
      rw [this]
      by_cases hjx : j = x
      · subst hjx
        rw [if_neg hxn, if_pos (List.mem_cons_self _ _), hb']
        simp
      · simp only [List.mem_cons, hjx, false_or]

theorem sgn_of_pos (c : Int) (h : 0 < c) : sgn c = 1 := by
  unfold sgn; rw [if_pos h, if_neg (by omega)]; rfl

theorem sgn_of_neg (c : Int) (h : c < 0) : sgn c = -1 := by
  unfold sgn; rw [if_neg (by omega), if_pos h]; rfl

theorem sgn_mul_natAbs (c : Int) : sgn c * (c.natAbs : Int) = c := by
  rcases lt_trichotomy c 0 with h | h | h
  · rw [sgn_of_neg c h]; omega
  · subst h; simp [sgn]
  · rw [sgn_of_pos c h]; omega

theorem sgn_truncTo (c : Int) (n : Nat) (h : 2 ^ n ≤ c.natAbs) : sgn (truncTo c n) = sgn c := by
  have hq : 0 < c.natAbs / 2 ^ n * 2 ^ n := by
    have : 0 < c.natAbs / 2 ^ n := Nat.div_pos h (Nat.two_pow_pos n)
    exact Nat.mul_pos this (Nat.two_pow_pos n)
  have hq' : (0 : Int) < ((c.natAbs / 2 ^ n * 2 ^ n : Nat) : Int) := by exact_mod_cast hq
  have hc : c ≠ 0 := by
    intro e; subst e
    have := Nat.two_pow_pos n
    simp at h
  unfold truncTo
  rcases lt_or_gt_of_ne hc with h0 | h0
  · rw [sgn_of_neg c h0]
    exact sgn_of_neg _ (by linarith)
  · rw [sgn_of_pos c h0]
    exact sgn_of_pos _ (by linarith)

theorem truncTo_refine (c : Int) (n : Nat) (h : 2 ^ (n + 1) ≤ c.natAbs) :
    (if bitget c.natAbs (n + 1)
      then truncTo c (n + 1) + sgn (truncTo c (n + 1)) * ((1 <<< n : Nat) : Int)
      else truncTo c (n + 1)) = truncTo c n := by
  rw [sgn_truncTo c (n + 1) h]
  have hdiv : c.natAbs / 2 ^ (n + 1) = c.natAbs / 2 ^ n / 2 := by
    rw [pow_succ, Nat.div_div_eq_div_mul]
  have hbit : bitget c.natAbs (n + 1) = decide (c.natAbs / 2 ^ n % 2 = 1) := by
    simp only [bitget, Nat.add_sub_cancel, Nat.testBit, Nat.shiftRight_eq_div_pow,
      Nat.one_and_eq_mod_two]
    by_cases hm : c.natAbs / 2 ^ n % 2 = 1 <;> simp [hm]
  have hsh : (1 <<< n : Nat) = 2 ^ n := by rw [Nat.shiftLeft_eq, one_mul]
  unfold truncTo
  rw [hbit, hsh, hdiv]
  set q := c.natAbs / 2 ^ n
  have hq := Nat.div_add_mod q 2
  by_cases hm : q % 2 = 1
  · simp only [hm, decide_True, if_true]
    have : (q / 2 * 2 ^ (n + 1) : Nat) + 2 ^ n = q * 2 ^ n := by
      rw [pow_succ]
      have : q = 2 * (q / 2) + 1 := by omega
      conv_rhs => rw [this]
      ring
    have hz : ((q / 2 * 2 ^ (n + 1) : Nat) : Int) + ((2 ^ n : Nat) : Int) = ((q * 2 ^ n : Nat) : Int) := by
      exact_mod_cast this
    rw [← hz]; ring
  · have hm0 : q % 2 = 0 := by omega
    simp only [hm0, show ¬ (0 = 1) by decide, decide_False, Bool.false_eq_true, if_false]
    have : (q / 2 * 2 ^ (n + 1) : Nat) = q * 2 ^ n := by
      rw [pow_succ]
      have : q = 2 * (q / 2) := by omega
      conv_rhs => rw [this]
      ring
    rw [this]

theorem truncTo_new (c : Int) (n : Nat) (h1 : 2 ^ n ≤ c.natAbs) (h2 : c.natAbs < 2 * 2 ^ n) :
    (if c ≥ 0 then (((1 <<< n : Nat) : Nat) : Int) else -(((1 <<< n : Nat) : Nat) : Int))
      = truncTo c n := by
  have hsh : (1 <<< n : Nat) = 2 ^ n := by rw [Nat.shiftLeft_eq, one_mul]
  have hq : c.natAbs / 2 ^ n = 1 := by
    apply Nat.div_eq_of_lt_le
    · simpa using h1
    · simpa [Nat.mul_comm] using h2
  have hp := Nat.two_pow_pos n
  unfold truncTo
  rw [hsh, hq, one_mul]
  by_cases hc : c ≥ 0
  · rw [if_pos hc, sgn_of_pos c (by omega), one_mul]
  · rw [if_neg hc, sgn_of_neg c (by omega)]; ring

/-- One bit plane of the decoder's writes: sign assignments for the newly
significant indices, then refinement of the old ones. -/
theorem outOK_step (data : List Int) (n : Nat) (old new : List Nat) (out : List Int)
    (h : OutOK data (n + 1) old out) (hnd : (old ++ new).Nodup)
    (hold : ∀ i ∈ old, i < data.length ∧ 2 ^ (n + 1) ≤ (data.getD i 0).natAbs)
    (hnew : ∀ i ∈ new, i < data.length ∧ 2 ^ n ≤ (data.getD i 0).natAbs ∧
      (data.getD i 0).natAbs < 2 * 2 ^ n) :
    OutOK data n (old ++ new) (applyRef data n old (applySig data (1 <<< n) new out)) := by
  obtain ⟨hl, hv⟩ := h
  obtain ⟨nd1, nd2, nd3⟩ := List.nodup_append.1 hnd
  refine ⟨by rw [applyRef_length, applySig_length, hl], ?_⟩
  intro j hj
  rw [applyRef_getD _ _ _ _ _ (fun i hi => by rw [applySig_length, hl]; exact (hold i hi).1) nd1]
  rw [applySig_getD _ _ _ _ _ (fun i hi => by rw [hl]; exact (hnew i hi).1)]
  rw [hv j hj]
  by_cases ho : j ∈ old
  · have hjn : j ∉ new := fun hh => nd3 ho hh
    have hmem : j ∈ old ++ new := List.mem_append.2 (Or.inl ho)
    simp only [if_pos ho, if_neg hjn, if_pos hmem]
    exact truncTo_refine _ n (hold j ho).2
  · by_cases hn : j ∈ new
    · have hmem : j ∈ old ++ new := List.mem_append.2 (Or.inr hn)
      simp only [if_neg ho, if_pos hn, if_pos hmem]
      exact truncTo_new _ n (hnew j hn).2.1 (hnew j hn).2.2
    · have hmem : j ∉ old ++ new := fun hh => (List.mem_append.1 hh).elim ho hn
      simp only [if_neg ho, if_neg hn, if_neg hmem]

theorem outOK_final (data : List Int) (LSP : List Nat) (out : List Int)
    (h : OutOK data 0 LSP out)
    (hins : ∀ i, i < data.length → i ∉ LSP → (data.getD i 0).natAbs < 1) : out = data := by
  obtain ⟨hl, hv⟩ := h
  apply List.ext_getElem hl
  intro i h1 h2
  have e := hv i h2
  rw [List.getD_eq_getElem _ _ h1] at e
  have e2 : data.getD i 0 = data[i] := List.getD_eq_getElem _ _ h2
  rw [e]
  by_cases hm : i ∈ LSP
  · rw [if_pos hm, e2]
    unfold truncTo
    simp only [pow_zero, Nat.div_one, Nat.mul_one]
    exact sgn_mul_natAbs _
  · rw [if_neg hm]
    have := hins i h2 hm
    rw [e2] at this
    omega

theorem encPlanes_zero (data : List Int) (m : MaxDesc) (st : SpihtEnc) :
    encPlanes data m 0 st =
      (encSortingPass data m (1 <<< 0) st).map
        (fun st1 => encRefinementPass data 0 st.LSP.length st1) := by
  rw [encPlanes]
  cases encSortingPass data m (1 <<< 0) st <;> rfl

theorem encPlanes_succ (data : List Int) (m : MaxDesc) (k : Nat) (st : SpihtEnc) :
    encPlanes data m (k + 1) st =
      (encSortingPass data m (1 <<< (k + 1)) st).bind
        (fun st1 => encPlanes data m k (encRefinementPass data (k + 1) st.LSP.length st1)) := by
  rw [encPlanes]
  cases encSortingPass data m (1 <<< (k + 1)) st <;> rfl

theorem decPlanes_zero (sd : SpihtDec) :
    decPlanes 0 sd =
      (decSortingPass (1 <<< 0) sd).map (fun st1 =>
        { st1 with
          out := (decRefinementPass (1 <<< 0) (st1.LSP.take sd.LSP.length) st1.out st1.arith).1
          arith := (decRefinementPass (1 <<< 0) (st1.LSP.take sd.LSP.length) st1.out st1.arith).2 }) := by
  rw [decPlanes]
  cases decSortingPass (1 <<< 0) sd <;> rfl

theorem decPlanes_succ (k : Nat) (sd : SpihtDec) :
    decPlanes (k + 1) sd =
      (decSortingPass (1 <<< (k + 1)) sd).bind (fun st1 =>
        decPlanes k { st1 with
          out := (decRefinementPass (1 <<< (k + 1)) (st1.LSP.take sd.LSP.length) st1.out st1.arith).1
          arith := (decRefinementPass (1 <<< (k + 1)) (st1.LSP.take sd.LSP.length) st1.out st1.arith).2 }) := by
  rw [decPlanes]
  cases decSortingPass (1 <<< (k + 1)) sd <;> rfl

/-- One bit plane: the encoder's pass keeps the invariant, the decoder follows
it and holds the coefficients truncated to the plane. -/
theorem plane_step (data : List Int) (m : MaxDesc) (h4 : data.length % 4 = 0)
    (hmax : MaxOK data m) (n : Nat) (st : SpihtEnc) (hinv : PlaneInv data (2 * 2 ^ n) st) :
    ∃ st1, encSortingPass data m (1 <<< n) st = some st1 ∧
      PlaneInv data (2 ^ n) (encRefinementPass data n st.LSP.length st1) ∧
      ∃ (bs : List Bool) (cs : List Nat),
        (encRefinementPass data n st.LSP.length st1).outstream = st.outstream ++ bs ∧
        (encRefinementPass data n st.LSP.length st1).context = st.context ++ cs ∧
        ∀ (sd : SpihtDec) (rest : List Bool) (crest : List Nat) {e : ArithDec},
          sd.LIP = st.LIP → sd.LSP = st.LSP → sd.LIS = st.LIS →
          OutOK data (n + 1) st.LSP sd.out →
          Feeds e sd.arith (bs ++ rest) (cs ++ crest) →
          ∃ sd1, decSortingPass (1 <<< n) sd = some sd1 ∧
            sd1.LIP = st1.LIP ∧ sd1.LSP = st1.LSP ∧ sd1.LIS = st1.LIS ∧
            OutOK data n st1.LSP
              (decRefinementPass (1 <<< n) (sd1.LSP.take sd.LSP.length) sd1.out sd1.arith).1 ∧
            Feeds e (decRefinementPass (1 <<< n) (sd1.LSP.take sd.LSP.length) sd1.out sd1.arith).2
              rest crest := by
  have hsh : (1 <<< n : Nat) = 2 ^ n := by rw [Nat.shiftLeft_eq, one_mul]
  rw [hsh]
  obtain ⟨st1, r1, r2, new, r3, r4⟩ := sortingPass_inv data m (2 ^ n) h4 hmax st hinv
  obtain ⟨bs, cs, new', l1, l2, l3, l4⟩ := sortingPass_lockstep data m (2 ^ n) st st1 r1
  have hnew : new = new' := by
    rw [r3] at l3; exact List.append_cancel_left l3
  subst hnew
  have htake : st1.LSP.take st.LSP.length = st.LSP := by
    rw [r3, List.take_left]
  refine ⟨st1, r1, ?_, bs ++ st.LSP.map (fun i => bitget (data.getD i 0).natAbs (n + 1)),
    cs ++ st.LSP.map (fun _ => CONTEXT_REFINEMENT), ?_, ?_, ?_⟩
  · exact r2
  · simp only [encRefinementPass, htake, l1, List.append_assoc]
  · simp only [encRefinementPass, htake, l2, List.append_assoc]
  · intro sd rest crest e e1 e2 e3 hout hf
    rw [List.append_assoc, List.append_assoc] at hf
    obtain ⟨sd1, d1, d2, d3, d4, d5, d6⟩ := l4 sd _ _ e1 e2 e3 hout.1 hf
    have htake2 : sd1.LSP.take sd.LSP.length = st.LSP := by rw [d3, e2, htake]
    have hr := refinement_lockstep data n st.LSP sd1.out sd1.arith rest crest d6
    rw [hsh] at hr
    obtain ⟨f1, f2⟩ := hr
    refine ⟨sd1, d1, d2, d3, d4, ?_, by rw [htake2]; exact f2⟩
    rw [htake2, f1, d5, r3]
    have hnd : (st.LSP ++ new).Nodup := by
      rw [← r3]; exact partInv_nodup _ _ _ _ r2.1
    have key := outOK_step data n st.LSP new sd.out hout hnd
      (fun i hi => ⟨hinv.1.2.1 i hi, by
        have := hinv.2.2.1 i hi
        rw [pow_succ]; omega⟩)
      (fun i hi => by
        obtain ⟨a, -, b, c⟩ := r4 i hi
        exact ⟨a, b, c⟩)
    rw [hsh] at key
    exact key

/-- All bit planes from `n` down to 0: the encoder terminates, and a decoder
that starts with the same lists and reads the encoder's bits ends with
`out = data`. -/
theorem planes_correct (data : List Int) (m : MaxDesc) (h4 : data.length % 4 = 0)
    (hmax : MaxOK data m) (n : Nat) (st : SpihtEnc) (hinv : PlaneInv data (2 * 2 ^ n) st) :
    ∃ st', encPlanes data m n st = some st' ∧
      ∃ (bs : List Bool) (cs : List Nat),
        st'.outstream = st.outstream ++ bs ∧ st'.context = st.context ++ cs ∧
        ∀ (sd : SpihtDec) (rest : List Bool) (crest : List Nat) {e : ArithDec},
          sd.LIP = st.LIP → sd.LSP = st.LSP → sd.LIS = st.LIS →
          OutOK data (n + 1) st.LSP sd.out →
          Feeds e sd.arith (bs ++ rest) (cs ++ crest) →
          ∃ sd', decPlanes n sd = some sd' ∧ sd'.out = data ∧ Feeds e sd'.arith rest crest := by
  induction n generalizing st with
  | zero =>
    obtain ⟨st1, r1, r2, bs, cs, e1, e2, e3⟩ := plane_step data m h4 hmax 0 st hinv
    refine ⟨encRefinementPass data 0 st.LSP.length st1, ?_, bs, cs, e1, e2, ?_⟩
    · rw [encPlanes_zero, r1]; rfl
    · intro sd rest crest e l1 l2 l3 hout hf
      obtain ⟨sd1, d1, d2, d3, d4, d5, d6⟩ := e3 sd rest crest l1 l2 l3 hout hf
      refine ⟨_, by rw [decPlanes_zero, d1]; rfl, ?_, d6⟩
      simp only
      apply outOK_final data st1.LSP _ d5
      intro i hi hni
      have := r2.2.1 i hi hni
      simpa using this
  | succ k ih =>
    obtain ⟨st1, r1, r2, bs, cs, e1, e2, e3⟩ := plane_step data m h4 hmax (k + 1) st hinv
    have hinv2 : PlaneInv data (2 * 2 ^ k) (encRefinementPass data (k + 1) st.LSP.length st1) := by
      rw [pow_succ, Nat.mul_comm] at r2; exact r2
    obtain ⟨st', q1, bs2, cs2, q2, q3, q4⟩ := ih _ hinv2
    refine ⟨st', ?_, bs ++ bs2, cs ++ cs2, ?_, ?_, ?_⟩
    · rw [encPlanes_succ, r1]; exact q1
    · rw [q2, e1, List.append_assoc]
    · rw [q3, e2, List.append_assoc]
    · intro sd rest crest e l1 l2 l3 hout hf
      rw [List.append_assoc, List.append_assoc] at hf
      obtain ⟨sd1, d1, d2, d3, d4, d5, d6⟩ := e3 sd _ _ l1 l2 l3 hout hf
      obtain ⟨sd', g1, g2, g3⟩ := q4
        { sd1 with
          out := (decRefinementPass (1 <<< (k + 1)) (sd1.LSP.take sd.LSP.length) sd1.out sd1.arith).1
          arith := (decRefinementPass (1 <<< (k + 1)) (sd1.LSP.take sd.LSP.length) sd1.out sd1.arith).2 }
        rest crest d2 d3 d4 d5 d6
      exact ⟨sd', by rw [decPlanes_succ, d1]; exact g1, g2, g3⟩

theorem getD_set_nat (l : List Nat) (i j v : Nat) (hi : i < l.length) :
    (l.set i v).getD j 0 = if j = i then v else l.getD j 0 := by
  simp only [List.getD_eq_getElem?_getD, List.getElem?_set]
  by_cases h : i = j
  · subst h; simp [hi]
  · rw [if_neg h, if_neg (fun e => h e.symm)]

theorem covers_A_cases (t i : Nat) (ht : 1 ≤ t) (h : covers ⟨t, 0⟩ i = true) :
    i = 2 * t ∨ i = 2 * t + 1 ∨ covers ⟨t, 1⟩ i = true := by
  have := covers_A_split t i ht
  rw [h] at this
  simp only [Bool.toNat_true] at this
  by_cases h1 : i = 2 * t
  · exact Or.inl h1
  · by_cases h2 : i = 2 * t + 1
    · exact Or.inr (Or.inl h2)
    · rw [if_neg h1, if_neg h2] at this
      right; right
      cases hc : covers ⟨t, 1⟩ i
      · rw [hc] at this; simp at this
      · rfl

theorem covers_B_cases (t i : Nat) (ht : 1 ≤ t) (h : covers ⟨t, 1⟩ i = true) :
    covers ⟨2 * t, 0⟩ i = true ∨ covers ⟨2 * t + 1, 0⟩ i = true := by
  have := covers_B_split t i ht
  rw [h] at this
  simp only [Bool.toNat_true] at this
  cases hc : covers ⟨2 * t, 0⟩ i
  · rw [hc] at this
    right
    cases hd : covers ⟨2 * t + 1, 0⟩ i
    · rw [hd] at this; simp at this
    · rfl
  · exact Or.inl rfl

theorem initMaxLeaves_step (signal : List Int) (start c : Nat) (md : List Nat) :
    (List.range (c + 1)).foldl (fun md i =>
      let v1 := (signal.getD (start + 2 * i) 0).natAbs
      let v2 := (signal.getD (start + 2 * i + 1) 0).natAbs
      md.set ((start >>> 1) + i) (if v1 > v2 then v1 else v2)) md
    = ((List.range c).foldl (fun md i =>
      let v1 := (signal.getD (start + 2 * i) 0).natAbs
      let v2 := (signal.getD (start + 2 * i + 1) 0).natAbs
      md.set ((start >>> 1) + i) (if v1 > v2 then v1 else v2)) md).set ((start >>> 1) + c)
        (if (signal.getD (start + 2 * c) 0).natAbs > (signal.getD (start + 2 * c + 1) 0).natAbs
          then (signal.getD (start + 2 * c) 0).natAbs
          else (signal.getD (start + 2 * c + 1) 0).natAbs) := by
  rw [List.range_succ, List.foldl_append]
  rfl

theorem initMaxLeaves_spec (signal : List Int) (q : Nat) (hsize : signal.length = 4 * q)
    (md0 : List Nat) (hl : md0.length = 2 * q) (c : Nat) (hc : c ≤ q) :
    let md := (List.range c).foldl (fun md i =>
      let v1 := (signal.getD (2 * q + 2 * i) 0).natAbs
      let v2 := (signal.getD (2 * q + 2 * i + 1) 0).natAbs
      md.set (((2 * q) >>> 1) + i) (if v1 > v2 then v1 else v2)) md0
    md.length = 2 * q ∧ ∀ t, q ≤ t → t < q + c → GoodA signal md t := by
  induction c with
  | zero =>
    refine ⟨hl, ?_⟩
    intro t h1 h2; omega
  | succ c ih =>
    obtain ⟨l1, g1⟩ := ih (by omega)
    have hstep := initMaxLeaves_step signal (2 * q) c md0
    simp only at hstep l1 g1 ⊢
    rw [hstep]
    have hq : (2 * q) >>> 1 = q := by rw [Nat.shiftRight_eq_div_pow]; omega
    rw [hq] at l1 g1 ⊢
    refine ⟨by rw [List.length_set]; exact l1, ?_⟩
    intro t h1 h2 i hi hcov
    rw [getD_set_nat _ _ _ _ (by omega)]
    by_cases ht : t = q + c
    · rw [if_pos ht]
      subst ht
      rcases covers_A_cases _ i (by omega) hcov with h | h | h
      · subst h
        rw [show 2 * (q + c) = 2 * q + 2 * c by ring]
        split_ifs <;> omega
      · subst h
        rw [show 2 * (q + c) + 1 = 2 * q + 2 * c + 1 by ring]
        split_ifs <;> omega
      · exfalso
        have := no_grandchildren signal.length (q + c) i (by omega) (by omega) (by omega) hi
        rw [this] at h
        exact absurd h (by simp)
    · rw [if_neg ht]
      exact g1 t h1 (by omega) i hi hcov

theorem initMaxLevel_eq (signal : List Int) (width : Nat) (m : MaxDesc) :
    initMaxLevel signal width m = (List.range (width >>> 1)).foldl (levelStep signal width) m :=
  rfl

theorem initMaxLevel_spec (signal : List Int) (q h : Nat) (hsize : signal.length = 4 * q)
    (hh : 1 ≤ h) (hq : 2 * h ≤ q) (m : MaxDesc) (hm : MaxInv signal q (2 * h) m)
    (c : Nat) (hc : c ≤ h) :
    let m' := (List.range c).foldl (levelStep signal (2 * h)) m
    m'.maxDescendants.length = 2 * q ∧ m'.maxDescendants1.length = q ∧
    (∀ t, (h ≤ t ∧ t < h + c) ∨ 2 * h ≤ t → t < 2 * q → GoodA signal m'.maxDescendants t) ∧
    (∀ t, (h ≤ t ∧ t < h + c) ∨ 2 * h ≤ t → t < q → GoodB signal m'.maxDescendants1 t) := by
  induction c with
  | zero =>
    obtain ⟨l1, l2, g1, g2⟩ := hm
    refine ⟨l1, l2, ?_, ?_⟩
    · intro t ht; exact g1 t (by omega)
    · intro t ht; exact g2 t (by omega)
  | succ c ih =>
    obtain ⟨l1, l2, g1, g2⟩ := ih (by omega)
    simp only at l1 l2 g1 g2 ⊢
    rw [List.range_succ, List.foldl_append]
    set m1 := (List.range c).foldl (levelStep signal (2 * h)) m
    simp only [List.foldl_cons, List.foldl_nil]
    have hw : (2 * h) >>> 1 = h := by rw [Nat.shiftRight_eq_div_pow]; omega
    have hA1 := g1 (2 * h + 2 * c) (Or.inr (by omega)) (by omega)
    have hA2 := g1 (2 * h + 2 * c + 1) (Or.inr (by omega)) (by omega)
    have hB : ∀ i, i < signal.length → covers ⟨h + c, 1⟩ i = true →
        (signal.getD i 0).natAbs ≤
          (if m1.maxDescendants.getD (2 * h + 2 * c) 0 > m1.maxDescendants.getD (2 * h + 2 * c + 1) 0
            then m1.maxDescendants.getD (2 * h + 2 * c) 0
            else m1.maxDescendants.getD (2 * h + 2 * c + 1) 0) := by
      intro i hi hcov
      rcases covers_B_cases _ i (by omega) hcov with hx | hx
      · rw [show 2 * (h + c) = 2 * h + 2 * c by ring] at hx
        have := hA1 i hi hx
        split_ifs <;> omega
      · rw [show 2 * (h + c) + 1 = 2 * h + 2 * c + 1 by ring] at hx
        have := hA2 i hi hx
        split_ifs <;> omega
    refine ⟨?_, ?_, ?_, ?_⟩
    · simp only [levelStep, List.length_set]; exact l1
    · simp only [levelStep, List.length_set]; exact l2
    · intro t ht htq i hi hcov
      simp only [levelStep, hw]
      rw [getD_set_nat _ _ _ _ (by omega)]
      by_cases htc : t = h + c
      · rw [if_pos htc]
        subst htc
        rcases covers_A_cases _ i (by omega) hcov with hx | hx | hx
        · subst hx
          rw [show 2 * (h + c) = 2 * h + 2 * c by ring]
          split_ifs <;> omega
        · subst hx
          rw [show 2 * (h + c) + 1 = 2 * h + 2 * c + 1 by ring]
          split_ifs <;> omega
        · have := hB i hi hx
          split_ifs at this ⊢ <;> omega
      · rw [if_neg htc]
        exact g1 t (by omega) htq i hi hcov
    · intro t ht htq i hi hcov
      simp only [levelStep, hw]
      rw [getD_set_nat _ _ _ _ (by omega)]
      by_cases htc : t = h + c
      · rw [if_pos htc]
        subst htc
        exact hB i hi hcov
      · rw [if_neg htc]
        exact g2 t (by omega) htq i hi hcov

theorem initMaxLevel_inv (signal : List Int) (q h : Nat) (hsize : signal.length = 4 * q)
    (hh : 1 ≤ h) (hq : 2 * h ≤ q) (m : MaxDesc) (hm : MaxInv signal q (2 * h) m) :
    MaxInv signal q h (initMaxLevel signal (2 * h) m) := by
  have hw : (2 * h) >>> 1 = h := by rw [Nat.shiftRight_eq_div_pow]; omega
  rw [initMaxLevel_eq, hw]
  obtain ⟨l1, l2, g1, g2⟩ := initMaxLevel_spec signal q h hsize hh hq m hm h (le_refl h)
  refine ⟨l1, l2, ?_, ?_⟩
  · intro t ht htq; exact g1 t (by omega) htq
  · intro t ht htq; exact g2 t (by omega) htq

theorem initMaxLevels_inv (signal : List Int) (q : Nat) (hsize : signal.length = 4 * q)
    (j : Nat) (fuel : Nat) (hf : j ≤ fuel) (hq : 2 ^ (j + 1) ≤ q) (m : MaxDesc)
    (hm : MaxInv signal q (2 ^ (j + 1)) m) :
    MaxInv signal q 2 (initMaxLevels signal fuel (2 ^ (j + 1)) m) := by
  induction j generalizing fuel m with
  | zero =>
    cases fuel with
    | zero => simpa [initMaxLevels] using hm
    | succ n =>
      simp only [initMaxLevels]
      rw [if_neg (by simp [Nat.shiftRight_eq_div_pow])]
      simpa using hm
  | succ k ih =>
    obtain ⟨n, rfl⟩ : ∃ n, fuel = n + 1 := ⟨fuel - 1, by omega⟩
    have hw : (2 ^ (k + 1 + 1)) >>> 1 = 2 ^ (k + 1) := by
      rw [Nat.shiftRight_eq_div_pow, pow_succ 2 (k + 1)]; simp
    have hgt : 2 ^ (k + 1) > 1 := Nat.one_lt_two_pow (by omega)
    simp only [initMaxLevels, hw, if_pos hgt]
    have e : 2 ^ (k + 1 + 1) = 2 * 2 ^ (k + 1) := by rw [pow_succ]; ring
    rw [e] at hm hq ⊢
    have := initMaxLevel_inv signal q (2 ^ (k + 1)) hsize (by omega) (by omega) m hm
    exact ih n (by omega) (by omega) _ this

/-- `initMaxDescendant` is right for blocks of `2^k` coefficients, `k >= 3`. -/
theorem initMaxDescendant_ok (data : List Int) (k : Nat) (hk : 3 ≤ k)
    (hsize : data.length = 2 ^ k) : MaxOK data (initMaxDescendant data) := by
  obtain ⟨j, rfl⟩ : ∃ j, k = j + 3 := ⟨k - 3, by omega⟩
  have hq : data.length = 4 * 2 ^ (j + 1) := by rw [hsize]; ring
  have hs1 : data.length >>> 1 = 2 * 2 ^ (j + 1) := by
    rw [Nat.shiftRight_eq_div_pow, hq]; omega
  have hs2 : (2 * 2 ^ (j + 1)) >>> 1 = 2 ^ (j + 1) := by
    rw [Nat.shiftRight_eq_div_pow]; omega
  have hinit : MaxInv data (2 ^ (j + 1)) (2 ^ (j + 1))
      ⟨initMaxLeaves data (2 * 2 ^ (j + 1)) (List.replicate (2 * 2 ^ (j + 1)) 0),
        List.replicate (2 ^ (j + 1)) 0⟩ := by
    obtain ⟨l1, g1⟩ := initMaxLeaves_spec data (2 ^ (j + 1)) hq
      (List.replicate (2 * 2 ^ (j + 1)) 0) (by simp) (2 ^ (j + 1)) (le_refl _)
    simp only [hs2] at l1 g1
    refine ⟨?_, by simp, ?_, ?_⟩
    · simp only [initMaxLeaves, hs2]; exact l1
    · intro t h1 h2
      simp only [initMaxLeaves, hs2]
      exact g1 t h1 (by omega)
    · intro t h1 h2; omega
  have hfin := initMaxLevels_inv data (2 ^ (j + 1)) hq j (2 ^ (j + 1))
    (by have := Nat.lt_two_pow j; have : 2 ^ j ≤ 2 ^ (j + 1) := Nat.pow_le_pow_right (by decide) (by omega); omega)
    (le_refl _) _ hinit
  have hdef : initMaxDescendant data = initMaxLevels data (2 ^ (j + 1)) (2 ^ (j + 1))
      ⟨initMaxLeaves data (2 * 2 ^ (j + 1)) (List.replicate (2 * 2 ^ (j + 1)) 0),
        List.replicate (2 ^ (j + 1)) 0⟩ := by
    simp only [initMaxDescendant, hs1, hs2]
  rw [hdef]
  obtain ⟨-, -, g1, g2⟩ := hfin
  intro e i hv hi hcov
  obtain ⟨y, t⟩ := e
  obtain ⟨hy, hv2⟩ := hv
  simp only at hy hv2
  rcases hv2 with ⟨rfl, hb⟩ | ⟨rfl, hb⟩
  · simp only [maxDescendant, if_neg (by decide : ¬ (0:Nat) = 1)]
    exact g1 y hy (by omega) i hi hcov
  · simp only [maxDescendant, if_true]
    exact g2 y hy (by omega) i hi hcov

theorem encSortLIP_streams (data : List Int) (compare : Nat) (todo : List Nat) (st : SpihtEnc)
    (h : StreamsOK st) : StreamsOK (encSortLIP data compare todo st) := by
  induction todo generalizing st with
  | nil => exact h
  | cons i todo ih =>
    simp only [encSortLIP]
    split_ifs
    · apply ih
      refine ⟨by simp [h.1], ?_⟩
      intro c hc
      simp only [List.mem_append, List.mem_cons, List.mem_singleton, List.not_mem_nil,
        or_false] at hc
      rcases hc with hc | hc | hc
      · exact h.2 c hc
      · subst hc; decide
      · subst hc; decide
    · apply ih
      refine ⟨by simp [h.1], ?_⟩
      intro c hc
      simp only [List.mem_append, List.mem_singleton] at hc
      rcases hc with hc | hc
      · exact h.2 c hc
      · subst hc; decide

theorem encChild_streams (data : List Int) (compare index : Nat) (st : SpihtEnc)
    (h : StreamsOK st) : StreamsOK (encChild data compare index st) := by
  simp only [encChild]
  split_ifs
  · refine ⟨by simp [h.1], ?_⟩
    intro c hc
    simp only [List.mem_append, List.mem_cons, List.mem_singleton, List.not_mem_nil,
      or_false] at hc
    rcases hc with hc | hc | hc
    · exact h.2 c hc
    · subst hc; decide
    · subst hc; decide
  · refine ⟨by simp [h.1], ?_⟩
    intro c hc
    simp only [List.mem_append, List.mem_singleton] at hc
    rcases hc with hc | hc
    · exact h.2 c hc
    · subst hc; decide

theorem streams_push (st : SpihtEnc) (b : Bool) (c : Nat) (hc : c < CONTEXTS)
    (h : StreamsOK st) (LIP LSP : List Nat) (LIS : List pixel) :
    StreamsOK ⟨LIP, LSP, LIS, st.outstream ++ [b], st.context ++ [c]⟩ := by
  refine ⟨by simp [h.1], ?_⟩
  intro x hx
  simp only [List.mem_append, List.mem_singleton] at hx
  rcases hx with hx | hx
  · exact h.2 x hx
  · subst hx; exact hc

theorem encSortLIS_streams (data : List Int) (m : MaxDesc) (compare fuel : Nat)
    (pending : List pixel) (st st' : SpihtEnc) (h : StreamsOK st)
    (he : encSortLIS data m compare fuel pending st = some st') : StreamsOK st' := by
  induction fuel generalizing pending st with
  | zero =>
    cases pending with
    | nil => simp only [encSortLIS, Option.some.injEq] at he; subst he; exact h
    | cons p ps => simp [encSortLIS] at he
  | succ n ih =>
    cases pending with
    | nil => simp only [encSortLIS, Option.some.injEq] at he; subst he; exact h
    | cons p ps =>
      simp only [encSortLIS] at he
      split_ifs at he
      · exact ih _ _ (encChild_streams _ _ _ _ (encChild_streams _ _ _ _
          (streams_push st true _ (by decide) h _ _ _))) he
      · exact ih _ _ (encChild_streams _ _ _ _ (encChild_streams _ _ _ _
          (streams_push st true _ (by decide) h _ _ _))) he
      · exact ih _ _ (streams_push st false _ (by decide) h _ _ _) he
      · exact ih _ _ (streams_push st true _ (by decide) h _ _ _) he
      · exact ih _ _ (streams_push st false _ (by decide) h _ _ _) he

theorem encSortingPass_streams (data : List Int) (m : MaxDesc) (compare : Nat)
    (st st' : SpihtEnc) (h : StreamsOK st)
    (he : encSortingPass data m compare st = some st') : StreamsOK st' := by
  unfold encSortingPass at he
  have h1 : StreamsOK { st with LIP := [] } := h
  have h2 := encSortLIP_streams data compare st.LIP _ h1
  have h3 : StreamsOK { encSortLIP data compare st.LIP { st with LIP := [] } with LIS := [] } := h2
  exact encSortLIS_streams _ _ _ _ _ _ _ h3 he

theorem encRefinementPass_streams (data : List Int) (n idx : Nat) (st : SpihtEnc)
    (h : StreamsOK st) : StreamsOK (encRefinementPass data n idx st) := by
  refine ⟨by simp [encRefinementPass, h.1], ?_⟩
  intro c hc
  simp only [encRefinementPass, List.mem_append, List.mem_map] at hc
  rcases hc with hc | ⟨_, _, hc⟩
  · exact h.2 c hc
  · subst hc; decide

theorem encPlanes_streams (data : List Int) (m : MaxDesc) (n : Nat) (st st' : SpihtEnc)
    (h : StreamsOK st) (he : encPlanes data m n st = some st') : StreamsOK st' := by
  induction n generalizing st with
  | zero =>
    rw [encPlanes_zero] at he
    cases hs : encSortingPass data m (1 <<< 0) st with
    | none => rw [hs] at he; simp at he
    | some st1 =>
      rw [hs] at he
      simp only [Option.map_some', Option.some.injEq] at he
      subst he
      exact encRefinementPass_streams _ _ _ _ (encSortingPass_streams _ _ _ _ _ h hs)
  | succ k ih =>
    rw [encPlanes_succ] at he
    cases hs : encSortingPass data m (1 <<< (k + 1)) st with
    | none => rw [hs] at he; simp at he
    | some st1 =>
      rw [hs] at he
      simp only [Option.some_bind] at he
      exact ih _ (encRefinementPass_streams _ _ _ _ (encSortingPass_streams _ _ _ _ _ h hs)) he

theorem getBits_feeds (bs : List Bool) (d : ArithDec) (rest : List Bool) (crest : List Nat) {e : ArithDec}
    (h : Feeds e d (bs ++ rest) (List.replicate bs.length CONTEXT_SIDE ++ crest)) :
    (getBits CONTEXT_SIDE bs.length d).1 = bs ∧
    Feeds e (getBits CONTEXT_SIDE bs.length d).2 rest crest := by
  induction bs generalizing d with
  | nil => exact ⟨rfl, by simpa using h⟩
  | cons b bs ih =>
    obtain ⟨h1, h2⟩ := h
    obtain ⟨a1, a2⟩ := ih _ h2
    simp only [List.length_cons, getBits]
    exact ⟨by rw [h1, a1], a2⟩

theorem bi2deVec_aux (l : List Bool) (a i : Nat) :
    l.foldl (fun (acc : Nat × Nat) v => (acc.1 + (v.toNat <<< acc.2), acc.2 + 1)) (a, i)
      = (a + 2 ^ i * bitsVal l, i + l.length) := by
  induction l generalizing a i with
  | nil => simp [bitsVal]
  | cons b l ih =>
    simp only [List.foldl_cons, bitsVal, List.length_cons]
    rw [ih, Nat.shiftLeft_eq]
    congr 1
    · rw [pow_succ]; ring
    · omega

theorem bi2deVec_eq (l : List Bool) : bi2deVec l = bitsVal l := by
  unfold bi2deVec
  rw [bi2deVec_aux]
  simp

theorem bitsVal_de2bi (v k : Nat) : bitsVal (de2bi v [] k) = v % 2 ^ k := by
  induction k generalizing v with
  | zero => simp [de2bi, bitsVal, Nat.mod_one]
  | succ n ih =>
    rw [de2bi, de2bi_append]
    simp only [List.nil_append, List.singleton_append, bitsVal, ih, Nat.shiftRight_eq_div_pow,
      pow_one]
    rw [Nat.pow_succ, Nat.mul_comm (2 ^ n) 2, Nat.mod_mul]
    by_cases h : v % 2 = 1
    · simp [h, ih]
    · have h0 : v % 2 = 0 := by omega
      simp [h0, ih]

theorem covers_root (i : Nat) : (covers ⟨1, 0⟩ i).toNat = if 2 ≤ i then 1 else 0 := by
  by_cases h : 2 ≤ i
  · rw [if_pos h]
    have hc : covers ⟨1, 0⟩ i = true := by
      rw [covers_iff _ _ (le_refl 1)]
      refine ⟨Nat.log 2 i, ?_, ?_⟩
      · simp only [minDepth, if_true]
        exact Nat.log_pos (by decide) h
      · have h1 : 2 ^ Nat.log 2 i ≤ i := Nat.pow_log_le_self 2 (by omega)
        have h2 : i < 2 ^ (Nat.log 2 i + 1) := Nat.lt_pow_succ_log_self (by decide) i
        apply Nat.div_eq_of_lt_le
        · simpa using h1
        · rw [pow_succ] at h2
          have e : (1 + 1) * 2 ^ Nat.log 2 i = 2 ^ Nat.log 2 i * 2 := by ring
          rw [e]; exact h2
    rw [hc]; rfl
  · rw [if_neg h]
    have hc : covers ⟨1, 0⟩ i = false := by
      by_contra hcon
      have ht : covers ⟨1, 0⟩ i = true := by simpa using hcon
      obtain ⟨k, hk1, hk2⟩ := (covers_iff _ _ (le_refl 1)).1 ht
      simp only [minDepth, if_true] at hk1
      have h3 : 2 ^ 1 ≤ 2 ^ k := Nat.pow_le_pow_right (by decide) hk1
      have h4 : i / 2 ^ k = 0 := Nat.div_eq_of_lt (by omega)
      simp only at hk2
      omega
    rw [hc]; rfl

theorem covers_band (i : Nat) :
    (covers ⟨4, 0⟩ i).toNat + (covers ⟨5, 0⟩ i).toNat + (covers ⟨6, 0⟩ i).toNat +
      (covers ⟨7, 0⟩ i).toNat = if 8 ≤ i then 1 else 0 := by
  have r := covers_root i
  have a1 := covers_A_split 1 i (by decide)
  have b1 := covers_B_split 1 i (by decide)
  have a2 := covers_A_split 2 i (by decide)
  have b2 := covers_B_split 2 i (by decide)
  have a3 := covers_A_split 3 i (by decide)
  have b3 := covers_B_split 3 i (by decide)
  simp only [Nat.reduceMul, Nat.reduceAdd] at a1 b1 a2 b2 a3 b3
  rcases Nat.lt_or_ge i 8 with h8 | h8
  · rw [if_neg (by omega)]
    interval_cases i <;>
      simp only [Nat.reduceEqDiff, Nat.reduceLeDiff, if_true, if_false] at r a1 a2 a3 <;> omega
  · have n2 : ¬ i = 2 := by omega
    have n3 : ¬ i = 3 := by omega
    have n4 : ¬ i = 4 := by omega
    have n5 : ¬ i = 5 := by omega
    have n6 : ¬ i = 6 := by omega
    have n7 : ¬ i = 7 := by omega
    have p2 : 2 ≤ i := by omega
    rw [if_pos h8]
    rw [if_pos p2] at r
    rw [if_neg n2, if_neg n3] at a1
    rw [if_neg n4, if_neg n5] at a2
    rw [if_neg n6, if_neg n7] at a3
    omega

theorem initLists_eq (size : Nat) (h : size ∈ [32, 64, 128, 256, 512]) :
    initLists size (ilog2 size - 2) = (List.range 8, [⟨4, 0⟩, ⟨5, 0⟩, ⟨6, 0⟩, ⟨7, 0⟩]) := by
  simp only [List.mem_cons, List.mem_singleton, List.not_mem_nil, or_false] at h
  rcases h with h | h | h | h | h <;> subst h <;> decide

theorem size_pow (size : Nat) (h : size ∈ [32, 64, 128, 256, 512]) :
    ∃ k, 3 ≤ k ∧ size = 2 ^ k := by
  simp only [List.mem_cons, List.mem_singleton, List.not_mem_nil, or_false] at h
  rcases h with h | h | h | h | h <;> subst h
  · exact ⟨5, by decide, by decide⟩
  · exact ⟨6, by decide, by decide⟩
  · exact ⟨7, by decide, by decide⟩
  · exact ⟨8, by decide, by decide⟩
  · exact ⟨9, by decide, by decide⟩

theorem planeInv_init (data : List Int) (N : Nat) (out : List Bool) (ctx : List Nat)
    (hsize : 16 ≤ data.length)
    (hmag : ∀ i, i < data.length → (data.getD i 0).natAbs < 2 * 2 ^ N) :
    PlaneInv data (2 * 2 ^ N)
      ⟨List.range 8, [], [⟨4, 0⟩, ⟨5, 0⟩, ⟨6, 0⟩, ⟨7, 0⟩], out, ctx⟩ := by
  refine ⟨⟨?_, ?_, ?_, ?_⟩, ?_, ?_, ?_⟩
  · intro i hi
    simp only [List.mem_range] at hi
    omega
  · intro i hi
    simp at hi
  · intro e he
    simp only [List.mem_cons, List.mem_singleton, List.not_mem_nil, or_false] at he
    rcases he with he | he | he | he <;> subst he <;> refine ⟨by decide, Or.inl ⟨rfl, ?_⟩⟩ <;>
      simp only <;> omega
  · intro i hi
    have hb := covers_band i
    have hc : coverCount [⟨4, 0⟩, ⟨5, 0⟩, ⟨6, 0⟩, ⟨7, 0⟩] i =
        (covers ⟨4, 0⟩ i).toNat + (covers ⟨5, 0⟩ i).toNat + (covers ⟨6, 0⟩ i).toNat +
          (covers ⟨7, 0⟩ i).toNat := by
      rw [coverCount_cons, coverCount_cons, coverCount_cons, coverCount_cons, coverCount_nil]
      omega
    have hr : (List.range 8).count i = if i < 8 then 1 else 0 := by
      by_cases h8 : i < 8
      · rw [if_pos h8]
        exact List.count_eq_one_of_mem (List.nodup_range 8) (List.mem_range.2 h8)
      · rw [if_neg h8]
        exact List.count_eq_zero_of_not_mem (by simpa using h8)
    show (List.range 8).count i + ([] : List Nat).count i + coverCount _ i = 1
    rw [hc, hb, hr, List.count_nil]
    split_ifs <;> omega
  · intro i hi _
    exact hmag i hi
  · intro i hi
    simp at hi
  · show lisWeightSum data.length [⟨4, 0⟩, ⟨5, 0⟩, ⟨6, 0⟩, ⟨7, 0⟩] ≤ _
    rw [lisWeightSum_cons, lisWeightSum_cons, lisWeightSum_cons, lisWeightSum_cons,
      lisWeightSum_nil]
    simp only [lisWeight, LIS_FUEL, if_true]
    have h0 : (0 : ℚ) ≤ (data.length : ℚ) := Nat.cast_nonneg _
    push_cast
    linarith

theorem ArithEnc_encode_isSome (cnt : Counters) (s : List Bool) (ctx : List Nat)
    (hk : CountersOK cnt) (hs : true ∈ s) (hlen : ctx.length = s.length)
    (hctx : ∀ c ∈ ctx, c < CONTEXTS) :
    ∃ p k, ArithEnc_encode cnt s ctx [] = some (p, k) := by
  obtain ⟨stF, hl⟩ := encodeLoop_isSome s ctx ⟨0, RANGE_MAX, 0, [], cnt⟩ hlen hctx
  have h1 := encFlush_has_one cnt s ctx stF hk (by simpa using hs) hl
  unfold ArithEnc_encode
  rw [hl]
  simp only [cutTrailingZeros, h1, if_true, Option.map_some']
  exact ⟨_, _, rfl⟩

/-- The decoder run on the payload of `ArithEnc::encode` returns the encoded
bits and ends with the encoder's counters. -/
theorem feeds_of_payload (cnt : Counters) (s : List Bool) (ctx : List Nat) (p : List Bool)
    (k : Counters) (hk : CountersOK cnt) (hlen : ctx.length = s.length)
    (henc : ArithEnc_encode cnt s ctx [] = some (p, k)) :
    ∃ e, Feeds e (initDecoding cnt p 0 p.length) s ctx ∧ e.cnt = k := by
  obtain ⟨hsync, stF, hl, hcnt⟩ := sync_init cnt s ctx p k hk henc
  obtain ⟨stN, a1, a2, a3⟩ := sync_prefix s.length _ s ctx _ hsync (le_refl _)
  have t1 : List.take s.length s = s := List.take_length _
  have t2 : List.take s.length ctx = ctx := by rw [← hlen]; exact List.take_length _
  rw [t1, t2] at a1 a3
  rw [t2] at a2
  rw [hl] at a1
  simp only [Option.some.injEq] at a1
  subst a1
  exact ⟨_, feeds_of_decodeSeq s ctx _ hlen a3, by rw [a2, hcnt]⟩

/-- The SPIHT encoder returns a stream for every block of an allowed length
whose magnitudes fit `maxallocbits + 1` bits, and the SPIHT decoder fed with the
bits of that stream rebuilds the block and the side information. -/
theorem spiht_codec_correct {K : Type} [LinearOrderedField K] (BL : Nat) (c : List Int)
    (bw : List Bool) (N : Nat) (hBL : BL ∈ [32, 64, 128, 256, 512]) (hlen : c.length = BL)
    (hN : N ≤ 15) (hmag : ∀ i, i < c.length → (c.getD i 0).natAbs < 2 * 2 ^ N)
    (hbw : bw.length = 8) :
    ∃ s ctx, SPIHT_Enc_encode c (ilog2 BL - 2) bw N [] [] = some (s, ctx) ∧
      ctx.length = s.length ∧ (∀ x ∈ ctx, x < CONTEXTS) ∧
      (∃ bs, s = de2bi N [] 4 ++ bw ++ bs) ∧
      ∀ (cnt : Counters) (stream : List Bool) (pos len : Nat) (out : List Int) (e : ArithDec),
        out.length = BL → Feeds e (initDecoding cnt stream pos len) s ctx →
        ∃ r : SpihtDecResult K,
          SPIHT_Dec_decode cnt stream pos len out BL (ilog2 BL - 2) = some r ∧
          r.out = c ∧ r.n_real = N ∧ r.arith.cnt = rescaleCounter e.cnt ∧
          r.wavmax = (if bw.headD false then (bi2deVec bw.tail : K) * (1 / 2 ^ 4) + 1
            else (bi2deVec bw.tail : K) * (1 / 2 ^ 7)) := by
  obtain ⟨k, hk3, hpow⟩ := size_pow BL hBL
  have h16 : 16 ≤ c.length := by
    rw [hlen]
    simp only [List.mem_cons, List.mem_singleton, List.not_mem_nil, or_false] at hBL
    omega
  have h4 : c.length % 4 = 0 := by
    rw [hlen]
    simp only [List.mem_cons, List.mem_singleton, List.not_mem_nil, or_false] at hBL
    omega
  have hmax := initMaxDescendant_ok c k hk3 (by rw [hlen, hpow])
  have hinv := planeInv_init c N (de2bi N [] MAXALLOCBITS_SIZE ++ bw)
    ([] ++ List.replicate (MAXALLOCBITS_SIZE + bw.length) CONTEXT_SIDE) h16 hmag
  obtain ⟨st', r1, bs, cs, r2, r3, r4⟩ := planes_correct c (initMaxDescendant c) h4 hmax N _ hinv
  have hstr : StreamsOK ⟨List.range 8, [], [⟨4, 0⟩, ⟨5, 0⟩, ⟨6, 0⟩, ⟨7, 0⟩],
      de2bi N [] MAXALLOCBITS_SIZE ++ bw,
      [] ++ List.replicate (MAXALLOCBITS_SIZE + bw.length) CONTEXT_SIDE⟩ := by
    refine ⟨by simp [de2bi_length], ?_⟩
    intro x hx
    simp only [List.nil_append, List.mem_replicate] at hx
    rw [hx.2]; decide
  have hstr2 := encPlanes_streams _ _ _ _ _ hstr r1
  have hcond : ¬ (N > 2 ^ MAXALLOCBITS_SIZE - 1) := by
    simp only [MAXALLOCBITS_SIZE]; omega
  refine ⟨st'.outstream, st'.context, ?_, hstr2.1, hstr2.2, ⟨bs, r2⟩, ?_⟩
  · unfold SPIHT_Enc_encode
    simp only [if_neg hcond, hlen, initLists_eq BL hBL]
    rw [r1]; rfl
  · intro cnt stream pos len out e hout hf
    rw [r2, r3] at hf
    obtain ⟨b0, bw', rfl⟩ : ∃ b0 bw', bw = b0 :: bw' := by
      cases bw with
      | nil => simp at hbw
      | cons b0 bw' => exact ⟨b0, bw', rfl⟩
    have hbw' : bw'.length = 7 := by simpa using hbw
    have e1 : de2bi N [] MAXALLOCBITS_SIZE ++ b0 :: bw' ++ bs =
        de2bi N [] 4 ++ (b0 :: (bw' ++ (bs ++ []))) := by simp [MAXALLOCBITS_SIZE]
    have e2 : ([] ++ List.replicate (MAXALLOCBITS_SIZE + (b0 :: bw').length) CONTEXT_SIDE) ++ cs =
        List.replicate (de2bi N [] 4).length CONTEXT_SIDE ++
          (CONTEXT_SIDE :: (List.replicate bw'.length CONTEXT_SIDE ++ (cs ++ []))) := by
      rw [de2bi_length, hbw']
      simp only [List.length_cons, hbw', MAXALLOCBITS_SIZE, List.nil_append, List.append_nil]
      show List.replicate (4 + (1 + 7)) CONTEXT_SIDE ++ cs = _
      rw [List.replicate_add, List.replicate_add]
      simp
    rw [e1, e2] at hf
    obtain ⟨g1, g2⟩ := getBits_feeds _ _ _ _ hf
    rw [de2bi_length] at g1 g2
    obtain ⟨g3, g4⟩ := g2
    obtain ⟨g5, g6⟩ := getBits_feeds _ _ _ _ g4
    rw [hbw'] at g5 g6
    have hN16 : N % 2 ^ 4 = N := Nat.mod_eq_of_lt (by omega)
    have hNv : bi2deVec (de2bi N [] 4) = N := by rw [bi2deVec_eq, bitsVal_de2bi, hN16]
    have hout0 : OutOK c (N + 1) [] (List.replicate BL 0 ++ out.drop BL) := by
      refine ⟨by simp [hout, hlen], ?_⟩
      intro i hi
      rw [← hout, List.drop_length, List.append_nil]
      simp only [List.not_mem_nil, if_false]
      rw [List.getD_eq_getElem?_getD, List.getElem?_replicate]
      split_ifs <;> rfl
    obtain ⟨sd', d1, d2, d3⟩ := r4
      ⟨List.range 8, [], [⟨4, 0⟩, ⟨5, 0⟩, ⟨6, 0⟩, ⟨7, 0⟩], List.replicate BL 0 ++ out.drop BL,
        (getBits CONTEXT_SIDE 7 (ArithDec_decode
          (getBits CONTEXT_SIDE 4 (initDecoding cnt stream pos len)).2 CONTEXT_SIDE).2).2⟩
      [] [] rfl rfl rfl hout0 g6
    have d3' : sd'.arith = e := d3
    refine ⟨⟨sd'.out, _, N, { sd'.arith with cnt := rescaleCounter sd'.arith.cnt }⟩, ?_, d2, rfl,
      by rw [d3'], rfl⟩
    unfold SPIHT_Dec_decode
    simp only [MAXALLOCBITS_SIZE, WAVMAXLENGTH, Nat.add_one_sub_one, g1, hNv,
      initLists_eq BL hBL, d1, Option.map_some', g3, g5]
    rfl

theorem countersOK_reset : CountersOK resetCounter := by
  refine ⟨by decide, by decide, ?_⟩
  decide

theorem countersOK_rescale (k : Counters) (hk : CountersOK k) : CountersOK (rescaleCounter k) := by
  obtain ⟨h1, h2, h3⟩ := hk
  refine ⟨by simp [rescaleCounter, h1, h2], by simp [rescaleCounter, h2], ?_⟩
  intro c hc
  obtain ⟨a1, a2⟩ := h3 c hc
  have l1 : c < k.counter.length := by rw [h1]; exact hc
  have l2 : c < k.counter_total.length := by rw [h2]; exact hc
  have g1 : k.counter.getD c 0 = k.counter[c] := by
    rw [List.getD_eq_getElem?_getD, List.getElem?_eq_getElem l1]; rfl
  have g2 : k.counter_total.getD c 0 = k.counter_total[c] := by
    rw [List.getD_eq_getElem?_getD, List.getElem?_eq_getElem l2]; rfl
  rw [g1] at a1 a2
  rw [g2] at a2
  have q : RESIZE * k.counter[c] / k.counter_total[c] < RESIZE := by
    apply Nat.div_lt_of_lt_mul
    rw [Nat.mul_comm]
    exact Nat.mul_lt_mul_of_pos_right a2 (by decide)
  simp only [rescaleCounter, List.getD_eq_getElem?_getD, List.getElem?_map,
    List.getElem?_eq_getElem l2, List.getElem?_eq_getElem (show c < (List.zipWith _ k.counter
      k.counter_total).length by simp [h1, h2]; exact hc), List.getElem_zipWith,
    Option.map_some', Option.getD_some]
  have r32 : RESIZE = 32 := rfl
  rw [r32] at q ⊢
  split_ifs with h
  · exact ⟨by decide, by decide⟩
  · exact ⟨Nat.pos_of_ne_zero h, q⟩

/-- C1: for every block length `BL` in {32, 64, 128, 256, 512} with
`L = log2(BL) - 2`, every integer block `c` of `BL` coefficients with
`|c_i| < 2^16` and every 8-bit side word `bitwavmax`,
`SPIHT_Enc::encode(c, L, bitwavmax, 15)` returns a bit sequence with contexts,
`ArithEnc::encode` from freshly reset counters returns a payload for it, and for
every such sequence and payload `p`, `SPIHT_Dec::decode` run on the whole of `p`
with freshly reset counters returns `out == c` and `n_real == 15`. -/
theorem C1_spiht_arith_round_trip {K : Type} [LinearOrderedField K] (BL : Nat) (c : List Int)
    (bitwavmax : List Bool) (out : List Int)
    (hBL : BL ∈ [32, 64, 128, 256, 512]) (hlen : c.length = BL)
    (hmag : ∀ x ∈ c, x.natAbs < 2 ^ 16) (hbw : bitwavmax.length = 8)
    (hout : out.length = BL) :
    (∃ s ctx p k, SPIHT_Enc_encode c (ilog2 BL - 2) bitwavmax 15 [] [] = some (s, ctx) ∧
      ArithEnc_encode resetCounter s ctx [] = some (p, k)) ∧
    ∀ s ctx p k, SPIHT_Enc_encode c (ilog2 BL - 2) bitwavmax 15 [] [] = some (s, ctx) →
      ArithEnc_encode resetCounter s ctx [] = some (p, k) →
      ∃ r : SpihtDecResult K,
        SPIHT_Dec_decode resetCounter p 0 p.length out BL (ilog2 BL - 2) = some r ∧
        r.out = c ∧ r.n_real = 15 := by
  have hm : ∀ i, i < c.length → (c.getD i 0).natAbs < 2 * 2 ^ 15 := by
    intro i hi
    have hmem : c.getD i 0 ∈ c := by
      rw [List.getD_eq_getElem?_getD, List.getElem?_eq_getElem hi]
      exact List.getElem_mem hi
    exact hmag _ hmem
  obtain ⟨s, ctx, h1, h2, h3, ⟨bs, h4⟩, h5⟩ :=
    @spiht_codec_correct K _ BL c bitwavmax 15 hBL hlen (le_refl 15) hm hbw
  have hone : true ∈ s := by
    rw [h4]
    have : de2bi 15 [] 4 = [true, true, true, true] := by decide
    rw [this]; simp
  constructor
  · obtain ⟨p, k, hp⟩ := ArithEnc_encode_isSome resetCounter s ctx countersOK_reset hone h2 h3
    exact ⟨s, ctx, p, k, h1, hp⟩
  · intro s2 ctx2 p k e1 e2
    rw [h1] at e1
    simp only [Option.some.injEq, Prod.mk.injEq] at e1
    obtain ⟨rfl, rfl⟩ := e1
    obtain ⟨e, f1, -⟩ := feeds_of_payload resetCounter s ctx p k countersOK_reset h2 e2
    obtain ⟨r, r1, r2, r3, -, -⟩ := h5 resetCounter p 0 p.length out e hout f1
    exact ⟨r, r1, r2, r3⟩

theorem C1_spiht_arith_round_trip_witness :
    (32 ∈ [32, 64, 128, 256, 512] ∧
      ([3, -1, 0, 0, 200, 0, 0, -5, 0, 0, 0, 65535, 0, 0, 0, 0,
        0, 7, 0, 0, 0, 0, 0, 0, -65535, 0, 0, 0, 0, 0, 1, 0] : List Int).length = 32 ∧
      (∀ x ∈ ([3, -1, 0, 0, 200, 0, 0, -5, 0, 0, 0, 65535, 0, 0, 0, 0,
        0, 7, 0, 0, 0, 0, 0, 0, -65535, 0, 0, 0, 0, 0, 1, 0] : List Int), x.natAbs < 2 ^ 16) ∧
      [true, false, true, true, false, false, true, false].length = 8 ∧
      (List.replicate 32 (0 : Int)).length = 32) ∧
    ((∃ s ctx p k,
        SPIHT_Enc_encode [3, -1, 0, 0, 200, 0, 0, -5, 0, 0, 0, 65535, 0, 0, 0, 0,
          0, 7, 0, 0, 0, 0, 0, 0, -65535, 0, 0, 0, 0, 0, 1, 0] (ilog2 32 - 2)
          [true, false, true, true, false, false, true, false] 15 [] [] = some (s, ctx) ∧
        ArithEnc_encode resetCounter s ctx [] = some (p, k)) ∧
      ∀ s ctx p k,
        SPIHT_Enc_encode [3, -1, 0, 0, 200, 0, 0, -5, 0, 0, 0, 65535, 0, 0, 0, 0,
          0, 7, 0, 0, 0, 0, 0, 0, -65535, 0, 0, 0, 0, 0, 1, 0] (ilog2 32 - 2)
          [true, false, true, true, false, false, true, false] 15 [] [] = some (s, ctx) →
        ArithEnc_encode resetCounter s ctx [] = some (p, k) →
        ∃ r : SpihtDecResult ℚ,
          SPIHT_Dec_decode resetCounter p 0 p.length (List.replicate 32 0) 32 (ilog2 32 - 2)
            = some r ∧
          r.out = [3, -1, 0, 0, 200, 0, 0, -5, 0, 0, 0, 65535, 0, 0, 0, 0,
            0, 7, 0, 0, 0, 0, 0, 0, -65535, 0, 0, 0, 0, 0, 1, 0] ∧ r.n_real = 15) :=
  ⟨⟨by decide, by decide, by decide, by decide, by decide⟩,
    C1_spiht_arith_round_trip 32 _ _ _ (by decide) (by decide) (by decide) (by decide)
      (by decide)⟩

theorem allZero_replicate {K : Type} [LinearOrderedField K] (n : Nat) :
    AllZero (List.replicate n (0 : K)) := fun _ hx => (List.mem_replicate.1 hx).2

theorem allZero_eq_replicate {K : Type} [LinearOrderedField K] (l : List K) (h : AllZero l) :
    l = List.replicate l.length 0 := List.eq_replicate_iff.2 ⟨rfl, h⟩

theorem addInto_zero {K : Type} [LinearOrderedField K] (w out : List K) (hw : AllZero w) :
    addInto w out = out := by
  induction w generalizing out with
  | nil => rw [addInto_nil]
  | cons x xs ih =>
    cases out with
    | nil => rfl
    | cons y ys =>
      have hx : x = 0 := hw x (by simp)
      simp only [addInto, hx, add_zero]
      rw [ih ys (fun z hz => hw z (by simp [hz]))]

theorem allZero_map_mul {K : Type} [LinearOrderedField K] (l : List K) (h : K) (hl : AllZero l) :
    AllZero (l.map (fun v => v * h)) := by
  intro x hx
  obtain ⟨y, hy, rfl⟩ := List.mem_map.1 hx
  rw [hl y hy, zero_mul]

theorem allZero_headD {K : Type} [LinearOrderedField K] (a : List K) (ha : AllZero a) :
    AllZero [a.headD 0] := by
  intro x hx
  simp only [List.mem_singleton] at hx
  rw [hx]
  cases a with
  | nil => rfl
  | cons y ys => exact ha y (by simp)

theorem allZero_cons_zero {K : Type} [LinearOrderedField K] (a : List K) (ha : AllZero a) :
    AllZero (0 :: a) := by
  intro x hx
  simp only [List.mem_cons] at hx
  rcases hx with hx | hx
  · exact hx
  · exact ha x hx

theorem filter_zero {K : Type} [LinearOrderedField K] (inp out : List K) (h : K)
    (hi : AllZero inp) : filter inp out h = out := by
  have ha := allZero_map_mul inp h hi
  have z1 := allZero_headD _ ha
  have z2 := allZero_cons_zero (inp.map (fun v => v * h)).dropLast
    (fun x hx => ha x (List.mem_of_mem_dropLast hx))
  unfold filter
  simp only [addHead_eq, addIntoTail_eq]
  rw [addInto_zero _ _ ha, addInto_zero _ _ z2, addInto_zero _ _ z1]

theorem filter_shift_zero {K : Type} [LinearOrderedField K] (inp out : List K) (h : K)
    (hi : AllZero inp) : filter_shift inp out h = out := by
  have ha := allZero_map_mul inp h hi
  have ht : AllZero (inp.map (fun v => v * h)).tail := fun x hx => ha x (List.mem_of_mem_tail hx)
  have z1 := allZero_headD _ ha
  have z2 := allZero_cons_zero _ ht
  have z3 : AllZero (List.replicate ((inp.map (fun v => v * h)).length - 1) 0 ++
      [(inp.map (fun v => v * h)).getLastD 0]) := by
    intro x hx
    simp only [List.mem_append, List.mem_replicate, List.mem_singleton] at hx
    rcases hx with hx | hx
    · exact hx.2
    · rw [hx]
      cases hm : inp.map (fun v => v * h) with
      | nil => rfl
      | cons y ys =>
        have hmem := List.getLast_mem (List.cons_ne_nil y ys)
        rw [List.getLastD_eq_getLast?, List.getLast?_eq_getLast _ (List.cons_ne_nil y ys)]
        exact ha _ (by rw [hm]; exact hmem)
  unfold filter_shift
  simp only [addHead_eq, addIntoTail_eq, addAt_eq]
  rw [addInto_zero _ _ ht, addInto_zero _ _ z3, addInto_zero _ _ z2, addInto_zero _ _ z1]

theorem allZero_evens {K : Type} [LinearOrderedField K] (l : List K) (h : AllZero l) :
    AllZero (evens l) ∧ AllZero (odds l) := by
  induction l using evens.induct with
  | case1 => exact ⟨fun _ hx => by simp [evens] at hx, fun _ hx => by simp [odds] at hx⟩
  | case2 x =>
    refine ⟨fun y hy => ?_, fun _ hx => by simp [odds] at hx⟩
    simp only [evens, List.mem_singleton] at hy
    rw [hy]; exact h x (by simp)
  | case3 x y rest ih =>
    obtain ⟨i1, i2⟩ := ih (fun z hz => h z (by simp [hz]))
    constructor
    · intro z hz
      simp only [evens, List.mem_cons] at hz
      rcases hz with hz | hz
      · rw [hz]; exact h x (by simp)
      · exact i1 z hz
    · intro z hz
      simp only [odds, List.mem_cons] at hz
      rcases hz with hz | hz
      · rw [hz]; exact h y (by simp)
      · exact i2 z hz

theorem dwtLevel_zero {K : Type} [LinearOrderedField K] (m : Nat) (x : List K)
    (hx : 2 * m ≤ x.length) (hz : AllZero x) : dwtLevel (2 * m) x = x := by
  have hl := dwtLevel_length m x hx
  have hall : AllZero (dwtLevel (2 * m) x) := by
    obtain ⟨z0, z1⟩ := allZero_evens (x.take (2 * m)) (fun y hy => hz y (List.mem_of_mem_take hy))
    unfold dwtLevel
    simp only
    rw [filter_shift_zero _ _ _ z0, filter_zero _ _ _ z1, filter_shift_zero _ _ _ z0,
      filter_zero _ _ _ z1]
    intro y hy
    simp only [List.mem_append, List.mem_map] at hy
    rcases hy with (⟨v, hv, rfl⟩ | ⟨v, hv, rfl⟩) | hy
    · rw [z0 v hv, zero_mul]
    · rw [z1 v hv]; simp
    · exact hz y (List.mem_of_mem_drop hy)
  rw [allZero_eq_replicate _ hall, hl]
  exact (allZero_eq_replicate x hz).symm

theorem dwtLoop_zero {K : Type} [LinearOrderedField K] (L q : Nat) (x : List K)
    (hx : 2 ^ L * q ≤ x.length) (hz : AllZero x) : dwtLoop L (2 ^ L * q) x = x := by
  induction L generalizing x with
  | zero => rfl
  | succ k ih =>
    have e : 2 ^ (k + 1) * q = 2 * (2 ^ k * q) := by ring
    rw [dwtLoop, e, Nat.mul_div_cancel_left _ (by decide : 0 < 2),
      dwtLevel_zero _ x (by omega) hz]
    exact ih x (by omega) hz

/-- `inv_DWT` undoes `DWT` on a block of `2^L * 4` samples. -/
theorem inv_DWT_DWT {K : Type} [LinearOrderedField K] (x : List K) (L : Nat) (hL : 0 < L)
    (hlen : x.length = 2 ^ L * 4) : inv_DWT (DWT x L) L = x := by
  unfold inv_DWT DWT
  rw [if_neg (by omega)]
  have h1 : (dwtLoop L x.length x).length = x.length := by
    conv_lhs => rw [hlen]
    exact dwtLoop_length L 4 x (by omega)
  have h2 : x.length / 2 ^ (L - 1) = 2 * 4 := by
    obtain ⟨j, rfl⟩ : ∃ j, L = j + 1 := ⟨L - 1, by omega⟩
    rw [hlen, Nat.add_sub_cancel, pow_succ]
    rw [show 2 ^ j * 2 * 4 = 2 ^ j * (2 * 4) by ring, Nat.mul_div_cancel_left _ (Nat.two_pow_pos j)]
  rw [h1, h2]
  conv_lhs => rw [hlen]
  exact invLoop_dwtLoop L 4 x (by omega)

theorem DWT_zero {K : Type} [LinearOrderedField K] (L n : Nat) (hn : n = 2 ^ L * 4) :
    DWT (List.replicate n (0 : K)) L = List.replicate n 0 := by
  unfold DWT
  rw [List.length_replicate]
  conv_lhs => rw [hn]
  rw [← hn]
  have := dwtLoop_zero L 4 (List.replicate n (0 : K)) (by simp [hn]) (allZero_replicate n)
  rw [← hn] at this
  exact this

theorem inv_DWT_zero {K : Type} [LinearOrderedField K] (L n : Nat) (hL : 0 < L)
    (hn : n = 2 ^ L * 4) : inv_DWT (List.replicate n (0 : K)) L = List.replicate n 0 := by
  have h := inv_DWT_DWT (List.replicate n (0 : K)) L hL (by simp [hn])
  rw [DWT_zero L n hn] at h
  exact h

/-- The allowed block lengths are `2^L * 4` for `L = log2(BL) - 2 >= 3`. -/
theorem bl_cases (BL : Nat) (hBL : BL ∈ [32, 64, 128, 256, 512]) :
    3 ≤ ilog2 BL - 2 ∧ BL = 2 ^ (ilog2 BL - 2) * 4 := by
  simp only [List.mem_cons, List.mem_singleton, List.not_mem_nil, or_false] at hBL
  rcases hBL with h | h | h | h | h <;> subst h <;> decide

theorem header_round (BL : Nat) (hBL : BL ∈ [32, 64, 128, 256, 512]) (pre rest : List Bool) :
    headerEncoding BL pre = pre ++ headerEncoding BL [] ∧
    headerDecoding (headerEncoding BL [] ++ rest)
      = some ⟨BL, ilog2 BL - 2, encoderLengthbits BL, rest⟩ ∧
    1 ≤ (headerEncoding BL []).length ∧ 10 ≤ encoderLengthbits BL := by
  simp only [List.mem_cons, List.mem_singleton, List.not_mem_nil, or_false] at hBL
  rcases hBL with h | h | h | h | h <;> subst h
  · refine ⟨by simp [headerEncoding, BL_0], ?_, by decide, by decide⟩
    simp [headerEncoding, BL_0, headerDecoding]; decide
  · refine ⟨by simp [headerEncoding, BL_0, BL_1], ?_, by decide, by decide⟩
    simp [headerEncoding, BL_0, BL_1, headerDecoding]; decide
  · refine ⟨by simp [headerEncoding, BL_0, BL_1, BL_2], ?_, by decide, by decide⟩
    simp [headerEncoding, BL_0, BL_1, BL_2, headerDecoding]; decide
  · refine ⟨by simp [headerEncoding, BL_0, BL_1, BL_2, BL_3], ?_, by decide, by decide⟩
    simp [headerEncoding, BL_0, BL_1, BL_2, BL_3, headerDecoding]; decide
  · refine ⟨by simp [headerEncoding, BL_0, BL_1, BL_2, BL_3, BL_4], ?_, by decide, by decide⟩
    simp [headerEncoding, BL_0, BL_1, BL_2, BL_3, BL_4, headerDecoding]; decide

theorem fs_round (fs : Nat) (pre rest : List Bool) :
    fsEncode fs pre = pre ++ fsEncode fs [] ∧ (fsEncode fs []).length = 2 ∧
    ∃ v, fsDecode (fsEncode fs [] ++ rest) = some (v, rest) := by
  unfold fsEncode
  split_ifs
  · exact ⟨by simp, rfl, FS_0, by simp [fsDecode]⟩
  · exact ⟨by simp, rfl, FS_1, by simp [fsDecode]⟩
  · exact ⟨by simp, rfl, FS_2, by simp [fsDecode]⟩
  · exact ⟨by simp, rfl, 0, by simp [fsDecode]⟩

theorem de2bi_zero (k : Nat) : de2bi 0 [] k = List.replicate k false := by
  induction k with
  | zero => rfl
  | succ n ih =>
    rw [de2bi, de2bi_append]
    simp only [List.nil_append, Nat.zero_shiftRight, ih, Nat.zero_mod]
    rfl

theorem length_round (lengthbits : Nat) (out p rest : List Bool)
    (hp : p.length ≤ 2 ^ lengthbits - 1) :
    lengthEncoding lengthbits out p = (out ++ de2bi p.length [] lengthbits, p) ∧
    lengthDecoding lengthbits (de2bi p.length [] lengthbits ++ rest) = some (p.length, rest) := by
  constructor
  · unfold lengthEncoding
    simp only []
    rw [if_neg (by omega), de2bi_append]
  · unfold lengthDecoding
    have h2 : 0 < 2 ^ lengthbits := Nat.two_pow_pos lengthbits
    rw [bi2de_de2bi_aux _ _ _ _ (le_refl _), Nat.mod_eq_of_lt (by omega)]
    simp [List.drop_append_eq_append_drop, de2bi_length]

theorem blockOf_zero {K : Type} [LinearOrderedField K] (n bl b : Nat) :
    blockOf (List.replicate n (0 : K)) bl b = List.replicate bl 0 := by
  unfold blockOf
  apply List.eq_replicate_iff.2
  refine ⟨by simp, ?_⟩
  intro x hx
  obtain ⟨i, -, rfl⟩ := List.mem_map.1 hx
  rw [List.getD_eq_getElem?_getD, List.getElem?_replicate]
  split_ifs <;> rfl

theorem checkZeros_zero {K : Type} [LinearOrderedField K] (n len : Nat) :
    checkZeros (List.replicate n (0 : K)) len = true := by
  unfold checkZeros
  rw [List.all_eq_true]
  intro i _
  have h0 : (List.replicate n (0 : K)).getD i 0 = 0 := by
    rw [List.getD_eq_getElem?_getD, List.getElem?_replicate]
    split_ifs <;> rfl
  rw [h0]
  simp

/-- An encoder whose constructor has returned, on a block of zeros: for each
block length `BL` in {32, 64, 128, 256, 512}, `encode1D` applied to `BL` samples
that are all 0 returns the 2 bits of the sampling rate, then the block-length
code of `BL`, then `lengthbits(BL)` bits that are all 0, and nothing else;
`decode1D` applied to that bit stream returns `BL` samples, all 0. -/
theorem encode1D_zero_block {K : Type} [LinearOrderedField K] [FloorRing K] (log10 : K → K)
    (getSMR : List K → pmResult K) (BL fs maxChannels bitbudget : Nat)
    (hBL : BL ∈ [32, 64, 128, 256, 512]) :
    encode1D log10 getSMR (Encoder.new BL fs maxChannels) (List.replicate BL 0) bitbudget
      = some (fsEncode fs [] ++ headerEncoding BL [] ++
          List.replicate (encoderLengthbits BL) false) ∧
    (fsEncode fs []).length = 2 ∧
    decode1D (fsEncode fs [] ++ headerEncoding BL [] ++
          List.replicate (encoderLengthbits BL) false)
      = some (List.replicate BL (0 : K), []) := by
  obtain ⟨hL, hpow⟩ := bl_cases BL hBL
  have hpos : 0 < BL := by
    simp only [List.mem_cons, List.mem_singleton, List.not_mem_nil, or_false] at hBL
    omega
  obtain ⟨f1, f2, v, f3⟩ := fs_round fs [] (headerEncoding BL [] ++
    List.replicate (encoderLengthbits BL) false)
  obtain ⟨g1, g2, g3, g4⟩ := header_round BL hBL (fsEncode fs [])
    (List.replicate (encoderLengthbits BL) false)
  have l1 := length_round (encoderLengthbits BL) (fsEncode fs [] ++ headerEncoding BL []) [] []
    (by simp)
  simp only [List.length_nil, de2bi_zero, List.append_nil] at l1
  refine ⟨?_, f2, ?_⟩
  · unfold encode1D encode1DRun
    have hn : ((List.replicate BL (0 : K)).length + (Encoder.new BL fs maxChannels).bl - 1)
        / (Encoder.new BL fs maxChannels).bl = 1 := by
      show ((List.replicate BL (0 : K)).length + BL - 1) / BL = 1
      rw [List.length_replicate]
      apply Nat.div_eq_of_lt_le <;> omega
    simp only [hn, encode1DLoop]
    have hb : (Encoder.new BL fs maxChannels).bl = BL := rfl
    have hd : (Encoder.new BL fs maxChannels).dwtlevel = ilog2 BL - 2 := rfl
    have hlb : (Encoder.new BL fs maxChannels).lengthbits = encoderLengthbits BL := rfl
    have hfs : (Encoder.new BL fs maxChannels).fs = fs := rfl
    rw [hb, hd, hfs, blockOf_zero, DWT_zero _ _ hpow]
    unfold encodeBlock
    rw [hb, hlb, checkZeros_zero, if_pos rfl, g1, l1.1]
    rfl
  · unfold decode1D
    rw [List.append_assoc, f3]
    simp only []
    unfold decode1DLoop
    have hlen : (headerEncoding BL [] ++ List.replicate (encoderLengthbits BL) false).length
        > MIN_SIZE := by
      simp only [List.length_append, List.length_replicate, MIN_SIZE]
      omega
    rw [if_pos hlen]
    obtain ⟨f, hf⟩ : ∃ f, (headerEncoding BL [] ++
        List.replicate (encoderLengthbits BL) false).length = f + 1 :=
      ⟨_, (Nat.succ_pred_eq_of_pos (by omega)).symm⟩
    rw [hf]
    simp only [g2]
    have hdec : (decodeBlock BL (ilog2 BL - 2) (encoderLengthbits BL) resetCounter
        (List.replicate (encoderLengthbits BL) false) : Option (List K × List Bool × Counters))
        = some (List.replicate BL 0, [], resetCounter) := by
      unfold decodeBlock losslessDecoding
      have := l1.2
      rw [this]
      simp
    rw [hdec]
    simp only [List.nil_append]
    rw [inv_DWT_zero _ _ (by omega) hpow]
    unfold decode1DLoop
    simp [MIN_SIZE]

theorem setFreqVector_fold {K : Type} [LinearOrderedField K] (l : List Nat) (xs : List K) :
    (l.foldl (fun (acc : List K × K) _ => (acc.1 ++ [acc.2], acc.2 + 0)) (xs, 0)) =
      (xs ++ List.replicate l.length 0, 0) := by
  induction l generalizing xs with
  | nil => simp
  | cons a t ih =>
    rw [List.foldl_cons]
    simp only [add_zero]
    have := ih (xs ++ [0])
    simp only [add_zero] at this
    rw [this]
    simp [List.replicate_succ]

/-- With `fs = 0` every frequency of the grid is 0. -/
theorem setFreqVector_zero {K : Type} [LinearOrderedField K] (bl : Nat) :
    (setFreqVector 0 bl : List K) = List.replicate bl 0 := by
  unfold setFreqVector
  simp only [Nat.cast_zero, zero_div]
  rw [setFreqVector_fold]
  simp

/-- The search loop leaves the vectors when no frequency from `i` on reaches the
threshold 1. -/
theorem thresholdSearch_none {K : Type} [LinearOrderedField K] (log10 : K → K)
    (pow : K → K → K) (freqs : List K) (fuel i : Nat) (percthres : List K)
    (h : ∀ j, i ≤ j → j < freqs.length → percthresValue log10 pow (freqs.getD j 0) < 1) :
    thresholdSearch log10 pow freqs fuel i percthres = none := by
  induction fuel generalizing i percthres with
  | zero => rfl
  | succ f ih =>
    unfold thresholdSearch
    split_ifs with h1 h2
    · exact absurd (h i (le_refl _) h1.2) (not_lt.2 h2)
    · exact ih (i + 1) _ (fun j hj hl => h j (by omega) hl)
    · rfl

/-- At the frequency 0 the threshold value is `pow(10, y)` for a negative
`y`. -/
theorem percthresValue_zero {K : Type} [LinearOrderedField K] (log10 : K → K)
    (pow : K → K → K) (hpow : ∀ y : K, y < 0 → pow 10 y < 1) :
    percthresValue log10 pow (0 : K) < 1 := by
  unfold percthresValue thr_a thr_e BASE_LOG FACTOR_LOG
  simp only [mul_zero, zero_add]
  apply hpow
  have h : |(62 : K) / pow (log10 thr_b) 2 * pow (log10 thr_b) 2| ≤ 62 := by
    by_cases hp : pow (log10 (thr_b : K)) 2 = 0
    · rw [hp]; simp
    · rw [div_mul_cancel₀ _ hp]; simp
  have : |(62 : K) / pow (log10 thr_b) 2 * pow (log10 thr_b) 2| - 77 < 0 := by linarith
  exact div_neg_of_neg_of_pos this (by norm_num)

theorem setFreqVector_fold_length {K : Type} [LinearOrderedField K] (step : K) (l : List Nat)
    (acc : List K × K) :
    (l.foldl (fun (acc : List K × K) _ => (acc.1 ++ [acc.2], acc.2 + step)) acc).1.length =
      acc.1.length + l.length := by
  induction l generalizing acc with
  | nil => simp
  | cons a t ih =>
    rw [List.foldl_cons, ih]
    simp only [List.length_append, List.length_cons, List.length_nil]
    omega

/-- The frequency grid has `bl` entries. -/
theorem setFreqVector_length {K : Type} [LinearOrderedField K] (fs bl : Nat) :
    (setFreqVector fs bl : List K).length = bl := by
  unfold setFreqVector
  simp only
  rw [setFreqVector_fold_length]
  simp

/-- What `Encoder::Encoder` returns has the members of `Encoder.new`. -/
theorem Encoder.construct_members {K : Type} [LinearOrderedField K] (log10 : K → K)
    (pow : K → K → K) (bl fs maxChannels : Nat) (p : Encoder × PsychohapticModel K)
    (h : Encoder.construct log10 pow bl fs maxChannels = some p) :
    p.1 = Encoder.new bl fs maxChannels := by
  unfold Encoder.construct at h
  rcases hpm : PsychohapticModel.init log10 pow bl fs with _ | pm
  · rw [hpm] at h; simp at h
  · rw [hpm] at h
    simp only [Option.map_some', Option.some.injEq] at h
    rw [← h]

/-- C7 (evaluation at a failing input): an encoder cannot be built for the
sampling rate `fs = 0`, whatever the block length.  Every frequency of the grid
of `pm.init` is 0, the threshold value there is `pow(10, (62 - 77) / 10) < 1`,
so the loop `while (true)` of `perceptualThreshold` never reaches its `break`
and runs past the end of `percthres` and `freqs`: the constructor
`Encoder::Encoder(BL, 0, maxChannels)` does not return, and `encode1D` is never
reached.  `pow(10, y) < 1` for `y < 0` is all that is used of the library
functions.  The same happens for every `fs` whose grid has no frequency from
index 1 on with a threshold value of at least 1. -/
theorem C7_constructor_overruns {K : Type} [LinearOrderedField K] (log10 : K → K)
    (pow : K → K → K) (hpow : ∀ y : K, y < 0 → pow 10 y < 1) (BL maxChannels : Nat) :
    (setFreqVector 0 BL : List K) = List.replicate BL 0 ∧
    percthresValue log10 pow (0 : K) < 1 ∧
    (PsychohapticModel.init log10 pow BL 0 : Option (PsychohapticModel K)) = none ∧
    (Encoder.construct log10 pow BL 0 maxChannels : Option (Encoder × PsychohapticModel K))
      = none ∧
    (∀ fs : Nat,
      (∀ j, 1 ≤ j → j < BL →
        percthresValue log10 pow ((setFreqVector fs BL : List K).getD j 0) < 1) →
      (Encoder.construct log10 pow BL fs maxChannels : Option (Encoder × PsychohapticModel K))
        = none) := by
  have hv := percthresValue_zero log10 pow hpow
  have hgen : ∀ fs : Nat,
      (∀ j, 1 ≤ j → j < BL →
        percthresValue log10 pow ((setFreqVector fs BL : List K).getD j 0) < 1) →
      (PsychohapticModel.init log10 pow BL fs : Option (PsychohapticModel K)) = none := by
    intro fs h
    have hs : ∀ p : List K,
        thresholdSearch log10 pow (setFreqVector fs BL) (BL + 1) 1 p = none := by
      intro p
      apply thresholdSearch_none
      intro j h1 h2
      rw [setFreqVector_length] at h2
      exact h j h1 h2
    unfold PsychohapticModel.init perceptualThreshold
    simp only [hs, Option.map_none']
  have h0 : ∀ j, 1 ≤ j → j < BL →
      percthresValue log10 pow ((setFreqVector 0 BL : List K).getD j 0) < 1 := by
    intro j _ _
    rw [setFreqVector_zero]
    have : (List.replicate BL (0 : K)).getD j 0 = 0 := by
      rw [List.getD_eq_getElem?_getD, List.getElem?_replicate]
      split_ifs <;> rfl
    rw [this]
    exact hv
  refine ⟨setFreqVector_zero BL, hv, hgen 0 h0, ?_, ?_⟩
  · unfold Encoder.construct
    rw [hgen 0 h0]
    rfl
  · intro fs h
    unfold Encoder.construct
    rw [hgen fs h]
    rfl

theorem C7_constructor_overruns_witness :
    (∀ y : ℚ, y < 0 → samplePow 10 y < 1) ∧
    (Encoder.construct (fun x : ℚ => x) samplePow 32 0 8 :
      Option (Encoder × PsychohapticModel ℚ)) = none ∧
    (Encoder.construct (fun x : ℚ => x) samplePow 32 8000 8).map
      (fun p => (p.2.percthres.take 3, p.2.percthres.length, p.2.book, p.2.book_cumulative)) =
      some ([1 / 2, 1, 1], 32, [4, 4, 8, 16], [0, 4, 8, 16, 32]) :=
  ⟨fun y hy => by unfold samplePow; rw [if_pos hy]; norm_num,
    (C7_constructor_overruns (fun x : ℚ => x) samplePow
      (fun y hy => by unfold samplePow; rw [if_pos hy]; norm_num) 32 8).2.2.2.1, by decide!⟩

/-- One bit plane without a bound on the magnitudes: the encoder's pass ends and
keeps the invariant, the decoder follows its list moves and reads its bits. -/
theorem plane_frame (data : List Int) (m : MaxDesc) (h4 : data.length % 4 = 0)
    (hmax : MaxOK data m) (n : Nat) (st : SpihtEnc)
    (hp : PartInv data.length st.LIP st.LSP st.LIS)
    (hsig : ∀ i ∈ st.LSP, 2 * 2 ^ n ≤ (data.getD i 0).natAbs)
    (hw : lisWeightSum data.length st.LIS ≤ (LIS_FUEL data.length : ℚ)) :
    ∃ st1, encSortingPass data m (1 <<< n) st = some st1 ∧
      PlaneInv data (2 ^ n) (encRefinementPass data n st.LSP.length st1) ∧
      ∃ (bs : List Bool) (cs : List Nat),
        (encRefinementPass data n st.LSP.length st1).outstream = st.outstream ++ bs ∧
        (encRefinementPass data n st.LSP.length st1).context = st.context ++ cs ∧
        ∀ (sd : SpihtDec) (rest : List Bool) (crest : List Nat) {e : ArithDec},
          sd.LIP = st.LIP → sd.LSP = st.LSP → sd.LIS = st.LIS →
          sd.out.length = data.length →
          Feeds e sd.arith (bs ++ rest) (cs ++ crest) →
          ∃ sd1, decSortingPass (1 <<< n) sd = some sd1 ∧
            sd1.LIP = st1.LIP ∧ sd1.LSP = st1.LSP ∧ sd1.LIS = st1.LIS ∧
            (decRefinementPass (1 <<< n) (sd1.LSP.take sd.LSP.length) sd1.out
              sd1.arith).1.length = data.length ∧
            Feeds e (decRefinementPass (1 <<< n) (sd1.LSP.take sd.LSP.length) sd1.out sd1.arith).2
              rest crest := by
  have hsh : (1 <<< n : Nat) = 2 ^ n := by rw [Nat.shiftLeft_eq, one_mul]
  rw [hsh]
  obtain ⟨st1, r1, r2, new, r3, r4⟩ := sortingPass_frame data m (2 ^ n) h4 hmax st hp hsig hw
  obtain ⟨bs, cs, new', l1, l2, l3, l4⟩ := sortingPass_lockstep data m (2 ^ n) st st1 r1
  have htake : st1.LSP.take st.LSP.length = st.LSP := by
    rw [r3, List.take_left]
  refine ⟨st1, r1, ?_, bs ++ st.LSP.map (fun i => bitget (data.getD i 0).natAbs (n + 1)),
    cs ++ st.LSP.map (fun _ => CONTEXT_REFINEMENT), ?_, ?_, ?_⟩
  · exact r2
  · simp only [encRefinementPass, htake, l1, List.append_assoc]
  · simp only [encRefinementPass, htake, l2, List.append_assoc]
  · intro sd rest crest e e1 e2 e3 hout hf
    rw [List.append_assoc, List.append_assoc] at hf
    obtain ⟨sd1, d1, d2, d3, d4, d5, d6⟩ := l4 sd _ _ e1 e2 e3 hout hf
    have htake2 : sd1.LSP.take sd.LSP.length = st.LSP := by rw [d3, e2, htake]
    have hr := refinement_lockstep data n st.LSP sd1.out sd1.arith rest crest d6
    rw [hsh] at hr
    obtain ⟨f1, f2⟩ := hr
    refine ⟨sd1, d1, d2, d3, d4, ?_, by rw [htake2]; exact f2⟩
    rw [htake2, f1, applyRef_length, d5, applySig_length, hout]

/-- All bit planes from `n` down to 0 without a bound on the magnitudes: the
encoder ends, and a decoder that starts with the same lists and reads the
encoder's bits ends too, having read exactly these bits. -/
theorem planes_frame (data : List Int) (m : MaxDesc) (h4 : data.length % 4 = 0)
    (hmax : MaxOK data m) (n : Nat) (st : SpihtEnc)
    (hp : PartInv data.length st.LIP st.LSP st.LIS)
    (hsig : ∀ i ∈ st.LSP, 2 * 2 ^ n ≤ (data.getD i 0).natAbs)
    (hw : lisWeightSum data.length st.LIS ≤ (LIS_FUEL data.length : ℚ)) :
    ∃ st', encPlanes data m n st = some st' ∧
      ∃ (bs : List Bool) (cs : List Nat),
        st'.outstream = st.outstream ++ bs ∧ st'.context = st.context ++ cs ∧
        ∀ (sd : SpihtDec) (rest : List Bool) (crest : List Nat) {e : ArithDec},
          sd.LIP = st.LIP → sd.LSP = st.LSP → sd.LIS = st.LIS →
          sd.out.length = data.length →
          Feeds e sd.arith (bs ++ rest) (cs ++ crest) →
          ∃ sd', decPlanes n sd = some sd' ∧ sd'.out.length = data.length ∧
            Feeds e sd'.arith rest crest := by
  induction n generalizing st with
  | zero =>
    obtain ⟨st1, r1, r2, bs, cs, e1, e2, e3⟩ := plane_frame data m h4 hmax 0 st hp hsig hw
    refine ⟨encRefinementPass data 0 st.LSP.length st1, ?_, bs, cs, e1, e2, ?_⟩
    · rw [encPlanes_zero, r1]; rfl
    · intro sd rest crest e l1 l2 l3 hout hf
      obtain ⟨sd1, d1, d2, d3, d4, d5, d6⟩ := e3 sd rest crest l1 l2 l3 hout hf
      exact ⟨_, by rw [decPlanes_zero, d1]; rfl, d5, d6⟩
  | succ k ih =>
    obtain ⟨st1, r1, r2, bs, cs, e1, e2, e3⟩ := plane_frame data m h4 hmax (k + 1) st hp hsig hw
    obtain ⟨p1, -, p3, p4⟩ := r2
    obtain ⟨st', q1, bs2, cs2, q2, q3, q4⟩ := ih _ p1
      (fun i hi => by have := p3 i hi; rw [pow_succ] at this; omega) p4
    refine ⟨st', ?_, bs ++ bs2, cs ++ cs2, ?_, ?_, ?_⟩
    · rw [encPlanes_succ, r1]; exact q1
    · rw [q2, e1, List.append_assoc]
    · rw [q3, e2, List.append_assoc]
    · intro sd rest crest e l1 l2 l3 hout hf
      rw [List.append_assoc, List.append_assoc] at hf
      obtain ⟨sd1, d1, d2, d3, d4, d5, d6⟩ := e3 sd _ _ l1 l2 l3 hout hf
      obtain ⟨sd', g1, g2, g3⟩ := q4
        { sd1 with
          out := (decRefinementPass (1 <<< (k + 1)) (sd1.LSP.take sd.LSP.length) sd1.out sd1.arith).1
          arith := (decRefinementPass (1 <<< (k + 1)) (sd1.LSP.take sd.LSP.length) sd1.out sd1.arith).2 }
        rest crest d2 d3 d4 d5 d6
      exact ⟨sd', by rw [decPlanes_succ, d1]; exact g1, g2, g3⟩

/-- The SPIHT encoder returns a stream for every block of an allowed length,
whatever its magnitudes and `maxallocbits`, and the SPIHT decoder fed with the
bits of that stream reads exactly these bits and returns the number of planes
the encoder used. -/
theorem spiht_codec_frame {K : Type} [LinearOrderedField K] (BL : Nat) (c : List Int)
    (bw : List Bool) (N : Nat) (hBL : BL ∈ [32, 64, 128, 256, 512]) (hlen : c.length = BL)
    (hbw : bw.length = 8) :
    ∃ s ctx, SPIHT_Enc_encode c (ilog2 BL - 2) bw N [] [] = some (s, ctx) ∧
      ctx.length = s.length ∧ (∀ x ∈ ctx, x < CONTEXTS) ∧
      (∃ bs, s = de2bi (if N > 15 then 15 else N) [] 4 ++ bw ++ bs) ∧
      ∀ (cnt : Counters) (stream : List Bool) (pos len : Nat) (out : List Int) (e : ArithDec),
        out.length = BL → Feeds e (initDecoding cnt stream pos len) s ctx →
        ∃ r : SpihtDecResult K,
          SPIHT_Dec_decode cnt stream pos len out BL (ilog2 BL - 2) = some r ∧
          r.out.length = BL ∧ r.n_real = (if N > 15 then 15 else N) ∧
          r.arith.cnt = rescaleCounter e.cnt ∧
          r.wavmax = (if bw.headD false then (bi2deVec bw.tail : K) * (1 / 2 ^ 4) + 1
            else (bi2deVec bw.tail : K) * (1 / 2 ^ 7)) := by
  obtain ⟨k, hk3, hpow⟩ := size_pow BL hBL
  have h16 : 16 ≤ c.length := by
    rw [hlen]
    simp only [List.mem_cons, List.mem_singleton, List.not_mem_nil, or_false] at hBL
    omega
  have h4 : c.length % 4 = 0 := by
    rw [hlen]
    simp only [List.mem_cons, List.mem_singleton, List.not_mem_nil, or_false] at hBL
    omega
  have hmax := initMaxDescendant_ok c k hk3 (by rw [hlen, hpow])
  set N' := (if N > 15 then 15 else N) with hN'
  have hN : N' ≤ 15 := by rw [hN']; split_ifs <;> omega
  have hinv0 := planeInv_init (List.replicate c.length (0 : Int)) N'
    (de2bi N' [] MAXALLOCBITS_SIZE ++ bw)
    ([] ++ List.replicate (MAXALLOCBITS_SIZE + bw.length) CONTEXT_SIDE)
    (by rw [List.length_replicate]; exact h16)
    (fun i _ => by
      rw [List.getD_eq_getElem?_getD, List.getElem?_replicate]
      have : 0 < 2 * 2 ^ N' := by positivity
      split_ifs <;> simpa using this)
  obtain ⟨hp, -, -, hw⟩ := hinv0
  rw [List.length_replicate] at hp hw
  obtain ⟨st', r1, bs, cs, r2, r3, r4⟩ := planes_frame c (initMaxDescendant c) h4 hmax N'
    ⟨List.range 8, [], [⟨4, 0⟩, ⟨5, 0⟩, ⟨6, 0⟩, ⟨7, 0⟩], de2bi N' [] MAXALLOCBITS_SIZE ++ bw,
      [] ++ List.replicate (MAXALLOCBITS_SIZE + bw.length) CONTEXT_SIDE⟩ hp
    (fun i hi => by simp at hi) hw
  have hstr : StreamsOK ⟨List.range 8, [], [⟨4, 0⟩, ⟨5, 0⟩, ⟨6, 0⟩, ⟨7, 0⟩],
      de2bi N' [] MAXALLOCBITS_SIZE ++ bw,
      [] ++ List.replicate (MAXALLOCBITS_SIZE + bw.length) CONTEXT_SIDE⟩ := by
    refine ⟨by simp [de2bi_length], ?_⟩
    intro x hx
    simp only [List.nil_append, List.mem_replicate] at hx
    rw [hx.2]; decide
  have hstr2 := encPlanes_streams _ _ _ _ _ hstr r1
  refine ⟨st'.outstream, st'.context, ?_, hstr2.1, hstr2.2, ⟨bs, r2⟩, ?_⟩
  · unfold SPIHT_Enc_encode
    have hc : (if N > 2 ^ MAXALLOCBITS_SIZE - 1 then 15 else N) = N' := by
      rw [hN']; rfl
    simp only [hc, hlen, initLists_eq BL hBL]
    rw [r1]; rfl
  · intro cnt stream pos len out e hout hf
    rw [r2, r3] at hf
    obtain ⟨b0, bw', rfl⟩ : ∃ b0 bw', bw = b0 :: bw' := by
      cases bw with
      | nil => simp at hbw
      | cons b0 bw' => exact ⟨b0, bw', rfl⟩
    have hbw' : bw'.length = 7 := by simpa using hbw
    have e1 : de2bi N' [] MAXALLOCBITS_SIZE ++ b0 :: bw' ++ bs =
        de2bi N' [] 4 ++ (b0 :: (bw' ++ (bs ++ []))) := by simp [MAXALLOCBITS_SIZE]
    have e2 : ([] ++ List.replicate (MAXALLOCBITS_SIZE + (b0 :: bw').length) CONTEXT_SIDE) ++ cs =
        List.replicate (de2bi N' [] 4).length CONTEXT_SIDE ++
          (CONTEXT_SIDE :: (List.replicate bw'.length CONTEXT_SIDE ++ (cs ++ []))) := by
      rw [de2bi_length, hbw']
      simp only [List.length_cons, hbw', MAXALLOCBITS_SIZE, List.nil_append, List.append_nil]
      show List.replicate (4 + (1 + 7)) CONTEXT_SIDE ++ cs = _
      rw [List.replicate_add, List.replicate_add]
      simp
    rw [e1, e2] at hf
    obtain ⟨g1, g2⟩ := getBits_feeds _ _ _ _ hf
    rw [de2bi_length] at g1 g2
    obtain ⟨g3, g4⟩ := g2
    obtain ⟨g5, g6⟩ := getBits_feeds _ _ _ _ g4
    rw [hbw'] at g5 g6
    have hN16 : N' % 2 ^ 4 = N' := Nat.mod_eq_of_lt (by omega)
    have hNv : bi2deVec (de2bi N' [] 4) = N' := by rw [bi2deVec_eq, bitsVal_de2bi, hN16]
    obtain ⟨sd', d1, d2, d3⟩ := r4
      ⟨List.range 8, [], [⟨4, 0⟩, ⟨5, 0⟩, ⟨6, 0⟩, ⟨7, 0⟩], List.replicate BL 0 ++ out.drop BL,
        (getBits CONTEXT_SIDE 7 (ArithDec_decode
          (getBits CONTEXT_SIDE 4 (initDecoding cnt stream pos len)).2 CONTEXT_SIDE).2).2⟩
      [] [] rfl rfl rfl (by simp [hout, hlen]) g6
    have d3' : sd'.arith = e := d3
    refine ⟨⟨sd'.out, _, N', { sd'.arith with cnt := rescaleCounter sd'.arith.cnt }⟩, ?_,
      by rw [d2, hlen], rfl, by rw [d3'], rfl⟩
    unfold SPIHT_Dec_decode
    simp only [MAXALLOCBITS_SIZE, WAVMAXLENGTH, Nat.add_one_sub_one, g1, hNv,
      initLists_eq BL hBL, d1, Option.map_some', g3, g5]
    rfl

theorem uniformQuant_length {K : Type} [LinearOrderedField K] [FloorRing K] (inp out : List K)
    (start length : Nat) (max : K) (bits : Nat) :
    (uniformQuant inp out start length max bits).length = out.length := by
  unfold uniformQuant
  induction length using Nat.rec with
  | zero => rfl
  | succ n ih =>
    rw [List.range_succ, List.foldl_append, List.foldl_cons, List.foldl_nil, List.length_set, ih]

theorem allocStep_length {K : Type} [LinearOrderedField K] [FloorRing K] (log10 : K → K)
    (e : Encoder) (block_dwt SMR bandenergy : List K) (qwavmax : K) (bitbudget : Nat)
    (s : AllocState K) :
    (allocStep log10 e block_dwt SMR bandenergy qwavmax bitbudget s).block_dwt_quant.length
      = s.block_dwt_quant.length := by
  unfold allocStep
  simp only
  rw [uniformQuant_length]
  split_ifs <;> rfl

theorem allocStep_sum {K : Type} [LinearOrderedField K] [FloorRing K] (log10 : K → K)
    (e : Encoder) (block_dwt SMR bandenergy : List K) (qwavmax : K) (bitbudget : Nat)
    (s : AllocState K) (h : s.bitalloc_sum < bitbudget) :
    bitbudget - (allocStep log10 e block_dwt SMR bandenergy qwavmax bitbudget s).bitalloc_sum
      < bitbudget - s.bitalloc_sum := by
  unfold allocStep
  simp only
  split_ifs with hc
  · simp only
    omega
  · simp only
    omega

theorem allocLoop_isSome {K : Type} [LinearOrderedField K] [FloorRing K] (log10 : K → K)
    (e : Encoder) (block_dwt SMR bandenergy : List K) (qwavmax : K) (bitbudget : Nat)
    (fuel : Nat) (s : AllocState K) (hf : bitbudget - s.bitalloc_sum ≤ fuel) :
    ∃ s', allocLoop log10 e block_dwt SMR bandenergy qwavmax bitbudget fuel s = some s' ∧
      s'.block_dwt_quant.length = s.block_dwt_quant.length := by
  induction fuel generalizing s with
  | zero =>
    unfold allocLoop
    rw [if_neg (by omega)]
    exact ⟨s, rfl, rfl⟩
  | succ f ih =>
    unfold allocLoop
    by_cases hlt : s.bitalloc_sum < bitbudget
    · rw [if_pos hlt]
      have hs := allocStep_sum log10 e block_dwt SMR bandenergy qwavmax bitbudget s hlt
      obtain ⟨s', h1, h2⟩ := ih (allocStep log10 e block_dwt SMR bandenergy qwavmax bitbudget s)
        (by omega)
      exact ⟨s', h1, by rw [h2, allocStep_length]⟩
    · rw [if_neg hlt]
      exact ⟨s, rfl, rfl⟩

theorem findMax_aux {K : Type} [LinearOrderedField K] (data : List K) (a : K) :
    a ≤ data.foldl (fun max d => if |d| > max then |d| else max) a ∧
    ∀ x ∈ data, |x| ≤ data.foldl (fun max d => if |d| > max then |d| else max) a := by
  induction data generalizing a with
  | nil => exact ⟨le_refl _, fun _ hx => by simp at hx⟩
  | cons d ds ih =>
    simp only [List.foldl_cons]
    obtain ⟨i1, i2⟩ := ih (if |d| > a then |d| else a)
    constructor
    · refine le_trans ?_ i1
      split_ifs with h
      · exact le_of_lt h
      · exact le_refl _
    · intro x hx
      simp only [List.mem_cons] at hx
      rcases hx with hx | hx
      · subst hx
        refine le_trans ?_ i1
        split_ifs with h
        · exact le_refl _
        · exact not_lt.1 h
      · exact i2 x hx

theorem findMax_pos {K : Type} [LinearOrderedField K] (sig : List K) (len : Nat)
    (h : checkZeros sig len = false) : 0 < findMax sig := by
  unfold checkZeros at h
  rw [List.all_eq_false] at h
  obtain ⟨i, -, hi⟩ := h
  simp only [Bool.not_eq_true, Bool.not_eq_false', decide_eq_true_eq] at hi
  have hpos : (0 : K) < 1 / 10 ^ 10 := by positivity
  have hlt : i < sig.length := by
    by_contra hcon
    rw [List.getD_eq_getElem?_getD, List.getElem?_eq_none (by omega)] at hi
    simp only [Option.getD_none, abs_zero] at hi
    exact absurd hi (not_lt.2 (le_of_lt hpos))
  have hmem : sig.getD i 0 ∈ sig := by
    rw [List.getD_eq_getElem?_getD, List.getElem?_eq_getElem hlt]
    exact List.getElem_mem hlt
  have := (findMax_aux sig 0).2 _ hmem
  unfold findMax
  exact lt_of_lt_of_le (lt_trans hpos hi) this

theorem bitsVal_pos (l : List Bool) (h : 0 < bitsVal l) : true ∈ l := by
  induction l with
  | nil => simp [bitsVal] at h
  | cons b bs ih =>
    cases b with
    | true => simp
    | false =>
      simp only [bitsVal, Bool.toNat_false, Nat.zero_add] at h
      exact List.mem_cons_of_mem _ (ih (by omega))

theorem maxQuant_spec {K : Type} [LinearOrderedField K] [FloorRing K] (inp : K) (b1 b2 : Nat)
    (hb : b1 + b2 = 7) (hin : 0 ≤ inp) :
    ∃ m : Nat, m < 128 ∧ maxQuant inp b1 b2 = (m : K) * (1 / 2 ^ b2) ∧ (0 < inp → 0 < m) := by
  have h2 : (0 : K) < 2 ^ b2 := by positivity
  have hM : ((((1 <<< (b1 + b2) : Nat) : K) - 1) / ((1 <<< b2 : Nat) : K)) = 127 / 2 ^ b2 := by
    rw [hb]
    simp only [Nat.shiftLeft_eq, one_mul]
    push_cast
    norm_num
  simp only [maxQuant]
  rw [hM]
  by_cases hc : inp ≥ 127 / 2 ^ b2
  · rw [if_pos hc]
    have hin0 : 0 < inp := lt_of_lt_of_le (by positivity) hc
    have hs : sgn_double inp = 1 := by
      unfold sgn_double
      rw [if_pos hin0, if_neg (not_lt.2 (le_of_lt hin0))]; ring
    rw [hs]
    have hval : |1 * (127 / 2 ^ b2) * (999 / 1000 : K)| / (1 / 2 ^ b2) = 126873 / 1000 := by
      rw [abs_of_nonneg (by positivity)]
      field_simp
      ring
    rw [hval]
    have hceil : ⌈(126873 / 1000 : K)⌉ = 127 := by
      rw [Int.ceil_eq_iff]
      constructor <;> norm_num
    rw [hceil]
    exact ⟨127, by decide, by norm_num, fun _ => by decide⟩
  · rw [if_neg hc]
    have hc' : inp * 2 ^ b2 < 127 := by
      have := not_le.1 hc
      rwa [lt_div_iff₀ h2] at this
    have hdiv : |inp| / (1 / 2 ^ b2 : K) = inp * 2 ^ b2 := by
      rw [abs_of_nonneg hin]; field_simp
    rw [hdiv]
    have hc0 : 0 ≤ ⌈inp * 2 ^ b2⌉ := Int.ceil_nonneg (by positivity)
    have hc1 : ⌈inp * 2 ^ b2⌉ ≤ 127 := Int.ceil_le.2 (by exact_mod_cast le_of_lt hc')
    refine ⟨(⌈inp * 2 ^ b2⌉).toNat, by omega, ?_, ?_⟩
    · have e : ((⌈inp * 2 ^ b2⌉.toNat : Nat) : K) = ((⌈inp * 2 ^ b2⌉ : Int) : K) := by
        have := Int.toNat_of_nonneg hc0
        exact_mod_cast congrArg (fun z : Int => (z : K)) this
      rw [e]
    · intro hi
      have : 0 < ⌈inp * 2 ^ b2⌉ := Int.ceil_pos.2 (mul_pos hi h2)
      omega

theorem bitwavmax_read {K : Type} [LinearOrderedField K] [FloorRing K] (m fb : Nat)
    (hm : m < 128) :
    (⌊(m : K) * (1 / 2 ^ fb) * 2 ^ fb⌋ : Int).toNat = m ∧ bi2deVec (de2bi m [] 7) = m := by
  constructor
  · have : (m : K) * (1 / 2 ^ fb) * 2 ^ fb = ((m : Int) : K) := by
      field_simp
    rw [this, Int.floor_intCast]; rfl
  · rw [bi2deVec_eq, bitsVal_de2bi, Nat.mod_eq_of_lt (by omega)]

/-- The quantised maximum `qwavmax` is positive, its side word has 8 bits, one
of them a 1, and the decoder's reading of the word gives `qwavmax` back. -/
theorem maximumWaveletCoefficient_spec {K : Type} [LinearOrderedField K] [FloorRing K]
    (sig : List K) (hpos : 0 < findMax sig) :
    (maximumWaveletCoefficient sig).bitwavmax.length = 8 ∧
    true ∈ (maximumWaveletCoefficient sig).bitwavmax ∧
    0 < (maximumWaveletCoefficient sig).qwavmax ∧
    (if (maximumWaveletCoefficient sig).bitwavmax.headD false
      then (bi2deVec (maximumWaveletCoefficient sig).bitwavmax.tail : K) * (1 / 2 ^ 4) + 1
      else (bi2deVec (maximumWaveletCoefficient sig).bitwavmax.tail : K) * (1 / 2 ^ 7))
      = (maximumWaveletCoefficient sig).qwavmax := by
  by_cases hw : findMax sig < 1
  · obtain ⟨m, hm, he, hp⟩ := maxQuant_spec (findMax sig) INTEGERPART_0 FRACTIONPART_0
      rfl (le_of_lt hpos)
    have hm0 : 0 < m := hp hpos
    obtain ⟨r1, r2⟩ := bitwavmax_read (K := K) m FRACTIONPART_0 hm
    have hq : maximumWaveletCoefficient sig
        = ⟨(m : K) * (1 / 2 ^ FRACTIONPART_0), false :: de2bi m [] 7⟩ := by
      unfold maximumWaveletCoefficient
      simp only [hw, if_true, not_true_eq_false, decide_False, Nat.cast_zero, add_zero,
        sub_zero]
      rw [he, r1]
      rfl
    rw [hq]
    refine ⟨by simp [de2bi_length], ?_, by positivity, ?_⟩
    · apply List.mem_cons_of_mem
      apply bitsVal_pos
      rw [bitsVal_de2bi, Nat.mod_eq_of_lt (by omega)]; exact hm0
    · show (if false = true then _ else (bi2deVec (de2bi m [] 7) : K) * (1 / 2 ^ 7)) = _
      rw [if_neg (by simp), r2]; rfl
  · have hge : 1 ≤ findMax sig := not_lt.1 hw
    obtain ⟨m, hm, he, -⟩ := maxQuant_spec (findMax sig - 1) INTEGERPART_1 FRACTIONPART_1
      rfl (by linarith)
    obtain ⟨r1, r2⟩ := bitwavmax_read (K := K) m FRACTIONPART_1 hm
    have hq : maximumWaveletCoefficient sig
        = ⟨(m : K) * (1 / 2 ^ FRACTIONPART_1) + 1, true :: de2bi m [] 7⟩ := by
      unfold maximumWaveletCoefficient
      simp only [hw, if_false, not_false_eq_true, decide_True, Nat.cast_one,
        add_sub_cancel_right]
      rw [he, r1]
      rfl
    rw [hq]
    refine ⟨by simp [de2bi_length], by simp, by positivity, ?_⟩
    show (if true = true then (bi2deVec (de2bi m [] 7) : K) * (1 / 2 ^ 4) + 1 else _) = _
    rw [if_pos rfl, r2]; rfl

theorem encodeLoop_counters (s : List Bool) (ctx : List Nat) (st stF : EncState)
    (hk : CountersOK st.cnt) (h : encodeLoop s ctx st = some stF) : CountersOK stF.cnt := by
  induction s generalizing ctx st with
  | nil =>
    simp only [encodeLoop, Option.some.injEq] at h
    subst h; exact hk
  | cons b bs ih =>
    cases ctx with
    | nil => simp [encodeLoop] at h
    | cons c cs =>
      simp only [encodeLoop] at h
      split_ifs at h with hc
      exact ih cs _ (updateCounter_ok st.cnt c b hk hc) h

/-- What `ArithEnc::encode` returns: a payload that is not empty and counters
that keep their invariant. -/
theorem ArithEnc_encode_out (cnt : Counters) (s : List Bool) (ctx : List Nat) (p : List Bool)
    (k : Counters) (hk : CountersOK cnt) (h : ArithEnc_encode cnt s ctx [] = some (p, k)) :
    0 < p.length ∧ CountersOK k := by
  unfold ArithEnc_encode at h
  cases hl : encodeLoop s ctx ⟨0, RANGE_MAX, 0, [], cnt⟩ with
  | none => rw [hl] at h; simp at h
  | some stF =>
    rw [hl] at h
    simp only [Option.map_eq_some'] at h
    obtain ⟨o, ho, hpk⟩ := h
    simp only [Prod.mk.injEq] at hpk
    obtain ⟨rfl, rfl⟩ := hpk
    refine ⟨?_, encodeLoop_counters s ctx _ stF hk hl⟩
    unfold cutTrailingZeros at ho
    split_ifs at ho with ha
    simp only [Option.some.injEq] at ho
    subst ho
    rw [List.any_eq_true] at ha
    obtain ⟨x, hx, hxt⟩ := ha
    simp only [id] at hxt
    subst hxt
    rw [List.length_reverse]
    apply List.length_pos.2
    intro hnil
    have hall := List.dropWhile_eq_nil_iff.1 hnil
    have := hall true (List.mem_reverse.2 hx)
    simp at this

theorem initDecoding_append (cnt : Counters) (p rest : List Bool) :
    initDecoding cnt (p ++ rest) 0 p.length = initDecoding cnt p 0 p.length := by
  unfold initDecoding
  simp

theorem quantizeBlock_spec {K : Type} [LinearOrderedField K] [FloorRing K] (log10 : K → K)
    (e : Encoder) (block_dwt SMR bandenergy : List K) (bitbudget : Nat) :
    ∃ q, quantizeBlock log10 e block_dwt SMR bandenergy bitbudget = some q ∧
      q.block_intquant.length = e.bl ∧ q.block_dwt_quant.length = e.bl ∧
      q.bitwavmax = (maximumWaveletCoefficient block_dwt).bitwavmax ∧
      q.qwavmax = (maximumWaveletCoefficient block_dwt).qwavmax := by
  unfold quantizeBlock
  simp only
  obtain ⟨s', h1, h2⟩ := allocLoop_isSome log10 e block_dwt SMR bandenergy
    (maximumWaveletCoefficient block_dwt).qwavmax bitbudget bitbudget
    ⟨List.replicate e.l_book 0, 0, List.replicate e.bl 0,
      (List.range e.l_book).map (fun b =>
        bandNoise block_dwt (List.replicate e.bl 0) (e.book_cumulative.getD b 0)
          (e.book_cumulative.getD (b + 1) 0))⟩ (by simp)
  rw [h1]
  simp only [Option.map_some']
  refine ⟨_, rfl, ?_, ?_, rfl, rfl⟩
  · simp only [List.length_map, h2, List.length_replicate]
  · simp only [h2, List.length_replicate]

/-- Three observations of one run, read off a single evaluation. -/
theorem bind_obs3 {α β γ A B C : Type} [DecidableEq A] [DecidableEq B] [DecidableEq C]
    (o : Option α) (g : α → Option β) (h : α → Option γ)
    (f1 : α → β → A) (f2 : α → β → B) (f3 : α → γ → C) (a : A) (b : B) (c : C)
    (H : (o.bind fun r => (g r).bind fun d => (h r).map fun e =>
      (decide (f1 r d = a) && decide (f2 r d = b) && decide (f3 r e = c))) = some true) :
    (o.bind fun r => (g r).map fun d => f1 r d) = some a ∧
    (o.bind fun r => (g r).map fun d => f2 r d) = some b ∧
    (o.bind fun r => (h r).map fun e => f3 r e) = some c := by
  cases o with
  | none => simp at H
  | some r =>
    simp only [Option.some_bind] at H ⊢
    cases hg : g r with
    | none => rw [hg] at H; simp at H
    | some d =>
      rw [hg] at H
      simp only [Option.some_bind] at H
      cases hh : h r with
      | none => rw [hh] at H; simp at H
      | some e =>
        rw [hh] at H
        simp only [Option.map_some', Option.some.injEq, Bool.and_eq_true,
          decide_eq_true_eq] at H ⊢
        exact ⟨H.1.1, H.1.2, H.2⟩

/-- Two observations of one run, read off a single evaluation. -/
theorem bind_obs2 {α β A B : Type} [DecidableEq A] [DecidableEq B]
    (o : Option α) (g : α → Option β) (f1 : α → A) (f2 : α → β → B) (a : A) (b : B)
    (H : (o.bind fun r => (g r).map fun d =>
      (decide (f1 r = a) && decide (f2 r d = b))) = some true) :
    o.map f1 = some a ∧ (o.bind fun r => (g r).map fun d => f2 r d) = some b := by
  cases o with
  | none => simp at H
  | some r =>
    simp only [Option.some_bind] at H ⊢
    cases hg : g r with
    | none => rw [hg] at H; simp at H
    | some d =>
      rw [hg] at H
      simp only [Option.map_some', Option.some.injEq, Bool.and_eq_true,
        decide_eq_true_eq] at H ⊢
      exact H

/-- C2 (evaluation at a failing input): for `BL = 32`, the wavelet block
`[0.5, 0, ..., 0]`, `SMR = [0, 0, 0, 0]`, `bandenergy = [1, 1, 1, 1]`, budget
16 (at most `15 * (L + 1) = 60`) and freshly reset counters, the allocation loop
of `encodeBlock` gives band 0 sixteen bits, so `bitmax = 16` and
`block_intquant[0] = 65535`; the payload has 77 bits and fits the length field;
on the bits that `encodeBlock` appends `losslessDecoding` returns 1 with the
encoder's `block_intquant` and `qwavmax` but `recbitmax = 15`, and
`decodeBlock` returns `sig_dwt[0] = 65535 / 65536` where the encoder's
`block_dwt_quant[0]` is `65535 / 131072`. -/
theorem C2_allocation_exceeds_MAX_BITS :
    (quantizeBlock (fun x => x) (Encoder.new 32 8000 8) peakBlock [0, 0, 0, 0] [1, 1, 1, 1] 16).map
        (fun q => (q.bitalloc, q.bitmax, q.qwavmax, q.block_intquant.take 2))
      = some ([16, 0, 0, 0], 16, 1 / 2, [65535, 0]) ∧
    (encodeBlock (fun x => x) (Encoder.new 32 8000 8) resetCounter peakBlock [0, 0, 0, 0]
        [1, 1, 1, 1] [] 16).bind (fun r =>
      (losslessDecoding 32 3 10 resetCounter r.bitstream : Option (LosslessResult ℚ)).map
        (fun d => (r.payload.length, d.content, d.recbitmax, d.recwavmax)))
      = some (77, 1, 15, 1 / 2) ∧
    (encodeBlock (fun x => x) (Encoder.new 32 8000 8) resetCounter peakBlock [0, 0, 0, 0]
        [1, 1, 1, 1] [] 16).bind (fun r =>
      (losslessDecoding 32 3 10 resetCounter r.bitstream : Option (LosslessResult ℚ)).map
        (fun d => (d.sig_intquant.take 2, d.bitstream, d.cnt == r.cnt)))
      = some ([65535, 0], [], true) ∧
    (encodeBlock (fun x => x) (Encoder.new 32 8000 8) resetCounter peakBlock [0, 0, 0, 0]
        [1, 1, 1, 1] [] 16).bind (fun r =>
      (decodeBlock 32 3 10 resetCounter r.bitstream : Option (List ℚ × List Bool × Counters)).map
        (fun d => (d.1.take 2, r.block_dwt_quant.take 2)))
      = some ([65535 / 65536, 0], [65535 / 131072, 0]) := by
  refine ⟨by decide!, bind_obs3 _ _ _ _ _ _ _ _ _ ?_⟩
  decide!

theorem onGrid_zero {K : Type} [LinearOrderedField K] (m : K) (B : Nat) : OnGrid m B 0 :=
  ⟨0, 0, Nat.zero_le _, by simp, by simp⟩

theorem onGrid_mono {K : Type} [LinearOrderedField K] (m : K) (B B' : Nat) (v : K)
    (h : OnGrid m B v) (hB : B ≤ B') : OnGrid m B' v := by
  obtain ⟨z, b, h1, h2, h3⟩ := h
  exact ⟨z, b, le_trans h1 hB, h2, h3⟩

theorem sgn_double_cases {K : Type} [LinearOrderedField K] (x : K) :
    ∃ s : Int, s.natAbs ≤ 1 ∧ sgn_double x = (s : K) ∧ (s = 0 → x = 0) := by
  unfold sgn_double
  rcases lt_trichotomy x 0 with h | h | h
  · refine ⟨-1, by decide, ?_, fun h0 => absurd h0 (by decide)⟩
    rw [if_neg (not_lt.2 (le_of_lt h)), if_pos h]; simp
  · refine ⟨0, by decide, ?_, fun _ => h⟩
    rw [h]; simp
  · refine ⟨1, by decide, ?_, fun h0 => absurd h0 (by decide)⟩
    rw [if_pos h, if_neg (not_lt.2 (le_of_lt h))]; simp

/-- `1 << k` on a 32-bit `int` is `2^k` up to `k = 30`. -/
theorem shlInt_one (k : Nat) (hk : k ≤ 30) : shlInt 1 k = 2 ^ k := by
  have h1 : k % 32 = k := Nat.mod_eq_of_lt (by omega)
  have h2 : (2 : Int) ^ k ≤ 2 ^ 30 := pow_le_pow_right₀ (by norm_num) hk
  have h3 : (0 : Int) < 2 ^ k := by positivity
  unfold shlInt wrapInt32
  rw [h1, one_mul]
  norm_num at h2 ⊢
  omega

/-- `(1 << k) - 1` does not leave the 32-bit `int` up to `k = 30`. -/
theorem wrapInt32_pow_pred (k : Nat) (hk : k ≤ 30) :
    wrapInt32 (2 ^ k - 1) = 2 ^ k - 1 := by
  have h2 : (2 : Int) ^ k ≤ 2 ^ 30 := pow_le_pow_right₀ (by norm_num) hk
  have h3 : (0 : Int) < 2 ^ k := by positivity
  unfold wrapInt32
  norm_num at h2 ⊢
  omega

theorem shlInt_cast {K : Type} [LinearOrderedField K] (k : Nat) (hk : k ≤ 30) :
    ((shlInt 1 k : Int) : K) = ((1 <<< k : Nat) : K) := by
  rw [shlInt_one k hk, Nat.shiftLeft_eq, one_mul]
  push_cast
  rfl

/-- Up to 30 bits the two shifts of `uniformQuant` are `2^bits` and
`2^bits - 1`. -/
theorem uniformQuantValue_small {K : Type} [LinearOrderedField K] [FloorRing K] (x max : K)
    (bits : Nat) (hb : bits ≤ 30) :
    uniformQuantValue x max bits =
      if |sgn_double x * (max / 2 ^ bits) * ((⌊|x| / (max / 2 ^ bits) + HALF_QUANT⌋ : Int) : K)|
          > max / 2 ^ bits * (2 ^ bits - 1)
      then sgn_double x * (max / 2 ^ bits * (2 ^ bits - 1))
      else sgn_double x * (max / 2 ^ bits) * ((⌊|x| / (max / 2 ^ bits) + HALF_QUANT⌋ : Int) : K) := by
  simp only [uniformQuantValue, shlInt_one bits hb, wrapInt32_pow_pred bits hb]
  push_cast
  rfl

theorem uniformQuantValue_grid {K : Type} [LinearOrderedField K] [FloorRing K] (x max : K)
    (bits : Nat) (hmax : 0 < max) (hb : bits ≤ 30) :
    OnGrid max bits (uniformQuantValue x max bits) := by
  obtain ⟨s, hs1, hs2, hs3⟩ := sgn_double_cases x
  have hp : (0 : K) < 2 ^ bits := by positivity
  have hd : 0 < max / 2 ^ bits := div_pos hmax hp
  have hone : (1 : Nat) ≤ 2 ^ bits := Nat.one_le_two_pow
  have hfl : 0 ≤ ⌊|x| / (max / 2 ^ bits) + HALF_QUANT⌋ := by
    apply Int.floor_nonneg.2
    unfold HALF_QUANT
    have : 0 ≤ |x| / (max / 2 ^ bits) := div_nonneg (abs_nonneg x) (le_of_lt hd)
    linarith
  rw [uniformQuantValue_small x max bits hb]
  simp only [hs2]
  set f := ⌊|x| / (max / 2 ^ bits) + HALF_QUANT⌋ with hf
  split_ifs with hc
  · refine ⟨s * ((2 ^ bits - 1 : Nat) : Int), bits, le_refl _, ?_, ?_⟩
    · rw [Int.natAbs_mul, Int.natAbs_ofNat]
      have : s.natAbs * (2 ^ bits - 1) ≤ 1 * (2 ^ bits - 1) := Nat.mul_le_mul_right _ hs1
      omega
    · push_cast [Nat.cast_sub hone]
      ring
  · refine ⟨s * f, bits, le_refl _, ?_, by push_cast; ring⟩
    by_cases hs0 : s = 0
    · rw [hs0]; simp
    · have hsa : s.natAbs = 1 := by
        have : s.natAbs ≠ 0 := fun h => hs0 (Int.natAbs_eq_zero.1 h)
        omega
      rw [Int.natAbs_mul, hsa, one_mul]
      have hle := not_lt.1 hc
      have hfK : (0 : K) ≤ (f : K) := by exact_mod_cast hfl
      have hsK : |(s : K)| = 1 := by
        have h1 : s = 1 ∨ s = -1 := by omega
        rcases h1 with h1 | h1 <;> rw [h1] <;> simp
      have habs : |(s : K) * (max / 2 ^ bits) * (f : K)| = (max / 2 ^ bits) * (f : K) := by
        rw [abs_mul, abs_mul, hsK, one_mul, abs_of_pos hd, abs_of_nonneg hfK]
      rw [habs] at hle
      have hle2 : (f : K) ≤ 2 ^ bits - 1 := le_of_mul_le_mul_left hle hd
      have hle3 : f ≤ 2 ^ bits - 1 := by exact_mod_cast hle2
      have hfn : (f.natAbs : Int) = f := Int.natAbs_of_nonneg hfl
      have hpow : ((2 ^ bits : Nat) : Int) = 2 ^ bits := by push_cast; rfl
      omega

theorem getD_set_gen {α : Type} (l : List α) (i j : Nat) (v d : α) :
    (l.set i v).getD j d = if j = i ∧ i < l.length then v else l.getD j d := by
  simp only [List.getD_eq_getElem?_getD, List.getElem?_set]
  by_cases h : i = j
  · subst h
    by_cases hi : i < l.length
    · simp [hi]
    · simp [hi, List.getElem?_eq_none (not_lt.1 hi)]
  · have : ¬ (j = i ∧ i < l.length) := fun hh => h hh.1.symm
    simp [h, this]

theorem uniformQuant_getD {K : Type} [LinearOrderedField K] [FloorRing K] (inp out : List K)
    (start length : Nat) (max : K) (bits : Nat) (i : Nat) :
    (uniformQuant inp out start length max bits).getD i 0 =
      if start ≤ i ∧ i < start + length ∧ i < out.length
      then uniformQuantValue (inp.getD i 0) max bits else out.getD i 0 := by
  induction length using Nat.rec with
  | zero =>
    have : ¬ (start ≤ i ∧ i < start + 0 ∧ i < out.length) := by omega
    rw [if_neg this]; rfl
  | succ n ih =>
    have hl := uniformQuant_length inp out start n max bits
    unfold uniformQuant at ih hl ⊢
    rw [List.range_succ, List.foldl_append, List.foldl_cons, List.foldl_nil, getD_set_gen, hl, ih]
    by_cases h1 : i = start + n
    · subst h1
      by_cases h2 : start + n < out.length
      · rw [if_pos ⟨rfl, h2⟩, if_pos ⟨by omega, by omega, h2⟩]
      · rw [if_neg (fun hh => h2 hh.2), if_neg (fun hh => h2 hh.2.2), if_neg (fun hh => h2 hh.2.2)]
    · rw [if_neg (fun hh => h1 hh.1)]
      by_cases h3 : start ≤ i ∧ i < start + n ∧ i < out.length
      · rw [if_pos h3, if_pos ⟨h3.1, by omega, h3.2.2⟩]
      · rw [if_neg h3, if_neg (fun hh => h3 ⟨hh.1, by omega, hh.2.2⟩)]

theorem findMaxInt_aux (data : List Nat) (a : Nat) :
    a ≤ data.foldl (fun max d => if d > max then d else max) a ∧
    (∀ x ∈ data, x ≤ data.foldl (fun max d => if d > max then d else max) a) ∧
    ∀ B, a ≤ B → (∀ x ∈ data, x ≤ B) →
      data.foldl (fun max d => if d > max then d else max) a ≤ B := by
  induction data generalizing a with
  | nil => exact ⟨le_refl _, fun _ hx => by simp at hx, fun B hB _ => hB⟩
  | cons d ds ih =>
    simp only [List.foldl_cons]
    obtain ⟨i1, i2, i3⟩ := ih (if d > a then d else a)
    refine ⟨?_, ?_, ?_⟩
    · refine le_trans ?_ i1
      split_ifs <;> omega
    · intro x hx
      simp only [List.mem_cons] at hx
      rcases hx with hx | hx
      · subst hx
        refine le_trans ?_ i1
        split_ifs <;> omega
      · exact i2 x hx
    · intro B hB hall
      apply i3 B
      · have := hall d (by simp)
        split_ifs <;> omega
      · exact fun x hx => hall x (by simp [hx])

theorem findMaxInt_ge (data : List Nat) (i : Nat) : data.getD i 0 ≤ findMaxInt data := by
  by_cases hi : i < data.length
  · rw [List.getD_eq_getElem?_getD, List.getElem?_eq_getElem hi]
    exact (findMaxInt_aux data 0).2.1 _ (List.getElem_mem hi)
  · rw [List.getD_eq_getElem?_getD, List.getElem?_eq_none (not_lt.1 hi)]
    exact Nat.zero_le _

theorem findMaxInt_set (data : List Nat) (i v : Nat) (hv : data.getD i 0 ≤ v) :
    findMaxInt data ≤ findMaxInt (data.set i v) := by
  apply (findMaxInt_aux data 0).2.2 _ (Nat.zero_le _)
  intro x hx
  obtain ⟨j, hj, rfl⟩ := List.getElem_of_mem hx
  have hg := findMaxInt_ge (data.set i v) j
  rw [getD_set_gen] at hg
  by_cases hji : j = i
  · subst hji
    rw [if_pos ⟨rfl, hj⟩] at hg
    have : data.getD j 0 = data[j] := by
      rw [List.getD_eq_getElem?_getD, List.getElem?_eq_getElem hj]; rfl
    omega
  · rw [if_neg (fun hh => hji hh.1)] at hg
    have : data.getD j 0 = data[j] := by
      rw [List.getD_eq_getElem?_getD, List.getElem?_eq_getElem hj]; rfl
    omega

theorem cround_intCast {K : Type} [LinearOrderedField K] [FloorRing K] (w : Int) :
    cround ((w : Int) : K) = w := by
  unfold cround
  have h1 : ∀ z : Int, ⌊((z : Int) : K) + 1 / 2⌋ = z := by
    intro z
    rw [Int.floor_eq_iff]
    constructor <;> norm_num
  split_ifs with h
  · exact h1 w
  · have : -((w : Int) : K) = ((-w : Int) : K) := by push_cast; rfl
    rw [this, h1 (-w)]
    ring

/-- Scaling a coefficient on the grid by `2^B / qwavmax` gives an integer below
`2^B` in magnitude, and the decoder's product gives the coefficient back. -/
theorem intquant_spec {K : Type} [LinearOrderedField K] [FloorRing K] (m : K) (B : Nat) (v : K)
    (hm : 0 < m) (h : OnGrid m B v) :
    (cround (v * (((1 <<< B : Nat) : K) / m))).natAbs < 2 ^ B ∧
    ((cround (v * (((1 <<< B : Nat) : K) / m)) : Int) : K) * (m / ((1 <<< B : Nat) : K)) = v := by
  obtain ⟨z, b, h1, h2, h3⟩ := h
  obtain ⟨d, rfl⟩ : ∃ d, B = b + d := ⟨B - b, by omega⟩
  have hval : v * (((1 <<< (b + d) : Nat) : K) / m) = ((z * 2 ^ d : Int) : K) := by
    rw [h3]
    simp only [Nat.shiftLeft_eq, one_mul]
    push_cast
    field_simp
    ring
  rw [hval, cround_intCast]
  constructor
  · rw [Int.natAbs_mul, Int.natAbs_pow]
    have : (2 : Int).natAbs = 2 := rfl
    rw [this, pow_add]
    exact Nat.mul_lt_mul_of_pos_right h2 (Nat.two_pow_pos d)
  · rw [h3]
    simp only [Nat.shiftLeft_eq, one_mul]
    push_cast
    field_simp
    ring

theorem allocLoop_sum_le {K : Type} [LinearOrderedField K] [FloorRing K] (log10 : K → K)
    (e : Encoder) (block_dwt SMR bandenergy : List K) (qwavmax : K) (bitbudget : Nat)
    (hL : 1 ≤ e.dwtlevel) (hB : bitbudget ≤ MAX_BITS)
    (fuel : Nat) (s s' : AllocState K)
    (h : (∀ x ∈ s.bitalloc, x ≤ s.bitalloc_sum) ∧ s.bitalloc_sum ≤ bitbudget)
    (hl : allocLoop log10 e block_dwt SMR bandenergy qwavmax bitbudget fuel s = some s') :
    (∀ x ∈ s'.bitalloc, x ≤ s'.bitalloc_sum) ∧ s'.bitalloc_sum ≤ bitbudget := by
  induction fuel generalizing s with
  | zero =>
    unfold allocLoop at hl
    split_ifs at hl with hc
    simp only [Option.some.injEq] at hl
    subst hl; exact h
  | succ f ih =>
    unfold allocLoop at hl
    split_ifs at hl with hc
    · apply ih _ _ hl
      have h15 : MAX_BITS * 1 ≤ MAX_BITS * e.dwtlevel := Nat.mul_le_mul_left _ hL
      have hcond : ¬ (s.bitalloc_sum ≥ MAX_BITS * e.dwtlevel +
          s.bitalloc.getD (e.l_book - 1) 0) := by omega
      unfold allocStep
      simp only [if_neg hcond]
      refine ⟨?_, by omega⟩
      intro x hx
      rcases List.mem_or_eq_of_mem_set hx with hx | hx
      · have := h.1 x hx; omega
      · rw [hx]
        have hg := findMaxInt_ge s.bitalloc
          (findMinInd ((List.range e.l_book).map (fun i =>
            if s.bitalloc.getD i 0 ≥ MAX_BITS then XReal.posInf
            else (updateNoise log10 e.l_book bandenergy s.noiseenergy SMR).getD i .nan)))
        have hm : findMaxInt s.bitalloc ≤ s.bitalloc_sum :=
          (findMaxInt_aux s.bitalloc 0).2.2 _ (Nat.zero_le _) h.1
        omega
    · simp only [Option.some.injEq] at hl
      subst hl; exact h

/-- With a budget of at most `MAX_BITS` no band gets more than `MAX_BITS` bits. -/
theorem quantizeBlock_bitmax_le {K : Type} [LinearOrderedField K] [FloorRing K] (log10 : K → K)
    (e : Encoder) (block_dwt SMR bandenergy : List K) (bitbudget : Nat) (q : QuantResult K)
    (hL : 1 ≤ e.dwtlevel) (hB : bitbudget ≤ MAX_BITS)
    (hq : quantizeBlock log10 e block_dwt SMR bandenergy bitbudget = some q) :
    q.bitmax ≤ MAX_BITS := by
  unfold quantizeBlock at hq
  simp only [Option.map_eq_some'] at hq
  obtain ⟨s, hs, rfl⟩ := hq
  obtain ⟨h1, h2⟩ := allocLoop_sum_le log10 e block_dwt SMR bandenergy _ bitbudget hL hB
    bitbudget _ s ⟨fun x hx => by
      simp only [List.mem_replicate] at hx
      rw [hx.2], Nat.zero_le _⟩ hs
  simp only
  have hm : findMaxInt s.bitalloc ≤ s.bitalloc_sum :=
    (findMaxInt_aux s.bitalloc 0).2.2 _ (Nat.zero_le _) h1
  omega

/-- C11: `fsEncode` appends the bits 00 for `fs = 8000`, 01 for 2800, 10 for
2500 and 11 for every other `fs`; `fsDecode` on a stream that starts with these
two bits returns 8000, 2800, 2500 and 0 and removes exactly the two bits, so
`fsDecode(fsEncode(fs)) = fs` for the three supported rates. -/
theorem C11_sampling_rate_code (fs : Nat) (pre rest : List Bool) :
    (fsEncode 8000 pre = pre ++ [false, false] ∧
     fsEncode 2800 pre = pre ++ [false, true] ∧
     fsEncode 2500 pre = pre ++ [true, false] ∧
     (fs = 8000 ∨ fs = 2800 ∨ fs = 2500 ∨ fsEncode fs pre = pre ++ [true, true])) ∧
    (fsDecode ([false, false] ++ rest) = some (8000, rest) ∧
     fsDecode ([false, true] ++ rest) = some (2800, rest) ∧
     fsDecode ([true, false] ++ rest) = some (2500, rest) ∧
     fsDecode ([true, true] ++ rest) = some (0, rest)) ∧
    (fsDecode (fsEncode 8000 [] ++ rest) = some (8000, rest) ∧
     fsDecode (fsEncode 2800 [] ++ rest) = some (2800, rest) ∧
     fsDecode (fsEncode 2500 [] ++ rest) = some (2500, rest)) := by
  refine ⟨⟨rfl, rfl, rfl, ?_⟩, ⟨?_, ?_, ?_, ?_⟩, ⟨?_, ?_, ?_⟩⟩
  · by_cases h0 : fs = 8000
    · exact Or.inl h0
    · by_cases h1 : fs = 2800
      · exact Or.inr (Or.inl h1)
      · by_cases h2 : fs = 2500
        · exact Or.inr (Or.inr (Or.inl h2))
        · refine Or.inr (Or.inr (Or.inr ?_))
          simp [fsEncode, FS_0, FS_1, FS_2, h0, h1, h2]
  · simp [fsDecode, FS_0]
  · simp [fsDecode, FS_1]
  · simp [fsDecode, FS_2]
  · simp [fsDecode]
  · simp [fsEncode, fsDecode, FS_0]
  · simp [fsEncode, fsDecode, FS_0, FS_1]
  · simp [fsEncode, fsDecode, FS_0, FS_1, FS_2]

theorem clog2Aux_spec (fuel n k : Nat) (hk : k ≤ n) (hf : n ≤ fuel + k)
    (hlow : ∀ j, j < k → 2 ^ j < n) :
    n ≤ 2 ^ (clog2Aux fuel n k) ∧ ∀ j, j < clog2Aux fuel n k → 2 ^ j < n := by
  induction fuel generalizing k with
  | zero =>
    simp only [clog2Aux]
    have : n ≤ k := by omega
    exact ⟨le_trans this (le_of_lt (Nat.lt_two_pow k)), hlow⟩
  | succ f ih =>
    simp only [clog2Aux]
    split_ifs with h
    · exact ⟨h, hlow⟩
    · have hlt : 2 ^ k < n := by omega
      have hkn : k + 1 ≤ n := by
        have := Nat.lt_two_pow k
        omega
      apply ih (k + 1) hkn (by omega)
      intro j hj
      rcases Nat.lt_succ_iff_lt_or_eq.1 hj with hj | hj
      · exact hlow j hj
      · rw [hj]; exact hlt

/-- `clog2 n` is the least `k` with `n <= 2^k`. -/
theorem clog2_spec (n : Nat) : n ≤ 2 ^ clog2 n ∧ ∀ j, j < clog2 n → 2 ^ j < n :=
  clog2Aux_spec n n 0 (Nat.zero_le _) (by omega) (fun j hj => by omega)

/-- C13: with `channelbits = ceil(log2(maxChannels + 1))` (the least `k` with
`maxChannels + 1 <= 2^k`, so `maxChannels` channels are always accepted):
`encodeChannels` returns -1 (`none`) and appends nothing exactly when
`channels > 2^channelbits - 1`, and `encodeMD` then returns the empty stream;
otherwise it appends `channelbits` bits, from which `decodeChannels` reads the
same channel count, removing exactly these bits. -/
theorem C13_channel_count {K : Type} [LinearOrderedField K] [FloorRing K] (log10 : K → K)
    (getSMR : List K → pmResult K) (bl fs maxChannels bitbudget : Nat) (sig : List (List K))
    (pre rest : List Bool) :
    (Encoder.new bl fs maxChannels).channelbits = clog2 (maxChannels + 1) ∧
    maxChannels ≤ 2 ^ clog2 (maxChannels + 1) - 1 ∧
    (∀ j, j < clog2 (maxChannels + 1) → 2 ^ j - 1 < maxChannels) ∧
    (encodeChannels (clog2 (maxChannels + 1)) sig.length pre = none ↔
      sig.length > 2 ^ clog2 (maxChannels + 1) - 1) ∧
    (sig.length > 2 ^ clog2 (maxChannels + 1) - 1 →
      encodeMD log10 getSMR (Encoder.new bl fs maxChannels) sig bitbudget = some []) ∧
    (sig.length ≤ 2 ^ clog2 (maxChannels + 1) - 1 →
      ∃ bits : List Bool, bits.length = clog2 (maxChannels + 1) ∧
        encodeChannels (clog2 (maxChannels + 1)) sig.length pre = some (pre ++ bits) ∧
        decodeChannels (clog2 (maxChannels + 1)) (bits ++ rest) = some (sig.length, rest)) := by
  obtain ⟨c1, c2⟩ := clog2_spec (maxChannels + 1)
  have hp : 0 < 2 ^ clog2 (maxChannels + 1) := Nat.two_pow_pos _
  refine ⟨rfl, by omega, fun j hj => by
    have := c2 j hj
    have := Nat.two_pow_pos j
    omega, ?_, ?_, ?_⟩
  · unfold encodeChannels
    split_ifs with h
    · exact ⟨fun _ => h, fun _ => rfl⟩
    · exact ⟨fun hh => by simp at hh, fun hh => absurd hh h⟩
  · intro h
    have hne : sig ≠ [] := by
      intro hs; rw [hs] at h; simp at h
    obtain ⟨t, ts, rfl⟩ := List.exists_cons_of_ne_nil hne
    unfold encodeMD encodeMDRun
    have hcb : (Encoder.new bl fs maxChannels).channelbits = clog2 (maxChannels + 1) := rfl
    simp only [hcb]
    unfold encodeChannels
    rw [if_pos h]
    rfl
  · intro h
    refine ⟨de2bi sig.length [] (clog2 (maxChannels + 1)), de2bi_length _ _, ?_, ?_⟩
    · unfold encodeChannels
      rw [if_neg (by omega), de2bi_append]
    · unfold decodeChannels
      rw [bi2de_de2bi_aux _ _ _ _ (le_refl _), Nat.mod_eq_of_lt (by omega)]
      simp [de2bi_length]

theorem C13_channel_count_witness :
    (([[1, 2], [3, 4], [5, 6]] : List (List ℚ)).length ≤ 2 ^ clog2 (8 + 1) - 1) ∧
    (Encoder.new 32 8000 8).channelbits = 4 ∧
    encodeChannels 4 3 [] = some [true, true, false, false] ∧
    decodeChannels 4 ([true, true, false, false] ++ [true]) = some (3, [true]) := by
  have h := C13_channel_count (fun x : ℚ => x) samplePm 32 8000 8 10
    ([[1, 2], [3, 4], [5, 6]] : List (List ℚ)) [] [true]
  exact ⟨by decide, by decide, by decide, by decide⟩

/-- The sign function takes the values 1, -1 and 0. -/
theorem sgn_double_eq {K : Type} [LinearOrderedField K] (x : K) :
    sgn_double x = if 0 < x then 1 else if x < 0 then -1 else 0 := by
  unfold sgn_double
  by_cases h1 : 0 < x
  · have h2 : ¬ x < 0 := not_lt.2 (le_of_lt h1)
    simp [h1, h2]
  · by_cases h2 : x < 0
    · simp [h1, h2]
    · simp [h1, h2]

/-- The closed form of one quantised sample for a bit depth up to 30. -/
theorem uniformQuantValue_formula {K : Type} [LinearOrderedField K] [FloorRing K]
    (x max : K) (k : Nat) (hmax : 0 < max) (hk : k ≤ 30) :
    uniformQuantValue x max k =
      sgn_double x * min (max / 2 ^ k * (2 ^ k - 1))
        (max / 2 ^ k * ((⌊|x| / (max / 2 ^ k) + 1 / 2⌋ : Int) : K)) := by
  have h2 : (0 : K) < 2 ^ k := by positivity
  have hD : 0 < max / 2 ^ k := div_pos hmax h2
  have hfl : (0 : K) ≤ ((⌊|x| / (max / 2 ^ k) + 1 / 2⌋ : Int) : K) := by
    have : (0 : Int) ≤ ⌊|x| / (max / 2 ^ k) + 1 / 2⌋ := by
      apply Int.floor_nonneg.2
      have := div_nonneg (abs_nonneg x) (le_of_lt hD)
      linarith
    exact_mod_cast this
  have ht : 0 ≤ max / 2 ^ k * ((⌊|x| / (max / 2 ^ k) + 1 / 2⌋ : Int) : K) :=
    mul_nonneg (le_of_lt hD) hfl
  rw [uniformQuantValue_small x max k hk]
  simp only [HALF_QUANT]
  have hc : sgn_double x = 0 ∨ sgn_double x = 1 ∨ sgn_double x = -1 := by
    rw [sgn_double_eq]
    split_ifs <;> simp
  rcases hc with hs | hs | hs
  · rw [hs]; simp
  · rw [hs]
    simp only [one_mul, abs_of_nonneg ht]
    split_ifs with h
    · rw [min_eq_left (le_of_lt h)]
    · rw [min_eq_right (not_lt.1 h)]
  · rw [hs]
    have e : (-1 : K) * (max / 2 ^ k) * ((⌊|x| / (max / 2 ^ k) + 1 / 2⌋ : Int) : K) =
        -(max / 2 ^ k * ((⌊|x| / (max / 2 ^ k) + 1 / 2⌋ : Int) : K)) := by ring
    rw [e, abs_neg, abs_of_nonneg ht]
    split_ifs with h
    · rw [min_eq_left (le_of_lt h)]
    · rw [min_eq_right (not_lt.1 h)]; ring

/-- The entries of the vector overload: quantised inside the window, untouched
outside, the length unchanged. -/
theorem uniformQuant_entries {K : Type} [LinearOrderedField K] [FloorRing K]
    (inp out : List K) (start length : Nat) (max : K) (bits : Nat)
    (hlen : start + length ≤ out.length) (i : Nat) :
    (start ≤ i → i < start + length →
      (uniformQuant inp out start length max bits)[i]? =
        some (uniformQuantValue (inp.getD i 0) max bits)) ∧
    (¬ (start ≤ i ∧ i < start + length) →
      (uniformQuant inp out start length max bits)[i]? = out[i]?) := by
  have hl := uniformQuant_length inp out start length max bits
  have hg := uniformQuant_getD inp out start length max bits i
  constructor
  · intro h1 h2
    have hi : i < (uniformQuant inp out start length max bits).length := by rw [hl]; omega
    rw [if_pos ⟨h1, h2, by omega⟩] at hg
    rw [List.getElem?_eq_getElem hi, ← hg, List.getD_eq_getElem _ _ hi]
  · intro hn
    have hn2 : ¬ (start ≤ i ∧ i < start + length ∧ i < out.length) := fun h => hn ⟨h.1, h.2.1⟩
    rw [if_neg hn2] at hg
    by_cases hi : i < out.length
    · have hi2 : i < (uniformQuant inp out start length max bits).length := by rw [hl]; exact hi
      rw [List.getElem?_eq_getElem hi2, List.getElem?_eq_getElem hi]
      rw [List.getD_eq_getElem _ _ hi2, List.getD_eq_getElem _ _ hi] at hg
      rw [hg]
    · rw [List.getElem?_eq_none (by rw [hl]; omega), List.getElem?_eq_none (by omega)]

/-- C14 (amended): over an ordered field, for `max > 0`, every bit depth
`k <= 30` and every `x`: `uniformQuant(x, max, k) = sgn(x) * min(M, D *
floor(|x|/D + 1/2))` with `D = max/2^k` and `M = D*(2^k - 1)`, `sgn` being 1,
-1 or 0; the vector overload writes exactly this value to `out[i]` for every
`i` in `[start, start+length)` and leaves every other entry (and the length) of
`out` unchanged. -/
theorem C14_uniformQuant_formula {K : Type} [LinearOrderedField K] [FloorRing K]
    (x max : K) (k : Nat) (hmax : 0 < max) (hk : k ≤ 30) (inp out : List K) (start length : Nat)
    (hout : start + length ≤ out.length) :
    uniformQuantValue x max k =
      sgn_double x * min (max / 2 ^ k * (2 ^ k - 1))
        (max / 2 ^ k * ((⌊|x| / (max / 2 ^ k) + 1 / 2⌋ : Int) : K)) ∧
    (sgn_double x = if 0 < x then 1 else if x < 0 then -1 else 0) ∧
    (uniformQuant inp out start length max k).length = out.length ∧
    (∀ (i : Nat) (hi : i < inp.length), start ≤ i → i < start + length →
      (uniformQuant inp out start length max k)[i]? =
        some (sgn_double inp[i] * min (max / 2 ^ k * (2 ^ k - 1))
          (max / 2 ^ k * ((⌊|inp[i]| / (max / 2 ^ k) + 1 / 2⌋ : Int) : K)))) ∧
    (∀ i : Nat, ¬ (start ≤ i ∧ i < start + length) →
      (uniformQuant inp out start length max k)[i]? = out[i]?) := by
  refine ⟨uniformQuantValue_formula x max k hmax hk, sgn_double_eq x,
    uniformQuant_length inp out start length max k, ?_, ?_⟩
  · intro i hi h1 h2
    rw [(uniformQuant_entries inp out start length max k hout i).1 h1 h2,
      List.getD_eq_getElem _ _ hi, uniformQuantValue_formula _ max k hmax hk]
  · intro i hn
    exact (uniformQuant_entries inp out start length max k hout i).2 hn

theorem C14_uniformQuant_formula_witness :
    uniformQuantValue (3 / 10 : ℚ) 1 2 = 1 / 4 ∧
    (uniformQuant ([3 / 10, -9 / 10, 1 / 2] : List ℚ) [7, 7, 7] 1 2 1 2)[0]? = some (7 : ℚ) ∧
    (uniformQuant ([3 / 10, -9 / 10, 1 / 2] : List ℚ) [7, 7, 7] 1 2 1 2)[1]? =
      some (-3 / 4 : ℚ) := by
  have h := C14_uniformQuant_formula (3 / 10 : ℚ) 1 2 (by norm_num) (by decide)
    [3 / 10, -9 / 10, 1 / 2] [7, 7, 7] 1 2 (by decide)
  refine ⟨by decide!, ?_, by decide!⟩
  rw [h.2.2.2.2 0 (by decide)]
  rfl

/-- C14 (the claim as stated fails): a 32-bit `int` holds `2^k` only up to
`k = 30`.  With `max = 1` and the bit depth `k = 31`, the first one above,
`1 << 31` is `-2^31` and `(1 << 31) - 1` wraps to `2^31 - 1`, so the step is
negative and `uniformQuant(0.3, 1, 31)` is `-(2^31 - 1)/2^31`, where the
claimed formula with `D = 1/2^31` gives `322122547/2^30`.  With `k = 45`,
`uniformQuant(0.3, 1, 45)` is `1229/4096`, the value of 13 bits, because the
shift `1 << 45` is `1 << 13 = 8192`; the claimed formula with `D = 1/2^45`
gives `5277655813325/2^44`. -/
theorem C14_uniformQuant_int_shift :
    shlInt 1 45 = 8192 ∧
    uniformQuantValue (3 / 10 : ℚ) 1 45 = 1229 / 4096 ∧
    sgn_double (3 / 10 : ℚ) * min ((1 : ℚ) / 2 ^ 45 * (2 ^ 45 - 1))
      ((1 : ℚ) / 2 ^ 45 * ((⌊|(3 / 10 : ℚ)| / (1 / 2 ^ 45) + 1 / 2⌋ : Int) : ℚ))
      = 5277655813325 / 17592186044416 ∧
    uniformQuantValue (3 / 10 : ℚ) 1 45 ≠
      sgn_double (3 / 10 : ℚ) * min ((1 : ℚ) / 2 ^ 45 * (2 ^ 45 - 1))
        ((1 : ℚ) / 2 ^ 45 * ((⌊|(3 / 10 : ℚ)| / (1 / 2 ^ 45) + 1 / 2⌋ : Int) : ℚ)) ∧
    shlInt 1 31 = -2147483648 ∧ wrapInt32 (shlInt 1 31 - 1) = 2147483647 ∧
    uniformQuantValue (3 / 10 : ℚ) 1 31 = -2147483647 / 2147483648 ∧
    sgn_double (3 / 10 : ℚ) * min ((1 : ℚ) / 2 ^ 31 * (2 ^ 31 - 1))
      ((1 : ℚ) / 2 ^ 31 * ((⌊|(3 / 10 : ℚ)| / (1 / 2 ^ 31) + 1 / 2⌋ : Int) : ℚ))
      = 322122547 / 1073741824 ∧
    uniformQuantValue (3 / 10 : ℚ) 1 31 ≠
      sgn_double (3 / 10 : ℚ) * min ((1 : ℚ) / 2 ^ 31 * (2 ^ 31 - 1))
        ((1 : ℚ) / 2 ^ 31 * ((⌊|(3 / 10 : ℚ)| / (1 / 2 ^ 31) + 1 / 2⌋ : Int) : ℚ)) := by
  refine ⟨by decide, ?_, ?_, ?_, by decide, by decide, ?_, ?_, ?_⟩
  · decide!
  · decide!
  · decide!
  · decide!
  · decide!
  · decide!

/-- Half a step bounds the error of one quantised sample below the clipping
range. -/
theorem uniformQuantValue_error {K : Type} [LinearOrderedField K] [FloorRing K]
    (x max : K) (k : Nat) (hmax : 0 < max) (hk : k ≤ 30)
    (hx : |x| ≤ max * (1 - 1 / 2 ^ (k + 1))) :
    |uniformQuantValue x max k - x| ≤ max / 2 ^ (k + 1) := by
  have h2 : (0 : K) < 2 ^ k := by positivity
  have hD : 0 < max / 2 ^ k := div_pos hmax h2
  have hhalf : max / 2 ^ (k + 1) = max / 2 ^ k / 2 := by
    rw [pow_succ]; field_simp
  have hx2 : |x| ≤ max - max / 2 ^ k / 2 := by
    have : max * (1 - 1 / 2 ^ (k + 1)) = max - max / 2 ^ k / 2 := by
      rw [pow_succ]; field_simp; ring
    rw [← this]; exact hx
  rw [uniformQuantValue_formula x max k hmax hk, hhalf]
  set D := max / 2 ^ k with hDdef
  set n : Int := ⌊|x| / D + 1 / 2⌋ with hn
  have hmaxD : max = D * 2 ^ k := by rw [hDdef]; field_simp
  have hfl1 : (n : K) ≤ |x| / D + 1 / 2 := Int.floor_le _
  have hfl2 : |x| / D + 1 / 2 < (n : K) + 1 := Int.lt_floor_add_one _
  have hxe : |x| / D * D = |x| := by field_simp
  have b1 : D * (n : K) - |x| ≤ D / 2 := by
    have := mul_le_mul_of_nonneg_right hfl1 (le_of_lt hD)
    rw [add_mul, hxe] at this
    linarith
  have b2 : |x| - D * (n : K) ≤ D / 2 := by
    have := mul_lt_mul_of_pos_right hfl2 hD
    rw [add_mul, hxe, add_mul] at this
    linarith
  -- the clipped magnitude is within half a step of |x|
  have key : abs (min (D * (2 ^ k - 1)) (D * (n : K)) - abs x) ≤ D / 2 := by
    rw [abs_le]
    by_cases hc : D * (n : K) ≤ D * (2 ^ k - 1)
    · rw [min_eq_right hc]
      constructor <;> linarith
    · rw [min_eq_left (le_of_lt (not_le.1 hc))]
      have hc2 := not_le.1 hc
      constructor
      · rw [hmaxD] at hx2
        have : D * (2 ^ k - 1) = D * 2 ^ k - D := by ring
        linarith
      · have hlt : ((2 : K) ^ k - 1) < (n : K) := lt_of_mul_lt_mul_left hc2 (le_of_lt hD)
        have hint : ((2 ^ k - 1 : Int) : K) < (n : K) := by push_cast; exact hlt
        have hint2 : (2 ^ k - 1 : Int) < n := by exact_mod_cast hint
        have hint3 : (2 ^ k : Int) ≤ n := by omega
        have hint4 : ((2 : K) ^ k) ≤ (n : K) := by exact_mod_cast hint3
        have := mul_le_mul_of_nonneg_left hint4 (le_of_lt hD)
        have e : D * (2 ^ k - 1) = D * 2 ^ k - D := by ring
        linarith
  rw [sgn_double_eq]
  by_cases hp : 0 < x
  · rw [if_pos hp, one_mul]
    rw [abs_of_pos hp] at key
    exact key
  · rw [if_neg hp]
    by_cases hq : x < 0
    · rw [if_pos hq]
      rw [abs_of_neg hq] at key
      have e : -1 * min (D * (2 ^ k - 1)) (D * (n : K)) - x =
          -(min (D * (2 ^ k - 1)) (D * (n : K)) - -x) := by ring
      rw [e, abs_neg]
      exact key
    · rw [if_neg hq]
      have hx0 : x = 0 := le_antisymm (not_lt.1 hp) (not_lt.1 hq)
      rw [hx0]
      simp only [zero_mul, sub_zero, abs_zero]
      exact le_of_lt (half_pos hD)

/-- With `max = 1` and 7 bits every sample of `[0, 0.99]` is reproduced with an
error below 0.01. -/
theorem uniformQuantValue_error_7 {K : Type} [LinearOrderedField K] [FloorRing K]
    (y : K) (h0 : 0 ≤ y) (h1 : y ≤ 99 / 100) : |uniformQuantValue y 1 7 - y| < 1 / 100 := by
  have h := uniformQuantValue_error y 1 7 one_pos (by decide) (by
    rw [abs_of_nonneg h0]
    refine le_trans h1 ?_
    norm_num)
  refine lt_of_le_of_lt h ?_
  norm_num

/-- C15 (amended): for every `max > 0`, every `k <= 30` and every `x` with
`|x| <= max*(1 - 2^-(k+1))`, `|uniformQuant(x, max, k) - x| <= max/2^(k+1)`
(half a quantisation step); in particular for `max = 1`, `k = 7` and every `x`
in `[0, 0.99]` the error is below 0.01, for the scalar and for the vector
overload. -/
theorem C15_uniformQuant_error {K : Type} [LinearOrderedField K] [FloorRing K]
    (x max : K) (k : Nat) (hmax : 0 < max) (hk : k ≤ 30)
    (hx : |x| ≤ max * (1 - 1 / 2 ^ (k + 1))) :
    |uniformQuantValue x max k - x| ≤ max / 2 ^ (k + 1) ∧
    (∀ y : K, 0 ≤ y → y ≤ 99 / 100 → |uniformQuantValue y 1 7 - y| < 1 / 100) ∧
    (∀ (inp out : List K) (start length i : Nat) (hi : i < inp.length),
      start + length ≤ out.length → start ≤ i → i < start + length →
      0 ≤ inp[i] → inp[i] ≤ 99 / 100 →
      ∃ q : K, (uniformQuant inp out start length 1 7)[i]? = some q ∧
        |q - inp[i]| < 1 / 100) := by
  refine ⟨uniformQuantValue_error x max k hmax hk hx, uniformQuantValue_error_7, ?_⟩
  intro inp out start length i hi hlen h1 h2 h3 h4
  refine ⟨_, (uniformQuant_entries inp out start length 1 7 hlen i).1 h1 h2, ?_⟩
  rw [List.getD_eq_getElem _ _ hi]
  exact uniformQuantValue_error_7 _ h3 h4

theorem C15_uniformQuant_error_witness :
    |(3 / 10 : ℚ)| ≤ 1 * (1 - 1 / 2 ^ (2 + 1)) ∧
    |uniformQuantValue (3 / 10 : ℚ) 1 2 - 3 / 10| ≤ 1 / 2 ^ (2 + 1) ∧
    |uniformQuantValue (7 / 8 : ℚ) 1 2 - 7 / 8| = 1 / 2 ^ (2 + 1) := by
  have hx : |(3 / 10 : ℚ)| ≤ 1 * (1 - 1 / 2 ^ (2 + 1)) := by
    rw [abs_of_nonneg (by norm_num)]; norm_num
  exact ⟨hx, (C15_uniformQuant_error (3 / 10 : ℚ) 1 2 one_pos (by decide) hx).1, by decide!⟩

/-- C15 (the claim as stated fails): a 32-bit `int` holds `2^k` only up to
`k = 30`.  `x = 0.3`, `max = 1` and `k = 31`, the first depth above, satisfy
`|x| <= max*(1 - 2^-(k+1))`, and `uniformQuant(0.3, 1, 31) = -(2^31 - 1)/2^31`
(`1 << 31` is `-2^31`, the step is negative) misses `x` by more than 1.  With
`k = 45`, `uniformQuant(0.3, 1, 45) = 1229/4096` (the shift `1 << 45` is
`8192`) misses `x` by `1/20480`, more than the claimed `max/2^(k+1) =
1/2^46`. -/
theorem C15_uniformQuant_error_int_shift :
    |(3 / 10 : ℚ)| ≤ 1 * (1 - 1 / 2 ^ (45 + 1)) ∧
    |uniformQuantValue (3 / 10 : ℚ) 1 45 - 3 / 10| = 1 / 20480 ∧
    ¬ |uniformQuantValue (3 / 10 : ℚ) 1 45 - 3 / 10| ≤ 1 / 2 ^ (45 + 1) ∧
    |(3 / 10 : ℚ)| ≤ 1 * (1 - 1 / 2 ^ (31 + 1)) ∧
    |uniformQuantValue (3 / 10 : ℚ) 1 31 - 3 / 10| = 13958643707 / 10737418240 ∧
    ¬ |uniformQuantValue (3 / 10 : ℚ) 1 31 - 3 / 10| ≤ 1 / 2 ^ (31 + 1) := by
  refine ⟨?_, ?_, ?_, ?_, ?_, ?_⟩
  · decide!
  · decide!
  · decide!
  · decide!
  · decide!
  · decide!

/-- The value of `maxQuant` for the three pairs of integer and fraction bits in
use. -/
theorem maxQuant_value {K : Type} [LinearOrderedField K] [FloorRing K] (x : K) (b1 b2 : Nat)
    (hb : (b1 = 0 ∧ b2 = 7) ∨ (b1 = 1 ∧ b2 = 7) ∨ (b1 = 3 ∧ b2 = 4)) (hx : 0 ≤ x) :
    (x < ((2 : K) ^ (b1 + b2) - 1) / 2 ^ b2 →
      maxQuant x b1 b2 = ((⌈x * 2 ^ b2⌉ : Int) : K) / 2 ^ b2) ∧
    (((2 : K) ^ (b1 + b2) - 1) / 2 ^ b2 ≤ x →
      maxQuant x b1 b2 = ((2 : K) ^ (b1 + b2) - 1) / 2 ^ b2) := by
  have hsh : ∀ j : Nat, (((1 <<< j : Nat) : Nat) : K) = 2 ^ j := by
    intro j; rw [Nat.shiftLeft_eq, one_mul]; push_cast; rfl
  simp only [maxQuant, hsh, Nat.cast_one]
  constructor
  · intro hlt
    rw [if_neg (not_le.2 hlt), abs_of_nonneg hx]
    have : x / (1 / 2 ^ b2) = x * 2 ^ b2 := by field_simp
    rw [this]; field_simp
  · intro hge
    rw [if_pos hge]
    have hM : (0 : K) < ((2 : K) ^ (b1 + b2) - 1) / 2 ^ b2 := by
      rcases hb with ⟨rfl, rfl⟩ | ⟨rfl, rfl⟩ | ⟨rfl, rfl⟩ <;> norm_num
    have hxp : 0 < x := lt_of_lt_of_le hM hge
    have hs : sgn_double x = 1 := by rw [sgn_double_eq, if_pos hxp]
    rw [hs, one_mul]
    have hq : (0 : K) ≤ ((2 : K) ^ (b1 + b2) - 1) / 2 ^ b2 * (999 / 1000) := by positivity
    rw [abs_of_nonneg hq]
    have hc : (⌈((2 : K) ^ (b1 + b2) - 1) / 2 ^ b2 * (999 / 1000) / (1 / 2 ^ b2)⌉ : Int) =
        2 ^ (b1 + b2) - 1 := by
      rw [Int.ceil_eq_iff]
      rcases hb with ⟨rfl, rfl⟩ | ⟨rfl, rfl⟩ | ⟨rfl, rfl⟩ <;> norm_num
    rw [hc]
    push_cast
    field_simp

/-- C16: for `(b1, b2)` in {(0,7), (1,7), (3,4)} and every `x >= 0`, with
`max = (2^(b1+b2) - 1)/2^b2`: `maxQuant(x, b1, b2) = ceil(x * 2^b2)/2^b2` when
`x < max` and `= max` when `x >= max`; hence for every `0 <= x <= max`,
`x <= maxQuant(x, b1, b2) < x + 2^-b2`. -/
theorem C16_maxQuant_ceiling {K : Type} [LinearOrderedField K] [FloorRing K] (x : K)
    (b1 b2 : Nat) (hb : (b1 = 0 ∧ b2 = 7) ∨ (b1 = 1 ∧ b2 = 7) ∨ (b1 = 3 ∧ b2 = 4))
    (hx : 0 ≤ x) :
    (x < ((2 : K) ^ (b1 + b2) - 1) / 2 ^ b2 →
      maxQuant x b1 b2 = ((⌈x * 2 ^ b2⌉ : Int) : K) / 2 ^ b2) ∧
    (((2 : K) ^ (b1 + b2) - 1) / 2 ^ b2 ≤ x →
      maxQuant x b1 b2 = ((2 : K) ^ (b1 + b2) - 1) / 2 ^ b2) ∧
    (x ≤ ((2 : K) ^ (b1 + b2) - 1) / 2 ^ b2 →
      x ≤ maxQuant x b1 b2 ∧ maxQuant x b1 b2 < x + 1 / 2 ^ b2) := by
  obtain ⟨v1, v2⟩ := maxQuant_value x b1 b2 hb hx
  refine ⟨v1, v2, ?_⟩
  intro hle
  have h2 : (0 : K) < 2 ^ b2 := by positivity
  rcases lt_or_eq_of_le hle with hlt | heq
  · rw [v1 hlt]
    constructor
    · rw [le_div_iff₀ h2]
      exact Int.le_ceil _
    · rw [div_lt_iff₀ h2, add_mul]
      have : (1 : K) / 2 ^ b2 * 2 ^ b2 = 1 := by field_simp
      rw [this]
      exact Int.ceil_lt_add_one _
  · rw [v2 (le_of_eq heq.symm), ← heq]
    exact ⟨le_refl _, by linarith [div_pos (one_pos (α := K)) h2]⟩

theorem C16_maxQuant_ceiling_witness :
    maxQuant (3 / 10 : ℚ) 3 4 = 5 / 16 ∧ maxQuant (9 : ℚ) 3 4 = 127 / 16 ∧
    (3 / 10 : ℚ) ≤ maxQuant (3 / 10 : ℚ) 3 4 ∧
    maxQuant (3 / 10 : ℚ) 3 4 < 3 / 10 + 1 / 2 ^ 4 := by
  have h := C16_maxQuant_ceiling (3 / 10 : ℚ) 3 4 (Or.inr (Or.inr ⟨rfl, rfl⟩)) (by norm_num)
  exact ⟨by decide!, by decide!, (h.2.2 (by norm_num)).1, (h.2.2 (by norm_num)).2⟩

/-- The two forms of the result of `maximumWaveletCoefficient`. -/
theorem maximumWaveletCoefficient_form {K : Type} [LinearOrderedField K] [FloorRing K]
    (sig : List K) (hpos : 0 < findMax sig) :
    (findMax sig < 1 → ∃ m : Nat, m < 128 ∧
      maxQuant (findMax sig) 0 7 = (m : K) / 2 ^ 7 ∧
      maximumWaveletCoefficient sig = ⟨maxQuant (findMax sig) 0 7, false :: de2bi m [] 7⟩) ∧
    (1 ≤ findMax sig → ∃ m : Nat, m < 128 ∧
      maxQuant (findMax sig - 1) 3 4 = (m : K) / 2 ^ 4 ∧
      maximumWaveletCoefficient sig =
        ⟨maxQuant (findMax sig - 1) 3 4 + 1, true :: de2bi m [] 7⟩) := by
  constructor
  · intro hw
    obtain ⟨m, hm, he, -⟩ := maxQuant_spec (findMax sig) INTEGERPART_0 FRACTIONPART_0
      rfl (le_of_lt hpos)
    obtain ⟨r1, -⟩ := bitwavmax_read (K := K) m FRACTIONPART_0 hm
    have he2 : maxQuant (findMax sig) 0 7 = (m : K) * (1 / 2 ^ 7) := he
    refine ⟨m, hm, by rw [he2]; ring, ?_⟩
    unfold maximumWaveletCoefficient
    simp only [hw, if_true, not_true_eq_false, decide_False, Nat.cast_zero, add_zero,
      sub_zero]
    rw [he, r1, he2]
    rfl
  · intro hge
    have hw : ¬ findMax sig < 1 := not_lt.2 hge
    obtain ⟨m, hm, he, -⟩ := maxQuant_spec (findMax sig - 1) INTEGERPART_1 FRACTIONPART_1
      rfl (by linarith)
    obtain ⟨r1, -⟩ := bitwavmax_read (K := K) m FRACTIONPART_1 hm
    have he2 : maxQuant (findMax sig - 1) 3 4 = (m : K) * (1 / 2 ^ 4) := he
    refine ⟨m, hm, by rw [he2]; ring, ?_⟩
    unfold maximumWaveletCoefficient
    simp only [hw, if_false, not_false_eq_true, decide_True, Nat.cast_one,
      add_sub_cancel_right]
    rw [he, r1, he2]
    rfl

/-- C17: for every block whose largest absolute coefficient is `wavmax > 0`:
`maximumWaveletCoefficient` writes mode bit 0 and quantises `wavmax` with (0,7)
when `wavmax < 1`, and otherwise writes mode bit 1, quantises `wavmax - 1` with
(3,4) and adds 1 back; the 8-bit word is the mode bit followed by the 7 bits of
the quantised value's numerator `m`, least-significant first; and whatever
block and bit count `SPIHT_Enc::encode` is given with that word, the `wavmax`
that `SPIHT_Dec::decode` reconstructs from the arithmetic-coded payload is
exactly the encoder's `qwavmax`. -/
theorem C17_wavmax_word {K : Type} [LinearOrderedField K] [FloorRing K]
    (sig : List K) (hpos : 0 < findMax sig) (BL : Nat) (c out : List Int) (N : Nat)
    (cnt : Counters) (hBL : BL ∈ [32, 64, 128, 256, 512]) (hlen : c.length = BL)
    (hout : out.length = BL) (hcnt : CountersOK cnt) :
    (findMax sig < 1 → ∃ m : Nat, m < 128 ∧
      (maximumWaveletCoefficient sig).qwavmax = maxQuant (findMax sig) 0 7 ∧
      (maximumWaveletCoefficient sig).qwavmax = (m : K) / 2 ^ 7 ∧
      (maximumWaveletCoefficient sig).bitwavmax = false :: de2bi m [] 7) ∧
    (1 ≤ findMax sig → ∃ m : Nat, m < 128 ∧
      (maximumWaveletCoefficient sig).qwavmax = maxQuant (findMax sig - 1) 3 4 + 1 ∧
      (maximumWaveletCoefficient sig).qwavmax = (m : K) / 2 ^ 4 + 1 ∧
      (maximumWaveletCoefficient sig).bitwavmax = true :: de2bi m [] 7) ∧
    (∀ m j : Nat, j < 7 → (de2bi m [] 7)[j]? = some (m.testBit j)) ∧
    (∃ s ctx p k,
      SPIHT_Enc_encode c (ilog2 BL - 2) (maximumWaveletCoefficient sig).bitwavmax N [] []
        = some (s, ctx) ∧
      ArithEnc_encode cnt s ctx [] = some (p, k)) ∧
    (∀ s ctx p k,
      SPIHT_Enc_encode c (ilog2 BL - 2) (maximumWaveletCoefficient sig).bitwavmax N [] []
        = some (s, ctx) →
      ArithEnc_encode cnt s ctx [] = some (p, k) →
      ∃ r : SpihtDecResult K,
        SPIHT_Dec_decode cnt p 0 p.length out BL (ilog2 BL - 2) = some r ∧
        r.wavmax = (maximumWaveletCoefficient sig).qwavmax) := by
  obtain ⟨f1, f2⟩ := maximumWaveletCoefficient_form sig hpos
  obtain ⟨w1, w2, -, w4⟩ := maximumWaveletCoefficient_spec sig hpos
  obtain ⟨s, ctx, h1, h2, h3, ⟨bs, h4⟩, h5⟩ :=
    @spiht_codec_frame K _ BL c (maximumWaveletCoefficient sig).bitwavmax N hBL hlen w1
  have hone : true ∈ s := by
    rw [h4]; simp [w2]
  refine ⟨?_, ?_, fun m j hj => de2bi_get m 7 j hj, ?_, ?_⟩
  · intro hw
    obtain ⟨m, hm, e1, e2⟩ := f1 hw
    exact ⟨m, hm, by rw [e2], by rw [e2]; exact e1, by rw [e2]⟩
  · intro hw
    obtain ⟨m, hm, e1, e2⟩ := f2 hw
    exact ⟨m, hm, by rw [e2], by rw [e2]; show _ + 1 = _; rw [e1], by rw [e2]⟩
  · obtain ⟨p, k, hp⟩ := ArithEnc_encode_isSome cnt s ctx hcnt hone h2 h3
    exact ⟨s, ctx, p, k, h1, hp⟩
  · intro s2 ctx2 p k e1 e2
    rw [h1] at e1
    simp only [Option.some.injEq, Prod.mk.injEq] at e1
    obtain ⟨rfl, rfl⟩ := e1
    obtain ⟨e, g1, -⟩ := feeds_of_payload cnt s ctx p k hcnt h2 e2
    obtain ⟨r, r1, -, -, -, r5⟩ := h5 cnt p 0 p.length out e hout g1
    exact ⟨r, r1, by rw [r5]; exact w4⟩

theorem C17_wavmax_word_witness :
    (0 : ℚ) < findMax [3 / 10, -5 / 4] ∧
    (maximumWaveletCoefficient ([3 / 10, -5 / 4] : List ℚ)).qwavmax = 5 / 4 ∧
    ∃ m : Nat, m < 128 ∧
      (maximumWaveletCoefficient ([3 / 10, -5 / 4] : List ℚ)).qwavmax = (m : ℚ) / 2 ^ 4 + 1 ∧
      (maximumWaveletCoefficient ([3 / 10, -5 / 4] : List ℚ)).bitwavmax
        = true :: de2bi m [] 7 := by
  have h := C17_wavmax_word ([3 / 10, -5 / 4] : List ℚ) (by decide!) 32
    (List.replicate 32 0) (List.replicate 32 0) 15 resetCounter (by decide) (by decide)
    (by decide) countersOK_reset
  obtain ⟨m, hm, -, h2, h3⟩ := h.2.1 (by decide!)
  exact ⟨by decide!, by decide!, m, hm, h2, h3⟩

theorem findMinInd_aux {K : Type} [LinearOrderedField K] (data : List (XReal K)) (n : Nat)
    (l : List Nat) (acc : XReal K × Nat) (hl : ∀ i ∈ l, i < n) (ha : acc.2 < n) :
    (l.foldl (fun (acc : XReal K × Nat) i =>
      if (data.getD i .nan).lt acc.1 then (data.getD i .nan, i) else acc) acc).2 < n := by
  induction l generalizing acc with
  | nil => exact ha
  | cons x xs ih =>
    rw [List.foldl_cons]
    apply ih _ (fun i hi => hl i (List.mem_cons_of_mem _ hi))
    split_ifs
    · exact hl x (List.mem_cons_self _ _)
    · exact ha

/-- The index `findMinInd` returns lies inside the vector. -/
theorem findMinInd_lt {K : Type} [LinearOrderedField K] (data : List (XReal K))
    (h : 0 < data.length) : findMinInd data < data.length := by
  unfold findMinInd
  exact findMinInd_aux data data.length _ _ (fun i hi => List.mem_range.1 hi) h

theorem allocIndex_lt {K : Type} [LinearOrderedField K] (log10 : K → K) (e : Encoder)
    (SMR bandenergy : List K) (s : AllocState K) (h : 0 < e.l_book) :
    allocIndex log10 e SMR bandenergy s < e.l_book := by
  unfold allocIndex
  have := findMinInd_lt ((List.range e.l_book).map (fun i =>
    if s.bitalloc.getD i 0 ≥ MAX_BITS then XReal.posInf
    else (updateNoise log10 e.l_book bandenergy s.noiseenergy SMR).getD i .nan))
    (by simp [h])
  simpa using this

theorem sum_set_nat (l : List Nat) (i v : Nat) (h : i < l.length) :
    (l.set i v).sum + l.getD i 0 = l.sum + v := by
  induction l generalizing i with
  | nil => simp at h
  | cons x xs ih =>
    cases i with
    | zero => simp [List.set]; omega
    | succ j =>
      have := ih j (by simpa using h)
      simp only [List.set, List.sum_cons, List.getD_cons_succ]
      omega

/-- What one pass of the allocation loop does to `bitalloc` and
`bitalloc_sum`. -/
theorem allocStep_bitalloc {K : Type} [LinearOrderedField K] [FloorRing K] (log10 : K → K)
    (e : Encoder) (block_dwt SMR bandenergy : List K) (qwavmax : K) (bitbudget : Nat)
    (s : AllocState K) :
    ((allocStep log10 e block_dwt SMR bandenergy qwavmax bitbudget s).bitalloc =
      if s.bitalloc_sum ≥ MAX_BITS * e.dwtlevel + s.bitalloc.getD (e.l_book - 1) 0 then
        s.bitalloc.set (e.l_book - 1) (bitbudget - MAX_BITS * e.dwtlevel)
      else s.bitalloc.set (allocIndex log10 e SMR bandenergy s)
        (s.bitalloc.getD (allocIndex log10 e SMR bandenergy s) 0 + 1)) ∧
    ((allocStep log10 e block_dwt SMR bandenergy qwavmax bitbudget s).bitalloc_sum =
      if s.bitalloc_sum ≥ MAX_BITS * e.dwtlevel + s.bitalloc.getD (e.l_book - 1) 0 then
        s.bitalloc_sum + (bitbudget - MAX_BITS * e.dwtlevel) - s.bitalloc.getD (e.l_book - 1) 0
      else s.bitalloc_sum + 1) := by
  unfold allocStep allocIndex
  by_cases hcl : s.bitalloc_sum ≥ MAX_BITS * e.dwtlevel + s.bitalloc.getD (e.l_book - 1) 0
  · constructor <;> simp only [if_pos hcl]
  · constructor <;> simp only [if_neg hcl]

theorem allocStep_sumInv {K : Type} [LinearOrderedField K] [FloorRing K] (log10 : K → K)
    (e : Encoder) (block_dwt SMR bandenergy : List K) (qwavmax : K) (bitbudget : Nat)
    (s : AllocState K) (hb : 0 < e.l_book) (hc : s.bitalloc_sum < bitbudget)
    (h : SumInv e bitbudget s) :
    SumInv e bitbudget (allocStep log10 e block_dwt SMR bandenergy qwavmax bitbudget s) := by
  obtain ⟨h1, h2, h3, h4⟩ := h
  obtain ⟨a1, a2⟩ := allocStep_bitalloc log10 e block_dwt SMR bandenergy qwavmax bitbudget s
  have hlast : e.l_book - 1 < s.bitalloc.length := by omega
  unfold SumInv
  rw [a1, a2]
  split_ifs with hcl
  · have hs := sum_set_nat s.bitalloc (e.l_book - 1) (bitbudget - MAX_BITS * e.dwtlevel) hlast
    refine ⟨by rw [List.length_set]; exact h1, by omega, ?_, by omega⟩
    rw [getD_set_gen, if_pos ⟨rfl, hlast⟩]
    omega
  · have hi := allocIndex_lt log10 e SMR bandenergy s hb
    have hs := sum_set_nat s.bitalloc (allocIndex log10 e SMR bandenergy s)
      (s.bitalloc.getD (allocIndex log10 e SMR bandenergy s) 0 + 1) (by omega)
    refine ⟨by rw [List.length_set]; exact h1, by omega, ?_, by omega⟩
    rw [getD_set_gen]
    split_ifs with hx
    · rw [← hx.1]; omega
    · omega

theorem allocLoop_sumInv {K : Type} [LinearOrderedField K] [FloorRing K] (log10 : K → K)
    (e : Encoder) (block_dwt SMR bandenergy : List K) (qwavmax : K) (bitbudget : Nat)
    (hb : 0 < e.l_book) (fuel : Nat) (s s' : AllocState K) (h : SumInv e bitbudget s)
    (hl : allocLoop log10 e block_dwt SMR bandenergy qwavmax bitbudget fuel s = some s') :
    SumInv e bitbudget s' ∧ s'.bitalloc_sum = bitbudget := by
  induction fuel generalizing s with
  | zero =>
    unfold allocLoop at hl
    split_ifs at hl with hc
    simp only [Option.some.injEq] at hl
    subst hl
    exact ⟨h, by have := h.2.2.2; omega⟩
  | succ f ih =>
    unfold allocLoop at hl
    split_ifs at hl with hc
    · exact ih _ (allocStep_sumInv log10 e block_dwt SMR bandenergy qwavmax bitbudget s hb hc h) hl
    · simp only [Option.some.injEq] at hl
      subst hl
      exact ⟨h, by have := h.2.2.2; omega⟩

theorem sumInv_init {K : Type} [LinearOrderedField K] (e : Encoder) (bitbudget : Nat)
    (block_dwt : List K) : SumInv e bitbudget (allocInit e block_dwt) := by
  unfold SumInv allocInit
  simp

/-- The block `quantizeBlock` returns is read off the state in which the
allocation loop ends, and the loop ends within `bitbudget` passes. -/
theorem quantizeBlock_eq {K : Type} [LinearOrderedField K] [FloorRing K] (log10 : K → K)
    (e : Encoder) (block_dwt SMR bandenergy : List K) (bitbudget : Nat) :
    ∃ s, allocLoop log10 e block_dwt SMR bandenergy (maximumWaveletCoefficient block_dwt).qwavmax
        bitbudget bitbudget (allocInit e block_dwt) = some s ∧
      quantizeBlock log10 e block_dwt SMR bandenergy bitbudget = some
        { qwavmax := (maximumWaveletCoefficient block_dwt).qwavmax
          bitwavmax := (maximumWaveletCoefficient block_dwt).bitwavmax
          bitalloc := s.bitalloc
          block_dwt_quant := s.block_dwt_quant
          bitmax := findMaxInt s.bitalloc
          block_intquant := s.block_dwt_quant.map (fun q =>
            cround (q * (((shlInt 1 (findMaxInt s.bitalloc) : Int) : K) /
              (maximumWaveletCoefficient block_dwt).qwavmax))) } := by
  obtain ⟨s, h1, -⟩ := allocLoop_isSome log10 e block_dwt SMR bandenergy
    (maximumWaveletCoefficient block_dwt).qwavmax bitbudget bitbudget (allocInit e block_dwt)
    (by simp [allocInit])
  refine ⟨s, h1, ?_⟩
  unfold quantizeBlock
  simp only
  unfold allocInit at h1
  rw [h1]
  rfl

/-- C18: for every block length, every budget `B` and every block with any SMR
and bandenergy, the bit-allocation loop of `encodeBlock` ends within `B` passes
(the fuel `quantizeBlock` gives it) and on exit the sum over all bands of
`bitalloc[b]` equals `B` exactly, whichever band `findMinInd` selects in each
pass and also when the clamp branch fires. -/
theorem C18_allocation_sum {K : Type} [LinearOrderedField K] [FloorRing K] (log10 : K → K)
    (bl fs maxChannels : Nat) (block_dwt SMR bandenergy : List K) (B : Nat) :
    ∃ s q, allocLoop log10 (Encoder.new bl fs maxChannels) block_dwt SMR bandenergy
        (maximumWaveletCoefficient block_dwt).qwavmax B B
        (allocInit (Encoder.new bl fs maxChannels) block_dwt) = some s ∧
      quantizeBlock log10 (Encoder.new bl fs maxChannels) block_dwt SMR bandenergy B = some q ∧
      q.bitalloc = s.bitalloc ∧ s.bitalloc_sum = B ∧
      q.bitalloc.length = ilog2 bl - 2 + 1 ∧ q.bitalloc.sum = B := by
  have hb : 0 < (Encoder.new bl fs maxChannels).l_book := Nat.succ_pos _
  obtain ⟨s, h1, h2⟩ := quantizeBlock_eq log10 (Encoder.new bl fs maxChannels) block_dwt SMR
    bandenergy B
  obtain ⟨⟨j1, j2, -, -⟩, j5⟩ := allocLoop_sumInv log10 _ block_dwt SMR bandenergy _ B hb B
    _ s (sumInv_init _ B block_dwt) h1
  exact ⟨s, _, h1, h2, rfl, j5, j1, by show s.bitalloc.sum = B; rw [← j2, j5]⟩

/-- A quantised sample is a whole number of steps of its own bit depth (up to
30 bits). -/
theorem uniformQuantValue_exact {K : Type} [LinearOrderedField K] [FloorRing K] (x max : K)
    (bits : Nat) (hmax : 0 < max) (hb : bits ≤ 30) :
    ∃ z : Int, z.natAbs < 2 ^ bits ∧ uniformQuantValue x max bits = (z : K) * (max / 2 ^ bits) := by
  obtain ⟨s, hs1, hs2, hs3⟩ := sgn_double_cases x
  have hp : (0 : K) < 2 ^ bits := by positivity
  have hd : 0 < max / 2 ^ bits := div_pos hmax hp
  have hone : (1 : Nat) ≤ 2 ^ bits := Nat.one_le_two_pow
  have hfl : 0 ≤ ⌊|x| / (max / 2 ^ bits) + HALF_QUANT⌋ := by
    apply Int.floor_nonneg.2
    unfold HALF_QUANT
    have : 0 ≤ |x| / (max / 2 ^ bits) := div_nonneg (abs_nonneg x) (le_of_lt hd)
    linarith
  rw [uniformQuantValue_small x max bits hb]
  simp only [hs2]
  set f := ⌊|x| / (max / 2 ^ bits) + HALF_QUANT⌋ with hf
  split_ifs with hc
  · refine ⟨s * ((2 ^ bits - 1 : Nat) : Int), ?_, ?_⟩
    · rw [Int.natAbs_mul, Int.natAbs_ofNat]
      have : s.natAbs * (2 ^ bits - 1) ≤ 1 * (2 ^ bits - 1) := Nat.mul_le_mul_right _ hs1
      omega
    · push_cast [Nat.cast_sub hone]
      ring
  · refine ⟨s * f, ?_, by push_cast; ring⟩
    by_cases hs0 : s = 0
    · rw [hs0]; simp
    · have hsa : s.natAbs = 1 := by
        have : s.natAbs ≠ 0 := fun h => hs0 (Int.natAbs_eq_zero.1 h)
        omega
      rw [Int.natAbs_mul, hsa, one_mul]
      have hle := not_lt.1 hc
      have hfK : (0 : K) ≤ (f : K) := by exact_mod_cast hfl
      have hsK : |(s : K)| = 1 := by
        have h1 : s = 1 ∨ s = -1 := by omega
        rcases h1 with h1 | h1 <;> rw [h1] <;> simp
      have habs : |(s : K) * (max / 2 ^ bits) * (f : K)| = (max / 2 ^ bits) * (f : K) := by
        rw [abs_mul, abs_mul, hsK, one_mul, abs_of_pos hd, abs_of_nonneg hfK]
      rw [habs] at hle
      have hle2 : (f : K) ≤ 2 ^ bits - 1 := le_of_mul_le_mul_left hle hd
      have hle3 : f ≤ 2 ^ bits - 1 := by exact_mod_cast hle2
      have hfn : (f.natAbs : Int) = f := Int.natAbs_of_nonneg hfl
      have hpow : ((2 ^ bits : Nat) : Int) = 2 ^ bits := by push_cast; rfl
      omega

/-- The band borders of the constructor: `[0, b, 2b, 4b, ...]` with the band
sizes `[b, b, 2b, 4b, ...]`. -/
theorem bookOK_new (bl fs maxChannels : Nat) : BookOK (Encoder.new bl fs maxChannels) := by
  have hcum : ∀ j, j ≤ ilog2 bl - 2 + 1 →
      (Encoder.new bl fs maxChannels).book_cumulative.getD j 0 =
        if j = 0 then 0 else (bl >>> (ilog2 bl - 2)) <<< (j - 1) := by
    intro j hj
    cases j with
    | zero => rfl
    | succ n =>
      show ((0 : Nat) :: (List.range (ilog2 bl - 2 + 1)).map
        (fun i => (bl >>> (ilog2 bl - 2)) <<< i)).getD (n + 1) 0 = _
      rw [List.getD_cons_succ, List.getD_eq_getElem?_getD, List.getElem?_map,
        List.getElem?_range (by omega)]
      simp
  have hbook : ∀ j, j < ilog2 bl - 2 + 1 →
      (Encoder.new bl fs maxChannels).book.getD j 0 =
        if j = 0 then bl >>> (ilog2 bl - 2) else (bl >>> (ilog2 bl - 2)) <<< (j - 1) := by
    intro j hj
    cases j with
    | zero => rfl
    | succ n =>
      show ((bl >>> (ilog2 bl - 2)) :: (List.range (ilog2 bl - 2)).map
        (fun i => (bl >>> (ilog2 bl - 2)) <<< i)).getD (n + 1) 0 = _
      rw [List.getD_cons_succ, List.getD_eq_getElem?_getD, List.getElem?_map,
        List.getElem?_range (by omega)]
      simp
  have hl : (Encoder.new bl fs maxChannels).l_book = ilog2 bl - 2 + 1 := rfl
  constructor
  · intro j hj
    rw [hl] at hj
    rw [hcum j (by omega), hcum (j + 1) (by omega), hbook j hj]
    cases j with
    | zero => simp
    | succ n =>
      simp only [Nat.succ_ne_zero, if_false, Nat.add_sub_cancel, Nat.shiftLeft_eq]
      rw [pow_succ]; ring
  · intro j k hjk hk
    rw [hl] at hk
    rw [hcum j (by omega), hcum k hk]
    by_cases hj : j = 0
    · rw [if_pos hj]; exact Nat.zero_le _
    · rw [if_neg hj, if_neg (by omega)]
      simp only [Nat.shiftLeft_eq]
      exact Nat.mul_le_mul_left _ (Nat.pow_le_pow_right (by decide) (by omega))

/-- The block one pass of the allocation loop leaves: band `index` quantised
with the new `bitalloc[index]`. -/
theorem allocStep_quant {K : Type} [LinearOrderedField K] [FloorRing K] (log10 : K → K)
    (e : Encoder) (block_dwt SMR bandenergy : List K) (qwavmax : K) (bitbudget : Nat)
    (s : AllocState K) :
    (allocStep log10 e block_dwt SMR bandenergy qwavmax bitbudget s).block_dwt_quant =
      uniformQuant block_dwt s.block_dwt_quant
        (e.book_cumulative.getD (allocIndex log10 e SMR bandenergy s) 0)
        (e.book.getD (allocIndex log10 e SMR bandenergy s) 0) qwavmax
        ((allocStep log10 e block_dwt SMR bandenergy qwavmax bitbudget s).bitalloc.getD
          (allocIndex log10 e SMR bandenergy s) 0) := by
  unfold allocStep allocIndex
  by_cases hcl : s.bitalloc_sum ≥ MAX_BITS * e.dwtlevel + s.bitalloc.getD (e.l_book - 1) 0
  · simp only [if_pos hcl]
  · simp only [if_neg hcl]

/-- No pass of the allocation loop lowers a band's `bitalloc`. -/
theorem allocStep_mono {K : Type} [LinearOrderedField K] [FloorRing K] (log10 : K → K)
    (e : Encoder) (block_dwt SMR bandenergy : List K) (qwavmax : K) (bitbudget : Nat)
    (s : AllocState K) (hc : s.bitalloc_sum < bitbudget) (b : Nat) :
    s.bitalloc.getD b 0 ≤
      (allocStep log10 e block_dwt SMR bandenergy qwavmax bitbudget s).bitalloc.getD b 0 := by
  rw [(allocStep_bitalloc log10 e block_dwt SMR bandenergy qwavmax bitbudget s).1]
  split_ifs with hcl
  · rw [getD_set_gen]
    split_ifs with hx
    · rw [hx.1]; omega
    · exact le_refl _
  · rw [getD_set_gen]
    split_ifs with hx
    · rw [hx.1]; omega
    · exact le_refl _

/-- No pass of the allocation loop lowers a band's `bitalloc`, so the state in
which the loop ends bounds every state before it. -/
theorem allocLoop_mono {K : Type} [LinearOrderedField K] [FloorRing K] (log10 : K → K)
    (e : Encoder) (block_dwt SMR bandenergy : List K) (qwavmax : K) (bitbudget : Nat)
    (fuel : Nat) (s s' : AllocState K)
    (hl : allocLoop log10 e block_dwt SMR bandenergy qwavmax bitbudget fuel s = some s')
    (b : Nat) : s.bitalloc.getD b 0 ≤ s'.bitalloc.getD b 0 := by
  induction fuel generalizing s with
  | zero =>
    unfold allocLoop at hl
    split_ifs at hl with hc
    simp only [Option.some.injEq] at hl
    subst hl; exact le_refl _
  | succ f ih =>
    unfold allocLoop at hl
    split_ifs at hl with hc
    · exact le_trans
        (allocStep_mono log10 e block_dwt SMR bandenergy qwavmax bitbudget s hc b) (ih _ hl)
    · simp only [Option.some.injEq] at hl
      subst hl; exact le_refl _

theorem allocStep_grid {K : Type} [LinearOrderedField K] [FloorRing K] (log10 : K → K)
    (e : Encoder) (block_dwt SMR bandenergy : List K) (qwavmax : K) (bitbudget : Nat)
    (s : AllocState K) (hm : 0 < qwavmax) (hs : s.bitalloc_sum < bitbudget)
    (h30 : ∀ b, (allocStep log10 e block_dwt SMR bandenergy qwavmax bitbudget s).bitalloc.getD
      b 0 ≤ 30)
    (h : GridInv qwavmax s) :
    GridInv qwavmax (allocStep log10 e block_dwt SMR bandenergy qwavmax bitbudget s) := by
  intro i
  have hmono : findMaxInt s.bitalloc ≤
      findMaxInt (allocStep log10 e block_dwt SMR bandenergy qwavmax bitbudget s).bitalloc := by
    rw [(allocStep_bitalloc log10 e block_dwt SMR bandenergy qwavmax bitbudget s).1]
    split_ifs with hcl
    · exact findMaxInt_set _ _ _ (by omega)
    · exact findMaxInt_set _ _ _ (by omega)
  rw [allocStep_quant, uniformQuant_getD]
  split_ifs with hr
  · exact onGrid_mono _ _ _ _ (uniformQuantValue_grid _ _ _ hm (h30 _)) (findMaxInt_ge _ _)
  · exact onGrid_mono _ _ _ _ (h i) hmono

theorem allocLoop_grid {K : Type} [LinearOrderedField K] [FloorRing K] (log10 : K → K)
    (e : Encoder) (block_dwt SMR bandenergy : List K) (qwavmax : K) (bitbudget : Nat)
    (fuel : Nat) (s s' : AllocState K) (hm : 0 < qwavmax) (h : GridInv qwavmax s)
    (hl : allocLoop log10 e block_dwt SMR bandenergy qwavmax bitbudget fuel s = some s')
    (h30 : ∀ b, s'.bitalloc.getD b 0 ≤ 30) :
    GridInv qwavmax s' := by
  induction fuel generalizing s with
  | zero =>
    unfold allocLoop at hl
    split_ifs at hl with hc
    simp only [Option.some.injEq] at hl
    subst hl; exact h
  | succ f ih =>
    unfold allocLoop at hl
    split_ifs at hl with hc
    · exact ih _ (allocStep_grid log10 e block_dwt SMR bandenergy qwavmax bitbudget s hm hc
        (fun b => le_trans
          (allocLoop_mono log10 e block_dwt SMR bandenergy qwavmax bitbudget f _ s' hl b)
          (h30 b)) h) hl
    · simp only [Option.some.injEq] at hl
      subst hl; exact h

/-- What `quantizeBlock` returns for a block that is not all zero when no band
holds more than 30 bits: every quantised coefficient is on the grid of
`bitmax`, and `intmax` is `2^bitmax`. -/
theorem quantizeBlock_grid {K : Type} [LinearOrderedField K] [FloorRing K] (log10 : K → K)
    (e : Encoder) (block_dwt SMR bandenergy : List K) (bitbudget : Nat) (q : QuantResult K)
    (hpos : 0 < findMax block_dwt)
    (hq : quantizeBlock log10 e block_dwt SMR bandenergy bitbudget = some q)
    (h30 : q.bitmax ≤ 30) :
    0 < q.qwavmax ∧
    (∀ i, OnGrid q.qwavmax q.bitmax (q.block_dwt_quant.getD i 0)) ∧
    q.block_intquant = q.block_dwt_quant.map
      (fun v => cround (v * (((1 <<< q.bitmax : Nat) : K) / q.qwavmax))) := by
  obtain ⟨-, -, w3, -⟩ := maximumWaveletCoefficient_spec block_dwt hpos
  unfold quantizeBlock at hq
  simp only [Option.map_eq_some'] at hq
  obtain ⟨s, hs, rfl⟩ := hq
  have h30' : findMaxInt s.bitalloc ≤ 30 := h30
  refine ⟨w3, ?_, ?_⟩
  · have h0 : GridInv (maximumWaveletCoefficient block_dwt).qwavmax
        ⟨List.replicate e.l_book 0, 0, List.replicate e.bl 0,
          (List.range e.l_book).map (fun b =>
            bandNoise block_dwt (List.replicate e.bl 0) (e.book_cumulative.getD b 0)
              (e.book_cumulative.getD (b + 1) 0))⟩ := by
      intro i
      have : (List.replicate e.bl (0 : K)).getD i 0 = 0 := by
        rw [List.getD_eq_getElem?_getD, List.getElem?_replicate]
        split_ifs <;> rfl
      simp only [this]
      exact onGrid_zero _ _
    exact allocLoop_grid log10 e block_dwt SMR bandenergy _ bitbudget bitbudget _ s w3 h0 hs
      (fun b => le_trans (findMaxInt_ge _ b) h30')
  · show List.map _ _ = List.map _ _
    simp only [shlInt_cast _ h30']

/-- One block that is not all zero through `encodeBlock` and the decoder when the
allocation stays within `MAX_BITS` and the payload fits the length field:
`losslessDecoding` returns 1 with the encoder's `block_intquant`, `bitmax` and
`qwavmax`, and `decodeBlock` returns the encoder's `block_dwt_quant`. -/
theorem encodeBlock_round_trip {K : Type} [LinearOrderedField K] [FloorRing K] (log10 : K → K)
    (BL fs maxChannels : Nat) (hBL : BL ∈ [32, 64, 128, 256, 512]) (cnt : Counters)
    (hk : CountersOK cnt) (block_dwt SMR bandenergy : List K) (bits : List Bool)
    (bitbudget : Nat) (hz : checkZeros block_dwt BL = false) :
    ∃ q r, quantizeBlock log10 (Encoder.new BL fs maxChannels) block_dwt SMR bandenergy bitbudget
        = some q ∧
      encodeBlock log10 (Encoder.new BL fs maxChannels) cnt block_dwt SMR bandenergy bits
        bitbudget = some r ∧
      r.block_dwt_quant = q.block_dwt_quant ∧
      (q.bitmax ≤ MAX_BITS → r.payload.length ≤ 2 ^ encoderLengthbits BL - 1 →
        r.bitstream = bits ++ (de2bi r.payload.length [] (encoderLengthbits BL) ++ r.payload) ∧
        ∀ rest : List Bool, ∃ d : LosslessResult K,
          losslessDecoding BL (ilog2 BL - 2) (encoderLengthbits BL) cnt
            (de2bi r.payload.length [] (encoderLengthbits BL) ++ r.payload ++ rest) = some d ∧
          d.content = 1 ∧ d.sig_intquant = q.block_intquant ∧ d.recbitmax = q.bitmax ∧
          d.recwavmax = q.qwavmax ∧ d.bitstream = rest ∧ d.cnt = r.cnt ∧
          decodeBlock BL (ilog2 BL - 2) (encoderLengthbits BL) cnt
            (de2bi r.payload.length [] (encoderLengthbits BL) ++ r.payload ++ rest)
            = some (q.block_dwt_quant, rest, r.cnt)) := by
  have hb : (Encoder.new BL fs maxChannels).bl = BL := rfl
  have hd : (Encoder.new BL fs maxChannels).dwtlevel = ilog2 BL - 2 := rfl
  have hlb : (Encoder.new BL fs maxChannels).lengthbits = encoderLengthbits BL := rfl
  have hpos := findMax_pos block_dwt BL hz
  obtain ⟨q, hq, q1, q2, q3, q4⟩ := quantizeBlock_spec log10 (Encoder.new BL fs maxChannels)
    block_dwt SMR bandenergy bitbudget
  obtain ⟨w1, w2, w3, w4⟩ := maximumWaveletCoefficient_spec block_dwt hpos
  rw [← q3, ← q4] at w4
  rw [← q3] at w1 w2
  obtain ⟨s, ctx, c1, c2, c3, ⟨bs, c4⟩, -⟩ :=
    @spiht_codec_frame K _ BL q.block_intquant q.bitwavmax q.bitmax hBL (by rw [q1, hb]) w1
  have hone : true ∈ s := by
    rw [c4]
    simp only [List.mem_append]
    exact Or.inl (Or.inr w2)
  obtain ⟨p, k, hp⟩ := ArithEnc_encode_isSome cnt s ctx hk hone c2 c3
  obtain ⟨p1, p2⟩ := ArithEnc_encode_out cnt s ctx p k hk hp
  have hle : losslessEncoding (Encoder.new BL fs maxChannels) cnt q.block_intquant q.bitwavmax
      q.bitmax bits = some ((lengthEncoding (encoderLengthbits BL) bits p).1 ++
        (lengthEncoding (encoderLengthbits BL) bits p).2, rescaleCounter k, p) := by
    unfold losslessEncoding
    rw [hd, c1]
    simp only
    rw [hp, hlb]
  refine ⟨q, ⟨q.block_dwt_quant, (lengthEncoding (encoderLengthbits BL) bits p).1 ++
    (lengthEncoding (encoderLengthbits BL) bits p).2, rescaleCounter k, p⟩, hq, ?_, rfl, ?_⟩
  · unfold encodeBlock
    rw [hb, hz, if_neg (by simp), hq]
    simp only
    rw [hle]
    rfl
  · simp only
    intro hN hfit
    obtain ⟨g1, g2, g3⟩ := quantizeBlock_grid log10 _ block_dwt SMR bandenergy bitbudget q hpos hq
      (le_trans hN (by decide))
    obtain ⟨l1, -⟩ := length_round (encoderLengthbits BL) bits p [] hfit
    refine ⟨by rw [l1]; simp, ?_⟩
    intro rest
    obtain ⟨-, l3⟩ := length_round (encoderLengthbits BL) bits p (p ++ rest) hfit
    -- the integers fit bitmax + 1 bits
    have hmag : ∀ i, i < q.block_intquant.length →
        (q.block_intquant.getD i 0).natAbs < 2 * 2 ^ q.bitmax := by
      intro i hi
      have hi2 : i < q.block_dwt_quant.length := by rw [q2, ← q1]; exact hi
      have hget : q.block_intquant.getD i 0 =
          cround (q.block_dwt_quant.getD i 0 * (((1 <<< q.bitmax : Nat) : K) / q.qwavmax)) := by
        rw [List.getD_eq_getElem?_getD, List.getD_eq_getElem?_getD,
          List.getElem?_eq_getElem hi, List.getElem?_eq_getElem hi2]
        simp only [Option.getD_some]
        simp only [g3, List.getElem_map]
      rw [hget]
      have := (intquant_spec q.qwavmax q.bitmax _ g1 (g2 i)).1
      omega
    obtain ⟨s', ctx', c1', -, -, -, c5'⟩ :=
      @spiht_codec_correct K _ BL q.block_intquant q.bitwavmax q.bitmax hBL (by rw [q1, hb])
        hN hmag w1
    rw [c1] at c1'
    simp only [Option.some.injEq, Prod.mk.injEq] at c1'
    obtain ⟨rfl, rfl⟩ := c1'
    obtain ⟨e, f1, f2⟩ := feeds_of_payload cnt s ctx p k hk c2 hp
    rw [← initDecoding_append cnt p rest] at f1
    obtain ⟨r, r1, r2, r3, r4, r5⟩ := c5' cnt (p ++ rest) 0 p.length (List.replicate BL 0) e
      (by simp) f1
    rw [w4] at r5
    have hld : (losslessDecoding BL (ilog2 BL - 2) (encoderLengthbits BL) cnt
        (de2bi p.length [] (encoderLengthbits BL) ++ p ++ rest) : Option (LosslessResult K))
        = some ⟨1, q.block_intquant, q.qwavmax / ((1 <<< q.bitmax : Nat) : K), q.qwavmax,
            q.bitmax, rest, rescaleCounter k⟩ := by
      unfold losslessDecoding
      rw [List.append_assoc, l3]
      simp only
      rw [if_pos p1, if_neg (by simp), r1]
      simp only [List.drop_left, r2, r3, r4, r5, f2]
    refine ⟨_, hld, rfl, rfl, rfl, rfl, rfl, rfl, ?_⟩
    unfold decodeBlock
    rw [hld]
    simp only [if_true]
    congr 1
    congr 1
    apply List.ext_getElem
    · simp [q2, hb]
    · intro i h1 h2
      have hi : i < BL := by simpa using h1
      have hi2 : i < q.block_intquant.length := by rw [q1, hb]; exact hi
      have hget : q.block_intquant.getD i 0 =
          cround (q.block_dwt_quant[i] * (((1 <<< q.bitmax : Nat) : K) / q.qwavmax)) := by
        rw [List.getD_eq_getElem?_getD, List.getElem?_eq_getElem hi2]
        simp only [Option.getD_some]
        simp only [g3, List.getElem_map]
      simp only [List.getElem_map, List.getElem_range]
      rw [hget]
      have hg := g2 i
      rw [List.getD_eq_getElem?_getD, List.getElem?_eq_getElem h2] at hg
      simp only [Option.getD_some] at hg
      exact (intquant_spec q.qwavmax q.bitmax _ g1 hg).2

theorem allocStep_depthInv {K : Type} [LinearOrderedField K] [FloorRing K] (log10 : K → K)
    (e : Encoder) (block_dwt SMR bandenergy : List K) (qwavmax : K) (bitbudget : Nat)
    (s : AllocState K) (d : List Nat) (hb : 0 < e.l_book) (hbook : BookOK e)
    (hq : 0 < qwavmax) (hc : s.bitalloc_sum < bitbudget)
    (h30 : ∀ b, (allocStep log10 e block_dwt SMR bandenergy qwavmax bitbudget s).bitalloc.getD
      b 0 ≤ 30)
    (h : DepthInv e qwavmax s d) :
    DepthInv e qwavmax (allocStep log10 e block_dwt SMR bandenergy qwavmax bitbudget s)
      (d.set (allocIndex log10 e SMR bandenergy s)
        ((allocStep log10 e block_dwt SMR bandenergy qwavmax bitbudget s).bitalloc.getD
          (allocIndex log10 e SMR bandenergy s) 0)) := by
  obtain ⟨h1, h2⟩ := h
  have hi := allocIndex_lt log10 e SMR bandenergy s hb
  set index := allocIndex log10 e SMR bandenergy s with hidx
  set s' := allocStep log10 e block_dwt SMR bandenergy qwavmax bitbudget s with hs'
  have hquant := allocStep_quant log10 e block_dwt SMR bandenergy qwavmax bitbudget s
  rw [← hs', ← hidx] at hquant
  refine ⟨by rw [List.length_set]; exact h1, ?_⟩
  intro b hbl
  rw [getD_set_gen]
  by_cases hbi : b = index
  · rw [if_pos ⟨hbi, by omega⟩]
    refine ⟨by rw [hbi], ?_⟩
    intro i hi1 hi2
    rw [hquant, uniformQuant_getD]
    split_ifs with hr
    · exact uniformQuantValue_exact _ _ _ hq (h30 _)
    · have hlen : ¬ i < s.block_dwt_quant.length := by
        intro hlt
        apply hr
        refine ⟨by rw [← hbi]; exact hi1, ?_, hlt⟩
        rw [hbook.1 index hi, ← hbi]; exact hi2
      refine ⟨0, by positivity, ?_⟩
      rw [List.getD_eq_getElem?_getD, List.getElem?_eq_none (not_lt.1 hlen)]
      simp
  · rw [if_neg (fun hx => hbi hx.1)]
    obtain ⟨g1, g2⟩ := h2 b hbl
    refine ⟨le_trans g1 (allocStep_mono log10 e block_dwt SMR bandenergy qwavmax bitbudget s hc b),
      ?_⟩
    intro i hi1 hi2
    rw [hquant, uniformQuant_getD]
    have hout : ¬ (e.book_cumulative.getD index 0 ≤ i ∧
        i < e.book_cumulative.getD index 0 + e.book.getD index 0 ∧
        i < s.block_dwt_quant.length) := by
      rintro ⟨r1, r2, -⟩
      rw [hbook.1 index hi] at r2
      rcases Nat.lt_or_gt_of_ne hbi with hlt | hgt
      · have := hbook.2 (b + 1) index (by omega) (by omega)
        omega
      · have := hbook.2 (index + 1) b (by omega) (by omega)
        omega
    rw [if_neg hout]
    exact g2 i hi1 hi2

theorem allocLoop_depthInv {K : Type} [LinearOrderedField K] [FloorRing K] (log10 : K → K)
    (e : Encoder) (block_dwt SMR bandenergy : List K) (qwavmax : K) (bitbudget : Nat)
    (hb : 0 < e.l_book) (hbook : BookOK e) (hq : 0 < qwavmax)
    (fuel : Nat) (s s' : AllocState K) (d : List Nat) (h : DepthInv e qwavmax s d)
    (hl : allocLoop log10 e block_dwt SMR bandenergy qwavmax bitbudget fuel s = some s')
    (h30 : ∀ b, s'.bitalloc.getD b 0 ≤ 30) :
    DepthInv e qwavmax s'
      (allocDepths log10 e block_dwt SMR bandenergy qwavmax bitbudget fuel s d) := by
  induction fuel generalizing s d with
  | zero =>
    unfold allocLoop at hl
    unfold allocDepths
    split_ifs at hl with hc
    simp only [Option.some.injEq] at hl
    subst hl
    rw [if_neg hc]; exact h
  | succ f ih =>
    unfold allocLoop at hl
    unfold allocDepths
    split_ifs at hl with hc
    · rw [if_pos hc]
      exact ih _ _ (allocStep_depthInv log10 e block_dwt SMR bandenergy qwavmax bitbudget s d
        hb hbook hq hc (fun b => le_trans
          (allocLoop_mono log10 e block_dwt SMR bandenergy qwavmax bitbudget f _ s' hl b)
          (h30 b)) h) hl
    · simp only [Option.some.injEq] at hl
      subst hl
      rw [if_neg hc]; exact h

theorem depthInv_init {K : Type} [LinearOrderedField K] (e : Encoder) (qwavmax : K)
    (block_dwt : List K) :
    DepthInv e qwavmax (allocInit e block_dwt) (List.replicate e.l_book 0) := by
  refine ⟨List.length_replicate _ _, ?_⟩
  intro b hb
  refine ⟨by simp [List.getD_eq_getElem?_getD, List.getElem?_replicate, hb], ?_⟩
  intro i _ _
  refine ⟨0, by positivity, ?_⟩
  unfold allocInit
  simp only [List.getD_eq_getElem?_getD, List.getElem?_replicate]
  split_ifs <;> simp

theorem getD_map_zero {α β : Type} [Zero α] [Zero β] (f : α → β) (hf : f 0 = 0) (l : List α)
    (i : Nat) : (l.map f).getD i 0 = f (l.getD i 0) := by
  simp only [List.getD_eq_getElem?_getD, List.getElem?_map]
  cases l[i]? with
  | none => simp [hf]
  | some v => simp

/-- Scaling a whole number `m` of steps of depth `k` by `2^B / qwavmax` gives
the integer `m * 2^(B - k)`. -/
theorem cround_scaled {K : Type} [LinearOrderedField K] [FloorRing K] (qwavmax : K) (m : Int)
    (k B : Nat) (hq : 0 < qwavmax) (hk : k ≤ B) :
    cround ((m : K) * (qwavmax / 2 ^ k) * (((1 <<< B : Nat) : K) / qwavmax)) =
      m * 2 ^ (B - k) := by
  have hsh : (((1 <<< B : Nat) : Nat) : K) = 2 ^ B := by
    rw [Nat.shiftLeft_eq, one_mul]; push_cast; rfl
  have hB : (2 : K) ^ B = 2 ^ k * 2 ^ (B - k) := by
    rw [← pow_add]; congr 1; omega
  have e : (m : K) * (qwavmax / 2 ^ k) * (((1 <<< B : Nat) : K) / qwavmax) =
      ((m * 2 ^ (B - k) : Int) : K) := by
    rw [hsh, hB]
    push_cast
    have h2 : (0 : K) < 2 ^ k := by positivity
    field_simp
    ring
  rw [e, cround_intCast]

/-- While no band holds more than 30 bits (`bitmax <= 30`, so that `intmax =
1 << bitmax` is `2^bitmax`), the integers handed to SPIHT are as C20 says:
`|block_intquant[i]| < 2^bitmax < 2^(bitmax+1)`, and for every band `b`, with
`k` the bit depth at which the allocation loop last quantised the band (0 if
never), `k <= bitalloc[b] <= bitmax` and each `block_intquant[i]` of the band
is exactly the integer `m_i * 2^(bitmax - k)` with `|m_i| <= 2^k - 1`. -/
theorem quantizeBlock_intquant_grid {K : Type} [LinearOrderedField K] [FloorRing K]
    (log10 : K → K)
    (bl fs maxChannels : Nat) (block_dwt SMR bandenergy : List K) (B : Nat)
    (hz : checkZeros block_dwt bl = false) :
    ∃ q, quantizeBlock log10 (Encoder.new bl fs maxChannels) block_dwt SMR bandenergy B = some q ∧
      q.bitmax = findMaxInt q.bitalloc ∧
      (∀ b, q.bitalloc.getD b 0 ≤ q.bitmax) ∧
      (q.bitmax ≤ 30 →
      (∀ i, (q.block_intquant.getD i 0).natAbs < 2 ^ q.bitmax ∧
        (q.block_intquant.getD i 0).natAbs < 2 ^ (q.bitmax + 1)) ∧
      ∀ b, b < (Encoder.new bl fs maxChannels).l_book →
        (allocDepths log10 (Encoder.new bl fs maxChannels) block_dwt SMR bandenergy q.qwavmax B B
          (allocInit (Encoder.new bl fs maxChannels) block_dwt)
          (List.replicate (Encoder.new bl fs maxChannels).l_book 0)).getD b 0
            ≤ q.bitalloc.getD b 0 ∧
        ∀ i, (Encoder.new bl fs maxChannels).book_cumulative.getD b 0 ≤ i →
          i < (Encoder.new bl fs maxChannels).book_cumulative.getD (b + 1) 0 →
          ∃ m : Int,
            m.natAbs ≤ 2 ^ (allocDepths log10 (Encoder.new bl fs maxChannels) block_dwt SMR
              bandenergy q.qwavmax B B (allocInit (Encoder.new bl fs maxChannels) block_dwt)
              (List.replicate (Encoder.new bl fs maxChannels).l_book 0)).getD b 0 - 1 ∧
            q.block_intquant.getD i 0 =
              m * 2 ^ (q.bitmax - (allocDepths log10 (Encoder.new bl fs maxChannels) block_dwt SMR
                bandenergy q.qwavmax B B (allocInit (Encoder.new bl fs maxChannels) block_dwt)
                (List.replicate (Encoder.new bl fs maxChannels).l_book 0)).getD b 0)) := by
  have hpos := findMax_pos block_dwt bl hz
  obtain ⟨-, -, hqw, -⟩ := maximumWaveletCoefficient_spec block_dwt hpos
  have hb : 0 < (Encoder.new bl fs maxChannels).l_book := Nat.succ_pos _
  obtain ⟨s, h1, h2⟩ := quantizeBlock_eq log10 (Encoder.new bl fs maxChannels) block_dwt SMR
    bandenergy B
  refine ⟨_, h2, rfl, fun b => findMaxInt_ge s.bitalloc b, ?_⟩
  intro h30
  have h30' : findMaxInt s.bitalloc ≤ 30 := h30
  have hinv := allocLoop_depthInv log10 (Encoder.new bl fs maxChannels) block_dwt SMR bandenergy
    (maximumWaveletCoefficient block_dwt).qwavmax B hb (bookOK_new bl fs maxChannels) hqw B _ s _
    (depthInv_init _ _ block_dwt) h1 (fun b => le_trans (findMaxInt_ge _ b) h30')
  obtain ⟨g1, g2, g3⟩ := quantizeBlock_grid log10 (Encoder.new bl fs maxChannels) block_dwt SMR
    bandenergy B _ hpos h2 h30
  have hf0 : (fun v : K => cround (v * (((shlInt 1 (findMaxInt s.bitalloc) : Int) : K) /
      (maximumWaveletCoefficient block_dwt).qwavmax))) 0 = 0 := by
    show cround _ = 0
    rw [zero_mul]
    have := cround_intCast (K := K) 0
    simpa using this
  have hget : ∀ i, (s.block_dwt_quant.map (fun v : K =>
      cround (v * (((shlInt 1 (findMaxInt s.bitalloc) : Int) : K) /
        (maximumWaveletCoefficient block_dwt).qwavmax)))).getD i 0 =
      cround (s.block_dwt_quant.getD i 0 * (((1 <<< findMaxInt s.bitalloc : Nat) : K) /
        (maximumWaveletCoefficient block_dwt).qwavmax)) := fun i => by
    rw [getD_map_zero _ hf0 _ i, shlInt_cast _ h30']
  refine ⟨?_, ?_⟩
  · intro i
    have hlt : ((s.block_dwt_quant.map (fun v : K =>
        cround (v * (((shlInt 1 (findMaxInt s.bitalloc) : Int) : K) /
          (maximumWaveletCoefficient block_dwt).qwavmax)))).getD i 0).natAbs
        < 2 ^ findMaxInt s.bitalloc := by
      rw [hget i]
      exact (intquant_spec _ _ _ hqw (g2 i)).1
    refine ⟨hlt, lt_trans hlt ?_⟩
    exact Nat.pow_lt_pow_right (by decide) (Nat.lt_succ_self _)
  · intro b hbl
    obtain ⟨d1, d2⟩ := hinv.2 b hbl
    refine ⟨d1, ?_⟩
    intro i hi1 hi2
    obtain ⟨m, m1, m2⟩ := d2 i hi1 hi2
    refine ⟨m, Nat.le_sub_one_of_lt m1, ?_⟩
    show (s.block_dwt_quant.map _).getD i 0 = _
    rw [hget i, m2]
    exact cround_scaled _ m _ _ hqw (le_trans d1 (findMaxInt_ge s.bitalloc b))

/-- C20 (evaluation at a failing input): `BL = 32`, the wavelet block
`offGridBlock` (`0.5` at index 0, `0.25` at index 16, else 0), `SMR = 0`,
`bandenergy = 1` and the budget 60 (`15 * (L + 1)`).  Band 3 is quantised once,
with one bit, and has no noise from then on, bands 1 and 2 never have noise;
band 0 reaches `MAX_BITS`, every `MNR` is infinite, `findMinInd` keeps
selecting band 0 (the defect of C19), and the loop ends with `bitalloc = [45,
0, 0, 15]`, `bitmax = 45`.  The 32-bit `int` shift `1 << 45` is `1 << 13 =
8192`, so `block_intquant[16] = round(0.25 * 8192 / 0.5) = 4096` (and
`block_intquant[0] = 8191`), where the claim has `m * 2^(45 - 1)` with
`|m| <= 1` for band 3, last quantised at depth 1. -/
theorem C20_intquant_off_grid :
    checkZeros offGridBlock 32 = false ∧
    (quantizeBlock (fun x => x) (Encoder.new 32 8000 8) offGridBlock [0, 0, 0, 0] [1, 1, 1, 1]
        60).map (fun q => (q.bitalloc, q.bitmax, q.block_intquant.getD 0 0,
          q.block_intquant.getD 16 0))
      = some ([45, 0, 0, 15], 45, 8191, 4096) ∧
    allocDepths (fun x => x) (Encoder.new 32 8000 8) offGridBlock [0, 0, 0, 0] [1, 1, 1, 1]
        (maximumWaveletCoefficient offGridBlock).qwavmax 60 60
        (allocInit (Encoder.new 32 8000 8) offGridBlock) (List.replicate 4 0) = [45, 0, 0, 1] ∧
    (Encoder.new 32 8000 8).book_cumulative = [0, 4, 8, 16, 32] ∧
    shlInt 1 45 = 8192 ∧
    ∀ m : Int, (4096 : Int) ≠ m * 2 ^ (45 - 1) := by
  refine ⟨by decide!, by decide!, by decide!, by decide, by decide, ?_⟩
  intro m h
  norm_num at h
  omega

/-- C19 (evaluation at a failing input): for `BL = 32` (`L = 3`), the wavelet
block `[0.5, 0, ..., 0]`, `SMR = [0, 0, 0, 0]`, `bandenergy = [1, 1, 1, 1]` and
budget 16 (at most `15 * (L + 1) = 60`): after 15 passes of the allocation loop
`bitalloc = [15, 0, 0, 0]` and `findMinInd` again selects band 0, which has
reached `MAX_BITS`; the 16th pass increments it, and the loop ends with
`bitalloc = [16, 0, 0, 0]`, sum 16, so band 0 holds more than `MAX_BITS` bits. -/
theorem C19_band_exceeds_MAX_BITS :
    (allocLoop (fun x => x) (Encoder.new 32 8000 8) peakBlock [0, 0, 0, 0] [1, 1, 1, 1]
        (maximumWaveletCoefficient peakBlock).qwavmax 15 15
        (allocInit (Encoder.new 32 8000 8) peakBlock)).map (fun s =>
          (s.bitalloc, s.bitalloc_sum,
            allocIndex (fun x => x) (Encoder.new 32 8000 8) [0, 0, 0, 0] [1, 1, 1, 1] s))
      = some ([15, 0, 0, 0], 15, 0) ∧
    (allocLoop (fun x => x) (Encoder.new 32 8000 8) peakBlock [0, 0, 0, 0] [1, 1, 1, 1]
        (maximumWaveletCoefficient peakBlock).qwavmax 16 16
        (allocInit (Encoder.new 32 8000 8) peakBlock)).map (fun s =>
          (s.bitalloc, s.bitalloc_sum))
      = some ([16, 0, 0, 0], 16) ∧
    (quantizeBlock (fun x => x) (Encoder.new 32 8000 8) peakBlock [0, 0, 0, 0] [1, 1, 1, 1]
        16).map (fun q => (q.bitalloc, decide (q.bitalloc.getD 0 0 ≤ MAX_BITS)))
      = some ([16, 0, 0, 0], false) ∧
    checkZeros peakBlock 32 = false ∧ 16 ≤ MAX_BITS * ((Encoder.new 32 8000 8).dwtlevel + 1) := by
  refine ⟨?_, ?_, ?_, ?_, ?_⟩
  · decide!
  · decide!
  · decide!
  · decide!
  · decide

/-- One `decode` call keeps the decoder's range valid and leaves the rescaling
loop by `break` (the range is `Normalized`), whatever the bits of the stream. -/
theorem ArithDec_decode_ok (d : ArithDec) (c : Nat) (hc : c < CONTEXTS) (h : DecOK d) :
    DecOK (ArithDec_decode d c).2 := by
  obtain ⟨h1, h2, h3, h4⟩ := h
  have hsplit := splitRange_inRange d.cnt c d.range_lower d.range_upper
    (!(decide (d.in_leading - d.range_lower < rangeAdd d.cnt c d.range_diff))) h3 hc h1 h2
  rw [← h4] at hsplit
  set d1 : ArithDec :=
    if d.in_leading - d.range_lower < rangeAdd d.cnt c d.range_diff
    then { d with range_upper := d.range_lower + rangeAdd d.cnt c d.range_diff }
    else { d with range_lower := d.range_lower + rangeAdd d.cnt c d.range_diff } with hd1
  have hr1 : (d1.range_lower, d1.range_upper) =
      splitRange d.range_lower d.range_upper (rangeAdd d.cnt c d.range_diff)
        (!(decide (d.in_leading - d.range_lower < rangeAdd d.cnt c d.range_diff))) := by
    rw [hd1]
    unfold splitRange
    by_cases hv : d.in_leading - d.range_lower < rangeAdd d.cnt c d.range_diff
    · simp [hv]
    · simp [hv]
  have hin1 : InRange d1.range_lower d1.range_upper := by
    have e1 : d1.range_lower = (splitRange d.range_lower d.range_upper
        (rangeAdd d.cnt c d.range_diff)
        (!(decide (d.in_leading - d.range_lower < rangeAdd d.cnt c d.range_diff)))).1 := by
      rw [← hr1]
    have e2 : d1.range_upper = (splitRange d.range_lower d.range_upper
        (rangeAdd d.cnt c d.range_diff)
        (!(decide (d.in_leading - d.range_lower < rangeAdd d.cnt c d.range_diff)))).2 := by
      rw [← hr1]
    rw [e1, e2]; exact hsplit.1
  obtain ⟨s1, -, s3, -⟩ := decRenorm_spec RENORM_FUEL d1
  have hnorm := renormRange_normalized RENORM_FUEL d1.range_lower d1.range_upper hin1 (by
    have := hin1.2.1
    have h11 : (2 : Int) ^ RENORM_FUEL = 2048 := by decide
    rw [h11]; omega)
  rw [← s3] at hnorm
  have hres : (ArithDec_decode d c).2 =
      { decRenorm RENORM_FUEL d1 with
        range_diff := (decRenorm RENORM_FUEL d1).range_upper - (decRenorm RENORM_FUEL d1).range_lower
        cnt := updateCounter d.cnt c
          (!(decide (d.in_leading - d.range_lower < rangeAdd d.cnt c d.range_diff))) } := rfl
  rw [hres]
  exact ⟨hnorm.1, hnorm.2, updateCounter_ok d.cnt c _ h3 hc, rfl⟩

theorem decOK_init (cnt : Counters) (stream : List Bool) (pos len : Nat) (hk : CountersOK cnt) :
    DecOK (initDecoding cnt stream pos len) := by
  refine ⟨?_, ?_, hk, ?_⟩
  · show InRange 0 RANGE_MAX
    unfold InRange; decide
  · show Normalized 0 RANGE_MAX
    unfold Normalized; decide
  · show (RANGE_MAX : Int) = RANGE_MAX - 0
    simp

theorem decSetSign_keeps (P : ArithDec → Prop)
    (hP : ∀ d c, c < CONTEXTS → P d → P (ArithDec_decode d c).2)
    (compare index : Nat) (out : List Int) (d : ArithDec) (h : P d) :
    (decSetSign compare index out d).1.length = out.length ∧
    P (decSetSign compare index out d).2 := by
  unfold decSetSign
  exact ⟨by simp, hP d CONTEXT_SIGN (by decide) h⟩

theorem decSortLIP_keeps (P : ArithDec → Prop)
    (hP : ∀ d c, c < CONTEXTS → P d → P (ArithDec_decode d c).2)
    (compare : Nat) (l : List Nat) (st : SpihtDec) (h : P st.arith) :
    (decSortLIP compare l st).out.length = st.out.length ∧
    (decSortLIP compare l st).LIS = st.LIS ∧ P (decSortLIP compare l st).arith := by
  induction l generalizing st with
  | nil => exact ⟨rfl, rfl, h⟩
  | cons i rest ih =>
    have h0 := hP st.arith CONTEXT_SIGNIFICANCE_0 (by decide) h
    unfold decSortLIP
    simp only
    split_ifs with hb
    · obtain ⟨s1, s2⟩ := decSetSign_keeps P hP compare i st.out _ h0
      obtain ⟨r1, r2, r3⟩ := ih { st with
        out := (decSetSign compare i st.out (ArithDec_decode st.arith CONTEXT_SIGNIFICANCE_0).2).1
        arith := (decSetSign compare i st.out (ArithDec_decode st.arith CONTEXT_SIGNIFICANCE_0).2).2
        LSP := st.LSP ++ [i] } s2
      exact ⟨by rw [r1]; exact s1, r2, r3⟩
    · obtain ⟨r1, r2, r3⟩ := ih { st with
        arith := (ArithDec_decode st.arith CONTEXT_SIGNIFICANCE_0).2
        LIP := st.LIP ++ [i] } h0
      exact ⟨r1, r2, r3⟩

theorem decChild_keeps (P : ArithDec → Prop)
    (hP : ∀ d c, c < CONTEXTS → P d → P (ArithDec_decode d c).2)
    (compare index : Nat) (st : SpihtDec) (h : P st.arith) :
    (decChild compare index st).out.length = st.out.length ∧
    (decChild compare index st).LIS = st.LIS ∧ P (decChild compare index st).arith := by
  have h0 := hP st.arith CONTEXT_SIGNIFICANCE_2 (by decide) h
  unfold decChild
  simp only
  split_ifs with hb
  · obtain ⟨s1, s2⟩ := decSetSign_keeps P hP compare index st.out _ h0
    exact ⟨s1, rfl, s2⟩
  · exact ⟨rfl, rfl, h0⟩

theorem decRefinementPass_keeps (P : ArithDec → Prop)
    (hP : ∀ d c, c < CONTEXTS → P d → P (ArithDec_decode d c).2)
    (compare : Nat) (l : List Nat) (out : List Int) (d : ArithDec) (h : P d) :
    (decRefinementPass compare l out d).1.length = out.length ∧
    P (decRefinementPass compare l out d).2 := by
  induction l generalizing out d with
  | nil => exact ⟨rfl, h⟩
  | cons i rest ih =>
    have h0 := hP d CONTEXT_REFINEMENT (by decide) h
    unfold decRefinementPass
    simp only
    split_ifs with hb
    · obtain ⟨r1, r2⟩ := ih (out.set i (out.getD i 0 + sgn (out.getD i 0) * (compare : Int)))
        _ h0
      exact ⟨by rw [r1, List.length_set], r2⟩
    · exact ih out _ h0

theorem getBits_keeps (P : ArithDec → Prop)
    (hP : ∀ d c, c < CONTEXTS → P d → P (ArithDec_decode d c).2)
    (context : Nat) (hc : context < CONTEXTS) (k : Nat) (d : ArithDec) (h : P d) :
    P (getBits context k d).2 := by
  induction k generalizing d with
  | zero => exact h
  | succ n ih =>
    unfold getBits
    exact ih _ (hP d context hc h)

/-- The loop over the LIS of the decoder ends within its fuel, whatever bits
the arithmetic decoder delivers. -/
theorem decSortLIS_total (P : ArithDec → Prop)
    (hP : ∀ d c, c < CONTEXTS → P d → P (ArithDec_decode d c).2)
    (compare size fuel : Nat) (pending : List pixel) (st : SpihtDec)
    (h : DecInv P size pending st) (hf : lisWeightSum size pending ≤ (fuel : ℚ)) :
    ∃ st', decSortLIS compare fuel pending st = some st' ∧ DecInv P size [] st' := by
  induction fuel generalizing pending st with
  | zero =>
    cases pending with
    | nil =>
      refine ⟨st, by simp [decSortLIS], ?_⟩
      obtain ⟨a1, a2, -, a4, a5⟩ := h
      exact ⟨a1, a2, fun e he => by simp at he, by simpa using a4, a5⟩
    | cons p rest =>
      exfalso
      obtain ⟨-, -, a3, -, -⟩ := h
      rw [lisWeightSum_cons] at hf
      have w1 := lisWeight_ge_one size p (a3 p (by simp))
      have w2 := lisWeightSum_nonneg size rest (fun e he => a3 e (by simp [he]))
      have : ((0 : Nat) : ℚ) = 0 := by simp
      rw [this] at hf
      linarith
  | succ f ih =>
    cases pending with
    | nil =>
      refine ⟨st, by simp [decSortLIS], ?_⟩
      obtain ⟨a1, a2, -, a4, a5⟩ := h
      exact ⟨a1, a2, fun e he => by simp at he, by simpa using a4, a5⟩
    | cons p rest =>
      obtain ⟨a1, a2, a3, a4, a5⟩ := h
      have hp := a3 p (by simp)
      have hrest : ∀ e ∈ rest, ValidEntry size e := fun e he => a3 e (by simp [he])
      have w1 := lisWeight_ge_one size p hp
      rw [lisWeightSum_cons] at hf
      rw [lisWeightSum_append, lisWeightSum_cons] at a4
      have hfc : ((f + 1 : Nat) : ℚ) = (f : ℚ) + 1 := by push_cast; rfl
      rw [hfc] at hf
      unfold decSortLIS
      by_cases ht : p.type = 0
      · rw [if_pos ht]
        simp only
        have h1 := hP st.arith CONTEXT_SIGNIFICANCE_1 (by decide) a5
        by_cases hb : (ArithDec_decode st.arith CONTEXT_SIGNIFICANCE_1).1 = true
        · rw [if_pos hb]
          obtain ⟨c1, c2, c3⟩ := decChild_keeps P hP compare (2 * p.index)
            { st with arith := (ArithDec_decode st.arith CONTEXT_SIGNIFICANCE_1).2 } h1
          obtain ⟨e1, e2, e3⟩ := decChild_keeps P hP compare (2 * p.index + 1)
            (decChild compare (2 * p.index)
              { st with arith := (ArithDec_decode st.arith CONTEXT_SIGNIFICANCE_1).2 }) c3
          have hlenS : (decChild compare (2 * p.index + 1) (decChild compare (2 * p.index)
              { st with arith := (ArithDec_decode st.arith CONTEXT_SIGNIFICANCE_1).2 })).out.length
              = size := by rw [e1, c1]; exact a1
          have hLIS : (decChild compare (2 * p.index + 1) (decChild compare (2 * p.index)
              { st with arith := (ArithDec_decode st.arith CONTEXT_SIGNIFICANCE_1).2 })).LIS
              = st.LIS := by rw [e2, c2]
          by_cases hg : 4 * p.index + 3 < st.out.length
          · rw [if_pos hg]
            have hvB : ValidEntry size ⟨p.index, 1⟩ :=
              ⟨hp.1, Or.inr ⟨rfl, by rw [← a1]; exact hg⟩⟩
            have hwB : lisWeight size ⟨p.index, 1⟩ = lisWeight size p - 1 := by
              show 2 * (size : ℚ) / (p.index : ℚ) - (if (1 : Nat) = 0 then 2 else 3) =
                2 * (size : ℚ) / (p.index : ℚ) - (if p.type = 0 then 2 else 3) - 1
              rw [if_neg (by decide), if_pos ht]
              ring
            apply ih
            · refine ⟨hlenS, by rw [hLIS]; exact a2, ?_, ?_, e3⟩
              · intro e he
                rcases List.mem_append.1 he with he | he
                · exact hrest e he
                · simp only [List.mem_singleton] at he
                  rw [he]; exact hvB
              · rw [hLIS, lisWeightSum_append, lisWeightSum_append, lisWeightSum_cons,
                  lisWeightSum_nil, hwB]
                linarith
            · rw [lisWeightSum_append, lisWeightSum_cons, lisWeightSum_nil, hwB]
              linarith
          · rw [if_neg hg]
            apply ih
            · refine ⟨hlenS, by rw [hLIS]; exact a2, hrest, ?_, e3⟩
              rw [hLIS, lisWeightSum_append]
              linarith
            · linarith
        · rw [if_neg hb]
          apply ih
          · refine ⟨a1, ?_, hrest, ?_, h1⟩
            · intro e he
              rcases List.mem_append.1 he with he | he
              · exact a2 e he
              · simp only [List.mem_singleton] at he
                rw [he]; exact hp
            · show lisWeightSum size ((st.LIS ++ [p]) ++ rest) ≤ _
              rw [lisWeightSum_append, lisWeightSum_append, lisWeightSum_cons, lisWeightSum_nil]
              linarith
          · linarith
      · rw [if_neg ht]
        simp only
        have h3 := hP st.arith CONTEXT_SIGNIFICANCE_3 (by decide) a5
        have ht1 : p.type = 1 := by
          rcases hp.2 with ⟨t, -⟩ | ⟨t, -⟩
          · exact absurd t ht
          · exact t
        have hgB : 4 * p.index + 3 < size := by
          rcases hp.2 with ⟨t, -⟩ | ⟨-, g⟩
          · exact absurd t ht
          · exact g
        by_cases hb : (ArithDec_decode st.arith CONTEXT_SIGNIFICANCE_3).1 = true
        · rw [if_pos hb]
          have hpe : p = ⟨p.index, 1⟩ := by
            cases p with
            | mk idx ty => simp only at ht1; rw [ht1]
          have hsplit := lisWeight_split_B size p.index (by have := hp.1; omega)
          rw [← hpe] at hsplit
          have hv1 : ValidEntry size ⟨2 * p.index, 0⟩ :=
            ⟨by show 2 ≤ 2 * p.index; have := hp.1; omega,
              Or.inl ⟨rfl, by show 2 * (2 * p.index) + 1 < size; omega⟩⟩
          have hv2 : ValidEntry size ⟨2 * p.index + 1, 0⟩ :=
            ⟨by show 2 ≤ 2 * p.index + 1; have := hp.1; omega,
              Or.inl ⟨rfl, by show 2 * (2 * p.index + 1) + 1 < size; omega⟩⟩
          apply ih
          · refine ⟨a1, a2, ?_, ?_, h3⟩
            · intro e he
              rcases List.mem_append.1 he with he | he
              · exact hrest e he
              · simp only [List.mem_cons, List.mem_singleton, List.not_mem_nil, or_false] at he
                rcases he with he | he
                · rw [he]; exact hv1
                · rw [he]; exact hv2
            · show lisWeightSum size (st.LIS ++ (rest ++ [⟨2 * p.index, 0⟩, ⟨2 * p.index + 1, 0⟩]))
                ≤ _
              rw [lisWeightSum_append, lisWeightSum_append, lisWeightSum_cons, lisWeightSum_cons,
                lisWeightSum_nil]
              linarith
          · rw [lisWeightSum_append, lisWeightSum_cons, lisWeightSum_cons, lisWeightSum_nil]
            linarith
        · rw [if_neg hb]
          apply ih
          · refine ⟨a1, ?_, hrest, ?_, h3⟩
            · intro e he
              rcases List.mem_append.1 he with he | he
              · exact a2 e he
              · simp only [List.mem_singleton] at he
                rw [he]; exact hp
            · show lisWeightSum size ((st.LIS ++ [p]) ++ rest) ≤ _
              rw [lisWeightSum_append, lisWeightSum_append, lisWeightSum_cons, lisWeightSum_nil]
              linarith
          · linarith

theorem decSortingPass_total (P : ArithDec → Prop)
    (hP : ∀ d c, c < CONTEXTS → P d → P (ArithDec_decode d c).2)
    (compare size : Nat) (st : SpihtDec) (h : DecInv P size [] st) :
    ∃ st', decSortingPass compare st = some st' ∧ DecInv P size [] st' := by
  obtain ⟨a1, a2, -, a4, a5⟩ := h
  obtain ⟨r1, r2, r3⟩ := decSortLIP_keeps P hP compare st.LIP { st with LIP := [] } a5
  unfold decSortingPass
  simp only
  rw [a1]
  have hw : lisWeightSum size st.LIS ≤ (LIS_FUEL size : ℚ) := by
    rw [lisWeightSum_append, lisWeightSum_nil, add_zero] at a4
    exact a4
  apply decSortLIS_total P hP compare size (LIS_FUEL size)
  · refine ⟨by show (decSortLIP compare st.LIP { st with LIP := [] }).out.length = size
               rw [r1]; exact a1,
      fun e he => by simp at he, ?_, ?_, r3⟩
    · rw [r2]; exact a2
    · show lisWeightSum size ([] ++ (decSortLIP compare st.LIP { st with LIP := [] }).LIS) ≤ _
      rw [r2, List.nil_append]; exact hw
  · rw [r2]; exact hw

/-- The loop over the bit planes of the decoder ends, whatever bits the
arithmetic decoder delivers. -/
theorem decPlanes_total (P : ArithDec → Prop)
    (hP : ∀ d c, c < CONTEXTS → P d → P (ArithDec_decode d c).2)
    (size n : Nat) (st : SpihtDec) (h : DecInv P size [] st) :
    ∃ st', decPlanes n st = some st' ∧ st'.out.length = size ∧ P st'.arith := by
  induction n generalizing st with
  | zero =>
    obtain ⟨st1, e1, b1, b2, -, b4, b5⟩ := decSortingPass_total P hP (1 <<< 0) size st h
    obtain ⟨q1, q2⟩ := decRefinementPass_keeps P hP (1 <<< 0) (st1.LSP.take st.LSP.length)
      st1.out st1.arith b5
    rw [decPlanes_zero, e1]
    exact ⟨_, rfl, by show (decRefinementPass _ _ _ _).1.length = size; rw [q1, b1], q2⟩
  | succ k ih =>
    obtain ⟨st1, e1, b1, b2, b3, b4, b5⟩ := decSortingPass_total P hP (1 <<< (k + 1)) size st h
    obtain ⟨q1, q2⟩ := decRefinementPass_keeps P hP (1 <<< (k + 1))
      (st1.LSP.take st.LSP.length) st1.out st1.arith b5
    rw [decPlanes_succ, e1]
    exact ih _ ⟨by show (decRefinementPass _ _ _ _).1.length = size; rw [q1, b1], b2, b3, b4, q2⟩

/-- The decoder `SPIHT_Dec::decode` returns for every stream, every segment
of it and every counter state: `out` keeps its length, and a property of the
arithmetic decoder that `decode` keeps holds at the end (before the counters
are rescaled). -/
theorem SPIHT_Dec_decode_total {K : Type} [LinearOrderedField K] (P : ArithDec → Prop)
    (hP : ∀ d c, c < CONTEXTS → P d → P (ArithDec_decode d c).2)
    (BL : Nat) (hBL : BL ∈ [32, 64, 128, 256, 512]) (cnt : Counters) (stream : List Bool)
    (pos len : Nat) (out : List Int) (hout : out.length = BL)
    (h0 : P (initDecoding cnt stream pos len)) :
    ∃ (r : SpihtDecResult K) (a : ArithDec),
      SPIHT_Dec_decode cnt stream pos len out BL (ilog2 BL - 2) = some r ∧
      r.out.length = BL ∧ P a ∧ r.arith = { a with cnt := rescaleCounter a.cnt } := by
  have hsz : 16 ≤ BL := by
    simp only [List.mem_cons, List.mem_singleton, List.not_mem_nil, or_false] at hBL
    rcases hBL with h | h | h | h | h <;> omega
  have g1 := getBits_keeps P hP CONTEXT_SIDE (by decide) MAXALLOCBITS_SIZE _ h0
  have g2 := hP _ CONTEXT_SIDE (by decide) g1
  have g3 := getBits_keeps P hP CONTEXT_SIDE (by decide) (WAVMAXLENGTH - 1) _ g2
  have hpl := planeInv_init (List.replicate BL (0 : Int)) 0 [] [] (by simpa using hsz)
    (fun i _ => by
      rw [List.getD_eq_getElem?_getD, List.getElem?_replicate]
      split_ifs <;> simp)
  obtain ⟨⟨-, -, v3, -⟩, -, -, v4⟩ := hpl
  rw [List.length_replicate] at v3 v4
  have hlen : (List.replicate BL (0 : Int) ++ out.drop BL).length = BL := by
    rw [List.length_append, List.length_replicate, List.length_drop, hout]; omega
  unfold SPIHT_Dec_decode
  simp only
  rw [initLists_eq BL hBL]
  have hinv : DecInv P BL [] ⟨List.range 8, [], [⟨4, 0⟩, ⟨5, 0⟩, ⟨6, 0⟩, ⟨7, 0⟩],
      List.replicate BL 0 ++ out.drop BL,
      (getBits CONTEXT_SIDE (WAVMAXLENGTH - 1) (ArithDec_decode
        (getBits CONTEXT_SIDE MAXALLOCBITS_SIZE (initDecoding cnt stream pos len)).2
        CONTEXT_SIDE).2).2⟩ := by
    refine ⟨hlen, v3, ?_, ?_, g3⟩
    · intro e he
      exact absurd he (List.not_mem_nil e)
    · show lisWeightSum BL ([⟨4, 0⟩, ⟨5, 0⟩, ⟨6, 0⟩, ⟨7, 0⟩] ++ []) ≤ _
      rw [List.append_nil]; exact v4
  obtain ⟨st', e1, e2, e3⟩ := decPlanes_total P hP BL
    (bi2deVec (getBits CONTEXT_SIDE MAXALLOCBITS_SIZE (initDecoding cnt stream pos len)).1)
    _ hinv
  rw [e1]
  exact ⟨_, st'.arith, rfl, e2, e3, rfl⟩

/-- What `lengthEncoding` writes and keeps: the length field holds
`min(|blockstream|, 2^lengthbits - 1)` and the block stream is cut to that many
bits. -/
theorem lengthEncoding_min (lengthbits : Nat) (out p : List Bool) :
    (lengthEncoding lengthbits out p).1 =
      out ++ de2bi (min p.length (2 ^ lengthbits - 1)) [] lengthbits ∧
    (lengthEncoding lengthbits out p).2 = p.take (min p.length (2 ^ lengthbits - 1)) ∧
    (lengthEncoding lengthbits out p).2.length = min p.length (2 ^ lengthbits - 1) := by
  unfold lengthEncoding
  simp only
  split_ifs with h
  · have hm : min p.length (2 ^ lengthbits - 1) = 2 ^ lengthbits - 1 := by omega
    rw [hm, de2bi_append]
    exact ⟨rfl, rfl, by rw [List.length_take]; omega⟩
  · have hm : min p.length (2 ^ lengthbits - 1) = p.length := by omega
    rw [hm, de2bi_append, List.take_length]
    exact ⟨rfl, rfl, rfl⟩

/-- The decoder `losslessDecoding` returns on every stream whose length field
is followed by at least as many bits as the field says, and it has then erased
the field and exactly that many bits, whatever the SPIHT decoder read. -/
theorem losslessDecoding_total {K : Type} [LinearOrderedField K] (BL : Nat)
    (hBL : BL ∈ [32, 64, 128, 256, 512]) (lengthbits : Nat) (cnt : Counters)
    (hcnt : CountersOK cnt) (bits rest : List Bool) (n : Nat)
    (hfield : lengthDecoding lengthbits bits = some (n, rest)) (hn : n ≤ rest.length) :
    ∃ d : LosslessResult K,
      losslessDecoding BL (ilog2 BL - 2) lengthbits cnt bits = some d ∧
      d.bitstream = bits.drop (lengthbits + n) ∧ d.content = (if 0 < n then 1 else 0) ∧
      d.sig_intquant.length = BL ∧ CountersOK d.cnt := by
  have hrest : rest = bits.drop lengthbits := by
    unfold lengthDecoding at hfield
    cases hb : bi2de bits lengthbits 0 with
    | none => rw [hb] at hfield; simp at hfield
    | some v =>
      rw [hb] at hfield
      simp only [Option.map_some', Option.some.injEq, Prod.mk.injEq] at hfield
      exact hfield.2.symm
  unfold losslessDecoding
  rw [hfield]
  simp only
  by_cases h0 : n > 0
  · rw [if_pos h0, if_neg (by omega)]
    obtain ⟨r, a, e1, e2, e3, e4⟩ := @SPIHT_Dec_decode_total K _ DecOK ArithDec_decode_ok BL hBL
      cnt rest 0 n (List.replicate BL 0) (List.length_replicate _ _)
      (decOK_init cnt rest 0 n hcnt)
    rw [e1]
    refine ⟨_, rfl, ?_, by rw [if_pos h0], e2, ?_⟩
    · show rest.drop n = _
      rw [hrest, List.drop_drop, Nat.add_comm]
    · show CountersOK r.arith.cnt
      rw [e4]
      exact countersOK_rescale _ e3.2.2.1
  · rw [if_neg h0]
    have hn0 : n = 0 := by omega
    refine ⟨_, rfl, ?_, by rw [if_neg h0], List.length_replicate _ _, hcnt⟩
    show rest = _
    rw [hrest, hn0, Nat.add_zero]

/-- C12: for every payload, `Encoder::lengthEncoding` writes
`min(|payload|, 2^lengthbits - 1)` into the `lengthbits`-bit field and cuts the
payload to that many bits before it is appended to the stream; and
`Decoder::losslessDecoding`, on every stream whose field reads `n` with at
least `n` bits following, returns and has removed exactly `lengthbits + n` bits,
whatever SPIHT decodes from them; so after a block the encoder wrote (cut or
not) the decoder stands exactly at the bits that follow it, where the next
block-length code is. -/
theorem C12_length_field {K : Type} [LinearOrderedField K] (BL : Nat)
    (hBL : BL ∈ [32, 64, 128, 256, 512]) (lengthbits : Nat) (cnt : Counters)
    (hcnt : CountersOK cnt) (out payload next : List Bool) :
    ((lengthEncoding lengthbits out payload).1 =
        out ++ de2bi (min payload.length (2 ^ lengthbits - 1)) [] lengthbits ∧
      (lengthEncoding lengthbits out payload).2 =
        payload.take (min payload.length (2 ^ lengthbits - 1)) ∧
      (lengthEncoding lengthbits out payload).2.length =
        min payload.length (2 ^ lengthbits - 1)) ∧
    (∀ (bits rest : List Bool) (n : Nat),
      lengthDecoding lengthbits bits = some (n, rest) → n ≤ rest.length →
      ∃ d : LosslessResult K,
        losslessDecoding BL (ilog2 BL - 2) lengthbits cnt bits = some d ∧
        d.bitstream = bits.drop (lengthbits + n) ∧ CountersOK d.cnt) ∧
    ∃ d : LosslessResult K,
      losslessDecoding BL (ilog2 BL - 2) lengthbits cnt
        ((lengthEncoding lengthbits [] payload).1 ++ (lengthEncoding lengthbits [] payload).2
          ++ next) = some d ∧
      d.bitstream = next ∧ CountersOK d.cnt := by
  refine ⟨lengthEncoding_min lengthbits out payload, ?_, ?_⟩
  · intro bits rest n hf hn
    obtain ⟨d, d1, d2, -, -, d5⟩ := @losslessDecoding_total K _ BL hBL lengthbits cnt hcnt bits
      rest n hf hn
    exact ⟨d, d1, d2, d5⟩
  · obtain ⟨m1, m2, m3⟩ := lengthEncoding_min lengthbits [] payload
    have hp : 0 < 2 ^ lengthbits := Nat.two_pow_pos lengthbits
    have hlt : min payload.length (2 ^ lengthbits - 1) < 2 ^ lengthbits := by omega
    have hfield : lengthDecoding lengthbits
        ((lengthEncoding lengthbits [] payload).1 ++ (lengthEncoding lengthbits [] payload).2
          ++ next) = some (min payload.length (2 ^ lengthbits - 1),
            (lengthEncoding lengthbits [] payload).2 ++ next) := by
      rw [m1, List.nil_append, List.append_assoc]
      unfold lengthDecoding
      rw [bi2de_de2bi_aux _ _ _ _ (le_refl _), Nat.mod_eq_of_lt hlt]
      simp [List.drop_append_eq_append_drop, de2bi_length]
    obtain ⟨d, d1, d2, -, -, d5⟩ := @losslessDecoding_total K _ BL hBL lengthbits cnt hcnt _ _ _
      hfield (by rw [List.length_append, m3]; omega)
    refine ⟨d, d1, ?_, d5⟩
    rw [d2, m1, List.nil_append, List.append_assoc, List.drop_append_eq_append_drop,
      de2bi_length]
    have e1 : lengthbits + min payload.length (2 ^ lengthbits - 1) - lengthbits =
        min payload.length (2 ^ lengthbits - 1) := by omega
    rw [List.drop_of_length_le (by rw [de2bi_length]; omega), e1, List.nil_append,
      List.drop_append_eq_append_drop, m3, Nat.sub_self, List.drop_zero,
      List.drop_of_length_le (by rw [m3]), List.nil_append]

theorem C12_length_field_witness :
    (lengthEncoding 2 [] [true, false, true, true, false]).1 = [true, true] ∧
    (lengthEncoding 2 [] [true, false, true, true, false]).2 = [true, false, true] ∧
    ∃ d : LosslessResult ℚ,
      losslessDecoding 32 (ilog2 32 - 2) 2 resetCounter
        ((lengthEncoding 2 [] [true, false, true, true, false]).1 ++
          (lengthEncoding 2 [] [true, false, true, true, false]).2 ++ [false, true]) = some d ∧
      d.bitstream = [false, true] ∧ CountersOK d.cnt := by
  have h := @C12_length_field ℚ _ 32 (by decide) 2 resetCounter countersOK_reset []
    [true, false, true, true, false] [false, true]
  exact ⟨by decide, by decide, h.2.2⟩

/-- What `rescaleCounter` leaves in a context: `counter_total = RESIZE` and a
counter that is neither 0 nor `RESIZE`. -/
theorem rescaleCounter_entry (k : Counters) (hk : CountersOK k) (c : Nat) (hc : c < CONTEXTS) :
    (rescaleCounter k).counter_total.getD c 0 = RESIZE ∧
    (rescaleCounter k).counter.getD c 0 ≠ 0 ∧ (rescaleCounter k).counter.getD c 0 ≠ RESIZE := by
  have h := countersOK_rescale k hk
  obtain ⟨h1, h2, h3⟩ := hk
  obtain ⟨a1, a2⟩ := h.2.2 c hc
  have l2 : c < k.counter_total.length := by rw [h2]; exact hc
  have ht : (rescaleCounter k).counter_total.getD c 0 = RESIZE := by
    simp only [rescaleCounter, List.getD_eq_getElem?_getD, List.getElem?_map,
      List.getElem?_eq_getElem l2, Option.map_some', Option.getD_some]
  rw [ht] at a2
  exact ⟨ht, by omega, by omega⟩

/-- The counters of the encoder after a symbol and of the decoder after a
`decode` call are the updated counters. -/
theorem encodeSymbol_cnt (st : EncState) (b : Bool) (c : Nat) :
    (encodeSymbol st b c).cnt = updateCounter st.cnt c b := rfl

theorem ArithDec_decode_cnt (d : ArithDec) (c : Nat) :
    (ArithDec_decode d c).2.cnt = updateCounter d.cnt c (ArithDec_decode d c).1 := rfl

/-- C21: for each of the 7 contexts, `0 < counter[c] < counter_total[c]` holds
after `resetCounter` and is preserved by every per-bit counter update of
`ArithEnc::encode` and `ArithDec::decode` and by `rescaleCounter`; in
particular `rescaleCounter` never leaves `counter[c] = 0` or
`counter[c] = RESIZE`. -/
theorem C21_counter_invariant (k : Counters) (c : Nat) (b : Bool) (st : EncState)
    (d : ArithDec) (hc : c < CONTEXTS) :
    (∀ j, j < CONTEXTS → 0 < resetCounter.counter.getD j 0 ∧
      resetCounter.counter.getD j 0 < resetCounter.counter_total.getD j 0) ∧
    (CountersOK k → ∀ j, j < CONTEXTS → 0 < (updateCounter k c b).counter.getD j 0 ∧
      (updateCounter k c b).counter.getD j 0 < (updateCounter k c b).counter_total.getD j 0) ∧
    (CountersOK st.cnt → ∀ j, j < CONTEXTS → 0 < (encodeSymbol st b c).cnt.counter.getD j 0 ∧
      (encodeSymbol st b c).cnt.counter.getD j 0
        < (encodeSymbol st b c).cnt.counter_total.getD j 0) ∧
    (CountersOK d.cnt → ∀ j, j < CONTEXTS → 0 < (ArithDec_decode d c).2.cnt.counter.getD j 0 ∧
      (ArithDec_decode d c).2.cnt.counter.getD j 0
        < (ArithDec_decode d c).2.cnt.counter_total.getD j 0) ∧
    (CountersOK k → ∀ j, j < CONTEXTS →
      (0 < (rescaleCounter k).counter.getD j 0 ∧
        (rescaleCounter k).counter.getD j 0 < (rescaleCounter k).counter_total.getD j 0) ∧
      (rescaleCounter k).counter_total.getD j 0 = RESIZE ∧
      (rescaleCounter k).counter.getD j 0 ≠ 0 ∧ (rescaleCounter k).counter.getD j 0 ≠ RESIZE) := by
  refine ⟨countersOK_reset.2.2, fun hk => (updateCounter_ok k c b hk hc).2.2, ?_, ?_, ?_⟩
  · intro hk
    rw [encodeSymbol_cnt]
    exact (updateCounter_ok st.cnt c b hk hc).2.2
  · intro hk
    rw [ArithDec_decode_cnt]
    exact (updateCounter_ok d.cnt c _ hk hc).2.2
  · intro hk j hj
    exact ⟨(countersOK_rescale k hk).2.2 j hj, rescaleCounter_entry k hk j hj⟩

theorem C21_counter_invariant_witness :
    CountersOK ⟨[1, 31, 8, 8, 8, 8, 8], [40, 32, 16, 16, 16, 16, 16]⟩ ∧
    (rescaleCounter ⟨[1, 31, 8, 8, 8, 8, 8], [40, 32, 16, 16, 16, 16, 16]⟩).counter
      = [1, 31, 16, 16, 16, 16, 16] ∧
    (rescaleCounter ⟨[1, 31, 8, 8, 8, 8, 8], [40, 32, 16, 16, 16, 16, 16]⟩).counter.getD 0 0 ≠ 0 ∧
    (rescaleCounter ⟨[1, 31, 8, 8, 8, 8, 8], [40, 32, 16, 16, 16, 16, 16]⟩).counter.getD 1 0
      ≠ RESIZE := by
  have hk : CountersOK ⟨[1, 31, 8, 8, 8, 8, 8], [40, 32, 16, 16, 16, 16, 16]⟩ := by
    refine ⟨by decide, by decide, ?_⟩
    decide
  have h := C21_counter_invariant ⟨[1, 31, 8, 8, 8, 8, 8], [40, 32, 16, 16, 16, 16, 16]⟩ 0 true
    ⟨0, RANGE_MAX, 0, [], resetCounter⟩ (initDecoding resetCounter [] 0 0) (by decide)
  exact ⟨hk, by decide, (h.2.2.2.2 hk 0 (by decide)).2.2.1, (h.2.2.2.2 hk 1 (by decide)).2.2.2⟩

/-- A range on which no rescaling condition holds is left unchanged by the
rescaling loop of the encoder. -/
theorem encRenorm_stable (k : Nat) (st : EncState)
    (h : Normalized st.range_lower st.range_upper) : encRenorm k st = st := by
  cases k with
  | zero => rfl
  | succ n =>
    obtain ⟨n1, n2, n3⟩ := h
    unfold encRenorm
    rw [if_neg n1, if_neg n2, if_neg n3]

theorem encRenorm_add (f k : Nat) (st : EncState) :
    encRenorm (f + k) st = encRenorm k (encRenorm f st) := by
  induction f generalizing st with
  | zero => rw [Nat.zero_add]; rfl
  | succ n ih =>
    have e : n + 1 + k = (n + k) + 1 := by omega
    rw [e]
    by_cases c1 : st.range_upper ≤ HALF
    · rw [encRenorm, if_pos c1, ih]
      conv_rhs => rw [encRenorm, if_pos c1]
    · by_cases c2 : st.range_lower ≥ HALF
      · rw [encRenorm, if_neg c1, if_pos c2, ih]
        conv_rhs => rw [encRenorm, if_neg c1, if_pos c2]
      · by_cases c3 : st.range_lower ≥ FIRST_QTR ∧ st.range_upper ≤ THIRD_QTR
        · rw [encRenorm, if_neg c1, if_neg c2, if_pos c3, ih]
          conv_rhs => rw [encRenorm, if_neg c1, if_neg c2, if_pos c3]
        · rw [encRenorm, if_neg c1, if_neg c2, if_neg c3]
          conv_rhs => rw [encRenorm, if_neg c1, if_neg c2, if_neg c3]
          exact (encRenorm_stable k st ⟨c1, c2, c3⟩).symm

theorem decRenorm_stable (k : Nat) (d : ArithDec)
    (h : Normalized d.range_lower d.range_upper) : decRenorm k d = d := by
  cases k with
  | zero => rfl
  | succ n =>
    obtain ⟨n1, n2, n3⟩ := h
    unfold decRenorm
    rw [if_neg n1, if_neg n2, if_neg n3]

theorem decRenorm_add (f k : Nat) (d : ArithDec) :
    decRenorm (f + k) d = decRenorm k (decRenorm f d) := by
  induction f generalizing d with
  | zero => rw [Nat.zero_add]; rfl
  | succ n ih =>
    have e : n + 1 + k = (n + k) + 1 := by omega
    rw [e]
    by_cases c1 : d.range_upper ≤ HALF
    · rw [decRenorm, if_pos c1, ih]
      conv_rhs => rw [decRenorm, if_pos c1]
    · by_cases c2 : d.range_lower ≥ HALF
      · rw [decRenorm, if_neg c1, if_pos c2, ih]
        conv_rhs => rw [decRenorm, if_neg c1, if_pos c2]
      · by_cases c3 : d.range_lower ≥ FIRST_QTR ∧ d.range_upper ≤ THIRD_QTR
        · rw [decRenorm, if_neg c1, if_neg c2, if_pos c3, ih]
          conv_rhs => rw [decRenorm, if_neg c1, if_neg c2, if_pos c3]
        · rw [decRenorm, if_neg c1, if_neg c2, if_neg c3]
          conv_rhs => rw [decRenorm, if_neg c1, if_neg c2, if_neg c3]
          exact (decRenorm_stable k d ⟨c1, c2, c3⟩).symm

/-- The bounds that a valid range without rescaling condition satisfies. -/
theorem normalized_bounds (lo hi : Int) (hr : InRange lo hi) (hn : Normalized lo hi) :
    0 ≤ lo ∧ lo < HALF ∧ (HALF : Int) < hi ∧ hi ≤ RANGE_MAX ∧ hi - lo > FIRST_QTR := by
  obtain ⟨r1, r2, r3⟩ := hr
  obtain ⟨n1, n2, n3⟩ := hn
  simp only [HALF, FIRST_QTR, THIRD_QTR, RANGE_MAX, Nat.cast_ofNat] at n1 n2 n3 ⊢
  refine ⟨r1, by omega, by omega, r3, ?_⟩
  by_cases h : lo ≥ 256
  · have : ¬ hi ≤ 768 := fun hh => n3 ⟨h, hh⟩
    omega
  · omega

/-- The range and the counters of the encoder stay valid along the symbols of
a block. -/
theorem encodeLoop_range (s : List Bool) (ctx : List Nat) (st stF : EncState)
    (hr : InRange st.range_lower st.range_upper)
    (hn : Normalized st.range_lower st.range_upper) (hk : CountersOK st.cnt)
    (h : encodeLoop s ctx st = some stF) :
    InRange stF.range_lower stF.range_upper ∧ Normalized stF.range_lower stF.range_upper ∧
    CountersOK stF.cnt := by
  induction s generalizing ctx st with
  | nil =>
    simp only [encodeLoop, Option.some.injEq] at h
    subst h; exact ⟨hr, hn, hk⟩
  | cons b bs ih =>
    cases ctx with
    | nil => simp [encodeLoop] at h
    | cons c cs =>
      simp only [encodeLoop] at h
      split_ifs at h with hc
      obtain ⟨-, e2, e3, -, e5, -⟩ := encodeSymbol_spec st b c hr hn hk hc
      exact ih cs _ e2 e3 e5 h

/-- The state of the decoder stays valid along any sequence of `decode`
calls. -/
theorem decodeSeq_ok (cs : List Nat) (d : ArithDec) (hc : ∀ c ∈ cs, c < CONTEXTS)
    (h : DecOK d) : DecOK (decodeSeq cs d).2 := by
  induction cs generalizing d with
  | nil => exact h
  | cons c rest ih =>
    simp only [decodeSeq]
    exact ih _ (fun x hx => hc x (List.mem_cons_of_mem _ hx))
      (ArithDec_decode_ok d c (hc c (List.mem_cons_self _ _)) h)

/-- C29: after `ArithEnc::encode` has processed any symbol, and after the
corresponding `ArithDec::decode` call, the renormalised range satisfies
`0 <= range_lower < HALF < range_upper <= RANGE_MAX` and
`range_upper - range_lower > FIRST_QTR`; the renormalisation loop ends for
every symbol: after at most 11 rounds no rescaling condition holds, so further
rounds change nothing.  The hypotheses hold in the initial state of a block and
are preserved by every step. -/
theorem C29_range_invariant (st : EncState) (d : ArithDec) (b : Bool) (c : Nat)
    (hc : c < CONTEXTS) (hr : InRange st.range_lower st.range_upper)
    (hn : Normalized st.range_lower st.range_upper) (hk : CountersOK st.cnt) (hd : DecOK d) :
    (0 ≤ (encodeSymbol st b c).range_lower ∧ (encodeSymbol st b c).range_lower < HALF ∧
      (HALF : Int) < (encodeSymbol st b c).range_upper ∧
      (encodeSymbol st b c).range_upper ≤ RANGE_MAX ∧
      (encodeSymbol st b c).range_upper - (encodeSymbol st b c).range_lower > FIRST_QTR) ∧
    (∀ k : Nat,
      encRenorm (RENORM_FUEL + k)
        (if b then { st with range_lower := (st.range_lower +
            rangeAdd st.cnt c (st.range_upper - st.range_lower)) }
          else { st with range_upper := (st.range_lower +
            rangeAdd st.cnt c (st.range_upper - st.range_lower)) })
      = encRenorm RENORM_FUEL
        (if b then { st with range_lower := (st.range_lower +
            rangeAdd st.cnt c (st.range_upper - st.range_lower)) }
          else { st with range_upper := (st.range_lower +
            rangeAdd st.cnt c (st.range_upper - st.range_lower)) })) ∧
    (InRange (encodeSymbol st b c).range_lower (encodeSymbol st b c).range_upper ∧
      Normalized (encodeSymbol st b c).range_lower (encodeSymbol st b c).range_upper ∧
      CountersOK (encodeSymbol st b c).cnt) ∧
    (0 ≤ (ArithDec_decode d c).2.range_lower ∧ (ArithDec_decode d c).2.range_lower < HALF ∧
      (HALF : Int) < (ArithDec_decode d c).2.range_upper ∧
      (ArithDec_decode d c).2.range_upper ≤ RANGE_MAX ∧
      (ArithDec_decode d c).2.range_upper - (ArithDec_decode d c).2.range_lower > FIRST_QTR) ∧
    (∀ k : Nat,
      decRenorm (RENORM_FUEL + k)
        (if d.in_leading - d.range_lower < rangeAdd d.cnt c d.range_diff
          then { d with range_upper := d.range_lower + rangeAdd d.cnt c d.range_diff }
          else { d with range_lower := d.range_lower + rangeAdd d.cnt c d.range_diff })
      = decRenorm RENORM_FUEL
        (if d.in_leading - d.range_lower < rangeAdd d.cnt c d.range_diff
          then { d with range_upper := d.range_lower + rangeAdd d.cnt c d.range_diff }
          else { d with range_lower := d.range_lower + rangeAdd d.cnt c d.range_diff })) ∧
    DecOK (ArithDec_decode d c).2 := by
  obtain ⟨-, e2, e3, -, e5, -⟩ := encodeSymbol_spec st b c hr hn hk hc
  have hdec := ArithDec_decode_ok d c hc hd
  refine ⟨normalized_bounds _ _ e2 e3, ?_, ⟨e2, e3, e5⟩,
    normalized_bounds _ _ hdec.1 hdec.2.1, ?_, hdec⟩
  · intro k
    rw [encRenorm_add]
    apply encRenorm_stable
    apply encRenorm_exits
    have hs := (splitRange_inRange st.cnt c st.range_lower st.range_upper b hk hc hr hn).1
    unfold splitRange at hs
    cases b
    · simpa using hs
    · simpa using hs
  · intro k
    rw [decRenorm_add]
    apply decRenorm_stable
    apply decRenorm_exits
    obtain ⟨h1, h2, h3, h4⟩ := hd
    have hs := (splitRange_inRange d.cnt c d.range_lower d.range_upper
      (!(decide (d.in_leading - d.range_lower < rangeAdd d.cnt c d.range_diff))) h3 hc h1 h2).1
    rw [← h4] at hs
    unfold splitRange at hs
    by_cases hv : d.in_leading - d.range_lower < rangeAdd d.cnt c d.range_diff
    · simp only [hv, decide_True, Bool.not_true, if_true] at hs ⊢
      simpa using hs
    · simp only [hv, decide_False, Bool.not_false, if_false] at hs ⊢
      simpa using hs

theorem C29_range_invariant_witness :
    (InRange 0 (RANGE_MAX : Int) ∧ Normalized 0 (RANGE_MAX : Int) ∧ CountersOK resetCounter ∧
      DecOK (initDecoding resetCounter [true, false, true] 0 3)) ∧
    ((encodeSymbol ⟨0, RANGE_MAX, 0, [], resetCounter⟩ true 2).range_lower,
      (encodeSymbol ⟨0, RANGE_MAX, 0, [], resetCounter⟩ true 2).range_upper) = (0, 1024) ∧
    (0 ≤ (encodeSymbol ⟨0, RANGE_MAX, 0, [], resetCounter⟩ true 2).range_lower ∧
      (encodeSymbol ⟨0, RANGE_MAX, 0, [], resetCounter⟩ true 2).range_lower < HALF ∧
      (HALF : Int) < (encodeSymbol ⟨0, RANGE_MAX, 0, [], resetCounter⟩ true 2).range_upper ∧
      (encodeSymbol ⟨0, RANGE_MAX, 0, [], resetCounter⟩ true 2).range_upper ≤ RANGE_MAX ∧
      (encodeSymbol ⟨0, RANGE_MAX, 0, [], resetCounter⟩ true 2).range_upper -
        (encodeSymbol ⟨0, RANGE_MAX, 0, [], resetCounter⟩ true 2).range_lower > FIRST_QTR) := by
  have hd := decOK_init resetCounter [true, false, true] 0 3 countersOK_reset
  exact ⟨⟨inRange_init.1, inRange_init.2, countersOK_reset, hd⟩, by decide,
    (C29_range_invariant ⟨0, RANGE_MAX, 0, [], resetCounter⟩
      (initDecoding resetCounter [true, false, true] 0 3) true 2 (by decide)
      inRange_init.1 inRange_init.2 countersOK_reset hd).1⟩

/-- The probability `p` of `rangeAdd` is `RANGE_MAX * counter / counter_total`
rounded to the nearest integer, halves upward. -/
theorem rangeAdd_p (cn tn : Nat) (ht : 0 < tn) :
    (((2 * RANGE_MAX * cn + tn) / (2 * tn) : Nat) : Int) =
      ⌊((RANGE_MAX : ℚ) * cn / tn) + 1 / 2⌋ := by
  have e : ((RANGE_MAX : ℚ) * cn / tn) + 1 / 2 =
      ((2 * RANGE_MAX * cn + tn : Nat) : ℚ) / ((2 * tn : Nat) : ℚ) := by
    have : (tn : ℚ) ≠ 0 := by exact_mod_cast (by omega : tn ≠ 0)
    push_cast
    field_simp
    ring
  rw [e, Rat.floor_natCast_div_natCast]
  norm_cast

/-- The split value of `rangeAdd` in the words of the specification. -/
theorem rangeAdd_floor (k : Counters) (c : Nat) (diff : Int)
    (ht : 0 < k.counter_total.getD c 0) :
    rangeAdd k c diff =
      (if ⌊(diff : ℚ) * (⌊((RANGE_MAX : ℚ) * (k.counter.getD c 0 : ℚ) /
            (k.counter_total.getD c 0 : ℚ)) + 1 / 2⌋ : Int) / (RANGE_MAX : ℚ)⌋ = 0 then 1
       else if ⌊(diff : ℚ) * (⌊((RANGE_MAX : ℚ) * (k.counter.getD c 0 : ℚ) /
            (k.counter_total.getD c 0 : ℚ)) + 1 / 2⌋ : Int) / (RANGE_MAX : ℚ)⌋ = diff
         then diff - 1
       else ⌊(diff : ℚ) * (⌊((RANGE_MAX : ℚ) * (k.counter.getD c 0 : ℚ) /
            (k.counter_total.getD c 0 : ℚ)) + 1 / 2⌋ : Int) / (RANGE_MAX : ℚ)⌋) := by
  rw [← rangeAdd_p _ _ ht]
  have e : ⌊(diff : ℚ) * (((2 * RANGE_MAX * k.counter.getD c 0 + k.counter_total.getD c 0) /
      (2 * k.counter_total.getD c 0) : Nat) : Int) / (RANGE_MAX : ℚ)⌋ =
      diff * (((2 * RANGE_MAX * k.counter.getD c 0 + k.counter_total.getD c 0) /
        (2 * k.counter_total.getD c 0) : Nat) : Int) / (RANGE_MAX : Int) := by
    have := Rat.floor_intCast_div_natCast
      (diff * (((2 * RANGE_MAX * k.counter.getD c 0 + k.counter_total.getD c 0) /
        (2 * k.counter_total.getD c 0) : Nat) : Int)) RANGE_MAX
    rw [← this]
    push_cast
    rfl
  rw [e]
  rfl

/-- The decoded bit and the range of the decoder after a `decode` call, in
terms of the split value. -/
theorem ArithDec_decode_split (d : ArithDec) (c : Nat) :
    (ArithDec_decode d c).1 =
      !(decide (d.in_leading - d.range_lower < rangeAdd d.cnt c d.range_diff)) ∧
    ((ArithDec_decode d c).2.range_lower, (ArithDec_decode d c).2.range_upper) =
      renormRange RENORM_FUEL
        (splitRange d.range_lower d.range_upper (rangeAdd d.cnt c d.range_diff)
          (ArithDec_decode d c).1).1
        (splitRange d.range_lower d.range_upper (rangeAdd d.cnt c d.range_diff)
          (ArithDec_decode d c).1).2 := by
  refine ⟨rfl, ?_⟩
  set d1 : ArithDec :=
    if d.in_leading - d.range_lower < rangeAdd d.cnt c d.range_diff
    then { d with range_upper := d.range_lower + rangeAdd d.cnt c d.range_diff }
    else { d with range_lower := d.range_lower + rangeAdd d.cnt c d.range_diff } with hd1
  have hres : ((ArithDec_decode d c).2.range_lower, (ArithDec_decode d c).2.range_upper) =
      ((decRenorm RENORM_FUEL d1).range_lower, (decRenorm RENORM_FUEL d1).range_upper) := rfl
  have hb : (ArithDec_decode d c).1 =
      !(decide (d.in_leading - d.range_lower < rangeAdd d.cnt c d.range_diff)) := rfl
  rw [hres, (decRenorm_spec RENORM_FUEL d1).2.2.1, hb, hd1]
  unfold splitRange
  by_cases hv : d.in_leading - d.range_lower < rangeAdd d.cnt c d.range_diff
  · simp [hv]
  · simp [hv]

/-- C30: in every encoding and decoding step (counters with
`0 < counter < counter_total`, a valid range on which the rescaling loop has
stopped), with `p = round(RANGE_MAX * counter[c] / counter_total[c])`, the
split value is `floor((upper - lower) * p / RANGE_MAX)`, replaced by 1 when
that is 0 and by `upper - lower - 1` when it equals `upper - lower`; it
satisfies `1 <= add <= upper - lower - 1`, so that both sub-ranges
`[lower, lower+add)` and `[lower+add, upper)` are non-empty; the encoder splits
its range at this value, and a decoder in the same state (counters, range)
compares and splits at the same value. -/
theorem C30_split_value (st : EncState) (d : ArithDec) (b : Bool) (c : Nat)
    (hc : c < CONTEXTS) (hr : InRange st.range_lower st.range_upper)
    (hn : Normalized st.range_lower st.range_upper) (hk : CountersOK st.cnt)
    (hcnt : d.cnt = st.cnt) (hlo : d.range_lower = st.range_lower)
    (hhi : d.range_upper = st.range_upper)
    (hdiff : d.range_diff = d.range_upper - d.range_lower) :
    rangeAdd st.cnt c (st.range_upper - st.range_lower) =
      (if ⌊((st.range_upper - st.range_lower : Int) : ℚ) *
            (⌊((RANGE_MAX : ℚ) * (st.cnt.counter.getD c 0 : ℚ) /
              (st.cnt.counter_total.getD c 0 : ℚ)) + 1 / 2⌋ : Int) / (RANGE_MAX : ℚ)⌋ = 0 then 1
       else if ⌊((st.range_upper - st.range_lower : Int) : ℚ) *
            (⌊((RANGE_MAX : ℚ) * (st.cnt.counter.getD c 0 : ℚ) /
              (st.cnt.counter_total.getD c 0 : ℚ)) + 1 / 2⌋ : Int) / (RANGE_MAX : ℚ)⌋ =
            st.range_upper - st.range_lower
         then st.range_upper - st.range_lower - 1
       else ⌊((st.range_upper - st.range_lower : Int) : ℚ) *
            (⌊((RANGE_MAX : ℚ) * (st.cnt.counter.getD c 0 : ℚ) /
              (st.cnt.counter_total.getD c 0 : ℚ)) + 1 / 2⌋ : Int) / (RANGE_MAX : ℚ)⌋) ∧
    (1 ≤ rangeAdd st.cnt c (st.range_upper - st.range_lower) ∧
      rangeAdd st.cnt c (st.range_upper - st.range_lower)
        ≤ st.range_upper - st.range_lower - 1) ∧
    (st.range_lower < st.range_lower + rangeAdd st.cnt c (st.range_upper - st.range_lower) ∧
      st.range_lower + rangeAdd st.cnt c (st.range_upper - st.range_lower) < st.range_upper) ∧
    ((encodeSymbol st b c).range_lower, (encodeSymbol st b c).range_upper) =
      renormRange RENORM_FUEL
        (splitRange st.range_lower st.range_upper
          (rangeAdd st.cnt c (st.range_upper - st.range_lower)) b).1
        (splitRange st.range_lower st.range_upper
          (rangeAdd st.cnt c (st.range_upper - st.range_lower)) b).2 ∧
    rangeAdd d.cnt c d.range_diff = rangeAdd st.cnt c (st.range_upper - st.range_lower) ∧
    (ArithDec_decode d c).1 = !(decide (d.in_leading - st.range_lower <
      rangeAdd st.cnt c (st.range_upper - st.range_lower))) ∧
    ((ArithDec_decode d c).2.range_lower, (ArithDec_decode d c).2.range_upper) =
      renormRange RENORM_FUEL
        (splitRange st.range_lower st.range_upper
          (rangeAdd st.cnt c (st.range_upper - st.range_lower)) (ArithDec_decode d c).1).1
        (splitRange st.range_lower st.range_upper
          (rangeAdd st.cnt c (st.range_upper - st.range_lower)) (ArithDec_decode d c).1).2 := by
  have ht : 0 < st.cnt.counter_total.getD c 0 := by
    have := hk.2.2 c hc
    omega
  have hb := rangeAdd_bounds st.cnt c (st.range_upper - st.range_lower) hk hc
    (normalized_width _ _ hn)
  have hsame : rangeAdd d.cnt c d.range_diff =
      rangeAdd st.cnt c (st.range_upper - st.range_lower) := by
    rw [hdiff, hcnt, hlo, hhi]
  obtain ⟨s1, s2⟩ := ArithDec_decode_split d c
  rw [hsame, hlo] at s1
  rw [hsame, hlo, hhi] at s2
  exact ⟨rangeAdd_floor st.cnt c _ ht, hb, ⟨by omega, by omega⟩,
    (encodeSymbol_spec st b c hr hn hk hc).1, hsame, s1, s2⟩

theorem C30_split_value_witness :
    (InRange 0 (RANGE_MAX : Int) ∧ Normalized 0 (RANGE_MAX : Int) ∧ CountersOK resetCounter) ∧
    rangeAdd resetCounter 2 (RANGE_MAX - 0) = 512 ∧
    rangeAdd ⟨[1, 8, 8, 8, 8, 8, 8], [2000, 16, 16, 16, 16, 16, 16]⟩ 0 300 = 1 ∧
    (ArithDec_decode (initDecoding resetCounter [true, false, true] 0 3) 2).1 = true := by
  have h := C30_split_value ⟨0, RANGE_MAX, 0, [], resetCounter⟩
    (initDecoding resetCounter [true, false, true] 0 3) true 2 (by decide)
    inRange_init.1 inRange_init.2 countersOK_reset rfl rfl rfl rfl
  exact ⟨⟨inRange_init.1, inRange_init.2, countersOK_reset⟩, by decide, by decide,
    by rw [h.2.2.2.2.2.1]; decide⟩

theorem decSetSign_out (compare index : Nat) (out : List Int) (d : ArithDec)
    (hi : index < out.length) :
    (decSetSign compare index out d).1.length = out.length ∧
    ((decSetSign compare index out d).1.getD index 0).natAbs = compare ∧
    ∀ i, i ≠ index → (decSetSign compare index out d).1.getD i 0 = out.getD i 0 := by
  unfold decSetSign
  refine ⟨by simp, ?_, ?_⟩
  · simp only
    rw [getD_set_int _ _ _ _ hi, if_pos rfl]
    split_ifs <;> simp
  · intro i hne
    simp only
    rw [getD_set_int _ _ _ _ hi, if_neg hne]

/-- The decoder's test of one child: where the index goes, what happens to
`out`, and that the checked test agrees. -/
theorem decChild_part (compare index : Nat) (st : SpihtDec) (hi : index < st.out.length) :
    ∃ kept new : List Nat,
      (decChild compare index st).LIP = st.LIP ++ kept ∧
      (decChild compare index st).LSP = st.LSP ++ new ∧
      (decChild compare index st).LIS = st.LIS ∧
      (∀ i, kept.count i + new.count i = if i = index then 1 else 0) ∧
      (∀ i ∈ kept ++ new, i = index) ∧
      (decChild compare index st).out.length = st.out.length ∧
      (∀ i, i ∉ new → (decChild compare index st).out.getD i 0 = st.out.getD i 0) ∧
      (∀ i ∈ new, ((decChild compare index st).out.getD i 0).natAbs = compare) ∧
      decChildC compare index st = some (decChild compare index st) := by
  obtain ⟨s1, s2, s3⟩ := decSetSign_out compare index st.out
    (ArithDec_decode st.arith CONTEXT_SIGNIFICANCE_2).2 hi
  by_cases hb : (ArithDec_decode st.arith CONTEXT_SIGNIFICANCE_2).1 = true
  · refine ⟨[], [index], ?_, ?_, ?_, ?_, ?_, ?_, ?_, ?_, ?_⟩
    · simp [decChild, hb]
    · simp [decChild, hb]
    · simp [decChild, hb]
    · intro i
      by_cases e : i = index
      · subst e; simp
      · rw [if_neg e]; simp [List.count_cons, Ne.symm e]
    · intro i h; simpa using h
    · simp only [decChild, hb, if_true]; exact s1
    · intro i hni
      simp only [decChild, hb, if_true]
      exact s3 i (by simpa using hni)
    · intro i hmem
      simp only [List.mem_singleton] at hmem
      subst hmem
      simp only [decChild, hb, if_true]; exact s2
    · simp [decChildC, decChild, decSetSignC, hb, hi]
  · have hb' : (ArithDec_decode st.arith CONTEXT_SIGNIFICANCE_2).1 = false := by simpa using hb
    refine ⟨[index], [], ?_, ?_, ?_, ?_, ?_, ?_, ?_, ?_, ?_⟩
    · simp [decChild, hb']
    · simp [decChild, hb']
    · simp [decChild, hb']
    · intro i
      by_cases e : i = index
      · subst e; simp
      · rw [if_neg e]; simp [List.count_cons, Ne.symm e]
    · intro i h; simpa using h
    · simp [decChild, hb']
    · intro i _; simp [decChild, hb']
    · intro i hmem; simp at hmem
    · simp [decChildC, decChild, hb']

/-- The decoder's loop over the LIP: every index goes to the LIP or to the
LSP, `out` changes only at the indices that go to the LSP, and the checked
loop agrees. -/
theorem decSortLIP_part (compare : Nat) (todo : List Nat) (st : SpihtDec)
    (hi : ∀ i ∈ todo, i < st.out.length) :
    ∃ kept new : List Nat,
      (decSortLIP compare todo st).LIP = st.LIP ++ kept ∧
      (decSortLIP compare todo st).LSP = st.LSP ++ new ∧
      (decSortLIP compare todo st).LIS = st.LIS ∧
      (∀ i, kept.count i + new.count i = todo.count i) ∧
      (decSortLIP compare todo st).out.length = st.out.length ∧
      (∀ i, i ∉ new → (decSortLIP compare todo st).out.getD i 0 = st.out.getD i 0) ∧
      (∀ i ∈ new, ((decSortLIP compare todo st).out.getD i 0).natAbs = compare) ∧
      decSortLIPC compare todo st = some (decSortLIP compare todo st) := by
  induction todo generalizing st with
  | nil =>
    exact ⟨[], [], by simp [decSortLIP], by simp [decSortLIP], rfl, fun i => rfl, rfl,
      fun i _ => rfl, fun i h => by simp at h, rfl⟩
  | cons x rest ih =>
    have hx : x < st.out.length := hi x (List.mem_cons_self _ _)
    obtain ⟨s1, s2, s3⟩ := decSetSign_out compare x st.out
      (ArithDec_decode st.arith CONTEXT_SIGNIFICANCE_0).2 hx
    by_cases hb : (ArithDec_decode st.arith CONTEXT_SIGNIFICANCE_0).1 = true
    · obtain ⟨kept, new, a1, a2, a3, a4, a5, a6, a7, a8⟩ := ih { st with
        out := (decSetSign compare x st.out (ArithDec_decode st.arith CONTEXT_SIGNIFICANCE_0).2).1
        arith := (decSetSign compare x st.out (ArithDec_decode st.arith CONTEXT_SIGNIFICANCE_0).2).2
        LSP := st.LSP ++ [x] }
        (fun i hmem => by
          show i < (decSetSign compare x st.out _).1.length
          rw [s1]; exact hi i (List.mem_cons_of_mem _ hmem))
      have hd : decSortLIP compare (x :: rest) st = decSortLIP compare rest { st with
          out := (decSetSign compare x st.out
            (ArithDec_decode st.arith CONTEXT_SIGNIFICANCE_0).2).1
          arith := (decSetSign compare x st.out
            (ArithDec_decode st.arith CONTEXT_SIGNIFICANCE_0).2).2
          LSP := st.LSP ++ [x] } := by
        rw [decSortLIP]; simp only [hb, if_true]
      rw [hd]
      refine ⟨kept, x :: new, a1, by rw [a2]; simp, a3, ?_, by rw [a5]; exact s1, ?_, ?_, ?_⟩
      · intro i
        have := a4 i
        simp only [List.count_cons]
        omega
      · intro i hni
        simp only [List.mem_cons, not_or] at hni
        rw [a6 i hni.2]
        exact s3 i hni.1
      · intro i hmem
        by_cases hn : i ∈ new
        · exact a7 i hn
        · simp only [List.mem_cons] at hmem
          rcases hmem with hmem | hmem
          · rw [a6 i hn, hmem]; exact s2
          · exact absurd hmem hn
      · rw [decSortLIPC]
        simp only [hb, if_true, decSetSignC, if_pos hx]
        exact a8
    · have hb' : (ArithDec_decode st.arith CONTEXT_SIGNIFICANCE_0).1 = false := by simpa using hb
      obtain ⟨kept, new, a1, a2, a3, a4, a5, a6, a7, a8⟩ := ih { st with
        arith := (ArithDec_decode st.arith CONTEXT_SIGNIFICANCE_0).2
        LIP := st.LIP ++ [x] } (fun i hmem => hi i (List.mem_cons_of_mem _ hmem))
      have hd : decSortLIP compare (x :: rest) st = decSortLIP compare rest { st with
          arith := (ArithDec_decode st.arith CONTEXT_SIGNIFICANCE_0).2
          LIP := st.LIP ++ [x] } := by
        rw [decSortLIP]; simp only [hb', Bool.false_eq_true, if_false]
      rw [hd]
      refine ⟨x :: kept, new, by rw [a1]; simp, a2, a3, ?_, a5, a6, a7, ?_⟩
      · intro i
        have := a4 i
        simp only [List.count_cons]
        omega
      · rw [decSortLIPC]
        simp only [hb', Bool.false_eq_true, if_false]
        exact a8

/-- The decoder's loop over the LIS keeps the partition of the indices,
changes `out` only at the indices it adds to the LSP, and never leaves `out`,
whatever bits the arithmetic decoder delivers. -/
theorem decSortLIS_part (size compare : Nat) (old : List Nat) (out0 : List Int)
    (h4 : size % 4 = 0) (fuel : Nat) (pending : List pixel) (st st' : SpihtDec)
    (hinv : DecLISInv size compare old out0 pending st)
    (h : decSortLIS compare fuel pending st = some st') :
    DecLISInv size compare old out0 [] st' ∧
    decSortLISC compare fuel pending st = some st' := by
  induction fuel generalizing pending st with
  | zero =>
    cases pending with
    | nil =>
      simp only [decSortLIS, Option.some.injEq] at h
      subst h
      exact ⟨hinv, rfl⟩
    | cons p ps => simp [decSortLIS] at h
  | succ n ih =>
    cases pending with
    | nil =>
      simp only [decSortLIS, Option.some.injEq] at h
      subst h
      exact ⟨hinv, rfl⟩
    | cons p ps =>
      obtain ⟨hp, hlen, new, hnew1, hnew2, hnew3⟩ := hinv
      have hvalid := hp.2.2.1
      have hpv : ValidEntry size p := hvalid p (by simp)
      obtain ⟨y, t⟩ := p
      by_cases hA : t = 0
      · subst hA
        have hy2 : 2 * y + 1 < size := by
          rcases hpv.2 with ⟨-, g⟩ | ⟨g, -⟩
          · exact g
          · simp at g
        by_cases hs : (ArithDec_decode st.arith CONTEXT_SIGNIFICANCE_1).1 = true
        · set st1 : SpihtDec :=
            { st with arith := (ArithDec_decode st.arith CONTEXT_SIGNIFICANCE_1).2 } with hst1
          have hl1 : st1.out.length = size := by rw [hst1]; exact hlen
          have hlip1 : st1.LIP = st.LIP := by rw [hst1]
          have hlsp1 : st1.LSP = st.LSP := by rw [hst1]
          have hlis1 : st1.LIS = st.LIS := by rw [hst1]
          obtain ⟨k2, n2, a1, a2, a3, a4, a5, a6, a7, a8, a9⟩ :=
            decChild_part compare (2 * y) st1 (by rw [hl1]; omega)
          obtain ⟨k3, n3, b1, b2, b3, b4, b5, b6, b7, b8, b9⟩ :=
            decChild_part compare (2 * y + 1) (decChild compare (2 * y) st1)
              (by rw [a6, hl1]; omega)
          obtain ⟨st3, hst3⟩ : ∃ s : SpihtDec, s =
            decChild compare (2 * y + 1) (decChild compare (2 * y) st1) := ⟨_, rfl⟩
          rw [← hst3] at b1 b2 b3 b6 b7 b8 b9
          have e1 : st3.LIP = st.LIP ++ k2 ++ k3 := by rw [b1, a1, hlip1]
          have e2 : st3.LSP = st.LSP ++ n2 ++ n3 := by rw [b2, a2, hlsp1]
          have e3 : st3.LIS = st.LIS := by rw [b3, a3, hlis1]
          have e4 : st3.out.length = size := by rw [b6, a6]; exact hl1
          have eo1 : st1.out = st.out := by rw [hst1]
          have hpart := partInv_A_split size y st.LIP st.LSP k2 n2 k3 n3 st.LIS ps h4 hp
            a4 b4 a5 b5
          have hinv3 : DecLISInv size compare old out0
              (if 4 * y + 3 < size then ps ++ [⟨y, 1⟩] else ps) st3 := by
            refine ⟨by rw [e1, e2, e3]; exact hpart, e4, new ++ n2 ++ n3,
              by rw [e2, hnew1]; simp, ?_, ?_⟩
            · intro i hni
              simp only [List.mem_append, not_or] at hni
              rw [b7 i hni.2, a7 i hni.1.2, eo1]
              exact hnew2 i hni.1.1
            · intro i hmem
              by_cases h3 : i ∈ n3
              · exact b8 i h3
              · rw [b7 i h3]
                by_cases h2 : i ∈ n2
                · exact a8 i h2
                · rw [a7 i h2, eo1]
                  simp only [List.mem_append] at hmem
                  rcases hmem with (hmem | hmem) | hmem
                  · exact hnew3 i hmem
                  · exact absurd hmem h2
                  · exact absurd hmem h3
          have hd : decSortLIS compare (n + 1) (⟨y, 0⟩ :: ps) st =
              decSortLIS compare n (if 4 * y + 3 < size then ps ++ [⟨y, 1⟩] else ps) st3 := by
            rw [decSortLIS]
            simp only [if_true, hs, hlen]
            rw [← hst1, ← hst3]
            by_cases hc : 4 * y + 3 < size
            · rw [if_pos hc, if_pos hc]
            · rw [if_neg hc, if_neg hc]
          have hdc : decSortLISC compare (n + 1) (⟨y, 0⟩ :: ps) st =
              decSortLISC compare n (if 4 * y + 3 < size then ps ++ [⟨y, 1⟩] else ps) st3 := by
            rw [decSortLISC]
            simp only [if_true, hs, hlen]
            rw [← hst1, a9, Option.some_bind, b9, Option.some_bind]
            by_cases hc : 4 * y + 3 < size
            · rw [if_pos hc, if_pos hc]
            · rw [if_neg hc, if_neg hc]
          rw [hd] at h
          rw [hdc]
          exact ih _ st3 hinv3 h
        · have hs' : (ArithDec_decode st.arith CONTEXT_SIGNIFICANCE_1).1 = false := by
            simpa using hs
          have hd : decSortLIS compare (n + 1) (⟨y, 0⟩ :: ps) st =
              decSortLIS compare n ps { st with
                arith := (ArithDec_decode st.arith CONTEXT_SIGNIFICANCE_1).2
                LIS := st.LIS ++ [⟨y, 0⟩] } := by
            rw [decSortLIS]
            simp only [if_true, hs', Bool.false_eq_true, if_false]
          have hdc : decSortLISC compare (n + 1) (⟨y, 0⟩ :: ps) st =
              decSortLISC compare n ps { st with
                arith := (ArithDec_decode st.arith CONTEXT_SIGNIFICANCE_1).2
                LIS := st.LIS ++ [⟨y, 0⟩] } := by
            rw [decSortLISC]
            simp only [if_true, hs', Bool.false_eq_true, if_false]
          rw [hd] at h
          rw [hdc]
          exact ih ps _ ⟨by simpa using hp, hlen, new, hnew1, hnew2, hnew3⟩ h
      · have ht : t = 1 := by
          rcases hpv.2 with ⟨g, _⟩ | ⟨g, _⟩
          · exact absurd g hA
          · exact g
        subst ht
        by_cases hs : (ArithDec_decode st.arith CONTEXT_SIGNIFICANCE_3).1 = true
        · have hpart := partInv_B_split size y st.LIP st.LSP st.LIS ps hp
          have hd : decSortLIS compare (n + 1) (⟨y, 1⟩ :: ps) st =
              decSortLIS compare n (ps ++ [⟨2 * y, 0⟩, ⟨2 * y + 1, 0⟩]) { st with
                arith := (ArithDec_decode st.arith CONTEXT_SIGNIFICANCE_3).2 } := by
            rw [decSortLIS]
            simp only [if_neg (by decide : ¬ (1 : Nat) = 0), hs, if_true]
          have hdc : decSortLISC compare (n + 1) (⟨y, 1⟩ :: ps) st =
              decSortLISC compare n (ps ++ [⟨2 * y, 0⟩, ⟨2 * y + 1, 0⟩]) { st with
                arith := (ArithDec_decode st.arith CONTEXT_SIGNIFICANCE_3).2 } := by
            rw [decSortLISC]
            simp only [if_neg (by decide : ¬ (1 : Nat) = 0), hs, if_true]
          rw [hd] at h
          rw [hdc]
          exact ih _ _ ⟨hpart, hlen, new, hnew1, hnew2, hnew3⟩ h
        · have hs' : (ArithDec_decode st.arith CONTEXT_SIGNIFICANCE_3).1 = false := by
            simpa using hs
          have hd : decSortLIS compare (n + 1) (⟨y, 1⟩ :: ps) st =
              decSortLIS compare n ps { st with
                arith := (ArithDec_decode st.arith CONTEXT_SIGNIFICANCE_3).2
                LIS := st.LIS ++ [⟨y, 1⟩] } := by
            rw [decSortLIS]
            simp only [if_neg (by decide : ¬ (1 : Nat) = 0), hs', Bool.false_eq_true, if_false]
          have hdc : decSortLISC compare (n + 1) (⟨y, 1⟩ :: ps) st =
              decSortLISC compare n ps { st with
                arith := (ArithDec_decode st.arith CONTEXT_SIGNIFICANCE_3).2
                LIS := st.LIS ++ [⟨y, 1⟩] } := by
            rw [decSortLISC]
            simp only [if_neg (by decide : ¬ (1 : Nat) = 0), hs', Bool.false_eq_true, if_false]
          rw [hd] at h
          rw [hdc]
          exact ih ps _ ⟨by simpa using hp, hlen, new, hnew1, hnew2, hnew3⟩ h

/-- One sorting pass of the decoder, on whatever bits: the lists keep
partitioning the indices, the LSP grows by indices `new` at which `out` now
holds `compare` or `-compare`, `out` is unchanged elsewhere, and no access
leaves `out`. -/
theorem decSortingPass_part (size compare : Nat) (h4 : size % 4 = 0) (st st1 : SpihtDec)
    (hp : PartInv size st.LIP st.LSP st.LIS) (hlen : st.out.length = size)
    (h : decSortingPass compare st = some st1) :
    PartInv size st1.LIP st1.LSP st1.LIS ∧ st1.out.length = size ∧
    (∃ new, st1.LSP = st.LSP ++ new ∧
      (∀ i, i ∉ new → st1.out.getD i 0 = st.out.getD i 0) ∧
      ∀ i ∈ new, (st1.out.getD i 0).natAbs = compare) ∧
    decSortingPassC compare st = some st1 := by
  obtain ⟨p1, p2, p3, p4⟩ := hp
  obtain ⟨kept, new, a1, a2, a3, a4, a5, a6, a7, a8⟩ :=
    decSortLIP_part compare st.LIP { st with LIP := [] }
      (fun i hi => by show i < st.out.length; rw [hlen]; exact p1 i hi)
  obtain ⟨s1, hs1⟩ : ∃ s : SpihtDec, s = decSortLIP compare st.LIP { st with LIP := [] } :=
    ⟨_, rfl⟩
  rw [← hs1] at a1 a2 a3 a5 a6 a7 a8
  have a1' : s1.LIP = kept := by rw [a1]; rfl
  have a2' : s1.LSP = st.LSP ++ new := a2
  have a3' : s1.LIS = st.LIS := a3
  have a5' : s1.out.length = size := by rw [a5]; exact hlen
  have hmemk : ∀ i ∈ kept, i ∈ st.LIP := by
    intro i hi
    have := a4 i
    have : 0 < st.LIP.count i := by
      have := List.count_pos_iff.2 hi
      omega
    exact List.count_pos_iff.1 this
  have hmemn : ∀ i ∈ new, i ∈ st.LIP := by
    intro i hi
    have := a4 i
    have : 0 < st.LIP.count i := by
      have := List.count_pos_iff.2 hi
      omega
    exact List.count_pos_iff.1 this
  have hinv1 : DecLISInv size compare st.LSP st.out s1.LIS { s1 with LIS := [] } := by
    refine ⟨⟨?_, ?_, ?_, ?_⟩, a5', new, a2', a6, a7⟩
    · intro i hi
      exact p1 i (hmemk i (by rw [a1'] at hi; exact hi))
    · intro i hi
      have hi' : i ∈ st.LSP ++ new := by rw [← a2']; exact hi
      rcases List.mem_append.1 hi' with g | g
      · exact p2 i g
      · exact p1 i (hmemn i g)
    · intro e he
      have he' : e ∈ st.LIS := by
        rw [← a3']
        simpa using he
      exact p3 e he'
    · intro i hi
      show s1.LIP.count i + s1.LSP.count i + coverCount ([] ++ s1.LIS) i = 1
      rw [a1', a2', a3', List.nil_append, List.count_append]
      have := p4 i hi
      have := a4 i
      omega
  have hd : decSortingPass compare st =
      decSortLIS compare (LIS_FUEL size) s1.LIS { s1 with LIS := [] } := by
    unfold decSortingPass
    simp only
    rw [← hs1, hlen]
  have hdc : decSortingPassC compare st =
      decSortLISC compare (LIS_FUEL size) s1.LIS { s1 with LIS := [] } := by
    unfold decSortingPassC
    rw [a8]
    simp only
    rw [hlen]
  rw [hd] at h
  obtain ⟨⟨q, ql, n2, qn1, qn2, qn3⟩, qc⟩ :=
    decSortLIS_part size compare st.LSP st.out h4 (LIS_FUEL size) s1.LIS _ st1 hinv1 h
  rw [List.append_nil] at q
  exact ⟨q, ql, ⟨n2, qn1, qn2, qn3⟩, by rw [hdc]; exact qc⟩

theorem sgn_natAbs_le (v : Int) (c : Nat) :
    (v + sgn v * (c : Int)).natAbs ≤ v.natAbs + c := by
  unfold sgn
  split_ifs <;> omega

/-- The refinement pass of the decoder over a duplicate–free list of indices
inside `out`: each listed entry moves by at most `compare`, the others do not
move, and no access leaves `out`. -/
theorem decRefinementPass_bound (compare : Nat) (old : List Nat) (out : List Int)
    (d : ArithDec) (hnd : old.Nodup) (hlt : ∀ i ∈ old, i < out.length) :
    (decRefinementPass compare old out d).1.length = out.length ∧
    (∀ i, i ∉ old → (decRefinementPass compare old out d).1.getD i 0 = out.getD i 0) ∧
    (∀ i ∈ old, ((decRefinementPass compare old out d).1.getD i 0).natAbs
      ≤ (out.getD i 0).natAbs + compare) ∧
    decRefinementPassC compare old out d = some (decRefinementPass compare old out d) := by
  induction old generalizing out d with
  | nil => exact ⟨rfl, fun _ _ => rfl, fun i hi => by simp at hi, rfl⟩
  | cons x rest ih =>
    have hx : x < out.length := hlt x (List.mem_cons_self _ _)
    have hxr : x ∉ rest := (List.nodup_cons.1 hnd).1
    have hndr : rest.Nodup := (List.nodup_cons.1 hnd).2
    by_cases hb : (ArithDec_decode d CONTEXT_REFINEMENT).1 = true
    · obtain ⟨b1, b2, b3, b4⟩ := ih
        (out.set x (out.getD x 0 + sgn (out.getD x 0) * (compare : Int)))
        (ArithDec_decode d CONTEXT_REFINEMENT).2 hndr
        (fun i hi => by rw [List.length_set]; exact hlt i (List.mem_cons_of_mem _ hi))
      have hd : decRefinementPass compare (x :: rest) out d =
          decRefinementPass compare rest
            (out.set x (out.getD x 0 + sgn (out.getD x 0) * (compare : Int)))
            (ArithDec_decode d CONTEXT_REFINEMENT).2 := by
        rw [decRefinementPass]; simp only [hb, if_true]
      have hdc : decRefinementPassC compare (x :: rest) out d =
          decRefinementPassC compare rest
            (out.set x (out.getD x 0 + sgn (out.getD x 0) * (compare : Int)))
            (ArithDec_decode d CONTEXT_REFINEMENT).2 := by
        rw [decRefinementPassC]; simp only [hb, if_true, hx]
      rw [hd, hdc]
      refine ⟨by rw [b1, List.length_set], ?_, ?_, b4⟩
      · intro i hi
        simp only [List.mem_cons, not_or] at hi
        rw [b2 i hi.2, getD_set_int _ _ _ _ hx, if_neg hi.1]
      · intro i hi
        rcases List.mem_cons.1 hi with g | g
        · subst g
          rw [b2 i hxr, getD_set_int _ _ _ _ hx, if_pos rfl]
          exact sgn_natAbs_le _ _
        · have hne : i ≠ x := fun e => hxr (e ▸ g)
          have := b3 i g
          rw [getD_set_int _ _ _ _ hx, if_neg hne] at this
          exact this
    · have hb' : (ArithDec_decode d CONTEXT_REFINEMENT).1 = false := by simpa using hb
      obtain ⟨b1, b2, b3, b4⟩ := ih out (ArithDec_decode d CONTEXT_REFINEMENT).2 hndr
        (fun i hi => hlt i (List.mem_cons_of_mem _ hi))
      have hd : decRefinementPass compare (x :: rest) out d =
          decRefinementPass compare rest out (ArithDec_decode d CONTEXT_REFINEMENT).2 := by
        rw [decRefinementPass]; simp only [hb', Bool.false_eq_true, if_false]
      have hdc : decRefinementPassC compare (x :: rest) out d =
          decRefinementPassC compare rest out (ArithDec_decode d CONTEXT_REFINEMENT).2 := by
        rw [decRefinementPassC]; simp only [hb', Bool.false_eq_true, if_false]
      rw [hd, hdc]
      refine ⟨b1, ?_, ?_, b4⟩
      · intro i hi
        simp only [List.mem_cons, not_or] at hi
        exact b2 i hi.2
      · intro i hi
        rcases List.mem_cons.1 hi with g | g
        · subst g
          rw [b2 i hxr]
          omega
        · exact b3 i g

theorem decTrace_zero (sd : SpihtDec) :
    decTrace 0 sd =
      (decSortingPass (1 <<< 0) sd).map (fun st1 =>
        [{ st1 with
          out := (decRefinementPass (1 <<< 0) (st1.LSP.take sd.LSP.length) st1.out st1.arith).1
          arith := (decRefinementPass (1 <<< 0) (st1.LSP.take sd.LSP.length) st1.out st1.arith).2 }]) := by
  rw [decTrace]
  cases decSortingPass (1 <<< 0) sd <;> rfl

theorem decTrace_succ (k : Nat) (sd : SpihtDec) :
    decTrace (k + 1) sd =
      (decSortingPass (1 <<< (k + 1)) sd).bind (fun st1 =>
        (decTrace k { st1 with
          out := (decRefinementPass (1 <<< (k + 1)) (st1.LSP.take sd.LSP.length) st1.out st1.arith).1
          arith := (decRefinementPass (1 <<< (k + 1)) (st1.LSP.take sd.LSP.length) st1.out st1.arith).2 }).map
          (fun l => { st1 with
          out := (decRefinementPass (1 <<< (k + 1)) (st1.LSP.take sd.LSP.length) st1.out st1.arith).1
          arith := (decRefinementPass (1 <<< (k + 1)) (st1.LSP.take sd.LSP.length) st1.out st1.arith).2 } :: l)) := by
  rw [decTrace]
  cases decSortingPass (1 <<< (k + 1)) sd <;> rfl

/-- One bit plane of the decoder, on whatever bits: partition, the bound on
the magnitudes for the next plane, zeros outside the LSP, and no access
outside `out`. -/
theorem decPlane_part (size N n : Nat) (h4 : size % 4 = 0) (hn : n ≤ N) (st st1 : SpihtDec)
    (hp : PartInv size st.LIP st.LSP st.LIS) (hlen : st.out.length = size)
    (hb : ∀ i, (st.out.getD i 0).natAbs + 2 ^ (n + 1) ≤ 2 ^ (N + 1))
    (hz : ∀ i, i ∉ st.LSP → st.out.getD i 0 = 0)
    (h1 : decSortingPass (1 <<< n) st = some st1) :
    PartInv size st1.LIP st1.LSP st1.LIS ∧
    (decRefinementPass (1 <<< n) (st1.LSP.take st.LSP.length) st1.out st1.arith).1.length
      = size ∧
    (∀ i, ((decRefinementPass (1 <<< n) (st1.LSP.take st.LSP.length) st1.out
      st1.arith).1.getD i 0).natAbs + 2 ^ n ≤ 2 ^ (N + 1)) ∧
    (∀ i, i ∉ st1.LSP → (decRefinementPass (1 <<< n) (st1.LSP.take st.LSP.length) st1.out
      st1.arith).1.getD i 0 = 0) ∧
    decSortingPassC (1 <<< n) st = some st1 ∧
    decRefinementPassC (1 <<< n) (st1.LSP.take st.LSP.length) st1.out st1.arith =
      some (decRefinementPass (1 <<< n) (st1.LSP.take st.LSP.length) st1.out st1.arith) := by
  obtain ⟨q, ql, ⟨new, qn1, qn2, qn3⟩, qc⟩ :=
    decSortingPass_part size (1 <<< n) h4 st st1 hp hlen h1
  have htake : st1.LSP.take st.LSP.length = st.LSP := by
    rw [qn1, List.take_left]
  have hnd0 : st.LSP.Nodup := partInv_nodup _ _ _ _ hp
  have hnd1 : (st.LSP ++ new).Nodup := by rw [← qn1]; exact partInv_nodup _ _ _ _ q
  have hdisj : ∀ i, i ∈ st.LSP → i ∉ new := fun i hi hmem =>
    (List.nodup_append.1 hnd1).2.2 hi hmem
  obtain ⟨b1, b2, b3, b4⟩ := decRefinementPass_bound (1 <<< n) st.LSP st1.out st1.arith hnd0
    (fun i hi => by rw [ql]; exact hp.2.1 i hi)
  have hsh : (1 <<< n : Nat) = 2 ^ n := by rw [Nat.shiftLeft_eq, one_mul]
  have hpow : 2 ^ (n + 1) ≤ 2 ^ (N + 1) := Nat.pow_le_pow_right (by decide) (by omega)
  have hp2 : 2 ^ (n + 1) = 2 * 2 ^ n := by rw [pow_succ]; ring
  rw [htake]
  refine ⟨q, by rw [b1, ql], ?_, ?_, qc, b4⟩
  · intro i
    by_cases hi : i ∈ st.LSP
    · have h3 := b3 i hi
      rw [qn2 i (hdisj i hi)] at h3
      have h3' := le_of_le_of_eq h3
        (show (st.out.getD i 0).natAbs + 1 <<< n = (st.out.getD i 0).natAbs + 2 ^ n by rw [hsh])
      have := hb i
      omega
    · rw [b2 i hi]
      by_cases hin : i ∈ new
      · rw [qn3 i hin, hsh]; omega
      · rw [qn2 i hin]
        have := hb i
        omega
  · intro i hi
    rw [qn1, List.mem_append, not_or] at hi
    rw [b2 i hi.1, qn2 i hi.2]
    exact hz i hi.1

/-- All bit planes of the decoder, on whatever bits: after every plane the
lists partition the indices and `out` is zero outside the LSP; the last state
is the result of `decPlanes`, also with checked accesses, and its entries are
below `2^(N+1)`, where `N` is the first plane. -/
theorem decTrace_part (size N : Nat) (h4 : size % 4 = 0) (n : Nat) (hn : n ≤ N)
    (st : SpihtDec) (tr : List SpihtDec)
    (hp : PartInv size st.LIP st.LSP st.LIS) (hlen : st.out.length = size)
    (hb : ∀ i, (st.out.getD i 0).natAbs + 2 ^ (n + 1) ≤ 2 ^ (N + 1))
    (hz : ∀ i, i ∉ st.LSP → st.out.getD i 0 = 0)
    (h : decTrace n st = some tr) :
    tr.length = n + 1 ∧
    (∀ s ∈ tr, PartInv size s.LIP s.LSP s.LIS ∧ s.out.length = size ∧
      ∀ i, i ∉ s.LSP → s.out.getD i 0 = 0) ∧
    ∃ last, tr.getLast? = some last ∧ decPlanes n st = some last ∧
      decPlanesC n st = some last ∧ ∀ i, (last.out.getD i 0).natAbs < 2 ^ (N + 1) := by
  induction n generalizing st tr with
  | zero =>
    rw [decTrace_zero] at h
    cases h1 : decSortingPass (1 <<< 0) st with
    | none => rw [h1] at h; simp at h
    | some st1 =>
      rw [h1] at h
      simp only [Option.map_some', Option.some.injEq] at h
      obtain ⟨c1, c2, c3, c4, c5, c6⟩ := decPlane_part size N 0 h4 hn st st1 hp hlen hb hz h1
      subst h
      refine ⟨rfl, ?_, { st1 with
        out := (decRefinementPass (1 <<< 0) (st1.LSP.take st.LSP.length) st1.out st1.arith).1
        arith := (decRefinementPass (1 <<< 0) (st1.LSP.take st.LSP.length) st1.out
          st1.arith).2 }, rfl, ?_, ?_, ?_⟩
      · intro s hs
        simp only [List.mem_singleton] at hs
        subst hs
        exact ⟨c1, c2, c4⟩
      · rw [decPlanes_zero, h1]; rfl
      · rw [decPlanesC, c5]
        simp only
        rw [c6]
      · intro i
        have := c3 i
        simp only [pow_zero] at this
        exact this
  | succ k ih =>
    rw [decTrace_succ] at h
    cases h1 : decSortingPass (1 <<< (k + 1)) st with
    | none => rw [h1] at h; simp at h
    | some st1 =>
      rw [h1] at h
      simp only [Option.some_bind] at h
      obtain ⟨c1, c2, c3, c4, c5, c6⟩ :=
        decPlane_part size N (k + 1) h4 hn st st1 hp hlen hb hz h1
      obtain ⟨st2, hst2⟩ : ∃ s : SpihtDec, s = { st1 with
          out := (decRefinementPass (1 <<< (k + 1)) (st1.LSP.take st.LSP.length) st1.out
            st1.arith).1
          arith := (decRefinementPass (1 <<< (k + 1)) (st1.LSP.take st.LSP.length) st1.out
            st1.arith).2 } := ⟨_, rfl⟩
      rw [← hst2] at h
      cases h2 : decTrace k st2 with
      | none => rw [h2] at h; simp at h
      | some tr2 =>
        rw [h2] at h
        simp only [Option.map_some', Option.some.injEq] at h
        obtain ⟨d1, d2, last, d3, d4, d5, d6⟩ := ih (by omega) st2 tr2
          (by rw [hst2]; exact c1) (by rw [hst2]; exact c2) (by rw [hst2]; exact c3)
          (by rw [hst2]; exact c4) h2
        subst h
        refine ⟨by simp [d1], ?_, last, ?_, ?_, ?_, d6⟩
        · intro s hs
          rcases List.mem_cons.1 hs with g | g
          · rw [g, hst2]; exact ⟨c1, c2, c4⟩
          · exact d2 s g
        · cases tr2 with
          | nil => simp at d3
          | cons a l => rw [List.getLast?_cons_cons]; exact d3
        · rw [decPlanes_succ, h1, Option.some_bind, ← hst2]; exact d4
        · rw [decPlanesC, c5]
          simp only
          rw [c6]
          simp only
          rw [← hst2]
          exact d5

/-- The trace of the decoder exists exactly when `decPlanes` returns. -/
theorem decTrace_isSome (n : Nat) (st : SpihtDec) :
    (decTrace n st).isSome = (decPlanes n st).isSome := by
  induction n generalizing st with
  | zero =>
    rw [decTrace_zero, decPlanes_zero]
    cases decSortingPass (1 <<< 0) st <;> rfl
  | succ k ih =>
    rw [decTrace_succ, decPlanes_succ]
    cases decSortingPass (1 <<< (k + 1)) st with
    | none => rfl
    | some st1 =>
      simp only [Option.some_bind, Option.isSome_map']
      exact ih _

theorem pullBitAt_sim (a : ArithDecAt) (shifted : Int) (h : Fit a) :
    ∃ a', pullBitAt a shifted = some a' ∧ a'.toDec = pullBit a.toDec shifted ∧ Fit a' ∧
      a'.range_lower = a.range_lower ∧ a'.range_upper = a.range_upper := by
  obtain ⟨h1, h2⟩ := h
  unfold pullBitAt
  by_cases hi : a.in_index ≤ a.max_index
  · rw [if_pos hi]
    have hlt : a.in_index < a.instream.length := by omega
    rw [List.getElem?_eq_getElem hlt]
    refine ⟨_, rfl, ?_, ⟨by show a.in_index + 1 ≤ a.max_index + 1; omega, h2⟩, rfl, rfl⟩
    have hrest : a.toDec.rest = a.instream[a.in_index] ::
        (a.instream.drop (a.in_index + 1)).take (a.max_index + 1 - (a.in_index + 1)) := by
      show (a.instream.drop a.in_index).take (a.max_index + 1 - a.in_index) = _
      rw [List.drop_eq_getElem_cons hlt]
      have e : a.max_index + 1 - a.in_index = (a.max_index + 1 - (a.in_index + 1)) + 1 := by
        omega
      rw [e, List.take_succ_cons]
    unfold pullBit
    rw [hrest]
    rfl
  · rw [if_neg hi]
    refine ⟨_, rfl, ?_, ⟨h1, h2⟩, rfl, rfl⟩
    have hrest : (a.instream.drop a.in_index).take (a.max_index + 1 - a.in_index) = [] := by
      have e : a.max_index + 1 - a.in_index = 0 := by omega
      rw [e, List.take_zero]
    unfold pullBit ArithDecAt.toDec
    simp only [hrest]

/-- The rescaling loop with indexes follows the list model and leaves by
`break` within the fuel whenever the list model ends on a range without
rescaling condition. -/
theorem decRenormAt_sim (fuel : Nat) (a : ArithDecAt) (h : Fit a)
    (hn : Normalized (decRenorm fuel a.toDec).range_lower (decRenorm fuel a.toDec).range_upper) :
    ∃ a', decRenormAt fuel a = some a' ∧ a'.toDec = decRenorm fuel a.toDec ∧ Fit a' := by
  induction fuel generalizing a with
  | zero =>
    obtain ⟨n1, n2, n3⟩ := hn
    refine ⟨a, ?_, rfl, h⟩
    unfold decRenormAt
    rw [if_neg]
    rintro (g | g | g)
    · exact n1 g
    · exact n2 g
    · exact n3 g
  | succ n ih =>
    by_cases c1 : a.range_upper ≤ HALF
    · obtain ⟨a1, p1, p2, p3, -, -⟩ := pullBitAt_sim { a with
        range_lower := a.range_lower * 2
        range_upper := a.range_upper * 2 } (a.in_leading * 2) h
      have hd : decRenorm (n + 1) a.toDec = decRenorm n a1.toDec := by
        rw [decRenorm, if_pos (show a.toDec.range_upper ≤ HALF from c1), p2]
        rfl
      rw [hd] at hn ⊢
      obtain ⟨a', q1, q2, q3⟩ := ih a1 p3 hn
      refine ⟨a', ?_, q2, q3⟩
      rw [decRenormAt, if_pos c1, p1, Option.some_bind, q1]
    · by_cases c2 : a.range_lower ≥ HALF
      · obtain ⟨a1, p1, p2, p3, -, -⟩ := pullBitAt_sim { a with
          range_lower := (a.range_lower - HALF) * 2
          range_upper := (a.range_upper - HALF) * 2 } ((a.in_leading - HALF) * 2) h
        have hd : decRenorm (n + 1) a.toDec = decRenorm n a1.toDec := by
          rw [decRenorm, if_neg (show ¬ a.toDec.range_upper ≤ HALF from c1),
            if_pos (show a.toDec.range_lower ≥ HALF from c2), p2]
          rfl
        rw [hd] at hn ⊢
        obtain ⟨a', q1, q2, q3⟩ := ih a1 p3 hn
        refine ⟨a', ?_, q2, q3⟩
        rw [decRenormAt, if_neg c1, if_pos c2, p1, Option.some_bind, q1]
      · by_cases c3 : a.range_lower ≥ FIRST_QTR ∧ a.range_upper ≤ THIRD_QTR
        · obtain ⟨a1, p1, p2, p3, -, -⟩ := pullBitAt_sim { a with
            range_lower := (a.range_lower - FIRST_QTR) * 2
            range_upper := (a.range_upper - FIRST_QTR) * 2 } ((a.in_leading - FIRST_QTR) * 2) h
          have hd : decRenorm (n + 1) a.toDec = decRenorm n a1.toDec := by
            rw [decRenorm, if_neg (show ¬ a.toDec.range_upper ≤ HALF from c1),
              if_neg (show ¬ a.toDec.range_lower ≥ HALF from c2),
              if_pos (show a.toDec.range_lower ≥ FIRST_QTR ∧ a.toDec.range_upper ≤ THIRD_QTR
                from c3), p2]
            rfl
          rw [hd] at hn ⊢
          obtain ⟨a', q1, q2, q3⟩ := ih a1 p3 hn
          refine ⟨a', ?_, q2, q3⟩
          rw [decRenormAt, if_neg c1, if_neg c2, if_pos c3, p1, Option.some_bind, q1]
        · refine ⟨a, ?_, ?_, h⟩
          · rw [decRenormAt, if_neg c1, if_neg c2, if_neg c3]
          · rw [decRenorm, if_neg (show ¬ a.toDec.range_upper ≤ HALF from c1),
              if_neg (show ¬ a.toDec.range_lower ≥ HALF from c2),
              if_neg (show ¬ (a.toDec.range_lower ≥ FIRST_QTR ∧ a.toDec.range_upper ≤ THIRD_QTR)
                from c3)]

/-- One `decode` call with indexes: on a block inside the stream and a state
of the data model it throws nothing, its loop ends, and it follows the list
model. -/
theorem ArithDec_decodeAt_sim (a : ArithDecAt) (c : Nat) (hc : c < CONTEXTS) (h : Fit a)
    (hok : DecOK a.toDec) :
    ∃ a', ArithDec_decodeAt a c = some ((ArithDec_decode a.toDec c).1, a') ∧
      a'.toDec = (ArithDec_decode a.toDec c).2 ∧ Fit a' ∧ DecOK a'.toDec := by
  have hok2 := ArithDec_decode_ok a.toDec c hc hok
  obtain ⟨a1, ha1⟩ : ∃ x : ArithDecAt, x =
      if a.in_leading - a.range_lower < rangeAdd a.cnt c a.range_diff
      then { a with range_upper := a.range_lower + rangeAdd a.cnt c a.range_diff }
      else { a with range_lower := a.range_lower + rangeAdd a.cnt c a.range_diff } := ⟨_, rfl⟩
  have hfit1 : Fit a1 := by
    rw [ha1]; split_ifs <;> exact h
  have hd1 : a1.toDec =
      if a.toDec.in_leading - a.toDec.range_lower < rangeAdd a.toDec.cnt c a.toDec.range_diff
      then { a.toDec with
        range_upper := a.toDec.range_lower + rangeAdd a.toDec.cnt c a.toDec.range_diff }
      else { a.toDec with
        range_lower := a.toDec.range_lower + rangeAdd a.toDec.cnt c a.toDec.range_diff } := by
    rw [ha1]
    show _ = if a.in_leading - a.range_lower < rangeAdd a.cnt c a.range_diff then _ else _
    split_ifs <;> rfl
  have hres : (ArithDec_decode a.toDec c).2 =
      { decRenorm RENORM_FUEL a1.toDec with
        range_diff := (decRenorm RENORM_FUEL a1.toDec).range_upper
          - (decRenorm RENORM_FUEL a1.toDec).range_lower
        cnt := updateCounter a.cnt c
          (!(decide (a.in_leading - a.range_lower < rangeAdd a.cnt c a.range_diff))) } := by
    rw [hd1]; rfl
  have hn : Normalized (decRenorm RENORM_FUEL a1.toDec).range_lower
      (decRenorm RENORM_FUEL a1.toDec).range_upper := by
    have := hok2.2.1
    rw [hres] at this
    exact this
  obtain ⟨a2, r1, r2, r3⟩ := decRenormAt_sim RENORM_FUEL a1 hfit1 hn
  obtain ⟨a3, ha3⟩ : ∃ x : ArithDecAt, x = { a2 with
      range_diff := a2.range_upper - a2.range_lower
      cnt := updateCounter a.cnt c
        (!(decide (a.in_leading - a.range_lower < rangeAdd a.cnt c a.range_diff))) } :=
    ⟨_, rfl⟩
  have hres2 : a3.toDec = (ArithDec_decode a.toDec c).2 := by
    rw [hres, ← r2, ha3]; rfl
  refine ⟨a3, ?_, hres2, by rw [ha3]; exact r3, by rw [hres2]; exact hok2⟩
  unfold ArithDec_decodeAt
  rw [if_pos hc]
  simp only
  rw [← ha1, r1, ha3]
  rfl

theorem getBitsAt_sim (c : Nat) (hc : c < CONTEXTS) (k : Nat) (a : ArithDecAt) (h : Fit a)
    (hok : DecOK a.toDec) :
    ∃ a', getBitsAt c k a = some ((getBits c k a.toDec).1, a') ∧
      a'.toDec = (getBits c k a.toDec).2 ∧ Fit a' ∧ DecOK a'.toDec := by
  induction k generalizing a with
  | zero => exact ⟨a, rfl, rfl, h, hok⟩
  | succ n ih =>
    obtain ⟨a1, p1, p2, p3, p4⟩ := ArithDec_decodeAt_sim a c hc h hok
    obtain ⟨a2, q1, q2, q3, q4⟩ := ih a1 p3 p4
    refine ⟨a2, ?_, ?_, q3, q4⟩
    · rw [getBitsAt, p1, Option.some_bind, q1, getBits, ← p2]
      rfl
    · rw [q2, p2, getBits]

theorem decSetSignAt_sim (compare index : Nat) (out : List Int) (a : ArithDecAt)
    (r : List Int × ArithDec) (hf : Fit a) (hok : DecOK a.toDec)
    (h : decSetSignC compare index out a.toDec = some r) :
    ∃ a', decSetSignAt compare index out a = some (r.1, a') ∧ a'.toDec = r.2 ∧ Fit a' ∧
      DecOK a'.toDec := by
  obtain ⟨a1, p1, p2, p3, p4⟩ := ArithDec_decodeAt_sim a CONTEXT_SIGN (by decide) hf hok
  unfold decSetSignC at h
  by_cases hi : index < out.length
  · rw [if_pos hi] at h
    simp only [Option.some.injEq] at h
    subst h
    refine ⟨a1, ?_, p2, p3, p4⟩
    rw [decSetSignAt, p1, Option.some_bind]
    simp only
    rw [if_pos hi]
    rfl
  · rw [if_neg hi] at h
    exact absurd h (by simp)

theorem decSortLIPAt_sim (compare : Nat) (todo : List Nat) (s : SpihtDecAt) (st' : SpihtDec)
    (hf : Fit s.arith) (hok : DecOK s.arith.toDec)
    (h : decSortLIPC compare todo s.toDec = some st') :
    ∃ s', decSortLIPAt compare todo s = some s' ∧ s'.toDec = st' ∧ Fit s'.arith ∧
      DecOK s'.arith.toDec := by
  induction todo generalizing s with
  | nil =>
    simp only [decSortLIPC, Option.some.injEq] at h
    exact ⟨s, rfl, h, hf, hok⟩
  | cons i rest ih =>
    obtain ⟨a1, p1, p2, p3, p4⟩ :=
      ArithDec_decodeAt_sim s.arith CONTEXT_SIGNIFICANCE_0 (by decide) hf hok
    rw [decSortLIPC] at h
    rw [decSortLIPAt, p1, Option.some_bind]
    simp only at h ⊢
    by_cases hb : (ArithDec_decode s.arith.toDec CONTEXT_SIGNIFICANCE_0).1 = true
    · rw [if_pos hb]
      rw [if_pos (show (ArithDec_decode s.toDec.arith CONTEXT_SIGNIFICANCE_0).1 = true from hb)]
        at h
      cases hs : decSetSignC compare i s.out a1.toDec with
      | none =>
        rw [show decSetSignC compare i s.toDec.out
          (ArithDec_decode s.toDec.arith CONTEXT_SIGNIFICANCE_0).2 = none from by
            have hs2 := hs; rw [p2] at hs2; exact hs2] at h
        exact absurd h (by simp)
      | some r =>
        rw [show decSetSignC compare i s.toDec.out
          (ArithDec_decode s.toDec.arith CONTEXT_SIGNIFICANCE_0).2 = some r from by
            have hs2 := hs; rw [p2] at hs2; exact hs2] at h
        obtain ⟨a2, q1, q2, q3, q4⟩ := decSetSignAt_sim compare i s.out a1 r p3 p4 hs
        rw [q1, Option.some_bind]
        simp only at h ⊢
        apply ih _ q3 q4
        rw [← h]
        show decSortLIPC compare rest ⟨_, _, _, _, _⟩ = decSortLIPC compare rest ⟨_, _, _, _, _⟩
        rw [q2]
        rfl
    · rw [if_neg hb]
      rw [if_neg (show ¬ (ArithDec_decode s.toDec.arith CONTEXT_SIGNIFICANCE_0).1 = true from hb)]
        at h
      apply ih _ p3 p4
      rw [← h]
      show decSortLIPC compare rest ⟨_, _, _, _, _⟩ = decSortLIPC compare rest ⟨_, _, _, _, _⟩
      rw [p2]
      rfl

theorem decChildAt_sim (compare index : Nat) (s : SpihtDecAt) (st' : SpihtDec)
    (hf : Fit s.arith) (hok : DecOK s.arith.toDec)
    (h : decChildC compare index s.toDec = some st') :
    ∃ s', decChildAt compare index s = some s' ∧ s'.toDec = st' ∧ Fit s'.arith ∧
      DecOK s'.arith.toDec := by
  obtain ⟨a1, p1, p2, p3, p4⟩ :=
    ArithDec_decodeAt_sim s.arith CONTEXT_SIGNIFICANCE_2 (by decide) hf hok
  unfold decChildC at h
  rw [decChildAt, p1, Option.some_bind]
  simp only at h ⊢
  by_cases hb : (ArithDec_decode s.arith.toDec CONTEXT_SIGNIFICANCE_2).1 = true
  · rw [if_pos hb]
    rw [if_pos (show (ArithDec_decode s.toDec.arith CONTEXT_SIGNIFICANCE_2).1 = true from hb)]
      at h
    cases hs : decSetSignC compare index s.out a1.toDec with
    | none =>
      rw [show decSetSignC compare index s.toDec.out
        (ArithDec_decode s.toDec.arith CONTEXT_SIGNIFICANCE_2).2 = none from by
          have hs2 := hs; rw [p2] at hs2; exact hs2] at h
      exact absurd h (by simp)
    | some r =>
      rw [show decSetSignC compare index s.toDec.out
        (ArithDec_decode s.toDec.arith CONTEXT_SIGNIFICANCE_2).2 = some r from by
          have hs2 := hs; rw [p2] at hs2; exact hs2] at h
      obtain ⟨a2, q1, q2, q3, q4⟩ := decSetSignAt_sim compare index s.out a1 r p3 p4 hs
      rw [q1]
      simp only [Option.map_some', Option.some.injEq] at h ⊢
      refine ⟨_, rfl, ?_, q3, q4⟩
      rw [← h]
      show (⟨_, _, _, _, _⟩ : SpihtDec) = ⟨_, _, _, _, _⟩
      rw [q2]
      rfl
  · rw [if_neg hb]
    rw [if_neg (show ¬ (ArithDec_decode s.toDec.arith CONTEXT_SIGNIFICANCE_2).1 = true from hb)]
      at h
    simp only [Option.some.injEq] at h
    refine ⟨_, rfl, ?_, p3, p4⟩
    rw [← h]
    show (⟨_, _, _, _, _⟩ : SpihtDec) = ⟨_, _, _, _, _⟩
    rw [p2]
    rfl

theorem decSortLISAt_sim (compare : Nat) (fuel : Nat) (pending : List pixel) (s : SpihtDecAt)
    (st' : SpihtDec) (hf : Fit s.arith) (hok : DecOK s.arith.toDec)
    (h : decSortLISC compare fuel pending s.toDec = some st') :
    ∃ s', decSortLISAt compare fuel pending s = some s' ∧ s'.toDec = st' ∧ Fit s'.arith ∧
      DecOK s'.arith.toDec := by
  induction fuel generalizing pending s with
  | zero =>
    cases pending with
    | nil =>
      simp only [decSortLISC, Option.some.injEq] at h
      exact ⟨s, rfl, h, hf, hok⟩
    | cons p ps => simp [decSortLISC] at h
  | succ n ih =>
    cases pending with
    | nil =>
      simp only [decSortLISC, Option.some.injEq] at h
      exact ⟨s, rfl, h, hf, hok⟩
    | cons p ps =>
      rw [decSortLISC] at h
      rw [decSortLISAt]
      by_cases hA : p.type = 0
      · rw [if_pos hA] at h ⊢
        obtain ⟨a1, p1, p2, p3, p4⟩ :=
          ArithDec_decodeAt_sim s.arith CONTEXT_SIGNIFICANCE_1 (by decide) hf hok
        rw [p1, Option.some_bind]
        simp only at h ⊢
        by_cases hb : (ArithDec_decode s.arith.toDec CONTEXT_SIGNIFICANCE_1).1 = true
        · rw [if_pos hb]
          rw [if_pos (show (ArithDec_decode s.toDec.arith CONTEXT_SIGNIFICANCE_1).1 = true
            from hb)] at h
          obtain ⟨s1, hs1⟩ : ∃ x : SpihtDecAt, x = { s with arith := a1 } := ⟨_, rfl⟩
          have hs1d : s1.toDec = { s.toDec with
              arith := (ArithDec_decode s.toDec.arith CONTEXT_SIGNIFICANCE_1).2 } := by
            rw [hs1]
            show (⟨_, _, _, _, _⟩ : SpihtDec) = ⟨_, _, _, _, _⟩
            rw [p2]
            rfl
          rw [← hs1d] at h
          rw [← hs1]
          cases hc2 : decChildC compare (2 * p.index) s1.toDec with
          | none => rw [hc2] at h; exact absurd h (by simp)
          | some t2 =>
            rw [hc2, Option.some_bind] at h
            obtain ⟨s2, q1, q2, q3, q4⟩ := decChildAt_sim compare (2 * p.index) s1 t2
              (by rw [hs1]; exact p3) (by rw [hs1]; exact p4) hc2
            rw [q1, Option.some_bind]
            rw [← q2] at h
            cases hc3 : decChildC compare (2 * p.index + 1) s2.toDec with
            | none => rw [hc3] at h; exact absurd h (by simp)
            | some t3 =>
              rw [hc3, Option.some_bind] at h
              obtain ⟨s3, r1, r2, r3, r4⟩ := decChildAt_sim compare (2 * p.index + 1) s2 t3
                q3 q4 hc3
              rw [r1, Option.some_bind]
              rw [← r2] at h
              by_cases hg : 4 * p.index + 3 < s.out.length
              · rw [if_pos hg]
                rw [if_pos (show 4 * p.index + 3 < s.toDec.out.length from hg)] at h
                exact ih _ s3 r3 r4 h
              · rw [if_neg hg]
                rw [if_neg (show ¬ 4 * p.index + 3 < s.toDec.out.length from hg)] at h
                exact ih _ s3 r3 r4 h
        · rw [if_neg hb]
          rw [if_neg (show ¬ (ArithDec_decode s.toDec.arith CONTEXT_SIGNIFICANCE_1).1 = true
            from hb)] at h
          apply ih _ _ p3 p4
          rw [← h]
          show decSortLISC compare n ps ⟨_, _, _, _, _⟩ = decSortLISC compare n ps ⟨_, _, _, _, _⟩
          rw [p2]
          rfl
      · rw [if_neg hA] at h ⊢
        obtain ⟨a1, p1, p2, p3, p4⟩ :=
          ArithDec_decodeAt_sim s.arith CONTEXT_SIGNIFICANCE_3 (by decide) hf hok
        rw [p1, Option.some_bind]
        simp only at h ⊢
        by_cases hb : (ArithDec_decode s.arith.toDec CONTEXT_SIGNIFICANCE_3).1 = true
        · rw [if_pos hb]
          rw [if_pos (show (ArithDec_decode s.toDec.arith CONTEXT_SIGNIFICANCE_3).1 = true
            from hb)] at h
          apply ih _ _ p3 p4
          rw [← h]
          show decSortLISC compare n _ ⟨_, _, _, _, _⟩ = decSortLISC compare n _ ⟨_, _, _, _, _⟩
          rw [p2]
          rfl
        · rw [if_neg hb]
          rw [if_neg (show ¬ (ArithDec_decode s.toDec.arith CONTEXT_SIGNIFICANCE_3).1 = true
            from hb)] at h
          apply ih _ _ p3 p4
          rw [← h]
          show decSortLISC compare n ps ⟨_, _, _, _, _⟩ = decSortLISC compare n ps ⟨_, _, _, _, _⟩
          rw [p2]
          rfl

theorem decSortingPassAt_sim (compare : Nat) (s : SpihtDecAt) (st' : SpihtDec)
    (hf : Fit s.arith) (hok : DecOK s.arith.toDec)
    (h : decSortingPassC compare s.toDec = some st') :
    ∃ s', decSortingPassAt compare s = some s' ∧ s'.toDec = st' ∧ Fit s'.arith ∧
      DecOK s'.arith.toDec := by
  unfold decSortingPassC at h
  obtain ⟨s0, hs0⟩ : ∃ x : SpihtDecAt, x = { s with LIP := [] } := ⟨_, rfl⟩
  have hs0d : s0.toDec = { s.toDec with LIP := [] } := by rw [hs0]; rfl
  rw [← hs0d] at h
  cases h1 : decSortLIPC compare s.toDec.LIP s0.toDec with
  | none => rw [h1] at h; exact absurd h (by simp)
  | some t1 =>
    rw [h1] at h
    simp only at h
    obtain ⟨s1, q1, q2, q3, q4⟩ := decSortLIPAt_sim compare s.LIP s0 t1
      (by rw [hs0]; exact hf) (by rw [hs0]; exact hok) h1
    obtain ⟨s2, hs2⟩ : ∃ x : SpihtDecAt, x = { s1 with LIS := [] } := ⟨_, rfl⟩
    have hs2d : s2.toDec = { t1 with LIS := [] } := by rw [hs2, ← q2]; rfl
    rw [← hs2d] at h
    have hl : t1.LIS = s1.LIS := by rw [← q2]; rfl
    rw [hl] at h
    obtain ⟨s3, r1, r2, r3, r4⟩ := decSortLISAt_sim compare (LIS_FUEL s.out.length) s1.LIS s2
      st' (by rw [hs2]; exact q3) (by rw [hs2]; exact q4) h
    refine ⟨s3, ?_, r2, r3, r4⟩
    rw [decSortingPassAt, ← hs0, q1, Option.some_bind, ← hs2]
    exact r1

theorem decRefinementPassAt_sim (compare : Nat) (old : List Nat) (out : List Int)
    (a : ArithDecAt) (r : List Int × ArithDec) (hf : Fit a) (hok : DecOK a.toDec)
    (h : decRefinementPassC compare old out a.toDec = some r) :
    ∃ a', decRefinementPassAt compare old out a = some (r.1, a') ∧ a'.toDec = r.2 ∧ Fit a' ∧
      DecOK a'.toDec := by
  induction old generalizing out a with
  | nil =>
    simp only [decRefinementPassC, Option.some.injEq] at h
    subst h
    exact ⟨a, rfl, rfl, hf, hok⟩
  | cons i rest ih =>
    obtain ⟨a1, p1, p2, p3, p4⟩ :=
      ArithDec_decodeAt_sim a CONTEXT_REFINEMENT (by decide) hf hok
    rw [decRefinementPassC] at h
    rw [decRefinementPassAt, p1, Option.some_bind]
    simp only at h ⊢
    rw [← p2] at h
    by_cases hb : (ArithDec_decode a.toDec CONTEXT_REFINEMENT).1 = true
    · rw [if_pos hb] at h ⊢
      by_cases hi : i < out.length
      · rw [if_pos hi] at h ⊢
        exact ih _ a1 p3 p4 h
      · rw [if_neg hi] at h
        exact absurd h (by simp)
    · rw [if_neg hb] at h ⊢
      exact ih _ a1 p3 p4 h

theorem decPlanesAt_sim (n : Nat) (s : SpihtDecAt) (st' : SpihtDec)
    (hf : Fit s.arith) (hok : DecOK s.arith.toDec)
    (h : decPlanesC n s.toDec = some st') :
    ∃ s', decPlanesAt n s = some s' ∧ s'.toDec = st' ∧ Fit s'.arith ∧
      DecOK s'.arith.toDec := by
  induction n generalizing s with
  | zero =>
    rw [decPlanesC] at h
    rw [decPlanesAt]
    cases h1 : decSortingPassC (1 <<< 0) s.toDec with
    | none => rw [h1] at h; exact absurd h (by simp)
    | some t1 =>
      rw [h1] at h
      simp only at h
      obtain ⟨s1, q1, q2, q3, q4⟩ := decSortingPassAt_sim (1 <<< 0) s t1 hf hok h1
      rw [q1, Option.some_bind]
      rw [← q2] at h
      cases h2 : decRefinementPassC (1 <<< 0) (s1.LSP.take s.LSP.length) s1.out
          s1.arith.toDec with
      | none =>
        rw [show decRefinementPassC (1 <<< 0) (s1.toDec.LSP.take s.toDec.LSP.length)
          s1.toDec.out s1.toDec.arith = none from h2] at h
        exact absurd h (by simp)
      | some r =>
        rw [show decRefinementPassC (1 <<< 0) (s1.toDec.LSP.take s.toDec.LSP.length)
          s1.toDec.out s1.toDec.arith = some r from h2] at h
        simp only [Option.some.injEq] at h
        obtain ⟨a2, r1, r2, r3, r4⟩ := decRefinementPassAt_sim (1 <<< 0) _ _ _ r q3 q4 h2
        rw [r1, Option.some_bind]
        refine ⟨_, rfl, ?_, r3, r4⟩
        rw [← h]
        show (⟨_, _, _, _, _⟩ : SpihtDec) = ⟨_, _, _, _, _⟩
        rw [r2]
        rfl
  | succ k ih =>
    rw [decPlanesC] at h
    rw [decPlanesAt]
    cases h1 : decSortingPassC (1 <<< (k + 1)) s.toDec with
    | none => rw [h1] at h; exact absurd h (by simp)
    | some t1 =>
      rw [h1] at h
      simp only at h
      obtain ⟨s1, q1, q2, q3, q4⟩ := decSortingPassAt_sim (1 <<< (k + 1)) s t1 hf hok h1
      rw [q1, Option.some_bind]
      rw [← q2] at h
      cases h2 : decRefinementPassC (1 <<< (k + 1)) (s1.LSP.take s.LSP.length) s1.out
          s1.arith.toDec with
      | none =>
        rw [show decRefinementPassC (1 <<< (k + 1)) (s1.toDec.LSP.take s.toDec.LSP.length)
          s1.toDec.out s1.toDec.arith = none from h2] at h
        exact absurd h (by simp)
      | some r =>
        rw [show decRefinementPassC (1 <<< (k + 1)) (s1.toDec.LSP.take s.toDec.LSP.length)
          s1.toDec.out s1.toDec.arith = some r from h2] at h
        simp only at h
        obtain ⟨a2, r1, r2, r3, r4⟩ :=
          decRefinementPassAt_sim (1 <<< (k + 1)) _ _ _ r q3 q4 h2
        rw [r1, Option.some_bind]
        simp only
        apply ih _ r3 r4
        rw [← h]
        show decPlanesC k ⟨_, _, _, _, _⟩ = decPlanesC k ⟨_, _, _, _, _⟩
        rw [r2]
        rfl

theorem readLeadingAt_sim (instream : List Bool) (length : Nat) (k i idx m : Nat) (acc : Int)
    (hm : i + m = length) (hfit : idx + m ≤ instream.length) :
    ∃ idx' m', readLeadingAt instream length k i idx acc =
        some (idx', (readLeading k ((instream.drop idx).take m) acc).1) ∧
      (readLeading k ((instream.drop idx).take m) acc).2 = (instream.drop idx').take m' ∧
      idx' + m' = idx + m := by
  induction k generalizing i idx m acc with
  | zero => exact ⟨idx, m, rfl, rfl, rfl⟩
  | succ n ih =>
    cases m with
    | zero =>
      refine ⟨idx, 0, ?_, ?_, rfl⟩
      · rw [readLeadingAt, if_neg (by omega), List.take_zero]
        rfl
      · rw [List.take_zero]; rfl
    | succ m =>
      have hlt : idx < instream.length := by omega
      obtain ⟨idx', m', q1, q2, q3⟩ := ih (i + 1) (idx + 1) m
        (acc + ((instream[idx]).toNat : Int) * 2 ^ n) (by omega) (by omega)
      have hseg : (instream.drop idx).take (m + 1) =
          instream[idx] :: (instream.drop (idx + 1)).take m := by
        rw [List.drop_eq_getElem_cons hlt, List.take_succ_cons]
      refine ⟨idx', m', ?_, ?_, by omega⟩
      · rw [readLeadingAt, if_pos (by omega), List.getElem?_eq_getElem hlt, Option.some_bind,
          q1, hseg]
        rfl
      · rw [hseg]
        exact q2

/-- The indexes of `initDecoding` on a block of at least one bit inside the
stream: nothing is thrown and the list model is what the decoder holds. -/
theorem initDecodingAt_sim (cnt : Counters) (instream : List Bool) (pos length : Nat)
    (h1 : 1 ≤ length) (hfit : pos + length ≤ instream.length)
    (hsize : instream.length < SIZE_T_MOD) :
    ∃ a, initDecodingAt cnt instream pos length = some a ∧
      a.toDec = initDecoding cnt instream pos length ∧ Fit a ∧ a.cnt = cnt := by
  obtain ⟨idx', m', q1, q2, q3⟩ :=
    readLeadingAt_sim instream length 10 0 pos length 0 (by omega) hfit
  have hmax : (pos + length + SIZE_T_MOD - 1) % SIZE_T_MOD = pos + length - 1 := by
    have e : pos + length + SIZE_T_MOD - 1 = (pos + length - 1) + SIZE_T_MOD := by omega
    rw [e, Nat.add_mod_right, Nat.mod_eq_of_lt (by omega)]
  refine ⟨_, by rw [initDecodingAt, q1]; rfl, ?_, ?_, rfl⟩
  · unfold ArithDecAt.toDec initDecoding
    simp only [hmax]
    have e2 : pos + length - 1 + 1 - idx' = m' := by omega
    rw [e2, ← q2]
  · refine ⟨?_, ?_⟩
    · show idx' ≤ (pos + length + SIZE_T_MOD - 1) % SIZE_T_MOD + 1
      rw [hmax]; omega
    · show (pos + length + SIZE_T_MOD - 1) % SIZE_T_MOD + 1 ≤ instream.length
      rw [hmax]; omega

theorem getD_replicate_zero (n i : Nat) (l : List Int) (hl : l = []) :
    (List.replicate n (0 : Int) ++ l).getD i 0 = 0 := by
  subst hl
  rw [List.append_nil, List.getD_eq_getElem?_getD, List.getElem?_replicate]
  split_ifs <;> rfl

/-- The bit planes of the decoder from the initial lists, on a block inside
the stream: nothing is thrown, every loop ends, no access leaves `out`, the
list model is followed, and the coefficients stay below `2^(N+1)`. -/
theorem decPlanesAt_total (BL : Nat) (hBL : BL ∈ [32, 64, 128, 256, 512]) (N : Nat)
    (s : SpihtDecAt) (hlip : s.LIP = List.range 8) (hlsp : s.LSP = [])
    (hlis : s.LIS = [⟨4, 0⟩, ⟨5, 0⟩, ⟨6, 0⟩, ⟨7, 0⟩]) (hlen : s.out.length = BL)
    (hzero : ∀ i, s.out.getD i 0 = 0) (hf : Fit s.arith) (hok : DecOK s.arith.toDec) :
    ∃ s', decPlanesAt N s = some s' ∧ decPlanes N s.toDec = some s'.toDec ∧
      s'.out.length = BL ∧ (∀ i, (s'.out.getD i 0).natAbs < 2 ^ (N + 1)) ∧
      Fit s'.arith ∧ DecOK s'.arith.toDec := by
  have hsz : 16 ≤ BL := by
    simp only [List.mem_cons, List.mem_singleton, List.not_mem_nil, or_false] at hBL
    rcases hBL with h | h | h | h | h <;> omega
  have h4 : BL % 4 = 0 := by
    simp only [List.mem_cons, List.mem_singleton, List.not_mem_nil, or_false] at hBL
    rcases hBL with h | h | h | h | h <;> omega
  have hpl := planeInv_init (List.replicate BL (0 : Int)) 0 [] [] (by simpa using hsz)
    (fun i _ => by
      rw [List.getD_eq_getElem?_getD, List.getElem?_replicate]
      split_ifs <;> simp)
  obtain ⟨hpart, -, -, v4⟩ := hpl
  rw [List.length_replicate] at hpart v4
  have hp : PartInv BL s.toDec.LIP s.toDec.LSP s.toDec.LIS := by
    show PartInv BL s.LIP s.LSP s.LIS
    rw [hlip, hlsp, hlis]; exact hpart
  have hinv : DecInv DecOK BL [] s.toDec := by
    refine ⟨hlen, hp.2.2.1, ?_, ?_, hok⟩
    · intro e he
      exact absurd he (List.not_mem_nil e)
    · show lisWeightSum BL (s.LIS ++ []) ≤ _
      rw [List.append_nil, hlis]; exact v4
  obtain ⟨st', e1, -, -⟩ := decPlanes_total DecOK ArithDec_decode_ok BL N s.toDec hinv
  have hsome : (decTrace N s.toDec).isSome = true := by
    rw [decTrace_isSome, e1]; rfl
  obtain ⟨tr, htr⟩ := Option.isSome_iff_exists.1 hsome
  obtain ⟨-, -, last, -, d4, d5, d6⟩ := decTrace_part BL N h4 N (le_refl _) s.toDec tr hp hlen
    (fun i => by
      show ((s.out.getD i 0).natAbs + _ ≤ _)
      rw [hzero i]; simp)
    (fun i _ => hzero i) htr
  obtain ⟨s', r1, r2, r3, r4⟩ := decPlanesAt_sim N s last hf hok d5
  have hl : s'.out = last.out := by rw [← r2]; rfl
  have hlen' : last.out.length = BL := by
    obtain ⟨st2, g1, g2, -⟩ := decPlanes_total DecOK ArithDec_decode_ok BL N s.toDec hinv
    rw [d4] at g1
    simp only [Option.some.injEq] at g1
    rw [g1]; exact g2
  exact ⟨s', r1, by rw [r2]; exact d4, by rw [hl]; exact hlen', by rw [hl]; exact d6, r3, r4⟩

/-- Inside the bitstream and with at least one bit, `SPIHT_Dec::decode`
returns for every allowed block length, every counter state of the data model
and every payload, whatever its bits: no exception is thrown, the rescaling
loops and the passes end within their fuel, every index used on `out` is below
`BL`, the result is the one of the list model, and every coefficient is below
`2^(maxallocbits + 1)` in magnitude for the decoded `maxallocbits`. -/
theorem SPIHT_Dec_decodeAt_total {K : Type} [LinearOrderedField K] (BL : Nat)
    (hBL : BL ∈ [32, 64, 128, 256, 512]) (cnt : Counters) (hcnt : CountersOK cnt)
    (stream : List Bool) (pos len : Nat) (out : List Int)
    (h1 : 1 ≤ len) (hfit : pos + len ≤ stream.length) (hsize : stream.length < SIZE_T_MOD)
    (hout : out.length = BL) :
    ∃ r : SpihtDecAtResult K,
      SPIHT_Dec_decodeAt cnt stream pos len out BL (ilog2 BL - 2) = some r ∧
      r.out.length = BL ∧
      (∀ i, (r.out.getD i 0).natAbs < 2 ^ (r.n_real + 1)) ∧
      ((SPIHT_Dec_decode cnt stream pos len out BL (ilog2 BL - 2)).map
        (fun q : SpihtDecResult K => (q.out, q.wavmax, q.n_real, q.arith))) =
        some (r.out, r.wavmax, r.n_real, r.arith.toDec) := by
  obtain ⟨a0, i1, i2, i3, i4⟩ := initDecodingAt_sim cnt stream pos len h1 hfit hsize
  have hok0 : DecOK a0.toDec := by rw [i2]; exact decOK_init cnt stream pos len hcnt
  obtain ⟨a1, b1, b2, b3, b4⟩ :=
    getBitsAt_sim CONTEXT_SIDE (by decide) MAXALLOCBITS_SIZE a0 i3 hok0
  obtain ⟨a2, c1, c2, c3, c4⟩ := ArithDec_decodeAt_sim a1 CONTEXT_SIDE (by decide) b3 b4
  obtain ⟨a3, d1, d2, d3, d4⟩ :=
    getBitsAt_sim CONTEXT_SIDE (by decide) (WAVMAXLENGTH - 1) a2 c3 c4
  have hdrop : out.drop BL = [] := by
    rw [List.drop_eq_nil_iff]; omega
  obtain ⟨s', e1, e2, e3, e4, e5, e6⟩ := decPlanesAt_total BL hBL
    (bi2deVec (getBits CONTEXT_SIDE MAXALLOCBITS_SIZE a0.toDec).1)
    ⟨List.range 8, [], [⟨4, 0⟩, ⟨5, 0⟩, ⟨6, 0⟩, ⟨7, 0⟩],
      List.replicate BL 0 ++ out.drop BL, a3⟩ rfl rfl rfl
    (by
      show (List.replicate BL (0 : Int) ++ out.drop BL).length = BL
      rw [hdrop, List.append_nil, List.length_replicate])
    (fun i => getD_replicate_zero BL i _ hdrop) d3 d4
  refine ⟨⟨s'.out,
    if (ArithDec_decode a1.toDec CONTEXT_SIDE).1
    then ((bi2deVec (getBits CONTEXT_SIDE (WAVMAXLENGTH - 1) a2.toDec).1 : Nat) : K)
      * (1 / 2 ^ 4) + 1
    else ((bi2deVec (getBits CONTEXT_SIDE (WAVMAXLENGTH - 1) a2.toDec).1 : Nat) : K)
      * (1 / 2 ^ 7),
    bi2deVec (getBits CONTEXT_SIDE MAXALLOCBITS_SIZE a0.toDec).1,
    { s'.arith with cnt := rescaleCounter s'.arith.cnt }⟩, ?_, e3, e4, ?_⟩
  · unfold SPIHT_Dec_decodeAt
    rw [i1, Option.some_bind, if_pos (by omega), b1, Option.some_bind]
    simp only
    rw [c1, Option.some_bind]
    simp only
    rw [d1, Option.some_bind]
    simp only
    rw [initLists_eq BL hBL, e1]
    rfl
  · unfold SPIHT_Dec_decode
    simp only
    rw [initLists_eq BL hBL, ← i2, ← b2, ← c2, ← d2]
    have e2' : decPlanes (bi2deVec (getBits CONTEXT_SIDE MAXALLOCBITS_SIZE a0.toDec).1)
        ⟨List.range 8, [], [⟨4, 0⟩, ⟨5, 0⟩, ⟨6, 0⟩, ⟨7, 0⟩],
          List.replicate BL 0 ++ out.drop BL, a3.toDec⟩ = some s'.toDec := e2
    rw [e2']
    rfl

/-- C27 (evaluation at a failing input): a block cut short.  On the 3-bit
stream `[1, 0, 1]` with `pos = 0` and `streamlength = 4` (the length announced
is one bit more than the stream holds) `ArithDec::initDecoding` reads
`instream->at(3)` behind the end of the stream, and `SPIHT_Dec::decode` ends by
an exception, where the same three bits with `streamlength = 3` are decoded;
`decode1D` on the stream that carries this block (sampling rate, block-length
code, length field 4, three bits) ends the same way.  With 12 bits announced
as 40 `initDecoding` returns and a later `decode` call reads behind the end.
On the empty stream with `streamlength = 0`, `max_index = pos + length - 1`
wraps around and the first `decode` call reads `instream->at(0)`. -/
theorem C27_truncated_payload_throws :
    (initDecodingAt resetCounter [true, false, true] 0 4).isNone = true ∧
    (SPIHT_Dec_decodeAt resetCounter [true, false, true] 0 4 (List.replicate 32 0) 32 3 :
      Option (SpihtDecAtResult ℚ)).isNone = true ∧
    (SPIHT_Dec_decodeAt resetCounter [true, false, true] 0 3 (List.replicate 32 0) 32 3 :
      Option (SpihtDecAtResult ℚ)).isSome = true ∧
    (decode1D (fsEncode 8000 [] ++ headerEncoding 32 [] ++ de2bi 4 [] (encoderLengthbits 32) ++
      [true, false, true]) : Option (List ℚ × List Bool)) = none ∧
    (initDecodingAt resetCounter (List.replicate 12 true) 0 40).isSome = true ∧
    (SPIHT_Dec_decodeAt resetCounter (List.replicate 12 true) 0 40 (List.replicate 32 0) 32 3 :
      Option (SpihtDecAtResult ℚ)).isNone = true ∧
    (SPIHT_Dec_decodeAt resetCounter [] 0 0 (List.replicate 32 0) 32 3 :
      Option (SpihtDecAtResult ℚ)).isNone = true := by
  refine ⟨by decide, by decide, by decide!, by decide!, by decide, by decide!, by decide⟩

theorem encTrace_zero (data : List Int) (m : MaxDesc) (st : SpihtEnc) :
    encTrace data m 0 st =
      (encSortingPass data m (1 <<< 0) st).map
        (fun st1 => [encRefinementPass data 0 st.LSP.length st1]) := by
  rw [encTrace]
  cases encSortingPass data m (1 <<< 0) st <;> rfl

theorem encTrace_succ (data : List Int) (m : MaxDesc) (k : Nat) (st : SpihtEnc) :
    encTrace data m (k + 1) st =
      (encSortingPass data m (1 <<< (k + 1)) st).bind
        (fun st1 => (encTrace data m k (encRefinementPass data (k + 1) st.LSP.length st1)).map
          (fun l => encRefinementPass data (k + 1) st.LSP.length st1 :: l)) := by
  rw [encTrace]
  cases encSortingPass data m (1 <<< (k + 1)) st <;> rfl

/-- All bit planes of the encoder, state by state: after the plane `n - j` the
invariant of the threshold `2^(n - j)` holds, the last state is the result of
`encPlanes`, and a decoder that starts with the same lists and reads the
encoder's bits goes through the same lists. -/
theorem trace_frame (data : List Int) (m : MaxDesc) (h4 : data.length % 4 = 0)
    (hmax : MaxOK data m) (n : Nat) (st : SpihtEnc)
    (hp : PartInv data.length st.LIP st.LSP st.LIS)
    (hsig : ∀ i ∈ st.LSP, 2 * 2 ^ n ≤ (data.getD i 0).natAbs)
    (hw : lisWeightSum data.length st.LIS ≤ (LIS_FUEL data.length : ℚ)) :
    ∃ tr, encTrace data m n st = some tr ∧ tr.length = n + 1 ∧
      encPlanes data m n st = tr.getLast? ∧
      (∀ j s, tr[j]? = some s → PlaneInv data (2 ^ (n - j)) s) ∧
      ∃ (bs : List Bool) (cs : List Nat),
        (∀ s, tr.getLast? = some s →
          s.outstream = st.outstream ++ bs ∧ s.context = st.context ++ cs) ∧
        ∀ (sd : SpihtDec) (rest : List Bool) (crest : List Nat) {e : ArithDec},
          sd.LIP = st.LIP → sd.LSP = st.LSP → sd.LIS = st.LIS →
          sd.out.length = data.length →
          Feeds e sd.arith (bs ++ rest) (cs ++ crest) →
          ∃ dtr, decTrace n sd = some dtr ∧
            dtr.map (fun s => (s.LIP, s.LSP, s.LIS)) = tr.map (fun s => (s.LIP, s.LSP, s.LIS)) ∧
            ∀ s, dtr.getLast? = some s → Feeds e s.arith rest crest := by
  induction n generalizing st with
  | zero =>
    obtain ⟨st1, r1, r2, bs, cs, e1, e2, e3⟩ := plane_frame data m h4 hmax 0 st hp hsig hw
    refine ⟨[encRefinementPass data 0 st.LSP.length st1], ?_, rfl, ?_, ?_, bs, cs, ?_, ?_⟩
    · rw [encTrace_zero, r1]; rfl
    · rw [encPlanes_zero, r1]; rfl
    · intro j s hj
      cases j with
      | zero =>
        simp only [List.getElem?_cons_zero, Option.some.injEq] at hj
        subst hj
        exact r2
      | succ j => simp at hj
    · intro s hs
      simp only [List.getLast?_singleton, Option.some.injEq] at hs
      subst hs
      exact ⟨e1, e2⟩
    · intro sd rest crest e l1 l2 l3 hout hf
      obtain ⟨sd1, d1, d2, d3, d4, d5, d6⟩ := e3 sd rest crest l1 l2 l3 hout hf
      refine ⟨_, by rw [decTrace_zero, d1]; rfl, ?_, ?_⟩
      · simp only [List.map_cons, List.map_nil, List.cons.injEq, and_true, Prod.mk.injEq]
        exact ⟨d2, d3, d4⟩
      · intro s hs
        simp only [List.getLast?_singleton, Option.some.injEq] at hs
        subst hs
        exact d6
  | succ k ih =>
    obtain ⟨st1, r1, r2, bs, cs, e1, e2, e3⟩ := plane_frame data m h4 hmax (k + 1) st hp hsig hw
    obtain ⟨p1, p2, p3, p4⟩ := r2
    obtain ⟨tr, q1, q2, q3, q4, bs2, cs2, q5, q6⟩ := ih _ p1
      (fun i hi => by have := p3 i hi; rw [pow_succ] at this; omega) p4
    have hne : tr ≠ [] := by
      intro h; rw [h] at q2; simp at q2
    refine ⟨encRefinementPass data (k + 1) st.LSP.length st1 :: tr, ?_, by simp [q2], ?_, ?_,
      bs ++ bs2, cs ++ cs2, ?_, ?_⟩
    · rw [encTrace_succ, r1, Option.some_bind, q1]; rfl
    · rw [encPlanes_succ, r1, Option.some_bind, q3]
      cases tr with
      | nil => exact absurd rfl hne
      | cons a l => rw [List.getLast?_cons_cons]
    · intro j s hj
      cases j with
      | zero =>
        simp only [List.getElem?_cons_zero, Option.some.injEq] at hj
        subst hj
        exact ⟨p1, p2, p3, p4⟩
      | succ j =>
        simp only [List.getElem?_cons_succ] at hj
        have := q4 j s hj
        have e : k + 1 - (j + 1) = k - j := by omega
        rw [e]; exact this
    · intro s hs
      have hs' : tr.getLast? = some s := by
        cases tr with
        | nil => exact absurd rfl hne
        | cons a l => rw [List.getLast?_cons_cons] at hs; exact hs
      obtain ⟨g1, g2⟩ := q5 s hs'
      rw [g1, g2, e1, e2, List.append_assoc, List.append_assoc]
      exact ⟨rfl, rfl⟩
    · intro sd rest crest e l1 l2 l3 hout hf
      rw [List.append_assoc, List.append_assoc] at hf
      obtain ⟨sd1, d1, d2, d3, d4, d5, d6⟩ := e3 sd _ _ l1 l2 l3 hout hf
      obtain ⟨dtr, g1, g2, g3⟩ := q6
        { sd1 with
          out := (decRefinementPass (1 <<< (k + 1)) (sd1.LSP.take sd.LSP.length) sd1.out sd1.arith).1
          arith := (decRefinementPass (1 <<< (k + 1)) (sd1.LSP.take sd.LSP.length) sd1.out sd1.arith).2 }
        rest crest d2 d3 d4 d5 d6
      have hdne : dtr ≠ [] := by
        intro h
        rw [h] at g2
        have := congrArg List.length g2
        simp only [List.map_nil, List.length_nil, List.length_map, q2] at this
        omega
      refine ⟨_, by rw [decTrace_succ, d1, Option.some_bind, g1]; rfl, ?_, ?_⟩
      · simp only [List.map_cons, List.cons.injEq, Prod.mk.injEq]
        exact ⟨⟨d2, d3, d4⟩, g2⟩
      · intro s hs
        apply g3
        cases dtr with
        | nil => exact absurd rfl hdne
        | cons a l => rw [List.getLast?_cons_cons] at hs; exact hs

theorem partInv_nodup_LIP (size : Nat) (LIP LSP : List Nat) (LIS : List pixel)
    (h : PartInv size LIP LSP LIS) : LIP.Nodup := by
  rw [List.nodup_iff_count_le_one]
  intro i
  by_cases hi : i ∈ LIP
  · have := h.2.2.2 i (h.1 i hi); omega
  · rw [List.count_eq_zero_of_not_mem hi]; omega

/-- In a partition of the indices the LIP, the LSP and the sets of the LIS
entries are pairwise disjoint, and so are the sets of two entries at different
places of the LIS. -/
theorem partInv_disjoint (size : Nat) (LIP LSP : List Nat) (LIS : List pixel)
    (h : PartInv size LIP LSP LIS) :
    (∀ i ∈ LIP, i ∉ LSP) ∧
    (∀ i ∈ LIP, ∀ e ∈ LIS, covers e i = false) ∧
    (∀ i ∈ LSP, ∀ e ∈ LIS, covers e i = false) ∧
    (∀ i, i < size → coverCount LIS i ≤ 1) := by
  obtain ⟨p1, p2, p3, p4⟩ := h
  refine ⟨?_, ?_, ?_, ?_⟩
  · intro i hi hs
    have := p4 i (p1 i hi)
    have := List.count_pos_iff.2 hi
    have := List.count_pos_iff.2 hs
    omega
  · intro i hi e he
    by_contra hc
    have hc' : covers e i = true := by simpa using hc
    have := p4 i (p1 i hi)
    have := List.count_pos_iff.2 hi
    have hpos : 0 < coverCount LIS i := by
      unfold coverCount
      rw [List.countP_pos_iff]
      exact ⟨e, he, hc'⟩
    omega
  · intro i hi e he
    by_contra hc
    have hc' : covers e i = true := by simpa using hc
    have := p4 i (p2 i hi)
    have := List.count_pos_iff.2 hi
    have hpos : 0 < coverCount LIS i := by
      unfold coverCount
      rw [List.countP_pos_iff]
      exact ⟨e, he, hc'⟩
    omega
  · intro i hi
    have := p4 i hi
    omega

/-- The encoder of a block of an allowed length from the initial lists: the
trace of all planes exists and every state satisfies the invariant of its
plane; a decoder reading the encoder's bits goes through the same lists. -/
theorem encTrace_init (BL : Nat) (c : List Int) (N : Nat) (o : List Bool) (x : List Nat)
    (hBL : BL ∈ [32, 64, 128, 256, 512]) (hlen : c.length = BL) :
    ∃ tr, encTrace c (initMaxDescendant c) N
        ⟨(initLists BL (ilog2 BL - 2)).1, [], (initLists BL (ilog2 BL - 2)).2, o, x⟩ = some tr ∧
      tr.length = N + 1 ∧
      encPlanes c (initMaxDescendant c) N
        ⟨(initLists BL (ilog2 BL - 2)).1, [], (initLists BL (ilog2 BL - 2)).2, o, x⟩
        = tr.getLast? ∧
      (∀ j s, tr[j]? = some s → PlaneInv c (2 ^ (N - j)) s) ∧
      ∃ (bs : List Bool) (cs : List Nat),
        (∀ s, tr.getLast? = some s → s.outstream = o ++ bs ∧ s.context = x ++ cs) ∧
        ∀ (d e : ArithDec) (out : List Int), out.length = BL → Feeds e d bs cs →
          ∃ dtr, decTrace N
              ⟨(initLists BL (ilog2 BL - 2)).1, [], (initLists BL (ilog2 BL - 2)).2, out, d⟩
              = some dtr ∧
            dtr.map (fun s => (s.LIP, s.LSP, s.LIS)) =
              tr.map (fun s => (s.LIP, s.LSP, s.LIS)) := by
  obtain ⟨k, hk3, hpow⟩ := size_pow BL hBL
  have h16 : 16 ≤ c.length := by
    rw [hlen]
    simp only [List.mem_cons, List.mem_singleton, List.not_mem_nil, or_false] at hBL
    omega
  have h4 : c.length % 4 = 0 := by
    rw [hlen]
    simp only [List.mem_cons, List.mem_singleton, List.not_mem_nil, or_false] at hBL
    omega
  have hmax := initMaxDescendant_ok c k hk3 (by rw [hlen, hpow])
  have hinv0 := planeInv_init (List.replicate c.length (0 : Int)) N o x
    (by rw [List.length_replicate]; exact h16)
    (fun i _ => by
      rw [List.getD_eq_getElem?_getD, List.getElem?_replicate]
      have : 0 < 2 * 2 ^ N := by positivity
      split_ifs <;> simpa using this)
  obtain ⟨hp, -, -, hw⟩ := hinv0
  rw [List.length_replicate] at hp hw
  rw [initLists_eq BL hBL]
  obtain ⟨tr, q1, q2, q3, q4, bs, cs, q5, q6⟩ := trace_frame c (initMaxDescendant c) h4 hmax N
    ⟨List.range 8, [], [⟨4, 0⟩, ⟨5, 0⟩, ⟨6, 0⟩, ⟨7, 0⟩], o, x⟩ hp
    (fun i hi => by simp at hi) hw
  refine ⟨tr, q1, q2, q3, q4, bs, cs, q5, ?_⟩
  intro d e out hout hf
  obtain ⟨dtr, g1, g2, -⟩ := q6 ⟨List.range 8, [], [⟨4, 0⟩, ⟨5, 0⟩, ⟨6, 0⟩, ⟨7, 0⟩], out, d⟩
    [] [] rfl rfl rfl (by rw [hout, hlen]) (by simpa using hf)
  exact ⟨dtr, g1, g2⟩

/-- The decoder from the initial lists and a zeroed block, on whatever bits:
the trace of all planes exists, every state is a partition of the indices, and
`out` is zero outside the LSP. -/
theorem decTrace_init (BL : Nat) (N : Nat) (d : ArithDec)
    (hBL : BL ∈ [32, 64, 128, 256, 512]) (hd : DecOK d) :
    ∃ dtr, decTrace N ⟨(initLists BL (ilog2 BL - 2)).1, [], (initLists BL (ilog2 BL - 2)).2,
        List.replicate BL 0, d⟩ = some dtr ∧
      dtr.length = N + 1 ∧
      decPlanes N ⟨(initLists BL (ilog2 BL - 2)).1, [], (initLists BL (ilog2 BL - 2)).2,
        List.replicate BL 0, d⟩ = dtr.getLast? ∧
      ∀ s ∈ dtr, PartInv BL s.LIP s.LSP s.LIS ∧ s.out.length = BL ∧
        ∀ i, i ∉ s.LSP → s.out.getD i 0 = 0 := by
  have hsz : 16 ≤ BL := by
    simp only [List.mem_cons, List.mem_singleton, List.not_mem_nil, or_false] at hBL
    rcases hBL with h | h | h | h | h <;> omega
  have h4 : BL % 4 = 0 := by
    simp only [List.mem_cons, List.mem_singleton, List.not_mem_nil, or_false] at hBL
    rcases hBL with h | h | h | h | h <;> omega
  have hpl := planeInv_init (List.replicate BL (0 : Int)) 0 [] [] (by simpa using hsz)
    (fun i _ => by
      rw [List.getD_eq_getElem?_getD, List.getElem?_replicate]
      split_ifs <;> simp)
  obtain ⟨hpart, -, -, v4⟩ := hpl
  rw [List.length_replicate] at hpart v4
  rw [initLists_eq BL hBL]
  have hzero : ∀ i, (List.replicate BL (0 : Int)).getD i 0 = 0 := by
    intro i
    rw [List.getD_eq_getElem?_getD, List.getElem?_replicate]
    split_ifs <;> rfl
  have hinv : DecInv DecOK BL [] ⟨List.range 8, [], [⟨4, 0⟩, ⟨5, 0⟩, ⟨6, 0⟩, ⟨7, 0⟩],
      List.replicate BL 0, d⟩ := by
    refine ⟨List.length_replicate _ _, hpart.2.2.1, ?_, ?_, hd⟩
    · intro e he
      exact absurd he (List.not_mem_nil e)
    · show lisWeightSum BL ([⟨4, 0⟩, ⟨5, 0⟩, ⟨6, 0⟩, ⟨7, 0⟩] ++ []) ≤ _
      rw [List.append_nil]; exact v4
  obtain ⟨st', e1, -, -⟩ := decPlanes_total DecOK ArithDec_decode_ok BL N _ hinv
  have hsome : (decTrace N ⟨List.range 8, [], [⟨4, 0⟩, ⟨5, 0⟩, ⟨6, 0⟩, ⟨7, 0⟩],
      List.replicate BL 0, d⟩).isSome = true := by
    rw [decTrace_isSome, e1]; rfl
  obtain ⟨tr, htr⟩ := Option.isSome_iff_exists.1 hsome
  obtain ⟨t1, t2, last, t3, t4, -, -⟩ := decTrace_part BL N h4 N (le_refl _)
    ⟨List.range 8, [], [⟨4, 0⟩, ⟨5, 0⟩, ⟨6, 0⟩, ⟨7, 0⟩], List.replicate BL 0, d⟩ tr hpart
    (List.length_replicate _ _)
    (fun i => by
      show ((List.replicate BL (0 : Int)).getD i 0).natAbs + _ ≤ _
      rw [hzero i]; simp)
    (fun i _ => hzero i) htr
  exact ⟨tr, htr, t1, by rw [t4, t3], t2⟩

/-- C28: for a block `c` of an allowed length `BL`, coded from the plane `N`:
the initial lists partition the indices `0 .. BL - 1` (every index is in the
LIP, in the LSP, among the descendants of one type-A entry or among the
descendants other than the children of one type-B entry of the LIS, exactly
once in all), and so do the lists of the encoder after the sorting pass of
every plane, where moreover no index is twice in the LIP or in the LSP and
after the plane `N - j` every index with `|c[i]| >= 2^(N - j)` is in the LSP;
a decoder reading the encoder's symbols goes through the same lists, and a
decoder reading any bits keeps the partition, without repeated indices, with
every non-zero coefficient in the LSP. -/
theorem C28_spiht_partition (BL : Nat) (c : List Int) (N : Nat) (o : List Bool) (x : List Nat)
    (hBL : BL ∈ [32, 64, 128, 256, 512]) (hlen : c.length = BL) :
    (PartInv BL (initLists BL (ilog2 BL - 2)).1 [] (initLists BL (ilog2 BL - 2)).2 ∧
      (initLists BL (ilog2 BL - 2)).1.Nodup) ∧
    (∃ tr, encTrace c (initMaxDescendant c) N
        ⟨(initLists BL (ilog2 BL - 2)).1, [], (initLists BL (ilog2 BL - 2)).2, o, x⟩ = some tr ∧
      tr.length = N + 1 ∧
      encPlanes c (initMaxDescendant c) N
        ⟨(initLists BL (ilog2 BL - 2)).1, [], (initLists BL (ilog2 BL - 2)).2, o, x⟩
        = tr.getLast? ∧
      (∀ j s, tr[j]? = some s →
        PartInv BL s.LIP s.LSP s.LIS ∧ s.LIP.Nodup ∧ s.LSP.Nodup ∧
        ∀ i, i < BL → 2 ^ (N - j) ≤ (c.getD i 0).natAbs → i ∈ s.LSP) ∧
      ∃ (bs : List Bool) (cs : List Nat),
        (∀ s, tr.getLast? = some s → s.outstream = o ++ bs ∧ s.context = x ++ cs) ∧
        ∀ (d e : ArithDec) (out : List Int), out.length = BL → Feeds e d bs cs →
          ∃ dtr, decTrace N
              ⟨(initLists BL (ilog2 BL - 2)).1, [], (initLists BL (ilog2 BL - 2)).2, out, d⟩
              = some dtr ∧
            dtr.map (fun s => (s.LIP, s.LSP, s.LIS)) =
              tr.map (fun s => (s.LIP, s.LSP, s.LIS))) ∧
    (∀ d : ArithDec, DecOK d →
      ∃ dtr, decTrace N ⟨(initLists BL (ilog2 BL - 2)).1, [], (initLists BL (ilog2 BL - 2)).2,
          List.replicate BL 0, d⟩ = some dtr ∧
        dtr.length = N + 1 ∧
        decPlanes N ⟨(initLists BL (ilog2 BL - 2)).1, [], (initLists BL (ilog2 BL - 2)).2,
          List.replicate BL 0, d⟩ = dtr.getLast? ∧
        ∀ s ∈ dtr, PartInv BL s.LIP s.LSP s.LIS ∧ s.LIP.Nodup ∧ s.LSP.Nodup ∧
          ∀ i, s.out.getD i 0 ≠ 0 → i ∈ s.LSP) := by
  have hsz : 16 ≤ BL := by
    simp only [List.mem_cons, List.mem_singleton, List.not_mem_nil, or_false] at hBL
    rcases hBL with h | h | h | h | h <;> omega
  have hpl := planeInv_init (List.replicate BL (0 : Int)) 0 [] [] (by simpa using hsz)
    (fun i _ => by
      rw [List.getD_eq_getElem?_getD, List.getElem?_replicate]
      split_ifs <;> simp)
  obtain ⟨hpart, -, -, -⟩ := hpl
  rw [List.length_replicate] at hpart
  refine ⟨?_, ?_, ?_⟩
  · rw [initLists_eq BL hBL]
    exact ⟨hpart, partInv_nodup_LIP _ _ _ _ hpart⟩
  · obtain ⟨tr, q1, q2, q3, q4, bs, cs, q5, q6⟩ := encTrace_init BL c N o x hBL hlen
    refine ⟨tr, q1, q2, q3, ?_, bs, cs, q5, q6⟩
    intro j s hj
    obtain ⟨p1, p2, -, -⟩ := q4 j s hj
    rw [hlen] at p1
    refine ⟨p1, partInv_nodup_LIP _ _ _ _ p1, partInv_nodup _ _ _ _ p1, ?_⟩
    intro i hi hmag
    by_contra hni
    have := p2 i (by rw [hlen]; exact hi) hni
    omega
  · intro d hd
    obtain ⟨dtr, t1, t2, t3, t4⟩ := decTrace_init BL N d hBL hd
    refine ⟨dtr, t1, t2, t3, ?_⟩
    intro s hs
    obtain ⟨p1, -, p3⟩ := t4 s hs
    refine ⟨p1, partInv_nodup_LIP _ _ _ _ p1, partInv_nodup _ _ _ _ p1, ?_⟩
    intro i hne
    by_contra hni
    exact hne (p3 i hni)

/-- C22, the claim as stated fails: after the only plane of the all-zero block
of 32 coefficients the indices 4 to 7 are in the LIP and are the indices of the
four entries of the LIS; with `c[4] = 1` the index 4 is in the LSP and still
the index of an entry of the LIS. -/
theorem C22_lists_share_indices :
    (encTrace (List.replicate 32 0) (initMaxDescendant (List.replicate 32 0)) 0
        ⟨(initLists 32 (ilog2 32 - 2)).1, [], (initLists 32 (ilog2 32 - 2)).2, [], []⟩).map
      (fun tr => tr.map (fun s => (s.LIP, s.LSP, s.LIS.map (fun e => e.index))))
      = some [([0, 1, 2, 3, 4, 5, 6, 7], [], [4, 5, 6, 7])] ∧
    (encTrace ([0, 0, 0, 0, 1] ++ List.replicate 27 0)
        (initMaxDescendant ([0, 0, 0, 0, 1] ++ List.replicate 27 0)) 0
        ⟨(initLists 32 (ilog2 32 - 2)).1, [], (initLists 32 (ilog2 32 - 2)).2, [], []⟩).map
      (fun tr => tr.map (fun s => (s.LIP, s.LSP, s.LIS.map (fun e => e.index))))
      = some [([0, 1, 2, 3, 5, 6, 7], [4], [4, 5, 6, 7])] := by
  constructor <;> decide

/-- C22 (amended): for a block of an allowed length, at the end of the sorting
pass plus refinement pass of every plane, in the encoder and in a decoder
reading any bits, the LIP and the LSP are disjoint and neither contains an
index of the set that an entry of the LIS stands for (the descendants of a
type-A entry, the descendants other than the children of a type-B entry); the
sets of the entries of the LIS are disjoint as well. -/
theorem C22_lists_disjoint (BL : Nat) (c : List Int) (N : Nat) (o : List Bool) (x : List Nat)
    (hBL : BL ∈ [32, 64, 128, 256, 512]) (hlen : c.length = BL) :
    (∃ tr, encTrace c (initMaxDescendant c) N
        ⟨(initLists BL (ilog2 BL - 2)).1, [], (initLists BL (ilog2 BL - 2)).2, o, x⟩ = some tr ∧
      tr.length = N + 1 ∧
      ∀ s ∈ tr, (∀ i ∈ s.LIP, i ∉ s.LSP) ∧ (∀ i ∈ s.LIP, ∀ e ∈ s.LIS, covers e i = false) ∧
        (∀ i ∈ s.LSP, ∀ e ∈ s.LIS, covers e i = false) ∧
        ∀ i, i < BL → coverCount s.LIS i ≤ 1) ∧
    (∀ d : ArithDec, DecOK d →
      ∃ dtr, decTrace N ⟨(initLists BL (ilog2 BL - 2)).1, [], (initLists BL (ilog2 BL - 2)).2,
          List.replicate BL 0, d⟩ = some dtr ∧
        dtr.length = N + 1 ∧
        ∀ s ∈ dtr, (∀ i ∈ s.LIP, i ∉ s.LSP) ∧ (∀ i ∈ s.LIP, ∀ e ∈ s.LIS, covers e i = false) ∧
          (∀ i ∈ s.LSP, ∀ e ∈ s.LIS, covers e i = false) ∧
          ∀ i, i < BL → coverCount s.LIS i ≤ 1) := by
  constructor
  · obtain ⟨tr, q1, q2, -, q4, -⟩ := encTrace_init BL c N o x hBL hlen
    refine ⟨tr, q1, q2, ?_⟩
    intro s hs
    obtain ⟨j, hj, hjs⟩ := List.getElem_of_mem hs
    have hget : tr[j]? = some s := by rw [List.getElem?_eq_getElem hj, hjs]
    obtain ⟨p1, -, -, -⟩ := q4 j s hget
    rw [hlen] at p1
    exact partInv_disjoint _ _ _ _ p1
  · intro d hd
    obtain ⟨dtr, t1, t2, -, t4⟩ := decTrace_init BL N d hBL hd
    refine ⟨dtr, t1, t2, ?_⟩
    intro s hs
    exact partInv_disjoint _ _ _ _ (t4 s hs).1

theorem C28_spiht_partition_witness :
    (32 ∈ [32, 64, 128, 256, 512] ∧ ([3, -1, 0, 0, 2, 0, 0, -5] ++ List.replicate 24 0).length = 32) ∧
    ((PartInv 32 (initLists 32 (ilog2 32 - 2)).1 [] (initLists 32 (ilog2 32 - 2)).2 ∧
      (initLists 32 (ilog2 32 - 2)).1.Nodup) ∧
    (∃ tr, encTrace ([3, -1, 0, 0, 2, 0, 0, -5] ++ List.replicate 24 0)
        (initMaxDescendant ([3, -1, 0, 0, 2, 0, 0, -5] ++ List.replicate 24 0)) 1
        ⟨(initLists 32 (ilog2 32 - 2)).1, [], (initLists 32 (ilog2 32 - 2)).2, [], []⟩ = some tr ∧
      tr.length = 1 + 1 ∧
      encPlanes ([3, -1, 0, 0, 2, 0, 0, -5] ++ List.replicate 24 0)
        (initMaxDescendant ([3, -1, 0, 0, 2, 0, 0, -5] ++ List.replicate 24 0)) 1
        ⟨(initLists 32 (ilog2 32 - 2)).1, [], (initLists 32 (ilog2 32 - 2)).2, [], []⟩
        = tr.getLast? ∧
      (∀ j s, tr[j]? = some s →
        PartInv 32 s.LIP s.LSP s.LIS ∧ s.LIP.Nodup ∧ s.LSP.Nodup ∧
        ∀ i, i < 32 → 2 ^ (1 - j) ≤ (([3, -1, 0, 0, 2, 0, 0, -5] ++ List.replicate 24 0).getD i 0).natAbs → i ∈ s.LSP) ∧
      ∃ (bs : List Bool) (cs : List Nat),
        (∀ s, tr.getLast? = some s → s.outstream = [] ++ bs ∧ s.context = [] ++ cs) ∧
        ∀ (d e : ArithDec) (out : List Int), out.length = 32 → Feeds e d bs cs →
          ∃ dtr, decTrace 1
              ⟨(initLists 32 (ilog2 32 - 2)).1, [], (initLists 32 (ilog2 32 - 2)).2, out, d⟩
              = some dtr ∧
            dtr.map (fun s => (s.LIP, s.LSP, s.LIS)) =
              tr.map (fun s => (s.LIP, s.LSP, s.LIS))) ∧
    (∀ d : ArithDec, DecOK d →
      ∃ dtr, decTrace 1 ⟨(initLists 32 (ilog2 32 - 2)).1, [], (initLists 32 (ilog2 32 - 2)).2,
          List.replicate 32 0, d⟩ = some dtr ∧
        dtr.length = 1 + 1 ∧
        decPlanes 1 ⟨(initLists 32 (ilog2 32 - 2)).1, [], (initLists 32 (ilog2 32 - 2)).2,
          List.replicate 32 0, d⟩ = dtr.getLast? ∧
        ∀ s ∈ dtr, PartInv 32 s.LIP s.LSP s.LIS ∧ s.LIP.Nodup ∧ s.LSP.Nodup ∧
          ∀ i, s.out.getD i 0 ≠ 0 → i ∈ s.LSP)) :=
  ⟨⟨by decide, by decide⟩,
    C28_spiht_partition 32 ([3, -1, 0, 0, 2, 0, 0, -5] ++ List.replicate 24 0) 1 [] []
      (by decide) (by decide)⟩

theorem C22_lists_disjoint_witness :
    (32 ∈ [32, 64, 128, 256, 512] ∧ ([3, -1, 0, 0, 2, 0, 0, -5] ++ List.replicate 24 0).length = 32) ∧
    ((∃ tr, encTrace ([3, -1, 0, 0, 2, 0, 0, -5] ++ List.replicate 24 0)
        (initMaxDescendant ([3, -1, 0, 0, 2, 0, 0, -5] ++ List.replicate 24 0)) 1
        ⟨(initLists 32 (ilog2 32 - 2)).1, [], (initLists 32 (ilog2 32 - 2)).2, [], []⟩ = some tr ∧
      tr.length = 1 + 1 ∧
      ∀ s ∈ tr, (∀ i ∈ s.LIP, i ∉ s.LSP) ∧ (∀ i ∈ s.LIP, ∀ e ∈ s.LIS, covers e i = false) ∧
        (∀ i ∈ s.LSP, ∀ e ∈ s.LIS, covers e i = false) ∧
        ∀ i, i < 32 → coverCount s.LIS i ≤ 1) ∧
    (∀ d : ArithDec, DecOK d →
      ∃ dtr, decTrace 1 ⟨(initLists 32 (ilog2 32 - 2)).1, [], (initLists 32 (ilog2 32 - 2)).2,
          List.replicate 32 0, d⟩ = some dtr ∧
        dtr.length = 1 + 1 ∧
        ∀ s ∈ dtr, (∀ i ∈ s.LIP, i ∉ s.LSP) ∧ (∀ i ∈ s.LIP, ∀ e ∈ s.LIS, covers e i = false) ∧
          (∀ i ∈ s.LSP, ∀ e ∈ s.LIS, covers e i = false) ∧
          ∀ i, i < 32 → coverCount s.LIS i ≤ 1)) :=
  ⟨⟨by decide, by decide⟩,
    C22_lists_disjoint 32 ([3, -1, 0, 0, 2, 0, 0, -5] ++ List.replicate 24 0) 1 [] []
      (by decide) (by decide)⟩

theorem getElem?_getD_zero {K : Type} [LinearOrderedField K] (x : List K) (k : Nat)
    (h : k < x.length) : x[k]? = some (x.getD k 0) := by
  rw [List.getD_eq_getElem?_getD, List.getElem?_eq_getElem h]
  rfl

theorem plateauEnd_some {K : Type} [LinearOrderedField K] (xi : K) (l : List K) (p0 ip : Nat)
    (h : plateauEnd xi l p0 = some ip) :
    p0 ≤ ip ∧ (∀ k, k < ip - p0 → l.getD k 0 = xi) ∧ ip - p0 < l.length ∧
      l.getD (ip - p0) 0 ≠ xi := by
  induction l generalizing p0 with
  | nil => simp [plateauEnd] at h
  | cons v rest ih =>
    rw [plateauEnd] at h
    by_cases hv : v = xi
    · rw [if_pos hv] at h
      obtain ⟨a1, a2, a3, a4⟩ := ih (p0 + 1) h
      have e : ip - p0 = (ip - (p0 + 1)) + 1 := by omega
      refine ⟨by omega, ?_, ?_, ?_⟩
      · intro k hk
        cases k with
        | zero => simpa using hv
        | succ k =>
          rw [List.getD_cons_succ]
          exact a2 k (by omega)
      · rw [List.length_cons]; omega
      · rw [e, List.getD_cons_succ]; exact a4
    · rw [if_neg hv] at h
      simp only [Option.some.injEq] at h
      subst h
      refine ⟨le_refl _, ?_, ?_, ?_⟩
      · intro k hk; omega
      · simp
      · simpa using hv

theorem plateauEnd_none {K : Type} [LinearOrderedField K] (xi : K) (l : List K) (p0 : Nat)
    (h : plateauEnd xi l p0 = none) : ∀ k, k < l.length → l.getD k 0 = xi := by
  induction l generalizing p0 with
  | nil => intro k hk; simp at hk
  | cons v rest ih =>
    rw [plateauEnd] at h
    by_cases hv : v = xi
    · rw [if_pos hv] at h
      intro k hk
      cases k with
      | zero => simpa using hv
      | succ k =>
        rw [List.getD_cons_succ]
        exact ih (p0 + 1) h k (by simpa using hk)
    · rw [if_neg hv] at h
      exact absurd h (by simp)

theorem getD_drop_zero {K : Type} [LinearOrderedField K] (x : List K) (a k : Nat) :
    (x.drop a).getD k 0 = x.getD (a + k) 0 := by
  rw [List.getD_eq_getElem?_getD, List.getD_eq_getElem?_getD, List.getElem?_drop]

theorem peaksBelow_skip {K : Type} [LinearOrderedField K] (x : List K) (i i2 : Nat)
    (peaks : List (peak K)) (h : PeaksBelow x i peaks) (hle : i ≤ i2)
    (hno : ∀ k, i ≤ k → k < i2 → ¬ IsPeakAt x k) : PeaksBelow x i2 peaks := by
  obtain ⟨h1, h2⟩ := h
  refine ⟨h1, ?_⟩
  intro p
  rw [h2 p]
  constructor
  · rintro ⟨a, b, c⟩
    exact ⟨by omega, b, c⟩
  · rintro ⟨a, b, c⟩
    refine ⟨?_, b, c⟩
    by_contra hlt
    exact hno p.location (by omega) a b

theorem peaksBelow_push {K : Type} [LinearOrderedField K] (x : List K) (i i2 : Nat)
    (peaks : List (peak K)) (h : PeaksBelow x i peaks) (hlt : i < i2) (hp : IsPeakAt x i)
    (hno : ∀ k, i < k → k < i2 → ¬ IsPeakAt x k) :
    PeaksBelow x i2 (peaks ++ [⟨i, x.getD i 0⟩]) := by
  obtain ⟨h1, h2⟩ := h
  refine ⟨?_, ?_⟩
  · rw [List.map_append, List.pairwise_append]
    refine ⟨h1, by simp, ?_⟩
    intro a ha b hb
    simp only [List.map_cons, List.map_nil, List.mem_singleton] at hb
    obtain ⟨p, hp1, hp2⟩ := List.mem_map.1 ha
    have := ((h2 p).1 hp1).1
    omega
  · intro p
    rw [List.mem_append, h2 p, List.mem_singleton]
    constructor
    · rintro (⟨a, b, c⟩ | e)
      · exact ⟨by omega, b, c⟩
      · subst e
        exact ⟨hlt, hp, rfl⟩
    · rintro ⟨a, b, c⟩
      by_cases hlo : p.location < i
      · exact Or.inl ⟨hlo, b, c⟩
      · right
        have he : p.location = i := by
          by_contra hne
          exact hno p.location (by omega) a b
        cases p with
        | mk loc hgt =>
          simp only at he c
          subst he
          rw [c]

theorem not_peak_of_not_rise {K : Type} [LinearOrderedField K] (x : List K) (k : Nat)
    (h : ¬ x.getD (k - 1) 0 < x.getD k 0) : ¬ IsPeakAt x k := fun hp => h hp.2.2.1

/-- The loop of `FindAllPeakLocations` from the index `i` on: when it returns,
the peaks are the peaks before the last index, in increasing order; it throws
only on a plateau that begins after a rise and extends to the last sample; the
fuel `i_max - i` is enough. -/
theorem findAllLoop_spec {K : Type} [LinearOrderedField K] (x : List K) (hn : 3 ≤ x.length)
    (fuel i : Nat) (peaks : List (peak K)) (hi : 1 ≤ i) (hi2 : i ≤ x.length - 1)
    (hf : x.length - 1 ≤ fuel + i) (hinv : PeaksBelow x i peaks) :
    (∀ ps, findAllLoop x (x.length - 1) fuel i peaks = some ps →
      PeaksBelow x (x.length - 1) ps) ∧
    (findAllLoop x (x.length - 1) fuel i peaks = none → ∃ k, RisingPlateauToEnd x k) := by
  induction fuel generalizing i peaks with
  | zero =>
    have e : i = x.length - 1 := by omega
    rw [findAllLoop, if_neg (by omega)]
    refine ⟨?_, fun h => absurd h (by simp)⟩
    intro ps hps
    simp only [Option.some.injEq] at hps
    rw [← hps, ← e]; exact hinv
  | succ n ih =>
    by_cases hlt : i < x.length - 1
    · have g0 := getElem?_getD_zero x (i - 1) (by omega)
      have g1 := getElem?_getD_zero x i (by omega)
      have g2 := getElem?_getD_zero x (i + 1) (by omega)
      rw [findAllLoop, if_pos hlt, g0, Option.some_bind, g1, Option.some_bind]
      by_cases hab : x.getD (i - 1) 0 < x.getD i 0
      · rw [if_pos hab, g2, Option.some_bind]
        by_cases hcb : x.getD (i + 1) 0 < x.getD i 0
        · rw [if_pos hcb]
          apply ih (i + 1) _ (by omega) (by omega) (by omega)
          apply peaksBelow_push x i (i + 1) peaks hinv (by omega)
          · exact ⟨hi, by omega, hab, i, le_refl _, by omega,
              fun k h1 h2 => by rw [show k = i by omega], hcb⟩
          · intro k h1 h2; omega
        · rw [if_neg hcb]
          by_cases hce : x.getD (i + 1) 0 = x.getD i 0
          · rw [if_pos hce]
            cases hpl : plateauEnd (x.getD i 0) (x.drop (i + 2)) (i + 1) with
            | none =>
              rw [Option.none_bind]
              refine ⟨fun ps h => absurd h (by simp), fun _ => ⟨i, hi, by omega, hab, ?_⟩⟩
              intro k hk1 hk2
              have hall := plateauEnd_none _ _ _ hpl
              by_cases hk3 : k = i
              · rw [hk3]
              · by_cases hk4 : k = i + 1
                · rw [hk4]; exact hce
                · have := hall (k - (i + 2)) (by rw [List.length_drop]; omega)
                  rw [getD_drop_zero] at this
                  rw [show k = i + 2 + (k - (i + 2)) by omega]
                  exact this
            | some ip =>
              rw [Option.some_bind]
              obtain ⟨a1, a2, a3, a4⟩ := plateauEnd_some _ _ _ _ hpl
              rw [List.length_drop] at a3
              rw [getD_drop_zero] at a4
              have e4 : i + 2 + (ip - (i + 1)) = ip + 1 := by omega
              rw [e4] at a4
              have hplat : ∀ k, i ≤ k → k ≤ ip → x.getD k 0 = x.getD i 0 := by
                intro k hk1 hk2
                by_cases hk3 : k = i
                · rw [hk3]
                · by_cases hk4 : k = i + 1
                  · rw [hk4]; exact hce
                  · have := a2 (k - (i + 2)) (by omega)
                    rw [getD_drop_zero] at this
                    rw [show k = i + 2 + (k - (i + 2)) by omega]
                    exact this
              have hnopk : ∀ k, i < k → k < ip + 1 → ¬ IsPeakAt x k := by
                intro k hk1 hk2
                apply not_peak_of_not_rise
                rw [hplat k (by omega) (by omega), hplat (k - 1) (by omega) (by omega)]
                exact lt_irrefl _
              have g3 := getElem?_getD_zero x (ip + 1) (by omega)
              rw [g3, Option.some_bind]
              by_cases heb : x.getD (ip + 1) 0 < x.getD i 0
              · rw [if_pos heb]
                apply ih (ip + 1) _ (by omega) (by omega) (by omega)
                apply peaksBelow_push x i (ip + 1) peaks hinv (by omega)
                · exact ⟨hi, by omega, hab, ip, by omega, by omega, hplat, heb⟩
                · exact hnopk
              · rw [if_neg heb]
                have hgt : x.getD (ip + 1) 0 > x.getD i 0 :=
                  lt_of_le_of_ne (not_lt.1 heb) (Ne.symm a4)
                rw [if_pos hgt]
                apply ih (ip + 1) _ (by omega) (by omega) (by omega)
                apply peaksBelow_skip x i (ip + 1) peaks hinv (by omega)
                intro k hk1 hk2
                by_cases hk3 : k = i
                · rw [hk3]
                  rintro ⟨-, -, -, j, j1, j2, j3, j4⟩
                  by_cases hj : j < ip
                  · rw [hplat (j + 1) (by omega) (by omega)] at j4
                    exact lt_irrefl _ j4
                  · by_cases hj2 : j = ip
                    · rw [hj2] at j4
                      exact lt_asymm j4 hgt
                    · have := j3 (ip + 1) (by omega) (by omega)
                      exact a4 this
                · exact hnopk k (by omega) hk2
          · rw [if_neg hce]
            apply ih (i + 1) _ (by omega) (by omega) (by omega)
            apply peaksBelow_skip x i (i + 1) peaks hinv (by omega)
            intro k hk1 hk2
            rw [show k = i by omega]
            rintro ⟨-, -, -, j, j1, j2, j3, j4⟩
            by_cases hj : j = i
            · rw [hj] at j4; exact hcb j4
            · exact hce (j3 (i + 1) (by omega) (by omega))
      · rw [if_neg hab]
        apply ih (i + 1) _ (by omega) (by omega) (by omega)
        apply peaksBelow_skip x i (i + 1) peaks hinv (by omega)
        intro k hk1 hk2
        rw [show k = i by omega]
        exact not_peak_of_not_rise x i hab
    · have e : i = x.length - 1 := by omega
      rw [findAllLoop, if_neg hlt]
      refine ⟨?_, fun h => absurd h (by simp)⟩
      intro ps hps
      simp only [Option.some.injEq] at hps
      rw [← hps, ← e]; exact hinv

/-- What `FindAllPeakLocations` returns on a vector of at least three samples:
the peaks of `x` in increasing order of the index, each with the height
`x[i]`. -/
theorem FindAllPeakLocations_spec {K : Type} [LinearOrderedField K] (x : List K)
    (hn : 3 ≤ x.length) :
    (∀ ps, FindAllPeakLocations x = some ps →
      (ps.map (fun p => p.location)).Pairwise (fun a b => a < b) ∧
      ∀ p, p ∈ ps ↔ (IsPeakAt x p.location ∧ p.height = x.getD p.location 0)) ∧
    (FindAllPeakLocations x = none → ∃ k, RisingPlateauToEnd x k) := by
  have hdec : decSizeT x.length = x.length - 1 := by
    unfold decSizeT
    rw [if_neg (by omega)]
  have hinv0 : PeaksBelow x 1 ([] : List (peak K)) := by
    refine ⟨by simp, ?_⟩
    intro p
    constructor
    · intro h; simp at h
    · rintro ⟨a, b, -⟩
      have := b.1
      omega
  obtain ⟨r1, r2⟩ := findAllLoop_spec x hn x.length 1 [] (le_refl _) (by omega) (by omega) hinv0
  unfold FindAllPeakLocations
  rw [hdec]
  refine ⟨?_, r2⟩
  intro ps hps
  obtain ⟨s1, s2⟩ := r1 ps hps
  refine ⟨s1, ?_⟩
  intro p
  rw [s2 p]
  constructor
  · rintro ⟨-, b, c⟩; exact ⟨b, c⟩
  · rintro ⟨b, c⟩
    have := b.2.1
    exact ⟨by omega, b, c⟩

theorem minFrom_spec {K : Type} [LinearOrderedField K] (s : List K) (a d : Nat) :
    (∃ j, a ≤ j ∧ j ≤ a + d ∧ s.getD j 0 = minFrom s a d) ∧
    ∀ j, a ≤ j → j ≤ a + d → minFrom s a d ≤ s.getD j 0 := by
  induction d with
  | zero =>
    refine ⟨⟨a, le_refl _, le_refl _, rfl⟩, ?_⟩
    intro j h1 h2
    rw [show j = a by omega]
    exact le_refl _
  | succ n ih =>
    obtain ⟨⟨j0, b1, b2, b3⟩, b4⟩ := ih
    rw [minFrom]
    refine ⟨?_, ?_⟩
    · rcases le_total (minFrom s a n) (s.getD (a + n + 1) 0) with h | h
      · exact ⟨j0, b1, by omega, by rw [min_eq_left h]; exact b3⟩
      · exact ⟨a + n + 1, by omega, by omega, by rw [min_eq_right h]⟩
    · intro j h1 h2
      by_cases hj : j = a + n + 1
      · rw [hj]; exact min_le_right _ _
      · exact le_trans (min_le_left _ _) (b4 j h1 (by omega))

/-- The value `rangeMin s a b` is the minimum over `a .. b`: it is attained
there, and a value with these two properties is `rangeMin s a b`. -/
theorem rangeMin_unique {K : Type} [LinearOrderedField K] (s : List K) (a b : Nat) (v : K)
    (hab : a ≤ b) (hatt : ∃ j, a ≤ j ∧ j ≤ b ∧ s.getD j 0 = v)
    (hlow : ∀ j, a ≤ j → j ≤ b → v ≤ s.getD j 0) : v = rangeMin s a b := by
  obtain ⟨⟨j0, b1, b2, b3⟩, b4⟩ := minFrom_spec s a (b - a)
  obtain ⟨j1, c1, c2, c3⟩ := hatt
  unfold rangeMin
  apply le_antisymm
  · rw [← b3]; exact hlow j0 b1 (by omega)
  · rw [← c3]; exact b4 j1 c1 (by omega)

theorem decSizeT_succ (v : Nat) : decSizeT (v + 1) = v := by
  unfold decSizeT
  rw [if_neg (by omega)]
  rfl

/-- The walk to the left of `PeakProminence` with `d` indices to go: it ends
within the fuel `d`, reads inside the spectrum, and returns the index of a
smallest sample of `j_min .. j_max` unless none of them is as low as
`min_val`. -/
theorem scanLeft_spec {K : Type} [LinearOrderedField K] (s : List K)
    (loc j_min j_max : Nat) (hloc : loc ≠ 0) (hjm : j_max < s.length)
    (hsz : j_max + 1 < SIZE_T_MOD) (d fuel : Nat) (mv : K) (valley : Int) (hd : d ≤ fuel)
    (hr : j_min + d ≤ j_max + 1)
    (hI : (0 ≤ valley ∧ j_min + d ≤ valley.toNat ∧ valley.toNat ≤ j_max ∧
        s.getD valley.toNat 0 = mv) ∨ ∀ k, j_min + d ≤ k → k ≤ j_max → mv < s.getD k 0)
    (hlow : ∀ k, j_min + d ≤ k → k ≤ j_max → mv ≤ s.getD k 0) :
    ∃ v, scanLeft s loc j_min j_max fuel (decSizeT (j_min + d)) mv valley = some v ∧
      ((0 ≤ v ∧ j_min ≤ v.toNat ∧ v.toNat ≤ j_max ∧
          (∀ k, j_min ≤ k → k ≤ j_max → s.getD v.toNat 0 ≤ s.getD k 0) ∧
          s.getD v.toNat 0 ≤ mv) ∨
        (v = valley ∧ ∀ k, j_min ≤ k → k ≤ j_max → mv < s.getD k 0)) := by
  induction d generalizing fuel mv valley with
  | zero =>
    have hcond : ¬ (j_min ≤ decSizeT (j_min + 0) ∧ decSizeT (j_min + 0) ≤ j_max) := by
      unfold decSizeT
      rw [Nat.add_zero]
      by_cases h0 : j_min = 0
      · rw [if_pos h0]; omega
      · rw [if_neg h0]; omega
    have hres : scanLeft s loc j_min j_max fuel (decSizeT (j_min + 0)) mv valley
        = some valley := by
      cases fuel with
      | zero => rw [scanLeft, if_neg hcond]
      | succ f => rw [scanLeft, if_neg hcond]
    refine ⟨valley, hres, ?_⟩
    rw [Nat.add_zero] at hI hlow
    rcases hI with ⟨a1, a2, a3, a4⟩ | a
    · left
      refine ⟨a1, a2, a3, ?_, by rw [a4]⟩
      intro k h1 h2
      rw [a4]; exact hlow k h1 h2
    · right
      exact ⟨rfl, a⟩
  | succ n ih =>
    cases fuel with
    | zero => omega
    | succ f =>
      have hj : decSizeT (j_min + (n + 1)) = j_min + n := decSizeT_succ _
      rw [hj, scanLeft, if_pos (by omega), if_neg hloc,
        getElem?_getD_zero s (j_min + n) (by omega), Option.some_bind]
      by_cases hle : s.getD (j_min + n) 0 ≤ mv
      · rw [if_pos hle]
        obtain ⟨v, r1, r2⟩ := ih f (s.getD (j_min + n) 0) ((j_min + n : Nat) : Int)
          (by omega) (by omega)
          (Or.inl ⟨Int.natCast_nonneg _, by rw [Int.toNat_natCast],
            by rw [Int.toNat_natCast]; omega, by rw [Int.toNat_natCast]⟩)
          (by
            intro k h1 h2
            by_cases hk : k = j_min + n
            · rw [hk]
            · exact le_trans hle (hlow k (by omega) h2))
        refine ⟨v, r1, ?_⟩
        rcases r2 with ⟨a1, a2, a3, a4, a5⟩ | ⟨-, a⟩
        · left
          exact ⟨a1, a2, a3, a4, le_trans a5 hle⟩
        · exact absurd (a (j_min + n) (by omega) (by omega)) (lt_irrefl _)
      · rw [if_neg hle]
        have hlt : mv < s.getD (j_min + n) 0 := not_le.1 hle
        obtain ⟨v, r1, r2⟩ := ih f mv valley (by omega) (by omega)
          (by
            rcases hI with ⟨a1, a2, a3, a4⟩ | a
            · left; exact ⟨a1, by omega, a3, a4⟩
            · right
              intro k h1 h2
              by_cases hk : k = j_min + n
              · rw [hk]; exact hlt
              · exact a k (by omega) h2)
          (by
            intro k h1 h2
            by_cases hk : k = j_min + n
            · rw [hk]; exact le_of_lt hlt
            · exact hlow k (by omega) h2)
        exact ⟨v, r1, r2⟩

/-- The walk to the right of `PeakProminence` with `d` indices to go. -/
theorem scanRight_spec {K : Type} [LinearOrderedField K] (s : List K)
    (loc j_min j_max : Nat) (hc : loc ≠ int32cast j_max) (hjm : j_max < s.length)
    (d fuel j : Nat) (mv : K) (valley : Int) (hd : d ≤ fuel) (hj : j + d = j_max + 1)
    (hjmin : j_min ≤ j)
    (hI : (0 ≤ valley ∧ j_min ≤ valley.toNat ∧ valley.toNat < j ∧
        s.getD valley.toNat 0 = mv) ∨ ∀ k, j_min ≤ k → k < j → mv < s.getD k 0)
    (hlow : ∀ k, j_min ≤ k → k < j → mv ≤ s.getD k 0) :
    ∃ v, scanRight s loc j_min j_max fuel j mv valley = some v ∧
      ((0 ≤ v ∧ j_min ≤ v.toNat ∧ v.toNat ≤ j_max ∧
          (∀ k, j_min ≤ k → k ≤ j_max → s.getD v.toNat 0 ≤ s.getD k 0) ∧
          s.getD v.toNat 0 ≤ mv) ∨
        (v = valley ∧ ∀ k, j_min ≤ k → k ≤ j_max → mv < s.getD k 0)) := by
  induction d generalizing fuel j mv valley with
  | zero =>
    have hcond : ¬ (j_min ≤ j ∧ j ≤ j_max) := by omega
    have hres : scanRight s loc j_min j_max fuel j mv valley = some valley := by
      cases fuel with
      | zero => rw [scanRight, if_neg hcond]
      | succ f => rw [scanRight, if_neg hcond]
    refine ⟨valley, hres, ?_⟩
    rcases hI with ⟨a1, a2, a3, a4⟩ | a
    · left
      refine ⟨a1, a2, by omega, ?_, by rw [a4]⟩
      intro k h1 h2
      rw [a4]; exact hlow k h1 (by omega)
    · right
      exact ⟨rfl, fun k h1 h2 => a k h1 (by omega)⟩
  | succ n ih =>
    cases fuel with
    | zero => omega
    | succ f =>
      rw [scanRight, if_pos (by omega), if_neg hc,
        getElem?_getD_zero s j (by omega), Option.some_bind]
      by_cases hle : s.getD j 0 ≤ mv
      · rw [if_pos hle]
        obtain ⟨v, r1, r2⟩ := ih f (j + 1) (s.getD j 0) ((j : Nat) : Int)
          (by omega) (by omega) (by omega)
          (Or.inl ⟨Int.natCast_nonneg _, by rw [Int.toNat_natCast]; omega,
            by rw [Int.toNat_natCast]; omega, by rw [Int.toNat_natCast]⟩)
          (by
            intro k h1 h2
            by_cases hk : k = j
            · rw [hk]
            · exact le_trans hle (hlow k h1 (by omega)))
        refine ⟨v, r1, ?_⟩
        rcases r2 with ⟨a1, a2, a3, a4, a5⟩ | ⟨-, a⟩
        · left
          exact ⟨a1, a2, a3, a4, le_trans a5 hle⟩
        · exact absurd (a j (by omega) (by omega)) (lt_irrefl _)
      · rw [if_neg hle]
        have hlt : mv < s.getD j 0 := not_le.1 hle
        obtain ⟨v, r1, r2⟩ := ih f (j + 1) mv valley (by omega) (by omega) (by omega)
          (by
            rcases hI with ⟨a1, a2, a3, a4⟩ | a
            · left; exact ⟨a1, a2, by omega, a4⟩
            · right
              intro k h1 h2
              by_cases hk : k = j
              · rw [hk]; exact hlt
              · exact a k h1 (by omega))
          (by
            intro k h1 h2
            by_cases hk : k = j
            · rw [hk]; exact le_of_lt hlt
            · exact hlow k h1 (by omega))
        exact ⟨v, r1, r2⟩

theorem Max_eq_max {K : Type} [LinearOrderedField K] (a b : K) : Max a b = max a b := by
  unfold Max
  by_cases h : a > b
  · rw [if_pos h, max_eq_left (le_of_lt h)]
  · rw [if_neg h, max_eq_right (not_lt.1 h)]

theorem seekLeft_eq {K : Type} [LinearOrderedField K] (h : K) (l : List (peak K)) :
    seekLeft h l = (match l.find? (fun q => decide (h < q.height)) with
      | some q => q.location
      | none => 0) := by
  induction l with
  | nil => rfl
  | cons p rest ih =>
    rw [seekLeft, List.find?_cons]
    by_cases hp : p.height > h
    · rw [if_pos hp]
      have : decide (h < p.height) = true := by simpa using hp
      rw [this]
    · rw [if_neg hp]
      have : decide (h < p.height) = false := by simpa using hp
      rw [this]
      exact ih

theorem seekRight_eq {K : Type} [LinearOrderedField K] (h : K) (edge : Nat)
    (l : List (peak K)) :
    seekRight h edge l = (match l.find? (fun q => decide (h < q.height)) with
      | some q => q.location
      | none => edge) := by
  induction l with
  | nil => rfl
  | cons p rest ih =>
    rw [seekRight, List.find?_cons]
    by_cases hp : p.height > h
    · rw [if_pos hp]
      have : decide (h < p.height) = true := by simpa using hp
      rw [this]
    · rw [if_neg hp]
      have : decide (h < p.height) = false := by simpa using hp
      rw [this]
      exact ih

theorem seekLeft_cases {K : Type} [LinearOrderedField K] (h : K) (l : List (peak K)) :
    seekLeft h l = 0 ∨ ∃ q ∈ l, seekLeft h l = q.location := by
  induction l with
  | nil => left; rfl
  | cons p rest ih =>
    rw [seekLeft]
    by_cases hp : p.height > h
    · rw [if_pos hp]
      exact Or.inr ⟨p, List.mem_cons_self _ _, rfl⟩
    · rw [if_neg hp]
      rcases ih with g | ⟨q, hq, g⟩
      · exact Or.inl g
      · exact Or.inr ⟨q, List.mem_cons_of_mem _ hq, g⟩

theorem seekRight_cases {K : Type} [LinearOrderedField K] (h : K) (edge : Nat)
    (l : List (peak K)) :
    seekRight h edge l = edge ∨ ∃ q ∈ l, seekRight h edge l = q.location := by
  induction l with
  | nil => left; rfl
  | cons p rest ih =>
    rw [seekRight]
    by_cases hp : p.height > h
    · rw [if_pos hp]
      exact Or.inr ⟨p, List.mem_cons_self _ _, rfl⟩
    · rw [if_neg hp]
      rcases ih with g | ⟨q, hq, g⟩
      · exact Or.inl g
      · exact Or.inr ⟨q, List.mem_cons_of_mem _ hq, g⟩

theorem int32cast_small (v : Nat) (h : v < 2 ^ 31) : int32cast v = v := by
  unfold int32cast
  have e : v % 2 ^ 32 = v := Nat.mod_eq_of_lt (by omega)
  rw [e, if_pos h]

/-- What `PeakProminence` computes for one peak of a list sorted by location
whose peaks are local maxima inside the spectrum: nothing is thrown, the loops
end, and the height is the prominence of the specification. -/
theorem prominenceAt_spec {K : Type} [LinearOrderedField K] (s : List K)
    (peaks : List (peak K)) (hn : s.length ≤ 2 ^ 31)
    (hs : (peaks.map (fun p => p.location)).Pairwise (fun a b => a < b))
    (hloc : ∀ p ∈ peaks, 1 ≤ p.location ∧ p.location + 2 ≤ s.length)
    (hmax : ∀ p ∈ peaks, s.getD (p.location - 1) 0 ≤ p.height ∧
      s.getD (p.location + 1) 0 ≤ p.height)
    (i : Nat) (hi : i < peaks.length) :
    prominenceAt s peaks i = some (prominenceSpec s peaks i) := by
  obtain ⟨p, hp⟩ : ∃ p, p = peaks[i] := ⟨_, rfl⟩
  have hmem : p ∈ peaks := by rw [hp]; exact List.getElem_mem hi
  have hsplit : peaks = peaks.take i ++ p :: peaks.drop (i + 1) := by
    rw [hp, ← List.drop_eq_getElem_cons hi, List.take_append_drop]
  have hpair := hs
  rw [hsplit, List.map_append, List.map_cons, List.pairwise_append] at hpair
  obtain ⟨-, hright, hleft⟩ := hpair
  rw [List.pairwise_cons] at hright
  have hL : ∀ q ∈ peaks.take i, q.location < p.location := by
    intro q hq
    exact hleft q.location (List.mem_map.2 ⟨q, hq, rfl⟩) p.location (List.mem_cons_self _ _)
  have hR : ∀ q ∈ peaks.drop (i + 1), p.location < q.location := by
    intro q hq
    exact hright.1 q.location (List.mem_map.2 ⟨q, hq, rfl⟩)
  obtain ⟨hl1, hl2⟩ := hloc p hmem
  obtain ⟨hm1, hm2⟩ := hmax p hmem
  have hpow : (2 : Nat) ^ 31 = 2147483648 := by norm_num
  have hsizet : SIZE_T_MOD = 18446744073709551616 := by unfold SIZE_T_MOD; norm_num
  have hd1 : decSizeT p.location = p.location - 1 := by
    unfold decSizeT; rw [if_neg (by omega)]
  have hd2 : decSizeT s.length = s.length - 1 := by
    unfold decSizeT; rw [if_neg (by omega)]
  -- the bounds of the two walks
  obtain ⟨l, hldef⟩ : ∃ l, l = seekLeft p.height (peaks.take i).reverse := ⟨_, rfl⟩
  obtain ⟨r, hrdef⟩ : ∃ r, r = seekRight p.height (s.length - 1) (peaks.drop (i + 1)) :=
    ⟨_, rfl⟩
  have hl : l + 1 ≤ p.location := by
    rcases seekLeft_cases p.height (peaks.take i).reverse with g | ⟨q, hq, g⟩
    · rw [hldef, g]; omega
    · rw [hldef, g]
      have := hL q (List.mem_reverse.1 hq)
      omega
  have hr : p.location + 1 ≤ r ∧ r < s.length := by
    rcases seekRight_cases p.height (s.length - 1) (peaks.drop (i + 1)) with g | ⟨q, hq, g⟩
    · rw [hrdef, g]; omega
    · rw [hrdef, g]
      have h1 := hR q hq
      have h2 := (hloc q (List.mem_of_mem_drop hq)).2
      omega
  -- the walk to the left
  obtain ⟨vl, a1, a2⟩ := scanLeft_spec s p.location l (p.location - 1) (by omega) (by omega)
    (by omega) (p.location - l) (p.location + 1) p.height 0 (by omega) (by omega)
    (Or.inr (fun k h1 h2 => by omega)) (fun k h1 h2 => by omega)
  have e1 : l + (p.location - l) = p.location := by omega
  rw [e1, hd1] at a1
  have hvl : 0 ≤ vl ∧ vl.toNat < s.length ∧ s.getD vl.toNat 0 = rangeMin s l (p.location - 1) := by
    rcases a2 with ⟨b1, b2, b3, b4, -⟩ | ⟨-, b⟩
    · exact ⟨b1, by omega, rangeMin_unique s l (p.location - 1) _ (by omega)
        ⟨vl.toNat, b2, b3, rfl⟩ b4⟩
    · exact absurd (b (p.location - 1) (by omega) (le_refl _)) (not_lt.2 hm1)
  -- the walk to the right
  obtain ⟨vr, c1, c2⟩ := scanRight_spec s p.location (p.location + 1) r
    (by rw [int32cast_small r (by omega)]; omega) hr.2 (r - p.location) (s.length + 1)
    (p.location + 1) p.height 0 (by omega) (by omega) (le_refl _)
    (Or.inr (fun k h1 h2 => by omega)) (fun k h1 h2 => by omega)
  have hvr : 0 ≤ vr ∧ vr.toNat < s.length ∧
      s.getD vr.toNat 0 = rangeMin s (p.location + 1) r := by
    rcases c2 with ⟨b1, b2, b3, b4, -⟩ | ⟨-, b⟩
    · exact ⟨b1, by omega, rangeMin_unique s (p.location + 1) r _ (by omega)
        ⟨vr.toNat, b2, b3, rfl⟩ b4⟩
    · exact absurd (b (p.location + 1) (le_refl _) (by omega)) (not_lt.2 hm2)
  have hvh : ∀ v : Int, 0 ≤ v → v.toNat < s.length →
      valleyHeight s v = some (s.getD v.toNat 0) := by
    intro v h0 h1
    unfold valleyHeight
    rw [if_neg (by omega)]
    exact getElem?_getD_zero s _ h1
  unfold prominenceAt
  rw [List.getElem?_eq_getElem hi, Option.some_bind, ← hp]
  rw [hd1, hd2, ← hldef, ← hrdef, a1, Option.some_bind, c1, Option.some_bind,
    hvh vl hvl.1 hvl.2.1, Option.some_bind, hvh vr hvr.1 hvr.2.1, Option.some_bind,
    hvl.2.2, hvr.2.2, Max_eq_max]
  unfold prominenceSpec
  have hgd : peaks.getD i ⟨0, 0⟩ = p := by
    rw [List.getD_eq_getElem?_getD, List.getElem?_eq_getElem hi, hp]
    rfl
  simp only [hgd]
  rw [hldef, hrdef, seekLeft_eq, seekRight_eq]

theorem prominenceLoop_spec {K : Type} [LinearOrderedField K] (s : List K)
    (peaks : List (peak K))
    (hat : ∀ i, i < peaks.length → prominenceAt s peaks i = some (prominenceSpec s peaks i))
    (l : List Nat) (hl : ∀ i ∈ l, i < peaks.length) :
    prominenceLoop s peaks l = some (l.map (prominenceSpec s peaks)) := by
  induction l with
  | nil => rfl
  | cons i rest ih =>
    rw [prominenceLoop, hat i (hl i (List.mem_cons_self _ _)), Option.some_bind,
      ih (fun j hj => hl j (List.mem_cons_of_mem _ hj))]
    rfl

/-- `PeakProminence` on a list of peaks sorted by location that are local
maxima inside a spectrum of at most `2^31` samples: it returns the prominences
of the specification, peak by peak. -/
theorem PeakProminence_spec {K : Type} [LinearOrderedField K] (s : List K)
    (peaks : List (peak K)) (hn : s.length ≤ 2 ^ 31)
    (hs : (peaks.map (fun p => p.location)).Pairwise (fun a b => a < b))
    (hloc : ∀ p ∈ peaks, 1 ≤ p.location ∧ p.location + 2 ≤ s.length)
    (hmax : ∀ p ∈ peaks, s.getD (p.location - 1) 0 ≤ p.height ∧
      s.getD (p.location + 1) 0 ≤ p.height) :
    PeakProminence s peaks = some ((List.range peaks.length).map (prominenceSpec s peaks)) :=
  prominenceLoop_spec s peaks (prominenceAt_spec s peaks hn hs hloc hmax) _
    (fun i hi => List.mem_range.1 hi)

theorem testSpectrum_tail (j : Nat) (h : 7 ≤ j) : testSpectrum.getD j 0 = 0 := by
  unfold testSpectrum
  rw [List.getD_eq_getElem?_getD, List.getElem?_append_right (by simpa using h),
    List.getElem?_replicate]
  split_ifs <;> rfl

theorem testSpectrum_head (j : Nat) (h : j < 7) :
    testSpectrum.getD j 0 = ([0, 41 / 5, 5, 7, 6, 31 / 5, 8] : List ℚ).getD j 0 := by
  unfold testSpectrum
  rw [List.getD_eq_getElem?_getD, List.getD_eq_getElem?_getD,
    List.getElem?_append_left (by simpa using h)]

theorem testSpectrum_nonneg (j : Nat) : 0 ≤ testSpectrum.getD j 0 := by
  by_cases h : 7 ≤ j
  · rw [testSpectrum_tail j h]
  · have hj : j < 7 := by omega
    rw [testSpectrum_head j hj]
    interval_cases j <;> simp <;> norm_num

theorem testSpectrum_length : testSpectrum.length = 512 := by
  rw [testSpectrum, List.length_append, List.length_replicate]
  rfl

theorem testSpectrum_values :
    rangeMin testSpectrum 0 0 = 0 ∧ rangeMin testSpectrum 2 511 = 0 ∧
    rangeMin testSpectrum 1 2 = 5 ∧ rangeMin testSpectrum 4 6 = 6 ∧
    rangeMin testSpectrum 1 5 = 5 ∧ rangeMin testSpectrum 7 511 = 0 := by
  refine ⟨?_, ?_, ?_, ?_, ?_, ?_⟩
  · exact (rangeMin_unique testSpectrum 0 0 0 (le_refl _) ⟨0, le_refl _, le_refl _, rfl⟩
      (fun j _ _ => testSpectrum_nonneg j)).symm
  · exact (rangeMin_unique testSpectrum 2 511 0 (by omega)
      ⟨7, by omega, by omega, testSpectrum_tail 7 (le_refl _)⟩
      (fun j _ _ => testSpectrum_nonneg j)).symm
  · refine (rangeMin_unique testSpectrum 1 2 5 (by omega) ⟨2, by omega, by omega, rfl⟩
      ?_).symm
    intro j h1 h2
    rw [testSpectrum_head j (by omega)]
    interval_cases j <;> simp <;> norm_num
  · refine (rangeMin_unique testSpectrum 4 6 6 (by omega) ⟨4, by omega, by omega, rfl⟩
      ?_).symm
    intro j h1 h2
    rw [testSpectrum_head j (by omega)]
    interval_cases j <;> simp <;> norm_num
  · refine (rangeMin_unique testSpectrum 1 5 5 (by omega) ⟨2, by omega, by omega, rfl⟩
      ?_).symm
    intro j h1 h2
    rw [testSpectrum_head j (by omega)]
    interval_cases j <;> simp <;> norm_num
  · exact (rangeMin_unique testSpectrum 7 511 0 (by omega)
      ⟨7, by omega, by omega, testSpectrum_tail 7 (le_refl _)⟩
      (fun j _ _ => testSpectrum_nonneg j)).symm

theorem testPeaks_ok :
    testSpectrum.length ≤ 2 ^ 31 ∧
    (testPeaks.map (fun p => p.location)).Pairwise (fun a b => a < b) ∧
    (∀ p ∈ testPeaks, 1 ≤ p.location ∧ p.location + 2 ≤ testSpectrum.length) ∧
    (∀ p ∈ testPeaks, testSpectrum.getD (p.location - 1) 0 ≤ p.height ∧
      testSpectrum.getD (p.location + 1) 0 ≤ p.height) := by
  refine ⟨by rw [testSpectrum_length]; norm_num, by decide, ?_, ?_⟩
  · intro p hp
    rw [testSpectrum_length]
    simp only [testPeaks, List.mem_cons, List.mem_singleton, List.not_mem_nil, or_false] at hp
    rcases hp with h | h | h <;> subst h <;> exact ⟨by decide, by decide⟩
  · intro p hp
    simp only [testPeaks, List.mem_cons, List.mem_singleton, List.not_mem_nil, or_false] at hp
    rcases hp with h | h | h <;> subst h
    · constructor
      · show testSpectrum.getD 0 0 ≤ (41 / 5 : ℚ)
        rw [testSpectrum_head 0 (by decide)]; norm_num
      · show testSpectrum.getD 2 0 ≤ (41 / 5 : ℚ)
        rw [testSpectrum_head 2 (by decide)]; norm_num
    · constructor
      · show testSpectrum.getD 2 0 ≤ (7 : ℚ)
        rw [testSpectrum_head 2 (by decide)]; norm_num
      · show testSpectrum.getD 4 0 ≤ (7 : ℚ)
        rw [testSpectrum_head 4 (by decide)]; norm_num
    · constructor
      · show testSpectrum.getD 5 0 ≤ (8 : ℚ)
        rw [testSpectrum_head 5 (by decide)]; norm_num
      · show testSpectrum.getD 7 0 ≤ (8 : ℚ)
        rw [testSpectrum_tail 7 (le_refl _)]; norm_num

theorem testProminences :
    (List.range testPeaks.length).map (prominenceSpec testSpectrum testPeaks) =
      [⟨1, 41 / 5⟩, ⟨3, 1⟩, ⟨6, 3⟩] := by
  obtain ⟨v1, v2, v3, v4, v5, v6⟩ := testSpectrum_values
  have hr : List.range testPeaks.length = [0, 1, 2] := by decide
  rw [hr]
  simp only [List.map_cons, List.map_nil, prominenceSpec, testPeaks, testSpectrum_length]
  norm_num [List.find?, v1, v2, v3, v4, v5, v6]

theorem FilterPeakCriterion_eq_filter {K : Type} [LinearOrderedField K] (l : List (peak K))
    (t : K) : FilterPeakCriterion l t = l.filter (fun p => decide (t ≤ p.height)) := by
  induction l with
  | nil => rfl
  | cons p rest ih =>
    rw [FilterPeakCriterion, List.filter_cons]
    by_cases hp : p.height ≥ t
    · rw [if_pos hp, ih]
      have : decide (t ≤ p.height) = true := by simpa using hp
      rw [this]
      rfl
    · rw [if_neg hp, ih]
      have : decide (t ≤ p.height) = false := by simpa using hp
      rw [this]
      rfl

theorem peakHeights_spec {K : Type} [LinearOrderedField K] (s : List K) (l : List (peak K))
    (h : ∀ p ∈ l, p.location < s.length) :
    peakHeights s l = some (l.map (fun p => ⟨p.location, s.getD p.location 0⟩)) := by
  induction l with
  | nil => rfl
  | cons p rest ih =>
    rw [peakHeights, getElem?_getD_zero s p.location (h p (List.mem_cons_self _ _)),
      Option.some_bind, ih (fun q hq => h q (List.mem_cons_of_mem _ hq))]
    rfl

theorem prominenceSpec_location {K : Type} [LinearOrderedField K] (s : List K)
    (peaks : List (peak K)) :
    ((List.range peaks.length).map (prominenceSpec s peaks)).map (fun p => p.location) =
      peaks.map (fun p => p.location) := by
  apply List.ext_getElem
  · simp
  · intro i h1 h2
    have hi : i < peaks.length := by simpa using h2
    simp only [List.getElem_map, List.getElem_range, prominenceSpec]
    rw [List.getD_eq_getElem?_getD, List.getElem?_eq_getElem hi]
    rfl

/-- On a vector of one or two samples the loop of `FindAllPeakLocations` is not
entered. -/
theorem FindAllPeakLocations_short {K : Type} [LinearOrderedField K] (x : List K)
    (h1 : 1 ≤ x.length) (h2 : x.length ≤ 2) : FindAllPeakLocations x = some [] := by
  unfold FindAllPeakLocations
  have hd : decSizeT x.length = x.length - 1 := by
    unfold decSizeT; rw [if_neg (by omega)]
  rw [hd]
  obtain ⟨f, hf⟩ : ∃ f, x.length = f + 1 := ⟨x.length - 1, by omega⟩
  rw [hf, findAllLoop, if_neg (by omega)]

theorem FindAllPeakLocations_empty {K : Type} [LinearOrderedField K] :
    FindAllPeakLocations ([] : List K) = none := by
  unfold FindAllPeakLocations
  rw [List.length_nil, findAllLoop]
  rfl

/-- The peaks that `FindAllPeakLocations` returns, and every sublist of them
kept by a filter, are sorted by location and are local maxima inside the
spectrum. -/
theorem FindAllPeakLocations_peaks {K : Type} [LinearOrderedField K] (x : List K)
    (ps : List (peak K)) (h : FindAllPeakLocations x = some ps) (f : peak K → Bool) :
    ((ps.filter f).map (fun p => p.location)).Pairwise (fun a b => a < b) ∧
    (∀ p ∈ ps.filter f, 1 ≤ p.location ∧ p.location + 2 ≤ x.length) ∧
    (∀ p ∈ ps.filter f, x.getD (p.location - 1) 0 ≤ p.height ∧
      x.getD (p.location + 1) 0 ≤ p.height) ∧
    (∀ p ∈ ps, p.height = x.getD p.location 0) := by
  by_cases hn : 3 ≤ x.length
  · obtain ⟨r1, -⟩ := FindAllPeakLocations_spec x hn
    obtain ⟨s1, s2⟩ := r1 ps h
    refine ⟨?_, ?_, ?_, ?_⟩
    · exact List.Pairwise.sublist ((List.filter_sublist ps).map _) s1
    · intro p hp
      obtain ⟨a, -⟩ := (s2 p).1 (List.mem_of_mem_filter hp)
      exact ⟨a.1, a.2.1⟩
    · intro p hp
      obtain ⟨⟨a1, a2, a3, j, j1, j2, j3, j4⟩, b⟩ := (s2 p).1 (List.mem_of_mem_filter hp)
      rw [b]
      refine ⟨le_of_lt a3, ?_⟩
      by_cases hj : j = p.location
      · rw [hj] at j4; exact le_of_lt j4
      · exact le_of_eq (j3 (p.location + 1) (by omega) (by omega))
    · intro p hp
      exact ((s2 p).1 hp).2
  · have hps : ps = [] := by
      by_cases h0 : x.length = 0
      · have hx : x = [] := List.length_eq_zero.1 h0
        rw [hx, FindAllPeakLocations_empty] at h
        exact absurd h (by simp)
      · rw [FindAllPeakLocations_short x (by omega) (by omega)] at h
        simp only [Option.some.injEq] at h
        exact h.symm
    subst hps
    refine ⟨by simp, ?_, ?_, ?_⟩ <;> intro p hp <;> simp at hp

/-- `FindPeaks` on a spectrum of at most `2^31` samples on which
`FindAllPeakLocations` returns: it returns the peaks of at least the minimum
height whose prominence among these peaks is at least the minimum
prominence, with their heights in the spectrum. -/
theorem FindPeaks_spec {K : Type} [LinearOrderedField K] (s : List K) (mp mh : K)
    (all : List (peak K)) (hn : s.length ≤ 2 ^ 31) (h : FindAllPeakLocations s = some all) :
    PeakProminence s (all.filter (fun p => decide (mh ≤ p.height))) =
      some ((List.range (all.filter (fun p => decide (mh ≤ p.height))).length).map
        (prominenceSpec s (all.filter (fun p => decide (mh ≤ p.height))))) ∧
    FindPeaks s mp mh = some
      ((((List.range (all.filter (fun p => decide (mh ≤ p.height))).length).map
        (prominenceSpec s (all.filter (fun p => decide (mh ≤ p.height))))).filter
          (fun q => decide (mp ≤ q.height))).map
        (fun q => ⟨q.location, s.getD q.location 0⟩)) := by
  obtain ⟨a1, a2, a3, -⟩ := FindAllPeakLocations_peaks s all h (fun p => decide (mh ≤ p.height))
  have hprom := PeakProminence_spec s _ hn a1 a2 a3
  refine ⟨hprom, ?_⟩
  obtain ⟨H, hH⟩ : ∃ H, H = all.filter (fun p => decide (mh ≤ p.height)) := ⟨_, rfl⟩
  rw [← hH] at hprom a2 ⊢
  unfold FindPeaks
  rw [h, Option.some_bind, FilterPeakCriterion_eq_filter, ← hH]
  have hHnil : H = [] → (((List.range H.length).map (prominenceSpec s H)).filter
      (fun q => decide (mp ≤ q.height))).map
        (fun q => (⟨q.location, s.getD q.location 0⟩ : peak K)) = [] := by
    intro e; rw [e]; rfl
  by_cases hall : all.isEmpty = true
  · rw [if_pos hall]
    have e : all = [] := List.isEmpty_iff.1 hall
    have eH : H = [] := by rw [hH, e]; rfl
    rw [hHnil eH, e]
  · rw [if_neg hall]
    by_cases hHe : H.isEmpty = true
    · rw [if_pos hHe, hHnil (List.isEmpty_iff.1 hHe)]
    · rw [if_neg hHe, hprom, Option.some_bind, FilterPeakCriterion_eq_filter]
      apply peakHeights_spec
      intro q hq
      have hq2 := List.mem_of_mem_filter hq
      have hloc : q.location ∈ ((List.range H.length).map (prominenceSpec s H)).map
          (fun p => p.location) := List.mem_map.2 ⟨q, hq2, rfl⟩
      rw [prominenceSpec_location] at hloc
      obtain ⟨p, hp, e⟩ := List.mem_map.1 hloc
      have := (a2 p hp).2
      omega

theorem zip_filter_map {α β : Type} (g : β → α) (c : β → Bool) (A : List α) (B : List β)
    (hlen : A.length = B.length)
    (hg : ∀ (k : Nat) (a : α) (b : β), A[k]? = some a → B[k]? = some b → g b = a) :
    (B.filter c).map g = ((A.zip B).filter (fun x => c x.2)).map (fun x => x.1) := by
  induction A generalizing B with
  | nil =>
    cases B with
    | nil => rfl
    | cons b B => simp at hlen
  | cons a A ih =>
    cases B with
    | nil => simp at hlen
    | cons b B =>
      have hab : g b = a := hg 0 a b (by simp) (by simp)
      have ih2 := ih B (by simpa using hlen)
        (fun k a2 b2 h1 h2 => hg (k + 1) a2 b2 (by simpa using h1) (by simpa using h2))
      rw [List.zip_cons_cons, List.filter_cons, List.filter_cons]
      by_cases hc : c b = true
      · simp only [hc, if_true, List.map_cons]
        rw [ih2, hab]
      · simp only [hc, Bool.false_eq_true, if_false]
        exact ih2

/-- C23: for every vector `x` of at least three samples on which
`FindAllPeakLocations` returns, the result lists, in strictly increasing order
of the index, exactly the pairs `(i, x[i])` with `1 <= i <= n - 2`,
`x[i-1] < x[i]` and, for some `j` with `i <= j <= n - 2`, `x[i..j]` all equal
and `x[j+1] < x[i]`; the function fails to return only on a plateau that
begins after a rise and extends to the last sample. -/
theorem C23_find_all_peak_locations {K : Type} [LinearOrderedField K] (x : List K)
    (hn : 3 ≤ x.length) :
    (∀ ps, FindAllPeakLocations x = some ps →
      (ps.map (fun p => p.location)).Pairwise (fun a b => a < b) ∧
      (∀ i v, (⟨i, v⟩ : peak K) ∈ ps ↔ (IsPeakAt x i ∧ v = x.getD i 0)) ∧
      ∀ p ∈ ps, 1 ≤ p.location ∧ p.location + 2 ≤ x.length) ∧
    (FindAllPeakLocations x = none → ∃ k, RisingPlateauToEnd x k) := by
  obtain ⟨r1, r2⟩ := FindAllPeakLocations_spec x hn
  refine ⟨?_, r2⟩
  intro ps hps
  obtain ⟨s1, s2⟩ := r1 ps hps
  refine ⟨s1, fun i v => s2 ⟨i, v⟩, ?_⟩
  intro p hp
  obtain ⟨a, -⟩ := (s2 p).1 hp
  exact ⟨a.1, a.2.1⟩

theorem C23_find_all_peak_locations_witness :
    3 ≤ ([0, 1, 0, 2, 2, 1, 3, 3, 4, 0] : List ℚ).length ∧
    FindAllPeakLocations ([0, 1, 0, 2, 2, 1, 3, 3, 4, 0] : List ℚ) =
      some [⟨1, 1⟩, ⟨3, 2⟩, ⟨8, 4⟩] ∧
    ((∀ ps, FindAllPeakLocations ([0, 1, 0, 2, 2, 1, 3, 3, 4, 0] : List ℚ) = some ps →
      (ps.map (fun p => p.location)).Pairwise (fun a b => a < b) ∧
      (∀ i v, (⟨i, v⟩ : peak ℚ) ∈ ps ↔
        (IsPeakAt ([0, 1, 0, 2, 2, 1, 3, 3, 4, 0] : List ℚ) i ∧
          v = ([0, 1, 0, 2, 2, 1, 3, 3, 4, 0] : List ℚ).getD i 0)) ∧
      ∀ p ∈ ps, 1 ≤ p.location ∧
        p.location + 2 ≤ ([0, 1, 0, 2, 2, 1, 3, 3, 4, 0] : List ℚ).length) ∧
    (FindAllPeakLocations ([0, 1, 0, 2, 2, 1, 3, 3, 4, 0] : List ℚ) = none →
      ∃ k, RisingPlateauToEnd ([0, 1, 0, 2, 2, 1, 3, 3, 4, 0] : List ℚ) k)) :=
  ⟨by decide, by decide!,
    C23_find_all_peak_locations ([0, 1, 0, 2, 2, 1, 3, 3, 4, 0] : List ℚ) (by decide)⟩

/-- C24: for every spectrum (of at most `2^31` samples, the range of the `int`
valley indexes) and every list of peaks sorted by increasing location whose
entries are local maxima of the spectrum at locations in `[1, n - 2]`,
`PeakProminence` returns a list of the same length with the same locations in
which the entry `i` has the height `h_i - max(vL, vR)`, `vL` and `vR` being
the minima of the spectrum between the peak and the nearest strictly higher
peak of the list (or the edge) to the left and to the right; on the test
spectrum with the peaks at 1, 3 and 6 it returns `8.2, 1, 3`. -/
theorem C24_peak_prominence {K : Type} [LinearOrderedField K] (s : List K)
    (peaks : List (peak K)) (hn : s.length ≤ 2 ^ 31)
    (hs : (peaks.map (fun p => p.location)).Pairwise (fun a b => a < b))
    (hloc : ∀ p ∈ peaks, 1 ≤ p.location ∧ p.location + 2 ≤ s.length)
    (hmax : ∀ p ∈ peaks, s.getD (p.location - 1) 0 ≤ p.height ∧
      s.getD (p.location + 1) 0 ≤ p.height) :
    (∃ out, PeakProminence s peaks = some out ∧ out.length = peaks.length ∧
      out.map (fun p => p.location) = peaks.map (fun p => p.location) ∧
      ∀ i, i < peaks.length → out[i]? = some (prominenceSpec s peaks i)) ∧
    PeakProminence testSpectrum testPeaks = some [⟨1, 41 / 5⟩, ⟨3, 1⟩, ⟨6, 3⟩] := by
  constructor
  · refine ⟨_, PeakProminence_spec s peaks hn hs hloc hmax, by simp,
      prominenceSpec_location s peaks, ?_⟩
    intro i hi
    rw [List.getElem?_map, List.getElem?_range hi]
    rfl
  · obtain ⟨t1, t2, t3, t4⟩ := testPeaks_ok
    rw [PeakProminence_spec testSpectrum testPeaks t1 t2 t3 t4, testProminences]

theorem C24_peak_prominence_witness :
    (testSpectrum.length ≤ 2 ^ 31 ∧
      (testPeaks.map (fun p => p.location)).Pairwise (fun a b => a < b) ∧
      (∀ p ∈ testPeaks, 1 ≤ p.location ∧ p.location + 2 ≤ testSpectrum.length) ∧
      (∀ p ∈ testPeaks, testSpectrum.getD (p.location - 1) 0 ≤ p.height ∧
        testSpectrum.getD (p.location + 1) 0 ≤ p.height)) ∧
    ((∃ out, PeakProminence testSpectrum testPeaks = some out ∧
        out.length = testPeaks.length ∧
        out.map (fun p => p.location) = testPeaks.map (fun p => p.location) ∧
        ∀ i, i < testPeaks.length → out[i]? = some (prominenceSpec testSpectrum testPeaks i)) ∧
      PeakProminence testSpectrum testPeaks = some [⟨1, 41 / 5⟩, ⟨3, 1⟩, ⟨6, 3⟩]) :=
  ⟨testPeaks_ok, C24_peak_prominence testSpectrum testPeaks testPeaks_ok.1 testPeaks_ok.2.1
    testPeaks_ok.2.2.1 testPeaks_ok.2.2.2⟩

/-- C25: for every spectrum (of at most `2^31` samples) on which
`FindAllPeakLocations` returns the peaks `all`, `FindPeaks(spectrum,
min_prominence, min_height)` returns: `PeakProminence` returns the prominences
`proms` of the peaks of height `>= min_height`, one for each, and the result
is, in increasing order of the location, the list of those of these peaks whose
prominence is `>= min_prominence`, each as `(loc, spectrum[loc])`, hence empty
when no peak survives; `FilterPeakCriterion` keeps exactly the entries with
height `>=` its threshold, in order. -/
theorem C25_find_peaks {K : Type} [LinearOrderedField K] (s : List K) (mp mh : K)
    (all : List (peak K)) (hn : s.length ≤ 2 ^ 31) (h : FindAllPeakLocations s = some all) :
    (∀ (l : List (peak K)) (t : K),
      FilterPeakCriterion l t = l.filter (fun p => decide (t ≤ p.height))) ∧
    ∃ proms out,
      PeakProminence s (FilterPeakCriterion all mh) = some proms ∧
      proms.length = (FilterPeakCriterion all mh).length ∧
      FindPeaks s mp mh = some out ∧
      out = (FilterPeakCriterion proms mp).map (fun q => ⟨q.location, s.getD q.location 0⟩) ∧
      out = (((FilterPeakCriterion all mh).zip proms).filter
        (fun pq => decide (mp ≤ pq.2.height))).map (fun pq => pq.1) ∧
      (out.map (fun p => p.location)).Pairwise (fun a b => a < b) := by
  refine ⟨FilterPeakCriterion_eq_filter, ?_⟩
  obtain ⟨r1, r2⟩ := FindPeaks_spec s mp mh all hn h
  obtain ⟨a1, a2, a3, a4⟩ := FindAllPeakLocations_peaks s all h (fun p => decide (mh ≤ p.height))
  obtain ⟨H, hH⟩ : ∃ H, H = all.filter (fun p => decide (mh ≤ p.height)) := ⟨_, rfl⟩
  rw [← hH] at r1 r2 a1 a2 a3
  rw [FilterPeakCriterion_eq_filter all mh, ← hH]
  have hlocs := prominenceSpec_location s H
  obtain ⟨P, hP⟩ : ∃ P, P = (List.range H.length).map (prominenceSpec s H) := ⟨_, rfl⟩
  rw [← hP] at r1 r2 hlocs
  have hlen : P.length = H.length := by rw [hP]; simp
  refine ⟨P, _, r1, hlen, r2, by rw [FilterPeakCriterion_eq_filter], ?_, ?_⟩
  · apply zip_filter_map _ _ H P hlen.symm
    intro k a b ha hb
    have hk : k < H.length := by
      by_contra hge
      rw [List.getElem?_eq_none (by omega)] at ha
      exact absurd ha (by simp)
    rw [List.getElem?_eq_getElem hk] at ha
    simp only [Option.some.injEq] at ha
    have hb2 : b = prominenceSpec s H k := by
      rw [hP, List.getElem?_map, List.getElem?_range hk] at hb
      simpa using hb.symm
    have hbl : b.location = a.location := by
      rw [hb2, ← ha]
      simp only [prominenceSpec]
      rw [List.getD_eq_getElem?_getD, List.getElem?_eq_getElem hk]
      rfl
    have hmem : a ∈ all := by
      have h1 : a ∈ H := by rw [← ha]; exact List.getElem_mem hk
      rw [hH] at h1
      exact List.mem_of_mem_filter h1
    have := a4 a hmem
    rw [hbl, ← this]
  · rw [List.map_map]
    have hsub : ((P.filter (fun q => decide (mp ≤ q.height))).map (fun p => p.location)).Sublist
        (P.map (fun p => p.location)) := (List.filter_sublist P).map _
    rw [hlocs] at hsub
    exact List.Pairwise.sublist hsub a1

theorem C25_find_peaks_witness :
    (([0, 41 / 5, 5, 7, 6, 31 / 5, 8, 0] : List ℚ).length ≤ 2 ^ 31 ∧
      FindAllPeakLocations ([0, 41 / 5, 5, 7, 6, 31 / 5, 8, 0] : List ℚ) =
        some [⟨1, 41 / 5⟩, ⟨3, 7⟩, ⟨6, 8⟩]) ∧
    FindPeaks ([0, 41 / 5, 5, 7, 6, 31 / 5, 8, 0] : List ℚ) 4 (15 / 2) = some [⟨1, 41 / 5⟩] ∧
    ((∀ (l : List (peak ℚ)) (t : ℚ),
      FilterPeakCriterion l t = l.filter (fun p => decide (t ≤ p.height))) ∧
    ∃ proms out,
      PeakProminence ([0, 41 / 5, 5, 7, 6, 31 / 5, 8, 0] : List ℚ)
        (FilterPeakCriterion [⟨1, 41 / 5⟩, ⟨3, 7⟩, ⟨6, 8⟩] (15 / 2)) = some proms ∧
      proms.length = (FilterPeakCriterion ([⟨1, 41 / 5⟩, ⟨3, 7⟩, ⟨6, 8⟩] : List (peak ℚ))
        (15 / 2)).length ∧
      FindPeaks ([0, 41 / 5, 5, 7, 6, 31 / 5, 8, 0] : List ℚ) 4 (15 / 2) = some out ∧
      out = (FilterPeakCriterion proms 4).map
        (fun q => ⟨q.location, ([0, 41 / 5, 5, 7, 6, 31 / 5, 8, 0] : List ℚ).getD q.location 0⟩) ∧
      out = (((FilterPeakCriterion ([⟨1, 41 / 5⟩, ⟨3, 7⟩, ⟨6, 8⟩] : List (peak ℚ))
        (15 / 2)).zip proms).filter
        (fun pq => decide ((4 : ℚ) ≤ pq.2.height))).map (fun pq => pq.1) ∧
      (out.map (fun p => p.location)).Pairwise (fun a b => a < b)) :=
  ⟨⟨by decide, by decide!⟩, by decide!,
    C25_find_peaks ([0, 41 / 5, 5, 7, 6, 31 / 5, 8, 0] : List ℚ) 4 (15 / 2)
      [⟨1, 41 / 5⟩, ⟨3, 7⟩, ⟨6, 8⟩] (by decide) (by decide!)⟩

theorem resizeVec_length (v : List Nat) (n : Nat) : (resizeVec v n).length = n := by
  unfold resizeVec
  rw [List.length_append, List.length_take, List.length_replicate]
  omega

theorem getD_beyond (l : List Nat) (t : Nat) (h : l.length ≤ t) : l.getD t 0 = 0 := by
  rw [List.getD_eq_getElem?_getD, List.getElem?_eq_none h]
  rfl

/-- The first loop of `initMaxDescendant` writes the upper half of
`maxDescendants`, whatever it held. -/
theorem initMaxLeaves_agree (signal : List Int) (q : Nat) (md0 md0' : List Nat)
    (hl : md0.length = 2 * q) (hl' : md0'.length = 2 * q) (c : Nat) (hc : c ≤ q) :
    let f := fun (md : List Nat) (i : Nat) =>
      let v1 := (signal.getD (2 * q + 2 * i) 0).natAbs
      let v2 := (signal.getD (2 * q + 2 * i + 1) 0).natAbs
      md.set (((2 * q) >>> 1) + i) (if v1 > v2 then v1 else v2)
    ((List.range c).foldl f md0).length = 2 * q ∧
    ((List.range c).foldl f md0').length = 2 * q ∧
    ∀ t, q ≤ t → t < q + c →
      ((List.range c).foldl f md0).getD t 0 = ((List.range c).foldl f md0').getD t 0 := by
  induction c with
  | zero =>
    refine ⟨hl, hl', ?_⟩
    intro t h1 h2; omega
  | succ c ih =>
    obtain ⟨l1, l2, g⟩ := ih (by omega)
    simp only at l1 l2 g ⊢
    have hq : (2 * q) >>> 1 = q := by rw [Nat.shiftRight_eq_div_pow]; omega
    rw [hq] at l1 l2 g ⊢
    rw [List.range_succ, List.foldl_append, List.foldl_append]
    simp only [List.foldl_cons, List.foldl_nil]
    refine ⟨by rw [List.length_set]; exact l1, by rw [List.length_set]; exact l2, ?_⟩
    intro t h1 h2
    rw [getD_set_nat _ _ _ _ (by omega), getD_set_nat _ _ _ _ (by omega)]
    by_cases ht : t = q + c
    · rw [if_pos ht, if_pos ht]
    · rw [if_neg ht, if_neg ht]
      exact g t h1 (by omega)

/-- One round of the `while` loop of `initMaxDescendant` writes the entries
`h .. 2h - 1` of both tables from entries that agree. -/
theorem initMaxLevel_agree (signal : List Int) (h : Nat) (hh : 1 ≤ h) (m m2 : MaxDesc)
    (hm : AgreeFrom (2 * h) m m2) (hlen : 2 * h ≤ m.maxDescendants.length)
    (hlen1 : 2 * h ≤ m.maxDescendants1.length) (c : Nat) (hc : c ≤ h) :
    (((List.range c).foldl (levelStep signal (2 * h)) m).maxDescendants.length
        = m.maxDescendants.length ∧
      ((List.range c).foldl (levelStep signal (2 * h)) m).maxDescendants1.length
        = m.maxDescendants1.length) ∧
    (∀ t, (h ≤ t ∧ t < h + c) ∨ 2 * h ≤ t →
      ((List.range c).foldl (levelStep signal (2 * h)) m).maxDescendants.getD t 0 =
      ((List.range c).foldl (levelStep signal (2 * h)) m2).maxDescendants.getD t 0) ∧
    (∀ t, (h ≤ t ∧ t < h + c) ∨ 2 * h ≤ t →
      ((List.range c).foldl (levelStep signal (2 * h)) m).maxDescendants1.getD t 0 =
      ((List.range c).foldl (levelStep signal (2 * h)) m2).maxDescendants1.getD t 0) ∧
    (((List.range c).foldl (levelStep signal (2 * h)) m2).maxDescendants.length
        = m2.maxDescendants.length ∧
      ((List.range c).foldl (levelStep signal (2 * h)) m2).maxDescendants1.length
        = m2.maxDescendants1.length) := by
  obtain ⟨a1, a2, a3, a4⟩ := hm
  induction c with
  | zero =>
    refine ⟨⟨rfl, rfl⟩, ?_, ?_, ⟨rfl, rfl⟩⟩
    · intro t ht
      exact a3 t (by omega)
    · intro t ht
      exact a4 t (by omega)
  | succ c ih =>
    obtain ⟨⟨l1, l2⟩, g1, g2, ⟨l3, l4⟩⟩ := ih (by omega)
    rw [List.range_succ, List.foldl_append, List.foldl_append]
    obtain ⟨x, hx⟩ : ∃ x, x = (List.range c).foldl (levelStep signal (2 * h)) m := ⟨_, rfl⟩
    obtain ⟨y, hy⟩ : ∃ y, y = (List.range c).foldl (levelStep signal (2 * h)) m2 := ⟨_, rfl⟩
    rw [← hx] at l1 l2 g1 g2 ⊢
    rw [← hy] at l3 l4 g1 g2 ⊢
    simp only [List.foldl_cons, List.foldl_nil]
    have hw : (2 * h) >>> 1 = h := by rw [Nat.shiftRight_eq_div_pow]; omega
    have e1 := g1 (2 * h + 2 * c) (Or.inr (by omega))
    have e2 := g1 (2 * h + 2 * c + 1) (Or.inr (by omega))
    refine ⟨⟨?_, ?_⟩, ?_, ?_, ⟨?_, ?_⟩⟩
    · simp only [levelStep, List.length_set]; exact l1
    · simp only [levelStep, List.length_set]; exact l2
    · intro t ht
      simp only [levelStep, hw]
      rw [getD_set_nat _ _ _ _ (by omega), getD_set_nat _ _ _ _ (by omega), e1, e2]
      by_cases htc : t = h + c
      · rw [if_pos htc, if_pos htc]
      · rw [if_neg htc, if_neg htc]
        exact g1 t (by omega)
    · intro t ht
      simp only [levelStep, hw]
      rw [getD_set_nat _ _ _ _ (by omega), getD_set_nat _ _ _ _ (by omega), e1, e2]
      by_cases htc : t = h + c
      · rw [if_pos htc, if_pos htc]
      · rw [if_neg htc, if_neg htc]
        exact g2 t (by omega)
    · simp only [levelStep, List.length_set]; exact l3
    · simp only [levelStep, List.length_set]; exact l4

theorem initMaxLevel_agreeFrom (signal : List Int) (h : Nat) (hh : 1 ≤ h) (m m2 : MaxDesc)
    (hm : AgreeFrom (2 * h) m m2) (hlen : 2 * h ≤ m.maxDescendants.length)
    (hlen1 : 2 * h ≤ m.maxDescendants1.length) :
    AgreeFrom h (initMaxLevel signal (2 * h) m) (initMaxLevel signal (2 * h) m2) ∧
    (initMaxLevel signal (2 * h) m).maxDescendants.length = m.maxDescendants.length ∧
    (initMaxLevel signal (2 * h) m).maxDescendants1.length = m.maxDescendants1.length := by
  have hw : (2 * h) >>> 1 = h := by rw [Nat.shiftRight_eq_div_pow]; omega
  rw [initMaxLevel_eq, initMaxLevel_eq, hw]
  obtain ⟨⟨l1, l2⟩, g1, g2, ⟨l3, l4⟩⟩ :=
    initMaxLevel_agree signal h hh m m2 hm hlen hlen1 h (le_refl h)
  refine ⟨⟨by rw [l1, l3]; exact hm.1, by rw [l2, l4]; exact hm.2.1, ?_, ?_⟩, l1, l2⟩
  · intro t ht
    exact g1 t (by omega)
  · intro t ht
    exact g2 t (by omega)

theorem initMaxLevels_agreeFrom (signal : List Int) (j : Nat) (fuel : Nat) (hf : j ≤ fuel)
    (m m2 : MaxDesc) (hm : AgreeFrom (2 ^ (j + 1)) m m2)
    (hlen : 2 ^ (j + 1) ≤ m.maxDescendants.length)
    (hlen1 : 2 ^ (j + 1) ≤ m.maxDescendants1.length) :
    AgreeFrom 2 (initMaxLevels signal fuel (2 ^ (j + 1)) m)
      (initMaxLevels signal fuel (2 ^ (j + 1)) m2) := by
  induction j generalizing fuel m m2 with
  | zero =>
    cases fuel with
    | zero => simpa [initMaxLevels] using hm
    | succ n =>
      simp only [initMaxLevels]
      rw [if_neg (by simp [Nat.shiftRight_eq_div_pow])]
      simpa using hm
  | succ k ih =>
    obtain ⟨n, rfl⟩ : ∃ n, fuel = n + 1 := ⟨fuel - 1, by omega⟩
    have hw : (2 ^ (k + 1 + 1)) >>> 1 = 2 ^ (k + 1) := by
      rw [Nat.shiftRight_eq_div_pow, pow_succ 2 (k + 1)]; simp
    have hgt : 2 ^ (k + 1) > 1 := Nat.one_lt_two_pow (by omega)
    simp only [initMaxLevels, hw, if_pos hgt]
    have e : 2 ^ (k + 1 + 1) = 2 * 2 ^ (k + 1) := by rw [pow_succ]; ring
    rw [e] at hm hlen hlen1 ⊢
    obtain ⟨b1, b2, b3⟩ := initMaxLevel_agreeFrom signal (2 ^ (k + 1)) (by omega) m m2 hm
      hlen hlen1
    exact ih n (by omega) _ _ b1 (by rw [b2]; omega) (by rw [b3]; omega)

/-- The tables that `initMaxDescendant` leaves for a block of `2^k`
coefficients, `k >= 3`, do not depend on what they held before, from the
index 2 on. -/
theorem initMaxDescendantFrom_agree (old : MaxDesc) (data : List Int) (k : Nat) (hk : 3 ≤ k)
    (hsize : data.length = 2 ^ k) :
    AgreeFrom 2 (initMaxDescendantFrom old data) (initMaxDescendant data) := by
  obtain ⟨j, rfl⟩ : ∃ j, k = j + 3 := ⟨k - 3, by omega⟩
  have hq : data.length = 4 * 2 ^ (j + 1) := by rw [hsize]; ring
  have hs1 : data.length >>> 1 = 2 * 2 ^ (j + 1) := by
    rw [Nat.shiftRight_eq_div_pow, hq]; omega
  have hs2 : (2 * 2 ^ (j + 1)) >>> 1 = 2 ^ (j + 1) := by
    rw [Nat.shiftRight_eq_div_pow]; omega
  obtain ⟨l1, l2, g⟩ := initMaxLeaves_agree data (2 ^ (j + 1))
    (resizeVec old.maxDescendants (2 * 2 ^ (j + 1))) (List.replicate (2 * 2 ^ (j + 1)) 0)
    (resizeVec_length _ _) (by simp) (2 ^ (j + 1)) (le_refl _)
  simp only [hs2] at l1 l2 g
  have hinit : AgreeFrom (2 ^ (j + 1))
      ⟨initMaxLeaves data (2 * 2 ^ (j + 1)) (resizeVec old.maxDescendants (2 * 2 ^ (j + 1))),
        resizeVec old.maxDescendants1 (2 ^ (j + 1))⟩
      ⟨initMaxLeaves data (2 * 2 ^ (j + 1)) (List.replicate (2 * 2 ^ (j + 1)) 0),
        List.replicate (2 ^ (j + 1)) 0⟩ := by
    refine ⟨?_, ?_, ?_, ?_⟩
    · simp only [initMaxLeaves, hs2]; rw [l1, l2]
    · simp only; rw [resizeVec_length, List.length_replicate]
    · intro t ht
      simp only [initMaxLeaves, hs2]
      by_cases h2 : t < 2 ^ (j + 1) + 2 ^ (j + 1)
      · exact g t ht h2
      · rw [getD_beyond _ t (by rw [l1]; omega), getD_beyond _ t (by rw [l2]; omega)]
    · intro t ht
      simp only
      rw [getD_beyond _ t (by rw [resizeVec_length]; omega),
        getD_beyond _ t (by rw [List.length_replicate]; omega)]
  have hfin := initMaxLevels_agreeFrom data j (2 ^ (j + 1))
    (by have := Nat.lt_two_pow j
        have : 2 ^ j ≤ 2 ^ (j + 1) := Nat.pow_le_pow_right (by decide) (by omega)
        omega)
    _ _ hinit
    (by simp only [initMaxLeaves, hs2]; rw [l1]; omega)
    (by simp only; rw [resizeVec_length])
  have hdef : initMaxDescendant data = initMaxLevels data (2 ^ (j + 1)) (2 ^ (j + 1))
      ⟨initMaxLeaves data (2 * 2 ^ (j + 1)) (List.replicate (2 * 2 ^ (j + 1)) 0),
        List.replicate (2 ^ (j + 1)) 0⟩ := by
    simp only [initMaxDescendant, hs1, hs2]
  have hdef2 : initMaxDescendantFrom old data = initMaxLevels data (2 ^ (j + 1)) (2 ^ (j + 1))
      ⟨initMaxLeaves data (2 * 2 ^ (j + 1)) (resizeVec old.maxDescendants (2 * 2 ^ (j + 1))),
        resizeVec old.maxDescendants1 (2 ^ (j + 1))⟩ := by
    simp only [initMaxDescendantFrom, hs1, hs2]
  rw [hdef, hdef2]
  exact hfin

theorem maxDescendant_agree (m m2 : MaxDesc) (h : AgreeFrom 2 m m2) (p : pixel)
    (hp : 2 ≤ p.index) : maxDescendant m p = maxDescendant m2 p := by
  unfold maxDescendant
  split_ifs
  · exact h.2.2.2 p.index hp
  · exact h.2.2.1 p.index hp

/-- The loop over the LIS reads the tables only at the indices of its
entries: with entries of index at least 2, tables that agree from the index 2
on give the same run. -/
theorem encSortLIS_agree (data : List Int) (m m2 : MaxDesc) (h : AgreeFrom 2 m m2)
    (compare fuel : Nat) (pending : List pixel) (st : SpihtEnc)
    (hp : ∀ e ∈ pending, 2 ≤ e.index) :
    encSortLIS data m compare fuel pending st = encSortLIS data m2 compare fuel pending st := by
  induction fuel generalizing pending st with
  | zero =>
    cases pending with
    | nil => rfl
    | cons p ps => rfl
  | succ n ih =>
    cases pending with
    | nil => rfl
    | cons p ps =>
      have hp2 : 2 ≤ p.index := hp p (List.mem_cons_self _ _)
      have hps : ∀ e ∈ ps, 2 ≤ e.index := fun e he => hp e (List.mem_cons_of_mem _ he)
      rw [encSortLIS, encSortLIS, maxDescendant_agree m m2 h p hp2]
      by_cases hA : p.type = 0
      · rw [if_pos hA, if_pos hA]
        by_cases hs : maxDescendant m2 p ≥ compare
        · rw [if_pos hs, if_pos hs]
          simp only
          by_cases hg : 4 * p.index + 3 < data.length
          · rw [if_pos hg, if_pos hg]
            apply ih
            intro e he
            rcases List.mem_append.1 he with g | g
            · exact hps e g
            · simp only [List.mem_singleton] at g
              rw [g]; exact hp2
          · rw [if_neg hg, if_neg hg]
            exact ih _ _ hps
        · rw [if_neg hs, if_neg hs]
          exact ih _ _ hps
      · rw [if_neg hA, if_neg hA]
        by_cases hs : maxDescendant m2 p ≥ compare
        · rw [if_pos hs, if_pos hs]
          simp only
          apply ih
          intro e he
          rcases List.mem_append.1 he with g | g
          · exact hps e g
          · simp only [List.mem_cons, List.mem_singleton, List.not_mem_nil, or_false] at g
            rcases g with g | g <;> rw [g] <;> simp only <;> omega
        · rw [if_neg hs, if_neg hs]
          exact ih _ _ hps

theorem encSortLIP_LIS (data : List Int) (compare : Nat) (todo : List Nat) (st : SpihtEnc) :
    (encSortLIP data compare todo st).LIS = st.LIS := by
  induction todo generalizing st with
  | nil => rfl
  | cons i rest ih =>
    rw [encSortLIP]
    split_ifs <;> rw [ih]

theorem encSortingPass_agree (data : List Int) (m m2 : MaxDesc) (h : AgreeFrom 2 m m2)
    (compare : Nat) (st : SpihtEnc) (hp : ∀ e ∈ st.LIS, 2 ≤ e.index) :
    encSortingPass data m compare st = encSortingPass data m2 compare st := by
  unfold encSortingPass
  simp only
  apply encSortLIS_agree data m m2 h
  rw [encSortLIP_LIS]
  exact hp

/-- All bit planes of the encoder with tables that agree from the index 2 on
with the tables of `initMaxDescendant`. -/
theorem encPlanes_agree (data : List Int) (m m2 : MaxDesc) (h : AgreeFrom 2 m m2)
    (h4 : data.length % 4 = 0) (hmax : MaxOK data m2) (n : Nat) (st : SpihtEnc)
    (hp : PartInv data.length st.LIP st.LSP st.LIS)
    (hsig : ∀ i ∈ st.LSP, 2 * 2 ^ n ≤ (data.getD i 0).natAbs)
    (hw : lisWeightSum data.length st.LIS ≤ (LIS_FUEL data.length : ℚ)) :
    encPlanes data m n st = encPlanes data m2 n st := by
  induction n generalizing st with
  | zero =>
    rw [encPlanes_zero, encPlanes_zero,
      encSortingPass_agree data m m2 h _ st (fun e he => (hp.2.2.1 e he).1)]
  | succ k ih =>
    obtain ⟨st1, r1, r2, -⟩ := plane_frame data m2 h4 hmax (k + 1) st hp hsig hw
    obtain ⟨p1, -, p3, p4⟩ := r2
    rw [encPlanes_succ, encPlanes_succ,
      encSortingPass_agree data m m2 h _ st (fun e he => (hp.2.2.1 e he).1), r1,
      Option.some_bind, Option.some_bind]
    exact ih _ p1 (fun i hi => by have := p3 i hi; rw [pow_succ] at this; omega) p4

/-- `SPIHT_Enc::encode` on a block of an allowed length returns the same
streams whatever the tables held before the call. -/
theorem SPIHT_Enc_encodeFrom_eq (old : MaxDesc) (BL : Nat) (c : List Int) (bw : List Bool)
    (N : Nat) (hBL : BL ∈ [32, 64, 128, 256, 512]) (hlen : c.length = BL) :
    (SPIHT_Enc_encodeFrom old c (ilog2 BL - 2) bw N [] []).map (fun r => r.1) =
      SPIHT_Enc_encode c (ilog2 BL - 2) bw N [] [] := by
  obtain ⟨k, hk3, hpow⟩ := size_pow BL hBL
  have h16 : 16 ≤ c.length := by
    rw [hlen]
    simp only [List.mem_cons, List.mem_singleton, List.not_mem_nil, or_false] at hBL
    omega
  have h4 : c.length % 4 = 0 := by
    rw [hlen]
    simp only [List.mem_cons, List.mem_singleton, List.not_mem_nil, or_false] at hBL
    omega
  have hmax := initMaxDescendant_ok c k hk3 (by rw [hlen, hpow])
  have hagree := initMaxDescendantFrom_agree old c k hk3 (by rw [hlen, hpow])
  obtain ⟨N2, hN2⟩ : ∃ N2, N2 = (if N > 2 ^ MAXALLOCBITS_SIZE - 1 then 15 else N) := ⟨_, rfl⟩
  have hinv0 := planeInv_init (List.replicate c.length (0 : Int)) N2
    (de2bi N2 [] MAXALLOCBITS_SIZE ++ bw)
    ([] ++ List.replicate (MAXALLOCBITS_SIZE + bw.length) CONTEXT_SIDE)
    (by rw [List.length_replicate]; exact h16)
    (fun i _ => by
      rw [List.getD_eq_getElem?_getD, List.getElem?_replicate]
      have : 0 < 2 * 2 ^ N2 := by positivity
      split_ifs <;> simpa using this)
  obtain ⟨hp, -, -, hw⟩ := hinv0
  rw [List.length_replicate] at hp hw
  have hpl := encPlanes_agree c (initMaxDescendantFrom old c) (initMaxDescendant c) hagree h4
    hmax N2 ⟨List.range 8, [], [⟨4, 0⟩, ⟨5, 0⟩, ⟨6, 0⟩, ⟨7, 0⟩],
      de2bi N2 [] MAXALLOCBITS_SIZE ++ bw,
      [] ++ List.replicate (MAXALLOCBITS_SIZE + bw.length) CONTEXT_SIDE⟩ hp
    (fun i hi => by simp at hi) hw
  unfold SPIHT_Enc_encodeFrom SPIHT_Enc_encode
  simp only [← hN2, hlen, initLists_eq BL hBL]
  rw [hpl, Option.map_map]
  rfl

theorem losslessEncodingFrom_eq (e : Encoder) (mem : EncoderMem) (data : List Int)
    (bw : List Bool) (N : Nat) (bits : List Bool) (he : e.bl ∈ [32, 64, 128, 256, 512])
    (hd : e.dwtlevel = ilog2 e.bl - 2) (hlen : data.length = e.bl) :
    (losslessEncodingFrom e mem data bw N bits).map (fun r => (r.1, r.2.cnt)) =
      (losslessEncoding e mem.cnt data bw N bits).map (fun r => (r.1, r.2.1)) := by
  have hs := SPIHT_Enc_encodeFrom_eq mem.tables e.bl data bw N he hlen
  rw [← hd] at hs
  unfold losslessEncodingFrom losslessEncoding
  rw [← hs]
  cases h1 : SPIHT_Enc_encodeFrom mem.tables data e.dwtlevel bw N [] [] with
  | none => rfl
  | some r =>
    simp only [Option.some_bind, Option.map_some']
    cases h2 : ArithEnc_encode mem.cnt r.1.1 r.1.2 [] with
    | none => rfl
    | some a => rfl

theorem encodeBlockFrom_eq {K : Type} [LinearOrderedField K] [FloorRing K] (log10 : K → K)
    (e : Encoder) (mem : EncoderMem) (block_dwt SMR bandenergy : List K) (bits : List Bool)
    (budget : Nat) (he : e.bl ∈ [32, 64, 128, 256, 512]) (hd : e.dwtlevel = ilog2 e.bl - 2) :
    (encodeBlockFrom log10 e mem block_dwt SMR bandenergy bits budget).map
        (fun r => (r.1, r.2.cnt)) =
      (encodeBlock log10 e mem.cnt block_dwt SMR bandenergy bits budget).map
        (fun r => (r.bitstream, r.cnt)) := by
  unfold encodeBlockFrom encodeBlock
  by_cases hz : checkZeros block_dwt e.bl = true
  · rw [if_pos hz, if_pos hz]
    rfl
  · rw [if_neg hz, if_neg hz]
    obtain ⟨q, hq, hl, -⟩ := quantizeBlock_spec log10 e block_dwt SMR bandenergy budget
    rw [hq, Option.some_bind]
    simp only
    rw [Option.map_map]
    exact losslessEncodingFrom_eq e mem q.block_intquant q.bitwavmax q.bitmax bits he hd hl

theorem encode1DLoopFrom_eq {K : Type} [LinearOrderedField K] [FloorRing K] (log10 : K → K)
    (getSMR : List K → pmResult K) (e : Encoder) (sig : List K) (budget : Nat)
    (he : e.bl ∈ [32, 64, 128, 256, 512]) (hd : e.dwtlevel = ilog2 e.bl - 2)
    (todo b : Nat) (st : List Bool × EncoderMem) (run : EncRun K)
    (h1 : run.bitstream = st.1) (h2 : run.cnt = st.2.cnt) :
    (encode1DLoopFrom log10 getSMR e sig budget todo b st).map (fun r => (r.1, r.2.cnt)) =
      (encode1DLoop log10 getSMR e sig budget todo b run).map
        (fun r => (r.bitstream, r.cnt)) := by
  induction todo generalizing b st run with
  | zero =>
    rw [encode1DLoopFrom, encode1DLoop]
    simp only [Option.map_some', h1, h2]
  | succ n ih =>
    rw [encode1DLoopFrom, encode1DLoop]
    have hb := encodeBlockFrom_eq log10 e st.2 (DWT (blockOf sig e.bl b) e.dwtlevel)
      (getSMR (blockOf sig e.bl b)).SMR (getSMR (blockOf sig e.bl b)).bandenergy
      (headerEncoding e.bl st.1) budget he hd
    rw [h1, h2]
    cases hx : encodeBlockFrom log10 e st.2 (DWT (blockOf sig e.bl b) e.dwtlevel)
      (getSMR (blockOf sig e.bl b)).SMR (getSMR (blockOf sig e.bl b)).bandenergy
      (headerEncoding e.bl st.1) budget with
    | none =>
      rw [hx] at hb
      cases hy : encodeBlock log10 e st.2.cnt (DWT (blockOf sig e.bl b) e.dwtlevel)
        (getSMR (blockOf sig e.bl b)).SMR (getSMR (blockOf sig e.bl b)).bandenergy
        (headerEncoding e.bl st.1) budget with
      | none => rfl
      | some r2 => rw [hy] at hb; simp at hb
    | some r =>
      rw [hx] at hb
      cases hy : encodeBlock log10 e st.2.cnt (DWT (blockOf sig e.bl b) e.dwtlevel)
        (getSMR (blockOf sig e.bl b)).SMR (getSMR (blockOf sig e.bl b)).bandenergy
        (headerEncoding e.bl st.1) budget with
      | none => rw [hy] at hb; simp at hb
      | some r2 =>
        rw [hy] at hb
        simp only [Option.map_some', Option.some.injEq, Prod.mk.injEq] at hb
        rw [Option.some_bind]
        simp only
        exact ih (b + 1) r _ hb.1.symm hb.2.symm

/-- The encoder on any state left by earlier calls returns the bit stream of
the encoder without earlier calls. -/
theorem encode1DFrom_eq {K : Type} [LinearOrderedField K] [FloorRing K] (log10 : K → K)
    (getSMR : List K → pmResult K) (e : Encoder) (mem : EncoderMem) (sig : List K)
    (budget : Nat) (he : e.bl ∈ [32, 64, 128, 256, 512]) (hd : e.dwtlevel = ilog2 e.bl - 2) :
    (encode1DFrom log10 getSMR e mem sig budget).map (fun r => r.1) =
      encode1D log10 getSMR e sig budget := by
  have h := encode1DLoopFrom_eq log10 getSMR e sig
    (if budget > MAX_BITS * e.l_book then MAX_BITS * e.l_book else budget) he hd
    ((sig.length + e.bl - 1) / e.bl) 0 (fsEncode e.fs [], ⟨resetCounter, mem.tables⟩)
    ⟨fsEncode e.fs [], resetCounter, []⟩ rfl rfl
  unfold encode1DFrom encode1D encode1DRun
  simp only
  have h2 := congrArg (Option.map (fun r : List Bool × Counters => r.1)) h
  rw [Option.map_map, Option.map_map] at h2
  exact h2

theorem allocLoop_chan {K : Type} [LinearOrderedField K] [FloorRing K] (log10 : K → K)
    (e : Encoder) (c : Nat) (block_dwt SMR bandenergy : List K) (qwavmax : K) (budget : Nat)
    (fuel : Nat) (s : AllocState K) :
    allocLoop log10 { e with channelbits := c } block_dwt SMR bandenergy qwavmax budget fuel s =
      allocLoop log10 e block_dwt SMR bandenergy qwavmax budget fuel s := by
  induction fuel generalizing s with
  | zero =>
    rw [allocLoop, allocLoop]
  | succ n ih =>
    rw [allocLoop, allocLoop]
    split_ifs
    · exact ih _
    · rfl

theorem encodeBlock_chan {K : Type} [LinearOrderedField K] [FloorRing K] (log10 : K → K)
    (e : Encoder) (c : Nat) (cnt : Counters) (block_dwt SMR bandenergy : List K)
    (bits : List Bool) (budget : Nat) :
    encodeBlock log10 { e with channelbits := c } cnt block_dwt SMR bandenergy bits budget =
      encodeBlock log10 e cnt block_dwt SMR bandenergy bits budget := by
  unfold encodeBlock quantizeBlock
  simp only [allocLoop_chan]
  rfl

theorem encode1DLoop_chan {K : Type} [LinearOrderedField K] [FloorRing K] (log10 : K → K)
    (getSMR : List K → pmResult K) (e : Encoder) (c : Nat) (sig : List K) (budget : Nat)
    (todo b : Nat) (run : EncRun K) :
    encode1DLoop log10 getSMR { e with channelbits := c } sig budget todo b run =
      encode1DLoop log10 getSMR e sig budget todo b run := by
  induction todo generalizing b run with
  | zero => rfl
  | succ n ih =>
    rw [encode1DLoop, encode1DLoop]
    simp only [encodeBlock_chan]
    cases encodeBlock log10 e run.cnt (DWT (blockOf sig e.bl b) e.dwtlevel)
      (getSMR (blockOf sig e.bl b)).SMR (getSMR (blockOf sig e.bl b)).bandenergy
      (headerEncoding e.bl run.bitstream) budget with
    | none => rfl
    | some r => exact ih _ _

/-- The bit stream of `encode1D` does not depend on the `maxChannels` the
encoder was constructed with. -/
theorem encode1D_chan {K : Type} [LinearOrderedField K] [FloorRing K] (log10 : K → K)
    (getSMR : List K → pmResult K) (bl fs mc1 mc2 : Nat) (sig : List K) (budget : Nat) :
    encode1D log10 getSMR (Encoder.new bl fs mc1) sig budget =
      encode1D log10 getSMR (Encoder.new bl fs mc2) sig budget := by
  have e1 : Encoder.new bl fs mc1 =
      { Encoder.new bl fs mc2 with channelbits := clog2 (mc1 + 1) } := rfl
  rw [e1]
  unfold encode1D encode1DRun
  simp only [encode1DLoop_chan]

theorem blockOf_padded {K : Type} [LinearOrderedField K] (sig : List K) (pad bl b : Nat) :
    blockOf (sig ++ List.replicate pad 0) bl b = blockOf sig bl b := by
  unfold blockOf
  apply List.map_congr_left
  intro i _
  rw [List.getD_eq_getElem?_getD, List.getD_eq_getElem?_getD]
  by_cases h : b * bl + i < sig.length
  · rw [List.getElem?_append_left h]
  · rw [List.getElem?_append_right (by omega), List.getElem?_replicate,
      List.getElem?_eq_none (by omega)]
    split_ifs <;> rfl

theorem encode1DLoop_padded {K : Type} [LinearOrderedField K] [FloorRing K] (log10 : K → K)
    (getSMR : List K → pmResult K) (e : Encoder) (sig : List K) (pad budget : Nat)
    (todo b : Nat) (run : EncRun K) :
    encode1DLoop log10 getSMR e (sig ++ List.replicate pad 0) budget todo b run =
      encode1DLoop log10 getSMR e sig budget todo b run := by
  induction todo generalizing b run with
  | zero => rfl
  | succ n ih =>
    rw [encode1DLoop, encode1DLoop]
    simp only [blockOf_padded]
    cases encodeBlock log10 e run.cnt (DWT (blockOf sig e.bl b) e.dwtlevel)
      (getSMR (blockOf sig e.bl b)).SMR (getSMR (blockOf sig e.bl b)).bandenergy
      (headerEncoding e.bl run.bitstream) budget with
    | none => rfl
    | some r => exact ih _ _

/-- The bit stream of `encode1D` is the same for a signal and for the signal
padded with zeros to full blocks (which `encode1D` does in place). -/
theorem encode1D_padded {K : Type} [LinearOrderedField K] [FloorRing K] (log10 : K → K)
    (getSMR : List K → pmResult K) (e : Encoder) (sig : List K) (budget : Nat)
    (hbl : 0 < e.bl) :
    encode1D log10 getSMR e
        (sig ++ List.replicate ((sig.length + e.bl - 1) / e.bl * e.bl - sig.length) 0) budget =
      encode1D log10 getSMR e sig budget := by
  unfold encode1D encode1DRun
  simp only [encode1DLoop_padded]
  have hn : ((sig ++ List.replicate ((sig.length + e.bl - 1) / e.bl * e.bl - sig.length)
      (0 : K)).length + e.bl - 1) / e.bl = (sig.length + e.bl - 1) / e.bl := by
    rw [List.length_append, List.length_replicate]
    have h1 : sig.length ≤ (sig.length + e.bl - 1) / e.bl * e.bl := by
      have a1 := Nat.div_add_mod (sig.length + e.bl - 1) e.bl
      have a2 := Nat.mod_lt (sig.length + e.bl - 1) hbl
      have a3 : (sig.length + e.bl - 1) / e.bl * e.bl
          = e.bl * ((sig.length + e.bl - 1) / e.bl) := Nat.mul_comm _ _
      omega
    rw [Nat.add_sub_cancel' h1]
    have h2 : (sig.length + e.bl - 1) / e.bl * e.bl + e.bl - 1 =
        (e.bl - 1) + e.bl * ((sig.length + e.bl - 1) / e.bl) := by
      have a3 : (sig.length + e.bl - 1) / e.bl * e.bl
          = e.bl * ((sig.length + e.bl - 1) / e.bl) := Nat.mul_comm _ _
      omega
    rw [h2, Nat.add_mul_div_left _ _ hbl, Nat.div_eq_of_lt (by omega), Nat.zero_add]
  rw [hn]

/-- C26: the bit stream that `encode1D` returns is a function of the signal,
`BL`, `fs` and the bit budget only (the psychohaptic model being the one of
`BL` and `fs`): whatever counters and tables the encoder holds from earlier
calls, and whatever `maxChannels` it was constructed with, the stream is the
one of the encoder without earlier calls; a second call on the state that the
first call leaves returns the same stream, also for the signal as the first
call has padded it. -/
theorem C26_encode1D_deterministic {K : Type} [LinearOrderedField K] [FloorRing K]
    (log10 : K → K) (getSMR : List K → pmResult K) (bl fs mc1 mc2 : Nat)
    (mem1 mem2 : EncoderMem) (sig : List K) (budget : Nat)
    (hBL : bl ∈ [32, 64, 128, 256, 512]) :
    (encode1DFrom log10 getSMR (Encoder.new bl fs mc1) mem1 sig budget).map (fun r => r.1) =
      (encode1DFrom log10 getSMR (Encoder.new bl fs mc2) mem2 sig budget).map (fun r => r.1) ∧
    (encode1DFrom log10 getSMR (Encoder.new bl fs mc1) mem1 sig budget).map (fun r => r.1) =
      encode1D log10 getSMR (Encoder.new bl fs mc1) sig budget ∧
    ∀ bits mem3,
      encode1DFrom log10 getSMR (Encoder.new bl fs mc1) mem1 sig budget = some (bits, mem3) →
      (encode1DFrom log10 getSMR (Encoder.new bl fs mc1) mem3 sig budget).map (fun r => r.1)
        = some bits ∧
      (encode1DFrom log10 getSMR (Encoder.new bl fs mc1) mem3
        (sig ++ List.replicate ((sig.length + bl - 1) / bl * bl - sig.length) 0) budget).map
        (fun r => r.1) = some bits := by
  have h1 := encode1DFrom_eq log10 getSMR (Encoder.new bl fs mc1) mem1 sig budget hBL rfl
  have h2 := encode1DFrom_eq log10 getSMR (Encoder.new bl fs mc2) mem2 sig budget hBL rfl
  refine ⟨?_, h1, ?_⟩
  · rw [h1, h2]
    exact encode1D_chan log10 getSMR bl fs mc1 mc2 sig budget
  · intro bits mem3 hrun
    have h3 := encode1DFrom_eq log10 getSMR (Encoder.new bl fs mc1) mem3 sig budget hBL rfl
    have h4 := encode1DFrom_eq log10 getSMR (Encoder.new bl fs mc1) mem3
      (sig ++ List.replicate ((sig.length + bl - 1) / bl * bl - sig.length) 0) budget hBL rfl
    have hpos : 0 < (Encoder.new bl fs mc1).bl := by
      show 0 < bl
      simp only [List.mem_cons, List.mem_singleton, List.not_mem_nil, or_false] at hBL
      omega
    have h5 := encode1D_padded log10 getSMR (Encoder.new bl fs mc1) sig budget hpos
    have h6 : encode1D log10 getSMR (Encoder.new bl fs mc1) sig budget = some bits := by
      rw [← h1, hrun]; rfl
    refine ⟨by rw [h3, h6], ?_⟩
    rw [h4]
    exact h5.trans h6

theorem C26_encode1D_deterministic_witness :
    32 ∈ [32, 64, 128, 256, 512] ∧
    ((encode1DFrom (fun x : ℚ => x) (fun _ => ⟨[], []⟩) (Encoder.new 32 8000 8)
        ⟨resetCounter, ⟨[], []⟩⟩ [1, -2, 3] 8).map (fun r => r.1) =
      (encode1DFrom (fun x : ℚ => x) (fun _ => ⟨[], []⟩) (Encoder.new 32 8000 2)
        ⟨⟨[1, 2, 3], [4, 5, 6]⟩, ⟨[7, 7, 7, 7], [9, 9]⟩⟩ [1, -2, 3] 8).map (fun r => r.1) ∧
    (encode1DFrom (fun x : ℚ => x) (fun _ => ⟨[], []⟩) (Encoder.new 32 8000 8)
        ⟨resetCounter, ⟨[], []⟩⟩ [1, -2, 3] 8).map (fun r => r.1) =
      encode1D (fun x : ℚ => x) (fun _ => ⟨[], []⟩) (Encoder.new 32 8000 8) [1, -2, 3] 8 ∧
    ∀ bits mem3,
      encode1DFrom (fun x : ℚ => x) (fun _ => ⟨[], []⟩) (Encoder.new 32 8000 8)
        ⟨resetCounter, ⟨[], []⟩⟩ [1, -2, 3] 8 = some (bits, mem3) →
      (encode1DFrom (fun x : ℚ => x) (fun _ => ⟨[], []⟩) (Encoder.new 32 8000 8) mem3
        [1, -2, 3] 8).map (fun r => r.1) = some bits ∧
      (encode1DFrom (fun x : ℚ => x) (fun _ => ⟨[], []⟩) (Encoder.new 32 8000 8) mem3
        ([1, -2, 3] ++ List.replicate ((([1, -2, 3] : List ℚ).length + 32 - 1) / 32 * 32
          - ([1, -2, 3] : List ℚ).length) 0) 8).map (fun r => r.1) = some bits) :=
  ⟨by decide,
    C26_encode1D_deterministic (fun x : ℚ => x) (fun _ => ⟨[], []⟩) 32 8000 8 2
      ⟨resetCounter, ⟨[], []⟩⟩ ⟨⟨[1, 2, 3], [4, 5, 6]⟩, ⟨[7, 7, 7, 7], [9, 9]⟩⟩ [1, -2, 3] 8
      (by decide)⟩

/-- C33, the claim as stated fails: for `BL = 32` (`L = 3`, `BL / 2^L = 4`,
`BL / 2^(L+1) = 2`) the initial LIP is `0 .. 7`, not `0 .. 3`, and the initial
LIS holds the indices `4 .. 7`, not `2, 3`. -/
theorem C33_initial_lists_claimed :
    32 / 2 ^ (ilog2 32 - 2) = 4 ∧ 32 / 2 ^ (ilog2 32 - 2 + 1) = 2 ∧
    (initLists 32 (ilog2 32 - 2)).1 = [0, 1, 2, 3, 4, 5, 6, 7] ∧
    (initLists 32 (ilog2 32 - 2)).1 ≠ List.range (32 / 2 ^ (ilog2 32 - 2)) ∧
    (initLists 32 (ilog2 32 - 2)).2 = [⟨4, 0⟩, ⟨5, 0⟩, ⟨6, 0⟩, ⟨7, 0⟩] ∧
    (initLists 32 (ilog2 32 - 2)).2 ≠
      (List.range' (32 / 2 ^ (ilog2 32 - 2 + 1))
        (32 / 2 ^ (ilog2 32 - 2) - 32 / 2 ^ (ilog2 32 - 2 + 1))).map (fun i => ⟨i, 0⟩) := by
  decide

/-- C33 (amended): for a block of an allowed length `BL` with `L = log2(BL) - 2`
levels, `SPIHT_Enc::encode` and `SPIHT_Dec::decode` start their bit-plane loops
with the LIP holding exactly the indices of `[0, 2 * BL / 2^L) = [0, 8)` in
increasing order, the LIS holding exactly the indices of
`[BL / 2^L, 2 * BL / 2^L) = [4, 8)` in increasing order, all of type A, and an
empty LSP. -/
theorem C33_initial_lists (BL : Nat) (hBL : BL ∈ [32, 64, 128, 256, 512]) :
    BL / 2 ^ (ilog2 BL - 2) = 4 ∧
    initLists BL (ilog2 BL - 2) =
      (List.range (2 * (BL / 2 ^ (ilog2 BL - 2))),
        (List.range' (BL / 2 ^ (ilog2 BL - 2)) (BL / 2 ^ (ilog2 BL - 2))).map
          (fun i => ⟨i, 0⟩)) ∧
    (∀ (data : List Int) (bitwavmax : List Bool) (maxallocbits : Nat) (outstream : List Bool)
        (context : List Nat), data.length = BL →
      SPIHT_Enc_encode data (ilog2 BL - 2) bitwavmax maxallocbits outstream context =
        (encPlanes data (initMaxDescendant data)
          (if maxallocbits > 2 ^ MAXALLOCBITS_SIZE - 1 then 15 else maxallocbits)
          ⟨[0, 1, 2, 3, 4, 5, 6, 7], [], [⟨4, 0⟩, ⟨5, 0⟩, ⟨6, 0⟩, ⟨7, 0⟩],
            de2bi (if maxallocbits > 2 ^ MAXALLOCBITS_SIZE - 1 then 15 else maxallocbits)
              outstream MAXALLOCBITS_SIZE ++ bitwavmax,
            context ++ List.replicate (MAXALLOCBITS_SIZE + bitwavmax.length) CONTEXT_SIDE⟩).map
          (fun st => (st.outstream, st.context))) ∧
    (∀ (cnt : Counters) (bitstream : List Bool) (pos streamlength : Nat) (out : List Int),
      ((SPIHT_Dec_decode cnt bitstream pos streamlength out BL (ilog2 BL - 2) :
          Option (SpihtDecResult ℚ)).map (fun r => (r.out, r.n_real, r.arith))) =
        (decPlanes
          (bi2deVec (getBits CONTEXT_SIDE MAXALLOCBITS_SIZE
            (initDecoding cnt bitstream pos streamlength)).1)
          ⟨[0, 1, 2, 3, 4, 5, 6, 7], [], [⟨4, 0⟩, ⟨5, 0⟩, ⟨6, 0⟩, ⟨7, 0⟩],
            List.replicate BL 0 ++ out.drop BL,
            (getBits CONTEXT_SIDE (WAVMAXLENGTH - 1)
              (ArithDec_decode (getBits CONTEXT_SIDE MAXALLOCBITS_SIZE
                (initDecoding cnt bitstream pos streamlength)).2 CONTEXT_SIDE).2).2⟩).map
          (fun st => (st.out,
            bi2deVec (getBits CONTEXT_SIDE MAXALLOCBITS_SIZE
              (initDecoding cnt bitstream pos streamlength)).1,
            { st.arith with cnt := rescaleCounter st.arith.cnt }))) := by
  have hl := initLists_eq BL hBL
  have h4 : BL / 2 ^ (ilog2 BL - 2) = 4 := by
    simp only [List.mem_cons, List.mem_singleton, List.not_mem_nil, or_false] at hBL
    rcases hBL with h | h | h | h | h <;> subst h <;> decide
  refine ⟨h4, ?_, ?_, ?_⟩
  · rw [hl, h4]; decide
  · intro data bitwavmax maxallocbits outstream context hlen
    unfold SPIHT_Enc_encode
    simp only [hlen, hl]
    rfl
  · intro cnt bitstream pos streamlength out
    unfold SPIHT_Dec_decode
    simp only [hl, Option.map_map]
    rfl

theorem C33_initial_lists_witness :
    32 ∈ [32, 64, 128, 256, 512] ∧ 32 / 2 ^ (ilog2 32 - 2) = 4 ∧
    initLists 32 (ilog2 32 - 2) =
      (List.range (2 * (32 / 2 ^ (ilog2 32 - 2))),
        (List.range' (32 / 2 ^ (ilog2 32 - 2)) (32 / 2 ^ (ilog2 32 - 2))).map
          (fun i => ⟨i, 0⟩)) :=
  ⟨by decide, (C33_initial_lists 32 (by decide)).1, (C33_initial_lists 32 (by decide)).2.1⟩

/-- The entries of the rescaled counter: the truncated quotient, 1 when that is
0. -/
theorem rescaleCounter_getD (k : Counters) (hk : CountersOK k) (c : Nat) (hc : c < CONTEXTS) :
    (rescaleCounter k).counter.getD c 0 =
      max 1 (RESIZE * k.counter.getD c 0 / k.counter_total.getD c 0) := by
  obtain ⟨h1, h2, -⟩ := hk
  have l1 : c < k.counter.length := by rw [h1]; exact hc
  have l2 : c < k.counter_total.length := by rw [h2]; exact hc
  simp only [rescaleCounter, List.getD_eq_getElem?_getD, List.getElem?_zipWith,
    List.getElem?_eq_getElem l1, List.getElem?_eq_getElem l2, Option.getD_some,
    Option.map_some', Option.bind_some, Option.some_bind]
  split_ifs with h
  · rw [h]; rfl
  · rw [max_eq_right (Nat.one_le_iff_ne_zero.2 h)]

/-- C32, the claim as stated fails: after one 0 coded in context 0 from reset
counters the pair of context 0 is `(9, 17)`; `32 * 9 / 17 = 16.94...` rounds to
17, but `rescaleCounter` leaves `counter[0] = 16`. -/
theorem C32_rescale_truncates :
    countersAfterZero.counter.getD 0 0 = 9 ∧ countersAfterZero.counter_total.getD 0 0 = 17 ∧
    round ((RESIZE : ℚ) * 9 / 17) = 17 ∧
    (rescaleCounter countersAfterZero).counter.getD 0 0 = 16 ∧
    ((rescaleCounter countersAfterZero).counter.getD 0 0 : Int) ≠
      max 1 (round ((RESIZE : ℚ) * (countersAfterZero.counter.getD 0 0 : ℚ) /
        (countersAfterZero.counter_total.getD 0 0 : ℚ))) := by
  have h1 : countersAfterZero.counter.getD 0 0 = 9 := by decide
  have h2 : countersAfterZero.counter_total.getD 0 0 = 17 := by decide
  have h3 : round ((RESIZE : ℚ) * 9 / 17) = 17 := by
    rw [round_eq, Int.floor_eq_iff]
    simp only [RESIZE]
    constructor <;> norm_num
  have h4 : (rescaleCounter countersAfterZero).counter.getD 0 0 = 16 := by decide
  refine ⟨h1, h2, h3, h4, ?_⟩
  rw [h4, h1, h2]
  have e : ((9 : Nat) : ℚ) = 9 := by norm_num
  have e2 : ((17 : Nat) : ℚ) = 17 := by norm_num
  rw [e, e2, h3]
  decide

/-- C32 (amended): for every counter state with seven contexts and
`0 < counter[c] < counter_total[c]`, `rescaleCounter` (one function in the
model: the encoder's and the decoder's are the same code) sets `counter[c]` to
`max(1, floor(RESIZE * counter[c] / counter_total[c]))`, the quotient being
truncated and not rounded, and `counter_total[c]` to `RESIZE = 32`, for each of
the 7 contexts. -/
theorem C32_rescale_floor (k : Counters) (hk : CountersOK k) (c : Nat) (hc : c < CONTEXTS) :
    (rescaleCounter k).counter.length = 7 ∧ (rescaleCounter k).counter_total.length = 7 ∧
    ((rescaleCounter k).counter.getD c 0 : Int) =
      max 1 ⌊(RESIZE : ℚ) * (k.counter.getD c 0 : ℚ) / (k.counter_total.getD c 0 : ℚ)⌋ ∧
    (rescaleCounter k).counter_total.getD c 0 = RESIZE ∧ RESIZE = 32 := by
  have hr := countersOK_rescale k hk
  refine ⟨hr.1, hr.2.1, ?_, (rescaleCounter_entry k hk c hc).1, rfl⟩
  rw [rescaleCounter_getD k hk c hc]
  have hfl : ⌊(RESIZE : ℚ) * (k.counter.getD c 0 : ℚ) / (k.counter_total.getD c 0 : ℚ)⌋ =
      ((RESIZE * k.counter.getD c 0 / k.counter_total.getD c 0 : Nat) : Int) := by
    rw [← Nat.cast_mul, Rat.floor_natCast_div_natCast]
    norm_cast
  rw [hfl]
  push_cast
  rfl

theorem C32_rescale_floor_witness :
    CountersOK countersAfterZero ∧ 0 < CONTEXTS ∧
    ((rescaleCounter countersAfterZero).counter.getD 0 0 : Int) =
      max 1 ⌊(RESIZE : ℚ) * (countersAfterZero.counter.getD 0 0 : ℚ) /
        (countersAfterZero.counter_total.getD 0 0 : ℚ)⌋ :=
  ⟨updateCounter_ok resetCounter 0 false countersOK_reset (by decide), by decide,
    (C32_rescale_floor countersAfterZero
      (updateCounter_ok resetCounter 0 false countersOK_reset (by decide)) 0 (by decide)).2.2.1⟩

/-- The length field of an empty payload: `lengthbits` zeros, which
`lengthDecoding` reads back as 0. -/
theorem lengthField_zero (lengthbits : Nat) (out rest : List Bool) :
    lengthEncoding lengthbits out [] = (out ++ List.replicate lengthbits false, []) ∧
    lengthDecoding lengthbits (List.replicate lengthbits false ++ rest) = some (0, rest) := by
  have h := length_round lengthbits out [] rest (by simp)
  simp only [List.length_nil, de2bi_zero] at h
  exact h

/-- C36: `encodeBlock` on a block that `checkZeros` accepts as all-zero appends
the length field 0 and nothing else and returns the counters of the arithmetic
coder as they were (no symbol is coded, `rescaleCounter` is not called; in the
model with the encoder's memory the whole state is returned as it was);
`losslessDecoding` and `decodeBlock` on a stream whose length field reads 0
return with the counters as they were, the field removed and an all-zero block;
hence on the bits the encoder wrote for an all-zero block, followed by anything,
equal counters stay equal. -/
theorem C36_zero_block_counters {K : Type} [LinearOrderedField K] [FloorRing K]
    (log10 : K → K) (e : Encoder) (cnt : Counters) (mem : EncoderMem)
    (block SMR bandenergy : List K) (bitstream rest : List Bool) (bitbudget : Nat)
    (hz : checkZeros block e.bl = true) :
    (∃ r, encodeBlock log10 e cnt block SMR bandenergy bitstream bitbudget = some r ∧
      r.cnt = cnt ∧ r.payload = [] ∧
      r.bitstream = bitstream ++ List.replicate e.lengthbits false) ∧
    encodeBlockFrom log10 e mem block SMR bandenergy bitstream bitbudget =
      some (bitstream ++ List.replicate e.lengthbits false, mem) ∧
    (∀ (s s2 : List Bool) (cntD : Counters), lengthDecoding e.lengthbits s = some (0, s2) →
      (∃ d : LosslessResult K, losslessDecoding e.bl e.dwtlevel e.lengthbits cntD s = some d ∧
        d.content = 0 ∧ d.cnt = cntD ∧ d.bitstream = s2) ∧
      (decodeBlock e.bl e.dwtlevel e.lengthbits cntD s : Option (List K × List Bool × Counters))
        = some (List.replicate e.bl 0, s2, cntD)) ∧
    (∀ r, encodeBlock log10 e cnt block SMR bandenergy [] bitbudget = some r →
      (decodeBlock e.bl e.dwtlevel e.lengthbits cnt (r.bitstream ++ rest) :
          Option (List K × List Bool × Counters))
        = some (List.replicate e.bl 0, rest, r.cnt)) := by
  have hl := lengthField_zero e.lengthbits bitstream rest
  have hdec : ∀ (s s2 : List Bool) (cntD : Counters),
      lengthDecoding e.lengthbits s = some (0, s2) →
      (losslessDecoding e.bl e.dwtlevel e.lengthbits cntD s : Option (LosslessResult K))
        = some ⟨0, List.replicate e.bl 0, 0, 0, 0, s2, cntD⟩ := by
    intro s s2 cntD h
    unfold losslessDecoding
    rw [h]
    simp
  have hdb : ∀ (s s2 : List Bool) (cntD : Counters),
      lengthDecoding e.lengthbits s = some (0, s2) →
      (decodeBlock e.bl e.dwtlevel e.lengthbits cntD s : Option (List K × List Bool × Counters))
        = some (List.replicate e.bl 0, s2, cntD) := by
    intro s s2 cntD h
    unfold decodeBlock
    rw [hdec s s2 cntD h]
    simp
  refine ⟨?_, ?_, ?_, ?_⟩
  · refine ⟨⟨List.replicate e.bl 0, (lengthEncoding e.lengthbits bitstream []).1, cnt, []⟩,
      ?_, rfl, rfl, ?_⟩
    · unfold encodeBlock
      rw [if_pos hz]
    · show (lengthEncoding e.lengthbits bitstream []).1 = _
      rw [hl.1]
  · unfold encodeBlockFrom
    rw [if_pos hz, hl.1]
  · intro s s2 cntD h
    exact ⟨⟨_, hdec s s2 cntD h, rfl, rfl, rfl⟩, hdb s s2 cntD h⟩
  · intro r hr
    unfold encodeBlock at hr
    rw [if_pos hz] at hr
    simp only [Option.some.injEq] at hr
    subst hr
    simp only []
    rw [(lengthField_zero e.lengthbits [] rest).1]
    simp only [List.nil_append]
    exact hdb _ rest cnt (lengthField_zero e.lengthbits [] rest).2

theorem C36_zero_block_counters_witness :
    checkZeros (List.replicate 32 (0 : ℚ)) (Encoder.new 32 8000 8).bl = true ∧
    (∃ r, encodeBlock (fun x : ℚ => x) (Encoder.new 32 8000 8)
        ⟨[1, 31, 8, 8, 8, 8, 8], [40, 32, 16, 16, 16, 16, 16]⟩ (List.replicate 32 0)
        [0, 0, 0, 0] [1, 1, 1, 1] [true] 16 = some r ∧
      r.cnt = ⟨[1, 31, 8, 8, 8, 8, 8], [40, 32, 16, 16, 16, 16, 16]⟩ ∧ r.payload = [] ∧
      r.bitstream = [true] ++ List.replicate (Encoder.new 32 8000 8).lengthbits false) :=
  ⟨checkZeros_zero 32 _,
    (C36_zero_block_counters (fun x : ℚ => x) (Encoder.new 32 8000 8)
      ⟨[1, 31, 8, 8, 8, 8, 8], [40, 32, 16, 16, 16, 16, 16]⟩ ⟨resetCounter, ⟨[], []⟩⟩
      (List.replicate 32 0) [0, 0, 0, 0] [1, 1, 1, 1] [true] [] 16 (checkZeros_zero 32 _)).1⟩

theorem msbFirstValue_zeros (n : Nat) : msbFirstValue (List.replicate n false) = 0 := by
  induction n with
  | zero => rfl
  | succ n ih => simp [List.replicate_succ, msbFirstValue, ih]

/-- The first loop of `initDecoding` on a range of `m` bits that lies inside the
stream: `min(k, m)` bits are read, each at its own shift. -/
theorem readLeadingAt_spec (instream : List Bool) (length : Nat) (k i idx m : Nat) (acc : Int)
    (hm : i + m = length) (hfit : idx + m ≤ instream.length) :
    readLeadingAt instream length k i idx acc =
      some (idx + min k m, acc + (msbFirstValue (((instream.drop idx).take (min k m)) ++
        List.replicate (k - min k m) false) : Nat)) := by
  induction k generalizing i idx m acc with
  | zero => simp [readLeadingAt, msbFirstValue]
  | succ n ih =>
    cases m with
    | zero =>
      rw [readLeadingAt, if_neg (by omega)]
      simp [msbFirstValue_zeros]
    | succ m =>
      have hlt : idx < instream.length := by omega
      rw [readLeadingAt, if_pos (by omega), List.getElem?_eq_getElem hlt, Option.some_bind,
        ih (i + 1) (idx + 1) m _ (by omega) (by omega)]
      have e1 : min (n + 1) (m + 1) = min n m + 1 := by omega
      have e2 : n + 1 - (min n m + 1) = n - min n m := by omega
      have e3 : ((List.drop (idx + 1) instream).take (min n m) ++
          List.replicate (n - min n m) false).length = n := by
        rw [List.length_append, List.length_take, List.length_drop, List.length_replicate]
        omega
      rw [e1, e2, List.drop_eq_getElem_cons hlt, List.take_succ_cons, List.cons_append,
        msbFirstValue, e3]
      simp only [Option.some.injEq, Prod.mk.injEq]
      refine ⟨by omega, ?_⟩
      push_cast
      ring

/-- C37, the claim as stated fails: for a range of one bit holding a 1,
`initDecoding` leaves `in_leading = 512 = 1000000000b`, the bit followed by
nine zeros; the bit padded with zeros on the left is `0000000001b = 1`. -/
theorem C37_short_range_msb_aligned :
    (initDecodingAt resetCounter [true] 0 1).map (fun a => (a.in_index, a.in_leading))
      = some (1, 512) ∧
    msbFirstValue ([true] ++ List.replicate 9 false) = 512 ∧
    msbFirstValue (List.replicate 9 false ++ [true]) = 1 := by
  decide

/-- C37 (amended): for a bit range `[pos, pos + length)` inside the stream,
`ArithDec::initDecoding` returns, has read the first `min(10, length)` bits of
the range (`in_index = pos + min(10, length)`) into `in_leading`, most
significant bit first, and when the range is shorter than 10 bits the bits read
are followed by zeros up to 10 bits (zero padding on the right, the low-order
side); afterwards `range_lower = 0` and `range_upper = range_diff = RANGE_MAX`,
and the counters are untouched. -/
theorem C37_init_decoding (cnt : Counters) (instream : List Bool) (pos length : Nat)
    (hfit : pos + length ≤ instream.length) :
    ∃ a, initDecodingAt cnt instream pos length = some a ∧
      a.in_index = pos + min 10 length ∧
      a.in_leading = (msbFirstValue (((instream.drop pos).take (min 10 length)) ++
        List.replicate (10 - min 10 length) false) : Nat) ∧
      (((instream.drop pos).take (min 10 length)) ++
        List.replicate (10 - min 10 length) false).length = 10 ∧
      a.range_lower = 0 ∧ a.range_upper = RANGE_MAX ∧ a.range_diff = RANGE_MAX ∧
      a.cnt = cnt ∧ a.instream = instream := by
  have h := readLeadingAt_spec instream length 10 0 pos length 0 (by omega) hfit
  refine ⟨_, by rw [initDecodingAt, h]; rfl, rfl, ?_, ?_, rfl, rfl, rfl, rfl, rfl⟩
  · simp
  · rw [List.length_append, List.length_take, List.length_drop, List.length_replicate]
    omega

theorem C37_init_decoding_witness :
    0 + 3 ≤ [true, false, true].length ∧
    ∃ a, initDecodingAt resetCounter [true, false, true] 0 3 = some a ∧
      a.in_index = 0 + min 10 3 ∧
      a.in_leading = (msbFirstValue ((([true, false, true] : List Bool).drop 0).take (min 10 3) ++
        List.replicate (10 - min 10 3) false) : Nat) ∧
      (((([true, false, true] : List Bool).drop 0).take (min 10 3)) ++
        List.replicate (10 - min 10 3) false).length = 10 ∧
      a.range_lower = 0 ∧ a.range_upper = RANGE_MAX ∧ a.range_diff = RANGE_MAX ∧
      a.cnt = resetCounter ∧ a.instream = [true, false, true] :=
  ⟨by decide, C37_init_decoding resetCounter [true, false, true] 0 3 (by decide)⟩

theorem encFlushLoop_walk (fuel : Nat) (v lo hi : Int) (out : List Bool) :
    encFlushLoop fuel v lo hi out = out ++ flushWalk (trialList fuel v) lo hi := by
  induction fuel generalizing v lo hi out with
  | zero => simp [encFlushLoop, trialList, flushWalk]
  | succ n ih =>
    simp only [encFlushLoop, trialList, flushWalk]
    split_ifs with h1 h2
    · rw [ih, List.append_assoc]; rfl
    · rw [ih, List.append_assoc]; rfl
    · simp

/-- On a range that the rescaling loop has left, the final loop ends after its
first trial value. -/
theorem flushWalk_normalized (n : Nat) (lo hi : Int) (hn : Normalized lo hi) :
    flushWalk (trialList (n + 1) HALF) lo hi = if lo > 0 then [true] else [] := by
  obtain ⟨n1, n2, -⟩ := hn
  simp only [trialList, flushWalk]
  split_ifs with h1 h2
  · have hle : ¬ lo - (HALF : Int) > 0 := by omega
    cases n with
    | zero => simp [trialList, flushWalk]
    | succ m => simp [trialList, flushWalk, hle]
  · exact absurd (lt_of_not_le n1) h2
  · rfl

theorem stripTrailingZeros_spec (out : List Bool) :
    (∃ j, out = stripTrailingZeros out ++ List.replicate j false) ∧
    (stripTrailingZeros out).getLast? ≠ some false := by
  constructor
  · have h1 := List.takeWhile_append_dropWhile (fun b => !b) out.reverse
    refine ⟨(out.reverse.takeWhile (fun b => !b)).length, ?_⟩
    have h3 : (out.reverse.takeWhile (fun b => !b)).reverse
        = List.replicate (out.reverse.takeWhile (fun b => !b)).length false := by
      rw [List.eq_replicate_iff]
      refine ⟨by simp, ?_⟩
      intro b hb
      have := List.mem_takeWhile_imp (List.mem_reverse.1 hb)
      simpa using this
    have := congrArg List.reverse h1
    rw [List.reverse_append, List.reverse_reverse] at this
    rw [← h3]
    exact this.symm
  · unfold stripTrailingZeros
    rw [List.getLast?_reverse]
    intro h
    cases hd : out.reverse.dropWhile (fun b => !b) with
    | nil => rw [hd] at h; simp at h
    | cons b l =>
      rw [hd] at h
      simp only [List.head?_cons, Option.some.injEq] at h
      subst h
      have := List.head_dropWhile_not (fun b => !b) out.reverse (by rw [hd]; simp)
      simp [hd] at this

/-- C31, the claim as stated fails: after the single symbol 1 (context 0, reset
counters) the range is `[0, 1024)` with `bits_to_follow = 0` and the output so
far is `1`; the final loop of `ArithEnc::encode` does not run (`range_lower` is
0) and the payload is `1`, whereas the walk over all the trial values 512, 256,
..., 1 emits ten more 1 bits, which the removal of trailing zeros keeps. -/
theorem C31_full_walk_differs :
    trialList 10 HALF = [512, 256, 128, 64, 32, 16, 8, 4, 2, 1] ∧
    (encodeLoop [true] [0] ⟨0, RANGE_MAX, 0, [], resetCounter⟩).map
        (fun st => (st.range_lower, st.range_upper, st.bits_to_follow, st.outstream))
      = some (0, 1024, 0, [true]) ∧
    (encodeLoop [true] [0] ⟨0, RANGE_MAX, 0, [], resetCounter⟩).map
        (fun st => (encFlush st,
          st.outstream ++ flushWalkAll (trialList 10 HALF) st.range_lower st.range_upper))
      = some ([true], [true] ++ List.replicate 10 true) ∧
    (ArithEnc_encode resetCounter [true] [0] []).map Prod.fst = some [true] ∧
    stripTrailingZeros ([true] ++ List.replicate 10 true) ≠ [true] := by
  exact ⟨by decide, by decide, by decide, by decide, by decide⟩

/-- C31 (amended): after the last symbol of any input (counters of the data
model, one context in `0..6` for each symbol), `ArithEnc::encode` emits a single
1 when `bits_to_follow > 0`; otherwise it walks the trial values `HALF, HALF/2,
..., 1` only while `range_lower > 0`, emitting 1 for each trial value that is
below `range_upper` (and subtracting it from `range_lower` and `range_upper`)
and 0 for each other trial value, which for the range left by the rescaling
loop is a single 1 when `range_lower > 0` and nothing when `range_lower = 0`;
when `encode` returns, its output is the output so far without its trailing
0 bits, and it returns when the input holds a 1. -/
theorem C31_flush (cnt : Counters) (s : List Bool) (ctx : List Nat) (hk : CountersOK cnt)
    (hlen : ctx.length = s.length) (hctx : ∀ c ∈ ctx, c < CONTEXTS) :
    trialList 10 HALF = [512, 256, 128, 64, 32, 16, 8, 4, 2, 1] ∧
    ∃ st, encodeLoop s ctx ⟨0, RANGE_MAX, 0, [], cnt⟩ = some st ∧
      encFlush st = st.outstream ++
        (if st.bits_to_follow > 0 then [true]
          else flushWalk (trialList 10 HALF) st.range_lower st.range_upper) ∧
      flushWalk (trialList 10 HALF) st.range_lower st.range_upper =
        (if st.range_lower > 0 then [true] else []) ∧
      (∀ p k, ArithEnc_encode cnt s ctx [] = some (p, k) →
        p = stripTrailingZeros (encFlush st) ∧
        (∃ j, encFlush st = p ++ List.replicate j false) ∧ p.getLast? = some true ∧
        k = st.cnt) ∧
      (true ∈ s → ∃ p k, ArithEnc_encode cnt s ctx [] = some (p, k)) := by
  refine ⟨by decide, ?_⟩
  obtain ⟨st, hl⟩ := encodeLoop_isSome s ctx ⟨0, RANGE_MAX, 0, [], cnt⟩ hlen hctx
  obtain ⟨-, hn, -⟩ := encodeLoop_range s ctx _ st inRange_init.1 inRange_init.2 hk hl
  have hw10 := flushWalk_normalized 9 st.range_lower st.range_upper hn
  have hw11 := flushWalk_normalized 10 st.range_lower st.range_upper hn
  refine ⟨st, hl, ?_, hw10, ?_, ?_⟩
  · unfold encFlush
    split_ifs with h
    · rfl
    · rw [encFlushLoop_walk]
      show st.outstream ++ flushWalk (trialList (10 + 1) HALF) _ _ = _
      rw [hw11, hw10]
  · intro p k h
    unfold ArithEnc_encode at h
    rw [hl] at h
    simp only [Option.map_eq_some', Prod.mk.injEq] at h
    obtain ⟨o, ho, rfl, rfl⟩ := h
    unfold cutTrailingZeros at ho
    split_ifs at ho with ha
    simp only [Option.some.injEq] at ho
    have hp : o = stripTrailingZeros (encFlush st) := ho.symm
    obtain ⟨⟨j, hj⟩, hlast⟩ := stripTrailingZeros_spec (encFlush st)
    rw [← hp] at hj hlast
    refine ⟨hp, ⟨j, hj⟩, ?_, rfl⟩
    cases hg : o.getLast? with
    | none =>
      exfalso
      rw [List.getLast?_eq_none_iff] at hg
      rw [hg, List.nil_append] at hj
      rw [hj] at ha
      simp at ha
    | some b =>
      cases b with
      | false => exact absurd hg hlast
      | true => rfl
  · intro hs
    exact ArithEnc_encode_isSome cnt s ctx hk hs hlen hctx

theorem C31_flush_witness :
    CountersOK resetCounter ∧ ([0, 1, 2] : List Nat).length = [false, true, true].length ∧
    (∀ c ∈ ([0, 1, 2] : List Nat), c < CONTEXTS) ∧
    ∃ st, encodeLoop [false, true, true] [0, 1, 2] ⟨0, RANGE_MAX, 0, [], resetCounter⟩ = some st ∧
      encFlush st = st.outstream ++
        (if st.bits_to_follow > 0 then [true]
          else flushWalk (trialList 10 HALF) st.range_lower st.range_upper) ∧
      flushWalk (trialList 10 HALF) st.range_lower st.range_upper =
        (if st.range_lower > 0 then [true] else []) ∧
      (∀ p k, ArithEnc_encode resetCounter [false, true, true] [0, 1, 2] [] = some (p, k) →
        p = stripTrailingZeros (encFlush st) ∧
        (∃ j, encFlush st = p ++ List.replicate j false) ∧ p.getLast? = some true ∧
        k = st.cnt) ∧
      (true ∈ [false, true, true] →
        ∃ p k, ArithEnc_encode resetCounter [false, true, true] [0, 1, 2] [] = some (p, k)) :=
  ⟨countersOK_reset, by decide, by decide,
    (C31_flush resetCounter [false, true, true] [0, 1, 2] countersOK_reset (by decide)
      (by decide)).2⟩

/-- C34 (evaluation at failing inputs): on the empty input, on a single 0 and
on three 0 bits (context 0, freshly reset counters, empty output vector)
`ArithEnc::encode` does not return: the output before the removal of trailing
zeros is empty or holds only 0 bits, `index_end` runs below 0 and
`outstream->at(index_end)` throws; on the input `0 1` it returns the payload
`0 1 1`. -/
theorem C34_encode_without_one_throws :
    (encodeLoop [] [] ⟨0, RANGE_MAX, 0, [], resetCounter⟩).map encFlush = some [] ∧
    ArithEnc_encode resetCounter [] [] [] = none ∧
    (encodeLoop [false] [0] ⟨0, RANGE_MAX, 0, [], resetCounter⟩).map encFlush = some [false] ∧
    ArithEnc_encode resetCounter [false] [0] [] = none ∧
    ArithEnc_encode resetCounter [false, false, false] [0, 0, 0] [] = none ∧
    (ArithEnc_encode resetCounter [false, true] [0, 0] []).map Prod.fst
      = some [false, true, true] := by
  exact ⟨by decide, by decide, by decide, by decide, by decide, by decide⟩

/-- Below its clipping value `maxQuant` rounds up to the next multiple of
`2^-b2`. -/
theorem maxQuant_bounds {K : Type} [LinearOrderedField K] [FloorRing K] (x : K) (b1 b2 : Nat)
    (hb : (b1 = 0 ∧ b2 = 7) ∨ (b1 = 1 ∧ b2 = 7) ∨ (b1 = 3 ∧ b2 = 4)) (hx : 0 ≤ x)
    (hle : x ≤ ((2 : K) ^ (b1 + b2) - 1) / 2 ^ b2) :
    x ≤ maxQuant x b1 b2 ∧ maxQuant x b1 b2 < x + 1 / 2 ^ b2 := by
  obtain ⟨v1, v2⟩ := maxQuant_value x b1 b2 hb hx
  have h2 : (0 : K) < 2 ^ b2 := by positivity
  rcases lt_or_eq_of_le hle with hlt | heq
  · rw [v1 hlt]
    constructor
    · rw [le_div_iff₀ h2]
      exact Int.le_ceil _
    · rw [div_lt_iff₀ h2, add_mul]
      have : (1 : K) / 2 ^ b2 * 2 ^ b2 = 1 := by field_simp
      rw [this]
      exact Int.ceil_lt_add_one _
  · rw [v2 (le_of_eq heq.symm), ← heq]
    exact ⟨le_refl _, by linarith [div_pos (one_pos (α := K)) h2]⟩

/-- The largest magnitude of the block bounds every coefficient. -/
theorem findMax_ge {K : Type} [LinearOrderedField K] (sig : List K) (x : K) (hx : x ∈ sig) :
    |x| ≤ findMax sig :=
  (findMax_aux sig 0).2 x hx

/-- C35, the claim as stated fails: for the block `[0.995, -0.5]` the largest
magnitude is `wavmax = 0.995 < 1`, mode 0 with 7 fraction bits is chosen and
`maxQuant` clips: `qwavmax = 127/128 = 0.9921875 < wavmax`, so the coefficient
0.995 exceeds `qwavmax`. -/
theorem C35_qwavmax_below_wavmax :
    findMax ([199 / 200, -1 / 2] : List ℚ) = 199 / 200 ∧
    (maximumWaveletCoefficient ([199 / 200, -1 / 2] : List ℚ)).qwavmax = 127 / 128 ∧
    ¬ (findMax ([199 / 200, -1 / 2] : List ℚ) ≤
      (maximumWaveletCoefficient ([199 / 200, -1 / 2] : List ℚ)).qwavmax) ∧
    ¬ (∀ x ∈ ([199 / 200, -1 / 2] : List ℚ),
      |x| ≤ (maximumWaveletCoefficient ([199 / 200, -1 / 2] : List ℚ)).qwavmax) := by
  have h1 : findMax ([199 / 200, -1 / 2] : List ℚ) = 199 / 200 := by decide!
  have h2 : (maximumWaveletCoefficient ([199 / 200, -1 / 2] : List ℚ)).qwavmax = 127 / 128 := by
    decide!
  refine ⟨h1, h2, ?_, ?_⟩
  · rw [h1, h2]; norm_num
  · rw [h2]
    intro h
    have := h (199 / 200) (by simp)
    rw [abs_of_nonneg (by norm_num)] at this
    norm_num at this

/-- C35 (amended): for every non-zero block whose largest absolute coefficient
`wavmax` is at most `127/128`, or at least 1 and at most `1 + 127/16`, the
`qwavmax` produced by `maximumWaveletCoefficient` satisfies
`wavmax <= qwavmax < wavmax + 2^-fractionbits` (`fractionbits = 7` when
`wavmax < 1`, 4 otherwise), so that every coefficient `x` of the block satisfies
`|x| <= qwavmax`; for `127/128 < wavmax < 1` the value is clipped:
`qwavmax = 127/128 < wavmax`. -/
theorem C35_qwavmax_bounds {K : Type} [LinearOrderedField K] [FloorRing K] (sig : List K)
    (hpos : 0 < findMax sig) :
    (findMax sig ≤ 127 / 128 →
      findMax sig ≤ (maximumWaveletCoefficient sig).qwavmax ∧
      (maximumWaveletCoefficient sig).qwavmax < findMax sig + 1 / 2 ^ 7 ∧
      ∀ x ∈ sig, |x| ≤ (maximumWaveletCoefficient sig).qwavmax) ∧
    (1 ≤ findMax sig → findMax sig ≤ 1 + 127 / 16 →
      findMax sig ≤ (maximumWaveletCoefficient sig).qwavmax ∧
      (maximumWaveletCoefficient sig).qwavmax < findMax sig + 1 / 2 ^ 4 ∧
      ∀ x ∈ sig, |x| ≤ (maximumWaveletCoefficient sig).qwavmax) ∧
    (127 / 128 < findMax sig → findMax sig < 1 →
      (maximumWaveletCoefficient sig).qwavmax = 127 / 128) := by
  obtain ⟨f0, f1⟩ := maximumWaveletCoefficient_form sig hpos
  refine ⟨?_, ?_, ?_⟩
  · intro hle
    have hw : findMax sig < 1 := lt_of_le_of_lt hle (by norm_num)
    obtain ⟨m, -, -, hq⟩ := f0 hw
    have hb := maxQuant_bounds (findMax sig) 0 7 (Or.inl ⟨rfl, rfl⟩) (le_of_lt hpos)
      (by norm_num; exact hle)
    rw [hq]
    exact ⟨hb.1, hb.2, fun x hx => le_trans (findMax_ge sig x hx) hb.1⟩
  · intro hge hle
    obtain ⟨m, -, -, hq⟩ := f1 hge
    have hb := maxQuant_bounds (findMax sig - 1) 3 4 (Or.inr (Or.inr ⟨rfl, rfl⟩)) (by linarith)
      (by norm_num; linarith)
    rw [hq]
    have a1 : findMax sig ≤ maxQuant (findMax sig - 1) 3 4 + 1 := by linarith [hb.1]
    refine ⟨a1, by linarith [hb.2], fun x hx => le_trans (findMax_ge sig x hx) a1⟩
  · intro hgt hw
    obtain ⟨m, -, -, hq⟩ := f0 hw
    rw [hq]
    have := (maxQuant_value (findMax sig) 0 7 (Or.inl ⟨rfl, rfl⟩) (le_of_lt hpos)).2
      (by norm_num; exact le_of_lt hgt)
    rw [this]
    norm_num

theorem C35_qwavmax_bounds_witness :
    0 < findMax ([3 / 10, -1 / 2] : List ℚ) ∧
    findMax ([3 / 10, -1 / 2] : List ℚ) ≤ 127 / 128 ∧
    findMax ([3 / 10, -1 / 2] : List ℚ) ≤
      (maximumWaveletCoefficient ([3 / 10, -1 / 2] : List ℚ)).qwavmax ∧
    (maximumWaveletCoefficient ([3 / 10, -1 / 2] : List ℚ)).qwavmax <
      findMax ([3 / 10, -1 / 2] : List ℚ) + 1 / 2 ^ 7 ∧
    ∀ x ∈ ([3 / 10, -1 / 2] : List ℚ),
      |x| ≤ (maximumWaveletCoefficient ([3 / 10, -1 / 2] : List ℚ)).qwavmax :=
  have h1 : findMax ([3 / 10, -1 / 2] : List ℚ) = 1 / 2 := by decide!
  ⟨by rw [h1]; norm_num, by rw [h1]; norm_num,
    (C35_qwavmax_bounds ([3 / 10, -1 / 2] : List ℚ) (by rw [h1]; norm_num)).1
      (by rw [h1]; norm_num)⟩

theorem covers_of_child (t i : Nat) (ht : 1 ≤ t)
    (h : i = 2 * t ∨ i = 2 * t + 1 ∨ covers ⟨t, 1⟩ i = true) : covers ⟨t, 0⟩ i = true := by
  have hs := covers_A_split t i ht
  cases hc : covers ⟨t, 0⟩ i with
  | true => rfl
  | false =>
    exfalso
    rw [hc] at hs
    simp only [Bool.toNat_false] at hs
    rcases h with h | h | h
    · rw [if_pos h] at hs; omega
    · rw [if_pos h] at hs; omega
    · rw [h] at hs; simp only [Bool.toNat_true] at hs; omega

theorem covers_of_grandchild (t i : Nat) (ht : 1 ≤ t)
    (h : covers ⟨2 * t, 0⟩ i = true ∨ covers ⟨2 * t + 1, 0⟩ i = true) :
    covers ⟨t, 1⟩ i = true := by
  have hs := covers_B_split t i ht
  cases hc : covers ⟨t, 1⟩ i with
  | true => rfl
  | false =>
    exfalso
    rw [hc] at hs
    simp only [Bool.toNat_false] at hs
    rcases h with h | h
    · rw [h] at hs; simp only [Bool.toNat_true] at hs; omega
    · rw [h] at hs; simp only [Bool.toNat_true] at hs; omega

theorem attA_set (signal : List Int) (md : List Nat) (t v : Nat) (ht : t < md.length)
    (h : ∃ i, i < signal.length ∧ covers ⟨t, 0⟩ i = true ∧ (signal.getD i 0).natAbs = v) :
    AttA signal (md.set t v) t := by
  obtain ⟨i, hi, hcov, he⟩ := h
  exact ⟨i, hi, hcov, by rw [getD_set_nat _ _ _ _ ht, if_pos rfl]; exact he⟩

theorem attA_keep (signal : List Int) (md : List Nat) (t t2 v : Nat) (ht : t2 < md.length)
    (hne : t ≠ t2) (h : AttA signal md t) : AttA signal (md.set t2 v) t := by
  obtain ⟨i, hi, hcov, he⟩ := h
  exact ⟨i, hi, hcov, by rw [getD_set_nat _ _ _ _ ht, if_neg hne]; exact he⟩

theorem attB_set (signal : List Int) (md : List Nat) (t v : Nat) (ht : t < md.length)
    (h : ∃ i, i < signal.length ∧ covers ⟨t, 1⟩ i = true ∧ (signal.getD i 0).natAbs = v) :
    AttB signal (md.set t v) t := by
  obtain ⟨i, hi, hcov, he⟩ := h
  exact ⟨i, hi, hcov, by rw [getD_set_nat _ _ _ _ ht, if_pos rfl]; exact he⟩

theorem attB_keep (signal : List Int) (md : List Nat) (t t2 v : Nat) (ht : t2 < md.length)
    (hne : t ≠ t2) (h : AttB signal md t) : AttB signal (md.set t2 v) t := by
  obtain ⟨i, hi, hcov, he⟩ := h
  exact ⟨i, hi, hcov, by rw [getD_set_nat _ _ _ _ ht, if_neg hne]; exact he⟩

theorem initMaxLeaves_att (signal : List Int) (q : Nat) (hsize : signal.length = 4 * q)
    (md0 : List Nat) (hl : md0.length = 2 * q) (c : Nat) (hc : c ≤ q) :
    let md := (List.range c).foldl (fun md i =>
      let v1 := (signal.getD (2 * q + 2 * i) 0).natAbs
      let v2 := (signal.getD (2 * q + 2 * i + 1) 0).natAbs
      md.set (((2 * q) >>> 1) + i) (if v1 > v2 then v1 else v2)) md0
    md.length = 2 * q ∧ ∀ t, q ≤ t → t < q + c → AttA signal md t := by
  induction c with
  | zero =>
    refine ⟨hl, ?_⟩
    intro t h1 h2; omega
  | succ c ih =>
    obtain ⟨l1, g1⟩ := ih (by omega)
    have hstep := initMaxLeaves_step signal (2 * q) c md0
    simp only at hstep l1 g1 ⊢
    rw [hstep]
    have hq : (2 * q) >>> 1 = q := by rw [Nat.shiftRight_eq_div_pow]; omega
    rw [hq] at l1 g1 ⊢
    refine ⟨by rw [List.length_set]; exact l1, ?_⟩
    intro t h1 h2
    by_cases ht : t = q + c
    · subst ht
      apply attA_set _ _ _ _ (by omega)
      split_ifs
      · exact ⟨2 * (q + c), by omega, covers_of_child _ _ (by omega) (Or.inl rfl),
          by rw [show 2 * (q + c) = 2 * q + 2 * c by ring]⟩
      · exact ⟨2 * (q + c) + 1, by omega,
          covers_of_child _ _ (by omega) (Or.inr (Or.inl rfl)),
          by rw [show 2 * (q + c) + 1 = 2 * q + 2 * c + 1 by ring]⟩
    · exact attA_keep _ _ _ _ _ (by omega) ht (g1 t h1 (by omega))

theorem initMaxLevel_att (signal : List Int) (q h : Nat) (hsize : signal.length = 4 * q)
    (hh : 1 ≤ h) (hq : 2 * h ≤ q) (m : MaxDesc) (hm : AttInv signal q (2 * h) m)
    (c : Nat) (hc : c ≤ h) :
    let m' := (List.range c).foldl (levelStep signal (2 * h)) m
    m'.maxDescendants.length = 2 * q ∧ m'.maxDescendants1.length = q ∧
    (∀ t, (h ≤ t ∧ t < h + c) ∨ 2 * h ≤ t → t < 2 * q → AttA signal m'.maxDescendants t) ∧
    (∀ t, (h ≤ t ∧ t < h + c) ∨ 2 * h ≤ t → t < q → AttB signal m'.maxDescendants1 t) := by
  induction c with
  | zero =>
    obtain ⟨l1, l2, g1, g2⟩ := hm
    refine ⟨l1, l2, ?_, ?_⟩
    · intro t ht; exact g1 t (by omega)
    · intro t ht; exact g2 t (by omega)
  | succ c ih =>
    obtain ⟨l1, l2, g1, g2⟩ := ih (by omega)
    simp only at l1 l2 g1 g2 ⊢
    rw [List.range_succ, List.foldl_append]
    obtain ⟨m1, hm1⟩ : ∃ m1, m1 = (List.range c).foldl (levelStep signal (2 * h)) m := ⟨_, rfl⟩
    rw [← hm1] at l1 l2 g1 g2 ⊢
    simp only [List.foldl_cons, List.foldl_nil]
    have hw : (2 * h) >>> 1 = h := by rw [Nat.shiftRight_eq_div_pow]; omega
    have hA1 := g1 (2 * h + 2 * c) (Or.inr (by omega)) (by omega)
    have hA2 := g1 (2 * h + 2 * c + 1) (Or.inr (by omega)) (by omega)
    have hB : ∃ i, i < signal.length ∧ covers ⟨h + c, 1⟩ i = true ∧
        (signal.getD i 0).natAbs =
          (if m1.maxDescendants.getD (2 * h + 2 * c) 0 > m1.maxDescendants.getD (2 * h + 2 * c + 1) 0
            then m1.maxDescendants.getD (2 * h + 2 * c) 0
            else m1.maxDescendants.getD (2 * h + 2 * c + 1) 0) := by
      split_ifs
      · obtain ⟨i, hi, hcov, he⟩ := hA1
        refine ⟨i, hi, covers_of_grandchild _ _ (by omega) (Or.inl ?_), he⟩
        rw [show 2 * (h + c) = 2 * h + 2 * c by ring]; exact hcov
      · obtain ⟨i, hi, hcov, he⟩ := hA2
        refine ⟨i, hi, covers_of_grandchild _ _ (by omega) (Or.inr ?_), he⟩
        rw [show 2 * (h + c) + 1 = 2 * h + 2 * c + 1 by ring]; exact hcov
    refine ⟨?_, ?_, ?_, ?_⟩
    · simp only [levelStep, List.length_set]; exact l1
    · simp only [levelStep, List.length_set]; exact l2
    · intro t ht htq
      simp only [levelStep, hw]
      by_cases htc : t = h + c
      · subst htc
        apply attA_set _ _ _ _ (by omega)
        have hv : ∀ a1 a2 d : Nat,
            (if a2 > (if a1 > d then a1 else d) then a2 else (if a1 > d then a1 else d)) = a2 ∨
            (if a2 > (if a1 > d then a1 else d) then a2 else (if a1 > d then a1 else d)) = a1 ∨
            (if a2 > (if a1 > d then a1 else d) then a2 else (if a1 > d then a1 else d)) = d := by
          intro a1 a2 d
          split_ifs <;> simp
        rcases hv (signal.getD (2 * h + 2 * c) 0).natAbs (signal.getD (2 * h + 2 * c + 1) 0).natAbs
          (if m1.maxDescendants.getD (2 * h + 2 * c) 0 >
              m1.maxDescendants.getD (2 * h + 2 * c + 1) 0
            then m1.maxDescendants.getD (2 * h + 2 * c) 0
            else m1.maxDescendants.getD (2 * h + 2 * c + 1) 0) with e | e | e
        · rw [e]
          exact ⟨2 * (h + c) + 1, by omega,
            covers_of_child _ _ (by omega) (Or.inr (Or.inl rfl)),
            by rw [show 2 * (h + c) + 1 = 2 * h + 2 * c + 1 by ring]⟩
        · rw [e]
          exact ⟨2 * (h + c), by omega, covers_of_child _ _ (by omega) (Or.inl rfl),
            by rw [show 2 * (h + c) = 2 * h + 2 * c by ring]⟩
        · rw [e]
          obtain ⟨i, hi, hcov, he⟩ := hB
          exact ⟨i, hi, covers_of_child _ _ (by omega) (Or.inr (Or.inr hcov)), he⟩
      · exact attA_keep _ _ _ _ _ (by omega) htc (g1 t (by omega) htq)
    · intro t ht htq
      simp only [levelStep, hw]
      by_cases htc : t = h + c
      · subst htc
        exact attB_set _ _ _ _ (by omega) hB
      · exact attB_keep _ _ _ _ _ (by omega) htc (g2 t (by omega) htq)

theorem initMaxLevel_attInv (signal : List Int) (q h : Nat) (hsize : signal.length = 4 * q)
    (hh : 1 ≤ h) (hq : 2 * h ≤ q) (m : MaxDesc) (hm : AttInv signal q (2 * h) m) :
    AttInv signal q h (initMaxLevel signal (2 * h) m) := by
  have hw : (2 * h) >>> 1 = h := by rw [Nat.shiftRight_eq_div_pow]; omega
  rw [initMaxLevel_eq, hw]
  obtain ⟨l1, l2, g1, g2⟩ := initMaxLevel_att signal q h hsize hh hq m hm h (le_refl h)
  refine ⟨l1, l2, ?_, ?_⟩
  · intro t ht htq; exact g1 t (by omega) htq
  · intro t ht htq; exact g2 t (by omega) htq

theorem initMaxLevels_attInv (signal : List Int) (q : Nat) (hsize : signal.length = 4 * q)
    (j : Nat) (fuel : Nat) (hf : j ≤ fuel) (hq : 2 ^ (j + 1) ≤ q) (m : MaxDesc)
    (hm : AttInv signal q (2 ^ (j + 1)) m) :
    AttInv signal q 2 (initMaxLevels signal fuel (2 ^ (j + 1)) m) := by
  induction j generalizing fuel m with
  | zero =>
    cases fuel with
    | zero => simpa [initMaxLevels] using hm
    | succ n =>
      simp only [initMaxLevels]
      rw [if_neg (by simp [Nat.shiftRight_eq_div_pow])]
      simpa using hm
  | succ k ih =>
    obtain ⟨n, rfl⟩ : ∃ n, fuel = n + 1 := ⟨fuel - 1, by omega⟩
    have hw : (2 ^ (k + 1 + 1)) >>> 1 = 2 ^ (k + 1) := by
      rw [Nat.shiftRight_eq_div_pow, pow_succ 2 (k + 1)]; simp
    have hgt : 2 ^ (k + 1) > 1 := Nat.one_lt_two_pow (by omega)
    simp only [initMaxLevels, hw, if_pos hgt]
    have e : 2 ^ (k + 1 + 1) = 2 * 2 ^ (k + 1) := by rw [pow_succ]; ring
    rw [e] at hm hq ⊢
    have := initMaxLevel_attInv signal q (2 ^ (k + 1)) hsize (by omega) (by omega) m hm
    exact ih n (by omega) (by omega) _ this

/-- Every entry of the tables of `initMaxDescendant` from index 2 on is the
magnitude of one of the coefficients it stands for (blocks of `2^k`
coefficients, `k >= 3`). -/
theorem initMaxDescendant_att (data : List Int) (k : Nat) (hk : 3 ≤ k)
    (hsize : data.length = 2 ^ k) :
    AttInv data (2 ^ (k - 2)) 2 (initMaxDescendant data) := by
  obtain ⟨j, rfl⟩ : ∃ j, k = j + 3 := ⟨k - 3, by omega⟩
  have hq : data.length = 4 * 2 ^ (j + 1) := by rw [hsize]; ring
  have hs1 : data.length >>> 1 = 2 * 2 ^ (j + 1) := by
    rw [Nat.shiftRight_eq_div_pow, hq]; omega
  have hs2 : (2 * 2 ^ (j + 1)) >>> 1 = 2 ^ (j + 1) := by
    rw [Nat.shiftRight_eq_div_pow]; omega
  have hinit : AttInv data (2 ^ (j + 1)) (2 ^ (j + 1))
      ⟨initMaxLeaves data (2 * 2 ^ (j + 1)) (List.replicate (2 * 2 ^ (j + 1)) 0),
        List.replicate (2 ^ (j + 1)) 0⟩ := by
    obtain ⟨l1, g1⟩ := initMaxLeaves_att data (2 ^ (j + 1)) hq
      (List.replicate (2 * 2 ^ (j + 1)) 0) (by simp) (2 ^ (j + 1)) (le_refl _)
    simp only [hs2] at l1 g1
    refine ⟨?_, by simp, ?_, ?_⟩
    · simp only [initMaxLeaves, hs2]; exact l1
    · intro t h1 h2
      simp only [initMaxLeaves, hs2]
      exact g1 t h1 (by omega)
    · intro t h1 h2; omega
  have hfin := initMaxLevels_attInv data (2 ^ (j + 1)) hq j (2 ^ (j + 1))
    (by
      have := Nat.lt_two_pow j
      have : 2 ^ j ≤ 2 ^ (j + 1) := Nat.pow_le_pow_right (by decide) (by omega)
      omega)
    (le_refl _) _ hinit
  have hdef : initMaxDescendant data = initMaxLevels data (2 ^ (j + 1)) (2 ^ (j + 1))
      ⟨initMaxLeaves data (2 * 2 ^ (j + 1)) (List.replicate (2 * 2 ^ (j + 1)) 0),
        List.replicate (2 ^ (j + 1)) 0⟩ := by
    simp only [initMaxDescendant, hs1, hs2]
  rw [hdef, show j + 3 - 2 = j + 1 by omega]
  exact hfin

/-- C38: after `initMaxDescendant` on a block of length `N` in {32, 64, 128,
256, 512}, for every `i` with `2 <= i < N/2`, `maxDescendants[i]` is the
maximum of `|signal[j]|` over all descendants `j < N` of `i` in the tree with
children `2i` and `2i + 1` (the `j` with `j / 2^k = i` for some `k >= 1`): it
bounds all of them and is the magnitude of one of them; for every `i` with
`2 <= i < N/4`, `maxDescendants1[i]` is in the same way the maximum over the
descendants of `i` other than its two children (`k >= 2`); `maxDescendant(p)`
returns the entry `p.index` of the second table for type 1 and of the first
otherwise. -/
theorem C38_max_descendants (signal : List Int) (N : Nat)
    (hN : N ∈ [32, 64, 128, 256, 512]) (hlen : signal.length = N) :
    ((initMaxDescendant signal).maxDescendants.length = N / 2 ∧
      (initMaxDescendant signal).maxDescendants1.length = N / 4) ∧
    (∀ i, 2 ≤ i → i < N / 2 →
      (∀ j k, j < N → 1 ≤ k → j / 2 ^ k = i →
        (signal.getD j 0).natAbs ≤ (initMaxDescendant signal).maxDescendants.getD i 0) ∧
      (∃ j k, j < N ∧ 1 ≤ k ∧ j / 2 ^ k = i ∧
        (signal.getD j 0).natAbs = (initMaxDescendant signal).maxDescendants.getD i 0) ∧
      maxDescendant (initMaxDescendant signal) ⟨i, 0⟩ =
        (initMaxDescendant signal).maxDescendants.getD i 0) ∧
    (∀ i, 2 ≤ i → i < N / 4 →
      (∀ j k, j < N → 2 ≤ k → j / 2 ^ k = i →
        (signal.getD j 0).natAbs ≤ (initMaxDescendant signal).maxDescendants1.getD i 0) ∧
      (∃ j k, j < N ∧ 2 ≤ k ∧ j / 2 ^ k = i ∧
        (signal.getD j 0).natAbs = (initMaxDescendant signal).maxDescendants1.getD i 0) ∧
      maxDescendant (initMaxDescendant signal) ⟨i, 1⟩ =
        (initMaxDescendant signal).maxDescendants1.getD i 0) := by
  obtain ⟨k, hk, hpow⟩ := size_pow N hN
  have hsz : signal.length = 2 ^ k := by rw [hlen, hpow]
  have hok := initMaxDescendant_ok signal k hk hsz
  obtain ⟨l1, l2, a1, a2⟩ := initMaxDescendant_att signal k hk hsz
  obtain ⟨j, rfl⟩ : ∃ j, k = j + 3 := ⟨k - 3, by omega⟩
  have e1 : j + 3 - 2 = j + 1 := by omega
  rw [e1] at l1 l2 a1 a2
  have hN4 : N = 4 * 2 ^ (j + 1) := by rw [hpow]; ring
  have h2 : N / 2 = 2 * 2 ^ (j + 1) := by omega
  have h4 : N / 4 = 2 ^ (j + 1) := by omega
  refine ⟨⟨by rw [l1, h2], by rw [l2, h4]⟩, ?_, ?_⟩
  · intro i hi1 hi2
    refine ⟨?_, ?_, ?_⟩
    · intro x d hx hd he
      have hcov : covers ⟨i, 0⟩ x = true :=
        (covers_iff ⟨i, 0⟩ x (by simp only; omega)).2 ⟨d, by simpa [minDepth] using hd, he⟩
      have := hok ⟨i, 0⟩ x ⟨hi1, Or.inl ⟨rfl, by rw [hlen]; simp only; omega⟩⟩
        (by rw [hlen]; exact hx) hcov
      simpa [maxDescendant] using this
    · obtain ⟨x, hx, hcov, he⟩ := a1 i hi1 (by omega)
      obtain ⟨d, hd, hdiv⟩ := (covers_iff ⟨i, 0⟩ x (by simp only; omega)).1 hcov
      exact ⟨x, d, by rw [← hlen]; exact hx, by simpa [minDepth] using hd, hdiv, he⟩
    · simp [maxDescendant]
  · intro i hi1 hi2
    refine ⟨?_, ?_, ?_⟩
    · intro x d hx hd he
      have hcov : covers ⟨i, 1⟩ x = true :=
        (covers_iff ⟨i, 1⟩ x (by simp only; omega)).2 ⟨d, by simpa [minDepth] using hd, he⟩
      have := hok ⟨i, 1⟩ x ⟨hi1, Or.inr ⟨rfl, by rw [hlen]; simp only; omega⟩⟩
        (by rw [hlen]; exact hx) hcov
      simpa [maxDescendant] using this
    · obtain ⟨x, hx, hcov, he⟩ := a2 i hi1 (by omega)
      obtain ⟨d, hd, hdiv⟩ := (covers_iff ⟨i, 1⟩ x (by simp only; omega)).1 hcov
      exact ⟨x, d, by rw [← hlen]; exact hx, by simpa [minDepth] using hd, hdiv, he⟩
    · simp [maxDescendant]

theorem C38_max_descendants_witness :
    (32 ∈ [32, 64, 128, 256, 512] ∧
      (([3, -1, 0, 0, 2, 0, 0, -5] ++ List.replicate 23 0 ++ [-9] : List Int)).length = 32) ∧
    (initMaxDescendant ([3, -1, 0, 0, 2, 0, 0, -5] ++ List.replicate 23 0 ++ [-9])).maxDescendants
      = [0, 0, 2, 9, 0, 0, 0, 9, 0, 0, 0, 0, 0, 0, 0, 9] ∧
    (initMaxDescendant ([3, -1, 0, 0, 2, 0, 0, -5] ++ List.replicate 23 0 ++ [-9])).maxDescendants1
      = [0, 0, 0, 9, 0, 0, 0, 9] ∧
    (∃ j k, j < 32 ∧ 1 ≤ k ∧ j / 2 ^ k = 3 ∧
      (([3, -1, 0, 0, 2, 0, 0, -5] ++ List.replicate 23 0 ++ [-9] : List Int).getD j 0).natAbs =
        (initMaxDescendant
          ([3, -1, 0, 0, 2, 0, 0, -5] ++ List.replicate 23 0 ++ [-9])).maxDescendants.getD 3 0) :=
  ⟨⟨by decide, by decide⟩, by decide, by decide,
    ((C38_max_descendants ([3, -1, 0, 0, 2, 0, 0, -5] ++ List.replicate 23 0 ++ [-9]) 32
      (by decide) (by decide)).2.1 3 (by decide) (by decide)).2.1⟩

/-- C39 (evaluation at failing inputs): on `[0, 1, 1]`, a vector of three
samples whose plateau begins at index 1 after a rise and extends to the last
sample, the inner loop `while (x.at(i_plateau + 1) == x.at(i))` of
`FindAllPeakLocations` calls `x.at(3)` and the function throws instead of
returning; the same on `[3, 0, 2, 0, 1, 1, 1]`; with a lower sample after the
plateau, `[0, 1, 1, 0]`, it returns the peak at index 1. -/
theorem C39_plateau_to_end_throws :
    FindAllPeakLocations ([0, 1, 1] : List ℚ) = none ∧
    RisingPlateauToEnd ([0, 1, 1] : List ℚ) 1 ∧
    plateauEnd (1 : ℚ) (([0, 1, 1] : List ℚ).drop (1 + 2)) (1 + 1) = none ∧
    FindAllPeakLocations ([3, 0, 2, 0, 1, 1, 1] : List ℚ) = none ∧
    FindAllPeakLocations ([0, 1, 1, 0] : List ℚ) = some [⟨1, 1⟩] := by
  refine ⟨by decide!, ⟨by decide, by decide, by decide!, ?_⟩, by decide!, by decide!, by decide!⟩
  intro k h1 h2
  have h3 : k < 3 := h2
  interval_cases k <;> rfl

theorem prominenceSpec_split {K : Type} [LinearOrderedField K] (s : List K)
    (pre : List (peak K)) (p : peak K) (post : List (peak K)) :
    prominenceSpec s (pre ++ p :: post) pre.length = promZ s pre p post := by
  unfold prominenceSpec promZ
  have h1 : (pre ++ p :: post).getD pre.length ⟨0, 0⟩ = p := by
    rw [List.getD_eq_getElem?_getD, List.getElem?_append_right (le_refl _)]
    simp
  have h2 : (pre ++ p :: post).take pre.length = pre := List.take_left' rfl
  have h3 : (pre ++ p :: post).drop (pre.length + 1) = post := by
    rw [show pre ++ p :: post = (pre ++ [p]) ++ post by simp]
    exact List.drop_left' (by simp)
  simp only [h1, h2, h3]

theorem prominenceSpec_go {K : Type} [LinearOrderedField K] (s : List K)
    (pre L : List (peak K)) :
    (List.range' pre.length L.length).map (prominenceSpec s (pre ++ L)) = promGo s pre L := by
  induction L generalizing pre with
  | nil => rfl
  | cons p post ih =>
    rw [List.length_cons, List.range'_succ, List.map_cons, prominenceSpec_split, promGo]
    congr 1
    have := ih (pre ++ [p])
    rw [List.length_append, List.length_singleton, List.append_assoc, List.singleton_append]
      at this
    exact this

theorem prominenceSpec_all {K : Type} [LinearOrderedField K] (s : List K) (L : List (peak K)) :
    (List.range L.length).map (prominenceSpec s L) = promGo s [] L := by
  have := prominenceSpec_go s [] L
  rw [List.length_nil, List.nil_append, ← List.range_eq_range'] at this
  exact this

theorem promGo_length {K : Type} [LinearOrderedField K] (s : List K) (pre L : List (peak K)) :
    (promGo s pre L).length = L.length := by
  induction L generalizing pre with
  | nil => rfl
  | cons p post ih => rw [promGo, List.length_cons, List.length_cons, ih]

/-- A filter that keeps every element satisfying `g` does not change what
`find?` finds for `g`. -/
theorem find?_filter_of_imp {α : Type} (g c : α → Bool) (L : List α)
    (h : ∀ q, g q = true → c q = true) : (L.filter c).find? g = L.find? g := by
  induction L with
  | nil => rfl
  | cons a rest ih =>
    by_cases hc : c a = true
    · rw [List.filter_cons_of_pos hc, List.find?_cons, List.find?_cons, ih]
    · rw [List.filter_cons_of_neg hc, ih, List.find?_cons]
      have hg : g a = false := by
        cases hga : g a with
        | false => rfl
        | true => exact absurd (h a hga) hc
      rw [hg]

/-- The prominence of a peak of height at least `h` is the same among all the
peaks and among those of height at least `h`: a higher peak is never
discarded. -/
theorem promZ_filter {K : Type} [LinearOrderedField K] (s : List K) (h : K)
    (pre : List (peak K)) (p : peak K) (post : List (peak K)) (hp : h ≤ p.height) :
    promZ s (pre.filter (fun q => decide (h ≤ q.height))) p
      (post.filter (fun q => decide (h ≤ q.height))) = promZ s pre p post := by
  have himp : ∀ q : peak K, decide (p.height < q.height) = true → decide (h ≤ q.height) = true := by
    intro q hq
    simp only [decide_eq_true_eq] at hq ⊢
    exact le_of_lt (lt_of_le_of_lt hp hq)
  unfold promZ
  rw [← List.filter_reverse, find?_filter_of_imp _ _ _ himp, find?_filter_of_imp _ _ _ himp]

theorem promGo_filter {K : Type} [LinearOrderedField K] (s : List K) (h : K)
    (pre L : List (peak K)) :
    promGo s (pre.filter (fun q => decide (h ≤ q.height)))
        (L.filter (fun q => decide (h ≤ q.height))) =
      ((L.zip (promGo s pre L)).filter (fun x => decide (h ≤ x.1.height))).map Prod.snd := by
  induction L generalizing pre with
  | nil => rfl
  | cons p post ih =>
    rw [promGo, List.zip_cons_cons]
    by_cases hp : h ≤ p.height
    · have hd : decide (h ≤ p.height) = true := by simpa using hp
      rw [List.filter_cons_of_pos (by simpa using hp), promGo, promZ_filter s h pre p post hp,
        List.filter_cons_of_pos (by simpa using hp), List.map_cons, ← ih (pre ++ [p]),
        List.filter_append, List.filter_cons_of_pos (by simpa using hp), List.filter_nil]
    · rw [List.filter_cons_of_neg (by simpa using hp),
        List.filter_cons_of_neg (by simpa using hp), ← ih (pre ++ [p]),
        List.filter_append, List.filter_cons_of_neg (by simpa using hp), List.filter_nil,
        List.append_nil]

theorem promGo_location {K : Type} [LinearOrderedField K] (s : List K) (pre L : List (peak K)) :
    ∀ q ∈ promGo s pre L, ∃ p ∈ L, q.location = p.location := by
  induction L generalizing pre with
  | nil => intro q hq; simp [promGo] at hq
  | cons p post ih =>
    intro q hq
    rw [promGo, List.mem_cons] at hq
    rcases hq with hq | hq
    · exact ⟨p, List.mem_cons_self _ _, by rw [hq]; rfl⟩
    · obtain ⟨p2, hp2, e⟩ := ih (pre ++ [p]) q hq
      exact ⟨p2, List.mem_cons_of_mem _ hp2, e⟩

theorem filter_map_snd_filter {α β : Type} (Z : List (α × β)) (c1 : α × β → Bool)
    (c2 : β → Bool) :
    ((Z.filter c1).map Prod.snd).filter c2 =
      (Z.filter (fun x => c1 x && c2 x.2)).map Prod.snd := by
  induction Z with
  | nil => rfl
  | cons z rest ih =>
    by_cases h1 : c1 z = true
    · by_cases h2 : c2 z.2 = true
      · rw [List.filter_cons_of_pos h1, List.map_cons, List.filter_cons_of_pos h2,
          List.filter_cons_of_pos (by simp [h1, h2]), List.map_cons, ih]
      · rw [List.filter_cons_of_pos h1, List.map_cons, List.filter_cons_of_neg h2,
          List.filter_cons_of_neg (by simp [h1, h2]), ih]
    · rw [List.filter_cons_of_neg h1, List.filter_cons_of_neg (by simp [h1]), ih]

/-- The prominences among all the peaks and among the peaks of height at least
`mh`, on a spectrum on which `FindAllPeakLocations` returns. -/
theorem PeakProminence_filter {K : Type} [LinearOrderedField K] (s : List K) (mh : K)
    (all : List (peak K)) (hn : s.length ≤ 2 ^ 31) (hall : FindAllPeakLocations s = some all) :
    PeakProminence s all = some (promGo s [] all) ∧
    PeakProminence s (FilterPeakCriterion all mh) =
      some (((all.zip (promGo s [] all)).filter
        (fun x => decide (mh ≤ x.1.height))).map Prod.snd) := by
  obtain ⟨a1, a2, a3, -⟩ := FindAllPeakLocations_peaks s all hall (fun _ => true)
  have ht : all.filter (fun _ => true) = all := List.filter_eq_self.2 (fun _ _ => rfl)
  rw [ht] at a1 a2 a3
  have hpa := PeakProminence_spec s all hn a1 a2 a3
  rw [prominenceSpec_all] at hpa
  obtain ⟨b1, b2, b3, -⟩ :=
    FindAllPeakLocations_peaks s all hall (fun p => decide (mh ≤ p.height))
  have hpf := PeakProminence_spec s _ hn b1 b2 b3
  rw [prominenceSpec_all] at hpf
  refine ⟨hpa, ?_⟩
  rw [FilterPeakCriterion_eq_filter, hpf, ← promGo_filter s mh [] all]
  rfl

/-- C40: for every spectrum (of at most `2^31` samples) and every height
threshold `mh`, when `FindAllPeakLocations` returns the peaks `all`,
`PeakProminence` returns the prominences `pa` of all the peaks and `pf` of the
peaks kept by `FilterPeakCriterion(all, mh)`, and `pf` is `pa` without the
entries of the peaks of height below `mh`: every surviving peak has the same
prominence in both; hence `FindPeaks` returns what it would return with the
prominences computed first and both filters applied afterwards. -/
theorem C40_filter_order {K : Type} [LinearOrderedField K] (s : List K) (mp mh : K)
    (hn : s.length ≤ 2 ^ 31) :
    (∀ all, FindAllPeakLocations s = some all →
      ∃ pa pf, PeakProminence s all = some pa ∧ pa.length = all.length ∧
        PeakProminence s (FilterPeakCriterion all mh) = some pf ∧
        pf = ((all.zip pa).filter (fun x => decide (mh ≤ x.1.height))).map Prod.snd) ∧
    FindPeaks s mp mh = FindPeaksProminenceFirst s mp mh := by
  constructor
  · intro all hall
    obtain ⟨h1, h2⟩ := PeakProminence_filter s mh all hn hall
    exact ⟨_, _, h1, promGo_length s [] all, h2, rfl⟩
  · cases hall : FindAllPeakLocations s with
    | none =>
      unfold FindPeaks FindPeaksProminenceFirst
      rw [hall]
      rfl
    | some all =>
      obtain ⟨h1, -⟩ := PeakProminence_filter s mh all hn hall
      obtain ⟨-, hfp⟩ := FindPeaks_spec s mp mh all hn hall
      obtain ⟨-, a2, -, -⟩ := FindAllPeakLocations_peaks s all hall (fun _ => true)
      have ht : all.filter (fun _ => true) = all := List.filter_eq_self.2 (fun _ _ => rfl)
      rw [ht] at a2
      rw [hfp, prominenceSpec_all]
      unfold FindPeaksProminenceFirst
      rw [hall, Option.some_bind]
      by_cases he : all.isEmpty = true
      · rw [if_pos he]
        have hnil : all = [] := List.isEmpty_iff.1 he
        rw [hnil]
        rfl
      · rw [if_neg he, h1, Option.some_bind, peakHeights_spec]
        · have hgo := promGo_filter s mh [] all
          rw [List.filter_nil] at hgo
          rw [hgo, filter_map_snd_filter]
        · intro q hq
          obtain ⟨x, hx, rfl⟩ := List.mem_map.1 hq
          have hx2 := (List.mem_filter.1 hx).1
          have hx3 : x.2 ∈ promGo s [] all := (List.of_mem_zip hx2).2
          obtain ⟨p, hp, e⟩ := promGo_location s [] all x.2 hx3
          have := (a2 p hp).2
          omega

theorem C40_filter_order_witness :
    ([0, 41 / 5, 5, 7, 6, 31 / 5, 8, 0] : List ℚ).length ≤ 2 ^ 31 ∧
    FindPeaks ([0, 41 / 5, 5, 7, 6, 31 / 5, 8, 0] : List ℚ) 4 (15 / 2) =
      FindPeaksProminenceFirst ([0, 41 / 5, 5, 7, 6, 31 / 5, 8, 0] : List ℚ) 4 (15 / 2) ∧
    FindPeaks ([0, 41 / 5, 5, 7, 6, 31 / 5, 8, 0] : List ℚ) 4 (15 / 2) = some [⟨1, 41 / 5⟩] :=
  ⟨by norm_num,
    (C40_filter_order ([0, 41 / 5, 5, 7, 6, 31 / 5, 8, 0] : List ℚ) 4 (15 / 2)
      (by norm_num)).2, by decide!⟩

/-! ## A block with no coefficient outside band 0 -/

/-- `findMinInd` returns 0 when no later entry is below anything (an infinity or
a NaN). -/
theorem findMinInd_zero {K : Type} [LinearOrderedField K] (data : List (XReal K))
    (h : ∀ i, 1 ≤ i → ∀ y, (data.getD i .nan).lt y = false) : findMinInd data = 0 := by
  unfold findMinInd
  have key : ∀ (l : List Nat) (acc : XReal K × Nat), acc.2 = 0 →
      (l.foldl (fun (acc : XReal K × Nat) i =>
        if (data.getD i .nan).lt acc.1 then (data.getD i .nan, i) else acc) acc).2 = 0 := by
    intro l
    induction l with
    | nil => intro acc h0; exact h0
    | cons x xs ih =>
      intro acc h0
      rw [List.foldl_cons]
      apply ih
      by_cases hx : x = 0
      · subst hx
        split_ifs
        · rfl
        · exact h0
      · rw [h x (by omega) acc.1]
        exact h0
  exact key _ _ rfl

/-- The value of `MNR` for a band without noise is an infinity or a NaN. -/
theorem mnr_zero_noise {K : Type} [LinearOrderedField K] (log10 : K → K) (smr be : K)
    (y : XReal K) :
    (XReal.scaleSub smr (XReal.log10 log10 (XReal.div be 0))).lt y = false := by
  unfold XReal.div
  rw [if_pos rfl]
  split_ifs <;> cases y <;> rfl

/-- While only band 0 is in play, `findMinInd` selects band 0. -/
theorem allocIndex_band0 {K : Type} [LinearOrderedField K] (log10 : K → K) (e : Encoder)
    (SMR bandenergy : List K) (s : AllocState K) (h : Band0Inv e s) :
    allocIndex log10 e SMR bandenergy s = 0 := by
  obtain ⟨-, h2, h3, -⟩ := h
  unfold allocIndex
  apply findMinInd_zero
  intro i hi y
  by_cases hl : i < e.l_book
  · rw [List.getD_eq_getElem?_getD, List.getElem?_map, List.getElem?_range hl]
    simp only [Option.map_some', Option.getD_some]
    rw [if_neg (by rw [h2 i hi]; decide)]
    unfold updateNoise
    rw [List.getD_eq_getElem?_getD, List.getElem?_map, List.getElem?_range hl]
    simp only [Option.map_some', Option.getD_some]
    rw [h3 i hi]
    exact mnr_zero_noise log10 _ _ y
  · rw [List.getD_eq_getElem?_getD, List.getElem?_eq_none (by simp; omega)]
    cases y <;> rfl

theorem allocStep_noise {K : Type} [LinearOrderedField K] [FloorRing K] (log10 : K → K)
    (e : Encoder) (block_dwt SMR bandenergy : List K) (qwavmax : K) (bitbudget : Nat)
    (s : AllocState K) (b : Nat) (hb : b ≠ allocIndex log10 e SMR bandenergy s) :
    (allocStep log10 e block_dwt SMR bandenergy qwavmax bitbudget s).noiseenergy.getD b 0 =
      s.noiseenergy.getD b 0 := by
  unfold allocStep allocIndex at *
  simp only
  rw [getD_set_gen, if_neg (fun hx => hb hx.1)]
  split_ifs <;> rfl

/-- One pass of the allocation loop keeps `Band0Inv` as long as the clamp
branch cannot fire (`bitbudget <= MAX_BITS * dwtlevel`). -/
theorem allocStep_band0 {K : Type} [LinearOrderedField K] [FloorRing K] (log10 : K → K)
    (e : Encoder) (block_dwt SMR bandenergy : List K) (qwavmax : K) (bitbudget : Nat)
    (s : AllocState K) (hb : 0 < e.l_book) (hc : s.bitalloc_sum < bitbudget)
    (hcl : bitbudget ≤ MAX_BITS * e.dwtlevel) (h : Band0Inv e s) :
    Band0Inv e (allocStep log10 e block_dwt SMR bandenergy qwavmax bitbudget s) := by
  have hidx := allocIndex_band0 log10 e SMR bandenergy s h
  obtain ⟨h1, h2, h3, h4⟩ := h
  obtain ⟨a1, a2⟩ := allocStep_bitalloc log10 e block_dwt SMR bandenergy qwavmax bitbudget s
  have hnc : ¬ s.bitalloc_sum ≥ MAX_BITS * e.dwtlevel + s.bitalloc.getD (e.l_book - 1) 0 := by
    omega
  rw [if_neg hnc, hidx] at a1
  rw [if_neg hnc] at a2
  refine ⟨by rw [a1, List.length_set]; exact h1, ?_, ?_, ?_⟩
  · intro b hb1
    rw [a1, getD_set_gen, if_neg (fun hx => by omega)]
    exact h2 b hb1
  · intro b hb1
    rw [allocStep_noise log10 e block_dwt SMR bandenergy qwavmax bitbudget s b
      (by rw [hidx]; omega)]
    exact h3 b hb1
  · rw [a1, a2, getD_set_gen, if_pos ⟨rfl, by omega⟩, h4]

theorem allocLoop_band0 {K : Type} [LinearOrderedField K] [FloorRing K] (log10 : K → K)
    (e : Encoder) (block_dwt SMR bandenergy : List K) (qwavmax : K) (bitbudget : Nat)
    (hb : 0 < e.l_book) (hcl : bitbudget ≤ MAX_BITS * e.dwtlevel)
    (fuel : Nat) (s s' : AllocState K) (h : Band0Inv e s)
    (hl : allocLoop log10 e block_dwt SMR bandenergy qwavmax bitbudget fuel s = some s') :
    Band0Inv e s' := by
  induction fuel generalizing s with
  | zero =>
    unfold allocLoop at hl
    split_ifs at hl with hc
    simp only [Option.some.injEq] at hl
    subst hl; exact h
  | succ f ih =>
    unfold allocLoop at hl
    split_ifs at hl with hc
    · exact ih _ (allocStep_band0 log10 e block_dwt SMR bandenergy qwavmax bitbudget s hb hc
        hcl h) hl
    · simp only [Option.some.injEq] at hl
      subst hl; exact h

/-- A band in which the block and its quantised copy agree has no noise. -/
theorem bandNoise_zero {K : Type} [LinearOrderedField K] (block_dwt quant : List K)
    (start stop : Nat) (h : ∀ i, start ≤ i → block_dwt.getD i 0 = quant.getD i 0) :
    bandNoise block_dwt quant start stop = 0 := by
  unfold bandNoise
  have key : ∀ (l : List Nat), l.foldl
      (fun acc j => acc + (block_dwt.getD (start + j) 0 - quant.getD (start + j) 0) ^ 2)
      (0 : K) = 0 := by
    intro l
    induction l with
    | nil => rfl
    | cons x xs ih =>
      rw [List.foldl_cons, h (start + x) (by omega)]
      simpa using ih
  exact key _

/-- The allocation loop starts with `Band0Inv` on a block whose coefficients
outside band 0 are all 0. -/
theorem band0Inv_init {K : Type} [LinearOrderedField K] (e : Encoder) (block_dwt : List K)
    (hbook : BookOK e)
    (hdet : ∀ i, e.book_cumulative.getD 1 0 ≤ i → block_dwt.getD i 0 = 0) :
    Band0Inv e (allocInit e block_dwt) := by
  have hrep : ∀ (n i : Nat), (List.replicate n (0 : K)).getD i 0 = 0 := by
    intro n i
    rw [List.getD_eq_getElem?_getD, List.getElem?_replicate]
    split_ifs <;> rfl
  have hrepN : ∀ (n i : Nat), (List.replicate n (0 : Nat)).getD i 0 = 0 := by
    intro n i
    rw [List.getD_eq_getElem?_getD, List.getElem?_replicate]
    split_ifs <;> rfl
  unfold allocInit
  refine ⟨by simp, fun b _ => hrepN _ _, ?_, by simp [hrepN]⟩
  intro b hb1
  simp only
  by_cases hl : b < e.l_book
  · rw [List.getD_eq_getElem?_getD, List.getElem?_map, List.getElem?_range hl]
    simp only [Option.map_some', Option.getD_some]
    apply bandNoise_zero
    intro i hi
    rw [hrep, hdet i (le_trans (hbook.2 1 b hb1 (by omega)) hi)]
  · rw [List.getD_eq_getElem?_getD, List.getElem?_eq_none (by simp; omega)]
    rfl

/-- A block whose coefficients outside band 0 are all 0, with a budget `B` that
the clamp branch cannot reach: whatever `SMR`, `bandenergy` and `log10` are,
the allocation loop gives all `B` bits to band 0, so `bitmax = B`. -/
theorem quantizeBlock_band0 {K : Type} [LinearOrderedField K] [FloorRing K] (log10 : K → K)
    (bl fs maxChannels : Nat) (block_dwt SMR bandenergy : List K) (B : Nat)
    (hcl : B ≤ MAX_BITS * (ilog2 bl - 2))
    (hdet : ∀ i, bl >>> (ilog2 bl - 2) ≤ i → block_dwt.getD i 0 = 0) :
    ∃ q, quantizeBlock log10 (Encoder.new bl fs maxChannels) block_dwt SMR bandenergy B = some q ∧
      q.bitalloc.getD 0 0 = B ∧ (∀ b, 1 ≤ b → q.bitalloc.getD b 0 = 0) ∧ q.bitmax = B := by
  have hb : 0 < (Encoder.new bl fs maxChannels).l_book := Nat.succ_pos _
  obtain ⟨s, h1, h2⟩ := quantizeBlock_eq log10 (Encoder.new bl fs maxChannels) block_dwt SMR
    bandenergy B
  obtain ⟨-, j5⟩ := allocLoop_sumInv log10 _ block_dwt SMR bandenergy _ B hb B
    _ s (sumInv_init _ B block_dwt) h1
  have hc1 : (Encoder.new bl fs maxChannels).book_cumulative.getD 1 0 = bl >>> (ilog2 bl - 2) := by
    show ((0 : Nat) :: (List.range (ilog2 bl - 2 + 1)).map
      (fun i => (bl >>> (ilog2 bl - 2)) <<< i)).getD 1 0 = _
    rw [List.range_succ_eq_map]
    simp
  obtain ⟨z1, z2, z3, z4⟩ := allocLoop_band0 log10 (Encoder.new bl fs maxChannels) block_dwt SMR
    bandenergy _ B hb hcl B _ s
    (band0Inv_init _ block_dwt (bookOK_new bl fs maxChannels) (by rw [hc1]; exact hdet)) h1
  have h0 : s.bitalloc.getD 0 0 = B := by rw [← z4, j5]
  refine ⟨_, h2, h0, z2, ?_⟩
  show findMaxInt s.bitalloc = B
  apply le_antisymm
  · refine (findMaxInt_aux s.bitalloc 0).2.2 B (Nat.zero_le _) ?_
    intro x hx
    obtain ⟨i, hi, rfl⟩ := List.getElem_of_mem hx
    have hg : s.bitalloc.getD i 0 = s.bitalloc[i] := List.getD_eq_getElem _ _ hi
    rw [← hg]
    by_cases hi0 : i = 0
    · rw [hi0, h0]
    · rw [z2 i (by omega)]; exact Nat.zero_le _
  · rw [← h0]; exact findMaxInt_ge _ _

/-- `SPIHT_Enc::encode` replaces a `maxallocbits` above 15 by 15. -/
theorem SPIHT_Enc_encode_clamp (data : List Int) (level : Nat) (bitwavmax : List Bool)
    (outstream : List Bool) (context : List Nat) :
    SPIHT_Enc_encode data level bitwavmax (MAX_BITS + 1) outstream context =
      SPIHT_Enc_encode data level bitwavmax 15 outstream context := by
  unfold SPIHT_Enc_encode
  rfl

/-- One block that is not all zero through `encodeBlock` and the decoder when a
band holds `MAX_BITS + 1` bits and the payload fits the length field:
`SPIHT_Enc::encode` writes `maxallocbits = 15`, `losslessDecoding` returns the
encoder's `block_intquant` and `qwavmax` with `recbitmax = 15`, and
`decodeBlock` returns twice the encoder's `block_dwt_quant`. -/
theorem encodeBlock_clamped {K : Type} [LinearOrderedField K] [FloorRing K] (log10 : K → K)
    (BL fs maxChannels : Nat) (hBL : BL ∈ [32, 64, 128, 256, 512]) (cnt : Counters)
    (hk : CountersOK cnt) (block_dwt SMR bandenergy : List K) (bits : List Bool)
    (bitbudget : Nat) (hz : checkZeros block_dwt BL = false) :
    ∃ q r, quantizeBlock log10 (Encoder.new BL fs maxChannels) block_dwt SMR bandenergy bitbudget
        = some q ∧
      encodeBlock log10 (Encoder.new BL fs maxChannels) cnt block_dwt SMR bandenergy bits
        bitbudget = some r ∧
      r.block_dwt_quant = q.block_dwt_quant ∧
      (q.bitmax = MAX_BITS + 1 → r.payload.length ≤ 2 ^ encoderLengthbits BL - 1 →
        r.bitstream = bits ++ (de2bi r.payload.length [] (encoderLengthbits BL) ++ r.payload) ∧
        ∀ rest : List Bool, ∃ d : LosslessResult K,
          losslessDecoding BL (ilog2 BL - 2) (encoderLengthbits BL) cnt
            (de2bi r.payload.length [] (encoderLengthbits BL) ++ r.payload ++ rest) = some d ∧
          d.content = 1 ∧ d.sig_intquant = q.block_intquant ∧ d.recbitmax = MAX_BITS ∧
          d.recwavmax = q.qwavmax ∧ d.bitstream = rest ∧ d.cnt = r.cnt ∧
          decodeBlock BL (ilog2 BL - 2) (encoderLengthbits BL) cnt
            (de2bi r.payload.length [] (encoderLengthbits BL) ++ r.payload ++ rest)
            = some (q.block_dwt_quant.map (fun v => 2 * v), rest, r.cnt)) := by
  have hb : (Encoder.new BL fs maxChannels).bl = BL := rfl
  have hd : (Encoder.new BL fs maxChannels).dwtlevel = ilog2 BL - 2 := rfl
  have hlb : (Encoder.new BL fs maxChannels).lengthbits = encoderLengthbits BL := rfl
  have hpos := findMax_pos block_dwt BL hz
  obtain ⟨q, hq, q1, q2, q3, q4⟩ := quantizeBlock_spec log10 (Encoder.new BL fs maxChannels)
    block_dwt SMR bandenergy bitbudget
  obtain ⟨w1, w2, w3, w4⟩ := maximumWaveletCoefficient_spec block_dwt hpos
  rw [← q3, ← q4] at w4
  rw [← q3] at w1 w2
  obtain ⟨s, ctx, c1, c2, c3, ⟨bs, c4⟩, -⟩ :=
    @spiht_codec_frame K _ BL q.block_intquant q.bitwavmax q.bitmax hBL (by rw [q1, hb]) w1
  have hone : true ∈ s := by
    rw [c4]
    simp only [List.mem_append]
    exact Or.inl (Or.inr w2)
  obtain ⟨p, k, hp⟩ := ArithEnc_encode_isSome cnt s ctx hk hone c2 c3
  obtain ⟨p1, p2⟩ := ArithEnc_encode_out cnt s ctx p k hk hp
  have hle : losslessEncoding (Encoder.new BL fs maxChannels) cnt q.block_intquant q.bitwavmax
      q.bitmax bits = some ((lengthEncoding (encoderLengthbits BL) bits p).1 ++
        (lengthEncoding (encoderLengthbits BL) bits p).2, rescaleCounter k, p) := by
    unfold losslessEncoding
    rw [hd, c1]
    simp only
    rw [hp, hlb]
  refine ⟨q, ⟨q.block_dwt_quant, (lengthEncoding (encoderLengthbits BL) bits p).1 ++
    (lengthEncoding (encoderLengthbits BL) bits p).2, rescaleCounter k, p⟩, hq, ?_, rfl, ?_⟩
  · unfold encodeBlock
    rw [hb, hz, if_neg (by simp), hq]
    simp only
    rw [hle]
    rfl
  · simp only
    intro hN hfit
    obtain ⟨g1, g2, g3⟩ := quantizeBlock_grid log10 _ block_dwt SMR bandenergy bitbudget q hpos hq
      (by rw [hN]; decide)
    obtain ⟨l1, -⟩ := length_round (encoderLengthbits BL) bits p [] hfit
    refine ⟨by rw [l1]; simp, ?_⟩
    intro rest
    obtain ⟨-, l3⟩ := length_round (encoderLengthbits BL) bits p (p ++ rest) hfit
    -- the integers fit 16 bits
    have hmag : ∀ i, i < q.block_intquant.length →
        (q.block_intquant.getD i 0).natAbs < 2 * 2 ^ 15 := by
      intro i hi
      have hi2 : i < q.block_dwt_quant.length := by rw [q2, ← q1]; exact hi
      have hget : q.block_intquant.getD i 0 =
          cround (q.block_dwt_quant.getD i 0 * (((1 <<< q.bitmax : Nat) : K) / q.qwavmax)) := by
        rw [List.getD_eq_getElem?_getD, List.getD_eq_getElem?_getD,
          List.getElem?_eq_getElem hi, List.getElem?_eq_getElem hi2]
        simp only [Option.getD_some]
        simp only [g3, List.getElem_map]
      rw [hget]
      have hp : 2 ^ q.bitmax = 2 * 2 ^ 15 := by rw [hN]; decide
      exact lt_of_lt_of_eq (intquant_spec q.qwavmax q.bitmax _ g1 (g2 i)).1 hp
    obtain ⟨s', ctx', c1', -, -, -, c5'⟩ :=
      @spiht_codec_correct K _ BL q.block_intquant q.bitwavmax 15 hBL (by rw [q1, hb])
        (le_refl _) hmag w1
    rw [hN, SPIHT_Enc_encode_clamp, c1'] at c1
    simp only [Option.some.injEq, Prod.mk.injEq] at c1
    obtain ⟨rfl, rfl⟩ := c1
    obtain ⟨e, f1, f2⟩ := feeds_of_payload cnt s' ctx' p k hk c2 hp
    rw [← initDecoding_append cnt p rest] at f1
    obtain ⟨r, r1, r2, r3, r4, r5⟩ := c5' cnt (p ++ rest) 0 p.length (List.replicate BL 0) e
      (by simp) f1
    rw [w4] at r5
    have hld : (losslessDecoding BL (ilog2 BL - 2) (encoderLengthbits BL) cnt
        (de2bi p.length [] (encoderLengthbits BL) ++ p ++ rest) : Option (LosslessResult K))
        = some ⟨1, q.block_intquant, q.qwavmax / ((1 <<< 15 : Nat) : K), q.qwavmax,
            15, rest, rescaleCounter k⟩ := by
      unfold losslessDecoding
      rw [List.append_assoc, l3]
      simp only
      rw [if_pos p1, if_neg (by simp), r1]
      simp only [List.drop_left, r2, r3, r4, r5, f2]
    refine ⟨_, hld, rfl, rfl, rfl, rfl, rfl, rfl, ?_⟩
    unfold decodeBlock
    rw [hld]
    simp only [if_true]
    congr 1
    congr 1
    apply List.ext_getElem
    · simp [q2, hb]
    · intro i h1 h2
      have hi : i < BL := by simpa using h1
      have hi2 : i < q.block_intquant.length := by rw [q1, hb]; exact hi
      have hi3 : i < q.block_dwt_quant.length := by rw [q2, hb]; exact hi
      have hget : q.block_intquant.getD i 0 =
          cround (q.block_dwt_quant[i] * (((1 <<< q.bitmax : Nat) : K) / q.qwavmax)) := by
        rw [List.getD_eq_getElem?_getD, List.getElem?_eq_getElem hi2]
        simp only [Option.getD_some]
        simp only [g3, List.getElem_map]
      simp only [List.getElem_map, List.getElem_range]
      have hg := g2 i
      rw [List.getD_eq_getElem?_getD, List.getElem?_eq_getElem hi3] at hg
      simp only [Option.getD_some] at hg
      have hv := (intquant_spec q.qwavmax q.bitmax _ g1 hg).2
      rw [hget]
      generalize cround (q.block_dwt_quant[i] * (((1 <<< q.bitmax : Nat) : K) / q.qwavmax)) = c
        at hv
      rw [hN] at hv
      have e16 : (((1 <<< (MAX_BITS + 1) : Nat) : Nat) : K) = 65536 := by
        simp only [MAX_BITS, Nat.shiftLeft_eq]
        norm_num
      have e15 : (((1 <<< 15 : Nat) : Nat) : K) = 32768 := by
        simp only [Nat.shiftLeft_eq]
        norm_num
      rw [e16] at hv
      rw [e15, ← hv]
      ring

theorem blockOf_self {K : Type} [LinearOrderedField K] (sig : List K) (bl : Nat)
    (h : sig.length = bl) : blockOf sig bl 0 = sig := by
  unfold blockOf
  apply List.ext_getElem
  · simp [h]
  · intro i h1 h2
    simp only [List.getElem_map, List.getElem_range, Nat.zero_mul, Nat.zero_add]
    exact List.getD_eq_getElem _ _ h2

/-- C8 (the defect of C2 reached through `encodeMD`): one channel of one block
whose wavelet transform is not all zero and has no coefficient outside band 0,
encoded with the budget 16 by an encoder for up to `maxChannels >= 1` channels,
whatever `pm.getSMR` and `log10` return.  The bands 1 to `L` have no noise,
their `MNR` is infinite or NaN, and `findMinInd` selects band 0 in every pass:
`bitalloc = [16, 0, ..., 0]`, `bitmax = 16`.  `SPIHT_Enc::encode` writes
`maxallocbits = 15`, and when the payload fits the length field `decodeMD`
returns one channel that is `inv_DWT` of twice the quantised block the encoder
produced, leaving no bit. -/
theorem C8_zero_detail_block_scaled {K : Type} [LinearOrderedField K] [FloorRing K]
    (log10 : K → K) (getSMR : List K → pmResult K) (BL fs maxChannels : Nat)
    (hBL : BL ∈ [32, 64, 128, 256, 512]) (hmc : 1 ≤ maxChannels) (sig : List K)
    (hlen : sig.length = BL)
    (hz : checkZeros (DWT sig (ilog2 BL - 2)) BL = false)
    (hdet : ∀ i, BL >>> (ilog2 BL - 2) ≤ i → (DWT sig (ilog2 BL - 2)).getD i 0 = 0) :
    ∃ run r, encodeMDRun log10 getSMR (Encoder.new BL fs maxChannels) [sig] 16 = some run ∧
      run.blocks = [r] ∧
      (∃ q, quantizeBlock log10 (Encoder.new BL fs maxChannels) (DWT sig (ilog2 BL - 2))
          (getSMR sig).SMR (getSMR sig).bandenergy 16 = some q ∧
        q.bitalloc.getD 0 0 = 16 ∧ (∀ b, 1 ≤ b → q.bitalloc.getD b 0 = 0) ∧ q.bitmax = 16 ∧
        r.block_dwt_quant = q.block_dwt_quant) ∧
      (r.payload.length ≤ 2 ^ encoderLengthbits BL - 1 →
        (decodeMD (clog2 (maxChannels + 1)) run.bitstream : Option (List (List K) × List Bool))
          = some ([inv_DWT (r.block_dwt_quant.map (fun v => 2 * v)) (ilog2 BL - 2)], [])) := by
  obtain ⟨hL, hpow⟩ := bl_cases BL hBL
  have hpos : 0 < BL := by rw [hpow]; positivity
  have hb : (Encoder.new BL fs maxChannels).bl = BL := rfl
  have hd : (Encoder.new BL fs maxChannels).dwtlevel = ilog2 BL - 2 := rfl
  have hlk : (Encoder.new BL fs maxChannels).l_book = ilog2 BL - 2 + 1 := rfl
  have hcb : (Encoder.new BL fs maxChannels).channelbits = clog2 (maxChannels + 1) := rfl
  have hfs : (Encoder.new BL fs maxChannels).fs = fs := rfl
  -- the channel count
  obtain ⟨c1, c2⟩ := clog2_spec (maxChannels + 1)
  have hch : ¬ 1 > 2 ^ clog2 (maxChannels + 1) - 1 := by omega
  -- the block
  obtain ⟨f1, f2, v, -⟩ := fs_round fs (de2bi 1 [] (clog2 (maxChannels + 1))) []
  obtain ⟨g1, -, g3, g4⟩ := header_round BL hBL
    (fsEncode fs (de2bi 1 [] (clog2 (maxChannels + 1)))) []
  obtain ⟨q, r, e1, e2, e3, e4⟩ := encodeBlock_clamped log10 BL fs maxChannels hBL resetCounter
    countersOK_reset (DWT sig (ilog2 BL - 2)) (getSMR sig).SMR (getSMR sig).bandenergy
    (headerEncoding BL (fsEncode fs (de2bi 1 [] (clog2 (maxChannels + 1))))) 16 hz
  obtain ⟨q', b1, b2, b3, b4⟩ := quantizeBlock_band0 log10 BL fs maxChannels
    (DWT sig (ilog2 BL - 2)) (getSMR sig).SMR (getSMR sig).bandenergy 16
    (by simp only [MAX_BITS]; omega) hdet
  rw [e1] at b1
  simp only [Option.some.injEq] at b1
  subst b1
  refine ⟨⟨r.bitstream, r.cnt, [r]⟩, r, ?_, rfl, ⟨q, e1, b2, b3, b4, e3⟩, ?_⟩
  · unfold encodeMDRun
    have hbud : ¬ 16 > MAX_BITS * (Encoder.new BL fs maxChannels).l_book := by
      rw [hlk]; simp only [MAX_BITS]; omega
    have hn : (sig.length + (Encoder.new BL fs maxChannels).bl - 1)
        / (Encoder.new BL fs maxChannels).bl = 1 := by
      rw [hb, hlen]
      apply Nat.div_eq_of_lt_le <;> omega
    simp only [if_neg hbud, hn, hcb, List.length_singleton]
    unfold encodeChannels
    rw [if_neg hch]
    simp only [List.nil_append]
    rw [encodeMDLoop]
    simp only [List.map_cons, List.map_nil, hb, hd, hfs, blockOf_self sig BL hlen]
    rw [encodeMDChannels]
    simp only [hb]
    rw [e2]
    simp only [encodeMDChannels, encodeMDLoop, List.nil_append]
  · intro hfit
    obtain ⟨s1, s2⟩ := e4 (by rw [b4]; rfl) hfit
    obtain ⟨d, -, -, -, -, -, -, -, d8⟩ := s2 []
    simp only
    rw [s1, g1, f1]
    unfold decodeMD decodeChannels
    simp only [List.append_assoc]
    rw [bi2de_de2bi_aux _ _ _ _ (le_refl _), Nat.mod_eq_of_lt (by omega)]
    simp only [Option.map_some', List.drop_left' (de2bi_length _ _)]
    obtain ⟨_, _, v', hv'⟩ := fs_round fs []
      (headerEncoding BL [] ++ (de2bi r.payload.length [] (encoderLengthbits BL) ++ r.payload))
    rw [hv']
    simp only
    obtain ⟨-, h2, -, -⟩ := header_round BL hBL []
      (de2bi r.payload.length [] (encoderLengthbits BL) ++ r.payload)
    have hlen2 : (headerEncoding BL [] ++
        (de2bi r.payload.length [] (encoderLengthbits BL) ++ r.payload)).length > MIN_SIZE := by
      simp only [List.length_append, de2bi_length, MIN_SIZE]
      omega
    obtain ⟨f, hf⟩ : ∃ f, (headerEncoding BL [] ++
        (de2bi r.payload.length [] (encoderLengthbits BL) ++ r.payload)).length = f + 1 :=
      ⟨_, (Nat.succ_pred_eq_of_pos (by omega)).symm⟩
    unfold decodeMDLoop
    rw [if_pos hlen2, hf]
    simp only [decodeMDChannels, h2]
    rw [List.append_nil] at d8
    rw [d8]
    simp only [decodeMDChannels]
    unfold decodeMDLoop
    rw [if_neg (by simp [MIN_SIZE])]
    simp [writeBlock, e3]

theorem flatBlock_detail (i : Nat) (h : 4 ≤ i) : flatBlock.getD i 0 = 0 := by
  obtain ⟨j, rfl⟩ : ∃ j, i = 4 + j := ⟨i - 4, by omega⟩
  unfold flatBlock
  rw [List.getD_eq_getElem?_getD, List.getElem?_append_right (by simp)]
  simp only [List.length_replicate, Nat.add_sub_cancel_left, List.getElem?_replicate]
  split_ifs <;> rfl

theorem C8_zero_detail_block_scaled_witness :
    flatSignal.length = 32 ∧ DWT flatSignal 3 = flatBlock ∧
    checkZeros (DWT flatSignal (ilog2 32 - 2)) 32 = false ∧
    (∃ run r, encodeMDRun (fun x => x) samplePm (Encoder.new 32 8000 8) [flatSignal] 16
        = some run ∧
      run.blocks = [r] ∧
      (∃ q, quantizeBlock (fun x => x) (Encoder.new 32 8000 8) (DWT flatSignal (ilog2 32 - 2))
          (samplePm flatSignal).SMR (samplePm flatSignal).bandenergy 16 = some q ∧
        q.bitalloc.getD 0 0 = 16 ∧ (∀ b, 1 ≤ b → q.bitalloc.getD b 0 = 0) ∧ q.bitmax = 16 ∧
        r.block_dwt_quant = q.block_dwt_quant) ∧
      (r.payload.length ≤ 2 ^ encoderLengthbits 32 - 1 →
        (decodeMD (clog2 (8 + 1)) run.bitstream : Option (List (List ℚ) × List Bool))
          = some ([inv_DWT (r.block_dwt_quant.map (fun v => 2 * v)) (ilog2 32 - 2)], []))) ∧
    (quantizeBlock (fun x => x) (Encoder.new 32 8000 8) flatBlock [0, 0, 0, 0] [1, 1, 1, 1]
        16).map (fun q => (q.bitalloc, q.bitmax, q.qwavmax, q.block_intquant.take 5,
          q.block_dwt_quant.take 5))
      = some ([16, 0, 0, 0], 16, 5 / 16, [65193, 65193, 65193, 65193, 0],
          List.replicate 4 (325965 / 1048576) ++ [0]) ∧
    (encodeMDRun (fun x => x) samplePm (Encoder.new 32 8000 8) [flatSignal] 16).map
        (fun run => (run.bitstream.length, run.blocks.map (fun r => r.payload.length)))
      = some (147, [130]) ∧
    (encodeMDRun (fun x => x) samplePm (Encoder.new 32 8000 8) [flatSignal] 16).bind
        (fun run => (decodeMD 4 run.bitstream : Option (List (List ℚ) × List Bool)).map
          (fun d => (d.1.map (fun c => c.length), d.2,
            d.1 == run.blocks.map (fun r => inv_DWT r.block_dwt_quant 3),
            d.1 == run.blocks.map
              (fun r => inv_DWT (r.block_dwt_quant.map (fun v => 2 * v)) 3))))
      = some ([32], [], false, true) := by
  have hd : DWT flatSignal 3 = flatBlock := by decide!
  have hl : flatSignal.length = 32 := by decide!
  have hz : checkZeros (DWT flatSignal (ilog2 32 - 2)) 32 = false := by
    show checkZeros (DWT flatSignal 3) 32 = false
    rw [hd]
    decide!
  refine ⟨hl, hd, hz, C8_zero_detail_block_scaled (fun x : ℚ => x) samplePm 32 8000 8
    (by decide) (by decide) flatSignal hl hz ?_, by decide!, bind_obs2 _ _ _ _ _ _ ?_⟩
  · intro i hi
    show (DWT flatSignal 3).getD i 0 = 0
    rw [hd]
    exact flatBlock_detail i (le_trans (by decide) hi)
  · decide!

end VC_PWQ
